import Mathlib

/-!
# GentleSchema: a shallow embedding of the validation engine

The development follows `src/src/GentleSchema.js`.  JavaScript values are a
single universe `Val`; a schema definition, a normalised descriptor, an option
record and an input are all values, exactly as in the source.  Function values
are handles (`FnRef`); what a function does when it is applied, and the other
services of the JavaScript runtime the engine calls (`Number`, `String`,
`JSON.parse`, `RegExp.prototype.test`, the host constructors), are supplied by
a `Host` record that every engine function takes as its first argument.

Modelling conventions:
* numbers are the integers together with `NaN`;
* an object is the list of its own enumerable entries in insertion order, with
  a class tag standing for its prototype; keys of one object are distinct;
* inherited properties are not represented: reading a key that is not an own
  key gives `undefined`;
* values carry no heap identity: `===` on two arrays, objects or symbols is
  `false`, on two function handles it is equality of handles;
* the keys of an object are listed in insertion order (keys that look like
  integers are not moved to the front);
* the length of a string is its number of characters;
* functions and regular expressions are pure: applying them has no effect on
  later applications;
* the statistics counters and timers of `validate` are instrumentation and are
  left out; the two memo tables hold results of pure compile steps and are
  left out as well.
-/

namespace GentleSchema

/-! ## Values -/

/-- Function handles: the built-in constructors the engine compares against by
identity, and user functions, identified by a number and carrying their `name`. -/
inductive FnRef
  | jsNumber | jsString | jsBoolean | jsArray | jsObject | jsDate | jsRegExp | jsMap | jsSet
  | jsURL | jsBigInt | jsBuffer
  | user (id : Nat) (name : String)
  deriving DecidableEq, Repr

/-- The `name` property of a function. -/
def FnRef.name : FnRef → String
  | .jsNumber => "Number" | .jsString => "String" | .jsBoolean => "Boolean"
  | .jsArray => "Array" | .jsObject => "Object" | .jsDate => "Date" | .jsRegExp => "RegExp"
  | .jsMap => "Map" | .jsSet => "Set" | .jsURL => "URL" | .jsBigInt => "BigInt"
  | .jsBuffer => "Buffer"
  | .user _ n => n

/-- Class tag of a non-array object. -/
inductive Cls
  | plain | date | regexp (source : String) | map | set | url | buffer | inst (name : String)
  deriving DecidableEq, Repr

/-- JavaScript values. -/
inductive Val
  | undefined
  | null
  | bool (b : Bool)
  | num (n : Int)
  | nan
  | str (s : String)
  | bigint (n : Int)
  | symbol (id : Nat)
  | fn (f : FnRef)
  | arr (xs : List Val)
  | obj (cls : Cls) (kvs : List (String × Val))
  deriving Repr

instance : Inhabited Val := ⟨Val.undefined⟩

mutual
/-- Decidable equality of values. -/
def Val.decEq : (a b : Val) → Decidable (a = b)
  | .undefined, .undefined => isTrue rfl
  | .null, .null => isTrue rfl
  | .bool a, .bool b =>
    if h : a = b then isTrue (by rw [h]) else isFalse (by intro h2; injection h2; contradiction)
  | .num a, .num b =>
    if h : a = b then isTrue (by rw [h]) else isFalse (by intro h2; injection h2; contradiction)
  | .nan, .nan => isTrue rfl
  | .str a, .str b =>
    if h : a = b then isTrue (by rw [h]) else isFalse (by intro h2; injection h2; contradiction)
  | .bigint a, .bigint b =>
    if h : a = b then isTrue (by rw [h]) else isFalse (by intro h2; injection h2; contradiction)
  | .symbol a, .symbol b =>
    if h : a = b then isTrue (by rw [h]) else isFalse (by intro h2; injection h2; contradiction)
  | .fn a, .fn b =>
    if h : a = b then isTrue (by rw [h]) else isFalse (by intro h2; injection h2; contradiction)
  | .arr xs, .arr ys =>
    match Val.decEqList xs ys with
    | isTrue h => isTrue (by rw [h])
    | isFalse h => isFalse (by intro h2; injection h2; contradiction)
  | .obj c kvs, .obj d kws =>
    if h : c = d then
      match Val.decEqEntries kvs kws with
      | isTrue h1 => isTrue (by rw [h, h1])
      | isFalse h1 => isFalse (by intro h2; injection h2; contradiction)
    else isFalse (by intro h2; injection h2; contradiction)
  | .undefined, .null => isFalse (by intro h; cases h)
  | .undefined, .bool _ => isFalse (by intro h; cases h)
  | .undefined, .num _ => isFalse (by intro h; cases h)
  | .undefined, .nan => isFalse (by intro h; cases h)
  | .undefined, .str _ => isFalse (by intro h; cases h)
  | .undefined, .bigint _ => isFalse (by intro h; cases h)
  | .undefined, .symbol _ => isFalse (by intro h; cases h)
  | .undefined, .fn _ => isFalse (by intro h; cases h)
  | .undefined, .arr _ => isFalse (by intro h; cases h)
  | .undefined, .obj _ _ => isFalse (by intro h; cases h)
  | .null, .undefined => isFalse (by intro h; cases h)
  | .null, .bool _ => isFalse (by intro h; cases h)
  | .null, .num _ => isFalse (by intro h; cases h)
  | .null, .nan => isFalse (by intro h; cases h)
  | .null, .str _ => isFalse (by intro h; cases h)
  | .null, .bigint _ => isFalse (by intro h; cases h)
  | .null, .symbol _ => isFalse (by intro h; cases h)
  | .null, .fn _ => isFalse (by intro h; cases h)
  | .null, .arr _ => isFalse (by intro h; cases h)
  | .null, .obj _ _ => isFalse (by intro h; cases h)
  | .bool _, .undefined => isFalse (by intro h; cases h)
  | .bool _, .null => isFalse (by intro h; cases h)
  | .bool _, .num _ => isFalse (by intro h; cases h)
  | .bool _, .nan => isFalse (by intro h; cases h)
  | .bool _, .str _ => isFalse (by intro h; cases h)
  | .bool _, .bigint _ => isFalse (by intro h; cases h)
  | .bool _, .symbol _ => isFalse (by intro h; cases h)
  | .bool _, .fn _ => isFalse (by intro h; cases h)
  | .bool _, .arr _ => isFalse (by intro h; cases h)
  | .bool _, .obj _ _ => isFalse (by intro h; cases h)
  | .num _, .undefined => isFalse (by intro h; cases h)
  | .num _, .null => isFalse (by intro h; cases h)
  | .num _, .bool _ => isFalse (by intro h; cases h)
  | .num _, .nan => isFalse (by intro h; cases h)
  | .num _, .str _ => isFalse (by intro h; cases h)
  | .num _, .bigint _ => isFalse (by intro h; cases h)
  | .num _, .symbol _ => isFalse (by intro h; cases h)
  | .num _, .fn _ => isFalse (by intro h; cases h)
  | .num _, .arr _ => isFalse (by intro h; cases h)
  | .num _, .obj _ _ => isFalse (by intro h; cases h)
  | .nan, .undefined => isFalse (by intro h; cases h)
  | .nan, .null => isFalse (by intro h; cases h)
  | .nan, .bool _ => isFalse (by intro h; cases h)
  | .nan, .num _ => isFalse (by intro h; cases h)
  | .nan, .str _ => isFalse (by intro h; cases h)
  | .nan, .bigint _ => isFalse (by intro h; cases h)
  | .nan, .symbol _ => isFalse (by intro h; cases h)
  | .nan, .fn _ => isFalse (by intro h; cases h)
  | .nan, .arr _ => isFalse (by intro h; cases h)
  | .nan, .obj _ _ => isFalse (by intro h; cases h)
  | .str _, .undefined => isFalse (by intro h; cases h)
  | .str _, .null => isFalse (by intro h; cases h)
  | .str _, .bool _ => isFalse (by intro h; cases h)
  | .str _, .num _ => isFalse (by intro h; cases h)
  | .str _, .nan => isFalse (by intro h; cases h)
  | .str _, .bigint _ => isFalse (by intro h; cases h)
  | .str _, .symbol _ => isFalse (by intro h; cases h)
  | .str _, .fn _ => isFalse (by intro h; cases h)
  | .str _, .arr _ => isFalse (by intro h; cases h)
  | .str _, .obj _ _ => isFalse (by intro h; cases h)
  | .bigint _, .undefined => isFalse (by intro h; cases h)
  | .bigint _, .null => isFalse (by intro h; cases h)
  | .bigint _, .bool _ => isFalse (by intro h; cases h)
  | .bigint _, .num _ => isFalse (by intro h; cases h)
  | .bigint _, .nan => isFalse (by intro h; cases h)
  | .bigint _, .str _ => isFalse (by intro h; cases h)
  | .bigint _, .symbol _ => isFalse (by intro h; cases h)
  | .bigint _, .fn _ => isFalse (by intro h; cases h)
  | .bigint _, .arr _ => isFalse (by intro h; cases h)
  | .bigint _, .obj _ _ => isFalse (by intro h; cases h)
  | .symbol _, .undefined => isFalse (by intro h; cases h)
  | .symbol _, .null => isFalse (by intro h; cases h)
  | .symbol _, .bool _ => isFalse (by intro h; cases h)
  | .symbol _, .num _ => isFalse (by intro h; cases h)
  | .symbol _, .nan => isFalse (by intro h; cases h)
  | .symbol _, .str _ => isFalse (by intro h; cases h)
  | .symbol _, .bigint _ => isFalse (by intro h; cases h)
  | .symbol _, .fn _ => isFalse (by intro h; cases h)
  | .symbol _, .arr _ => isFalse (by intro h; cases h)
  | .symbol _, .obj _ _ => isFalse (by intro h; cases h)
  | .fn _, .undefined => isFalse (by intro h; cases h)
  | .fn _, .null => isFalse (by intro h; cases h)
  | .fn _, .bool _ => isFalse (by intro h; cases h)
  | .fn _, .num _ => isFalse (by intro h; cases h)
  | .fn _, .nan => isFalse (by intro h; cases h)
  | .fn _, .str _ => isFalse (by intro h; cases h)
  | .fn _, .bigint _ => isFalse (by intro h; cases h)
  | .fn _, .symbol _ => isFalse (by intro h; cases h)
  | .fn _, .arr _ => isFalse (by intro h; cases h)
  | .fn _, .obj _ _ => isFalse (by intro h; cases h)
  | .arr _, .undefined => isFalse (by intro h; cases h)
  | .arr _, .null => isFalse (by intro h; cases h)
  | .arr _, .bool _ => isFalse (by intro h; cases h)
  | .arr _, .num _ => isFalse (by intro h; cases h)
  | .arr _, .nan => isFalse (by intro h; cases h)
  | .arr _, .str _ => isFalse (by intro h; cases h)
  | .arr _, .bigint _ => isFalse (by intro h; cases h)
  | .arr _, .symbol _ => isFalse (by intro h; cases h)
  | .arr _, .fn _ => isFalse (by intro h; cases h)
  | .arr _, .obj _ _ => isFalse (by intro h; cases h)
  | .obj _ _, .undefined => isFalse (by intro h; cases h)
  | .obj _ _, .null => isFalse (by intro h; cases h)
  | .obj _ _, .bool _ => isFalse (by intro h; cases h)
  | .obj _ _, .num _ => isFalse (by intro h; cases h)
  | .obj _ _, .nan => isFalse (by intro h; cases h)
  | .obj _ _, .str _ => isFalse (by intro h; cases h)
  | .obj _ _, .bigint _ => isFalse (by intro h; cases h)
  | .obj _ _, .symbol _ => isFalse (by intro h; cases h)
  | .obj _ _, .fn _ => isFalse (by intro h; cases h)
  | .obj _ _, .arr _ => isFalse (by intro h; cases h)
/-- Decidable equality of lists of values. -/
def Val.decEqList : (a b : List Val) → Decidable (a = b)
  | [], [] => isTrue rfl
  | x :: xs, y :: ys =>
    match Val.decEq x y with
    | isTrue h =>
      (match Val.decEqList xs ys with
       | isTrue h1 => isTrue (by rw [h, h1])
       | isFalse h1 => isFalse (by intro h2; injection h2; contradiction))
    | isFalse h => isFalse (by intro h2; injection h2; contradiction)
  | [], _ :: _ => isFalse (by intro h; cases h)
  | _ :: _, [] => isFalse (by intro h; cases h)
/-- Decidable equality of entry lists. -/
def Val.decEqEntries : (a b : List (String × Val)) → Decidable (a = b)
  | [], [] => isTrue rfl
  | (k, x) :: xs, (l, y) :: ys =>
    if hk : k = l then
      match Val.decEq x y with
      | isTrue h =>
        (match Val.decEqEntries xs ys with
         | isTrue h1 => isTrue (by rw [hk, h, h1])
         | isFalse h1 => isFalse (by intro h2; injection h2; contradiction))
      | isFalse h => isFalse (by intro h2; injection h2 with h3 h4; injection h3; contradiction)
    else isFalse (by intro h2; injection h2 with h3 h4; injection h3; contradiction)
  | [], _ :: _ => isFalse (by intro h; cases h)
  | _ :: _, [] => isFalse (by intro h; cases h)
end

instance : DecidableEq Val := Val.decEq


/-- The `typeof` operator. -/
def typeOf : Val → String
  | .undefined => "undefined"
  | .null => "object"
  | .bool _ => "boolean"
  | .num _ => "number"
  | .nan => "number"
  | .str _ => "string"
  | .bigint _ => "bigint"
  | .symbol _ => "symbol"
  | .fn _ => "function"
  | .arr _ => "object"
  | .obj _ _ => "object"

/-- The test `Array.isArray(v)`. -/
def isArray : Val → Bool
  | .arr _ => true
  | _ => false

/-- Truthiness, as used by `if (v)`, `!!v`, `a || b`. -/
def truthy : Val → Bool
  | .undefined => false
  | .null => false
  | .bool b => b
  | .num n => n != 0
  | .nan => false
  | .str s => s != ""
  | .bigint n => n != 0
  | _ => true

/-- Strict equality `a === b`. -/
def strictEq : Val → Val → Bool
  | .undefined, .undefined => true
  | .null, .null => true
  | .bool a, .bool b => a == b
  | .num a, .num b => a == b
  | .str a, .str b => a == b
  | .bigint a, .bigint b => a == b
  | .fn a, .fn b => a == b
  | _, _ => false

/-- The source's `_isPlainObject`: non-null, `typeof` object, not an array. -/
def _isPlainObject : Val → Bool
  | .obj _ _ => true
  | _ => false

/-- The source's `_getType`. -/
def _getType (v : Val) : String :=
  match v with
  | .null => "null"
  | .arr _ => "array"
  | _ => typeOf v

/-- Own-property lookup in an entry list; `undefined` when the key is absent. -/
def lookupKey (k : String) : List (String × Val) → Val
  | [] => .undefined
  | (k2, v) :: rest => if k2 = k then v else lookupKey k rest

/-- The test `Object.prototype.hasOwnProperty.call(o, k)` on an entry list. -/
def hasKey (k : String) : List (String × Val) → Bool
  | [] => false
  | (k2, _) :: rest => if k2 = k then true else hasKey k rest

/-- Assignment `o[k] = v` on an entry list: an existing key keeps its place. -/
def setKey (k : String) (v : Val) : List (String × Val) → List (String × Val)
  | [] => [(k, v)]
  | (k2, v2) :: rest => if k2 = k then (k2, v) :: rest else (k2, v2) :: setKey k v rest

/-- The index a property key denotes on an array of length `n`, if any. -/
def indexOfKey (k : String) (n : Nat) : Option Nat :=
  (List.range n).find? (fun i => toString i = k)

/-- Property read `v[k]`. -/
def getProp (v : Val) (k : String) : Val :=
  match v with
  | .obj _ kvs => lookupKey k kvs
  | .arr xs =>
    if k = "length" then .num xs.length
    else match indexOfKey k xs.length with
      | some i => xs.getD i .undefined
      | none => .undefined
  | .str s =>
    if k = "length" then .num s.length
    else match indexOfKey k s.length with
      | some i => .str (String.singleton (s.toList.getD i ' '))
      | none => .undefined
  | .fn f => if k = "name" then .str f.name else .undefined
  | _ => .undefined

/-- The list `Object.keys(v)`. -/
def objectKeys : Val → List String
  | .obj _ kvs => kvs.map (fun kv => kv.1)
  | .arr xs => (List.range xs.length).map (fun i => toString i)
  | .str s => (List.range s.length).map (fun i => toString i)
  | _ => []

/-- The source's `_arrayPath`. -/
def _arrayPath (pfx : String) (index : Nat) : String :=
  if pfx ≠ "" then pfx ++ "[" ++ toString index ++ "]" else "[" ++ toString index ++ "]"

/-- An `Error` object with the given message. -/
def mkError (msg : String) : Val :=
  .obj (.inst "Error") [("message", .str msg)]

/-- A `TypeError` object with the given message. -/
def mkTypeError (msg : String) : Val :=
  .obj (.inst "TypeError") [("message", .str msg)]

/-! ## Errors, exceptions, options and the host -/

/-- An error entry `{ path, message, code, rawError }`. -/
structure Err where
  path : String
  message : String
  code : String
  rawError : Val
  deriving DecidableEq

/-- What a call can raise: a `ValidationError` carrying `errors` and
`partialValue`, or any other thrown value. -/
inductive Exn
  | validation (errors : List Err) (partialValue : Val)
  | other (e : Val)
  deriving DecidableEq

/-- Decidable equality of `Except` results. -/
instance instDecidableEqExcept {ε α : Type} [DecidableEq ε] [DecidableEq α] :
    DecidableEq (Except ε α)
  | .ok a, .ok b =>
    if h : a = b then isTrue (by rw [h]) else isFalse (by intro h2; injection h2; contradiction)
  | .error a, .error b =>
    if h : a = b then isTrue (by rw [h]) else isFalse (by intro h2; injection h2; contradiction)
  | .ok _, .error _ => isFalse (by intro h; cases h)
  | .error _, .ok _ => isFalse (by intro h; cases h)

/-- The merged option record a validation call works with (`opts`).  Flags are
read for truthiness only; `pathPrefix` is the empty string when not set
(an empty prefix is falsy in the source as well). -/
structure Options where
  failFast : Bool := false
  removeUnknown : Bool := false
  strict : Bool := false
  valueOnly : Bool := false
  coerceTypes : Bool := false
  removeEmpty : Bool := false
  nullable : Bool := false
  strictEnum : Bool := false
  strictType : Bool := false
  maxRegexLength : Option Int := some 1000
  pathPrefix : String := ""
  refs : Val := .undefined
  deriving DecidableEq

/-- The source's `DEFAULT_OPTIONS`. -/
def DEFAULT_OPTIONS : Options := {}

/-- The context a checker is called with: `{ path, options }`. -/
structure Ctx where
  path : String
  options : Options

/-- Services of the JavaScript runtime used by the engine. -/
structure Host where
  /-- Application `f(args)`: the returned value, or the thrown one. -/
  call : FnRef → List Val → Except Val Val
  /-- The conversion `Number(v)`: `none` is `NaN`; an error is a thrown value. -/
  toNumber : Val → Except Val (Option Int)
  /-- The conversion `String(v)`, also used by template literals. -/
  toStr : Val → String
  /-- The call `JSON.parse(s)`. -/
  jsonParse : String → Except Val Val
  /-- Rendering of one enum literal: `JSON.stringify(v)`, `String(v)` if that throws. -/
  enumLabel : Val → String
  /-- The call `re.test(s)` for a regular expression with the given source and
  neither the global nor the sticky flag: its result depends on the source and
  the string only.  A pattern with one of these flags also reads and writes its
  `lastIndex`; `regexTestS` is the call for such a pattern. -/
  regexTest : String → String → Bool
  /-- The call `re.toString()` for the regular expression with the given source. -/
  regexToString : String → String
  /-- The test `v instanceof C` for a user class `C`. -/
  instanceOfUser : Val → FnRef → Bool
  /-- The call `new Date(v)`; `none` when the date is invalid. -/
  newDate : Val → Option Val
  /-- Construction `new C(v)` or `C(v)` / `C.from(v)` for `Map`, `Set`, `URL`, `BigInt`,
  `Buffer`. -/
  construct : FnRef → Val → Except Val Val
  /-- The `SyntaxError` that `new RegExp(source)` throws, if any. -/
  regexSyntaxError : String → Option Val
  /-- Whether the global `URL` is defined. -/
  hasURL : Bool
  /-- Whether the global `Buffer` is defined. -/
  hasBuffer : Bool

/-- The conversion `String(v)`: fixed by the language for primitives, supplied
by the host for the other values. -/
def toStringJS (h : Host) (v : Val) : String :=
  match v with
  | .undefined => "undefined"
  | .null => "null"
  | .bool b => if b then "true" else "false"
  | .num n => toString n
  | .nan => "NaN"
  | .str s => s
  | w => h.toStr w

/-- The source's `_makeErrorObj`. -/
def _makeErrorObj (fieldName reason code : String) (rawErr : Val) : Err :=
  { path := fieldName
    message := "Invalid " ++ fieldName ++ " field. " ++ reason
    code := if code ≠ "" then code else "ERR_VALIDATION"
    rawError := if truthy rawErr then rawErr else .null }

/-- An error entry as a value. -/
def Err.toVal (e : Err) : Val :=
  .obj .plain [("path", .str e.path), ("message", .str e.message), ("code", .str e.code),
    ("rawError", e.rawError)]

/-- A `ValidationError` object, as seen by a `catch` clause. -/
def validationErrorVal (errors : List Err) (partialValue : Val) : Val :=
  .obj (.inst "ValidationError")
    [("name", .str "ValidationError"), ("message", .str "Validation failed"),
     ("errors", .arr (errors.map Err.toVal)), ("partialValue", partialValue)]

/-- The construction `new RegExp(source)`. -/
def newRegExp (h : Host) (source : String) : Except Val Val :=
  match h.regexSyntaxError source with
  | some e => .error e
  | none => .ok (.obj (.regexp source) [])

/-- The test `v instanceof C`. -/
def instanceOf (h : Host) (v : Val) (c : FnRef) : Bool :=
  match c with
  | .jsDate => (match v with | .obj .date _ => true | _ => false)
  | .jsRegExp => (match v with | .obj (.regexp _) _ => true | _ => false)
  | .jsMap => (match v with | .obj .map _ => true | _ => false)
  | .jsSet => (match v with | .obj .set _ => true | _ => false)
  | .jsURL => (match v with | .obj .url _ => true | _ => false)
  | .jsBuffer => (match v with | .obj .buffer _ => true | _ => false)
  | .jsArray => isArray v
  | .jsObject => (match v with | .obj _ _ => true | .arr _ => true | .fn _ => true | _ => false)
  | .jsNumber => false
  | .jsString => false
  | .jsBoolean => false
  | .jsBigInt => false
  | .user id n => h.instanceOfUser v (.user id n)

/-- The test `Buffer.isBuffer(v)`. -/
def isBuffer (v : Val) : Bool :=
  match v with
  | .obj .buffer _ => true
  | _ => false

/-- The `for` loop of `_enumMatch` over the elements of the enum array. -/
def _enumMatchLoop (h : Host) (v : Val) (strictEnum : Bool) : List Val → Bool
  | [] => false
  | e :: rest =>
    match e with
    | .fn f =>
      if strictEnum then _enumMatchLoop h v strictEnum rest
      else match h.call f [v] with
        | .ok r => if truthy r then true else _enumMatchLoop h v strictEnum rest
        | .error _ => _enumMatchLoop h v strictEnum rest
    | _ => if strictEq e v then true else _enumMatchLoop h v strictEnum rest

/-- The source's `_enumMatch`. -/
def _enumMatch (h : Host) (enumArr : Val) (v : Val) (strictEnum : Bool) : Bool :=
  match enumArr with
  | .arr xs => if xs.length = 0 then true else _enumMatchLoop h v strictEnum xs
  | _ => true

/-! ## Coercion and type matching -/

/-- The record `{ coercedValue, coerced, error }` returned by `_coerceToType`;
`error` is `undefined` when the key is not set. -/
structure Coerced where
  coercedValue : Val
  coerced : Bool
  error : Val := .undefined

/-- Result of a host construction inside `_coerceToType`: a throw is caught by
the enclosing `try` and reported as a failed coercion. -/
def coerceVia (val : Val) (res : Except Val Val) : Coerced :=
  match res with
  | .ok v => { coercedValue := v, coerced := true }
  | .error e => { coercedValue := val, coerced := false, error := e }

/-- A failed coercion with a fresh `Error(msg)`. -/
def coerceFail (val : Val) (msg : String) : Coerced :=
  { coercedValue := val, coerced := false, error := mkError msg }

/-- The branch of `_coerceToType` for a constructor `type`. -/
def coerceCtor (h : Host) (val : Val) (f : FnRef) : Coerced :=
  if f = .jsDate then
    if instanceOf h val .jsDate then { coercedValue := val, coerced := true }
    else if typeOf val = "string" ∨ typeOf val = "number" then
      match h.newDate val with
      | some d => { coercedValue := d, coerced := true }
      | none => coerceFail val "invalid Date"
    else coerceFail val "cannot coerce to Date"
  else if f = .jsRegExp then
    if instanceOf h val .jsRegExp then { coercedValue := val, coerced := true }
    else match val with
      | .str source => coerceVia val (newRegExp h source)
      | _ => coerceFail val "cannot coerce to RegExp"
  else if f = .jsMap then
    if instanceOf h val .jsMap then { coercedValue := val, coerced := true }
    else if _isPlainObject val then coerceVia val (h.construct .jsMap val)
    else if isArray val then coerceVia val (h.construct .jsMap val)
    else coerceFail val "cannot coerce to Map"
  else if f = .jsSet then
    if instanceOf h val .jsSet then { coercedValue := val, coerced := true }
    else if isArray val then coerceVia val (h.construct .jsSet val)
    else if _isPlainObject val then coerceVia val (h.construct .jsSet val)
    else coerceFail val "cannot coerce to Set"
  else if h.hasURL ∧ f = .jsURL then
    if instanceOf h val .jsURL then { coercedValue := val, coerced := true }
    else if typeOf val = "string" then coerceVia val (h.construct .jsURL val)
    else coerceFail val "cannot coerce to URL"
  else if f = .jsBigInt then
    if typeOf val = "bigint" then { coercedValue := val, coerced := true }
    else if typeOf val = "number" ∨ typeOf val = "string" then
      coerceVia val (h.construct .jsBigInt val)
    else coerceFail val "cannot coerce to BigInt"
  else if h.hasBuffer ∧ f = .jsBuffer then
    if isBuffer val then { coercedValue := val, coerced := true }
    else if typeOf val = "string" then coerceVia val (h.construct .jsBuffer val)
    else if isArray val then coerceVia val (h.construct .jsBuffer val)
    else coerceFail val "cannot coerce to Buffer"
  else if instanceOf h val f then { coercedValue := val, coerced := true }
  else coerceFail val "no safe coercion for constructor"

/-- The name `tname` computed at the top of `_coerceToType`. -/
def typeName (type : Val) : String :=
  match type with
  | .str s => s
  | .fn f => f.name
  | _ => ""

/-- The source's `_coerceToType`. -/
def _coerceToType (h : Host) (val : Val) (type : Val) : Coerced :=
  let tname := typeName type
  if tname = "number" ∨ strictEq type (.fn .jsNumber) then
    if typeOf val = "number" then { coercedValue := val, coerced := true }
    else if strictEq val (.str "") ∨ val matches .null ∨ val matches .undefined then
      coerceFail val "cannot coerce empty/null to number"
    else match h.toNumber val with
      | .error e => { coercedValue := val, coerced := false, error := e }
      | .ok (some n) => { coercedValue := .num n, coerced := true }
      | .ok none => coerceFail val "invalid number"
  else if tname = "string" ∨ strictEq type (.fn .jsString) then
    if typeOf val = "string" then { coercedValue := val, coerced := true }
    else { coercedValue := .str (toStringJS h val), coerced := true }
  else if tname = "boolean" ∨ strictEq type (.fn .jsBoolean) then
    if typeOf val = "boolean" then { coercedValue := val, coerced := true }
    else if strictEq val (.str "true") ∨ strictEq val (.str "1") ∨ strictEq val (.num 1) then
      { coercedValue := .bool true, coerced := true }
    else if strictEq val (.str "false") ∨ strictEq val (.str "0") ∨ strictEq val (.num 0) then
      { coercedValue := .bool false, coerced := true }
    else coerceFail val "invalid boolean"
  else if tname = "array" ∨ strictEq type (.fn .jsArray) then
    if isArray val then { coercedValue := val, coerced := true }
    else match val with
      | .str s =>
        (match h.jsonParse s with
         | .ok p =>
           if isArray p then { coercedValue := p, coerced := true }
           else coerceFail val "cannot coerce to array"
         | .error e => { coercedValue := val, coerced := false, error := e })
      | _ => coerceFail val "cannot coerce to array"
  else if tname = "object" ∨ strictEq type (.fn .jsObject) then
    if _isPlainObject val then { coercedValue := val, coerced := true }
    else match val with
      | .str s =>
        (match h.jsonParse s with
         | .ok p =>
           if _isPlainObject p then { coercedValue := p, coerced := true }
           else coerceFail val "cannot coerce to object"
         | .error e => { coercedValue := val, coerced := false, error := e })
      | _ => coerceFail val "cannot coerce to object"
  else match type with
    | .fn f => coerceCtor h val f
    | _ => coerceFail val "no coercion rule"

/-- The source's `_matchesType`. -/
def _matchesType (h : Host) (expectedType : Val) (value : Val) : Bool :=
  match expectedType with
  | .str t =>
    if t = "any" then true
    else if t = "date" then instanceOf h value .jsDate
    else if t = "regexp" ∨ t = "regex" then instanceOf h value .jsRegExp
    else if t = "map" then instanceOf h value .jsMap
    else if t = "set" then instanceOf h value .jsSet
    else if t = "url" then (if h.hasURL then instanceOf h value .jsURL else false)
    else if t = "bigint" then typeOf value = "bigint"
    else if t = "buffer" then (if h.hasBuffer then isBuffer value else false)
    else _getType value = t
  | .fn f =>
    if f = .jsDate then instanceOf h value .jsDate
    else if f = .jsRegExp then instanceOf h value .jsRegExp
    else if f = .jsMap then instanceOf h value .jsMap
    else if f = .jsSet then instanceOf h value .jsSet
    else if h.hasURL ∧ f = .jsURL then instanceOf h value .jsURL
    else if f = .jsBigInt then typeOf value = "bigint"
    else if h.hasBuffer ∧ f = .jsBuffer then isBuffer value
    else instanceOf h value f
  | _ => false

/-- The source's `_expectedLabelForType`. -/
def _expectedLabelForType (h : Host) (type : Val) : String :=
  match type with
  | .fn f => "a valid instance of the " ++ (if f.name ≠ "" then f.name else "Constructor") ++ " class"
  | t => "type " ++ toStringJS h t

/-! ## The checker compiler -/

/-- The constants `makeChecker` reads from a descriptor before it builds the
checker closure (`def` is spelled `deflt`).  `errorMessage` is `none` for the
source's `null`. -/
structure Rules where
  type : Val
  required : Bool
  nullable : Bool
  deflt : Val
  enumVals : Val
  regex : Val
  min : Val
  max : Val
  validator : Val
  coerceField : Bool
  strictType : Bool
  throwField : Bool
  errorMessage : Option String

/-- The reads at the top of `makeChecker`. -/
def readRules (entry : Val) : Rules :=
  { type := getProp entry "type"
    required := truthy (getProp entry "required")
    nullable := truthy (getProp entry "nullable")
    deflt := getProp entry "default"
    enumVals := getProp entry "enum"
    regex := getProp entry "regex"
    min := getProp entry "min"
    max := getProp entry "max"
    validator := getProp entry "validator"
    coerceField := truthy (getProp entry "coerce")
    strictType := truthy (getProp entry "strictType")
    throwField := truthy (getProp entry "throw")
    errorMessage := match getProp entry "errorMessage" with
      | .str m => some m
      | _ => none }

/-- The closure `makeErr` of `makeChecker`. -/
def makeErr (r : Rules) (path reason code : String) (raw : Val) : Err :=
  let reasonMessage := match r.errorMessage with
    | some m => if m ≠ "" then m else reason
    | none => reason
  { path := path
    message := "Invalid " ++ path ++ " field. " ++ reasonMessage
    code := if code ≠ "" then code else "ERR_VALIDATION"
    rawError := if truthy raw then raw else .null }

/-- What a checker call produces: `[errs, out]`, or a raised exception. -/
abbrev CheckResult := Except Exn (List Err × Val)

/-- A compiled checker. -/
abbrev Checker := Val → Ctx → CheckResult

/-- The recurring block `if (throwField) throw new ValidationError([e], p);
errs.push(e); return [errs, out];`. -/
def emit (r : Rules) (errs : List Err) (e : Err) (partialValue out : Val) : CheckResult :=
  if r.throwField then .error (.validation [e] partialValue) else .ok (errs ++ [e], out)

/-- The `catch (err)` clause around a validator call. -/
def validatorCatch (h : Host) (r : Rules) (errs : List Err) (out : Val) (path : String)
    (err : Val) : CheckResult :=
  emit r errs (makeErr r path (toStringJS h err) "ERR_CUSTOM" err) out out

/-- One rejection inside the validator `try` block with a single entry: with
`throw` set, the `ValidationError` raised there is caught by the enclosing
`catch`. -/
def validatorReject (h : Host) (r : Rules) (errs : List Err) (out : Val) (path : String)
    (e : Err) : CheckResult :=
  if r.throwField then validatorCatch h r errs out path (validationErrorVal [e] out)
  else .ok (errs ++ [e], out)

/-- One rejection inside the validator `try` block with a list of messages. -/
def validatorRejectMany (h : Host) (r : Rules) (errs : List Err) (out : Val) (path : String)
    (msgs : List Val) : CheckResult :=
  let errs2 := errs ++ msgs.map (fun m => makeErr r path (toStringJS h m) "ERR_CUSTOM" .null)
  if r.throwField then validatorCatch h r errs2 out path (validationErrorVal errs2 out)
  else .ok (errs2, out)

/-- The validator block (`try { const r = validator(out, { path }); ... } catch`),
which the source has twice with the same cases: in the validator-only step
(with `errs` empty) and after the structural checks. -/
def runValidator (h : Host) (r : Rules) (f : FnRef) (errs : List Err) (out : Val)
    (path : String) : CheckResult :=
  match h.call f [out, .obj .plain [("path", .str path)]] with
  | .error err => validatorCatch h r errs out path err
  | .ok rv =>
    if strictEq rv (.bool true) then .ok (errs, out)
    else if strictEq rv (.bool false) then
      validatorReject h r errs out path (makeErr r path "custom validator failed" "ERR_CUSTOM" .null)
    else match rv with
      | .str m => validatorReject h r errs out path (makeErr r path m "ERR_CUSTOM" .null)
      | .arr ms => if ms.length ≠ 0 then validatorRejectMany h r errs out path ms else .ok (errs, out)
      | .obj _ kvs =>
        if strictEq (lookupKey "valid" kvs) (.bool true) then .ok (errs, out)
        else match lookupKey "errors" kvs with
          | .arr ms => validatorRejectMany h r errs out path ms
          | _ => .ok (errs, out)
      | _ => .ok (errs, out)

/-- Step 10: the validator after the structural checks, then `return [errs, out]`. -/
def fromValidator (h : Host) (r : Rules) (errs : List Err) (out : Val) (ctx : Ctx) :
    CheckResult :=
  match r.validator with
  | .fn f => runValidator h r f errs out ctx.path
  | _ => .ok (errs, out)

/-- How one of the checker's loops ends: by a `return` / `throw` out of the
checker, or by running to its end with the loop variables it leaves. -/
inductive LoopOut (α : Type)
  | returned (res : CheckResult)
  | finished (errs : List Err) (acc : α)

/-- The loop over the elements of an array value (`itemsChecker`); the
accumulator is `(newArr, hadErr)`. -/
def itemsLoop (r : Rules) (itemsChecker : Checker) (path : String) (options : Options)
    (out : Val) : List Val → Nat → List Err → List Val → Bool → LoopOut (List Val × Bool)
  | [], _, errs, newArr, hadErr => .finished errs (newArr, hadErr)
  | x :: rest, i, errs, newArr, hadErr =>
    match itemsChecker x { path := _arrayPath path i, options := options } with
    | .error ex => .returned (.error ex)
    | .ok (childErrs, childVal) =>
      if childErrs.length ≠ 0 then
        if options.failFast then
          if r.throwField then .returned (.error (.validation (errs ++ childErrs) .undefined))
          else .returned (.ok (errs ++ childErrs, out))
        else itemsLoop r itemsChecker path options out rest (i + 1) (errs ++ childErrs) newArr true
      else itemsLoop r itemsChecker path options out rest (i + 1) errs (newArr ++ [childVal]) hadErr

/-- The path of a property: `path ? path + '.' + key : key`. -/
def childPathOf (path key : String) : String :=
  if path ≠ "" then path ++ "." ++ key else key

/-- The loop over the declared properties (`propertiesCheck`); the accumulator
is `nestedResult`. -/
def propsLoop (r : Rules) (path : String) (options : Options) (out : Val) :
    List (String × Checker) → List Err → List (String × Val) →
    LoopOut (List (String × Val))
  | [], errs, nestedResult => .finished errs nestedResult
  | (pk, ck) :: rest, errs, nestedResult =>
    match ck (getProp out pk) { path := childPathOf path pk, options := options } with
    | .error ex => .returned (.error ex)
    | .ok (childErrs, childVal) =>
      if childErrs.length ≠ 0 then
        if options.failFast then
          if r.throwField then .returned (.error (.validation (errs ++ childErrs) .undefined))
          else .returned (.ok (errs ++ childErrs, out))
        else propsLoop r path options out rest (errs ++ childErrs) nestedResult
      else propsLoop r path options out rest errs (setKey pk childVal nestedResult)

/-- The search `for (j ...) if (nk[j] === k2) { found = true; break; }`. -/
def foundIn (nk : List String) (k2 : String) : Bool :=
  nk.any (fun k => k == k2)

/-- The loop over `Object.keys(out)` in strict mode. -/
def strictUnknownLoop (r : Rules) (path : String) (options : Options) (out : Val)
    (nk : List String) : List String → List Err → LoopOut Unit
  | [], errs => .finished errs ()
  | k2 :: rest, errs =>
    if foundIn nk k2 then strictUnknownLoop r path options out nk rest errs
    else if options.removeUnknown then strictUnknownLoop r path options out nk rest errs
    else
      let e := makeErr r (childPathOf path k2) "unknown field" "ERR_UNKNOWN" .null
      if options.failFast then
        if r.throwField then .returned (.error (.validation (errs ++ [e]) .undefined))
        else .returned (.ok (errs ++ [e], out))
      else strictUnknownLoop r path options out nk rest (errs ++ [e])

/-- The loop over `Object.keys(out)` in lenient mode. -/
def lenientUnknownLoop (options : Options) (out : Val) (nk : List String) :
    List String → List (String × Val) → List (String × Val)
  | [], nestedResult => nestedResult
  | k2 :: rest, nestedResult =>
    if foundIn nk k2 then lenientUnknownLoop options out nk rest nestedResult
    else if options.removeUnknown then lenientUnknownLoop options out nk rest nestedResult
    else lenientUnknownLoop options out nk rest (setKey k2 (getProp out k2) nestedResult)

/-- Step 9, second half: a keyed value against `propertiesCheck`, then step 10. -/
def fromProps (h : Host) (r : Rules) (propertiesCheck : Option (List (String × Checker)))
    (errs : List Err) (out : Val) (ctx : Ctx) : CheckResult :=
  match propertiesCheck with
  | some props =>
    if _isPlainObject out then
      let nk := props.map (fun p => p.1)
      match propsLoop r ctx.path ctx.options out props errs [] with
      | .returned res => res
      | .finished errs1 nestedResult =>
        if ctx.options.strict then
          match strictUnknownLoop r ctx.path ctx.options out nk (objectKeys out) errs1 with
          | .returned res => res
          | .finished errs2 _ => fromValidator h r errs2 (.obj .plain nestedResult) ctx
        else
          fromValidator h r errs1
            (.obj .plain (lenientUnknownLoop ctx.options out nk (objectKeys out) nestedResult)) ctx
    else fromValidator h r errs out ctx
  | none => fromValidator h r errs out ctx

/-- Step 9, first half: an array value against `itemsChecker`, then the rest. -/
def fromItems (h : Host) (r : Rules) (itemsChecker : Option Checker)
    (propertiesCheck : Option (List (String × Checker))) (out : Val) (ctx : Ctx) :
    CheckResult :=
  match out, itemsChecker with
  | .arr xs, some ic =>
    (match itemsLoop r ic ctx.path ctx.options out xs 0 [] [] false with
     | .returned res => res
     | .finished errs (newArr, hadErr) =>
       fromProps h r propertiesCheck errs (if hadErr then out else .arr newArr) ctx)
  | _, _ => fromProps h r propertiesCheck [] out ctx

/-- The comparison `a < b` on two numbers (`false` when either is `NaN`). -/
def numLt : Val → Val → Bool
  | .num a, .num b => decide (a < b)
  | _, _ => false

/-- The `length` of a string or array value. -/
def lengthOf : Val → Val
  | .str s => .num s.length
  | .arr xs => .num xs.length
  | _ => .undefined

/-- Step 8: bounds, then the structural steps. -/
def fromBounds (h : Host) (r : Rules) (itemsChecker : Option Checker)
    (propertiesCheck : Option (List (String × Checker))) (out : Val) (ctx : Ctx) :
    CheckResult :=
  if typeOf out = "number" then
    if typeOf r.min = "number" ∧ numLt out r.min then
      emit r [] (makeErr r ctx.path ("must be >= " ++ toStringJS h r.min) "ERR_MIN" .null) out out
    else if typeOf r.max = "number" ∧ numLt r.max out then
      emit r [] (makeErr r ctx.path ("must be <= " ++ toStringJS h r.max) "ERR_MAX" .null) out out
    else fromItems h r itemsChecker propertiesCheck out ctx
  else if typeOf out = "string" ∨ isArray out then
    if typeOf r.min = "number" ∧ numLt (lengthOf out) r.min then
      emit r [] (makeErr r ctx.path ("length must be >= " ++ toStringJS h r.min) "ERR_MIN" .null)
        out out
    else if typeOf r.max = "number" ∧ numLt r.max (lengthOf out) then
      emit r [] (makeErr r ctx.path ("length must be <= " ++ toStringJS h r.max) "ERR_MAX" .null)
        out out
    else fromItems h r itemsChecker propertiesCheck out ctx
  else fromItems h r itemsChecker propertiesCheck out ctx

/-- Step 7: regex, then the later steps.  The test is that of a pattern without
the global and the sticky flag, which has no state; `fromRegexS` is the step
for a stored pattern of any kind, with the `lastIndex` it reads and writes. -/
def fromRegex (h : Host) (r : Rules) (itemsChecker : Option Checker)
    (propertiesCheck : Option (List (String × Checker))) (out : Val) (ctx : Ctx) :
    CheckResult :=
  if truthy r.regex then
    match r.regex with
    | .obj (.regexp source) _ =>
      (match out with
       | .str s =>
         if h.regexTest source s then fromBounds h r itemsChecker propertiesCheck out ctx
         else emit r [] (makeErr r ctx.path
           ("String should follow regex pattern " ++ h.regexToString source) "ERR_REGEX" .null)
           out out
       | _ => emit r [] (makeErr r ctx.path
           ("String should follow regex pattern " ++ h.regexToString source) "ERR_REGEX" .null)
           out out)
    | _ => emit r [] (makeErr r ctx.path "regex must be a RegExp instance" "ERR_REGEX" .null)
        out out
  else fromBounds h r itemsChecker propertiesCheck out ctx

/-- The text `friendly` listing the enum elements in an `ERR_ENUM` message. -/
def enumFriendly (h : Host) (enumVals : List Val) : String :=
  String.intercalate ", " (enumVals.map (fun v =>
    match v with
    | .fn f => "<fn:" ++ (if f.name ≠ "" then f.name else "anon") ++ ">"
    | w => h.enumLabel w))

/-- Step 6: enum, then the later steps. -/
def fromEnum (h : Host) (r : Rules) (itemsChecker : Option Checker)
    (propertiesCheck : Option (List (String × Checker))) (out : Val) (ctx : Ctx) :
    CheckResult :=
  match r.enumVals with
  | .arr es =>
    if es.length > 0 ∧ ¬ _enumMatch h r.enumVals out ctx.options.strictEnum then
      emit r [] (makeErr r ctx.path ("must be one of [" ++ enumFriendly h es ++ "]") "ERR_ENUM"
        .null) out out
    else fromRegex h r itemsChecker propertiesCheck out ctx
  | _ => fromRegex h r itemsChecker propertiesCheck out ctx

/-- Step 5: the type check, then the later steps. -/
def fromType (h : Host) (r : Rules) (itemsChecker : Option Checker)
    (propertiesCheck : Option (List (String × Checker))) (out : Val) (ctx : Ctx) :
    CheckResult :=
  if typeOf r.type ≠ "undefined" ∧ ¬ strictEq r.type (.str "any") ∧ ¬ _matchesType h r.type out then
    let e := makeErr r ctx.path
      ("expected " ++ _expectedLabelForType h r.type ++ ", received " ++ _getType out)
      "ERR_TYPE" .null
    if r.strictType ∨ ctx.options.strictType then emit r [] e out out
    else emit r [] e out out
  else fromEnum h r itemsChecker propertiesCheck out ctx

/-- The test `['number', 'string', 'boolean', 'array', 'object'].indexOf(type) !== -1`
for a string `type`. -/
def isCorePrimitive (type : Val) : Bool :=
  match type with
  | .str t => ["number", "string", "boolean", "array", "object"].contains t
  | _ => false

/-- Step 4: coercion, then the later steps. -/
def fromCoerce (h : Host) (r : Rules) (itemsChecker : Option Checker)
    (propertiesCheck : Option (List (String × Checker))) (out : Val) (ctx : Ctx) :
    CheckResult :=
  if (r.coerceField ∨ ctx.options.coerceTypes) ∧ typeOf r.type ≠ "undefined" then
    let c := _coerceToType h out r.type
    if c.coerced then fromType h r itemsChecker propertiesCheck c.coercedValue ctx
    else if isCorePrimitive r.type then
      emit r [] (makeErr r ctx.path
        ("coercion failed (" ++
          (if truthy c.error then toStringJS h (getProp c.error "message") else "unknown") ++ ")")
        "ERR_COERCE" (if truthy c.error then c.error else .null)) out out
    else fromType h r itemsChecker propertiesCheck out ctx
  else fromType h r itemsChecker propertiesCheck out ctx

/-- Step 3: the validator-only shortcut, else the later steps. -/
def fromValidatorOnly (h : Host) (r : Rules) (itemsChecker : Option Checker)
    (propertiesCheck : Option (List (String × Checker))) (out : Val) (ctx : Ctx) :
    CheckResult :=
  match r.validator with
  | .fn f =>
    if typeOf r.type = "undefined" then runValidator h r f [] out ctx.path
    else fromCoerce h r itemsChecker propertiesCheck out ctx
  | _ => fromCoerce h r itemsChecker propertiesCheck out ctx

/-- Step 2: null, else the later steps. -/
def fromNull (h : Host) (r : Rules) (itemsChecker : Option Checker)
    (propertiesCheck : Option (List (String × Checker))) (out : Val) (ctx : Ctx) :
    CheckResult :=
  if out matches .null then
    if r.nullable ∨ ctx.options.nullable ∨ strictEq r.type (.str "null") then .ok ([], out)
    else emit r [] (makeErr r ctx.path "must not be null" "ERR_NULL" .null) .undefined out
  else fromValidatorOnly h r itemsChecker propertiesCheck out ctx

/-- The closure `checker` returned by `makeChecker`, with the closure constants
as parameters. -/
def checker (h : Host) (r : Rules) (itemsChecker : Option Checker)
    (propertiesCheck : Option (List (String × Checker))) : Checker :=
  fun value ctx =>
    if typeOf value = "undefined" then
      if typeOf r.deflt ≠ "undefined" then
        match r.deflt with
        | .fn f =>
          (match h.call f [] with
           | .ok v => fromNull h r itemsChecker propertiesCheck v ctx
           | .error e => .error (.other e))
        | d => fromNull h r itemsChecker propertiesCheck d ctx
      else if r.required then
        emit r [] (makeErr r ctx.path "is required" "ERR_REQUIRED" .null) .undefined value
      else .ok ([], value)
    else fromNull h r itemsChecker propertiesCheck value ctx

/-- The `TypeError` of reading a property of `undefined` or `null`. -/
def readOfNullish : Exn :=
  .other (mkTypeError "Cannot read properties of undefined")

mutual
/-- The source's `makeChecker(fieldName, entry, globalOptions)`.  The checker it
returns uses neither `fieldName` nor `globalOptions`, so only `entry` is a
parameter.  Reading `entry.type` of an `undefined` or `null` entry raises a
`TypeError`. -/
def makeChecker (h : Host) : Val → Except Exn Checker
  | .undefined => .error readOfNullish
  | .null => .error readOfNullish
  | .obj cls kvs =>
    match makeItems h kvs with
    | .error e => .error e
    | .ok itemsChecker =>
      match makeProperties h kvs with
      | .error e => .error e
      | .ok propertiesCheck =>
        .ok (checker h (readRules (.obj cls kvs)) itemsChecker propertiesCheck)
  | v => .ok (checker h (readRules v) none none)
/-- The statement `if (items) itemsChecker = makeChecker(..., items, ...)`, where
`items` is the value of the own key `items` of the entry. -/
def makeItems (h : Host) : List (String × Val) → Except Exn (Option Checker)
  | [] => .ok none
  | (k, v) :: rest =>
    if k = "items" then
      if truthy v then
        match makeChecker h v with
        | .ok c => .ok (some c)
        | .error e => .error e
      else .ok none
    else makeItems h rest
/-- The block `if (properties) { ... propertiesCheck = { keys, props } }`, where
`properties` is the value of the own key `properties` of the entry. -/
def makeProperties (h : Host) :
    List (String × Val) → Except Exn (Option (List (String × Checker)))
  | [] => .ok none
  | (k, v) :: rest =>
    if k = "properties" then
      if truthy v then
        match v with
        | .obj _ pkvs =>
          (match makePropsOfEntries h pkvs with
           | .ok ps => .ok (some ps)
           | .error e => .error e)
        | .arr xs =>
          (match makePropsOfArray h xs 0 with
           | .ok ps => .ok (some ps)
           | .error e => .error e)
        | w => .ok (some ((objectKeys w).map (fun pk =>
            (pk, checker h (readRules (getProp w pk)) none none))))
      else .ok none
    else makeProperties h rest
/-- The loop `props[pk] = makeChecker(pk, properties[pk], ...)` over the keys of
an object. -/
def makePropsOfEntries (h : Host) :
    List (String × Val) → Except Exn (List (String × Checker))
  | [] => .ok []
  | (pk, v) :: rest =>
    match makeChecker h v with
    | .error e => .error e
    | .ok c =>
      match makePropsOfEntries h rest with
      | .error e => .error e
      | .ok cs => .ok ((pk, c) :: cs)
/-- The same loop over the index keys of an array. -/
def makePropsOfArray (h : Host) : List Val → Nat → Except Exn (List (String × Checker))
  | [], _ => .ok []
  | v :: rest, i =>
    match makeChecker h v with
    | .error e => .error e
    | .ok c =>
      match makePropsOfArray h rest (i + 1) with
      | .error e => .error e
      | .ok cs => .ok ((toString i, c) :: cs)
end

/-- Value of a string of decimal digits read left to right; `none` if some
character is not a digit. -/
def digitsValue : List Char → Nat → Option Nat
  | [], acc => some acc
  | c :: cs, acc =>
    if c.isDigit then digitsValue cs (acc * 10 + (c.toNat - 48)) else none

/-- Decimal numerals with an optional minus sign, as `Number` reads them. -/
def decimalNumeral (s : String) : Option Int :=
  match s.toList with
  | [] => none
  | '-' :: c :: cs => (digitsValue (c :: cs) 0).map (fun n => - (n : Int))
  | cs => (digitsValue cs 0).map (fun n => (n : Int))

/-- A host for examples: no user function is defined (a call returns
`undefined`), `Number` reads decimal numerals, regular expressions accept
every string. -/
def exampleHost : Host :=
  { call := fun _ _ => .ok .undefined
    toNumber := fun v => match v with
      | .str s => .ok (decimalNumeral s)
      | .bool b => .ok (some (if b then 1 else 0))
      | .num n => .ok (some n)
      | _ => .ok none
    toStr := fun _ => "[object Object]"
    jsonParse := fun _ => .error (mkError "Unexpected token")
    enumLabel := fun v => match v with
      | .num n => toString n
      | .str s => "\"" ++ s ++ "\""
      | _ => "null"
    regexTest := fun _ _ => true
    regexToString := fun src => "/" ++ src ++ "/"
    instanceOfUser := fun _ _ => false
    newDate := fun _ => none
    construct := fun _ v => .ok v
    regexSyntaxError := fun _ => none
    hasURL := true
    hasBuffer := true }

/-! ## Normalisation of raw definitions -/

/-- A `SchemaError` object carrying the given entries. -/
def schemaErrorVal (errors : List Val) : Val :=
  .obj (.inst "SchemaError")
    [("name", .str "SchemaError"), ("message", .str "Schema error"), ("errors", .arr errors)]

/-- The keys `normalizeEntry` does not copy verbatim (its table `skip`). -/
def skipKeys : List String :=
  ["type", "required", "nullable", "default", "validator", "coerce", "forceType", "strictType",
   "enum", "items", "properties", "regex", "min", "max", "throw", "errorMessage", "$ref"]

/-- The statement `if (k in raw) out[k] = f(raw[k])` on entry lists. -/
def copyKey (raw : List (String × Val)) (k : String) (f : Val → Val)
    (out : List (String × Val)) : List (String × Val) :=
  if hasKey k raw then setKey k (f (lookupKey k raw)) out else out

/-- The conversion `!!v` as a value. -/
def toBool (v : Val) : Val := .bool (truthy v)

/-- The `regex` block of `normalizeEntry`: the value to store under `regex`, if any. -/
def normalizeRegex (h : Host) (maxRegexLength : Option Int) (raw : List (String × Val))
    (keyName pathForRegex : String) : Except Exn (Option Val) :=
  if hasKey "regex" raw then
    match lookupKey "regex" raw with
    | .obj (.regexp source) kvs => .ok (some (.obj (.regexp source) kvs))
    | .str source =>
      if source.length ≠ 0 then
        match maxRegexLength with
        | some m =>
          if (source.length : Int) > m then
            .error (.other (schemaErrorVal [.obj .plain
              [("path", .str (if pathForRegex ≠ "" then pathForRegex else keyName)),
               ("message", .str ("Regex string too long (" ++ toString source.length ++ " > "
                  ++ toString m ++ "). Pass a RegExp instance instead.")),
               ("code", .str "ERR_REGEX_TOO_LONG")]]))
          else (match newRegExp h source with
            | .ok re => .ok (some re)
            | .error e => .error (.other e))
        | none => (match newRegExp h source with
            | .ok re => .ok (some re)
            | .error e => .error (.other e))
      else .ok none
    | _ => .ok none
  else .ok none

/-- Assembly of the descriptor `out` of `normalizeEntry` for an object `raw`,
given the already normalised `items`, `properties` and `regex`. -/
def assembleEntry (raw : List (String × Val)) (items : Option Val) (props : Option Val)
    (regex : Option Val) : Val :=
  let out : List (String × Val) := []
  let out := copyKey raw "type" id out
  let out := copyKey raw "required" toBool out
  let out := copyKey raw "nullable" toBool out
  let out := copyKey raw "default" id out
  let out := copyKey raw "validator" id out
  let out := copyKey raw "coerce" toBool out
  let out := setKey "strictType"
    (.bool (truthy (lookupKey "forceType" raw) || truthy (lookupKey "strictType" raw))) out
  let out := copyKey raw "enum" id out
  let out := match items with
    | some i => setKey "items" i out
    | none => out
  let out := match props with
    | some ps => setKey "properties" ps out
    | none => out
  let out := match regex with
    | some re => setKey "regex" re out
    | none => out
  let out := copyKey raw "min" id out
  let out := copyKey raw "max" id out
  let out := copyKey raw "throw" toBool out
  let out := copyKey raw "errorMessage" id out
  let out := (raw.filter (fun kv => ! skipKeys.contains kv.1)).foldl
    (fun acc kv => setKey kv.1 kv.2 acc) out
  .obj .plain out

/-- The path handed down for a nested slot. -/
def nestedPath (keyName pathForRegex suffix : String) : String :=
  if pathForRegex ≠ "" then pathForRegex ++ suffix else keyName ++ suffix

/-- The call `Object.assign(target, src)` on an entry list. -/
def objectAssign (target : List (String × Val)) (src : Val) : List (String × Val) :=
  (objectKeys src).foldl (fun acc k => setKey k (getProp src k) acc) target

/-- The placeholder `{ __isRef: true, $ref: name }`. -/
def refPlaceholder (name : String) : Val :=
  .obj .plain [("__isRef", .bool true), ("$ref", .str name)]

mutual
/-- The source's `normalizeEntry(raw, opts, keyName, pathForRegex)`; of `opts`
only `maxRegexLength` is read. -/
def normalizeEntry (h : Host) (maxRegexLength : Option Int) :
    Val → String → String → Except Exn Val
  | .str t, _, _ => .ok (.obj .plain [("type", .str t)])
  | .fn f, _, _ => .ok (.obj .plain [("validator", .fn f)])
  | .arr [], _, _ => .ok (.obj .plain [("validator", .undefined)])
  | .arr (a :: rest), keyName, pathForRegex =>
    (match normalizeEntry h maxRegexLength a keyName pathForRegex with
     | .error e => .error e
     | .ok base =>
       if _isPlainObject (rest.headD .undefined) then
         .ok (.obj .plain (objectAssign (objectAssign [] base) (rest.headD .undefined)))
       else .ok base)
  | .obj _ kvs, keyName, pathForRegex =>
    (match lookupKey "$ref" kvs with
     | .str name => .ok (refPlaceholder name)
     | _ =>
       match normalizeItems h maxRegexLength keyName pathForRegex kvs with
       | .error e => .error e
       | .ok items =>
         match normalizeProperties h maxRegexLength keyName pathForRegex kvs with
         | .error e => .error e
         | .ok props =>
           match normalizeRegex h maxRegexLength kvs keyName pathForRegex with
           | .error e => .error e
           | .ok regex => .ok (assembleEntry kvs items props regex))
  | raw, _, _ => .ok (.obj .plain [("validator", raw)])
/-- The statement `if ('items' in raw) out.items = normalizeEntry(raw.items, ...)`. -/
def normalizeItems (h : Host) (maxRegexLength : Option Int) (keyName pathForRegex : String) :
    List (String × Val) → Except Exn (Option Val)
  | [] => .ok none
  | (k, v) :: rest =>
    if k = "items" then
      match normalizeEntry h maxRegexLength v keyName (nestedPath keyName pathForRegex ".items") with
      | .ok n => .ok (some n)
      | .error e => .error e
    else normalizeItems h maxRegexLength keyName pathForRegex rest
/-- The block `if ('properties' in raw) { ... out.properties = props }`. -/
def normalizeProperties (h : Host) (maxRegexLength : Option Int) (keyName pathForRegex : String) :
    List (String × Val) → Except Exn (Option Val)
  | [] => .ok none
  | (k, v) :: rest =>
    if k = "properties" then
      if truthy v then
        match v with
        | .obj _ pkvs =>
          (match normalizePropsOfEntries h maxRegexLength keyName pathForRegex pkvs with
           | .ok ps => .ok (some (.obj .plain ps))
           | .error e => .error e)
        | .arr xs =>
          (match normalizePropsOfArray h maxRegexLength keyName pathForRegex xs 0 with
           | .ok ps => .ok (some (.obj .plain ps))
           | .error e => .error e)
        | w => .ok (some (.obj .plain ((objectKeys w).map (fun pk =>
            (pk, .obj .plain [("type", getProp w pk)])))))
      else .ok (some (.obj .plain []))
    else normalizeProperties h maxRegexLength keyName pathForRegex rest
/-- The loop `props[pk] = normalizeEntry(raw.properties[pk], opts, pk, ...)` over
the keys of an object. -/
def normalizePropsOfEntries (h : Host) (maxRegexLength : Option Int)
    (keyName pathForRegex : String) : List (String × Val) → Except Exn (List (String × Val))
  | [] => .ok []
  | (pk, v) :: rest =>
    match normalizeEntry h maxRegexLength v pk
        (nestedPath keyName pathForRegex (".properties." ++ pk)) with
    | .error e => .error e
    | .ok n =>
      match normalizePropsOfEntries h maxRegexLength keyName pathForRegex rest with
      | .error e => .error e
      | .ok ns => .ok ((pk, n) :: ns)
/-- The same loop over the index keys of an array. -/
def normalizePropsOfArray (h : Host) (maxRegexLength : Option Int)
    (keyName pathForRegex : String) : List Val → Nat → Except Exn (List (String × Val))
  | [], _ => .ok []
  | v :: rest, i =>
    match normalizeEntry h maxRegexLength v (toString i)
        (nestedPath keyName pathForRegex (".properties." ++ toString i)) with
    | .error e => .error e
    | .ok n =>
      match normalizePropsOfArray h maxRegexLength keyName pathForRegex rest (i + 1) with
      | .error e => .error e
      | .ok ns => .ok ((toString i, n) :: ns)
end

/-- The source's `normalizeSchema`, loop body: the descriptor stored for one
top-level key (`resolveEntry`, then the five defaults). -/
def normalizeTopEntry (h : Host) (maxRegexLength : Option Int) (raw : Val) (k : String) :
    Except Exn Val :=
  match normalizeEntry h maxRegexLength raw k k with
  | .error e => .error e
  | .ok n =>
    let out := objectAssign [] n
    let out := if hasKey "required" out then out else setKey "required" (.bool false) out
    let out := if hasKey "nullable" out then out else setKey "nullable" .undefined out
    let out := if hasKey "coerce" out then out else setKey "coerce" .undefined out
    let out := if hasKey "strictType" out then out else setKey "strictType" .undefined out
    let out := if hasKey "throw" out then out else setKey "throw" .undefined out
    .ok (.obj .plain out)

/-- The source's `normalizeSchema`, main loop over the keys of `schemaDef`. -/
def normalizeSchemaLoop (h : Host) (maxRegexLength : Option Int) :
    List (String × Val) → Except Exn (List (String × Val))
  | [] => .ok []
  | (k, raw) :: rest =>
    if k = "$defs" then normalizeSchemaLoop h maxRegexLength rest
    else match normalizeTopEntry h maxRegexLength raw k with
      | .error e => .error e
      | .ok n =>
        match normalizeSchemaLoop h maxRegexLength rest with
        | .error e => .error e
        | .ok ns => .ok ((k, n) :: ns)

/-- The `localDefs` part of `normalizeSchema`. -/
def localDefsOf (schemaDef : List (String × Val)) : List (String × Val) :=
  match lookupKey "$defs" schemaDef with
  | .obj _ defs => defs
  | _ => []

mutual
/-- The source's `_shallowCloneSchema`. -/
def _shallowCloneSchema : Val → Val
  | .arr xs => .arr (cloneList xs)
  | .obj _ kvs => .obj .plain (cloneEntries kvs)
  | v => v
/-- The array loop of `_shallowCloneSchema`. -/
def cloneList : List Val → List Val
  | [] => []
  | x :: xs => _shallowCloneSchema x :: cloneList xs
/-- The key loop of `_shallowCloneSchema`. -/
def cloneEntries : List (String × Val) → List (String × Val)
  | [] => []
  | (k, v) :: rest => (k, _shallowCloneSchema v) :: cloneEntries rest
end

/-- State of the path scanner of `_getByPath`: the parts pushed so far, the
pending name `cur`, and the pending index text when inside brackets. -/
structure PathScan where
  parts : List String := []
  cur : String := ""
  idx : Option String := none

/-- The property key `Number(idx)` denotes. -/
def indexKey (h : Host) (idx : String) : String :=
  match h.toNumber (.str idx) with
  | .ok (some n) => toString n
  | _ => "NaN"

/-- The elements `path[0]`, `path[1]`, ... the scan of `_getByPath` visits: the
characters of a string, the elements of an array; any other value has no
`length` the loop could run to. -/
def pathChars : Val → List Val
  | .str p => p.toList.map (fun c => .str (String.singleton c))
  | .arr xs => xs
  | _ => []

/-- One element of the scan in `_getByPath`. -/
def scanStep (h : Host) (st : PathScan) (ch : Val) : PathScan :=
  match st.idx with
  | some idx =>
    if strictEq ch (.str "]") then
      { parts := if idx.length ≠ 0 then st.parts ++ [indexKey h idx] else st.parts
        cur := st.cur, idx := none }
    else { st with idx := some (idx ++ toStringJS h ch) }
  | none =>
    if strictEq ch (.str ".") then
      if st.cur.length ≠ 0 then { parts := st.parts ++ [st.cur], cur := "", idx := none } else st
    else if strictEq ch (.str "[") then
      if st.cur.length ≠ 0 then { parts := st.parts ++ [st.cur], cur := "", idx := some "" }
      else { st with idx := some "" }
    else { st with cur := st.cur ++ toStringJS h ch }

/-- The list `parts` of `_getByPath`. -/
def pathParts (h : Host) (path : Val) : List String :=
  let st := (pathChars path).foldl (scanStep h) {}
  let parts := match st.idx with
    | some idx => if idx.length ≠ 0 then st.parts ++ [indexKey h idx] else st.parts
    | none => st.parts
  if st.cur.length ≠ 0 then parts ++ [st.cur] else parts

/-- The descent loop of `_getByPath`. -/
def descend : Val → List String → Val
  | out, [] => out
  | out, p :: ps =>
    if out matches .undefined ∨ out matches .null then .undefined else descend (getProp out p) ps

/-- The source's `_getByPath`. -/
def _getByPath (h : Host) (obj : Val) (path : Val) : Val :=
  if ¬ truthy path then obj else descend obj (pathParts h path)

/-! ## Fragment merging -/

mutual
/-- Nesting depth of a value. -/
def depth : Val → Nat
  | .arr xs => depthList xs + 1
  | .obj _ kvs => depthEntries kvs + 1
  | _ => 1
/-- Largest depth among the elements of an array. -/
def depthList : List Val → Nat
  | [] => 0
  | x :: xs => max (depth x) (depthList xs)
/-- Largest depth among the values of an object. -/
def depthEntries : List (String × Val) → Nat
  | [] => 0
  | (_, v) :: rest => max (depth v) (depthEntries rest)
end

/-- The expression `v || {}`. -/
def orEmpty (v : Val) : Val :=
  if truthy v then v else .obj .plain []

/-- The source's `mergeNormalizedEntry`, with the recursion depth as an explicit
bound: every recursive call is on a component of `base` or of `frag`. -/
def mergeWithin : Nat → Val → Val → Val
  | 0, _, frag => frag
  | n + 1, base, frag =>
    if ¬ truthy base then frag
    else if ¬ truthy frag then base
    else
      let out := objectAssign (objectAssign [] base) frag
      let out :=
        if truthy (getProp base "items") ∨ truthy (getProp frag "items") then
          setKey "items"
            (mergeWithin n (orEmpty (getProp base "items")) (orEmpty (getProp frag "items"))) out
        else out
      let out :=
        if truthy (getProp base "properties") ∨ truthy (getProp frag "properties") then
          let bp := orEmpty (getProp base "properties")
          let fp := orEmpty (getProp frag "properties")
          let mergedProps := (objectKeys fp).foldl
            (fun acc k => setKey k (mergeWithin n (getProp bp k) (getProp fp k)) acc)
            (objectAssign [] bp)
          setKey "properties" (.obj .plain mergedProps) out
        else out
      .obj .plain out

/-- The source's `mergeNormalizedEntry`. -/
def mergeNormalizedEntry (base frag : Val) : Val :=
  mergeWithin (depth base + depth frag) base frag

/-! ## The schema instance -/

/-- A per-call option object: the keys it sets. -/
structure OptionsPatch where
  failFast : Option Bool := none
  removeUnknown : Option Bool := none
  strict : Option Bool := none
  valueOnly : Option Bool := none
  coerceTypes : Option Bool := none
  removeEmpty : Option Bool := none
  nullable : Option Bool := none
  strictEnum : Option Bool := none
  strictType : Option Bool := none
  maxRegexLength : Option (Option Int) := none
  pathPrefix : Option String := none
  refs : Option Val := none

/-- The call `Object.assign({}, base, patch)` on option records. -/
def assignOptions (base : Options) (p : OptionsPatch) : Options :=
  { failFast := p.failFast.getD base.failFast
    removeUnknown := p.removeUnknown.getD base.removeUnknown
    strict := p.strict.getD base.strict
    valueOnly := p.valueOnly.getD base.valueOnly
    coerceTypes := p.coerceTypes.getD base.coerceTypes
    removeEmpty := p.removeEmpty.getD base.removeEmpty
    nullable := p.nullable.getD base.nullable
    strictEnum := p.strictEnum.getD base.strictEnum
    strictType := p.strictType.getD base.strictType
    maxRegexLength := p.maxRegexLength.getD base.maxRegexLength
    pathPrefix := p.pathPrefix.getD base.pathPrefix
    refs := p.refs.getD base.refs }

/-- A registered rule `{ pathOrPredicate, is, fragment }`. -/
structure Conditional where
  pathOrPredicate : Val
  isVal : Val
  fragment : List (String × Val)

/-- An entry of `_checkers`: a checker compiled at construction, or the lazy
wrapper of a `$ref` placeholder, which resolves the name at each call. -/
inductive TopChecker
  | compiled (c : Checker)
  | lazyRef (name : Val)

/-- One declared top-level field: its key, its entry in `_normalizedSchema` and
its entry in `_checkers`. -/
structure Field where
  key : String
  entry : Val
  checker : TopChecker

/-- A `Schema` instance. -/
structure Schema where
  options : Options
  externalRefs : List (String × Val)
  rawSchema : Val
  fields : List Field
  localDefs : List (String × Val)
  conditionals : List Conditional

/-- The map `_normalizedSchema`. -/
def Schema.normalizedSchema (s : Schema) : List (String × Val) :=
  s.fields.map (fun f => (f.key, f.entry))

/-- The source's `_loadExternalRefs`, array case: the loop over the maps. -/
def loadRefMaps (refs : List (String × Val)) : List Val → List (String × Val)
  | [] => refs
  | it :: rest =>
    if _isPlainObject it then loadRefMaps (objectAssign refs it) rest else loadRefMaps refs rest

/-- The source's `_loadExternalRefs`. -/
def _loadExternalRefs (refs : List (String × Val)) (input : Val) :
    Except Exn (List (String × Val)) :=
  if ¬ truthy input then .ok refs
  else match input with
    | .arr xs => .ok (loadRefMaps refs xs)
    | .obj _ _ => .ok (objectAssign refs input)
    | _ => .error (.other (mkTypeError "refs must be an object map or array of maps"))

/-- The type names `_lintSchema` accepts. -/
def validTypeNames : List String :=
  ["string", "number", "object", "array", "boolean", "bigint", "function", "symbol", "null",
   "undefined", "any", "date", "regexp", "regex", "map", "set", "url", "buffer"]

/-- An issue `{ path, message, code }` of `_lintSchema`. -/
def lintIssue (path message code : String) : Val :=
  .obj .plain [("path", .str path), ("message", .str message), ("code", .str code)]

/-- The issues `_lintSchema` reports for one top-level entry. -/
def lintEntry (k : String) (e : Val) : List Val :=
  let t := getProp e "type"
  let typeIssues :=
    if typeOf t ≠ "undefined" then
      match t with
      | .str name =>
        if validTypeNames.contains name then []
        else [lintIssue k ("Invalid type '" ++ name ++ "' for field '" ++ k ++ "'") "ERR_SCHEMA_TYPE"]
      | .fn _ => []
      | _ => [lintIssue k ("Type for field '" ++ k ++ "' must be a string or constructor")
          "ERR_SCHEMA_TYPE"]
    else []
  let regexIssues :=
    if truthy (getProp e "regex") ∧ ¬ (getProp e "regex" matches .obj (.regexp _) _) then
      [lintIssue k ("Field '" ++ k ++ "' has invalid regex; must be RegExp") "ERR_SCHEMA_REGEX"]
    else []
  let enumIssues :=
    if truthy (getProp e "enum") ∧ ¬ isArray (getProp e "enum") then
      [lintIssue k ("Field '" ++ k ++ "' enum must be an array") "ERR_SCHEMA_ENUM"]
    else []
  let propIssues :=
    if truthy (getProp e "properties") ∧ ¬ _isPlainObject (getProp e "properties") then
      [lintIssue k ("Field '" ++ k ++ "' properties must be an object") "ERR_SCHEMA_PROPERTIES"]
    else []
  typeIssues ++ regexIssues ++ enumIssues ++ propIssues

/-- The source's `_lintSchema`. -/
def _lintSchema (normalized : List (String × Val)) : List Val :=
  normalized.flatMap (fun kv => lintEntry kv.1 kv.2)

/-- The constructor's loop building `_checkers`. -/
def buildFields (h : Host) : List (String × Val) → Except Exn (List Field)
  | [] => .ok []
  | (k, ent) :: rest =>
    if truthy ent ∧ truthy (getProp ent "__isRef") then
      match buildFields h rest with
      | .error e => .error e
      | .ok fs =>
        .ok ({ key := k, entry := ent, checker := .lazyRef (getProp ent "$ref") } :: fs)
    else
      match makeChecker h ent with
      | .error e => .error e
      | .ok c =>
        match buildFields h rest with
        | .error e => .error e
        | .ok fs => .ok ({ key := k, entry := ent, checker := .compiled c } :: fs)

/-- The constructor `new Schema(schemaDef, options)`; `schemaDef` is the entry
list of the plain object given as definition. -/
def Schema.create (h : Host) (schemaDef : List (String × Val)) (options : OptionsPatch) :
    Except Exn Schema :=
  let opts := assignOptions DEFAULT_OPTIONS options
  match (if truthy opts.refs then _loadExternalRefs [] opts.refs else .ok []) with
  | .error e => .error e
  | .ok externalRefs =>
    match normalizeSchemaLoop h opts.maxRegexLength schemaDef with
    | .error e => .error e
    | .ok normalized =>
      match buildFields h normalized with
      | .error e => .error e
      | .ok fields =>
        if (_lintSchema normalized).length ≠ 0 then
          .error (.other (schemaErrorVal (_lintSchema normalized)))
        else
          .ok { options := opts
                externalRefs := externalRefs
                rawSchema := _shallowCloneSchema (.obj .plain schemaDef)
                fields := fields
                localDefs := localDefsOf schemaDef
                conditionals := [] }

/-- The checker a failed reference resolution yields: one error built by
`_makeErrorObj`, the value unchanged. -/
def failingChecker (reason code : String) (raw : Val) : Checker :=
  fun v ctx => .ok ([_makeErrorObj ctx.path reason code raw], v)

/-- The value an exception is bound to in a `catch (e)` clause. -/
def Exn.toVal : Exn → Val
  | .validation errors partialValue => validationErrorVal errors partialValue
  | .other e => e

/-- The text `String(e.message || e)` for a caught exception. -/
def caughtText (h : Host) (e : Exn) : String :=
  toStringJS h (if truthy (getProp e.toVal "message") then getProp e.toVal "message" else e.toVal)

/-- The body of each `try { normalize; makeChecker } catch (e) { ... }` block of
`_resolveRefChecker`; `kind` is the wording of the message. -/
def refCheckerOf (h : Host) (s : Schema) (refName : Val) (kind : String) (raw : Val) : Checker :=
  match normalizeEntry h s.options.maxRegexLength raw (toStringJS h refName)
      (toStringJS h refName) with
  | .ok normalized =>
    (match makeChecker h normalized with
     | .ok chk => chk
     | .error e =>
       failingChecker ("failed to normalize " ++ kind ++ " '" ++ toStringJS h refName ++ "': " ++
         caughtText h e) "ERR_REF_NORMALIZE" e.toVal)
  | .error e =>
    failingChecker ("failed to normalize " ++ kind ++ " '" ++ toStringJS h refName ++ "': " ++
      caughtText h e) "ERR_REF_NORMALIZE" e.toVal

/-- The source's `_resolveRefChecker`, without the memo table.  A name that is
not a string is used as a property key through `String`. -/
def _resolveRefChecker (h : Host) (s : Schema) (refName : Val) : Checker :=
  if hasKey (toStringJS h refName) s.externalRefs then
    refCheckerOf h s refName "external ref" (lookupKey (toStringJS h refName) s.externalRefs)
  else if hasKey (toStringJS h refName) s.localDefs then
    refCheckerOf h s refName "local $defs ref" (lookupKey (toStringJS h refName) s.localDefs)
  else if typeOf (_getByPath h s.rawSchema refName) ≠ "undefined" then
    refCheckerOf h s refName "path-ref" (_getByPath h s.rawSchema refName)
  else
    failingChecker ("unresolved ref '" ++ toStringJS h refName ++ "'") "ERR_REF_UNRESOLVED" .null

/-- The truth value `condResult` of one rule of `_evaluateConditionals` on the
input `obj`; an exception counts as `false`. -/
def condResult (h : Host) (rule : Conditional) (obj : Val) : Bool :=
  match rule.pathOrPredicate with
  | .fn p =>
    (match h.call p [obj] with
     | .ok r => truthy r
     | .error _ => false)
  | path =>
    match rule.isVal with
    | .fn q =>
      (match h.call q [_getByPath h obj path] with
       | .ok r => truthy r
       | .error _ => false)
    | expected => strictEq (_getByPath h obj path) expected

/-- The loop of `_evaluateConditionals` over the rules, from the overrides
collected so far. -/
def evaluateLoop (h : Host) (obj : Val) :
    List Conditional → List (String × Val) → List (String × Val)
  | [], overrides => overrides
  | rule :: rest, overrides =>
    if condResult h rule obj then
      evaluateLoop h obj rest
        (rule.fragment.foldl (fun acc kv => setKey kv.1 kv.2 acc) overrides)
    else evaluateLoop h obj rest overrides

/-- The source's `_evaluateConditionals`. -/
def _evaluateConditionals (h : Host) (s : Schema) (obj : Val) : List (String × Val) :=
  evaluateLoop h obj s.conditionals []

/-- The source's `_getOverrideCheckerFor`, without the memo table. -/
def _getOverrideCheckerFor (h : Host) (s : Schema) (fieldName : String) (fragmentEntry : Val) :
    Except Exn Checker :=
  makeChecker h (mergeNormalizedEntry (orEmpty (lookupKey fieldName s.normalizedSchema))
    fragmentEntry)

/-! ## The validation engine -/

/-- What `validate` returns: the record `{ valid, errors, value }`, or the bare
value when `valueOnly` is set. -/
inductive ValidateOut
  | result (valid : Bool) (errors : List Err) (value : Val)
  | valueOnly (value : Val)
  deriving DecidableEq

/-- Control flow of the phases of `validate`: leave the function with a result
or an exception, or go on with the locals `errors` and `result`. -/
inductive Flow
  | stop (r : Except Exn ValidateOut)
  | go (errors : List Err) (result : List (String × Val))

/-- The path of a top-level key: `opts.pathPrefix ? prefix + '.' + k : k`. -/
def fieldPath (opts : Options) (k : String) : String :=
  if opts.pathPrefix ≠ "" then opts.pathPrefix ++ "." ++ k else k

/-- The checker `validate` runs for a declared field: the override checker when
the conditionals name the field, else the entry of `_checkers`. -/
def selectChecker (h : Host) (s : Schema) (overrides : List (String × Val)) (f : Field) :
    Except Exn Checker :=
  if hasKey f.key overrides then _getOverrideCheckerFor h s f.key (lookupKey f.key overrides)
  else match f.checker with
    | .compiled c => .ok c
    | .lazyRef name => .ok (_resolveRefChecker h s name)

/-- The early exit of `validate` in fail-fast mode. -/
def failFastExit (opts : Options) (errors : List Err) (result : List (String × Val)) :
    Except Exn ValidateOut :=
  if opts.valueOnly then .error (.validation errors (.obj .plain result))
  else .ok (.result false errors (.obj .plain result))

/-- One iteration of the field loop up to the checker call: select the checker
of field `f` and run it on `obj[k]` at the field's path. -/
def runField (h : Host) (s : Schema) (obj : List (String × Val)) (opts : Options)
    (overrides : List (String × Val)) (f : Field) : CheckResult :=
  match selectChecker h s overrides f with
  | .error e => .error e
  | .ok ck => ck (lookupKey f.key obj) { path := fieldPath opts f.key, options := opts }

/-- The loop of `validate` over the declared fields, in schema order. -/
def fieldLoop (h : Host) (s : Schema) (obj : List (String × Val)) (opts : Options)
    (overrides : List (String × Val)) : List Field → List Err → List (String × Val) → Flow
  | [], errors, result => .go errors result
  | f :: rest, errors, result =>
    match runField h s obj opts overrides f with
    | .error e => .stop (.error e)
    | .ok (entryErrors, coerced) =>
      if entryErrors.length ≠ 0 ∧ opts.failFast then
        .stop (failFastExit opts (errors ++ entryErrors) result)
      else
        fieldLoop h s obj opts overrides rest
          (if entryErrors.length ≠ 0 then errors ++ entryErrors else errors)
          (if typeOf coerced ≠ "undefined" then setKey f.key coerced result
           else if hasKey f.key obj then setKey f.key (lookupKey f.key obj) result
           else result)

/-- The loop of `validate` over `Object.keys(obj)` in strict mode. -/
def strictTopLoop (s : Schema) (opts : Options) :
    List String → List Err → List (String × Val) → Flow
  | [], errors, result => .go errors result
  | k :: rest, errors, result =>
    if hasKey k s.normalizedSchema then strictTopLoop s opts rest errors result
    else if opts.removeUnknown then strictTopLoop s opts rest errors result
    else if opts.failFast then
      .stop (failFastExit opts
        (errors ++ [_makeErrorObj (fieldPath opts k) "unknown field" "ERR_UNKNOWN" .null]) result)
    else strictTopLoop s opts rest
      (errors ++ [_makeErrorObj (fieldPath opts k) "unknown field" "ERR_UNKNOWN" .null]) result

/-- The loop of `validate` over `Object.keys(obj)` in lenient mode. -/
def lenientTopLoop (s : Schema) (opts : Options) (obj : List (String × Val)) :
    List String → List (String × Val) → List (String × Val)
  | [], result => result
  | k :: rest, result =>
    if hasKey k s.normalizedSchema then lenientTopLoop s opts obj rest result
    else if opts.removeUnknown then lenientTopLoop s opts obj rest result
    else lenientTopLoop s opts obj rest (setKey k (lookupKey k obj) result)

mutual
/-- The function `clean` of the `removeEmpty` block. -/
def clean : Val → Val
  | .str t => if t = "" then .undefined else .str t
  | .null => .undefined
  | .arr xs =>
    if xs.length = 0 then .undefined
    else if (cleanList xs).length ≠ 0 then .arr (cleanList xs) else .undefined
  | .obj _ kvs =>
    if kvs.length = 0 then .undefined
    else if (cleanEntries kvs).length ≠ 0 then .obj .plain (cleanEntries kvs) else .undefined
  | v => v
/-- The array loop of `clean`. -/
def cleanList : List Val → List Val
  | [] => []
  | x :: xs => if typeOf (clean x) ≠ "undefined" then clean x :: cleanList xs else cleanList xs
/-- The key loop of `clean`. -/
def cleanEntries : List (String × Val) → List (String × Val)
  | [] => []
  | (k, v) :: rest =>
    if typeOf (clean v) ≠ "undefined" then (k, clean v) :: cleanEntries rest
    else cleanEntries rest
end

/-- The unknown-key phase of `validate`: the strict or the lenient loop over
`Object.keys(obj)`. -/
def unknownKeys (s : Schema) (opts : Options) (obj : List (String × Val)) (errors : List Err)
    (result : List (String × Val)) : Flow :=
  if opts.strict then strictTopLoop s opts (obj.map (fun kv => kv.1)) errors result
  else .go errors (lenientTopLoop s opts obj (obj.map (fun kv => kv.1)) result)

/-- The end of `validate`: the `removeEmpty` block and the final `return`. -/
def finish (opts : Options) (errors : List Err) (result : List (String × Val)) :
    Except Exn ValidateOut :=
  if opts.valueOnly then
    .ok (.valueOnly (.obj .plain (if opts.removeEmpty then cleanEntries result else result)))
  else
    .ok (.result (errors.length = 0) errors
      (.obj .plain (if opts.removeEmpty then cleanEntries result else result)))

/-- The source's `validate(obj, callOptions)`; `obj` is the entry list of the
plain object given as input (an array or a non-object argument is not an
element of this type). -/
def validate (h : Host) (s : Schema) (obj : List (String × Val)) (callOptions : OptionsPatch) :
    Except Exn ValidateOut :=
  match fieldLoop h s obj (assignOptions s.options callOptions)
      (_evaluateConditionals h s (.obj .plain obj)) s.fields [] [] with
  | .stop r => r
  | .go errors result =>
    match unknownKeys s (assignOptions s.options callOptions) obj errors result with
    | .stop r => r
    | .go errors2 result2 => finish (assignOptions s.options callOptions) errors2 result2


/-- An instance with the given declared fields and default options, no
external reference, no local definition and no conditional rule. -/
def plainSchema (rawSchema : Val) (fields : List Field) : Schema :=
  { options := DEFAULT_OPTIONS
    externalRefs := []
    rawSchema := rawSchema
    fields := fields
    localDefs := []
    conditionals := [] }

/-- The declared field the constructor builds for a descriptor without
`items` and `properties`. -/
def leafField (h : Host) (key : String) (entry : Val) : Field :=
  { key := key, entry := entry, checker := .compiled (checker h (readRules entry) none none) }

/-- The descriptor of `x` in the schema `{ x: { type: 'string', required: true } }`
after normalisation. -/
def requiredStringEntry : Val :=
  .obj .plain [("type", .str "string"), ("required", .bool true), ("strictType", .bool false),
    ("nullable", .undefined), ("coerce", .undefined), ("throw", .undefined)]

/-- A host for examples like `exampleHost`, in which the user function `0` is a
validator that rejects every value with the two messages `too short` and
`no digit`. -/
def twoMessageHost : Host :=
  { exampleHost with
    call := fun f _ =>
      match f with
      | .user 0 _ => .ok (.arr [.str "too short", .str "no digit"])
      | _ => .ok .undefined }

/-- The descriptor of `a` in the schema `{ a: 'string' }` after normalisation. -/
def stringEntry : Val :=
  .obj .plain [("type", .str "string"), ("required", .bool false), ("nullable", .undefined),
    ("coerce", .undefined), ("strictType", .undefined), ("throw", .undefined)]

/-- The descriptor of `age` in the schema `{ age: { type: 'number', min: 0 } }` after
normalisation. -/
def ageEntry : Val :=
  .obj .plain [("type", .str "number"), ("strictType", .bool false), ("min", .num 0),
    ("required", .bool false), ("nullable", .undefined), ("coerce", .undefined),
    ("throw", .undefined)]

/-- A host for examples like `exampleHost`, in which the user function `i`
returns the `i`-th value of `results` whatever its arguments are. -/
def hostReturning (results : List Val) : Host :=
  { exampleHost with
    call := fun f _ =>
      match f with
      | .user i _ => .ok (results.getD i .undefined)
      | _ => .ok .undefined }

/-- The compiled form of a descriptor `{ validator: f, enum: [1, 2], min: 5 }` with
no `type`; `f` is the user function `0`. -/
def validatorOnlyRules : Rules :=
  readRules (.obj .plain [("validator", .fn (.user 0 "f")), ("enum", .arr [.num 1, .num 2]),
    ("min", .num 5)])

/-- The schema `{ tags: { type: 'array', items: 'string', throw: true } }`. -/
def tagsSchema : List (String × Val) :=
  [("tags", .obj .plain [("type", .str "array"), ("items", .str "string"),
    ("throw", .bool true)])]

/-- The schema `{ box: { type: 'object', properties: { a: 'string' }, throw: true } }`. -/
def boxSchema : List (String × Val) :=
  [("box", .obj .plain [("type", .str "object"),
    ("properties", .obj .plain [("a", .str "string")]), ("throw", .bool true)])]

/-- The descriptor `{ type: 'number', min: 0, errorMessage: 'bad age' }` after
normalisation. -/
def ageMessageEntry : Val :=
  .obj .plain [("type", .str "number"), ("strictType", .bool false), ("min", .num 0),
    ("errorMessage", .str "bad age"), ("required", .bool false), ("nullable", .undefined),
    ("coerce", .undefined), ("throw", .undefined)]

/-- The recursive schema
`{ node: { type: 'object', properties: { value: 'number', child: { $ref: 'node' } } } }`. -/
def nodeSchema : List (String × Val) :=
  [("node", .obj .plain [("type", .str "object"),
    ("properties", .obj .plain [("value", .str "number"),
      ("child", .obj .plain [("$ref", .str "node")])])])]

/-- The schema `{ item: 'number', list: { type: 'array', items: { $ref: 'item' } } }`. -/
def listSchema : List (String × Val) :=
  [("item", .str "number"), ("list", .obj .plain [("type", .str "array"),
    ("items", .obj .plain [("$ref", .str "item")])])]

/-! ## The rule order, stated rule by rule -/

/-- The errors a checker call emits: those it returns, or those carried by the
`ValidationError` it raises. -/
def emittedErrors : CheckResult → List Err
  | .ok (errs, _) => errs
  | .error (.validation errs _) => errs
  | .error (.other _) => []

/-- The value the rules after `required` are applied to: the input, or the
default when the input is absent; `none` when the input is absent and there is
no default (or the default producer raises). -/
def defaulted (h : Host) (r : Rules) (value : Val) : Option Val :=
  if typeOf value = "undefined" then
    if typeOf r.deflt ≠ "undefined" then
      match r.deflt with
      | .fn f => (match h.call f [] with
        | .ok v => some v
        | .error _ => none)
      | d => some d
    else none
  else some value

/-- Whether coercion is requested for the field and a type is declared. -/
def coercionRequested (r : Rules) (options : Options) : Bool :=
  (r.coerceField || options.coerceTypes) && decide (typeOf r.type ≠ "undefined")

/-- The value the rules after coercion are applied to. -/
def afterCoercion (h : Host) (r : Rules) (options : Options) (v : Val) : Val :=
  if coercionRequested r options && (_coerceToType h v r.type).coerced then
    (_coerceToType h v r.type).coercedValue
  else v

/-- Rule `required`: the input is absent, there is no default, the field is required. -/
def requiredViolated (r : Rules) (value : Val) : Bool :=
  decide (typeOf value = "undefined") && decide (typeOf r.deflt = "undefined") && r.required

/-- Rule `null`: the value is `null` and neither the field, nor the options, nor
the type `'null'` permit it. -/
def nullViolated (r : Rules) (options : Options) (v : Val) : Bool :=
  decide (v = .null) && !(r.nullable || options.nullable || decide (r.type = .str "null"))

/-- Rule `coercion`: coercion is requested, fails, and the type is a core primitive. -/
def coerceViolated (h : Host) (r : Rules) (options : Options) (v : Val) : Bool :=
  coercionRequested r options && !(_coerceToType h v r.type).coerced && isCorePrimitive r.type

/-- Rule `type`: a type other than `'any'` is declared and the value does not match it. -/
def typeViolated (h : Host) (r : Rules) (v : Val) : Bool :=
  decide (typeOf r.type ≠ "undefined") && !strictEq r.type (.str "any") && !_matchesType h r.type v

/-- Rule `enum`: a non-empty enum list is declared and the value matches no element. -/
def enumViolated (h : Host) (r : Rules) (options : Options) (v : Val) : Bool :=
  match r.enumVals with
  | .arr es => decide (es.length > 0) && !_enumMatch h r.enumVals v options.strictEnum
  | _ => false

/-- Rule `regex`: a regex is declared and it is not a pattern, or the value is
not a string the pattern accepts. -/
def regexViolated (h : Host) (r : Rules) (v : Val) : Bool :=
  truthy r.regex &&
    !(match r.regex, v with
      | .obj (.regexp source) _, .str t => h.regexTest source t
      | _, _ => false)

/-- The quantity `min` and `max` bound: a number itself, the length of a string
or array, nothing for any other value. -/
def boundedQuantity (v : Val) : Option Val :=
  if typeOf v = "number" then some v
  else if typeOf v = "string" ∨ isArray v then some (lengthOf v)
  else none

/-- Rule `min`: `min` is a number and the bounded quantity is below it. -/
def minViolated (r : Rules) (v : Val) : Bool :=
  match boundedQuantity v with
  | some q => decide (typeOf r.min = "number") && numLt q r.min
  | none => false

/-- Rule `max`: `max` is a number and the bounded quantity is above it. -/
def maxViolated (r : Rules) (v : Val) : Bool :=
  match boundedQuantity v with
  | some q => decide (typeOf r.max = "number") && numLt r.max q
  | none => false

/-- The rules in their fixed order, each with its error code and whether it is
violated by the input `value`: `required` looks at the input, `null` and
`coercion` at the input or default, the rules after them at the coerced value;
a rule does not apply (and is not violated) when the input is absent without
default, and the rules after `null` do not apply to `null`. -/
def ruleViolations (h : Host) (r : Rules) (options : Options) (value : Val) :
    List (String × Bool) :=
  let sub := defaulted h r value
  let live := sub.filter (fun v => v ≠ .null)
  let coerced := live.map (afterCoercion h r options)
  [ ("ERR_REQUIRED", requiredViolated r value),
    ("ERR_NULL", sub.any (nullViolated r options)),
    ("ERR_COERCE", live.any (coerceViolated h r options)),
    ("ERR_TYPE", coerced.any (typeViolated h r)),
    ("ERR_ENUM", coerced.any (enumViolated h r options)),
    ("ERR_REGEX", coerced.any (regexViolated h r)),
    ("ERR_MIN", coerced.any (minViolated r)),
    ("ERR_MAX", coerced.any (maxViolated r)) ]

/-- The code of the first violated rule of a table, as a list of at most one code. -/
def firstViolated (table : List (String × Bool)) : List String :=
  ((table.find? (fun p => p.2)).map (fun p => p.1)).toList

/-- The acceptance condition of the enum rule in words: the value is strictly
equal to an element that is not a function, or strict-enum mode is off and some
function element returns a truthy result for it (a predicate that throws
returns nothing). -/
def enumAccepts (h : Host) (es : List Val) (v : Val) (strictEnum : Bool) : Prop :=
  (∃ e ∈ es, (∀ f, e ≠ .fn f) ∧ strictEq e v = true)
  ∨ (strictEnum = false ∧ ∃ f, .fn f ∈ es ∧ ∃ rv, h.call f [v] = .ok rv ∧ truthy rv = true)

/-- The `ERR_CUSTOM` entry of a field without `errorMessage`, with the given
reason text and no raw error. -/
def customError (path reason : String) : Err :=
  { path := path, message := "Invalid " ++ path ++ " field. " ++ reason, code := "ERR_CUSTOM",
    rawError := .null }

/-- The argument list `(out, { path })` a validator is applied to. -/
def validatorArgs (out : Val) (path : String) : List Val :=
  [out, .obj .plain [("path", .str path)]]

/-- The `ERR_CUSTOM` entry for a thrown error: its text as the reason and the
thrown value as `rawError` (`null` for a falsy thrown value). -/
def thrownError (h : Host) (path : String) (err : Val) : Err :=
  { path := path, message := "Invalid " ++ path ++ " field. " ++ toStringJS h err,
    code := "ERR_CUSTOM", rawError := if truthy err then err else .null }

/-- Spec-side: the errors the result-shape contract lists for the outcome of a
validator call (a returned value, or a thrown error); `none` for an outcome
the contract does not list. -/
def contractErrors (h : Host) (path : String) : Except Val Val → Option (List Err)
  | .error err => some [thrownError h path err]
  | .ok (.bool true) => some []
  | .ok (.bool false) => some [customError path "custom validator failed"]
  | .ok (.str s) => some [customError path s]
  | .ok (.arr (m :: ms)) => some ((m :: ms).map (fun x => customError path (toStringJS h x)))
  | .ok (.obj _ kvs) =>
    match lookupKey "valid" kvs, lookupKey "errors" kvs with
    | .bool true, _ => some []
    | .bool false, .arr ms => some (ms.map (fun x => customError path (toStringJS h x)))
    | _, _ => none
  | .ok _ => none

/-- The message of an error at `path` of a field whose `errorMessage` is `m`. -/
def customMessage (path m : String) : String :=
  "Invalid " ++ path ++ " field. " ++ m

/-- Spec-side: `e` is the error `e0` with the reason text replaced by `m`: the
same path and code, and the message built from `m`. -/
def replacesReason (m : String) (e e0 : Err) : Prop :=
  e.path = e0.path ∧ e.code = e0.code ∧ e.message = customMessage e.path m

/-- Two checker results of the same kind (both returned, or both raised a
`ValidationError`, or both raised the same other exception) with the same
value, whose error lists have the same length and are related entry by entry
by `R`. -/
def resultsAgree (R : Err → Err → Prop) : CheckResult → CheckResult → Prop
  | .ok (es, out), .ok (es0, out0) => out = out0 ∧ List.Forall₂ R es es0
  | .error (.validation es p), .error (.validation es0 p0) => p = p0 ∧ List.Forall₂ R es es0
  | .error (.other e), .error (.other e0) => e = e0
  | _, _ => False

/-- Two loop outcomes of the same kind: both left the checker with results that
agree, or both ran to their end with the same accumulator and related errors. -/
def loopsAgree {α : Type} (R : Err → Err → Prop) : LoopOut α → LoopOut α → Prop
  | .returned res, .returned res0 => resultsAgree R res res0
  | .finished errs acc, .finished errs0 acc0 => acc = acc0 ∧ List.Forall₂ R errs errs0
  | _, _ => False

/-- Spec-side: evaluating the rule on `obj` throws: the whole-object predicate
throws, or the `is` predicate throws on the value at the path. -/
def throwsOn (h : Host) (rule : Conditional) (obj : Val) : Prop :=
  (∃ p e, rule.pathOrPredicate = .fn p ∧ h.call p [obj] = .error e)
  ∨ (∃ q e, (∀ p, rule.pathOrPredicate ≠ .fn p) ∧ rule.isVal = .fn q
      ∧ h.call q [_getByPath h obj rule.pathOrPredicate] = .error e)

mutual
/-- Spec-side: the value holds no empty string, `null`, empty array or empty
object, at any depth (itself included). -/
def hasNoEmpty : Val → Bool
  | .str t => t ≠ ""
  | .null => false
  | .arr xs => xs.length ≠ 0 && allNoEmpty xs
  | .obj _ kvs => kvs.length ≠ 0 && entriesNoEmpty kvs
  | _ => true
/-- Spec-side: `hasNoEmpty` for every element. -/
def allNoEmpty : List Val → Bool
  | [] => true
  | x :: xs => hasNoEmpty x && allNoEmpty xs
/-- Spec-side: `hasNoEmpty` for every entry's value. -/
def entriesNoEmpty : List (String × Val) → Bool
  | [] => true
  | (_, v) :: rest => hasNoEmpty v && entriesNoEmpty rest
end

/-- Spec-side: two checker results give the same verdict: both are the same
return without errors, or neither is a return without errors. -/
def sameVerdict (a b : CheckResult) : Prop :=
  (∃ out, a = .ok ([], out) ∧ b = .ok ([], out))
  ∨ ((∀ out, a ≠ .ok ([], out)) ∧ (∀ out, b ≠ .ok ([], out)))

/-- Spec-side: the verdict of a checker does not depend on fail-fast mode. -/
def FailFastStable (c : Checker) : Prop :=
  ∀ (v : Val) (path : String) (opts : Options),
    sameVerdict (c v { path := path, options := { opts with failFast := true } })
      (c v { path := path, options := { opts with failFast := false } })

/-- A loop outcome that carries an error: it left the checker with something
else than a return without errors, or it ended with errors. -/
def loopDirty {α : Type} : LoopOut α → Prop
  | .returned res => ∀ out, res ≠ .ok ([], out)
  | .finished errs _ => errs ≠ []

/-- Two loop outcomes give the same verdict: both ended with no error and the
same accumulator, or both carry an error. -/
def loopsSameVerdict {α : Type} (a b : LoopOut α) : Prop :=
  (∃ acc, a = .finished [] acc ∧ b = .finished [] acc) ∨ (loopDirty a ∧ loopDirty b)

/-- The outcome of a `validate` call is not a result record that is valid. -/
def notValid (r : Except Exn ValidateOut) : Prop :=
  ∀ es val, r ≠ .ok (.result true es val)

/-- A phase of `validate` that carries an error: it left `validate` with
something else than a valid result record, or it goes on with errors. -/
def flowDirty : Flow → Prop
  | .stop r => notValid r
  | .go errors _ => errors ≠ []

/-- Two phases of `validate` give the same verdict: both go on with no error and
the same partial result, or both carry an error. -/
def flowsSameVerdict (a b : Flow) : Prop :=
  (∃ R, a = .go [] R ∧ b = .go [] R) ∨ (flowDirty a ∧ flowDirty b)

/-! ## Reference management and conditional rules

The methods that change an instance in place (`addRef`, `overrideRef`,
`removeRef`, `when(...).is(...).do(...)`) return the changed instance. -/

/-- The statement `delete o[k]` on an entry list. -/
def deleteKey (k : String) (o : List (String × Val)) : List (String × Val) :=
  o.filter (fun kv => kv.1 ≠ k)

/-- The test `typeof name !== 'string' || !name.length` of the ref methods,
negated: the name is a non-empty string. -/
def isRefName (name : Val) : Bool :=
  match name with
  | .str n => n.length ≠ 0
  | _ => false

/-- The source's `addRef(name, def)`: the instance after the call, or what the
call raises. -/
def Schema.addRef (h : Host) (s : Schema) (name : Val) (definition : Val) : Except Exn Schema :=
  if ¬ isRefName name then
    .error (.other (mkTypeError "ref name must be a non-empty string"))
  else if hasKey (toStringJS h name) s.externalRefs then
    .error (.other (schemaErrorVal [.obj .plain
      [("path", name),
       ("message", .str ("Ref '" ++ toStringJS h name ++ "' already exists"))]]))
  else .ok { s with externalRefs := setKey (toStringJS h name) definition s.externalRefs }

/-- The source's `overrideRef(name, def)`. -/
def Schema.overrideRef (h : Host) (s : Schema) (name : Val) (definition : Val) :
    Except Exn Schema :=
  if ¬ isRefName name then
    .error (.other (mkTypeError "ref name must be a non-empty string"))
  else .ok { s with externalRefs := setKey (toStringJS h name) definition s.externalRefs }

/-- The source's `removeRef(name)`: the returned flag and the instance after
the call. -/
def Schema.removeRef (h : Host) (s : Schema) (name : Val) : Bool × Schema :=
  if ¬ isRefName name then (false, s)
  else if hasKey (toStringJS h name) s.externalRefs then
    (true, { s with externalRefs := deleteKey (toStringJS h name) s.externalRefs })
  else (false, s)

/-- The block `try { return normalizeEntry(raw, ..., name, name); } catch (e)
{ return undefined; }` of `resolveRef`. -/
def normalizeOrUndefined (h : Host) (s : Schema) (name : Val) (raw : Val) : Val :=
  match normalizeEntry h s.options.maxRegexLength raw (toStringJS h name) (toStringJS h name) with
  | .ok n => n
  | .error _ => .undefined

/-- The source's `resolveRef(name)`. -/
def Schema.resolveRef (h : Host) (s : Schema) (name : Val) : Val :=
  if ¬ truthy name then .undefined
  else if hasKey (toStringJS h name) s.externalRefs then
    normalizeOrUndefined h s name (lookupKey (toStringJS h name) s.externalRefs)
  else if hasKey (toStringJS h name) s.localDefs then
    normalizeOrUndefined h s name (lookupKey (toStringJS h name) s.localDefs)
  else if typeOf (_getByPath h s.rawSchema name) ≠ "undefined" then
    normalizeOrUndefined h s name (_getByPath h s.rawSchema name)
  else .undefined

/-- The loop of `do(fragment)` normalising the entries of the fragment. -/
def normalizeFragment (h : Host) (maxRegexLength : Option Int) :
    List (String × Val) → Except Exn (List (String × Val))
  | [] => .ok []
  | (key, raw) :: rest =>
    match normalizeEntry h maxRegexLength raw key key with
    | .error e => .error e
    | .ok n =>
      match normalizeFragment h maxRegexLength rest with
      | .error e => .error e
      | .ok ns => .ok ((key, n) :: ns)

/-- The source's `when(pathOrPredicate).is(isValOrFn).do(fragment)`: the instance
after the call, or what the call raises. -/
def Schema.whenIsDo (h : Host) (s : Schema) (pathOrPredicate isValOrFn fragment : Val) :
    Except Exn Schema :=
  match fragment with
  | .obj _ entries =>
    (match normalizeFragment h s.options.maxRegexLength entries with
     | .error e => .error e
     | .ok normalizedFragment =>
       .ok { s with conditionals := s.conditionals ++
         [{ pathOrPredicate := pathOrPredicate, isVal := isValOrFn,
            fragment := normalizedFragment }] })
  | _ => .error (.other (mkTypeError "fragment must be an object"))

/-- The usual two steps `new Schema(schemaDef, options).validate(obj, callOptions)`;
a failure of the constructor is passed on. -/
def createAndValidate (h : Host) (schemaDef : List (String × Val)) (options : OptionsPatch)
    (obj : List (String × Val)) (callOptions : OptionsPatch) : Except Exn ValidateOut :=
  match Schema.create h schemaDef options with
  | .ok s => validate h s obj callOptions
  | .error e => .error e

/-- The external definition `small` of the conditional example:
`{ type: 'object', properties: { a: { type: 'string', required: true } } }`. -/
def smallRef : Val :=
  .obj .plain [("type", .str "object"),
    ("properties", .obj .plain
      [("a", .obj .plain [("type", .str "string"), ("required", .bool true)])])]

/-- The schema of the conditional example:
`{ kind: { type: 'string', required: true }, payload: { type: 'object' } }`. -/
def kindSchema : List (String × Val) :=
  [("kind", .obj .plain [("type", .str "string"), ("required", .bool true)]),
   ("payload", .obj .plain [("type", .str "object")])]

/-- The conditional example: the instance of `kindSchema` with the external
definition `small` and the given other options, the rule
`when('kind').is('small').do({ payload: fragmentEntry })`, then `validate(obj)`. -/
def conditionalRun (h : Host) (options : OptionsPatch) (fragmentEntry : Val)
    (obj : List (String × Val)) : Except Exn ValidateOut :=
  match Schema.create h kindSchema
      { options with refs := some (.obj .plain [("small", smallRef)]) } with
  | .error e => .error e
  | .ok s =>
    match Schema.whenIsDo h s (.str "kind") (.str "small")
        (.obj .plain [("payload", fragmentEntry)]) with
    | .error e => .error e
    | .ok s2 => validate h s2 obj {}

/-- The descriptor the constructor stores for a top-level entry `{ $ref: name }`:
the placeholder with the five defaults of `normalizeSchema`. -/
def refTopEntry (name : String) : Val :=
  .obj .plain [("__isRef", .bool true), ("$ref", .str name), ("required", .bool false),
    ("nullable", .undefined), ("coerce", .undefined), ("strictType", .undefined),
    ("throw", .undefined)]

/-- The declared field the constructor builds for a top-level entry
`{ $ref: name }` under the key `k`: a lazy wrapper around `_resolveRefChecker`. -/
def refField (k name : String) : Field :=
  { key := k, entry := refTopEntry name, checker := .lazyRef (.str name) }

/-- Spec-side: the three sources of a reference in the order they are
consulted (external registry, `$defs`, path into the raw schema): the wording
for the source that holds `name` and the raw definition found there, or
`none` when no source holds it. -/
def lookupRef (h : Host) (s : Schema) (name : String) : Option (String × Val) :=
  if hasKey name s.externalRefs then some ("external ref", lookupKey name s.externalRefs)
  else if hasKey name s.localDefs then some ("local $defs ref", lookupKey name s.localDefs)
  else if typeOf (_getByPath h s.rawSchema (.str name)) ≠ "undefined" then
    some ("path-ref", _getByPath h s.rawSchema (.str name))
  else none

/-- The error of a field whose reference is found in no source. -/
def unresolvedError (path name : String) : Err :=
  { path := path, message := "Invalid " ++ path ++ " field. " ++ ("unresolved ref '" ++ name ++ "'"),
    code := "ERR_REF_UNRESOLVED", rawError := .null }

/-- The error of a field whose referenced definition, found in the source
worded `kind`, failed to normalise with the exception `e`. -/
def normalizeFailure (h : Host) (path kind name : String) (e : Exn) : Err :=
  { path := path
    message := "Invalid " ++ path ++ " field. "
      ++ ("failed to normalize " ++ kind ++ " '" ++ name ++ "': " ++ caughtText h e)
    code := "ERR_REF_NORMALIZE"
    rawError := if truthy e.toVal then e.toVal else .null }

/-- The instance `s0` with one more declared field: the lazy reference field
`refField k name` between the fields `F1` and `F2`, over the raw schema `raw`. -/
def withRefField (s0 : Schema) (F1 F2 : List Field) (k name : String)
    (raw : List (String × Val)) : Schema :=
  { s0 with
    fields := F1 ++ refField k name :: F2
    rawSchema := _shallowCloneSchema (.obj .plain raw) }

/-- Registration of several rules in order:
`s.when(p1).is(v1).do(f1); s.when(p2).is(v2).do(f2); ...`, each rule given as
`(pathOrPredicate, is, fragment)`. -/
def registerRules (h : Host) (s : Schema) : List (Val × Val × Val) → Except Exn Schema
  | [] => .ok s
  | (p, v, f) :: rest =>
    match Schema.whenIsDo h s p v f with
    | .error e => .error e
    | .ok s2 => registerRules h s2 rest

/-- The steps `new Schema(schemaDef, options)`, registration of `rules`, then
`validate(obj, callOptions)`. -/
def validateWithRules (h : Host) (schemaDef : List (String × Val)) (options : OptionsPatch)
    (rules : List (Val × Val × Val)) (obj : List (String × Val)) (callOptions : OptionsPatch) :
    Except Exn ValidateOut :=
  match Schema.create h schemaDef options with
  | .error e => .error e
  | .ok s =>
    match registerRules h s rules with
    | .error e => .error e
    | .ok s2 => validate h s2 obj callOptions

/-! ## The other entry points

`enforce`, `sanitize`, `check`, `assertTypes` and `batch`.  They read the
properties `valid`, `errors` and `value` of what `validate` returned, which is
the result record or, under `valueOnly`, the bare value. -/

/-- What `validate` returned, as a value: the record `{ valid, errors, value }`,
or the bare value under `valueOnly`. -/
def ValidateOut.toVal : ValidateOut → Val
  | .result valid errors value =>
    .obj .plain [("valid", .bool valid), ("errors", .arr (errors.map Err.toVal)),
      ("value", value)]
  | .valueOnly value => value

/-- An option record passed as call options: every option is set. -/
def Options.asPatch (o : Options) : OptionsPatch :=
  { failFast := some o.failFast
    removeUnknown := some o.removeUnknown
    strict := some o.strict
    valueOnly := some o.valueOnly
    coerceTypes := some o.coerceTypes
    removeEmpty := some o.removeEmpty
    nullable := some o.nullable
    strictEnum := some o.strictEnum
    strictType := some o.strictType
    maxRegexLength := some o.maxRegexLength
    pathPrefix := some o.pathPrefix
    refs := some o.refs }

/-- The exception `new ValidationError(errors, partialValue)` for an `errors`
argument that is a value: `undefined` takes the default `[]`; any other value
is stored as it is. -/
def raiseValidation (errors partialValue : Val) : Exn :=
  match errors with
  | .undefined => .validation [] partialValue
  | es => .other (.obj (.inst "ValidationError")
      [("name", .str "ValidationError"), ("message", .str "Validation failed"),
       ("errors", es), ("partialValue", partialValue)])

/-- The test `e instanceof ValidationError` on a caught exception. -/
def isValidationError : Exn → Bool
  | .validation _ _ => true
  | .other (.obj (.inst "ValidationError") _) => true
  | .other _ => false

/-- The `errors` property of a caught `ValidationError`. -/
def caughtErrors : Exn → Val
  | .validation errors _ => .arr (errors.map Err.toVal)
  | .other e => getProp e "errors"

/-- The source's `enforce(obj, callOptions)`. -/
def Schema.enforce (h : Host) (s : Schema) (obj : List (String × Val))
    (callOptions : OptionsPatch) : Except Exn Val :=
  match validate h s obj (assignOptions s.options callOptions).asPatch with
  | .error e => .error e
  | .ok (.result valid errors value) =>
    if valid then .ok value else .error (.validation errors value)
  | .ok (.valueOnly res) =>
    if truthy res ∧ truthy (getProp res "valid") then .ok (getProp res "value")
    else if ¬ truthy res then
      .error (raiseValidation
        (.arr [.obj .plain [("path", .str ""), ("message", .str "validation aborted")]])
        .undefined)
    else .error (raiseValidation (getProp res "errors") (getProp res "value"))

/-- The source's `sanitize(obj, callOptions)`. -/
def Schema.sanitize (h : Host) (s : Schema) (obj : List (String × Val))
    (callOptions : OptionsPatch) : Except Exn Val :=
  match validate h s obj (assignOptions s.options callOptions).asPatch with
  | .error e => .error e
  | .ok res =>
    if (assignOptions s.options callOptions).valueOnly then .ok (getProp res.toVal "value")
    else .ok (.obj .plain
      [("value", getProp res.toVal "value"), ("errors", getProp res.toVal "errors")])

/-- The source's `check(obj, callOptions)`. -/
def Schema.check (h : Host) (s : Schema) (obj : List (String × Val))
    (callOptions : OptionsPatch) : Except Exn Bool :=
  match validate h s obj
      ({ assignOptions s.options callOptions with failFast := true }).asPatch with
  | .ok res => .ok (truthy res.toVal && truthy (getProp res.toVal "valid"))
  | .error e => if isValidationError e then .ok false else .error e

/-- The loop of `assertTypes` over the declared fields. -/
def typesFieldLoop (h : Host) (s : Schema) (obj : List (String × Val)) (opts : Options)
    (overrides : List (String × Val)) : List Field → List Err → List (String × Val) → Flow
  | [], errors, result => .go errors result
  | f :: rest, errors, result =>
    match runField h s obj opts overrides f with
    | .error e => .stop (.error e)
    | .ok (entryErrs, coerced) =>
      if entryErrs.length ≠ 0 ∧ opts.failFast then
        .stop (.ok (.result false (errors ++ entryErrs) .undefined))
      else
        typesFieldLoop h s obj opts overrides rest
          (if entryErrs.length ≠ 0 then errors ++ entryErrs else errors)
          (if typeOf coerced ≠ "undefined" then setKey f.key coerced result
           else if hasKey f.key obj then setKey f.key (lookupKey f.key obj) result
           else result)

/-- The loop of `assertTypes` over `Object.keys(obj)` in strict mode. -/
def typesStrictLoop (s : Schema) (opts : Options) :
    List String → List Err → List (String × Val) → Flow
  | [], errors, result => .go errors result
  | k :: rest, errors, result =>
    if hasKey k s.normalizedSchema then typesStrictLoop s opts rest errors result
    else if opts.removeUnknown then typesStrictLoop s opts rest errors result
    else if opts.failFast then
      .stop (.ok (.result false
        (errors ++ [_makeErrorObj (fieldPath opts k) "unknown field" "ERR_UNKNOWN" .null])
        .undefined))
    else typesStrictLoop s opts rest
      (errors ++ [_makeErrorObj (fieldPath opts k) "unknown field" "ERR_UNKNOWN" .null]) result

/-- The source's `assertTypes(obj, callOptions)`. -/
def Schema.assertTypes (h : Host) (s : Schema) (obj : List (String × Val))
    (callOptions : OptionsPatch) : Except Exn ValidateOut :=
  match typesFieldLoop h s obj (assignOptions s.options callOptions)
      (_evaluateConditionals h s (.obj .plain obj)) s.fields [] [] with
  | .stop r => r
  | .go errors result =>
    if (assignOptions s.options callOptions).strict then
      match typesStrictLoop s (assignOptions s.options callOptions) (obj.map (fun kv => kv.1))
          errors result with
      | .stop r => r
      | .go errors2 result2 => .ok (.result (errors2.length = 0) errors2 (.obj .plain result2))
    else
      .ok (.result (errors.length = 0) errors
        (.obj .plain (lenientTopLoop s (assignOptions s.options callOptions) obj
          (obj.map (fun kv => kv.1)) result)))

/-- The actions `batch` accepts. -/
inductive Action
  | validate | enforce | sanitize | check | assertTypes
  deriving DecidableEq

/-- What `batch` returns, `{ results, aggregated: { valid, errors, value } }`; it
is also the state of its loop (`results`, `aggregatedValid`,
`aggregatedErrors`, `aggregatedValues`). -/
structure BatchOut where
  results : List Val
  valid : Bool
  errors : List Val
  value : List Val
  deriving DecidableEq

/-- A property read `v.k` where `v` may be `undefined` or `null`. -/
def readProp (v : Val) (k : String) : Except Exn Val :=
  match v with
  | .undefined => .error readOfNullish
  | .null => .error readOfNullish
  | w => .ok (getProp w k)

/-- The values `v[0]`, ..., `v[v.length - 1]` that a loop
`for (j = 0; j < v.length; j++)` visits; a `length` that is not a number gives
no iteration. -/
def loopElements (v : Val) : Except Exn (List Val) :=
  match v with
  | .undefined => .error readOfNullish
  | .null => .error readOfNullish
  | .arr xs => .ok xs
  | w =>
    match getProp w "length" with
    | .num n => .ok ((List.range n.toNat).map (fun j => getProp w (toString j)))
    | _ => .ok []

/-- The part shared by the `validate` and `assertTypes` branches of `batch`
after the call: push `r` and `r.value`, and on `!r.valid` the entries of
`r.errors`.  The flag says whether `batch` returns at once. -/
def batchRecord (opts : Options) (st : BatchOut) (r : Val) : Except Exn (BatchOut × Bool) :=
  match readProp r "value" with
  | .error e => .error e
  | .ok rv =>
    if ¬ truthy (getProp r "valid") then
      match loopElements (getProp r "errors") with
      | .error e => .error e
      | .ok es =>
        .ok ({ results := st.results ++ [r], valid := false, errors := st.errors ++ es,
               value := st.value ++ [rv] }, opts.failFast)
    else .ok ({ st with results := st.results ++ [r], value := st.value ++ [rv] }, false)

/-- The body of the `try` block of `batch` for one item. -/
def batchItem (h : Host) (s : Schema) (action : Action) (opts : Options)
    (it : List (String × Val)) (st : BatchOut) : Except Exn (BatchOut × Bool) :=
  match action with
  | .validate =>
    (match validate h s it opts.asPatch with
     | .error e => .error e
     | .ok r => batchRecord opts st r.toVal)
  | .assertTypes =>
    (match Schema.assertTypes h s it opts.asPatch with
     | .error e => .error e
     | .ok r => batchRecord opts st r.toVal)
  | .sanitize =>
    (match Schema.sanitize h s it opts.asPatch with
     | .error e => .error e
     | .ok r =>
       match readProp r "value" with
       | .error e => .error e
       | .ok rv =>
         if truthy (getProp r "errors") ∧ truthy (getProp (getProp r "errors") "length") then
           match loopElements (getProp r "errors") with
           | .error e => .error e
           | .ok es =>
             .ok ({ results := st.results ++ [r], valid := false, errors := st.errors ++ es,
                    value := st.value ++ [rv] }, opts.failFast)
         else .ok ({ st with results := st.results ++ [r], value := st.value ++ [rv] }, false))
  | .enforce =>
    (match Schema.enforce h s it opts.asPatch with
     | .error e => .error e
     | .ok v =>
       .ok ({ st with
              results := st.results ++
                [.obj .plain [("value", v), ("valid", .bool true), ("errors", .arr [])]]
              value := st.value ++ [v] }, false))
  | .check =>
    (match Schema.check h s it opts.asPatch with
     | .error e => .error e
     | .ok ok =>
       if ¬ ok then
         .ok ({ st with results := st.results ++ [.obj .plain [("ok", .bool ok)]],
                        valid := false }, opts.failFast)
       else .ok ({ st with results := st.results ++ [.obj .plain [("ok", .bool ok)]] }, false))

/-- The loop of `batch` over the items, with its `catch` clause. -/
def batchLoop (h : Host) (s : Schema) (action : Action) (opts : Options) :
    List (List (String × Val)) → BatchOut → Except Exn BatchOut
  | [], st => .ok st
  | it :: rest, st =>
    match batchItem h s action opts it st with
    | .ok (st1, true) => .ok { st1 with valid := false }
    | .ok (st1, false) => batchLoop h s action opts rest st1
    | .error e =>
      if isValidationError e then
        match (if truthy (caughtErrors e) then loopElements (caughtErrors e) else .ok []) with
        | .error e2 => .error e2
        | .ok es =>
          if opts.failFast then
            .ok { results := st.results ++ [.obj .plain [("error", caughtErrors e)]],
                  valid := false, errors := st.errors ++ es, value := st.value }
          else
            batchLoop h s action opts rest
              { results := st.results ++ [.obj .plain [("error", caughtErrors e)]],
                valid := false, errors := st.errors ++ es, value := st.value }
      else .error e

/-- The source's `batch(items, action, callOptions)` for a list of object items
and one of the five allowed actions. -/
def Schema.batch (h : Host) (s : Schema) (items : List (List (String × Val))) (action : Action)
    (callOptions : OptionsPatch) : Except Exn BatchOut :=
  batchLoop h s action (assignOptions s.options callOptions) items
    { results := [], valid := true, errors := [], value := [] }

/-! ## Further example hosts and scenarios -/

/-- A host for examples like `exampleHost`, in which the user function `0`
throws the string `boom` on every call. -/
def throwingHost : Host :=
  { exampleHost with
    call := fun f _ =>
      match f with
      | .user 0 _ => .error (.str "boom")
      | _ => .ok .undefined }

/-- A rule whose whole-object predicate is the user function `0`, with the
fragment `{ a: { type: 'number' } }` after normalisation. -/
def predicateRule : Conditional :=
  { pathOrPredicate := .fn (.user 0 "p"), isVal := .undefined,
    fragment := [("a", .obj .plain [("type", .str "number"), ("strictType", .bool false)])] }

/-- The instance of the schema `{ a: 'string' }` with the one rule `predicateRule`. -/
def predicateRuleSchema : Schema :=
  { plainSchema (.obj .plain [("a", .str "string")]) [leafField throwingHost "a" stringEntry]
    with conditionals := [predicateRule] }

/-- The schema `{ kind: 'string', age: { type: 'number' } }`. -/
def kindAgeSchema : List (String × Val) :=
  [("kind", .str "string"), ("age", .obj .plain [("type", .str "number")])]

/-- The rule `when('kind').is('a').do({ age: { min: 0 } })`. -/
def minRule : Val × Val × Val :=
  (.str "kind", .str "a", .obj .plain [("age", .obj .plain [("min", .num 0)])])

/-- The rule `when('kind').is('a').do({ age: { max: 10 } })`. -/
def maxRule : Val × Val × Val :=
  (.str "kind", .str "a", .obj .plain [("age", .obj .plain [("max", .num 10)])])

/-- The schema `{ kind: 'string', box: { type: 'object' } }`. -/
def kindBoxSchema : List (String × Val) :=
  [("kind", .str "string"), ("box", .obj .plain [("type", .str "object")])]

/-- The rule
`when('kind').is('a').do({ box: { properties: { x: { type: 'string', required: true } } } })`. -/
def xRule : Val × Val × Val :=
  (.str "kind", .str "a", .obj .plain [("box", .obj .plain [("properties", .obj .plain
    [("x", .obj .plain [("type", .str "string"), ("required", .bool true)])])])])

/-- The rule `when('kind').is('a').do({ box: { properties: { y: 'number' } } })`. -/
def yRule : Val × Val × Val :=
  (.str "kind", .str "a", .obj .plain [("box", .obj .plain [("properties", .obj .plain
    [("y", .str "number")])])])

/-- The step `new Schema(schemaDef, options)` followed by a call on the
instance; a failure of the constructor is passed on. -/
def withSchema {α : Type} (h : Host) (schemaDef : List (String × Val)) (options : OptionsPatch)
    (f : Schema → Except Exn α) : Except Exn α :=
  match Schema.create h schemaDef options with
  | .ok s => f s
  | .error e => .error e

/-- The schema `{ a: { type: 'string', throw: true } }`. -/
def throwSchema : List (String × Val) :=
  [("a", .obj .plain [("type", .str "string"), ("throw", .bool true)])]

/-- The schema `{ s: { type: 'string', validator: v } }`; `v` is the user
function `0`. -/
def validatedStringSchema : List (String × Val) :=
  [("s", .obj .plain [("type", .str "string"), ("validator", .fn (.user 0 "v"))])]

/-- The descriptor of `qty` in the schema `{ id: 'string', qty: { type: 'number', min: 1 } }`
after normalisation. -/
def qtyEntry : Val :=
  .obj .plain [("type", .str "number"), ("strictType", .bool false), ("min", .num 1),
    ("required", .bool false), ("nullable", .undefined), ("coerce", .undefined),
    ("throw", .undefined)]

/-- The instance of the schema `{ id: 'string', qty: { type: 'number', min: 1 } }`. -/
def orderSchema : Schema :=
  plainSchema
    (.obj .plain [("id", .str "string"),
      ("qty", .obj .plain [("type", .str "number"), ("min", .num 1)])])
    [leafField exampleHost "id" stringEntry, leafField exampleHost "qty" qtyEntry]

/-! ## The instance with its memo tables

A `Schema` value holds the fields of an instance that the result of a call is
computed from.  An `Instance` adds what `validate` itself writes to: the memo
tables `_refCheckerCache` and `_overrideCheckerCache` and the call counters of
`_stats` (the measured times `totalNs` are left out).  The definitions below
thread the instance through the calls the way the source mutates `this`. -/

/-- An instance: the schema and the mutable tables.  The inner `WeakMap`s of
`_overrideCheckerCache` are keyed by the fragment object; fragments are built
once by `do(fragment)` and never written to afterwards, so the table is keyed
here by the field name and the value of the fragment entry. -/
structure Instance where
  schema : Schema
  refCheckerCache : List (Val × Checker)
  overrideCheckerCache : List ((String × Val) × Checker)
  counts : List (String × Nat)

/-- The call `map.get(key)` on a memo table; `none` when `map.has(key)` is false. -/
def cacheGet {κ : Type} [DecidableEq κ] (key : κ) : List (κ × Checker) → Option Checker
  | [] => none
  | (k, c) :: rest => if k = key then some c else cacheGet key rest

/-- The call `map.set(key, c)` on a memo table. -/
def cacheSet {κ : Type} [DecidableEq κ] (key : κ) (c : Checker) :
    List (κ × Checker) → List (κ × Checker)
  | [] => [(key, c)]
  | (k, c2) :: rest => if k = key then (k, c) :: rest else (k, c2) :: cacheSet key c rest

/-- The call `map.delete(key)` on a memo table. -/
def cacheDelete {κ : Type} [DecidableEq κ] (key : κ) (m : List (κ × Checker)) :
    List (κ × Checker) :=
  m.filter (fun kc => kc.1 ≠ key)

/-- The state the constructor leaves: empty tables, no count. -/
def Instance.fresh (s : Schema) : Instance :=
  { schema := s, refCheckerCache := [], overrideCheckerCache := [], counts := [] }

/-- The constructor `new Schema(schemaDef, options)` with the tables. -/
def Instance.create (h : Host) (schemaDef : List (String × Val)) (options : OptionsPatch) :
    Except Exn Instance :=
  match Schema.create h schemaDef options with
  | .ok s => .ok (Instance.fresh s)
  | .error e => .error e

/-- The source's `_resolveRefChecker` with its memo table: a hit returns the
stored checker, a miss stores what the resolution yields. -/
def cachedRefChecker (h : Host) (inst : Instance) (refName : Val) : Checker × Instance :=
  match cacheGet refName inst.refCheckerCache with
  | some c => (c, inst)
  | none =>
    (_resolveRefChecker h inst.schema refName,
     { inst with
       refCheckerCache :=
         cacheSet refName (_resolveRefChecker h inst.schema refName) inst.refCheckerCache })

/-- The test `fragmentEntry && typeof fragmentEntry === 'object'`. -/
def isObjectKey (v : Val) : Bool :=
  truthy v && decide (typeOf v = "object")

/-- The source's `_getOverrideCheckerFor` with its memo table. -/
def cachedOverrideChecker (h : Host) (inst : Instance) (fieldName : String)
    (fragmentEntry : Val) : Except Exn Checker × Instance :=
  if isObjectKey fragmentEntry then
    match cacheGet (fieldName, fragmentEntry) inst.overrideCheckerCache with
    | some c => (.ok c, inst)
    | none =>
      match _getOverrideCheckerFor h inst.schema fieldName fragmentEntry with
      | .ok c =>
        (.ok c,
         { inst with
           overrideCheckerCache :=
             cacheSet (fieldName, fragmentEntry) c inst.overrideCheckerCache })
      | .error e => (.error e, inst)
  else (_getOverrideCheckerFor h inst.schema fieldName fragmentEntry, inst)

/-- The checker `validate` runs for a declared field, with the memo tables. -/
def cachedSelect (h : Host) (inst : Instance) (overrides : List (String × Val)) (f : Field) :
    Except Exn Checker × Instance :=
  if hasKey f.key overrides then cachedOverrideChecker h inst f.key (lookupKey f.key overrides)
  else match f.checker with
    | .compiled c => (.ok c, inst)
    | .lazyRef name => (.ok (cachedRefChecker h inst name).1, (cachedRefChecker h inst name).2)

/-- The statement `this._stats.counts[k] = (this._stats.counts[k] || 0) + 1`. -/
def bumpCount (k : String) : List (String × Nat) → List (String × Nat)
  | [] => [(k, 1)]
  | (k2, n) :: rest => if k2 = k then (k2, n + 1) :: rest else (k2, n) :: bumpCount k rest

/-- The loop of `validate` over the declared fields on an instance: each
iteration may fill a memo table and counts the call of the checker. -/
def cachedFieldLoop (h : Host) (obj : List (String × Val)) (opts : Options)
    (overrides : List (String × Val)) :
    List Field → List Err → List (String × Val) → Instance → Flow × Instance
  | [], errors, result, inst => (.go errors result, inst)
  | f :: rest, errors, result, inst =>
    match (cachedSelect h inst overrides f).1 with
    | .error e => (.stop (.error e), (cachedSelect h inst overrides f).2)
    | .ok ck =>
      match ck (lookupKey f.key obj) { path := fieldPath opts f.key, options := opts } with
      | .error e => (.stop (.error e), (cachedSelect h inst overrides f).2)
      | .ok (entryErrors, coerced) =>
        if entryErrors.length ≠ 0 ∧ opts.failFast then
          (.stop (failFastExit opts (errors ++ entryErrors) result),
           { (cachedSelect h inst overrides f).2 with
             counts := bumpCount f.key (cachedSelect h inst overrides f).2.counts })
        else
          cachedFieldLoop h obj opts overrides rest
            (if entryErrors.length ≠ 0 then errors ++ entryErrors else errors)
            (if typeOf coerced ≠ "undefined" then setKey f.key coerced result
             else if hasKey f.key obj then setKey f.key (lookupKey f.key obj) result
             else result)
            { (cachedSelect h inst overrides f).2 with
              counts := bumpCount f.key (cachedSelect h inst overrides f).2.counts }

/-- The source's `validate(obj, callOptions)` on an instance: what the call
returns or raises, and the instance after the call. -/
def Instance.validate (h : Host) (inst : Instance) (obj : List (String × Val))
    (callOptions : OptionsPatch) : Except Exn ValidateOut × Instance :=
  match cachedFieldLoop h obj (assignOptions inst.schema.options callOptions)
      (_evaluateConditionals h inst.schema (.obj .plain obj)) inst.schema.fields [] [] inst with
  | (.stop r, inst2) => (r, inst2)
  | (.go errors result, inst2) =>
    match unknownKeys inst.schema (assignOptions inst.schema.options callOptions) obj errors
        result with
    | .stop r => (r, inst2)
    | .go errors2 result2 =>
      (finish (assignOptions inst.schema.options callOptions) errors2 result2, inst2)

/-- The source's `addRef(name, def)` on an instance. -/
def Instance.addRef (h : Host) (inst : Instance) (name definition : Val) : Except Exn Instance :=
  match Schema.addRef h inst.schema name definition with
  | .error e => .error e
  | .ok s => .ok { inst with schema := s, refCheckerCache := cacheDelete name inst.refCheckerCache }

/-- The map `incoming` of `addRefs`. -/
def incomingRefs (refs : Val) : Except Exn (List (String × Val)) :=
  match refs with
  | .arr xs => .ok (loadRefMaps [] xs)
  | .obj _ _ => .ok (objectAssign [] refs)
  | _ => .error (.other (mkTypeError "refs must be an object map or array of maps"))

/-- The source's `addRefs(refs)`: the registry after the call, or what the call
raises. -/
def Schema.addRefs (s : Schema) (refs : Val) : Except Exn Schema :=
  if ¬ truthy refs then .ok s
  else match incomingRefs refs with
    | .error e => .error e
    | .ok incoming =>
      if ((incoming.map (fun kv => kv.1)).filter (fun k => hasKey k s.externalRefs)).length ≠ 0 then
        .error (.other (schemaErrorVal
          (((incoming.map (fun kv => kv.1)).filter (fun k => hasKey k s.externalRefs)).map
            (fun d => .obj .plain
              [("path", .str d), ("message", .str ("Ref '" ++ d ++ "' already exists"))]))))
      else
        .ok { s with
          externalRefs := incoming.foldl (fun acc kv => setKey kv.1 kv.2 acc) s.externalRefs }

/-- The source's `addRefs(refs)` on an instance: every merged name is deleted
from the memo table. -/
def Instance.addRefs (inst : Instance) (refs : Val) : Except Exn Instance :=
  if ¬ truthy refs then .ok inst
  else match incomingRefs refs with
    | .error e => .error e
    | .ok incoming =>
      match Schema.addRefs inst.schema refs with
      | .error e => .error e
      | .ok s =>
        .ok { inst with
          schema := s
          refCheckerCache :=
            incoming.foldl (fun m kv => cacheDelete (Val.str kv.1) m) inst.refCheckerCache }

/-- The source's `overrideRef(name, def)` on an instance. -/
def Instance.overrideRef (h : Host) (inst : Instance) (name definition : Val) :
    Except Exn Instance :=
  match Schema.overrideRef h inst.schema name definition with
  | .error e => .error e
  | .ok s => .ok { inst with schema := s, refCheckerCache := cacheDelete name inst.refCheckerCache }

/-- The source's `removeRef(name)` on an instance. -/
def Instance.removeRef (h : Host) (inst : Instance) (name : Val) : Bool × Instance :=
  if ¬ isRefName name then (false, inst)
  else
    ((Schema.removeRef h inst.schema name).1,
     { inst with
       schema := (Schema.removeRef h inst.schema name).2
       refCheckerCache := cacheDelete name inst.refCheckerCache })

/-- The source's `updateOptions(opts)`: the options after `Object.assign`. -/
def Schema.updateOptions (s : Schema) (opts : OptionsPatch) : Schema :=
  { s with options := assignOptions s.options opts }

/-- The source's `updateOptions(opts)` on an instance: both memo tables are
emptied. -/
def Instance.updateOptions (inst : Instance) (opts : OptionsPatch) : Instance :=
  { inst with
    schema := inst.schema.updateOptions opts
    refCheckerCache := []
    overrideCheckerCache := [] }

/-- The source's `withOptions(opts)`: `new Schema(this.rawSchema, merged)`, then
the external references of the original are copied into the clone. -/
def Schema.withOptions (h : Host) (s : Schema) (opts : OptionsPatch) : Except Exn Schema :=
  match s.rawSchema with
  | .obj _ schemaDef =>
    (match Schema.create h schemaDef (assignOptions s.options opts).asPatch with
     | .error e => .error e
     | .ok clone => .ok { clone with externalRefs := objectAssign [] (.obj .plain s.externalRefs) })
  | _ => .error (.other (mkTypeError "schemaDef must be an object"))

/-- A call that changes or uses an instance. -/
inductive Op
  | addRef (name definition : Val)
  | addRefs (refs : Val)
  | overrideRef (name definition : Val)
  | removeRef (name : Val)
  | updateOptions (opts : OptionsPatch)
  | validate (obj : List (String × Val)) (callOptions : OptionsPatch)

/-- The instance after one call; a call that raises before it changes anything
leaves the instance as it was. -/
def Instance.step (h : Host) (inst : Instance) : Op → Instance
  | .addRef name definition =>
    (match inst.addRef h name definition with
     | .ok i => i
     | .error _ => inst)
  | .addRefs refs =>
    (match inst.addRefs refs with
     | .ok i => i
     | .error _ => inst)
  | .overrideRef name definition =>
    (match inst.overrideRef h name definition with
     | .ok i => i
     | .error _ => inst)
  | .removeRef name => (inst.removeRef h name).2
  | .updateOptions opts => inst.updateOptions opts
  | .validate obj callOptions => (inst.validate h obj callOptions).2

/-- The instance after a sequence of calls. -/
def Instance.run (h : Host) (inst : Instance) (ops : List Op) : Instance :=
  ops.foldl (Instance.step h) inst

/-- Spec-side: the checker freshly compiled from the definition `name`
resolves to at present (`lookupRef`), or the one reporting an unresolved
reference. -/
def freshRefChecker (h : Host) (s : Schema) (name : String) : Checker :=
  match lookupRef h s name with
  | some (kind, raw) => refCheckerOf h s (.str name) kind raw
  | none => failingChecker ("unresolved ref '" ++ name ++ "'") "ERR_REF_UNRESOLVED" .null

/-- Two instances serve the same checkers: they have the same schema fields,
and for every reference name, and for every field and fragment, a call of the
memoised resolution yields the same checker on both. -/
def SameView (h : Host) (a b : Instance) : Prop :=
  a.schema = b.schema
    ∧ (∀ name : Val, (cachedRefChecker h a name).1 = (cachedRefChecker h b name).1)
    ∧ (∀ (k : String) (frag : Val),
        (cachedOverrideChecker h a k frag).1 = (cachedOverrideChecker h b k frag).1)

/-- Coherence of the memo tables: the checker stored for a reference name (a
string) is the one `_resolveRefChecker` compiles from the present state of the
instance, and the checker stored for a field and a fragment is the one
`_getOverrideCheckerFor` compiles. -/
def Coherent (h : Host) (inst : Instance) : Prop :=
  (∀ (name : String) (c : Checker), cacheGet (Val.str name) inst.refCheckerCache = some c →
      c = _resolveRefChecker h inst.schema (.str name))
    ∧ (∀ (k : String) (frag : Val) (c : Checker),
        cacheGet (k, frag) inst.overrideCheckerCache = some c →
        _getOverrideCheckerFor h inst.schema k frag = .ok c)

/-- The steps `new Schema(schemaDef, options)`, the calls `ops` in order, then
`validate(obj, callOptions)`. -/
def validateAfter (h : Host) (schemaDef : List (String × Val)) (options : OptionsPatch)
    (ops : List Op) (obj : List (String × Val)) (callOptions : OptionsPatch) :
    Except Exn ValidateOut :=
  match Instance.create h schemaDef options with
  | .error e => .error e
  | .ok inst => ((inst.run h ops).validate h obj callOptions).1

/-- The schema `{ a: { $ref: 'R' } }`. -/
def refOnlySchema : List (String × Val) :=
  [("a", .obj .plain [("$ref", .str "R")])]

/-- The calls of the reference test with a validation in between:
`addRef('R', { type: 'string' })`, `validate({ a: 1 })`,
`overrideRef('R', { type: 'number' })`. -/
def refScenario : List Op :=
  [.addRef (.str "R") (.obj .plain [("type", .str "string")]),
   .validate [("a", .num 1)] {},
   .overrideRef (.str "R") (.obj .plain [("type", .str "number")])]

/-! ## Scenarios for cloning, shorthands and nested structures -/

/-- The schema `{ tags: ['array', { items: 'string' }] }`, in tuple shorthand. -/
def tupleTagsSchema : List (String × Val) :=
  [("tags", .arr [.str "array", .obj .plain [("items", .str "string")]])]

/-- The schema `{ tags: { type: 'array', items: 'string' } }`, as a full descriptor. -/
def objectTagsSchema : List (String × Val) :=
  [("tags", .obj .plain [("type", .str "array"), ("items", .str "string")])]

/-- The schema `{ s: ['string', { regex: '^a' }] }`, in tuple shorthand. -/
def tupleRegexSchema : List (String × Val) :=
  [("s", .arr [.str "string", .obj .plain [("regex", .str "^a")]])]

/-- The schema `{ s: { type: 'string', regex: '^a' } }`, as a full descriptor. -/
def objectRegexSchema : List (String × Val) :=
  [("s", .obj .plain [("type", .str "string"), ("regex", .str "^a")])]

/-- The steps `new Schema(schemaDef, options)`, registration of `rules`, then
`withOptions(opts)` and `validate(obj)` on the clone. -/
def validateOnClone (h : Host) (schemaDef : List (String × Val)) (options : OptionsPatch)
    (rules : List (Val × Val × Val)) (opts : OptionsPatch) (obj : List (String × Val)) :
    Except Exn ValidateOut :=
  match Schema.create h schemaDef options with
  | .error e => .error e
  | .ok s =>
    match registerRules h s rules with
    | .error e => .error e
    | .ok s2 =>
      match Schema.withOptions h s2 opts with
      | .error e => .error e
      | .ok clone => validate h clone obj {}

/-- The schema `{ a: { validator: f, throw: true } }`; `f` is the user function `0`. -/
def throwValidatorSchema : List (String × Val) :=
  [("a", .obj .plain [("validator", .fn (.user 0 "f")), ("throw", .bool true)])]

/-- The schema `{ a: { validator: f } }`; `f` is the user function `0`. -/
def plainValidatorSchema : List (String × Val) :=
  [("a", .obj .plain [("validator", .fn (.user 0 "f"))])]

/-- The compiled form of the descriptor `{ validator: f, throw: true }`. -/
def throwValidatorRules : Rules :=
  readRules (.obj .plain [("validator", .fn (.user 0 "f")), ("throw", .bool true)])

/-- A host like `twoMessageHost` in which `String` renders an error object as
`name: message`, as `Error.prototype.toString` does. -/
def errorNamingHost : Host :=
  { twoMessageHost with
    toStr := fun v =>
      match v with
      | .obj (.inst _) kvs =>
        (match lookupKey "name" kvs, lookupKey "message" kvs with
         | .str n, .str m => n ++ ": " ++ m
         | _, _ => "[object Object]")
      | _ => "[object Object]" }

/-- The schema `{ tags: { type: 'array', items: 'string', validator: f } }`; `f` is the
user function `0`. -/
def validatedTagsSchema : List (String × Val) :=
  [("tags", .obj .plain [("type", .str "array"), ("items", .str "string"),
    ("validator", .fn (.user 0 "f"))])]

/-- The compiled form of the descriptor
`{ type: 'array', items: 'string', validator: f }`, items apart. -/
def validatedArrayRules : Rules :=
  readRules (.obj .plain [("type", .str "array"), ("validator", .fn (.user 0 "f")),
    ("strictType", .bool false), ("items", .obj .plain [("type", .str "string")])])

/-- The instance the constructor builds for the schema `{ a: 'string' }` with the
option `pathPrefix: 'root'`. -/
def rootedStringSchema : Schema :=
  { plainSchema (.obj .plain [("a", .str "string")]) [leafField exampleHost "a" stringEntry] with
    options := { DEFAULT_OPTIONS with pathPrefix := "root" } }

/-- The descriptor of `n` in the schema `{ n: { type: 'number', coerce: true } }`
after normalisation. -/
def coercedNumberEntry : Val :=
  .obj .plain [("type", .str "number"), ("coerce", .bool true), ("strictType", .bool false),
    ("required", .bool false), ("nullable", .undefined), ("throw", .undefined)]

/-- The instance the constructor builds for the schema
`{ n: { type: 'number', coerce: true } }`. -/
def coercedNumberSchema : Schema :=
  plainSchema (.obj .plain [("n", .obj .plain [("type", .str "number"), ("coerce", .bool true)])])
    [leafField exampleHost "n" coercedNumberEntry]

/-- The schema `{ a: { type: 'string', required: true } }`. -/
def requiredTextSchema : List (String × Val) :=
  [("a", .obj .plain [("type", .str "string"), ("required", .bool true)])]

/-- The schema `{ n: { type: 'number', coerce: true }, m: 'number' }`. -/
def twoNumbersSchema : List (String × Val) :=
  [("n", .obj .plain [("type", .str "number"), ("coerce", .bool true)]), ("m", .str "number")]

/-- The rule `when('n').is(5).do({ m: { type: 'string' } })`. -/
def retypeRule : Val × Val × Val :=
  (.str "n", .num 5, .obj .plain [("m", .obj .plain [("type", .str "string")])])

/-! ## Spec-side notions for nested structures -/

/-- Spec-side: the calls of the items checker on the elements of an array at
`path`, the element at index `i` being checked at the path `_arrayPath path i`;
`start` is the index of the first element of the list. -/
def elementResults (ic : Checker) (path : String) (options : Options) :
    List Val → Nat → List CheckResult
  | [], _ => []
  | x :: rest, start =>
    ic x { path := _arrayPath path start, options := options }
      :: elementResults ic path options rest (start + 1)

/-- The compiled form of the descriptor `'string'` of an array element. -/
def stringItemChecker : Checker :=
  checker exampleHost (readRules (.obj .plain [("type", .str "string")])) none none

/-- The compiled form of the descriptor `{ type: 'array', items: 'string' }`, items
apart. -/
def arrayRules : Rules :=
  readRules (.obj .plain [("type", .str "array"), ("strictType", .bool false),
    ("items", .obj .plain [("type", .str "string")])])

/-- The outcomes of `stringItemChecker` on the elements of `['a', 1, 2]` at the
path `tags`. -/
def mixedOutcomes : List (List Err × Val) :=
  [([], .str "a"),
   ([{ path := "tags[1]", message := "Invalid tags[1] field. expected type string, received number"
       code := "ERR_TYPE", rawError := .null }], .num 1),
   ([{ path := "tags[2]", message := "Invalid tags[2] field. expected type string, received number"
       code := "ERR_TYPE", rawError := .null }], .num 2)]

/-- The base descriptor
`{ type: 'object', required: false, properties: { x: { type: 'string' } } }`. -/
def boxBaseEntries : List (String × Val) :=
  [("type", .str "object"), ("required", .bool false),
   ("properties", .obj .plain [("x", .obj .plain [("type", .str "string")])])]

/-- The fragment
`{ required: true, properties: { x: { min: 1 }, y: { type: 'number' } } }`. -/
def boxFragmentEntries : List (String × Val) :=
  [("required", .bool true),
   ("properties", .obj .plain [("x", .obj .plain [("min", .num 1)]),
     ("y", .obj .plain [("type", .str "number")])])]

/-- Two option records agree on the flags that the checkers read: `failFast`,
`removeUnknown`, `strict`, `coerceTypes`, `nullable`, `strictEnum`, `strictType`. -/
def SameFlags (a b : Options) : Prop :=
  a.failFast = b.failFast ∧ a.removeUnknown = b.removeUnknown ∧ a.strict = b.strict
    ∧ a.coerceTypes = b.coerceTypes ∧ a.nullable = b.nullable ∧ a.strictEnum = b.strictEnum
    ∧ a.strictType = b.strictType

/-- A checker whose result depends on the options through those flags only. -/
def ReadsFlagsOnly (c : Checker) : Prop :=
  ∀ (v : Val) (path : String) (a b : Options), SameFlags a b →
    c v { path := path, options := a } = c v { path := path, options := b }

/-- The schema `{ root: { type: 'object', properties: S } }` for a schema map `S`. -/
def nestUnder (S : List (String × Val)) : List (String × Val) :=
  [("root", .obj .plain [("type", .str "object"), ("properties", .obj .plain S)])]

/-- The verdict of a validation: `valid` and `errors` of the result record. -/
def ValidateOut.verdict : ValidateOut → Bool × List Err
  | .result valid errors _ => (valid, errors)
  | .valueOnly _ => (true, [])

/-- The five defaults `normalizeSchema` adds to the descriptor of a top-level
key (`required`, `nullable`, `coerce`, `strictType`, `throw`), as a function of
the descriptor `normalizeEntry` returned. -/
def withTopDefaults (n : Val) : Val :=
  let out := objectAssign [] n
  let out := if hasKey "required" out then out else setKey "required" (.bool false) out
  let out := if hasKey "nullable" out then out else setKey "nullable" .undefined out
  let out := if hasKey "coerce" out then out else setKey "coerce" .undefined out
  let out := if hasKey "strictType" out then out else setKey "strictType" .undefined out
  let out := if hasKey "throw" out then out else setKey "throw" .undefined out
  .obj .plain out

/-- The descriptor the constructor stores for the key `root` of `nestUnder S`,
given the normalised properties. -/
def rootEntry (ps : List (String × Val)) : Val :=
  .obj .plain [("type", .str "object"), ("strictType", .bool false),
    ("properties", .obj .plain ps), ("required", .bool false), ("nullable", .undefined),
    ("coerce", .undefined), ("throw", .undefined)]

/-- Every declared field of the instance that has a compiled checker returns a
defined normalised value for the input `obj` (under the options of the
instance). -/
def AllFieldsDefined (s : Schema) (obj : List (String × Val)) : Prop :=
  ∀ f ∈ s.fields, ∀ c, f.checker = .compiled c → ∀ errs cv,
    c (lookupKey f.key obj) { path := fieldPath s.options f.key, options := s.options }
      = .ok (errs, cv) →
    typeOf cv ≠ "undefined"

/-- A checker is idempotent on clean runs: a defined value it returns without an
error is, given back at the same path under the same options, returned
unchanged and without an error. -/
def Idempotent (c : Checker) : Prop :=
  ∀ (v : Val) (ctx : Ctx) (y : Val),
    c v ctx = .ok ([], y) → typeOf y ≠ "undefined" → c y ctx = .ok ([], y)

/-- An object whose keys are all outside the declared ones (`declared k` is
false for each), each key held once. -/
def KeysOutside (declared : String → Bool) (U : List (String × Val)) : Prop :=
  (∀ k, hasKey k U = true → declared k = false) ∧ (U.map (fun kv => kv.1)).Nodup

/-- A checker settles: a value it returns without an error is returned unchanged
and without an error when given back (same path and options), and it returns
a defined value for a defined input. -/
def Settled (c : Checker) : Prop :=
  ∀ (v : Val) (ctx : Ctx) (y : Val), c v ctx = .ok ([], y) →
    c y ctx = .ok ([], y) ∧ (typeOf v ≠ "undefined" → typeOf y ≠ "undefined")

/-- The rules of a descriptor with `items` or `properties` under which the array
or object that the checker rebuilds passes the descriptor's own checks again:
the declared type is absent, `'any'`, `'array'`, `'object'`, `Array` or `Object`, and
there is no non-empty `enum`. -/
def ContainerRules (r : Rules) : Prop :=
  (r.type = .undefined ∨ r.type = .str "any" ∨ r.type = .str "array" ∨ r.type = .str "object"
      ∨ r.type = .fn .jsArray ∨ r.type = .fn .jsObject)
    ∧ (∀ es, r.enumVals = .arr es → es = [])

/-- The value a container checker rebuilds from `w`: an array of the same length
for an array, a plain object for an object. -/
def SameKind (w y : Val) : Prop :=
  (∃ xs ys, w = .arr xs ∧ y = .arr ys ∧ ys.length = xs.length)
    ∨ (∃ cls kvs R, w = .obj cls kvs ∧ y = .obj .plain R)

/-! ## Patterns with state

A `RegExp` instance given in a schema is stored as it is, and `regex.test(out)`
reads and writes its `lastIndex` when the pattern has the global or the sticky
flag.  The checkers above take the test as a function of the pattern and the
string, which is what a pattern without these flags does.  The definitions of
this section follow the same code with the `lastIndex` of every pattern kept in
a store that each call reads and returns. -/

/-- The matcher of the regular-expression engine: `matchEnd source sticky s i`
is the index at which the first match of the pattern in `s` ends, the match
starting at the index `i` or later (exactly at `i` for a sticky pattern);
`none` when there is no such match or `i` is beyond the end of `s`. -/
structure Engine where
  matchEnd : String → Bool → String → Nat → Option Nat

/-- The `lastIndex` of each pattern that has been written to.  A pattern is
identified by its value (values carry no heap identity); its flags `global`
and `sticky` are entries of the value. -/
abbrev Store := List (Val × Nat)

/-- The `lastIndex` of a pattern: `0`, that of a fresh `RegExp`, when the store
does not hold the pattern. -/
def lastIndexOf (re : Val) : Store → Nat
  | [] => 0
  | (r, n) :: rest => if r = re then n else lastIndexOf re rest

/-- The assignment `re.lastIndex = n`. -/
def setLastIndex (re : Val) (n : Nat) : Store → Store
  | [] => [(re, n)]
  | (r, m) :: rest => if r = re then (r, n) :: rest else (r, m) :: setLastIndex re n rest

/-- Whether `test` on the pattern reads and writes `lastIndex`: the pattern has
the global or the sticky flag. -/
def isStatefulPattern (re : Val) : Bool :=
  truthy (getProp re "global") || truthy (getProp re "sticky")

/-- The call `regex.test(s)` on the stored pattern `re` with the given source: a
pattern with the global or sticky flag is matched from its `lastIndex`, which
becomes the end of the match, or `0` when there is none; another pattern is
matched with no state. -/
def regexTestS (h : Host) (eng : Engine) (re : Val) (source s : String) (st : Store) :
    Bool × Store :=
  if isStatefulPattern re then
    match eng.matchEnd source (truthy (getProp re "sticky")) s (lastIndexOf re st) with
    | some e => (true, setLastIndex re e st)
    | none => (false, setLastIndex re 0 st)
  else (h.regexTest source s, st)

/-- A compiled checker together with the store it reads and returns. -/
abbrev CheckerS := Val → Ctx → Store → CheckResult × Store

/-- The items loop of `itemsLoop`, with the store. -/
def itemsLoopS (r : Rules) (itemsChecker : CheckerS) (path : String) (options : Options)
    (out : Val) :
    List Val → Nat → List Err → List Val → Bool → Store → LoopOut (List Val × Bool) × Store
  | [], _, errs, newArr, hadErr, st => (.finished errs (newArr, hadErr), st)
  | x :: rest, i, errs, newArr, hadErr, st =>
    match itemsChecker x { path := _arrayPath path i, options := options } st with
    | (.error ex, st1) => (.returned (.error ex), st1)
    | (.ok (childErrs, childVal), st1) =>
      if childErrs.length ≠ 0 then
        if options.failFast then
          if r.throwField then
            (.returned (.error (.validation (errs ++ childErrs) .undefined)), st1)
          else (.returned (.ok (errs ++ childErrs, out)), st1)
        else
          itemsLoopS r itemsChecker path options out rest (i + 1) (errs ++ childErrs) newArr
            true st1
      else
        itemsLoopS r itemsChecker path options out rest (i + 1) errs (newArr ++ [childVal])
          hadErr st1

/-- The properties loop of `propsLoop`, with the store. -/
def propsLoopS (r : Rules) (path : String) (options : Options) (out : Val) :
    List (String × CheckerS) → List Err → List (String × Val) → Store →
    LoopOut (List (String × Val)) × Store
  | [], errs, nestedResult, st => (.finished errs nestedResult, st)
  | (pk, ck) :: rest, errs, nestedResult, st =>
    match ck (getProp out pk) { path := childPathOf path pk, options := options } st with
    | (.error ex, st1) => (.returned (.error ex), st1)
    | (.ok (childErrs, childVal), st1) =>
      if childErrs.length ≠ 0 then
        if options.failFast then
          if r.throwField then
            (.returned (.error (.validation (errs ++ childErrs) .undefined)), st1)
          else (.returned (.ok (errs ++ childErrs, out)), st1)
        else propsLoopS r path options out rest (errs ++ childErrs) nestedResult st1
      else propsLoopS r path options out rest errs (setKey pk childVal nestedResult) st1

/-- Step 9, second half, with the store. -/
def fromPropsS (h : Host) (r : Rules) (propertiesCheck : Option (List (String × CheckerS)))
    (errs : List Err) (out : Val) (ctx : Ctx) (st : Store) : CheckResult × Store :=
  match propertiesCheck with
  | some props =>
    if _isPlainObject out then
      let nk := props.map (fun p => p.1)
      match propsLoopS r ctx.path ctx.options out props errs [] st with
      | (.returned res, st1) => (res, st1)
      | (.finished errs1 nestedResult, st1) =>
        if ctx.options.strict then
          match strictUnknownLoop r ctx.path ctx.options out nk (objectKeys out) errs1 with
          | .returned res => (res, st1)
          | .finished errs2 _ => (fromValidator h r errs2 (.obj .plain nestedResult) ctx, st1)
        else
          (fromValidator h r errs1
            (.obj .plain (lenientUnknownLoop ctx.options out nk (objectKeys out) nestedResult))
            ctx, st1)
    else (fromValidator h r errs out ctx, st)
  | none => (fromValidator h r errs out ctx, st)

/-- Step 9, first half, with the store. -/
def fromItemsS (h : Host) (r : Rules) (itemsChecker : Option CheckerS)
    (propertiesCheck : Option (List (String × CheckerS))) (out : Val) (ctx : Ctx)
    (st : Store) : CheckResult × Store :=
  match out, itemsChecker with
  | .arr xs, some ic =>
    (match itemsLoopS r ic ctx.path ctx.options out xs 0 [] [] false st with
     | (.returned res, st1) => (res, st1)
     | (.finished errs (newArr, hadErr), st1) =>
       fromPropsS h r propertiesCheck errs (if hadErr then out else .arr newArr) ctx st1)
  | _, _ => fromPropsS h r propertiesCheck [] out ctx st

/-- Step 8, with the store. -/
def fromBoundsS (h : Host) (r : Rules) (itemsChecker : Option CheckerS)
    (propertiesCheck : Option (List (String × CheckerS))) (out : Val) (ctx : Ctx)
    (st : Store) : CheckResult × Store :=
  if typeOf out = "number" then
    if typeOf r.min = "number" ∧ numLt out r.min then
      (emit r [] (makeErr r ctx.path ("must be >= " ++ toStringJS h r.min) "ERR_MIN" .null)
        out out, st)
    else if typeOf r.max = "number" ∧ numLt r.max out then
      (emit r [] (makeErr r ctx.path ("must be <= " ++ toStringJS h r.max) "ERR_MAX" .null)
        out out, st)
    else fromItemsS h r itemsChecker propertiesCheck out ctx st
  else if typeOf out = "string" ∨ isArray out then
    if typeOf r.min = "number" ∧ numLt (lengthOf out) r.min then
      (emit r [] (makeErr r ctx.path ("length must be >= " ++ toStringJS h r.min) "ERR_MIN"
        .null) out out, st)
    else if typeOf r.max = "number" ∧ numLt r.max (lengthOf out) then
      (emit r [] (makeErr r ctx.path ("length must be <= " ++ toStringJS h r.max) "ERR_MAX"
        .null) out out, st)
    else fromItemsS h r itemsChecker propertiesCheck out ctx st
  else fromItemsS h r itemsChecker propertiesCheck out ctx st

/-- Step 7, with the store: the one step that writes to it.  The test is called
only for a string value (`typeof out !== 'string' || !regex.test(out)`). -/
def fromRegexS (h : Host) (eng : Engine) (r : Rules) (itemsChecker : Option CheckerS)
    (propertiesCheck : Option (List (String × CheckerS))) (out : Val) (ctx : Ctx)
    (st : Store) : CheckResult × Store :=
  if truthy r.regex then
    match r.regex with
    | .obj (.regexp source) _ =>
      (match out with
       | .str s =>
         if (regexTestS h eng r.regex source s st).1 then
           fromBoundsS h r itemsChecker propertiesCheck out ctx
             (regexTestS h eng r.regex source s st).2
         else
           (emit r [] (makeErr r ctx.path
             ("String should follow regex pattern " ++ h.regexToString source) "ERR_REGEX"
             .null) out out, (regexTestS h eng r.regex source s st).2)
       | _ =>
         (emit r [] (makeErr r ctx.path
           ("String should follow regex pattern " ++ h.regexToString source) "ERR_REGEX" .null)
           out out, st))
    | _ =>
      (emit r [] (makeErr r ctx.path "regex must be a RegExp instance" "ERR_REGEX" .null)
        out out, st)
  else fromBoundsS h r itemsChecker propertiesCheck out ctx st

/-- Step 6, with the store. -/
def fromEnumS (h : Host) (eng : Engine) (r : Rules) (itemsChecker : Option CheckerS)
    (propertiesCheck : Option (List (String × CheckerS))) (out : Val) (ctx : Ctx)
    (st : Store) : CheckResult × Store :=
  match r.enumVals with
  | .arr es =>
    if es.length > 0 ∧ ¬ _enumMatch h r.enumVals out ctx.options.strictEnum then
      (emit r [] (makeErr r ctx.path ("must be one of [" ++ enumFriendly h es ++ "]") "ERR_ENUM"
        .null) out out, st)
    else fromRegexS h eng r itemsChecker propertiesCheck out ctx st
  | _ => fromRegexS h eng r itemsChecker propertiesCheck out ctx st

/-- Step 5, with the store. -/
def fromTypeS (h : Host) (eng : Engine) (r : Rules) (itemsChecker : Option CheckerS)
    (propertiesCheck : Option (List (String × CheckerS))) (out : Val) (ctx : Ctx)
    (st : Store) : CheckResult × Store :=
  if typeOf r.type ≠ "undefined" ∧ ¬ strictEq r.type (.str "any") ∧ ¬ _matchesType h r.type out then
    let e := makeErr r ctx.path
      ("expected " ++ _expectedLabelForType h r.type ++ ", received " ++ _getType out)
      "ERR_TYPE" .null
    if r.strictType ∨ ctx.options.strictType then (emit r [] e out out, st)
    else (emit r [] e out out, st)
  else fromEnumS h eng r itemsChecker propertiesCheck out ctx st

/-- Step 4, with the store. -/
def fromCoerceS (h : Host) (eng : Engine) (r : Rules) (itemsChecker : Option CheckerS)
    (propertiesCheck : Option (List (String × CheckerS))) (out : Val) (ctx : Ctx)
    (st : Store) : CheckResult × Store :=
  if (r.coerceField ∨ ctx.options.coerceTypes) ∧ typeOf r.type ≠ "undefined" then
    let c := _coerceToType h out r.type
    if c.coerced then fromTypeS h eng r itemsChecker propertiesCheck c.coercedValue ctx st
    else if isCorePrimitive r.type then
      (emit r [] (makeErr r ctx.path
        ("coercion failed (" ++
          (if truthy c.error then toStringJS h (getProp c.error "message") else "unknown") ++ ")")
        "ERR_COERCE" (if truthy c.error then c.error else .null)) out out, st)
    else fromTypeS h eng r itemsChecker propertiesCheck out ctx st
  else fromTypeS h eng r itemsChecker propertiesCheck out ctx st

/-- Step 3, with the store. -/
def fromValidatorOnlyS (h : Host) (eng : Engine) (r : Rules) (itemsChecker : Option CheckerS)
    (propertiesCheck : Option (List (String × CheckerS))) (out : Val) (ctx : Ctx)
    (st : Store) : CheckResult × Store :=
  match r.validator with
  | .fn f =>
    if typeOf r.type = "undefined" then (runValidator h r f [] out ctx.path, st)
    else fromCoerceS h eng r itemsChecker propertiesCheck out ctx st
  | _ => fromCoerceS h eng r itemsChecker propertiesCheck out ctx st

/-- Step 2, with the store. -/
def fromNullS (h : Host) (eng : Engine) (r : Rules) (itemsChecker : Option CheckerS)
    (propertiesCheck : Option (List (String × CheckerS))) (out : Val) (ctx : Ctx)
    (st : Store) : CheckResult × Store :=
  if out matches .null then
    if r.nullable ∨ ctx.options.nullable ∨ strictEq r.type (.str "null") then (.ok ([], out), st)
    else (emit r [] (makeErr r ctx.path "must not be null" "ERR_NULL" .null) .undefined out, st)
  else fromValidatorOnlyS h eng r itemsChecker propertiesCheck out ctx st

/-- The closure `checker` returned by `makeChecker`, with the store. -/
def checkerS (h : Host) (eng : Engine) (r : Rules) (itemsChecker : Option CheckerS)
    (propertiesCheck : Option (List (String × CheckerS))) : CheckerS :=
  fun value ctx st =>
    if typeOf value = "undefined" then
      if typeOf r.deflt ≠ "undefined" then
        match r.deflt with
        | .fn f =>
          (match h.call f [] with
           | .ok v => fromNullS h eng r itemsChecker propertiesCheck v ctx st
           | .error e => (.error (.other e), st))
        | d => fromNullS h eng r itemsChecker propertiesCheck d ctx st
      else if r.required then
        (emit r [] (makeErr r ctx.path "is required" "ERR_REQUIRED" .null) .undefined value, st)
      else (.ok ([], value), st)
    else fromNullS h eng r itemsChecker propertiesCheck value ctx st

mutual
/-- The source's `makeChecker`, returning the checker with the store. -/
def makeCheckerS (h : Host) (eng : Engine) : Val → Except Exn CheckerS
  | .undefined => .error readOfNullish
  | .null => .error readOfNullish
  | .obj cls kvs =>
    match makeItemsS h eng kvs with
    | .error e => .error e
    | .ok itemsChecker =>
      match makePropertiesS h eng kvs with
      | .error e => .error e
      | .ok propertiesCheck =>
        .ok (checkerS h eng (readRules (.obj cls kvs)) itemsChecker propertiesCheck)
  | v => .ok (checkerS h eng (readRules v) none none)
/-- The statement `if (items) itemsChecker = makeChecker(..., items, ...)`. -/
def makeItemsS (h : Host) (eng : Engine) : List (String × Val) → Except Exn (Option CheckerS)
  | [] => .ok none
  | (k, v) :: rest =>
    if k = "items" then
      if truthy v then
        match makeCheckerS h eng v with
        | .ok c => .ok (some c)
        | .error e => .error e
      else .ok none
    else makeItemsS h eng rest
/-- The block `if (properties) { ... propertiesCheck = { keys, props } }`. -/
def makePropertiesS (h : Host) (eng : Engine) :
    List (String × Val) → Except Exn (Option (List (String × CheckerS)))
  | [] => .ok none
  | (k, v) :: rest =>
    if k = "properties" then
      if truthy v then
        match v with
        | .obj _ pkvs =>
          (match makePropsOfEntriesS h eng pkvs with
           | .ok ps => .ok (some ps)
           | .error e => .error e)
        | .arr xs =>
          (match makePropsOfArrayS h eng xs 0 with
           | .ok ps => .ok (some ps)
           | .error e => .error e)
        | w => .ok (some ((objectKeys w).map (fun pk =>
            (pk, checkerS h eng (readRules (getProp w pk)) none none))))
      else .ok none
    else makePropertiesS h eng rest
/-- The loop `props[pk] = makeChecker(pk, properties[pk], ...)` over the keys of
an object. -/
def makePropsOfEntriesS (h : Host) (eng : Engine) :
    List (String × Val) → Except Exn (List (String × CheckerS))
  | [] => .ok []
  | (pk, v) :: rest =>
    match makeCheckerS h eng v with
    | .error e => .error e
    | .ok c =>
      match makePropsOfEntriesS h eng rest with
      | .error e => .error e
      | .ok cs => .ok ((pk, c) :: cs)
/-- The same loop over the index keys of an array. -/
def makePropsOfArrayS (h : Host) (eng : Engine) :
    List Val → Nat → Except Exn (List (String × CheckerS))
  | [], _ => .ok []
  | v :: rest, i =>
    match makeCheckerS h eng v with
    | .error e => .error e
    | .ok c =>
      match makePropsOfArrayS h eng rest (i + 1) with
      | .error e => .error e
      | .ok cs => .ok ((toString i, c) :: cs)
end

/-- The checker of a failed reference resolution, with the store. -/
def failingCheckerS (reason code : String) (raw : Val) : CheckerS :=
  fun v ctx st => (failingChecker reason code raw v ctx, st)

/-- The body of each `try` block of `_resolveRefChecker`, with the store. -/
def refCheckerOfS (h : Host) (eng : Engine) (s : Schema) (refName : Val) (kind : String)
    (raw : Val) : CheckerS :=
  match normalizeEntry h s.options.maxRegexLength raw (toStringJS h refName)
      (toStringJS h refName) with
  | .ok normalized =>
    (match makeCheckerS h eng normalized with
     | .ok chk => chk
     | .error e =>
       failingCheckerS ("failed to normalize " ++ kind ++ " '" ++ toStringJS h refName ++ "': " ++
         caughtText h e) "ERR_REF_NORMALIZE" e.toVal)
  | .error e =>
    failingCheckerS ("failed to normalize " ++ kind ++ " '" ++ toStringJS h refName ++ "': " ++
      caughtText h e) "ERR_REF_NORMALIZE" e.toVal

/-- The source's `_resolveRefChecker`, with the store (and without the memo
table, which holds the checker that a miss compiles). -/
def _resolveRefCheckerS (h : Host) (eng : Engine) (s : Schema) (refName : Val) : CheckerS :=
  if hasKey (toStringJS h refName) s.externalRefs then
    refCheckerOfS h eng s refName "external ref" (lookupKey (toStringJS h refName) s.externalRefs)
  else if hasKey (toStringJS h refName) s.localDefs then
    refCheckerOfS h eng s refName "local $defs ref"
      (lookupKey (toStringJS h refName) s.localDefs)
  else if typeOf (_getByPath h s.rawSchema refName) ≠ "undefined" then
    refCheckerOfS h eng s refName "path-ref" (_getByPath h s.rawSchema refName)
  else
    failingCheckerS ("unresolved ref '" ++ toStringJS h refName ++ "'") "ERR_REF_UNRESOLVED" .null

/-- The source's `_getOverrideCheckerFor`, with the store. -/
def _getOverrideCheckerForS (h : Host) (eng : Engine) (s : Schema) (fieldName : String)
    (fragmentEntry : Val) : Except Exn CheckerS :=
  makeCheckerS h eng (mergeNormalizedEntry (orEmpty (lookupKey fieldName s.normalizedSchema))
    fragmentEntry)

/-- The checker `validate` runs for a declared field, with the store.  A field
holds the state-free form of its compiled checker; the form with the store is
compiled from the field's stored descriptor, from which the constructor
compiled the checker of the field (`CompiledFromEntries`), so that it tests
the very pattern the descriptor holds. -/
def selectCheckerS (h : Host) (eng : Engine) (s : Schema) (overrides : List (String × Val))
    (f : Field) : Except Exn CheckerS :=
  if hasKey f.key overrides then
    _getOverrideCheckerForS h eng s f.key (lookupKey f.key overrides)
  else match f.checker with
    | .compiled _ => makeCheckerS h eng f.entry
    | .lazyRef name => .ok (_resolveRefCheckerS h eng s name)

/-- One iteration of the field loop up to the checker call, with the store. -/
def runFieldS (h : Host) (eng : Engine) (s : Schema) (obj : List (String × Val))
    (opts : Options) (overrides : List (String × Val)) (f : Field) (st : Store) :
    CheckResult × Store :=
  match selectCheckerS h eng s overrides f with
  | .error e => (.error e, st)
  | .ok ck => ck (lookupKey f.key obj) { path := fieldPath opts f.key, options := opts } st

/-- The loop of `validate` over the declared fields, with the store. -/
def fieldLoopS (h : Host) (eng : Engine) (s : Schema) (obj : List (String × Val))
    (opts : Options) (overrides : List (String × Val)) :
    List Field → List Err → List (String × Val) → Store → Flow × Store
  | [], errors, result, st => (.go errors result, st)
  | f :: rest, errors, result, st =>
    match runFieldS h eng s obj opts overrides f st with
    | (.error e, st1) => (.stop (.error e), st1)
    | (.ok (entryErrors, coerced), st1) =>
      if entryErrors.length ≠ 0 ∧ opts.failFast then
        (.stop (failFastExit opts (errors ++ entryErrors) result), st1)
      else
        fieldLoopS h eng s obj opts overrides rest
          (if entryErrors.length ≠ 0 then errors ++ entryErrors else errors)
          (if typeOf coerced ≠ "undefined" then setKey f.key coerced result
           else if hasKey f.key obj then setKey f.key (lookupKey f.key obj) result
           else result) st1

/-- The source's `validate(obj, callOptions)`, with the store: the result of the
call and the store after it. -/
def validateS (h : Host) (eng : Engine) (s : Schema) (obj : List (String × Val))
    (callOptions : OptionsPatch) (st : Store) : Except Exn ValidateOut × Store :=
  match fieldLoopS h eng s obj (assignOptions s.options callOptions)
      (_evaluateConditionals h s (.obj .plain obj)) s.fields [] [] st with
  | (.stop r, st1) => (r, st1)
  | (.go errors result, st1) =>
    match unknownKeys s (assignOptions s.options callOptions) obj errors result with
    | .stop r => (r, st1)
    | .go errors2 result2 => (finish (assignOptions s.options callOptions) errors2 result2, st1)

/-- The steps `new Schema(schemaDef, options)`, then `validate(obj)` twice on the
instance, from a store in which no pattern has been written to: the two
results. -/
def validateTwice (h : Host) (eng : Engine) (schemaDef : List (String × Val))
    (options : OptionsPatch) (obj : List (String × Val)) :
    Except Exn (Except Exn ValidateOut × Except Exn ValidateOut) :=
  match Schema.create h schemaDef options with
  | .error e => .error e
  | .ok s =>
    .ok ((validateS h eng s obj {} []).1,
      (validateS h eng s obj {} (validateS h eng s obj {} []).2).1)

mutual
/-- No `RegExp` value inside `v`, at any depth, has the global or sticky flag. -/
def noStatefulPattern : Val → Bool
  | .obj cls kvs =>
    (match cls with
     | .regexp _ => !(truthy (lookupKey "global" kvs) || truthy (lookupKey "sticky" kvs))
     | _ => true) && noStatefulPatternEntries kvs
  | .arr xs => noStatefulPatternList xs
  | _ => true
/-- The same for the elements of an array. -/
def noStatefulPatternList : List Val → Bool
  | [] => true
  | x :: xs => noStatefulPattern x && noStatefulPatternList xs
/-- The same for the values of an entry list. -/
def noStatefulPatternEntries : List (String × Val) → Bool
  | [] => true
  | (_, v) :: rest => noStatefulPattern v && noStatefulPatternEntries rest
end

/-- A checker with the store that never writes to it and returns what the
checker `c` returns. -/
def Agrees (cS : CheckerS) (c : Checker) : Prop :=
  ∀ (v : Val) (ctx : Ctx) (st : Store), cS v ctx st = (c v ctx, st)

/-- The engine of the examples: the pattern with source `a` matches at the first
`a` at or after the start index; no other pattern matches. -/
def exampleEngine : Engine :=
  { matchEnd := fun source sticky s i =>
      if source = "a" then
        if sticky then
          (if (s.toList.drop i).head? = some 'a' then some (i + 1) else none)
        else
          (match (s.toList.drop i).indexOf? 'a' with
           | some j => some (i + j + 1)
           | none => none)
      else none }

/-- The pattern `/a/g`. -/
def globalPattern : Val :=
  .obj (.regexp "a") [("global", .bool true)]

/-- The schema `{ a: { type: 'string', regex: /a/g } }`. -/
def globalPatternSchema : List (String × Val) :=
  [("a", .obj .plain [("type", .str "string"), ("regex", globalPattern)])]



/-- The items checker with the store agrees with the items checker, if any. -/
def AgreesItems (icS : Option CheckerS) (ic : Option Checker) : Prop :=
  match icS, ic with
  | some a, some b => Agrees a b
  | none, none => True
  | _, _ => False

/-- The property checkers with the store agree with the property checkers, key
by key. -/
def AgreesProps (pcS : Option (List (String × CheckerS)))
    (pc : Option (List (String × Checker))) : Prop :=
  match pcS, pc with
  | some a, some b =>
    List.Forall₂ (fun (p : String × CheckerS) (q : String × Checker) =>
      p.1 = q.1 ∧ Agrees p.2 q.2) a b
  | none, none => True
  | _, _ => False

/-- The checker `c` as a checker with the store: it returns what `c` returns and
the store as it is. -/
def withStore (c : Checker) : CheckerS :=
  fun v ctx st => (c v ctx, st)



/-- No pattern of the instance has state: the stored descriptors of the fields,
the definitions of the external registry and of `$defs`, the raw schema that
path references read, and the fragments of the conditional rules hold no
`RegExp` with the global or sticky flag. -/
def StatelessPatterns (s : Schema) : Prop :=
  (∀ f ∈ s.fields, noStatefulPattern f.entry = true)
    ∧ noStatefulPatternEntries s.externalRefs = true
    ∧ noStatefulPatternEntries s.localDefs = true
    ∧ noStatefulPattern s.rawSchema = true
    ∧ ∀ rule ∈ s.conditionals, noStatefulPatternEntries rule.fragment = true

/-- The checker stored for a field is the one compiled from the field's stored
descriptor, as in every instance the constructor builds. -/
def CompiledFromEntries (h : Host) (s : Schema) : Prop :=
  ∀ f ∈ s.fields, ∀ c, f.checker = .compiled c → makeChecker h f.entry = .ok c

/-- The example host with the printing of a pattern that has the global flag:
`String(/a/g)` is `/a/g`. -/
def globalHost : Host :=
  { exampleHost with regexToString := fun source => "/" ++ source ++ "/g" }

/-- The descriptor of `a` in the schema `{ a: { type: 'string', regex: /a/ } }`
after normalisation. -/
def flaglessPatternEntry : Val :=
  .obj .plain [("type", .str "string"), ("strictType", .bool false),
    ("regex", .obj (.regexp "a") []), ("required", .bool false), ("nullable", .undefined),
    ("coerce", .undefined), ("throw", .undefined)]

/-- The instance the constructor builds for the schema
`{ a: { type: 'string', regex: /a/ } }`; the raw schema it keeps is the JSON
copy, in which the pattern is an empty object. -/
def flaglessPatternSchema : Schema :=
  plainSchema (.obj .plain [("a", .obj .plain [("type", .str "string"), ("regex", .obj .plain [])])])
    [leafField exampleHost "a" flaglessPatternEntry]

/-! ## Stable descriptors -/

/-- The test of `ContainerRules` on a rules record. -/
def containerRulesOk (r : Rules) : Bool :=
  (decide (r.type = .undefined) || decide (r.type = .str "any")
      || decide (r.type = .str "array") || decide (r.type = .str "object")
      || decide (r.type = .fn .jsArray) || decide (r.type = .fn .jsObject))
    && (match r.enumVals with
        | .arr (_ :: _) => false
        | _ => true)

mutual
/-- A descriptor whose checker returns its own clean results unchanged, read
along the traversal of `makeChecker`: at every level that has `items` or
`properties` the rules are container rules, the keys of `properties` are
distinct (as the keys of every object are), and the nested descriptors are of
the same kind. -/
def stableDescriptor : Val → Bool
  | .obj cls kvs =>
    stableItems kvs && stableProperties kvs
      && (!(truthy (lookupKey "items" kvs) || truthy (lookupKey "properties" kvs))
          || containerRulesOk (readRules (.obj cls kvs)))
  | _ => true
/-- The descriptor under the own key `items`, as `makeItems` reads it. -/
def stableItems : List (String × Val) → Bool
  | [] => true
  | (k, v) :: rest =>
    if k = "items" then (if truthy v then stableDescriptor v else true)
    else stableItems rest
/-- The descriptors under the own key `properties`, as `makeProperties` reads
them. -/
def stableProperties : List (String × Val) → Bool
  | [] => true
  | (k, v) :: rest =>
    if k = "properties" then
      if truthy v then
        decide ((objectKeys v).Nodup)
          && (match v with
              | .obj _ pkvs => stablePropEntries pkvs
              | .arr xs => stablePropList xs
              | _ => true)
      else true
    else stableProperties rest
/-- The property descriptors of an object. -/
def stablePropEntries : List (String × Val) → Bool
  | [] => true
  | (_, v) :: rest => stableDescriptor v && stablePropEntries rest
/-- The property descriptors of an array. -/
def stablePropList : List Val → Bool
  | [] => true
  | v :: rest => stableDescriptor v && stablePropList rest
end

/-- The definition `_resolveRefChecker` finds for a reference name: in the
external registry, else in `$defs`, else at the path in the raw schema. -/
def resolvedDefinition (h : Host) (s : Schema) (refName : Val) : Option Val :=
  if hasKey (toStringJS h refName) s.externalRefs then
    some (lookupKey (toStringJS h refName) s.externalRefs)
  else if hasKey (toStringJS h refName) s.localDefs then
    some (lookupKey (toStringJS h refName) s.localDefs)
  else if typeOf (_getByPath h s.rawSchema refName) ≠ "undefined" then
    some (_getByPath h s.rawSchema refName)
  else none

/-- An instance whose checkers return their own clean results unchanged: the
field keys are distinct (as the keys of every object are), the stored
descriptor of every field with a compiled checker is stable, and so is the
descriptor that the definition of every reference field normalises to. -/
def StableSchema (h : Host) (s : Schema) : Prop :=
  (s.fields.map (fun f => f.key)).Nodup
    ∧ (∀ f ∈ s.fields, ∀ c, f.checker = .compiled c → stableDescriptor f.entry = true)
    ∧ ∀ f ∈ s.fields, ∀ name, f.checker = .lazyRef name →
        ∀ raw n, resolvedDefinition h s name = some raw →
          normalizeEntry h s.options.maxRegexLength raw (toStringJS h name) (toStringJS h name)
            = .ok n →
          stableDescriptor n = true

/-- The steps `new Schema(schemaDef, options)`, registration of `rules`,
`validate(obj)`, and then, when that call returns a result record whose value is
an object, `validate(value)` on the same instance: the first result and the
second, from a store in which no pattern has been written to. -/
def validateAgain (h : Host) (eng : Engine) (schemaDef : List (String × Val))
    (options : OptionsPatch) (rules : List (Val × Val × Val)) (obj : List (String × Val)) :
    Except Exn (Except Exn ValidateOut × Option (Except Exn ValidateOut)) :=
  match Schema.create h schemaDef options with
  | .error e => .error e
  | .ok s =>
    match registerRules h s rules with
    | .error e => .error e
    | .ok s2 =>
      match validateS h eng s2 obj {} [] with
      | (.ok (.result valid errors (.obj cls R)), st) =>
        .ok (.ok (.result valid errors (.obj cls R)), some (validateS h eng s2 R {} st).1)
      | (r, _) => .ok (r, none)

/-- The schema `{ d: { type: 'date', properties: {} } }`. -/
def dateWithPropertiesSchema : List (String × Val) :=
  [("d", .obj .plain [("type", .str "date"), ("properties", .obj .plain [])])]

/-- The user function `isRaw`. -/
def isRaw : FnRef := .user 1 "isRaw"

/-- The example host in which `isRaw(v)` is `true` for the array `['1']` and
`false` for every other value. -/
def rawHost : Host :=
  { exampleHost with
    call := fun f args =>
      if f = isRaw then .ok (.bool (decide (args = [.arr [.str "1"]]))) else .ok .undefined }

/-- The schema
`{ a: { type: 'array', enum: [isRaw], items: { type: 'number', coerce: true } } }`. -/
def rawEnumSchema : List (String × Val) :=
  [("a", .obj .plain [("type", .str "array"), ("enum", .arr [.fn isRaw]),
    ("items", .obj .plain [("type", .str "number"), ("coerce", .bool true)])])]

/-- The descriptor of the elements of `tags` after normalisation. -/
def tagsItemEntry : Val :=
  .obj .plain [("type", .str "number"), ("coerce", .bool true), ("strictType", .bool false)]

/-- The descriptor of `tags` in the schema `nestedSchema` after normalisation. -/
def tagsEntry : Val :=
  .obj .plain [("type", .str "array"), ("strictType", .bool false), ("items", tagsItemEntry),
    ("required", .bool false), ("nullable", .undefined), ("coerce", .undefined),
    ("throw", .undefined)]

/-- The descriptor of `who` in the schema `nestedSchema` after normalisation. -/
def whoEntry : Val :=
  .obj .plain [("type", .str "object"), ("strictType", .bool false),
    ("properties", .obj .plain [("name", .obj .plain [("type", .str "string")])]),
    ("required", .bool false), ("nullable", .undefined), ("coerce", .undefined),
    ("throw", .undefined)]

/-- The instance the constructor builds for the schema
`{ n: { type: 'number', coerce: true },
   tags: { type: 'array', items: { type: 'number', coerce: true } },
   who: { type: 'object', properties: { name: 'string' } } }`. -/
def nestedSchema : Schema :=
  plainSchema
    (.obj .plain
      [("n", .obj .plain [("type", .str "number"), ("coerce", .bool true)]),
       ("tags", .obj .plain [("type", .str "array"),
          ("items", .obj .plain [("type", .str "number"), ("coerce", .bool true)])]),
       ("who", .obj .plain [("type", .str "object"),
          ("properties", .obj .plain [("name", .str "string")])])])
    [leafField exampleHost "n" coercedNumberEntry,
     { key := "tags", entry := tagsEntry
       checker := .compiled (checker exampleHost (readRules tagsEntry)
         (some (checker exampleHost (readRules tagsItemEntry) none none)) none) },
     { key := "who", entry := whoEntry
       checker := .compiled (checker exampleHost (readRules whoEntry) none
         (some [("name",
           checker exampleHost (readRules (.obj .plain [("type", .str "string")])) none none)])) }]

end GentleSchema

namespace GentleSchema

/-! ## Basic facts about the checker compiler and the field loop -/

theorem typeOf_eq_undefined (v : Val) : typeOf v = "undefined" ↔ v = .undefined := by
  cases v <;> simp [typeOf]

theorem makeChecker_obj (h : Host) (cls : Cls) (kvs : List (String × Val)) (c : Checker)
    (hmk : makeChecker h (.obj cls kvs) = .ok c) :
    ∃ ic pc, c = checker h (readRules (.obj cls kvs)) ic pc := by
  rw [makeChecker] at hmk
  split at hmk
  · cases hmk
  · split at hmk
    · cases hmk
    · rename_i ic _ pc _
      exact ⟨_, _, by injection hmk with h1; exact h1.symm⟩

/-- The fields the constructor builds: a declared field that is not a `$ref`
placeholder carries the checker `makeChecker` compiles from its entry. -/
theorem buildFields_compiled (h : Host) (normalized : List (String × Val)) (fs : List Field)
    (hb : buildFields h normalized = .ok fs) :
    ∀ f ∈ fs, (∃ c, f.checker = .compiled c ∧ makeChecker h f.entry = .ok c)
      ∨ (∃ name, f.checker = .lazyRef name ∧ truthy (getProp f.entry "__isRef") = true) := by
  induction normalized generalizing fs with
  | nil =>
    simp only [buildFields] at hb
    injection hb with hb
    subst hb
    intro f hf
    cases hf
  | cons p rest ih =>
    obtain ⟨k, ent⟩ := p
    simp only [buildFields] at hb
    split at hb
    · rename_i href
      split at hb
      · cases hb
      · rename_i fs2 hrest
        injection hb with hb
        subst hb
        intro f hf
        rcases List.mem_cons.mp hf with hf | hf
        · subst hf
          exact Or.inr ⟨_, rfl, href.2⟩
        · exact ih fs2 hrest f hf
    · split at hb
      · cases hb
      · rename_i c hc
        split at hb
        · cases hb
        · rename_i fs2 hrest
          injection hb with hb
          subst hb
          intro f hf
          rcases List.mem_cons.mp hf with hf | hf
          · subst hf
            exact Or.inl ⟨c, rfl, hc⟩
          · exact ih fs2 hrest f hf

theorem checker_required_absent (h : Host) (r : Rules) (ic : Option Checker)
    (pc : Option (List (String × Checker))) (ctx : Ctx)
    (hreq : r.required = true) (hdef : r.deflt = .undefined) (hthrow : r.throwField = false) :
    checker h r ic pc .undefined ctx
      = .ok ([makeErr r ctx.path "is required" "ERR_REQUIRED" .null], .undefined) := by
  simp [checker, typeOf, hdef, hreq, emit, hthrow]

theorem failFastExit_invalid (opts : Options) (E : List Err) (R : List (String × Val))
    (v : Bool) (es : List Err) (val : Val)
    (hx : failFastExit opts E R = .ok (.result v es val)) : v = false ∧ es = E := by
  unfold failFastExit at hx
  split at hx
  · cases hx
  · injection hx with h1; injection h1 with h2 h3 h4; exact ⟨h2.symm, h3.symm⟩

theorem fieldLoop_append (h : Host) (s : Schema) (obj : List (String × Val)) (opts : Options)
    (ov : List (String × Val)) (pre post : List Field) (E : List Err) (R : List (String × Val)) :
    fieldLoop h s obj opts ov (pre ++ post) E R =
      match fieldLoop h s obj opts ov pre E R with
      | .stop r => .stop r
      | .go E1 R1 => fieldLoop h s obj opts ov post E1 R1 := by
  induction pre generalizing E R with
  | nil => simp [fieldLoop]
  | cons f rest ih =>
    simp only [List.cons_append, fieldLoop]
    split
    · rfl
    · split
      · rfl
      · exact ih _ _

/-- Every declared field of an instance built by the constructor that is not a
`$ref` placeholder carries the checker compiled from its entry. -/
theorem create_fields_compiled (h : Host) (schemaDef : List (String × Val))
    (options : OptionsPatch) (s : Schema) (hc : Schema.create h schemaDef options = .ok s) :
    ∀ f ∈ s.fields, (∃ c, f.checker = .compiled c ∧ makeChecker h f.entry = .ok c)
      ∨ (∃ name, f.checker = .lazyRef name ∧ truthy (getProp f.entry "__isRef") = true) := by
  unfold Schema.create at hc
  simp only [] at hc
  split at hc
  · cases hc
  · split at hc
    · cases hc
    · split at hc
      · cases hc
      · rename_i fields hb
        split at hc
        · cases hc
        · injection hc with hc
          subst hc
          exact buildFields_compiled h _ fields hb

end GentleSchema

namespace GentleSchema

theorem fieldLoop_stop_invalid (h : Host) (s : Schema) (obj : List (String × Val))
    (opts : Options) (ov : List (String × Val)) (fs : List Field) (E : List Err)
    (R : List (String × Val)) (v : Bool) (es : List Err) (val : Val)
    (hx : fieldLoop h s obj opts ov fs E R = .stop (.ok (.result v es val))) :
    v = false ∧ es ≠ [] ∧ opts.failFast = true := by
  induction fs generalizing E R with
  | nil => simp [fieldLoop] at hx
  | cons f rest ih =>
    simp only [fieldLoop] at hx
    split at hx
    · cases hx
    · rename_i entryErrors coerced _
      split at hx
      · rename_i hc
        injection hx with hx
        obtain ⟨h1, h2⟩ := failFastExit_invalid _ _ _ _ _ _ hx
        refine ⟨h1, ?_, hc.2⟩
        subst h2
        intro h3
        have : entryErrors = [] := (List.append_eq_nil.mp h3).2
        exact hc.1 (by simp [this])
      · exact ih _ _ hx

theorem fieldLoop_go_prefix (h : Host) (s : Schema) (obj : List (String × Val))
    (opts : Options) (ov : List (String × Val)) (fs : List Field) (E E1 : List Err)
    (R R1 : List (String × Val))
    (hx : fieldLoop h s obj opts ov fs E R = .go E1 R1) : ∃ X, E1 = E ++ X := by
  induction fs generalizing E R with
  | nil =>
    simp only [fieldLoop] at hx
    injection hx with h1 h2
    exact ⟨[], by simp [h1]⟩
  | cons f rest ih =>
    simp only [fieldLoop] at hx
    split at hx
    · cases hx
    · rename_i entryErrors coerced _
      split at hx
      · cases hx
      · obtain ⟨X, hX⟩ := ih _ _ hx
        split at hX
        · exact ⟨entryErrors ++ X, by simp [hX]⟩
        · exact ⟨X, hX⟩

theorem strictTopLoop_stop_invalid (s : Schema) (opts : Options) (ks : List String)
    (E : List Err) (R : List (String × Val)) (v : Bool) (es : List Err) (val : Val)
    (hx : strictTopLoop s opts ks E R = .stop (.ok (.result v es val))) :
    v = false ∧ es ≠ [] ∧ opts.failFast = true := by
  induction ks generalizing E R with
  | nil => simp [strictTopLoop] at hx
  | cons k rest ih =>
    simp only [strictTopLoop] at hx
    split at hx
    · exact ih _ _ hx
    · split at hx
      · exact ih _ _ hx
      · split at hx
        · rename_i hc
          injection hx with hx
          obtain ⟨h1, h2⟩ := failFastExit_invalid _ _ _ _ _ _ hx
          refine ⟨h1, ?_, hc⟩
          subst h2
          simp
        · exact ih _ _ hx

theorem strictTopLoop_go_prefix (s : Schema) (opts : Options) (ks : List String)
    (E E1 : List Err) (R R1 : List (String × Val))
    (hx : strictTopLoop s opts ks E R = .go E1 R1) : ∃ X, E1 = E ++ X := by
  induction ks generalizing E R with
  | nil =>
    simp only [strictTopLoop] at hx
    injection hx with h1 h2
    exact ⟨[], by simp [h1]⟩
  | cons k rest ih =>
    simp only [strictTopLoop] at hx
    split at hx
    · exact ih _ _ hx
    · split at hx
      · exact ih _ _ hx
      · split at hx
        · cases hx
        · obtain ⟨X, hX⟩ := ih _ _ hx
          exact ⟨[_makeErrorObj (fieldPath opts k) "unknown field" "ERR_UNKNOWN" Val.null] ++ X,
            by simp [hX]⟩

theorem unknownKeys_stop_invalid (s : Schema) (opts : Options) (obj : List (String × Val))
    (E : List Err) (R : List (String × Val)) (v : Bool) (es : List Err) (val : Val)
    (hx : unknownKeys s opts obj E R = .stop (.ok (.result v es val))) :
    v = false ∧ es ≠ [] ∧ opts.failFast = true := by
  unfold unknownKeys at hx
  split at hx
  · exact strictTopLoop_stop_invalid _ _ _ _ _ _ _ _ hx
  · cases hx

theorem unknownKeys_go_prefix (s : Schema) (opts : Options) (obj : List (String × Val))
    (E E1 : List Err) (R R1 : List (String × Val))
    (hx : unknownKeys s opts obj E R = .go E1 R1) : ∃ X, E1 = E ++ X := by
  unfold unknownKeys at hx
  split at hx
  · exact strictTopLoop_go_prefix _ _ _ _ _ _ _ hx
  · injection hx with h1 h2
    exact ⟨[], by simp [h1]⟩

theorem finish_result (opts : Options) (E : List Err) (R : List (String × Val)) (v : Bool)
    (es : List Err) (val : Val) (hx : finish opts E R = .ok (.result v es val)) :
    es = E ∧ v = decide (E.length = 0) := by
  unfold finish at hx
  split at hx
  · cases hx
  · injection hx with hx
    injection hx with h1 h2 h3
    exact ⟨h2.symm, h1.symm⟩

end GentleSchema

namespace GentleSchema

theorem failFastExit_of_not_valueOnly (opts : Options) (E : List Err) (R : List (String × Val))
    (hv : opts.valueOnly = false) :
    failFastExit opts E R = .ok (.result false E (.obj .plain R)) := by
  simp [failFastExit, hv]

theorem fieldLoop_returns (h : Host) (s : Schema) (obj : List (String × Val))
    (opts : Options) (ov : List (String × Val)) (fs : List Field) (E : List Err)
    (R : List (String × Val)) (hv : opts.valueOnly = false)
    (hok : ∀ g ∈ fs, ∃ r, runField h s obj opts ov g = .ok r) :
    (∃ es val, fieldLoop h s obj opts ov fs E R = .stop (.ok (.result false es val)))
      ∨ (∃ E1 R1, fieldLoop h s obj opts ov fs E R = .go E1 R1) := by
  induction fs generalizing E R with
  | nil => exact Or.inr ⟨E, R, rfl⟩
  | cons f rest ih =>
    obtain ⟨r, hr⟩ := hok f (List.mem_cons_self _ _)
    have hrest : ∀ g ∈ rest, ∃ r, runField h s obj opts ov g = .ok r :=
      fun g hg => hok g (List.mem_cons_of_mem _ hg)
    obtain ⟨entryErrors, coerced⟩ := r
    simp only [fieldLoop, hr]
    split
    · exact Or.inl ⟨_, _, by rw [failFastExit_of_not_valueOnly _ _ _ hv]⟩
    · exact ih _ _ hrest

theorem strictTopLoop_returns (s : Schema) (opts : Options) (ks : List String)
    (E : List Err) (R : List (String × Val)) (hv : opts.valueOnly = false) :
    (∃ es val, strictTopLoop s opts ks E R = .stop (.ok (.result false es val)))
      ∨ (∃ E1 R1, strictTopLoop s opts ks E R = .go E1 R1) := by
  induction ks generalizing E R with
  | nil => exact Or.inr ⟨E, R, rfl⟩
  | cons k rest ih =>
    simp only [strictTopLoop]
    split
    · exact ih _ _
    · split
      · exact ih _ _
      · split
        · exact Or.inl ⟨_, _, by rw [failFastExit_of_not_valueOnly _ _ _ hv]⟩
        · exact ih _ _

theorem unknownKeys_returns (s : Schema) (opts : Options) (obj : List (String × Val))
    (E : List Err) (R : List (String × Val)) (hv : opts.valueOnly = false) :
    (∃ es val, unknownKeys s opts obj E R = .stop (.ok (.result false es val)))
      ∨ (∃ E1 R1, unknownKeys s opts obj E R = .go E1 R1) := by
  unfold unknownKeys
  split
  · exact strictTopLoop_returns _ _ _ _ _ hv
  · exact Or.inr ⟨_, _, rfl⟩

/-- When no field's checker raises and `valueOnly` is off, `validate` returns a
result record. -/
theorem validate_returns (h : Host) (s : Schema) (obj : List (String × Val))
    (callOptions : OptionsPatch)
    (hv : (assignOptions s.options callOptions).valueOnly = false)
    (hok : ∀ g ∈ s.fields, ∃ r, runField h s obj (assignOptions s.options callOptions)
      (_evaluateConditionals h s (.obj .plain obj)) g = .ok r) :
    ∃ v es val, validate h s obj callOptions = .ok (.result v es val) := by
  unfold validate
  rcases fieldLoop_returns h s obj _ _ s.fields [] [] hv hok with ⟨es, val, h1⟩ | ⟨E1, R1, h1⟩
  · rw [h1]; exact ⟨_, _, _, rfl⟩
  · rw [h1]
    simp only []
    rcases unknownKeys_returns s _ obj E1 R1 hv with ⟨es, val, h2⟩ | ⟨E2, R2, h2⟩
    · rw [h2]; exact ⟨_, _, _, rfl⟩
    · rw [h2]; simp only [finish, hv]; exact ⟨_, _, _, rfl⟩

/-- The result record of `validate` is valid exactly when it lists no error. -/
theorem validate_valid_iff (h : Host) (s : Schema) (obj : List (String × Val))
    (callOptions : OptionsPatch) (v : Bool) (es : List Err) (val : Val)
    (hx : validate h s obj callOptions = .ok (.result v es val)) :
    v = decide (es.length = 0) := by
  unfold validate at hx
  split at hx
  · rename_i r h1
    subst hx
    obtain ⟨h2, h3, _⟩ := fieldLoop_stop_invalid _ _ _ _ _ _ _ _ _ _ _ h1
    subst h2
    cases es with
    | nil => exact absurd rfl h3
    | cons a t => simp
  · split at hx
    · rename_i r h2
      subst hx
      obtain ⟨h2, h3, _⟩ := unknownKeys_stop_invalid _ _ _ _ _ _ _ _ h2
      subst h2
      cases es with
      | nil => exact absurd rfl h3
      | cons a t => simp
    · obtain ⟨h3, h4⟩ := finish_result _ _ _ _ _ _ hx
      rw [h4, h3]

/-- The errors of a declared field appear in every result record of `validate`
obtained without fail-fast, and make it invalid in every mode. -/
theorem validate_invalid_of_field (h : Host) (s : Schema) (obj : List (String × Val))
    (callOptions : OptionsPatch) (pre post : List Field) (f : Field) (X : List Err) (c : Val)
    (hfields : s.fields = pre ++ f :: post)
    (hrun : runField h s obj (assignOptions s.options callOptions)
      (_evaluateConditionals h s (.obj .plain obj)) f = .ok (X, c))
    (hX : X ≠ []) (v : Bool) (es : List Err) (val : Val)
    (hx : validate h s obj callOptions = .ok (.result v es val)) :
    v = false ∧ ((assignOptions s.options callOptions).failFast = false →
      ∃ A B, es = A ++ X ++ B) := by
  have hvalid := validate_valid_iff h s obj callOptions v es val hx
  have hXlen : X.length ≠ 0 := by
    intro h0; exact hX (List.length_eq_zero.mp h0)
  unfold validate at hx
  rw [hfields, fieldLoop_append] at hx
  cases h1 : fieldLoop h s obj (assignOptions s.options callOptions)
      (_evaluateConditionals h s (.obj .plain obj)) pre [] [] with
  | stop r =>
    rw [h1] at hx
    simp only at hx
    subst hx
    obtain ⟨h2, _, h4⟩ := fieldLoop_stop_invalid _ _ _ _ _ _ _ _ _ _ _ h1
    exact ⟨h2, fun hff => by rw [hff] at h4; cases h4⟩
  | go E1 R1 =>
    rw [h1] at hx
    simp only [fieldLoop, hrun] at hx
    by_cases hff : (assignOptions s.options callOptions).failFast = true
    · rw [if_pos ⟨hXlen, hff⟩] at hx
      simp only [] at hx
      obtain ⟨h2, _⟩ := failFastExit_invalid _ _ _ _ _ _ hx
      exact ⟨h2, fun hff2 => by rw [hff2] at hff; cases hff⟩
    · rw [if_neg (fun hc => hff hc.2), if_pos hXlen] at hx
      split at hx
      · rename_i r h5
        subst hx
        obtain ⟨h2, _, h4⟩ := fieldLoop_stop_invalid _ _ _ _ _ _ _ _ _ _ _ h5
        exact ⟨h2, fun hff => by rw [hff] at h4; cases h4⟩
      · rename_i E2 R2 h5
        obtain ⟨Y, hY⟩ := fieldLoop_go_prefix _ _ _ _ _ _ _ _ _ _ h5
        split at hx
        · rename_i r h6
          subst hx
          obtain ⟨h2, _, h4⟩ := unknownKeys_stop_invalid _ _ _ _ _ _ _ _ h6
          exact ⟨h2, fun hff => by rw [hff] at h4; cases h4⟩
        · rename_i E3 R3 h6
          obtain ⟨Z, hZ⟩ := unknownKeys_go_prefix _ _ _ _ _ _ _ h6
          obtain ⟨h7, h8⟩ := finish_result _ _ _ _ _ _ hx
          have hes : es = E1 ++ X ++ (Y ++ Z) := by rw [h7, hZ, hY]; simp
          refine ⟨?_, fun _ => ⟨E1, Y ++ Z, hes⟩⟩
          rw [hvalid, hes]
          cases X with
          | nil => exact absurd rfl hX
          | cons a t => simp

theorem assignOptions_asPatch (base o : Options) : assignOptions base o.asPatch = o := rfl

theorem validate_asPatch (h : Host) (s : Schema) (obj : List (String × Val))
    (callOptions : OptionsPatch) :
    validate h s obj (assignOptions s.options callOptions).asPatch
      = validate h s obj callOptions := by
  unfold validate
  rw [assignOptions_asPatch]

end GentleSchema

namespace GentleSchema

/-! ## Facts about construction used by the later sections -/

theorem create_shape (h : Host) (schemaDef : List (String × Val)) (options : OptionsPatch)
    (s : Schema) (hc : Schema.create h schemaDef options = .ok s) :
    s.conditionals = [] ∧ s.options = assignOptions DEFAULT_OPTIONS options
      ∧ s.rawSchema = _shallowCloneSchema (.obj .plain schemaDef)
      ∧ s.localDefs = localDefsOf schemaDef := by
  unfold Schema.create at hc
  simp only [] at hc
  split at hc
  · cases hc
  · split at hc
    · cases hc
    · split at hc
      · cases hc
      · split at hc
        · cases hc
        · injection hc with hc
          subst hc
          exact ⟨rfl, rfl, rfl, rfl⟩

/-! Induction over the checker compiler: a property of checkers that the closure
`checker` has whenever the compiled checkers of `items` and `properties` have
it holds of every checker `makeChecker` returns. -/

mutual
theorem makeChecker_induct (h : Host) (P : Checker → Prop)
    (hP : ∀ (r : Rules) (ic : Option Checker) (pc : Option (List (String × Checker))),
      (∀ c, ic = some c → P c) → (∀ props, pc = some props → ∀ p ∈ props, P p.2) →
      P (checker h r ic pc)) :
    ∀ (e : Val) (c : Checker), makeChecker h e = .ok c → P c
  | .undefined, c, hx => by
    simp [makeChecker] at hx
  | .null, c, hx => by
    simp [makeChecker] at hx
  | .obj cls kvs, c, hx => by
    have ihi := makeItems_induct h P hP kvs
    have ihp := makeProperties_induct h P hP kvs
    unfold makeChecker at hx
    cases hi : makeItems h kvs with
    | error e => rw [hi] at hx; cases hx
    | ok ic =>
      rw [hi] at hx
      simp only [] at hx
      cases hp : makeProperties h kvs with
      | error e => rw [hp] at hx; cases hx
      | ok pc =>
        rw [hp] at hx
        simp only [] at hx
        injection hx with hx
        subst hx
        exact hP _ ic pc (ihi ic hi) (ihp pc hp)
  | .bool b, c, hx => by
    simp only [makeChecker] at hx
    injection hx with hx
    subst hx
    exact hP _ none none (fun c hc => by cases hc) (fun ps hp => by cases hp)
  | .num n, c, hx => by
    simp only [makeChecker] at hx
    injection hx with hx
    subst hx
    exact hP _ none none (fun c hc => by cases hc) (fun ps hp => by cases hp)
  | .nan, c, hx => by
    simp only [makeChecker] at hx
    injection hx with hx
    subst hx
    exact hP _ none none (fun c hc => by cases hc) (fun ps hp => by cases hp)
  | .str t, c, hx => by
    simp only [makeChecker] at hx
    injection hx with hx
    subst hx
    exact hP _ none none (fun c hc => by cases hc) (fun ps hp => by cases hp)
  | .bigint n, c, hx => by
    simp only [makeChecker] at hx
    injection hx with hx
    subst hx
    exact hP _ none none (fun c hc => by cases hc) (fun ps hp => by cases hp)
  | .symbol t, c, hx => by
    simp only [makeChecker] at hx
    injection hx with hx
    subst hx
    exact hP _ none none (fun c hc => by cases hc) (fun ps hp => by cases hp)
  | .fn f, c, hx => by
    simp only [makeChecker] at hx
    injection hx with hx
    subst hx
    exact hP _ none none (fun c hc => by cases hc) (fun ps hp => by cases hp)
  | .arr xs, c, hx => by
    simp only [makeChecker] at hx
    injection hx with hx
    subst hx
    exact hP _ none none (fun c hc => by cases hc) (fun ps hp => by cases hp)
theorem makeItems_induct (h : Host) (P : Checker → Prop)
    (hP : ∀ (r : Rules) (ic : Option Checker) (pc : Option (List (String × Checker))),
      (∀ c, ic = some c → P c) → (∀ props, pc = some props → ∀ p ∈ props, P p.2) →
      P (checker h r ic pc)) :
    ∀ (kvs : List (String × Val)) (ic : Option Checker), makeItems h kvs = .ok ic →
      ∀ c, ic = some c → P c
  | [], ic, hx => by
    simp only [makeItems] at hx
    injection hx with hx
    subst hx
    intro c hc
    cases hc
  | (key, v) :: rest, ic, hx => by
    have ihv := makeChecker_induct h P hP v
    have ihr := makeItems_induct h P hP rest ic
    unfold makeItems at hx
    split at hx
    · split at hx
      · cases hv : makeChecker h v with
        | error e => rw [hv] at hx; cases hx
        | ok c0 =>
          rw [hv] at hx
          simp only [] at hx
          injection hx with hx
          subst hx
          intro c hc
          injection hc with hc
          subst hc
          exact ihv c0 hv
      · injection hx with hx
        subst hx
        intro c hc
        cases hc
    · exact ihr hx
theorem makeProperties_induct (h : Host) (P : Checker → Prop)
    (hP : ∀ (r : Rules) (ic : Option Checker) (pc : Option (List (String × Checker))),
      (∀ c, ic = some c → P c) → (∀ props, pc = some props → ∀ p ∈ props, P p.2) →
      P (checker h r ic pc)) :
    ∀ (kvs : List (String × Val)) (pc : Option (List (String × Checker))),
      makeProperties h kvs = .ok pc →
      ∀ props, pc = some props → ∀ p ∈ props, P p.2
  | [], pc, hx => by
    simp only [makeProperties] at hx
    injection hx with hx
    subst hx
    intro props hp
    cases hp
  | (key, .obj cls pkvs) :: rest, pc, hx => by
    have ihv := makePropsOfEntries_induct h P hP pkvs
    have ihr := makeProperties_induct h P hP rest pc
    unfold makeProperties at hx
    split at hx
    · split at hx
      · simp only [] at hx
        cases hv : makePropsOfEntries h pkvs with
        | error e => rw [hv] at hx; cases hx
        | ok ps =>
          rw [hv] at hx
          simp only [] at hx
          injection hx with hx
          subst hx
          intro props hp
          injection hp with hp
          subst hp
          exact ihv ps hv
      · injection hx with hx
        subst hx
        intro props hp
        cases hp
    · exact ihr hx
  | (key, .arr xs) :: rest, pc, hx => by
    have ihv := makePropsOfArray_induct h P hP xs
    have ihr := makeProperties_induct h P hP rest pc
    unfold makeProperties at hx
    split at hx
    · split at hx
      · simp only [] at hx
        cases hv : makePropsOfArray h xs 0 with
        | error e => rw [hv] at hx; cases hx
        | ok ps =>
          rw [hv] at hx
          simp only [] at hx
          injection hx with hx
          subst hx
          intro props hp
          injection hp with hp
          subst hp
          exact ihv 0 ps hv
      · injection hx with hx
        subst hx
        intro props hp
        cases hp
    · exact ihr hx
  | (key, .undefined) :: rest, pc, hx => by
    have ihr := makeProperties_induct h P hP rest pc
    unfold makeProperties at hx
    split at hx
    · split at hx
      · simp only [] at hx
        injection hx with hx
        subst hx
        intro props hp p hmem
        injection hp with hp
        subst hp
        obtain ⟨pk, _, rfl⟩ := List.mem_map.mp hmem
        exact hP _ none none (fun c hc => by cases hc) (fun ps hp => by cases hp)
      · injection hx with hx
        subst hx
        intro props hp
        cases hp
    · exact ihr hx
  | (key, .null) :: rest, pc, hx => by
    have ihr := makeProperties_induct h P hP rest pc
    unfold makeProperties at hx
    split at hx
    · split at hx
      · simp only [] at hx
        injection hx with hx
        subst hx
        intro props hp p hmem
        injection hp with hp
        subst hp
        obtain ⟨pk, _, rfl⟩ := List.mem_map.mp hmem
        exact hP _ none none (fun c hc => by cases hc) (fun ps hp => by cases hp)
      · injection hx with hx
        subst hx
        intro props hp
        cases hp
    · exact ihr hx
  | (key, .bool b) :: rest, pc, hx => by
    have ihr := makeProperties_induct h P hP rest pc
    unfold makeProperties at hx
    split at hx
    · split at hx
      · simp only [] at hx
        injection hx with hx
        subst hx
        intro props hp p hmem
        injection hp with hp
        subst hp
        obtain ⟨pk, _, rfl⟩ := List.mem_map.mp hmem
        exact hP _ none none (fun c hc => by cases hc) (fun ps hp => by cases hp)
      · injection hx with hx
        subst hx
        intro props hp
        cases hp
    · exact ihr hx
  | (key, .num n) :: rest, pc, hx => by
    have ihr := makeProperties_induct h P hP rest pc
    unfold makeProperties at hx
    split at hx
    · split at hx
      · simp only [] at hx
        injection hx with hx
        subst hx
        intro props hp p hmem
        injection hp with hp
        subst hp
        obtain ⟨pk, _, rfl⟩ := List.mem_map.mp hmem
        exact hP _ none none (fun c hc => by cases hc) (fun ps hp => by cases hp)
      · injection hx with hx
        subst hx
        intro props hp
        cases hp
    · exact ihr hx
  | (key, .nan) :: rest, pc, hx => by
    have ihr := makeProperties_induct h P hP rest pc
    unfold makeProperties at hx
    split at hx
    · split at hx
      · simp only [] at hx
        injection hx with hx
        subst hx
        intro props hp p hmem
        injection hp with hp
        subst hp
        obtain ⟨pk, _, rfl⟩ := List.mem_map.mp hmem
        exact hP _ none none (fun c hc => by cases hc) (fun ps hp => by cases hp)
      · injection hx with hx
        subst hx
        intro props hp
        cases hp
    · exact ihr hx
  | (key, .str t) :: rest, pc, hx => by
    have ihr := makeProperties_induct h P hP rest pc
    unfold makeProperties at hx
    split at hx
    · split at hx
      · simp only [] at hx
        injection hx with hx
        subst hx
        intro props hp p hmem
        injection hp with hp
        subst hp
        obtain ⟨pk, _, rfl⟩ := List.mem_map.mp hmem
        exact hP _ none none (fun c hc => by cases hc) (fun ps hp => by cases hp)
      · injection hx with hx
        subst hx
        intro props hp
        cases hp
    · exact ihr hx
  | (key, .bigint n) :: rest, pc, hx => by
    have ihr := makeProperties_induct h P hP rest pc
    unfold makeProperties at hx
    split at hx
    · split at hx
      · simp only [] at hx
        injection hx with hx
        subst hx
        intro props hp p hmem
        injection hp with hp
        subst hp
        obtain ⟨pk, _, rfl⟩ := List.mem_map.mp hmem
        exact hP _ none none (fun c hc => by cases hc) (fun ps hp => by cases hp)
      · injection hx with hx
        subst hx
        intro props hp
        cases hp
    · exact ihr hx
  | (key, .symbol t) :: rest, pc, hx => by
    have ihr := makeProperties_induct h P hP rest pc
    unfold makeProperties at hx
    split at hx
    · split at hx
      · simp only [] at hx
        injection hx with hx
        subst hx
        intro props hp p hmem
        injection hp with hp
        subst hp
        obtain ⟨pk, _, rfl⟩ := List.mem_map.mp hmem
        exact hP _ none none (fun c hc => by cases hc) (fun ps hp => by cases hp)
      · injection hx with hx
        subst hx
        intro props hp
        cases hp
    · exact ihr hx
  | (key, .fn f) :: rest, pc, hx => by
    have ihr := makeProperties_induct h P hP rest pc
    unfold makeProperties at hx
    split at hx
    · split at hx
      · simp only [] at hx
        injection hx with hx
        subst hx
        intro props hp p hmem
        injection hp with hp
        subst hp
        obtain ⟨pk, _, rfl⟩ := List.mem_map.mp hmem
        exact hP _ none none (fun c hc => by cases hc) (fun ps hp => by cases hp)
      · injection hx with hx
        subst hx
        intro props hp
        cases hp
    · exact ihr hx
theorem makePropsOfEntries_induct (h : Host) (P : Checker → Prop)
    (hP : ∀ (r : Rules) (ic : Option Checker) (pc : Option (List (String × Checker))),
      (∀ c, ic = some c → P c) → (∀ props, pc = some props → ∀ p ∈ props, P p.2) →
      P (checker h r ic pc)) :
    ∀ (kvs : List (String × Val)) (ps : List (String × Checker)),
      makePropsOfEntries h kvs = .ok ps → ∀ p ∈ ps, P p.2
  | [], ps, hx => by
    simp only [makePropsOfEntries] at hx
    injection hx with hx
    subst hx
    intro p hp
    cases hp
  | (pk, v) :: rest, ps, hx => by
    have ihv := makeChecker_induct h P hP v
    have ihr := makePropsOfEntries_induct h P hP rest
    unfold makePropsOfEntries at hx
    cases hv : makeChecker h v with
    | error e => rw [hv] at hx; cases hx
    | ok c0 =>
      rw [hv] at hx
      simp only [] at hx
      cases hr : makePropsOfEntries h rest with
      | error e => rw [hr] at hx; cases hx
      | ok cs =>
        rw [hr] at hx
        simp only [] at hx
        injection hx with hx
        subst hx
        intro p hp
        rcases List.mem_cons.mp hp with rfl | hp2
        · exact ihv c0 hv
        · exact ihr cs hr p hp2
theorem makePropsOfArray_induct (h : Host) (P : Checker → Prop)
    (hP : ∀ (r : Rules) (ic : Option Checker) (pc : Option (List (String × Checker))),
      (∀ c, ic = some c → P c) → (∀ props, pc = some props → ∀ p ∈ props, P p.2) →
      P (checker h r ic pc)) :
    ∀ (xs : List Val) (i : Nat) (ps : List (String × Checker)),
      makePropsOfArray h xs i = .ok ps → ∀ p ∈ ps, P p.2
  | [], i, ps, hx => by
    simp only [makePropsOfArray] at hx
    injection hx with hx
    subst hx
    intro p hp
    cases hp
  | v :: rest, i, ps, hx => by
    have ihv := makeChecker_induct h P hP v
    have ihr := makePropsOfArray_induct h P hP rest (i + 1)
    unfold makePropsOfArray at hx
    cases hv : makeChecker h v with
    | error e => rw [hv] at hx; cases hx
    | ok c0 =>
      rw [hv] at hx
      simp only [] at hx
      cases hr : makePropsOfArray h rest (i + 1) with
      | error e => rw [hr] at hx; cases hx
      | ok cs =>
        rw [hr] at hx
        simp only [] at hx
        injection hx with hx
        subst hx
        intro p hp
        rcases List.mem_cons.mp hp with rfl | hp2
        · exact ihv c0 hv
        · exact ihr cs hr p hp2
end

end GentleSchema

namespace GentleSchema

/-- C1: a declared non-ref field whose descriptor has `required: true`, no
`default` and no `throw`, and that no conditional rule overrides, contributes
for an input without that key exactly one entry, with code `ERR_REQUIRED` and
the field's path (the key itself when no `pathPrefix` is set), whatever its other
rules are; every result record `validate` returns is then invalid and, without
fail-fast, lists that entry; and `validate` does return a result record when
no declared field raises and `valueOnly` is off. -/
theorem required_missing_one_error (h : Host) (s : Schema) (obj : List (String × Val))
    (callOptions : OptionsPatch) (pre post : List Field) (f : Field) (cls : Cls)
    (kvs : List (String × Val)) (c : Checker)
    (hfields : s.fields = pre ++ f :: post)
    (hentry : f.entry = .obj cls kvs)
    (hchk : f.checker = .compiled c)
    (hmk : makeChecker h f.entry = .ok c)
    (hreq : truthy (lookupKey "required" kvs) = true)
    (hdef : lookupKey "default" kvs = .undefined)
    (hthrow : truthy (lookupKey "throw" kvs) = false)
    (hover : hasKey f.key (_evaluateConditionals h s (.obj .plain obj)) = false)
    (habsent : lookupKey f.key obj = .undefined) :
    ∃ e : Err,
      e.code = "ERR_REQUIRED"
      ∧ e.path = fieldPath (assignOptions s.options callOptions) f.key
      ∧ ((assignOptions s.options callOptions).pathPrefix = "" → e.path = f.key)
      ∧ runField h s obj (assignOptions s.options callOptions)
          (_evaluateConditionals h s (.obj .plain obj)) f = .ok ([e], .undefined)
      ∧ (∀ v es val, validate h s obj callOptions = .ok (.result v es val) →
          v = false ∧ ((assignOptions s.options callOptions).failFast = false →
            ∃ A B, es = A ++ [e] ++ B))
      ∧ ((assignOptions s.options callOptions).valueOnly = false →
          (∀ g ∈ s.fields, ∃ r, runField h s obj (assignOptions s.options callOptions)
            (_evaluateConditionals h s (.obj .plain obj)) g = .ok r) →
          ∃ es val, validate h s obj callOptions = .ok (.result false es val)) := by
  rw [hentry] at hmk
  obtain ⟨ic, pc, hc⟩ := makeChecker_obj h cls kvs c hmk
  have hrun : runField h s obj (assignOptions s.options callOptions)
      (_evaluateConditionals h s (.obj .plain obj)) f
      = .ok ([makeErr (readRules (.obj cls kvs))
          (fieldPath (assignOptions s.options callOptions) f.key) "is required" "ERR_REQUIRED"
          .null], .undefined) := by
    simp only [runField, selectChecker, hover, hchk, habsent, Bool.false_eq_true, if_false]
    rw [hc]
    exact checker_required_absent h _ ic pc _ (by simp [readRules, getProp, hreq])
      (by simp [readRules, getProp, hdef]) (by simp [readRules, getProp, hthrow])
  refine ⟨_, ?_, ?_, ?_, hrun, ?_, ?_⟩
  · simp [makeErr]
  · simp [makeErr]
  · intro hp
    simp [makeErr, fieldPath, hp]
  · intro v es val hx
    exact validate_invalid_of_field h s obj callOptions pre post f _ _ hfields hrun (by simp)
      v es val hx
  · intro hv hok
    obtain ⟨v, es, val, hx⟩ := validate_returns h s obj callOptions hv hok
    have := (validate_invalid_of_field h s obj callOptions pre post f _ _ hfields hrun (by simp)
      v es val hx).1
    subst this
    exact ⟨es, val, hx⟩

/-- Witness for C1: the schema `{ x: { type: 'string', required: true } }` on the
input `{}`. -/
theorem required_missing_one_error_witness :
    ∃ e : Err,
      e.code = "ERR_REQUIRED"
      ∧ e.path = "x"
      ∧ runField exampleHost
          (plainSchema (.obj .plain []) [leafField exampleHost "x" requiredStringEntry]) []
          DEFAULT_OPTIONS [] (leafField exampleHost "x" requiredStringEntry) = .ok ([e], .undefined)
      ∧ ∃ es val, validate exampleHost
          (plainSchema (.obj .plain []) [leafField exampleHost "x" requiredStringEntry]) [] {}
          = .ok (.result false es val) := by
  obtain ⟨e, h1, h2, _, h4, _, h6⟩ := required_missing_one_error exampleHost
    (plainSchema (.obj .plain []) [leafField exampleHost "x" requiredStringEntry]) [] {} [] []
    (leafField exampleHost "x" requiredStringEntry) .plain _ _ rfl rfl rfl rfl
    rfl rfl rfl rfl rfl
  refine ⟨e, h1, h2, h4, h6 rfl ?_⟩
  intro g hg
  have hg2 : g = leafField exampleHost "x" requiredStringEntry := by
    simpa [plainSchema] using hg
  subst hg2
  exact ⟨_, h4⟩

/-- The second test of `test.js`: the schema `{ x: { type: 'string', required: true } }`
is built by the constructor and rejects `{}` with the one message `is required`. -/
theorem required_missing_test :
    (match Schema.create exampleHost
        [("x", .obj .plain [("type", .str "string"), ("required", .bool true)])] {} with
      | .ok s =>
        (match validate exampleHost s [] {} with
         | .ok (.result v es _) => (v, es.map (fun e => (e.path, e.code, e.message)))
         | _ => (true, []))
      | .error _ => (true, []))
      = (false, [("x", "ERR_REQUIRED", "Invalid x field. is required")]) := by
  decide

end GentleSchema

namespace GentleSchema

/-- C2, as stated, fails: for the schema `{ n: { type: 'string', default: 5 } }`
and the input `{}` the default `5` is applied and then rejected by the type
rule, so the field contributes an `ERR_TYPE` error and the result is invalid. -/
theorem default_exempt_counterexample :
    checker exampleHost (readRules (.obj .plain [("type", .str "string"), ("default", .num 5)]))
        none none .undefined { path := "n", options := {} }
      = .ok ([{ path := "n", message := "Invalid n field. expected type string, received number",
                code := "ERR_TYPE", rawError := .null }], .num 5)
    ∧ (match Schema.create exampleHost
          [("n", .obj .plain [("type", .str "string"), ("default", .num 5)])] {} with
        | .ok s =>
          (match validate exampleHost s [] {} with
           | .ok (.result v es _) => (v, es.map (fun e => (e.path, e.code)))
           | _ => (true, []))
        | .error _ => (true, []))
      = (false, [("n", "ERR_TYPE")]) := by
  constructor <;> decide

/-- C2, amended: when the field is absent and the descriptor has a default, the
checker applies the default (a producer is invoked) and then treats the
resulting value exactly as it treats that value supplied as the input;
`required` is not consulted.  So the field contributes no error, and the
normalised value is the default, exactly when the default itself passes the
field's other rules. -/
theorem default_applied_then_checked (h : Host) (r : Rules) (ic : Option Checker)
    (pc : Option (List (String × Checker))) (ctx : Ctx) (v : Val)
    (hv : v ≠ .undefined)
    (happly : (r.deflt = v ∧ ∀ f, v ≠ .fn f) ∨ (∃ f, r.deflt = .fn f ∧ h.call f [] = .ok v)) :
    checker h r ic pc .undefined ctx = checker h r ic pc v ctx := by
  have hv2 : ¬ typeOf v = "undefined" := fun hc => hv ((typeOf_eq_undefined v).mp hc)
  have hu : typeOf Val.undefined = "undefined" := rfl
  have hright : checker h r ic pc v ctx = fromNull h r ic pc v ctx := by
    simp [checker, hv2]
  rw [hright]
  unfold checker
  simp only [hu, if_true]
  rcases happly with ⟨hd, hnf⟩ | ⟨f, hd, hcall⟩
  · rw [hd, if_pos hv2]
    cases v with
    | fn f => exact absurd rfl (hnf f)
    | _ => rfl
  · have htf : typeOf (Val.fn f) ≠ "undefined" := by simp [typeOf]
    rw [hd, if_pos htf]
    simp only [hcall]

/-- Witness for C2: the default `5` of `{ type: 'number', required: true, default: 5 }`
is checked like a supplied `5` and accepted. -/
theorem default_applied_then_checked_witness :
    checker exampleHost (readRules (.obj .plain
        [("type", .str "number"), ("required", .bool true), ("default", .num 5)]))
        none none .undefined { path := "n", options := {} }
      = checker exampleHost (readRules (.obj .plain
        [("type", .str "number"), ("required", .bool true), ("default", .num 5)]))
        none none (.num 5) { path := "n", options := {} }
    ∧ checker exampleHost (readRules (.obj .plain
        [("type", .str "number"), ("required", .bool true), ("default", .num 5)]))
        none none .undefined { path := "n", options := {} } = .ok ([], .num 5) :=
  ⟨default_applied_then_checked exampleHost _ none none _ (.num 5) (by decide)
    (Or.inl ⟨by decide, fun f => by intro hf; cases hf⟩), by decide⟩

end GentleSchema

namespace GentleSchema

/-- C3: on a `null` input the checker returns `null` with no error when the
field's `nullable` flag is set, the `nullable` option is set, or the declared
type is the string `'null'`; in every other case it emits exactly one `ERR_NULL`
entry (returned with the value `null`, or carried by the raised
`ValidationError` when the field has `throw`).  Nothing else of the descriptor
takes part: the result does not depend on the other rules or on nested
checkers. -/
theorem null_rule (h : Host) (r : Rules) (ic : Option Checker)
    (pc : Option (List (String × Checker))) (ctx : Ctx) :
    checker h r ic pc .null ctx =
      (if r.nullable = true ∨ ctx.options.nullable = true ∨ r.type = .str "null" then
        .ok ([], .null)
      else if r.throwField = true then
        .error (.validation
          [{ path := ctx.path
             message := "Invalid " ++ ctx.path ++ " field. " ++
               (match r.errorMessage with
                | some m => if m ≠ "" then m else "must not be null"
                | none => "must not be null")
             code := "ERR_NULL"
             rawError := .null }] .undefined)
      else
        .ok ([{ path := ctx.path
                message := "Invalid " ++ ctx.path ++ " field. " ++
                  (match r.errorMessage with
                   | some m => if m ≠ "" then m else "must not be null"
                   | none => "must not be null")
                code := "ERR_NULL"
                rawError := .null }], .null)) := by
  have hty : strictEq r.type (.str "null") = true ↔ r.type = .str "null" := by
    cases r.type <;> simp [strictEq]
  simp only [checker, typeOf, fromNull, emit, makeErr, truthy, hty]
  simp

end GentleSchema

namespace GentleSchema

/-! ## The rule order -/

theorem firstViolated_cons (c : String) (b : Bool) (t : List (String × Bool)) :
    firstViolated ((c, b) :: t) = if b = true then [c] else firstViolated t := by
  cases b <;> simp [firstViolated, List.find?]

theorem firstViolated_nil : firstViolated [] = [] := rfl

theorem emitted_emit (r : Rules) (e : Err) (p out : Val) :
    emittedErrors (emit r [] e p out) = [e] := by
  unfold emit
  split <;> simp [emittedErrors]

theorem makeErr_code (r : Rules) (path reason code : String) (raw : Val) (hc : code ≠ "") :
    (makeErr r path reason code raw).code = code := by
  simp [makeErr, hc]

theorem emitted_fromItems_leaf (h : Host) (r : Rules) (out : Val) (ctx : Ctx)
    (hval : ∀ f, r.validator ≠ .fn f) :
    fromItems h r none none out ctx = .ok ([], out) := by
  have hv : fromValidator h r [] out ctx = .ok ([], out) := by
    unfold fromValidator
    split
    · rename_i f hf
      exact absurd hf (hval f)
    · rfl
  unfold fromItems
  split
  · rename_i hx; cases hx
  · simp [fromProps, hv]

theorem codes_fromBounds_leaf (h : Host) (r : Rules) (out : Val) (ctx : Ctx)
    (hval : ∀ f, r.validator ≠ .fn f) :
    (emittedErrors (fromBounds h r none none out ctx)).map (fun e => e.code)
      = firstViolated [("ERR_MIN", minViolated r out), ("ERR_MAX", maxViolated r out)] := by
  have hend := emitted_fromItems_leaf h r out ctx hval
  simp only [firstViolated_cons, firstViolated_nil, minViolated, maxViolated, boundedQuantity,
    fromBounds]
  by_cases h1 : typeOf out = "number"
  · simp only [h1, if_true]
    by_cases h2 : typeOf r.min = "number" ∧ numLt out r.min = true
    · simp [h2, emitted_emit, makeErr_code]
    · by_cases h3 : typeOf r.max = "number" ∧ numLt r.max out = true
      · rw [if_neg h2, if_pos h3]
        simp [emitted_emit, makeErr_code, h3]
        rw [if_neg h2]
      · rw [if_neg h2, if_neg h3, hend]
        simp [emittedErrors]
        rw [if_neg h2, if_neg h3]
  · simp only [h1, if_false]
    by_cases h0 : typeOf out = "string" ∨ isArray out = true
    · simp only [h0, if_true]
      by_cases h2 : typeOf r.min = "number" ∧ numLt (lengthOf out) r.min = true
      · simp [h2, emitted_emit, makeErr_code]
      · by_cases h3 : typeOf r.max = "number" ∧ numLt r.max (lengthOf out) = true
        · rw [if_neg h2, if_pos h3]
          simp [emitted_emit, makeErr_code, h3]
          rw [if_neg h2]
        · rw [if_neg h2, if_neg h3, hend]
          simp [emittedErrors]
          rw [if_neg h2, if_neg h3]
    · simp [h0, hend, emittedErrors]

theorem codes_fromRegex_leaf (h : Host) (r : Rules) (out : Val) (ctx : Ctx)
    (hval : ∀ f, r.validator ≠ .fn f) :
    (emittedErrors (fromRegex h r none none out ctx)).map (fun e => e.code)
      = firstViolated [("ERR_REGEX", regexViolated h r out), ("ERR_MIN", minViolated r out),
          ("ERR_MAX", maxViolated r out)] := by
  rw [firstViolated_cons, ← codes_fromBounds_leaf h r out ctx hval]
  unfold fromRegex regexViolated
  by_cases h1 : truthy r.regex = true
  · simp only [h1, if_true, Bool.true_and]
    cases hre : r.regex with
    | obj cls kvs =>
      cases cls with
      | regexp source =>
        cases out with
        | str t =>
          by_cases h2 : h.regexTest source t = true
          · simp [h2]
          · simp [h2, emitted_emit, makeErr_code]
        | _ => simp [emitted_emit, makeErr_code]
      | _ => simp [emitted_emit, makeErr_code]
    | _ => simp [emitted_emit, makeErr_code]
  · simp [h1]

theorem ite_of_iff {α : Type} {P : Prop} [Decidable P] {b : Bool} (hPb : P ↔ b = true)
    (x y : α) : (if P then x else y) = if b = true then x else y := by
  by_cases hP : P
  · rw [if_pos hP, if_pos (hPb.mp hP)]
  · rw [if_neg hP, if_neg (fun hb => hP (hPb.mpr hb))]

theorem codes_fromEnum_leaf (h : Host) (r : Rules) (out : Val) (ctx : Ctx)
    (hval : ∀ f, r.validator ≠ .fn f) :
    (emittedErrors (fromEnum h r none none out ctx)).map (fun e => e.code)
      = firstViolated [("ERR_ENUM", enumViolated h r ctx.options out),
          ("ERR_REGEX", regexViolated h r out), ("ERR_MIN", minViolated r out),
          ("ERR_MAX", maxViolated r out)] := by
  rw [firstViolated_cons, ← codes_fromRegex_leaf h r out ctx hval]
  unfold fromEnum enumViolated
  cases hen : r.enumVals with
  | arr es =>
    simp only []
    rw [ite_of_iff (b := decide (es.length > 0)
      && !_enumMatch h (Val.arr es) out ctx.options.strictEnum) (by simp)]
    split
    · simp [emitted_emit, makeErr_code]
    · rfl
  | _ => simp

theorem codes_fromType_leaf (h : Host) (r : Rules) (out : Val) (ctx : Ctx)
    (hval : ∀ f, r.validator ≠ .fn f) :
    (emittedErrors (fromType h r none none out ctx)).map (fun e => e.code)
      = firstViolated [("ERR_TYPE", typeViolated h r out),
          ("ERR_ENUM", enumViolated h r ctx.options out),
          ("ERR_REGEX", regexViolated h r out), ("ERR_MIN", minViolated r out),
          ("ERR_MAX", maxViolated r out)] := by
  rw [firstViolated_cons, ← codes_fromEnum_leaf h r out ctx hval]
  unfold fromType typeViolated
  rw [ite_of_iff (b := decide (typeOf r.type ≠ "undefined") && !strictEq r.type (.str "any")
    && !_matchesType h r.type out) (by simp [and_assoc])]
  split
  · split <;> simp [emitted_emit, makeErr_code]
  · rfl

theorem codes_fromCoerce_leaf (h : Host) (r : Rules) (out : Val) (ctx : Ctx)
    (hval : ∀ f, r.validator ≠ .fn f) :
    (emittedErrors (fromCoerce h r none none out ctx)).map (fun e => e.code)
      = firstViolated [("ERR_COERCE", coerceViolated h r ctx.options out),
          ("ERR_TYPE", typeViolated h r (afterCoercion h r ctx.options out)),
          ("ERR_ENUM", enumViolated h r ctx.options (afterCoercion h r ctx.options out)),
          ("ERR_REGEX", regexViolated h r (afterCoercion h r ctx.options out)),
          ("ERR_MIN", minViolated r (afterCoercion h r ctx.options out)),
          ("ERR_MAX", maxViolated r (afterCoercion h r ctx.options out))] := by
  rw [firstViolated_cons, ← codes_fromType_leaf h r _ ctx hval]
  unfold fromCoerce coerceViolated afterCoercion
  rw [ite_of_iff (b := coercionRequested r ctx.options) (by simp [coercionRequested])]
  cases hreq : coercionRequested r ctx.options with
  | true =>
    simp only [if_true, Bool.true_and]
    cases hco : (_coerceToType h out r.type).coerced with
    | true => simp
    | false =>
      cases hcore : isCorePrimitive r.type with
      | true => simp [emitted_emit, makeErr_code]
      | false => simp
  | false => simp


theorem fromValidatorOnly_leaf (h : Host) (r : Rules) (out : Val) (ctx : Ctx)
    (hval : ∀ f, r.validator ≠ .fn f) :
    fromValidatorOnly h r none none out ctx = fromCoerce h r none none out ctx := by
  unfold fromValidatorOnly
  split
  · rename_i f hf
    exact absurd hf (hval f)
  · rfl

theorem fromNull_null (h : Host) (r : Rules) (ic : Option Checker)
    (pc : Option (List (String × Checker))) (ctx : Ctx) :
    fromNull h r ic pc .null ctx =
      if (r.nullable || ctx.options.nullable || decide (r.type = .str "null")) = true then
        .ok ([], .null)
      else emit r [] (makeErr r ctx.path "must not be null" "ERR_NULL" .null) .undefined .null := by
  have hty : strictEq r.type (.str "null") = true ↔ r.type = .str "null" := by
    cases r.type <;> simp [strictEq]
  simp [fromNull, hty, or_assoc]

theorem fromNull_nonnull (h : Host) (r : Rules) (ic : Option Checker)
    (pc : Option (List (String × Checker))) (v : Val) (ctx : Ctx) (hv : v ≠ .null) :
    fromNull h r ic pc v ctx = fromValidatorOnly h r ic pc v ctx := by
  cases v <;> first | rfl | exact absurd rfl hv

theorem checker_present (h : Host) (r : Rules) (ic : Option Checker)
    (pc : Option (List (String × Checker))) (v : Val) (ctx : Ctx) (hv : v ≠ .undefined) :
    checker h r ic pc v ctx = fromNull h r ic pc v ctx := by
  have hv2 : ¬ typeOf v = "undefined" := fun hc => hv ((typeOf_eq_undefined v).mp hc)
  simp [checker, hv2]

/-- The table of `ruleViolations` after its first entry, for the value `v` the
rules after `required` are applied to. -/
theorem codes_fromNull_leaf (h : Host) (r : Rules) (v : Val) (ctx : Ctx)
    (hval : ∀ f, r.validator ≠ .fn f) :
    (emittedErrors (fromNull h r none none v ctx)).map (fun e => e.code)
      = firstViolated
        [ ("ERR_NULL", (some v).any (nullViolated r ctx.options)),
          ("ERR_COERCE", ((some v).filter (fun v => v ≠ .null)).any
            (coerceViolated h r ctx.options)),
          ("ERR_TYPE", (((some v).filter (fun v => v ≠ .null)).map
            (afterCoercion h r ctx.options)).any (typeViolated h r)),
          ("ERR_ENUM", (((some v).filter (fun v => v ≠ .null)).map
            (afterCoercion h r ctx.options)).any (enumViolated h r ctx.options)),
          ("ERR_REGEX", (((some v).filter (fun v => v ≠ .null)).map
            (afterCoercion h r ctx.options)).any (regexViolated h r)),
          ("ERR_MIN", (((some v).filter (fun v => v ≠ .null)).map
            (afterCoercion h r ctx.options)).any (minViolated r)),
          ("ERR_MAX", (((some v).filter (fun v => v ≠ .null)).map
            (afterCoercion h r ctx.options)).any (maxViolated r)) ] := by
  by_cases hnull : v = .null
  · subst hnull
    rw [fromNull_null]
    simp only [Option.any, Option.filter, nullViolated, firstViolated_cons,
      firstViolated_nil, Option.map]
    cases hperm : (r.nullable || ctx.options.nullable || decide (r.type = .str "null")) with
    | true => simp [emittedErrors]
    | false => simp [emitted_emit, makeErr_code]
  · have hf : (some v).filter (fun v => v ≠ .null) = some v := by
      simp [Option.filter, hnull]
    rw [hf, fromNull_nonnull h r none none v ctx hnull]
    simp only [Option.any, nullViolated, firstViolated_cons, Option.map]
    simp only [hnull, decide_False, Bool.false_and, Bool.false_eq_true, if_false]
    rw [fromValidatorOnly_leaf h r v ctx hval, codes_fromCoerce_leaf h r v ctx hval]
    simp only [firstViolated_cons]


/-- C4: for a descriptor without `items`, `properties` and `validator`, the
checker emits at most one error, and the code of that error is the code of the
first violated rule in the order required, null, coercion, type, enum, regex,
min, max (no error when no rule is violated; a default producer that raises
makes the call raise without any error entry). -/
theorem first_violated_rule_wins (h : Host) (r : Rules) (value : Val) (ctx : Ctx)
    (hval : ∀ f, r.validator ≠ .fn f) :
    (emittedErrors (checker h r none none value ctx)).map (fun e => e.code)
        = firstViolated (ruleViolations h r ctx.options value)
      ∧ (emittedErrors (checker h r none none value ctx)).length ≤ 1 := by
  have hmain : (emittedErrors (checker h r none none value ctx)).map (fun e => e.code)
      = firstViolated (ruleViolations h r ctx.options value) := by
    unfold ruleViolations
    rw [firstViolated_cons]
    by_cases habs : value = .undefined
    · subst habs
      have hu : typeOf Val.undefined = "undefined" := rfl
      by_cases hdef : typeOf r.deflt = "undefined"
      · have hsub : defaulted h r .undefined = none := by simp [defaulted, hu, hdef]
        rw [hsub]
        simp only [checker, hu, hdef, requiredViolated, if_true, ne_eq, not_true_eq_false,
          if_false, decide_True, Bool.true_and]
        cases hreq : r.required with
        | true => simp [emitted_emit, makeErr_code]
        | false => simp [emittedErrors, firstViolated_cons, firstViolated_nil, Option.any,
            Option.filter, Option.map]
      · have hreq : requiredViolated r .undefined = false := by
          simp [requiredViolated, hdef]
        rw [hreq]
        simp only [Bool.false_eq_true, if_false]
        cases hd : r.deflt with
        | fn f =>
          cases hcall : h.call f [] with
          | ok v =>
            have hsub : defaulted h r .undefined = some v := by
              simp [defaulted, hu, hd, typeOf, hcall]
            have hck : checker h r none none .undefined ctx = fromNull h r none none v ctx := by
              simp [checker, hu, hd, typeOf, hcall]
            rw [hsub, hck]
            exact codes_fromNull_leaf h r v ctx hval
          | error e =>
            have hsub : defaulted h r .undefined = none := by
              simp [defaulted, hu, hd, typeOf, hcall]
            have hck : checker h r none none .undefined ctx = .error (.other e) := by
              simp [checker, hu, hd, typeOf, hcall]
            rw [hsub, hck]
            simp [emittedErrors, firstViolated_cons, firstViolated_nil, Option.any,
              Option.filter, Option.map]
        | undefined => rw [hd] at hdef; exact absurd rfl hdef
        | _ =>
          have hsub : defaulted h r .undefined = some r.deflt := by
            simp [defaulted, hu, hd, typeOf]
          have hck : checker h r none none .undefined ctx = fromNull h r none none r.deflt ctx := by
            simp [checker, hu, hd, typeOf]
          rw [hsub, hck]
          exact codes_fromNull_leaf h r r.deflt ctx hval
    · have hty : ¬ typeOf value = "undefined" := fun hc => habs ((typeOf_eq_undefined value).mp hc)
      have hreq : requiredViolated r value = false := by
        simp [requiredViolated, hty]
      have hsub : defaulted h r value = some value := by simp [defaulted, hty]
      rw [hreq, hsub, checker_present h r none none value ctx habs]
      simp only [Bool.false_eq_true, if_false]
      exact codes_fromNull_leaf h r value ctx hval
  refine ⟨hmain, ?_⟩
  have hlen : ((emittedErrors (checker h r none none value ctx)).map (fun e => e.code)).length ≤ 1 := by
    rw [hmain]
    unfold firstViolated
    cases (List.find? (fun p => p.2) (ruleViolations h r ctx.options value)) <;> simp
  simpa using hlen

/-- Witness for C4: `'x'` against `{ type: 'number', enum: [1, 2] }` fails the type
rule and the enum; `7` against `{ type: 'number', min: 10, max: 5 }` is below `min`
and above `max`. -/
theorem first_violated_rule_wins_witness :
    ((emittedErrors (checker exampleHost
        (readRules (.obj .plain [("type", .str "number"), ("enum", .arr [.num 1, .num 2])]))
        none none (.str "x") { path := "f", options := {} })).map (fun e => e.code)
      = firstViolated (ruleViolations exampleHost
        (readRules (.obj .plain [("type", .str "number"), ("enum", .arr [.num 1, .num 2])]))
        DEFAULT_OPTIONS (.str "x"))
      ∧ (emittedErrors (checker exampleHost
        (readRules (.obj .plain [("type", .str "number"), ("enum", .arr [.num 1, .num 2])]))
        none none (.str "x") { path := "f", options := {} })).length ≤ 1)
    ∧ (emittedErrors (checker exampleHost
        (readRules (.obj .plain [("type", .str "number"), ("enum", .arr [.num 1, .num 2])]))
        none none (.str "x") { path := "f", options := {} })).map (fun e => e.code) = ["ERR_TYPE"]
    ∧ (emittedErrors (checker exampleHost
        (readRules (.obj .plain [("type", .str "number"), ("min", .num 10), ("max", .num 5)]))
        none none (.num 7) { path := "f", options := {} })).map (fun e => e.code) = ["ERR_MIN"] :=
  ⟨first_violated_rule_wins exampleHost _ (.str "x") { path := "f", options := {} }
      (fun f => by intro hf; cases hf), by decide, by decide⟩

end GentleSchema

namespace GentleSchema

theorem matchesType_number (h : Host) (v : Val) (hv : typeOf v = "number") :
    _matchesType h (.str "number") v = true := by
  cases v <;> simp [typeOf] at hv <;> simp [_matchesType, _getType, typeOf]

/-- C5: for a field `{ type: 'number' }` with coercion requested by the field or
by the `coerceTypes` option: a non-empty string that `Number` reads as the
number `n` is accepted and normalised to the number `n`; a number is returned
unchanged; the empty string, and a string that `Number` reads as `NaN`, yield
exactly one `ERR_COERCE` entry (so no `ERR_TYPE`), the value staying the
string. -/
theorem number_coercion (h : Host) (r : Rules) (ctx : Ctx)
    (hty : r.type = .str "number")
    (hco : r.coerceField = true ∨ ctx.options.coerceTypes = true)
    (hen : r.enumVals = .undefined) (hre : r.regex = .undefined) (hmin : r.min = .undefined)
    (hmax : r.max = .undefined) (hval : r.validator = .undefined) (hth : r.throwField = false) :
    (∀ s n, s ≠ "" → h.toNumber (.str s) = .ok (some n) →
        checker h r none none (.str s) ctx = .ok ([], .num n))
    ∧ (∀ v, typeOf v = "number" → checker h r none none v ctx = .ok ([], v))
    ∧ (∀ s, s = "" ∨ h.toNumber (.str s) = .ok none →
        ∃ e : Err, e.code = "ERR_COERCE" ∧ e.path = ctx.path
          ∧ checker h r none none (.str s) ctx = .ok ([e], .str s)) := by
  have hvalf : ∀ f, r.validator ≠ .fn f := by
    intro f hf; rw [hval] at hf; cases hf
  have hreq : (r.coerceField = true ∨ ctx.options.coerceTypes = true)
      ∧ typeOf r.type ≠ "undefined" := ⟨hco, by rw [hty]; decide⟩
  have hafter : ∀ v, typeOf v = "number" → fromType h r none none v ctx = .ok ([], v) := by
    intro v hv
    have hm := matchesType_number h v hv
    have h1 : fromType h r none none v ctx = fromEnum h r none none v ctx := by
      unfold fromType
      rw [if_neg]
      rw [hty]
      simp [hm]
    have h2 : fromEnum h r none none v ctx = fromRegex h r none none v ctx := by
      simp [fromEnum, hen]
    have h3 : fromRegex h r none none v ctx = fromBounds h r none none v ctx := by
      simp [fromRegex, hre, truthy]
    have h4 : fromBounds h r none none v ctx = fromItems h r none none v ctx := by
      simp [fromBounds, hv, hmin, hmax, typeOf]
    rw [h1, h2, h3, h4, emitted_fromItems_leaf h r v ctx hvalf]
  refine ⟨?_, ?_, ?_⟩
  · intro s n hs hnum
    rw [checker_present h r none none _ ctx (by simp),
      fromNull_nonnull h r none none _ ctx (by simp), fromValidatorOnly_leaf h r _ ctx hvalf]
    have hc : _coerceToType h (.str s) r.type = { coercedValue := .num n, coerced := true } := by
      simp [_coerceToType, hty, typeName, typeOf, strictEq, hs, hnum]
    unfold fromCoerce
    rw [if_pos hreq]
    simp only [hc, if_true]
    exact hafter _ rfl
  · intro v hv
    have hvu : v ≠ .undefined := by intro hc; rw [hc] at hv; simp [typeOf] at hv
    have hvn : v ≠ .null := by intro hc; rw [hc] at hv; simp [typeOf] at hv
    rw [checker_present h r none none _ ctx hvu,
      fromNull_nonnull h r none none _ ctx hvn, fromValidatorOnly_leaf h r _ ctx hvalf]
    have hc : _coerceToType h v r.type = { coercedValue := v, coerced := true } := by
      simp [_coerceToType, hty, typeName, hv]
    unfold fromCoerce
    rw [if_pos hreq]
    simp only [hc, if_true]
    exact hafter _ hv
  · intro s hs
    rw [checker_present h r none none _ ctx (by simp),
      fromNull_nonnull h r none none _ ctx (by simp), fromValidatorOnly_leaf h r _ ctx hvalf]
    have hc : (_coerceToType h (.str s) r.type).coerced = false := by
      rcases hs with hs | hs
      · subst hs
        simp [_coerceToType, hty, typeName, typeOf, strictEq, coerceFail]
      · by_cases he : s = ""
        · subst he
          simp [_coerceToType, hty, typeName, typeOf, strictEq, coerceFail]
        · simp [_coerceToType, hty, typeName, typeOf, strictEq, coerceFail, he, hs]
    have hcore : isCorePrimitive r.type = true := by rw [hty]; decide
    unfold fromCoerce
    rw [if_pos hreq]
    simp only [hc, hcore, Bool.false_eq_true, if_false, if_true, emit, hth]
    exact ⟨_, by simp [makeErr], by simp [makeErr], rfl⟩

/-- Witness for C5: the schema `{ qty: { type: 'number', coerce: true } }` turns the
string `'10'` into the number `10`, and rejects `'abc'` with `ERR_COERCE`. -/
theorem number_coercion_witness :
    checker exampleHost (readRules (.obj .plain [("type", .str "number"), ("coerce", .bool true)]))
        none none (.str "10") { path := "qty", options := {} } = .ok ([], .num 10)
    ∧ (match checker exampleHost
          (readRules (.obj .plain [("type", .str "number"), ("coerce", .bool true)]))
          none none (.str "abc") { path := "qty", options := {} } with
        | .ok (es, v) => (es.map (fun e => e.code), v)
        | .error _ => ([], .undefined)) = (["ERR_COERCE"], .str "abc") :=
  ⟨(number_coercion exampleHost
      (readRules (.obj .plain [("type", .str "number"), ("coerce", .bool true)]))
      { path := "qty", options := {} } rfl (Or.inl rfl) rfl rfl rfl rfl rfl rfl).1 "10" 10
      (by decide) (by decide), by decide⟩

/-- The scenario of the spec for C5, through the constructor and `validate`:
`{ qty: { type: 'number', coerce: true } }` on `{ qty: '10' }` gives
`{ valid: true, value: { qty: 10 } }`. -/
theorem number_coercion_scenario :
    (match Schema.create exampleHost
        [("qty", .obj .plain [("type", .str "number"), ("coerce", .bool true)])] {} with
      | .ok s => validate exampleHost s [("qty", .str "10")] {}
      | .error e => .error e)
      = .ok (.result true [] (.obj .plain [("qty", .num 10)])) := by
  decide

end GentleSchema

namespace GentleSchema

theorem enumMatchLoop_iff (h : Host) (v : Val) (strictEnum : Bool) (es : List Val) :
    _enumMatchLoop h v strictEnum es = true ↔ enumAccepts h es v strictEnum := by
  induction es with
  | nil => simp [_enumMatchLoop, enumAccepts]
  | cons e rest ih =>
    have hcons : enumAccepts h (e :: rest) v strictEnum ↔
        (((∀ f, e ≠ .fn f) ∧ strictEq e v = true)
          ∨ (strictEnum = false ∧ ∃ f, e = .fn f ∧ ∃ rv, h.call f [v] = .ok rv ∧ truthy rv = true))
        ∨ enumAccepts h rest v strictEnum := by
      unfold enumAccepts
      constructor
      · rintro (⟨x, hx, hnf, heq⟩ | ⟨hs, f, hf, rv, hc, ht⟩)
        · rcases List.mem_cons.mp hx with hx | hx
          · subst hx; exact Or.inl (Or.inl ⟨hnf, heq⟩)
          · exact Or.inr (Or.inl ⟨x, hx, hnf, heq⟩)
        · rcases List.mem_cons.mp hf with hf | hf
          · exact Or.inl (Or.inr ⟨hs, f, hf.symm, rv, hc, ht⟩)
          · exact Or.inr (Or.inr ⟨hs, f, hf, rv, hc, ht⟩)
      · rintro ((⟨hnf, heq⟩ | ⟨hs, f, hf, rv, hc, ht⟩) | (⟨x, hx, hnf, heq⟩ | ⟨hs, f, hf, rv, hc, ht⟩))
        · exact Or.inl ⟨e, List.mem_cons_self _ _, hnf, heq⟩
        · exact Or.inr ⟨hs, f, by rw [hf]; exact List.mem_cons_self _ _, rv, hc, ht⟩
        · exact Or.inl ⟨x, List.mem_cons_of_mem _ hx, hnf, heq⟩
        · exact Or.inr ⟨hs, f, List.mem_cons_of_mem _ hf, rv, hc, ht⟩
    rw [hcons, ← ih]
    by_cases hfn : ∃ f, e = .fn f
    · obtain ⟨f, hf⟩ := hfn
      subst hf
      have hnot : ¬ ((∀ g, Val.fn f ≠ .fn g) ∧ strictEq (.fn f) v = true) := by
        intro hc; exact hc.1 f rfl
      simp only [_enumMatchLoop]
      cases hs : strictEnum with
      | true => simp [hnot]
      | false =>
        cases hcall : h.call f [v] with
        | error err => simp [hnot, hcall]
        | ok rv =>
          cases ht : truthy rv with
          | true => simp [ht, hcall]
          | false => simp [hnot, ht, hcall]
    · have hnf : ∀ f, e ≠ .fn f := fun f hf => hfn ⟨f, hf⟩
      have hloop : _enumMatchLoop h v strictEnum (e :: rest)
          = if strictEq e v = true then true else _enumMatchLoop h v strictEnum rest := by
        cases e <;> first | rfl | exact absurd rfl (hnf _)
      rw [hloop]
      have hno : ¬ (strictEnum = false ∧ ∃ f, e = .fn f ∧ ∃ rv, h.call f [v] = .ok rv
          ∧ truthy rv = true) := by
        rintro ⟨_, f, hf, _⟩; exact hnf f hf
      cases heq : strictEq e v with
      | true => simp [hnf]
      | false => simp [hno]

/-- C6: for a field whose `enum` is the list `es`, a value that reached the enum
rule goes on to the later rules exactly when `es` is empty or the value is
strictly equal to some non-function element, or (strict-enum mode off) some
function element returns a truthy result for it, a predicate that throws not
counting; otherwise exactly one `ERR_ENUM` entry is emitted.  With strict-enum
mode on, a non-empty list made only of predicates accepts no value. -/
theorem enum_rule (h : Host) (r : Rules) (ic : Option Checker)
    (pc : Option (List (String × Checker))) (out : Val) (ctx : Ctx) (es : List Val)
    (hen : r.enumVals = .arr es) :
    (es = [] → fromEnum h r ic pc out ctx = fromRegex h r ic pc out ctx)
    ∧ (enumAccepts h es out ctx.options.strictEnum →
        fromEnum h r ic pc out ctx = fromRegex h r ic pc out ctx)
    ∧ (es ≠ [] → ¬ enumAccepts h es out ctx.options.strictEnum →
        fromEnum h r ic pc out ctx
            = emit r [] (makeErr r ctx.path ("must be one of [" ++ enumFriendly h es ++ "]")
                "ERR_ENUM" .null) out out
          ∧ (emittedErrors (fromEnum h r ic pc out ctx)).map (fun e => e.code) = ["ERR_ENUM"])
    ∧ (ctx.options.strictEnum = true → (∀ e ∈ es, ∃ f, e = .fn f) →
        ¬ enumAccepts h es out ctx.options.strictEnum) := by
  have hmatch : es ≠ [] →
      (_enumMatch h (.arr es) out ctx.options.strictEnum = true
        ↔ enumAccepts h es out ctx.options.strictEnum) := by
    intro hne
    have hlen : es.length ≠ 0 := fun hc => hne (List.length_eq_zero.mp hc)
    simp only [_enumMatch, hlen, if_false]
    exact enumMatchLoop_iff h out _ es
  refine ⟨?_, ?_, ?_, ?_⟩
  · intro he
    subst he
    simp [fromEnum, hen]
  · intro hacc
    by_cases hne : es = []
    · subst hne; simp [fromEnum, hen]
    · have hm := (hmatch hne).mpr hacc
      simp [fromEnum, hen, hm]
  · intro hne hnacc
    have hm : ¬ _enumMatch h (.arr es) out ctx.options.strictEnum = true :=
      fun hc => hnacc ((hmatch hne).mp hc)
    have hlen : es.length > 0 := List.length_pos.mpr hne
    have hfe : fromEnum h r ic pc out ctx
        = emit r [] (makeErr r ctx.path ("must be one of [" ++ enumFriendly h es ++ "]")
            "ERR_ENUM" .null) out out := by
      simp only [fromEnum, hen]
      rw [if_pos ⟨hlen, hm⟩]
    exact ⟨hfe, by rw [hfe, emitted_emit]; simp [makeErr]⟩
  · intro hs hall hacc
    rcases hacc with ⟨e, he, hnf, _⟩ | ⟨hs2, _⟩
    · obtain ⟨f, hf⟩ := hall e he
      exact hnf f hf
    · rw [hs] at hs2; cases hs2

/-- Witness for C6: against `enum: ['a', 'b']` the value `'b'` is accepted and the
value `'c'` is rejected with one `ERR_ENUM`. -/
theorem enum_rule_witness :
    (enumAccepts exampleHost [.str "a", .str "b"] (.str "b") false →
      fromEnum exampleHost (readRules (.obj .plain [("enum", .arr [.str "a", .str "b"])]))
          none none (.str "b") { path := "f", options := {} }
        = fromRegex exampleHost (readRules (.obj .plain [("enum", .arr [.str "a", .str "b"])]))
          none none (.str "b") { path := "f", options := {} })
    ∧ enumAccepts exampleHost [.str "a", .str "b"] (.str "b") false
    ∧ fromEnum exampleHost (readRules (.obj .plain [("enum", .arr [.str "a", .str "b"])]))
          none none (.str "c") { path := "f", options := {} }
        = .ok ([{ path := "f", message := "Invalid f field. must be one of [\"a\", \"b\"]",
                  code := "ERR_ENUM", rawError := .null }], .str "c") :=
  ⟨(enum_rule exampleHost (readRules (.obj .plain [("enum", .arr [.str "a", .str "b"])]))
      none none (.str "b") { path := "f", options := {} } [.str "a", .str "b"] rfl).2.1,
    Or.inl ⟨.str "b", ⟨(by simp), ⟨(fun f => (by intro hf; cases hf)), (by decide)⟩⟩⟩,
    (by decide)⟩

end GentleSchema

namespace GentleSchema

theorem numLt_num_iff (a : Int) (b : Val) :
    (typeOf b = "number" ∧ numLt (.num a) b = true) ↔ ∃ m, b = .num m ∧ a < m := by
  cases b <;> simp [typeOf, numLt]

theorem numGt_num_iff (a : Int) (b : Val) :
    (typeOf b = "number" ∧ numLt b (.num a) = true) ↔ ∃ m, b = .num m ∧ a > m := by
  cases b <;> simp [typeOf, numLt]

/-- C7: a value that reached the bounds rule is measured by itself when it is
a number `q`, by its length `q` when it is a string or an array.  The checker
emits `ERR_MIN` exactly when `min` is a number `m` with `q < m`; otherwise it
emits `ERR_MAX` exactly when `max` is a number `M` with `q > M`; otherwise the
value goes on to the later steps, in particular when `q` equals a bound.  A
value of any other kind (and `NaN`) is never bounded. -/
theorem bounds_rule (h : Host) (r : Rules) (ic : Option Checker)
    (pc : Option (List (String × Checker))) (out : Val) (ctx : Ctx) :
    (∀ q : Int,
      (out = .num q ∨ (∃ s, out = .str s ∧ q = s.length) ∨ (∃ xs, out = .arr xs ∧ q = xs.length)) →
        ((∃ m, r.min = .num m ∧ q < m) →
          ∃ reason, fromBounds h r ic pc out ctx
            = emit r [] (makeErr r ctx.path reason "ERR_MIN" .null) out out)
        ∧ (¬ (∃ m, r.min = .num m ∧ q < m) → (∃ M, r.max = .num M ∧ q > M) →
          ∃ reason, fromBounds h r ic pc out ctx
            = emit r [] (makeErr r ctx.path reason "ERR_MAX" .null) out out)
        ∧ (¬ (∃ m, r.min = .num m ∧ q < m) → ¬ (∃ M, r.max = .num M ∧ q > M) →
          fromBounds h r ic pc out ctx = fromItems h r ic pc out ctx))
    ∧ ((∀ q, out ≠ .num q) → (∀ s, out ≠ .str s) → (∀ xs, out ≠ .arr xs) →
        fromBounds h r ic pc out ctx = fromItems h r ic pc out ctx) := by
  constructor
  · intro q hq
    have key : ∃ w : Val, (typeOf w = "number") ∧ w = .num q ∧
        ∃ p : String, fromBounds h r ic pc out ctx =
          (if typeOf r.min = "number" ∧ numLt w r.min = true then
            emit r [] (makeErr r ctx.path (p ++ "must be >= " ++ toStringJS h r.min) "ERR_MIN"
              .null) out out
          else if typeOf r.max = "number" ∧ numLt r.max w = true then
            emit r [] (makeErr r ctx.path (p ++ "must be <= " ++ toStringJS h r.max) "ERR_MAX"
              .null) out out
          else fromItems h r ic pc out ctx) := by
      rcases hq with hq | ⟨s, hs, hq⟩ | ⟨xs, hxs, hq⟩
      · subst hq
        exact ⟨.num q, rfl, rfl, "", by simp [fromBounds, typeOf]⟩
      · subst hs; subst hq
        exact ⟨.num s.length, rfl, rfl, "length ", by simp [fromBounds, typeOf, lengthOf]⟩
      · subst hxs; subst hq
        exact ⟨.num xs.length, rfl, rfl, "length ",
          by simp [fromBounds, typeOf, lengthOf, isArray]⟩
    obtain ⟨w, _, hw, p, hfb⟩ := key
    subst hw
    refine ⟨?_, ?_, ?_⟩
    · intro hb
      exact ⟨_, by rw [hfb, if_pos ((numLt_num_iff q r.min).mpr hb)]⟩
    · intro hb ha
      exact ⟨_, by rw [hfb, if_neg (fun hc => hb ((numLt_num_iff q r.min).mp hc)),
        if_pos ((numGt_num_iff q r.max).mpr ha)]⟩
    · intro hb ha
      rw [hfb, if_neg (fun hc => hb ((numLt_num_iff q r.min).mp hc)),
        if_neg (fun hc => ha ((numGt_num_iff q r.max).mp hc))]
  · intro h1 h2 h3
    cases out with
    | num q => exact absurd rfl (h1 q)
    | str s => exact absurd rfl (h2 s)
    | arr xs => exact absurd rfl (h3 xs)
    | nan => simp [fromBounds, typeOf, numLt]
    | _ => simp [fromBounds, typeOf, isArray]

/-- Witness for C7: against `{ type: 'number', min: 1 }` the number `0` is rejected
with `ERR_MIN` and the number `1`, equal to the bound, is accepted. -/
theorem bounds_rule_witness :
    (∃ reason, fromBounds exampleHost
        (readRules (.obj .plain [("type", .str "number"), ("min", .num 1)])) none none (.num 0)
        { path := "qty", options := {} }
      = emit (readRules (.obj .plain [("type", .str "number"), ("min", .num 1)])) []
          (makeErr (readRules (.obj .plain [("type", .str "number"), ("min", .num 1)])) "qty"
            reason "ERR_MIN" .null) (.num 0) (.num 0))
    ∧ checker exampleHost (readRules (.obj .plain [("type", .str "number"), ("min", .num 1)]))
        none none (.num 0) { path := "qty", options := {} }
      = .ok ([{ path := "qty", message := "Invalid qty field. must be >= 1", code := "ERR_MIN",
                rawError := .null }], .num 0)
    ∧ checker exampleHost (readRules (.obj .plain [("type", .str "number"), ("min", .num 1)]))
        none none (.num 1) { path := "qty", options := {} } = .ok ([], .num 1) :=
  ⟨((bounds_rule exampleHost (readRules (.obj .plain [("type", .str "number"), ("min", .num 1)]))
      none none (.num 0) { path := "qty", options := {} }).1 0 (Or.inl rfl)).1
      ⟨1, rfl, by decide⟩, by decide, by decide⟩

end GentleSchema

namespace GentleSchema

theorem lookupKey_setKey_same (k : String) (v : Val) (R : List (String × Val)) :
    lookupKey k (setKey k v R) = v := by
  induction R with
  | nil => simp [setKey, lookupKey]
  | cons p rest ih =>
    obtain ⟨k2, v2⟩ := p
    by_cases hk : k2 = k
    · simp [setKey, lookupKey, hk]
    · simp [setKey, lookupKey, hk, ih]

theorem lookupKey_setKey_ne (k k1 : String) (v : Val) (R : List (String × Val))
    (hne : k1 ≠ k) : lookupKey k (setKey k1 v R) = lookupKey k R := by
  induction R with
  | nil => simp [setKey, lookupKey, hne]
  | cons p rest ih =>
    obtain ⟨k2, v2⟩ := p
    by_cases hk : k2 = k1
    · subst hk
      simp [setKey, lookupKey, hne]
    · by_cases hk2 : k2 = k
      · subst hk2
        simp [setKey, lookupKey, hk]
      · simp [setKey, lookupKey, hk, hk2, ih]

theorem fieldLoop_go_lookup (h : Host) (s : Schema) (obj : List (String × Val))
    (opts : Options) (ov : List (String × Val)) (fs : List Field) (E E1 : List Err)
    (R R1 : List (String × Val)) (k : String)
    (hx : fieldLoop h s obj opts ov fs E R = .go E1 R1)
    (hk : ∀ g ∈ fs, g.key ≠ k) : lookupKey k R1 = lookupKey k R := by
  induction fs generalizing E R with
  | nil =>
    simp only [fieldLoop] at hx
    injection hx with h1 h2
    rw [h2]
  | cons f rest ih =>
    simp only [fieldLoop] at hx
    split at hx
    · cases hx
    · rename_i entryErrors coerced _
      split at hx
      · cases hx
      · have h1 := ih _ _ hx (fun g hg => hk g (List.mem_cons_of_mem _ hg))
        have hf : f.key ≠ k := hk f (List.mem_cons_self _ _)
        rw [h1]
        split
        · exact lookupKey_setKey_ne k f.key _ R hf
        · split
          · exact lookupKey_setKey_ne k f.key _ R hf
          · rfl

theorem lenientTopLoop_lookup (s : Schema) (opts : Options) (obj : List (String × Val))
    (ks : List String) (R : List (String × Val)) (k : String)
    (hk : hasKey k s.normalizedSchema = true) :
    lookupKey k (lenientTopLoop s opts obj ks R) = lookupKey k R := by
  induction ks generalizing R with
  | nil => rfl
  | cons k1 rest ih =>
    simp only [lenientTopLoop]
    split
    · exact ih R
    · rename_i hnot
      split
      · exact ih R
      · rw [ih]
        apply lookupKey_setKey_ne
        intro hc
        rw [hc] at hnot
        exact hnot hk

theorem strictTopLoop_go_result (s : Schema) (opts : Options) (ks : List String)
    (E E1 : List Err) (R R1 : List (String × Val))
    (hx : strictTopLoop s opts ks E R = .go E1 R1) : R1 = R := by
  induction ks generalizing E with
  | nil =>
    simp only [strictTopLoop] at hx
    injection hx with h1 h2
    exact h2.symm
  | cons k rest ih =>
    simp only [strictTopLoop] at hx
    split at hx
    · exact ih _ hx
    · split at hx
      · exact ih _ hx
      · split at hx
        · cases hx
        · exact ih _ hx

theorem hasKey_normalizedSchema (s : Schema) (pre post : List Field) (f : Field)
    (hfields : s.fields = pre ++ f :: post) : hasKey f.key s.normalizedSchema = true := by
  unfold Schema.normalizedSchema
  rw [hfields]
  clear hfields
  induction pre with
  | nil => simp [hasKey]
  | cons g rest ih =>
    simp only [List.cons_append, List.map_cons, hasKey]
    split
    · rfl
    · exact ih


theorem lookupKey_of_not_hasKey (k : String) (R : List (String × Val))
    (hk : hasKey k R = false) : lookupKey k R = .undefined := by
  induction R with
  | nil => rfl
  | cons p rest ih =>
    obtain ⟨k2, v2⟩ := p
    by_cases h2 : k2 = k
    · simp [hasKey, h2] at hk
    · simp only [hasKey, h2, if_false] at hk
      simp [lookupKey, h2, ih hk]

/-- Without fail-fast, a result record of `validate` comes from all three phases
running to their end. -/
theorem validate_go (h : Host) (s : Schema) (obj : List (String × Val))
    (callOptions : OptionsPatch) (v : Bool) (es : List Err) (val : Val)
    (hff : (assignOptions s.options callOptions).failFast = false)
    (hx : validate h s obj callOptions = .ok (.result v es val)) :
    ∃ E R E2 R2,
      fieldLoop h s obj (assignOptions s.options callOptions)
        (_evaluateConditionals h s (.obj .plain obj)) s.fields [] [] = .go E R
      ∧ unknownKeys s (assignOptions s.options callOptions) obj E R = .go E2 R2
      ∧ finish (assignOptions s.options callOptions) E2 R2 = .ok (.result v es val) := by
  unfold validate at hx
  split at hx
  · rename_i r h1
    subst hx
    obtain ⟨_, _, h4⟩ := fieldLoop_stop_invalid _ _ _ _ _ _ _ _ _ _ _ h1
    rw [hff] at h4; cases h4
  · rename_i E R h1
    split at hx
    · rename_i r h2
      subst hx
      obtain ⟨_, _, h4⟩ := unknownKeys_stop_invalid _ _ _ _ _ _ _ _ h2
      rw [hff] at h4; cases h4
    · rename_i E2 R2 h2
      exact ⟨E, R, E2, R2, h1, h2, hx⟩

/-- A field loop that runs to its end ran each field's checker without a raise
and, at a failing field, without fail-fast. -/
theorem fieldLoop_split (h : Host) (s : Schema) (obj : List (String × Val)) (opts : Options)
    (ov : List (String × Val)) (pre post : List Field) (f : Field) (E E3 : List Err)
    (R R3 : List (String × Val))
    (hx : fieldLoop h s obj opts ov (pre ++ f :: post) E R = .go E3 R3) :
    ∃ E1 R1 X c,
      fieldLoop h s obj opts ov pre E R = .go E1 R1
      ∧ runField h s obj opts ov f = .ok (X, c)
      ∧ fieldLoop h s obj opts ov post (if X.length ≠ 0 then E1 ++ X else E1)
          (if typeOf c ≠ "undefined" then setKey f.key c R1
           else if hasKey f.key obj then setKey f.key (lookupKey f.key obj) R1
           else R1) = .go E3 R3 := by
  rw [fieldLoop_append] at hx
  cases h1 : fieldLoop h s obj opts ov pre E R with
  | stop r => rw [h1] at hx; cases hx
  | go E1 R1 =>
    rw [h1] at hx
    simp only [fieldLoop] at hx
    cases h2 : runField h s obj opts ov f with
    | error e => rw [h2] at hx; cases hx
    | ok p =>
      obtain ⟨X, c⟩ := p
      rw [h2] at hx
      simp only [] at hx
      split at hx
      · cases hx
      · exact ⟨E1, R1, X, c, rfl, rfl, hx⟩

/-- C8, amended: in a non-fail-fast `validate` (with `removeEmpty` off) a declared
top-level field whose checker reports errors is not excluded from the returned
value: the result is invalid, lists the field's errors, and holds under the
field's key the value the checker returned for it, or the input's own value
for the key when the checker returned `undefined`. -/
theorem failing_field_kept (h : Host) (s : Schema) (obj : List (String × Val))
    (callOptions : OptionsPatch) (pre post : List Field) (f : Field) (X : List Err) (c : Val)
    (hfields : s.fields = pre ++ f :: post)
    (hkeys : ∀ g ∈ pre ++ post, g.key ≠ f.key)
    (hrun : runField h s obj (assignOptions s.options callOptions)
      (_evaluateConditionals h s (.obj .plain obj)) f = .ok (X, c))
    (hX : X ≠ [])
    (hff : (assignOptions s.options callOptions).failFast = false)
    (hre : (assignOptions s.options callOptions).removeEmpty = false)
    (v : Bool) (es : List Err) (val : Val)
    (hx : validate h s obj callOptions = .ok (.result v es val)) :
    v = false ∧ (∃ A B, es = A ++ X ++ B)
      ∧ getProp val f.key = (if typeOf c ≠ "undefined" then c else lookupKey f.key obj) := by
  obtain ⟨hv, hes⟩ := validate_invalid_of_field h s obj callOptions pre post f X c hfields hrun
    hX v es val hx
  refine ⟨hv, hes hff, ?_⟩
  obtain ⟨E, R, E2, R2, h1, h2, h3⟩ := validate_go h s obj callOptions v es val hff hx
  rw [hfields] at h1
  obtain ⟨E1, R1, X2, c2, h4, h5, h6⟩ := fieldLoop_split _ _ _ _ _ _ _ _ _ _ _ _ h1
  rw [hrun] at h5
  injection h5 with h5
  injection h5 with h7 h8
  subst h7; subst h8
  have hpre : lookupKey f.key R1 = .undefined :=
    fieldLoop_go_lookup _ _ _ _ _ _ _ _ _ _ f.key h4
      (fun g hg => hkeys g (List.mem_append_left _ hg))
  have hpost := fieldLoop_go_lookup _ _ _ _ _ _ _ _ _ _ f.key h6
    (fun g hg => hkeys g (List.mem_append_right _ hg))
  have hstored : lookupKey f.key R
      = (if typeOf c ≠ "undefined" then c else lookupKey f.key obj) := by
    rw [hpost]
    split
    · exact lookupKey_setKey_same _ _ _
    · split
      · exact lookupKey_setKey_same _ _ _
      · rename_i hno
        rw [hpre, lookupKey_of_not_hasKey f.key obj (by simpa using hno)]
  have hunk : lookupKey f.key R2 = lookupKey f.key R := by
    unfold unknownKeys at h2
    split at h2
    · rw [strictTopLoop_go_result _ _ _ _ _ _ _ h2]
    · injection h2 with h9 h10
      rw [← h10]
      exact lenientTopLoop_lookup s _ obj _ R f.key (hasKey_normalizedSchema s pre post f hfields)
  unfold finish at h3
  split at h3
  · cases h3
  · injection h3 with h3
    injection h3 with h11 h12 h13
    rw [← h13]
    simp only [hre, Bool.false_eq_true, if_false, getProp]
    rw [hunk, hstored]

/-- C8, as stated, fails: for the schema `{ age: { type: 'number', min: 0 } }` and
the input `{ age: -1 }` the result is invalid with the one `ERR_MIN` entry at
`age`, but its value is `{ age: -1 }`, not `{}`: the failing field is kept. -/
theorem failing_field_excluded_counterexample :
    (match Schema.create exampleHost
        [("age", .obj .plain [("type", .str "number"), ("min", .num 0)])] {} with
      | .ok s => validate exampleHost s [("age", .num (-1))] {}
      | .error e => .error e)
      = .ok (.result false
          [{ path := "age", message := "Invalid age field. must be >= 0", code := "ERR_MIN",
             rawError := .null }] (.obj .plain [("age", .num (-1))]))
    ∧ (match Schema.create exampleHost
        [("age", .obj .plain [("type", .str "number"), ("min", .num 0)])] {} with
      | .ok s => validate exampleHost s [("age", .num (-1))] {}
      | .error e => .error e)
      ≠ .ok (.result false
          [{ path := "age", message := "Invalid age field. must be >= 0", code := "ERR_MIN",
             rawError := .null }] (.obj .plain [])) := by
  constructor <;> decide

/-- The constructor builds for `{ age: { type: 'number', min: 0 } }` the instance
used in the witness of C8. -/
theorem create_age_schema :
    Schema.create exampleHost [("age", .obj .plain [("type", .str "number"), ("min", .num 0)])] {}
      = .ok (plainSchema
          (.obj .plain [("age", .obj .plain [("type", .str "number"), ("min", .num 0)])])
          [leafField exampleHost "age" ageEntry]) := rfl

/-- Witness for C8 (amended): `{ age: -1 }` against `{ age: { type: 'number', min: 0 } }`. -/
theorem failing_field_kept_witness :
    false = false
      ∧ (∃ A B, [makeErr (readRules ageEntry) "age" "must be >= 0" "ERR_MIN" .null]
          = A ++ [makeErr (readRules ageEntry) "age" "must be >= 0" "ERR_MIN" .null] ++ B)
      ∧ getProp (.obj .plain [("age", .num (-1))]) (leafField exampleHost "age" ageEntry).key
          = (if typeOf (Val.num (-1)) ≠ "undefined" then .num (-1)
             else lookupKey (leafField exampleHost "age" ageEntry).key [("age", .num (-1))]) :=
  failing_field_kept exampleHost
    (plainSchema (.obj .plain [("age", .obj .plain [("type", .str "number"), ("min", .num 0)])])
      [leafField exampleHost "age" ageEntry])
    [("age", .num (-1))] {} [] [] (leafField exampleHost "age" ageEntry)
    [makeErr (readRules ageEntry) "age" "must be >= 0" "ERR_MIN" .null] (.num (-1))
    rfl (by intro g hg; cases hg) (by decide) (by simp) (by decide) (by decide)
    false _ (.obj .plain [("age", .num (-1))]) (by decide)

end GentleSchema

namespace GentleSchema

theorem hasKey_setKey_ne (k k1 : String) (v : Val) (R : List (String × Val))
    (hne : k1 ≠ k) : hasKey k (setKey k1 v R) = hasKey k R := by
  induction R with
  | nil => simp [setKey, hasKey, hne]
  | cons p rest ih =>
    obtain ⟨k2, v2⟩ := p
    by_cases hk : k2 = k1
    · subst hk
      simp [setKey, hasKey, hne]
    · by_cases hk2 : k2 = k
      · subst hk2
        simp [setKey, hasKey, hk]
      · simp [setKey, hasKey, hk, hk2, ih]

theorem hasKey_iff_mem_keys (k : String) (R : List (String × Val)) :
    hasKey k R = true ↔ k ∈ R.map (fun kv => kv.1) := by
  induction R with
  | nil => simp [hasKey]
  | cons p rest ih =>
    obtain ⟨k2, v2⟩ := p
    by_cases hk : k2 = k
    · simp [hasKey, hk]
    · simp only [hasKey, hk, if_false, List.map_cons, List.mem_cons]
      rw [ih]
      constructor
      · intro hm; exact Or.inr hm
      · rintro (hm | hm)
        · exact absurd hm.symm hk
        · exact hm

theorem field_keys_of_undeclared (s : Schema) (u : String)
    (hu : hasKey u s.normalizedSchema = false) : ∀ g ∈ s.fields, g.key ≠ u := by
  intro g hg hc
  have hmem : u ∈ s.normalizedSchema.map (fun kv => kv.1) := by
    unfold Schema.normalizedSchema
    simp only [List.map_map, List.mem_map, Function.comp]
    exact ⟨g, hg, hc⟩
  rw [← hasKey_iff_mem_keys] at hmem
  rw [hu] at hmem
  cases hmem

theorem fieldLoop_go_hasKey (h : Host) (s : Schema) (obj : List (String × Val))
    (opts : Options) (ov : List (String × Val)) (fs : List Field) (E E1 : List Err)
    (R R1 : List (String × Val)) (k : String)
    (hx : fieldLoop h s obj opts ov fs E R = .go E1 R1)
    (hk : ∀ g ∈ fs, g.key ≠ k) : hasKey k R1 = hasKey k R := by
  induction fs generalizing E R with
  | nil =>
    simp only [fieldLoop] at hx
    injection hx with h1 h2
    rw [h2]
  | cons f rest ih =>
    simp only [fieldLoop] at hx
    split at hx
    · cases hx
    · rename_i entryErrors coerced _
      split at hx
      · cases hx
      · have h1 := ih _ _ hx (fun g hg => hk g (List.mem_cons_of_mem _ hg))
        have hf : f.key ≠ k := hk f (List.mem_cons_self _ _)
        rw [h1]
        split
        · exact hasKey_setKey_ne k f.key _ R hf
        · split
          · exact hasKey_setKey_ne k f.key _ R hf
          · rfl

/-- When every declared field is valid, the field loop runs to its end with no
error. -/
theorem fieldLoop_all_valid (h : Host) (s : Schema) (obj : List (String × Val))
    (opts : Options) (ov : List (String × Val)) (fs : List Field) (E : List Err)
    (R : List (String × Val))
    (hok : ∀ g ∈ fs, ∃ c, runField h s obj opts ov g = .ok ([], c)) :
    ∃ R1, fieldLoop h s obj opts ov fs E R = .go E R1 := by
  induction fs generalizing R with
  | nil => exact ⟨R, rfl⟩
  | cons f rest ih =>
    obtain ⟨c, hc⟩ := hok f (List.mem_cons_self _ _)
    simp only [fieldLoop, hc, List.length_nil, ne_eq, not_true_eq_false, false_and, if_false]
    exact ih _ (fun g hg => hok g (List.mem_cons_of_mem _ hg))

theorem strictTopLoop_removeUnknown (s : Schema) (opts : Options) (ks : List String)
    (E : List Err) (R : List (String × Val)) (hru : opts.removeUnknown = true) :
    strictTopLoop s opts ks E R = .go E R := by
  induction ks with
  | nil => rfl
  | cons k rest ih =>
    simp only [strictTopLoop, hru, if_true]
    split <;> exact ih

theorem lenientTopLoop_removeUnknown (s : Schema) (opts : Options) (obj : List (String × Val))
    (ks : List String) (R : List (String × Val)) (hru : opts.removeUnknown = true) :
    lenientTopLoop s opts obj ks R = R := by
  induction ks with
  | nil => rfl
  | cons k rest ih =>
    simp only [lenientTopLoop, hru, if_true]
    split <;> exact ih

theorem strictTopLoop_go_mem (s : Schema) (opts : Options) (ks : List String)
    (E E1 : List Err) (R R1 : List (String × Val))
    (hru : opts.removeUnknown = false)
    (hx : strictTopLoop s opts ks E R = .go E1 R1) :
    ∀ k ∈ ks, hasKey k s.normalizedSchema = false →
      _makeErrorObj (fieldPath opts k) "unknown field" "ERR_UNKNOWN" .null ∈ E1 := by
  induction ks generalizing E with
  | nil => intro k hk; cases hk
  | cons k0 rest ih =>
    intro k hk hun
    simp only [strictTopLoop, hru, Bool.false_eq_true, if_false] at hx
    split at hx
    · rename_i hdecl
      rcases List.mem_cons.mp hk with hk | hk
      · subst hk; rw [hun] at hdecl; cases hdecl
      · exact ih _ hx k hk hun
    · split at hx
      · cases hx
      · rcases List.mem_cons.mp hk with hk | hk
        · subst hk
          obtain ⟨Y, hY⟩ := strictTopLoop_go_prefix _ _ _ _ _ _ _ hx
          rw [hY]
          simp
        · exact ih _ hx k hk hun

theorem lenientTopLoop_sets (s : Schema) (opts : Options) (obj : List (String × Val))
    (ks : List String) (R : List (String × Val)) (u : String)
    (hru : opts.removeUnknown = false) (hun : hasKey u s.normalizedSchema = false)
    (hinv : u ∈ ks ∨ lookupKey u R = lookupKey u obj) :
    lookupKey u (lenientTopLoop s opts obj ks R) = lookupKey u obj := by
  induction ks generalizing R with
  | nil =>
    rcases hinv with hm | hl
    · cases hm
    · exact hl
  | cons k rest ih =>
    simp only [lenientTopLoop, hru, Bool.false_eq_true, if_false]
    split
    · rename_i hdecl
      apply ih
      rcases hinv with hm | hl
      · rcases List.mem_cons.mp hm with hm | hm
        · subst hm; rw [hun] at hdecl; cases hdecl
        · exact Or.inl hm
      · exact Or.inr hl
    · apply ih
      by_cases hk : k = u
      · subst hk
        exact Or.inr (lookupKey_setKey_same _ _ _)
      · rcases hinv with hm | hl
        · rcases List.mem_cons.mp hm with hm | hm
          · exact absurd hm.symm hk
          · exact Or.inl hm
        · exact Or.inr (by rw [lookupKey_setKey_ne u k _ R hk]; exact hl)

theorem hasKey_cleanEntries (u : String) (R : List (String × Val))
    (hu : hasKey u R = false) : hasKey u (cleanEntries R) = false := by
  induction R with
  | nil => simp [cleanEntries, hasKey]
  | cons p rest ih =>
    obtain ⟨k, v⟩ := p
    by_cases hk : k = u
    · simp [hasKey, hk] at hu
    · simp only [hasKey, hk, if_false] at hu
      simp only [cleanEntries]
      split
      · simp [hasKey, hk, ih hu]
      · exact ih hu


/-- C9: the top-level unknown-key policy.  Let every declared field be valid
for the input (its checker returns no error), let `u` be a key of the input
that the schema does not declare, and let `valueOnly` be off.  Then `validate`
returns a result record and:
(i) with `strict` on and `removeUnknown` off the result is invalid and, when
fail-fast is off, lists the `ERR_UNKNOWN` entry at the path of `u` (the key
itself when no `pathPrefix` is set);
(ii) with `removeUnknown` on, whatever `strict` is, the result is valid, has no
error, and its value has no key `u`;
(iii) with neither set (and `removeEmpty` off) the result is valid, has no
error, and its value holds under `u` the input's value for `u`. -/
theorem unknown_key_policy (h : Host) (s : Schema) (obj : List (String × Val))
    (callOptions : OptionsPatch) (u : String)
    (hvalid : ∀ g ∈ s.fields, ∃ c, runField h s obj (assignOptions s.options callOptions)
      (_evaluateConditionals h s (.obj .plain obj)) g = .ok ([], c))
    (hu : hasKey u obj = true)
    (hun : hasKey u s.normalizedSchema = false)
    (hvo : (assignOptions s.options callOptions).valueOnly = false) :
    ((assignOptions s.options callOptions).strict = true →
      (assignOptions s.options callOptions).removeUnknown = false →
        ∃ es val, validate h s obj callOptions = .ok (.result false es val)
          ∧ ((assignOptions s.options callOptions).failFast = false →
              _makeErrorObj (fieldPath (assignOptions s.options callOptions) u) "unknown field"
                "ERR_UNKNOWN" .null ∈ es)
          ∧ (_makeErrorObj (fieldPath (assignOptions s.options callOptions) u) "unknown field"
                "ERR_UNKNOWN" .null).code = "ERR_UNKNOWN"
          ∧ ((assignOptions s.options callOptions).pathPrefix = "" →
              (_makeErrorObj (fieldPath (assignOptions s.options callOptions) u) "unknown field"
                "ERR_UNKNOWN" .null).path = u))
    ∧ ((assignOptions s.options callOptions).removeUnknown = true →
        ∃ R, validate h s obj callOptions = .ok (.result true [] (.obj .plain R))
          ∧ hasKey u R = false)
    ∧ ((assignOptions s.options callOptions).strict = false →
      (assignOptions s.options callOptions).removeUnknown = false →
      (assignOptions s.options callOptions).removeEmpty = false →
        ∃ R, validate h s obj callOptions = .ok (.result true [] (.obj .plain R))
          ∧ lookupKey u R = lookupKey u obj) := by
  obtain ⟨R1, hloop⟩ := fieldLoop_all_valid h s obj (assignOptions s.options callOptions)
    (_evaluateConditionals h s (.obj .plain obj)) s.fields [] [] hvalid
  have hR1 : hasKey u R1 = false := by
    rw [fieldLoop_go_hasKey _ _ _ _ _ _ _ _ _ _ u hloop (field_keys_of_undeclared s u hun)]
    rfl
  have hmem : u ∈ obj.map (fun kv => kv.1) := (hasKey_iff_mem_keys u obj).mp hu
  refine ⟨?_, ?_, ?_⟩
  · intro hs hru
    have hunk : unknownKeys s (assignOptions s.options callOptions) obj [] R1
        = strictTopLoop s (assignOptions s.options callOptions) (obj.map (fun kv => kv.1)) [] R1 := by
      simp [unknownKeys, hs]
    rcases strictTopLoop_returns s (assignOptions s.options callOptions)
        (obj.map (fun kv => kv.1)) [] R1 hvo with ⟨es, val, hst⟩ | ⟨E2, R2, hgo⟩
    · refine ⟨es, val, ?_, ?_, ?_, ?_⟩
      · unfold validate
        rw [hloop]
        simp only []
        rw [hunk, hst]
      · intro hff
        obtain ⟨_, _, h3⟩ := strictTopLoop_stop_invalid _ _ _ _ _ _ _ _ hst
        rw [hff] at h3; cases h3
      · simp [_makeErrorObj]
      · intro hp; simp [_makeErrorObj, fieldPath, hp]
    · have he := strictTopLoop_go_mem s _ _ _ _ _ _ hru hgo u hmem hun
      have hlen : E2.length ≠ 0 := by
        intro hc
        rw [List.length_eq_zero.mp hc] at he
        cases he
      refine ⟨E2, .obj .plain (if (assignOptions s.options callOptions).removeEmpty
        then cleanEntries R2 else R2), ?_, fun _ => he, ?_, ?_⟩
      · unfold validate
        rw [hloop]
        simp only []
        rw [hunk, hgo]
        simp only [finish, hvo, Bool.false_eq_true, if_false]
        simp [hlen]
      · simp [_makeErrorObj]
      · intro hp; simp [_makeErrorObj, fieldPath, hp]
  · intro hru
    have hunk : unknownKeys s (assignOptions s.options callOptions) obj [] R1 = .go [] R1 := by
      unfold unknownKeys
      split
      · exact strictTopLoop_removeUnknown _ _ _ _ _ hru
      · rw [lenientTopLoop_removeUnknown _ _ _ _ _ hru]
    refine ⟨if (assignOptions s.options callOptions).removeEmpty then cleanEntries R1 else R1,
      ?_, ?_⟩
    · unfold validate
      rw [hloop]
      simp only []
      rw [hunk]
      simp [finish, hvo]
    · split
      · exact hasKey_cleanEntries u R1 hR1
      · exact hR1
  · intro hs hru hre
    refine ⟨lenientTopLoop s (assignOptions s.options callOptions) obj
      (obj.map (fun kv => kv.1)) R1, ?_, ?_⟩
    · unfold validate
      rw [hloop]
      simp [unknownKeys, hs, finish, hvo, hre]
    · exact lenientTopLoop_sets s _ obj _ R1 u hru hun (Or.inl hmem)


/-- The constructor builds for `{ a: 'string' }` the instance used in the witness
of C9. -/
theorem create_string_schema :
    Schema.create exampleHost [("a", .str "string")] {}
      = .ok (plainSchema (.obj .plain [("a", .str "string")])
          [leafField exampleHost "a" stringEntry]) := rfl

/-- Witness for C9: `{ a: 'x', b: 1 }` against `{ a: 'string' }` in strict mode. -/
theorem unknown_key_policy_witness :
    ∃ es val, validate exampleHost
        (plainSchema (.obj .plain [("a", .str "string")]) [leafField exampleHost "a" stringEntry])
        [("a", .str "x"), ("b", .num 1)] { strict := some true } = .ok (.result false es val)
      ∧ (_makeErrorObj "b" "unknown field" "ERR_UNKNOWN" .null ∈ es) := by
  obtain ⟨es, val, h1, h2, _, _⟩ := (unknown_key_policy exampleHost
    (plainSchema (.obj .plain [("a", .str "string")]) [leafField exampleHost "a" stringEntry])
    [("a", .str "x"), ("b", .num 1)] { strict := some true } "b"
    (by
      intro g hg
      have hg2 : g = leafField exampleHost "a" stringEntry := by simpa [plainSchema] using hg
      subst hg2
      exact ⟨.str "x", by decide⟩)
    (by decide) (by decide) (by decide)).1 (by decide) (by decide)
  exact ⟨es, val, h1, h2 (by decide)⟩

/-- The scenario of the spec for C9, through the constructor: `{ a: 'x', b: 1 }`
against `{ a: 'string' }` in strict mode, with `removeUnknown`, and with neither. -/
theorem unknown_key_policy_scenario :
    (match Schema.create exampleHost [("a", .str "string")] {} with
      | .ok s => validate exampleHost s [("a", .str "x"), ("b", .num 1)]
          { strict := some true, removeUnknown := some false }
      | .error e => .error e)
      = .ok (.result false
          [{ path := "b", message := "Invalid b field. unknown field", code := "ERR_UNKNOWN",
             rawError := .null }] (.obj .plain [("a", .str "x")]))
    ∧ (match Schema.create exampleHost [("a", .str "string")] {} with
      | .ok s => validate exampleHost s [("a", .str "x"), ("b", .num 1)]
          { removeUnknown := some true }
      | .error e => .error e)
      = .ok (.result true [] (.obj .plain [("a", .str "x")]))
    ∧ (match Schema.create exampleHost [("a", .str "string")] {} with
      | .ok s => validate exampleHost s [("a", .str "x"), ("b", .num 1)] {}
      | .error e => .error e)
      = .ok (.result true [] (.obj .plain [("a", .str "x"), ("b", .num 1)])) := by
  refine ⟨?_, ?_, ?_⟩ <;> decide

end GentleSchema

namespace GentleSchema

/-- C10, as stated, fails: with `failFast: true` the errors list holds every
entry of the first invalid field, which are two when its validator reports two
messages.  Schema `{ a: check, b: 'number' }` where `check` returns
`['too short', 'no digit']`, input `{ a: 1, b: 'x' }`: two invalid fields, two
entries under fail-fast. -/
theorem failfast_one_entry_counterexample :
    (match Schema.create twoMessageHost
        [("a", .fn (.user 0 "check")), ("b", .str "number")] { failFast := some true } with
      | .ok s =>
        (match validate twoMessageHost s [("a", .num 1), ("b", .str "x")] {} with
         | .ok (.result v es _) => (v, es.map (fun e => (e.path, e.code, e.message)))
         | _ => (true, []))
      | .error _ => (true, []))
      = (false, [("a", "ERR_CUSTOM", "Invalid a field. too short"),
                 ("a", "ERR_CUSTOM", "Invalid a field. no digit")])
    ∧ (match Schema.create twoMessageHost
        [("a", .fn (.user 0 "check")), ("b", .str "number")] {} with
      | .ok s =>
        (match validate twoMessageHost s [("a", .num 1), ("b", .str "x")] {} with
         | .ok (.result v es _) => (v, es.map (fun e => (e.path, e.code)))
         | _ => (true, []))
      | .error _ => (true, []))
      = (false, [("a", "ERR_CUSTOM"), ("a", "ERR_CUSTOM"), ("b", "ERR_TYPE")]) := by
  constructor <;> decide

/-- C10, amended: let `f` be the first invalid declared field of the input (the
fields before it are valid, its checker returns the non-empty list `X`), with
`valueOnly` off.  With fail-fast on, `validate` returns an invalid result whose
errors are exactly `X`, the entries of that field alone: one entry when the
field reports one error, more when its validator reports several messages.
With fail-fast off, every result record `validate` returns contains the
entries of every declared field, and `validate` returns one when no declared
field raises. -/
theorem failfast_boundary (h : Host) (s : Schema) (obj : List (String × Val))
    (callOptions : OptionsPatch) (pre post : List Field) (f : Field) (X : List Err) (c : Val)
    (hfields : s.fields = pre ++ f :: post)
    (hpre : ∀ g ∈ pre, ∃ c, runField h s obj (assignOptions s.options callOptions)
      (_evaluateConditionals h s (.obj .plain obj)) g = .ok ([], c))
    (hrun : runField h s obj (assignOptions s.options callOptions)
      (_evaluateConditionals h s (.obj .plain obj)) f = .ok (X, c))
    (hX : X ≠ [])
    (hvo : (assignOptions s.options callOptions).valueOnly = false) :
    ((assignOptions s.options callOptions).failFast = true →
        ∃ val, validate h s obj callOptions = .ok (.result false X val))
    ∧ ((assignOptions s.options callOptions).failFast = false →
        (∀ v es val, validate h s obj callOptions = .ok (.result v es val) →
          v = false ∧ ∀ g ∈ s.fields, ∀ Y d,
            runField h s obj (assignOptions s.options callOptions)
              (_evaluateConditionals h s (.obj .plain obj)) g = .ok (Y, d) →
            ∃ A B, es = A ++ Y ++ B)
        ∧ ((∀ g ∈ s.fields, ∃ r, runField h s obj (assignOptions s.options callOptions)
              (_evaluateConditionals h s (.obj .plain obj)) g = .ok r) →
            ∃ es val, validate h s obj callOptions = .ok (.result false es val))) := by
  have hXlen : X.length ≠ 0 := fun h0 => hX (List.length_eq_zero.mp h0)
  constructor
  · intro hff
    obtain ⟨R1, h1⟩ := fieldLoop_all_valid h s obj (assignOptions s.options callOptions)
      (_evaluateConditionals h s (.obj .plain obj)) pre [] [] hpre
    refine ⟨.obj .plain R1, ?_⟩
    unfold validate
    rw [hfields, fieldLoop_append, h1]
    simp only [fieldLoop, hrun]
    rw [if_pos ⟨hXlen, hff⟩]
    simp [failFastExit, hvo]
  · intro hff
    constructor
    · intro v es val hx
      refine ⟨(validate_invalid_of_field h s obj callOptions pre post f X c hfields hrun hX
        v es val hx).1, ?_⟩
      intro g hg Y d hY
      by_cases hYe : Y = []
      · subst hYe
        exact ⟨es, [], by simp⟩
      · obtain ⟨p1, p2, hp⟩ := List.append_of_mem hg
        exact (validate_invalid_of_field h s obj callOptions p1 p2 g Y d hp hY hYe
          v es val hx).2 hff
    · intro hok
      obtain ⟨v, es, val, hx⟩ := validate_returns h s obj callOptions hvo hok
      have hv := (validate_invalid_of_field h s obj callOptions pre post f X c hfields hrun hX
        v es val hx).1
      subst hv
      exact ⟨es, val, hx⟩

/-- Witness for C10 (amended): `{ a: 1, b: 'x' }` against `{ a: 'string', b: 'number' }`
under fail-fast: the errors are the single `ERR_TYPE` entry of `a`. -/
theorem failfast_boundary_witness :
    ∃ val, validate exampleHost
        (plainSchema (.obj .plain [("a", .str "string"), ("b", .str "number")])
          [leafField exampleHost "a" stringEntry,
           leafField exampleHost "b" (.obj .plain [("type", .str "number")])])
        [("a", .num 1), ("b", .str "x")] { failFast := some true }
      = .ok (.result false
          [makeErr (readRules stringEntry) "a" "expected type string, received number" "ERR_TYPE"
            .null] val) :=
  (failfast_boundary exampleHost
    (plainSchema (.obj .plain [("a", .str "string"), ("b", .str "number")])
      [leafField exampleHost "a" stringEntry,
       leafField exampleHost "b" (.obj .plain [("type", .str "number")])])
    [("a", .num 1), ("b", .str "x")] { failFast := some true } []
    [leafField exampleHost "b" (.obj .plain [("type", .str "number")])]
    (leafField exampleHost "a" stringEntry)
    [makeErr (readRules stringEntry) "a" "expected type string, received number" "ERR_TYPE" .null]
    (.num 1) rfl (by intro g hg; cases hg) (by decide) (by simp) (by decide)).1 (by decide)

end GentleSchema

namespace GentleSchema

theorem toStringJS_congr (h h2 : Host) (hs : h2.toStr = h.toStr) (v : Val) :
    toStringJS h2 v = toStringJS h v := by
  cases v <;> simp [toStringJS, hs]

theorem runValidator_congr_host (h h2 : Host) (r : Rules) (f : FnRef) (errs : List Err)
    (out : Val) (path : String) (hs : h2.toStr = h.toStr)
    (hc : h2.call f (validatorArgs out path) = h.call f (validatorArgs out path)) :
    runValidator h2 r f errs out path = runValidator h r f errs out path := by
  have hts : ∀ v, toStringJS h2 v = toStringJS h v := toStringJS_congr h h2 hs
  have hts2 : toStringJS h2 = toStringJS h := funext hts
  unfold validatorArgs at hc
  simp only [runValidator, validatorReject, validatorRejectMany, validatorCatch, hc, hts, hts2]

theorem runValidator_congr_rules (h : Host) (r r2 : Rules) (f : FnRef) (errs : List Err)
    (out : Val) (path : String) (ht : r2.throwField = r.throwField)
    (hm : r2.errorMessage = r.errorMessage) :
    runValidator h r2 f errs out path = runValidator h r f errs out path := by
  have hme : ∀ p reason code raw, makeErr r2 p reason code raw = makeErr r p reason code raw := by
    intro p reason code raw
    simp [makeErr, hm]
  simp only [runValidator, validatorReject, validatorRejectMany, validatorCatch, emit, ht, hme]

theorem checker_validator_only (h : Host) (r : Rules) (ic : Option Checker)
    (pc : Option (List (String × Checker))) (v : Val) (ctx : Ctx) (f : FnRef)
    (hval : r.validator = .fn f) (hty : r.type = .undefined)
    (hv : v ≠ .undefined) (hn : v ≠ .null) :
    checker h r ic pc v ctx = runValidator h r f [] v ctx.path := by
  rw [checker_present h r ic pc v ctx hv, fromNull_nonnull h r ic pc v ctx hn]
  simp [fromValidatorOnly, hval, hty, typeOf]

theorem runValidator_value (h : Host) (r : Rules) (f : FnRef) (errs : List Err)
    (out : Val) (path : String) :
    (∃ es, runValidator h r f errs out path = .ok (es, out))
      ∨ (∃ es, runValidator h r f errs out path = .error (.validation es out)) := by
  have hcatch : ∀ es err, (∃ es2, validatorCatch h r es out path err = .ok (es2, out))
      ∨ (∃ es2, validatorCatch h r es out path err = .error (.validation es2 out)) := by
    intro es err
    unfold validatorCatch emit
    split
    · exact Or.inr ⟨_, rfl⟩
    · exact Or.inl ⟨_, rfl⟩
  have hrej : ∀ e, (∃ es2, validatorReject h r errs out path e = .ok (es2, out))
      ∨ (∃ es2, validatorReject h r errs out path e = .error (.validation es2 out)) := by
    intro e
    unfold validatorReject
    split
    · exact hcatch _ _
    · exact Or.inl ⟨_, rfl⟩
  have hmany : ∀ ms, (∃ es2, validatorRejectMany h r errs out path ms = .ok (es2, out))
      ∨ (∃ es2, validatorRejectMany h r errs out path ms = .error (.validation es2 out)) := by
    intro ms
    unfold validatorRejectMany
    simp only []
    split
    · exact hcatch _ _
    · exact Or.inl ⟨_, rfl⟩
  unfold runValidator
  split
  · exact hcatch _ _
  · split
    · exact Or.inl ⟨_, rfl⟩
    · split
      · exact hrej _
      · split
        · exact hrej _
        · split
          · exact hmany _
          · exact Or.inl ⟨_, rfl⟩
        · split
          · exact Or.inl ⟨_, rfl⟩
          · split
            · exact hmany _
            · exact Or.inl ⟨_, rfl⟩
        · exact Or.inl ⟨_, rfl⟩

/-- C11: for a descriptor with a validator function and no type, and a present
non-null value, the checker's result is the validator block run on that value
with no earlier error.  It is the same whatever the descriptor's `coerce`,
`enum`, `regex`, `min`, `max`, `required`, `nullable`, `default`, `strictType`,
`items` and `properties` are; among the host's services it depends only on
`String` and on the one application `validator(value, { path })`; and the value
it returns, or carries in the raised `ValidationError`, is the input value. -/
theorem validator_only_shortcut (h : Host) (r : Rules) (ic : Option Checker)
    (pc : Option (List (String × Checker))) (v : Val) (ctx : Ctx) (f : FnRef)
    (hval : r.validator = .fn f) (hty : r.type = .undefined)
    (hv : v ≠ .undefined) (hn : v ≠ .null) :
    checker h r ic pc v ctx = runValidator h r f [] v ctx.path
    ∧ (∀ (r2 : Rules) (ic2 : Option Checker) (pc2 : Option (List (String × Checker))),
        r2.validator = .fn f → r2.type = .undefined → r2.throwField = r.throwField →
        r2.errorMessage = r.errorMessage →
        checker h r2 ic2 pc2 v ctx = checker h r ic pc v ctx)
    ∧ (∀ h2 : Host, h2.toStr = h.toStr →
        h2.call f (validatorArgs v ctx.path) = h.call f (validatorArgs v ctx.path) →
        checker h2 r ic pc v ctx = checker h r ic pc v ctx)
    ∧ ((∃ es, checker h r ic pc v ctx = .ok (es, v))
        ∨ (∃ es, checker h r ic pc v ctx = .error (.validation es v))) := by
  have h1 := checker_validator_only h r ic pc v ctx f hval hty hv hn
  refine ⟨h1, ?_, ?_, ?_⟩
  · intro r2 ic2 pc2 hval2 hty2 ht hm
    rw [h1, checker_validator_only h r2 ic2 pc2 v ctx f hval2 hty2 hv hn]
    exact runValidator_congr_rules h r r2 f [] v ctx.path ht hm
  · intro h2 hs hc
    rw [h1, checker_validator_only h2 r ic pc v ctx f hval hty hv hn]
    exact runValidator_congr_host h h2 r f [] v ctx.path hs hc
  · rw [h1]
    exact runValidator_value h r f [] v ctx.path

/-- Witness for C11: the descriptor `{ validator: f, enum: [1, 2], min: 5 }` on the
value `0`, which is outside the enumeration and below the minimum, with a
validator that accepts. -/
theorem validator_only_shortcut_witness :
    checker (hostReturning [.bool true]) validatorOnlyRules none none (.num 0)
      { path := "x", options := DEFAULT_OPTIONS } = .ok ([], .num 0) :=
  (validator_only_shortcut (hostReturning [.bool true]) validatorOnlyRules none none (.num 0)
    { path := "x", options := DEFAULT_OPTIONS } (.user 0 "f") rfl rfl (by decide) (by decide)).1.trans
    (by decide)

end GentleSchema

namespace GentleSchema

theorem makeErr_plain (r : Rules) (hm : r.errorMessage = none) (path reason : String) :
    makeErr r path reason "ERR_CUSTOM" .null = customError path reason := by
  simp [makeErr, customError, hm, truthy]

theorem runValidator_contract (h : Host) (r : Rules) (f : FnRef) (errs : List Err) (out : Val)
    (path : String) (ht : r.throwField = false) (hm : r.errorMessage = none) (es : List Err)
    (hes : contractErrors h path (h.call f (validatorArgs out path)) = some es) :
    runValidator h r f errs out path = .ok (errs ++ es, out) := by
  unfold validatorArgs at hes
  unfold runValidator
  cases hc : h.call f [out, .obj .plain [("path", .str path)]] with
  | error err =>
    rw [hc] at hes
    simp only [contractErrors, Option.some.injEq] at hes
    subst hes
    simp [validatorCatch, emit, ht, makeErr, hm, thrownError]
  | ok rv =>
    rw [hc] at hes
    cases rv with
    | bool b =>
      cases b
      · simp only [contractErrors, Option.some.injEq] at hes
        subst hes
        simp [strictEq, validatorReject, ht, makeErr_plain r hm]
      · simp only [contractErrors, Option.some.injEq] at hes
        subst hes
        simp [strictEq]
    | str s =>
      simp only [contractErrors, Option.some.injEq] at hes
      subst hes
      simp [strictEq, validatorReject, ht, makeErr_plain r hm]
    | arr ms =>
      cases ms with
      | nil => simp [contractErrors] at hes
      | cons m ms =>
        simp only [contractErrors, Option.some.injEq] at hes
        subst hes
        simp [strictEq, validatorRejectMany, ht, makeErr_plain r hm]
    | obj c kvs =>
      simp only [contractErrors] at hes
      split at hes
      · rename_i hv
        simp only [Option.some.injEq] at hes
        subst hes
        simp [strictEq, hv]
      · rename_i hv he
        simp only [Option.some.injEq] at hes
        subst hes
        simp [strictEq, hv, he, validatorRejectMany, ht, makeErr_plain r hm]
      · simp at hes
    | _ => simp [contractErrors] at hes

theorem runValidator_total (h : Host) (r : Rules) (f : FnRef) (errs : List Err) (out : Val)
    (path : String) (ht : r.throwField = false) :
    ∃ es, runValidator h r f errs out path = .ok (errs ++ es, out)
      ∧ ∀ e ∈ es, e.code = "ERR_CUSTOM" ∧ e.path = path := by
  have hnil : ∃ es, (Except.ok (errs, out) : CheckResult) = .ok (errs ++ es, out)
      ∧ ∀ e ∈ es, e.code = "ERR_CUSTOM" ∧ e.path = path := ⟨[], by simp, by simp⟩
  have hrej : ∀ reason, ∃ es, validatorReject h r errs out path
        (makeErr r path reason "ERR_CUSTOM" .null) = .ok (errs ++ es, out)
      ∧ ∀ e ∈ es, e.code = "ERR_CUSTOM" ∧ e.path = path := by
    intro reason
    refine ⟨[makeErr r path reason "ERR_CUSTOM" .null], ?_, ?_⟩
    · simp [validatorReject, ht]
    · simp [makeErr]
  have hmany : ∀ ms, ∃ es, validatorRejectMany h r errs out path ms = .ok (errs ++ es, out)
      ∧ ∀ e ∈ es, e.code = "ERR_CUSTOM" ∧ e.path = path := by
    intro ms
    refine ⟨ms.map (fun m => makeErr r path (toStringJS h m) "ERR_CUSTOM" .null), ?_, ?_⟩
    · simp [validatorRejectMany, ht]
    · intro e he
      obtain ⟨m, _, rfl⟩ := List.mem_map.mp he
      simp [makeErr]
  unfold runValidator
  split
  · rename_i err _
    refine ⟨[makeErr r path (toStringJS h err) "ERR_CUSTOM" err], ?_, ?_⟩
    · simp [validatorCatch, emit, ht]
    · simp [makeErr]
  · split
    · exact hnil
    · split
      · exact hrej _
      · split
        · exact hrej _
        · split
          · exact hmany _
          · exact hnil
        · split
          · exact hnil
          · split
            · exact hmany _
            · exact hnil
        · exact hnil

/-- C12: for a field without `throw` and without `errorMessage` whose validator is
the function `f`, both validator steps follow the result-shape contract.  When
the outcome of `f(value, { path })` is one the contract lists (`true`, `false`,
a string, a non-empty array, an object with `valid: true`, an object with
`valid: false` and an `errors` array, or a thrown error) with contract errors
`es`, the validator-only step returns exactly `es` and the value, and the
post-structural step returns the earlier errors followed by `es`; and for every
outcome the step returns normally, adding only `ERR_CUSTOM` entries at the
field's path, so nothing is raised. -/
theorem validator_result_shapes (h : Host) (r : Rules) (f : FnRef)
    (hval : r.validator = .fn f) (ht : r.throwField = false) (hm : r.errorMessage = none) :
    (∀ (ic : Option Checker) (pc : Option (List (String × Checker))) (v : Val) (ctx : Ctx)
        (es : List Err), r.type = .undefined → v ≠ .undefined → v ≠ .null →
        contractErrors h ctx.path (h.call f (validatorArgs v ctx.path)) = some es →
        checker h r ic pc v ctx = .ok (es, v))
    ∧ (∀ (errs : List Err) (out : Val) (ctx : Ctx) (es : List Err),
        contractErrors h ctx.path (h.call f (validatorArgs out ctx.path)) = some es →
        fromValidator h r errs out ctx = .ok (errs ++ es, out))
    ∧ (∀ (ic : Option Checker) (pc : Option (List (String × Checker))) (v : Val) (ctx : Ctx),
        r.type = .undefined → v ≠ .undefined → v ≠ .null →
        ∃ es, checker h r ic pc v ctx = .ok (es, v)
          ∧ ∀ e ∈ es, e.code = "ERR_CUSTOM" ∧ e.path = ctx.path)
    ∧ (∀ (errs : List Err) (out : Val) (ctx : Ctx),
        ∃ es, fromValidator h r errs out ctx = .ok (errs ++ es, out)
          ∧ ∀ e ∈ es, e.code = "ERR_CUSTOM" ∧ e.path = ctx.path) := by
  refine ⟨?_, ?_, ?_, ?_⟩
  · intro ic pc v ctx es hty hv hn hes
    rw [checker_validator_only h r ic pc v ctx f hval hty hv hn,
      runValidator_contract h r f [] v ctx.path ht hm es hes]
    simp
  · intro errs out ctx es hes
    simp only [fromValidator, hval]
    exact runValidator_contract h r f errs out ctx.path ht hm es hes
  · intro ic pc v ctx hty hv hn
    rw [checker_validator_only h r ic pc v ctx f hval hty hv hn]
    simpa using runValidator_total h r f [] v ctx.path ht
  · intro errs out ctx
    simp only [fromValidator, hval]
    exact runValidator_total h r f errs out ctx.path ht

/-- Witness for C12: the descriptor `{ validator: f, enum: [1, 2], min: 5 }` with a
validator that returns two messages, on the value `0`. -/
theorem validator_result_shapes_witness :
    checker twoMessageHost validatorOnlyRules none none (.num 0)
        { path := "x", options := DEFAULT_OPTIONS }
      = .ok ([customError "x" "too short", customError "x" "no digit"], .num 0) :=
  (validator_result_shapes twoMessageHost validatorOnlyRules (.user 0 "f") rfl rfl rfl).1
    none none (.num 0) { path := "x", options := DEFAULT_OPTIONS } _ rfl (by decide) (by decide)
    (by decide)

end GentleSchema

namespace GentleSchema

/-- C13 (the code's behaviour): a validator that returns `{ valid: false }`, or
`{ valid: false, errors: [] }`, is treated as accepting.  With the schema
`{ x: { validator: f } }` (validator-only step) and with
`{ x: { type: 'number', validator: f } }` (post-structural step), the input
`{ x: 1 }` is valid with no error. -/
theorem valid_false_without_errors_accepted :
    createAndValidate (hostReturning [.obj .plain [("valid", .bool false)]])
        [("x", .obj .plain [("validator", .fn (.user 0 "f"))])] {} [("x", .num 1)] {}
      = .ok (.result true [] (.obj .plain [("x", .num 1)]))
    ∧ createAndValidate
        (hostReturning [.obj .plain [("valid", .bool false), ("errors", .arr [])]])
        [("x", .obj .plain [("validator", .fn (.user 0 "f"))])] {} [("x", .num 1)] {}
      = .ok (.result true [] (.obj .plain [("x", .num 1)]))
    ∧ createAndValidate (hostReturning [.obj .plain [("valid", .bool false)]])
        [("x", .obj .plain [("type", .str "number"), ("validator", .fn (.user 0 "f"))])] {}
        [("x", .num 1)] {}
      = .ok (.result true [] (.obj .plain [("x", .num 1)]))
    ∧ createAndValidate
        (hostReturning [.obj .plain [("valid", .bool false), ("errors", .arr [])]])
        [("x", .obj .plain [("type", .str "number"), ("validator", .fn (.user 0 "f"))])] {}
        [("x", .num 1)] {}
      = .ok (.result true [] (.obj .plain [("x", .num 1)])) := by
  refine ⟨?_, ?_, ?_, ?_⟩ <;> decide

end GentleSchema

namespace GentleSchema

/-- C14 (the code's behaviour): outside fail-fast mode a field with `throw: true`
does not raise for an error of a nested element, a nested property or a nested
unknown key; `validate` returns a result listing the error.  The same inputs
raise in fail-fast mode, and an error of the field's own type rule raises in
either mode. -/
theorem throw_ignored_for_nested_errors :
    createAndValidate exampleHost tagsSchema {} [("tags", .arr [.num 1])] {}
      = .ok (.result false
          [{ path := "tags[0]",
             message := "Invalid tags[0] field. expected type string, received number",
             code := "ERR_TYPE", rawError := .null }]
          (.obj .plain [("tags", .arr [.num 1])]))
    ∧ createAndValidate exampleHost boxSchema {} [("box", .obj .plain [("a", .num 1)])] {}
      = .ok (.result false
          [{ path := "box.a",
             message := "Invalid box.a field. expected type string, received number",
             code := "ERR_TYPE", rawError := .null }]
          (.obj .plain [("box", .obj .plain [])]))
    ∧ createAndValidate exampleHost boxSchema {}
        [("box", .obj .plain [("a", .str "x"), ("b", .num 1)])] { strict := some true }
      = .ok (.result false
          [{ path := "box.b", message := "Invalid box.b field. unknown field",
             code := "ERR_UNKNOWN", rawError := .null }]
          (.obj .plain [("box", .obj .plain [("a", .str "x")])]))
    ∧ createAndValidate exampleHost tagsSchema {} [("tags", .arr [.num 1])]
        { failFast := some true }
      = .error (.validation
          [{ path := "tags[0]",
             message := "Invalid tags[0] field. expected type string, received number",
             code := "ERR_TYPE", rawError := .null }] .undefined)
    ∧ createAndValidate exampleHost tagsSchema {} [("tags", .num 1)] {}
      = .error (.validation
          [{ path := "tags",
             message := "Invalid tags field. expected type array, received number",
             code := "ERR_TYPE", rawError := .null }] (.num 1)) := by
  refine ⟨?_, ?_, ?_, ?_, ?_⟩ <;> decide

end GentleSchema

namespace GentleSchema

theorem makeErr_replaces (r r0 : Rules) (m : String) (hm : r.errorMessage = some m)
    (hne : m ≠ "") (path reason reason0 code : String) (raw raw0 : Val) :
    replacesReason m (makeErr r path reason code raw) (makeErr r0 path reason0 code raw0) := by
  simp [replacesReason, makeErr, hm, hne, customMessage]

theorem resultsAgree_refl (R : Err → Err → Prop) (hrefl : ∀ e, R e e) (res : CheckResult) :
    resultsAgree R res res := by
  rcases res with ex | ⟨es, out⟩
  · cases ex with
    | validation es p => exact ⟨rfl, List.forall₂_same.mpr (fun e _ => hrefl e)⟩
    | other e => exact rfl
  · exact ⟨rfl, List.forall₂_same.mpr (fun e _ => hrefl e)⟩

theorem emit_agree (R : Err → Err → Prop) (r r0 : Rules) (ht : r0.throwField = r.throwField)
    (errs errs0 : List Err) (e e0 : Err) (pv out : Val) (hE : List.Forall₂ R errs errs0)
    (he : R e e0) : resultsAgree R (emit r errs e pv out) (emit r0 errs0 e0 pv out) := by
  unfold emit
  rw [ht]
  cases r.throwField
  · exact ⟨rfl, List.rel_append hE (List.Forall₂.cons he List.Forall₂.nil)⟩
  · exact ⟨rfl, List.Forall₂.cons he List.Forall₂.nil⟩

theorem runValidator_agree (R : Err → Err → Prop) (h : Host) (r r0 : Rules) (m : String)
    (hm : r.errorMessage = some m) (hne : m ≠ "") (ht : r0.throwField = r.throwField)
    (hown : ∀ e e0, replacesReason m e e0 → R e e0) (f : FnRef) (errs errs0 : List Err)
    (out : Val) (path : String) (hE : List.Forall₂ R errs errs0) :
    resultsAgree R (runValidator h r f errs out path) (runValidator h r0 f errs0 out path) := by
  have hmk : ∀ reason reason0 raw raw0, R (makeErr r path reason "ERR_CUSTOM" raw)
      (makeErr r0 path reason0 "ERR_CUSTOM" raw0) := fun reason reason0 raw raw0 =>
    hown _ _ (makeErr_replaces r r0 m hm hne path reason reason0 "ERR_CUSTOM" raw raw0)
  have hcatch : ∀ (es es0 : List Err) (err err0 : Val), List.Forall₂ R es es0 →
      resultsAgree R (validatorCatch h r es out path err)
        (validatorCatch h r0 es0 out path err0) := by
    intro es es0 err err0 hes
    unfold validatorCatch emit
    rw [ht]
    cases r.throwField
    · exact ⟨rfl, List.rel_append hes (List.Forall₂.cons (hmk _ _ _ _) List.Forall₂.nil)⟩
    · exact ⟨rfl, List.Forall₂.cons (hmk _ _ _ _) List.Forall₂.nil⟩
  have hok : resultsAgree R (.ok (errs, out)) (.ok (errs0, out)) := ⟨rfl, hE⟩
  have hrej : ∀ reason, resultsAgree R
      (validatorReject h r errs out path (makeErr r path reason "ERR_CUSTOM" .null))
      (validatorReject h r0 errs0 out path (makeErr r0 path reason "ERR_CUSTOM" .null)) := by
    intro reason
    unfold validatorReject
    rw [ht]
    cases r.throwField
    · exact ⟨rfl, List.rel_append hE (List.Forall₂.cons (hmk _ _ _ _) List.Forall₂.nil)⟩
    · exact hcatch _ _ _ _ hE
  have hmap : ∀ ms : List Val, List.Forall₂ R
      (ms.map (fun x => makeErr r path (toStringJS h x) "ERR_CUSTOM" .null))
      (ms.map (fun x => makeErr r0 path (toStringJS h x) "ERR_CUSTOM" .null)) := by
    intro ms
    induction ms with
    | nil => exact List.Forall₂.nil
    | cons x xs ih => exact List.Forall₂.cons (hmk _ _ _ _) ih
  have hmany : ∀ ms, resultsAgree R (validatorRejectMany h r errs out path ms)
      (validatorRejectMany h r0 errs0 out path ms) := by
    intro ms
    unfold validatorRejectMany
    simp only []
    rw [ht]
    cases r.throwField
    · exact ⟨rfl, List.rel_append hE (hmap ms)⟩
    · exact hcatch _ _ _ _ (List.rel_append hE (hmap ms))
  unfold runValidator
  cases h.call f [out, .obj .plain [("path", .str path)]] with
  | error err => exact hcatch _ _ _ _ hE
  | ok rv =>
    simp only []
    split
    · exact hok
    · split
      · exact hrej _
      · split
        · exact hrej _
        · split
          · exact hmany _
          · exact hok
        · split
          · exact hok
          · split
            · exact hmany _
            · exact hok
        · exact hok

theorem forall₂_refl_of (R : Err → Err → Prop) (hrefl : ∀ e, R e e) (es : List Err) :
    List.Forall₂ R es es :=
  List.forall₂_same.mpr (fun e _ => hrefl e)

theorem itemsLoop_agree (R : Err → Err → Prop) (hrefl : ∀ e, R e e) (r r0 : Rules)
    (ht : r0.throwField = r.throwField) (ic : Checker) (path : String) (options : Options)
    (out : Val) (xs : List Val) :
    ∀ (i : Nat) (errs errs0 : List Err) (newArr : List Val) (hadErr : Bool),
      List.Forall₂ R errs errs0 →
      loopsAgree R (itemsLoop r ic path options out xs i errs newArr hadErr)
        (itemsLoop r0 ic path options out xs i errs0 newArr hadErr) := by
  induction xs with
  | nil =>
    intro i errs errs0 newArr hadErr hE
    exact ⟨rfl, hE⟩
  | cons x rest ih =>
    intro i errs errs0 newArr hadErr hE
    unfold itemsLoop
    rw [ht]
    cases ic x { path := _arrayPath path i, options := options } with
    | error ex => exact resultsAgree_refl R hrefl _
    | ok p =>
      obtain ⟨childErrs, childVal⟩ := p
      simp only []
      have hE2 : List.Forall₂ R (errs ++ childErrs) (errs0 ++ childErrs) :=
        List.rel_append hE (forall₂_refl_of R hrefl childErrs)
      split
      · split
        · split
          · exact ⟨rfl, hE2⟩
          · exact ⟨rfl, hE2⟩
        · exact ih _ _ _ _ _ hE2
      · exact ih _ _ _ _ _ hE

theorem propsLoop_agree (R : Err → Err → Prop) (hrefl : ∀ e, R e e) (r r0 : Rules)
    (ht : r0.throwField = r.throwField) (path : String) (options : Options)
    (out : Val) (props : List (String × Checker)) :
    ∀ (errs errs0 : List Err) (nestedResult : List (String × Val)),
      List.Forall₂ R errs errs0 →
      loopsAgree R (propsLoop r path options out props errs nestedResult)
        (propsLoop r0 path options out props errs0 nestedResult) := by
  induction props with
  | nil =>
    intro errs errs0 nestedResult hE
    exact ⟨rfl, hE⟩
  | cons p rest ih =>
    intro errs errs0 nestedResult hE
    obtain ⟨pk, ck⟩ := p
    unfold propsLoop
    rw [ht]
    cases ck (getProp out pk) { path := childPathOf path pk, options := options } with
    | error ex => exact resultsAgree_refl R hrefl _
    | ok p =>
      obtain ⟨childErrs, childVal⟩ := p
      simp only []
      have hE2 : List.Forall₂ R (errs ++ childErrs) (errs0 ++ childErrs) :=
        List.rel_append hE (forall₂_refl_of R hrefl childErrs)
      split
      · split
        · split
          · exact ⟨rfl, hE2⟩
          · exact ⟨rfl, hE2⟩
        · exact ih _ _ _ hE2
      · exact ih _ _ _ hE

theorem strictUnknownLoop_agree (R : Err → Err → Prop) (r r0 : Rules) (m : String)
    (hm : r.errorMessage = some m) (hne : m ≠ "") (ht : r0.throwField = r.throwField)
    (hown : ∀ e e0, replacesReason m e e0 → R e e0) (path : String) (options : Options)
    (out : Val) (nk : List String) (ks : List String) :
    ∀ (errs errs0 : List Err), List.Forall₂ R errs errs0 →
      loopsAgree R (strictUnknownLoop r path options out nk ks errs)
        (strictUnknownLoop r0 path options out nk ks errs0) := by
  induction ks with
  | nil =>
    intro errs errs0 hE
    exact ⟨rfl, hE⟩
  | cons k2 rest ih =>
    intro errs errs0 hE
    unfold strictUnknownLoop
    rw [ht]
    have hE2 : List.Forall₂ R
        (errs ++ [makeErr r (childPathOf path k2) "unknown field" "ERR_UNKNOWN" .null])
        (errs0 ++ [makeErr r0 (childPathOf path k2) "unknown field" "ERR_UNKNOWN" .null]) :=
      List.rel_append hE (List.Forall₂.cons
        (hown _ _ (makeErr_replaces r r0 m hm hne _ _ _ _ _ _)) List.Forall₂.nil)
    split
    · exact ih _ _ hE
    · split
      · exact ih _ _ hE
      · simp only []
        split
        · split
          · exact ⟨rfl, hE2⟩
          · exact ⟨rfl, hE2⟩
        · exact ih _ _ hE2

theorem fromValidator_agree (R : Err → Err → Prop) (h : Host) (r r0 : Rules) (m : String)
    (hm : r.errorMessage = some m) (hne : m ≠ "") (ht : r0.throwField = r.throwField)
    (hv : r0.validator = r.validator)
    (hown : ∀ e e0, replacesReason m e e0 → R e e0) (errs errs0 : List Err)
    (out : Val) (ctx : Ctx) (hE : List.Forall₂ R errs errs0) :
    resultsAgree R (fromValidator h r errs out ctx) (fromValidator h r0 errs0 out ctx) := by
  unfold fromValidator
  rw [hv]
  split
  · exact runValidator_agree R h r r0 m hm hne ht hown _ _ _ _ _ hE
  · exact ⟨rfl, hE⟩

theorem fromProps_agree (R : Err → Err → Prop) (hrefl : ∀ e, R e e) (h : Host) (r r0 : Rules)
    (m : String) (hm : r.errorMessage = some m) (hne : m ≠ "")
    (ht : r0.throwField = r.throwField) (hv : r0.validator = r.validator)
    (hown : ∀ e e0, replacesReason m e e0 → R e e0)
    (pc : Option (List (String × Checker))) (errs errs0 : List Err)
    (out : Val) (ctx : Ctx) (hE : List.Forall₂ R errs errs0) :
    resultsAgree R (fromProps h r pc errs out ctx) (fromProps h r0 pc errs0 out ctx) := by
  have hval : ∀ es es0 o, List.Forall₂ R es es0 →
      resultsAgree R (fromValidator h r es o ctx) (fromValidator h r0 es0 o ctx) :=
    fun es es0 o hes => fromValidator_agree R h r r0 m hm hne ht hv hown es es0 o ctx hes
  unfold fromProps
  cases pc with
  | none => exact hval _ _ _ hE
  | some props =>
    simp only []
    split
    · have hl := propsLoop_agree R hrefl r r0 ht ctx.path ctx.options out props errs errs0 [] hE
      revert hl
      cases propsLoop r ctx.path ctx.options out props errs [] with
      | returned res =>
        cases propsLoop r0 ctx.path ctx.options out props errs0 [] with
        | returned res0 => exact fun hl => hl
        | finished e2 a2 => exact fun hl => hl.elim
      | finished e1 a1 =>
        cases propsLoop r0 ctx.path ctx.options out props errs0 [] with
        | returned res0 => exact fun hl => hl.elim
        | finished e2 a2 =>
          intro hl
          obtain ⟨ha, hE1⟩ := hl
          subst ha
          simp only []
          split
          · have hs := strictUnknownLoop_agree R r r0 m hm hne ht hown ctx.path ctx.options out
              (props.map (fun p => p.1)) (objectKeys out) e1 e2 hE1
            revert hs
            cases strictUnknownLoop r ctx.path ctx.options out (props.map (fun p => p.1))
                (objectKeys out) e1 with
            | returned res =>
              cases strictUnknownLoop r0 ctx.path ctx.options out (props.map (fun p => p.1))
                  (objectKeys out) e2 with
              | returned res0 => exact fun hs => hs
              | finished e4 a4 => exact fun hs => hs.elim
            | finished e3 a3 =>
              cases strictUnknownLoop r0 ctx.path ctx.options out (props.map (fun p => p.1))
                  (objectKeys out) e2 with
              | returned res0 => exact fun hs => hs.elim
              | finished e4 a4 =>
                intro hs
                exact hval _ _ _ hs.2
          · exact hval _ _ _ hE1
    · exact hval _ _ _ hE

theorem fromItems_agree (R : Err → Err → Prop) (hrefl : ∀ e, R e e) (h : Host) (r r0 : Rules)
    (m : String) (hm : r.errorMessage = some m) (hne : m ≠ "")
    (ht : r0.throwField = r.throwField) (hv : r0.validator = r.validator)
    (hown : ∀ e e0, replacesReason m e e0 → R e e0) (ic : Option Checker)
    (pc : Option (List (String × Checker))) (out : Val) (ctx : Ctx) :
    resultsAgree R (fromItems h r ic pc out ctx) (fromItems h r0 ic pc out ctx) := by
  have hprops : ∀ es es0 o, List.Forall₂ R es es0 →
      resultsAgree R (fromProps h r pc es o ctx) (fromProps h r0 pc es0 o ctx) :=
    fun es es0 o hes => fromProps_agree R hrefl h r r0 m hm hne ht hv hown pc es es0 o ctx hes
  unfold fromItems
  split
  · rename_i xs c
    have hl := itemsLoop_agree R hrefl r r0 ht c ctx.path ctx.options (.arr xs) xs 0 [] []
      [] false List.Forall₂.nil
    revert hl
    cases itemsLoop r c ctx.path ctx.options (.arr xs) xs 0 [] [] false with
    | returned res =>
      cases itemsLoop r0 c ctx.path ctx.options (.arr xs) xs 0 [] [] false with
      | returned res0 => exact fun hl => hl
      | finished e2 a2 => exact fun hl => hl.elim
    | finished e1 a1 =>
      cases itemsLoop r0 c ctx.path ctx.options (.arr xs) xs 0 [] [] false with
      | returned res0 => exact fun hl => hl.elim
      | finished e2 a2 =>
        intro hl
        obtain ⟨ha, hE1⟩ := hl
        subst ha
        exact hprops _ _ _ hE1
  · exact hprops _ _ _ List.Forall₂.nil

theorem fromItems_leaf_agree (R : Err → Err → Prop) (h : Host) (r r0 : Rules)
    (m : String) (hm : r.errorMessage = some m) (hne : m ≠ "")
    (ht : r0.throwField = r.throwField) (hv : r0.validator = r.validator)
    (hown : ∀ e e0, replacesReason m e e0 → R e e0) (out : Val) (ctx : Ctx) :
    resultsAgree R (fromItems h r none none out ctx) (fromItems h r0 none none out ctx) := by
  have h1 : ∀ q : Rules, fromItems h q none none out ctx = fromValidator h q [] out ctx := by
    intro q
    unfold fromItems
    split
    · rename_i hc
      cases hc
    · rfl
  rw [h1, h1]
  exact fromValidator_agree R h r r0 m hm hne ht hv hown [] [] out ctx List.Forall₂.nil

theorem fromBounds_agree (R : Err → Err → Prop) (h : Host) (r : Rules) (m : String)
    (hm : r.errorMessage = some m) (hne : m ≠ "")
    (hown : ∀ e e0, replacesReason m e e0 → R e e0) (ic : Option Checker)
    (pc : Option (List (String × Checker))) (ctx : Ctx)
    (hitems : ∀ out, resultsAgree R (fromItems h r ic pc out ctx)
      (fromItems h { r with errorMessage := none } ic pc out ctx)) (out : Val) :
    resultsAgree R (fromBounds h r ic pc out ctx)
      (fromBounds h { r with errorMessage := none } ic pc out ctx) := by
  have hemit : ∀ reason code raw pv o, resultsAgree R
      (emit r [] (makeErr r ctx.path reason code raw) pv o)
      (emit { r with errorMessage := none } []
        (makeErr { r with errorMessage := none } ctx.path reason code raw) pv o) :=
    fun reason code raw pv o => emit_agree R r _ rfl [] [] _ _ pv o List.Forall₂.nil
      (hown _ _ (makeErr_replaces r _ m hm hne _ _ _ _ _ _))
  unfold fromBounds
  simp only []
  split
  · split
    · exact hemit _ _ _ _ _
    · split
      · exact hemit _ _ _ _ _
      · exact hitems _
  · split
    · split
      · exact hemit _ _ _ _ _
      · split
        · exact hemit _ _ _ _ _
        · exact hitems _
    · exact hitems _

theorem fromRegex_agree (R : Err → Err → Prop) (h : Host) (r : Rules) (m : String)
    (hm : r.errorMessage = some m) (hne : m ≠ "")
    (hown : ∀ e e0, replacesReason m e e0 → R e e0) (ic : Option Checker)
    (pc : Option (List (String × Checker))) (ctx : Ctx)
    (hitems : ∀ out, resultsAgree R (fromItems h r ic pc out ctx)
      (fromItems h { r with errorMessage := none } ic pc out ctx)) (out : Val) :
    resultsAgree R (fromRegex h r ic pc out ctx)
      (fromRegex h { r with errorMessage := none } ic pc out ctx) := by
  have hemit : ∀ reason code raw pv o, resultsAgree R
      (emit r [] (makeErr r ctx.path reason code raw) pv o)
      (emit { r with errorMessage := none } []
        (makeErr { r with errorMessage := none } ctx.path reason code raw) pv o) :=
    fun reason code raw pv o => emit_agree R r _ rfl [] [] _ _ pv o List.Forall₂.nil
      (hown _ _ (makeErr_replaces r _ m hm hne _ _ _ _ _ _))
  have hnext := fromBounds_agree R h r m hm hne hown ic pc ctx hitems
  unfold fromRegex
  simp only []
  split
  · split
    · split
      · split
        · exact hnext _
        · exact hemit _ _ _ _ _
      · exact hemit _ _ _ _ _
    · exact hemit _ _ _ _ _
  · exact hnext _
theorem fromEnum_agree (R : Err → Err → Prop) (h : Host) (r : Rules) (m : String)
    (hm : r.errorMessage = some m) (hne : m ≠ "")
    (hown : ∀ e e0, replacesReason m e e0 → R e e0) (ic : Option Checker)
    (pc : Option (List (String × Checker))) (ctx : Ctx)
    (hitems : ∀ out, resultsAgree R (fromItems h r ic pc out ctx)
      (fromItems h { r with errorMessage := none } ic pc out ctx)) (out : Val) :
    resultsAgree R (fromEnum h r ic pc out ctx)
      (fromEnum h { r with errorMessage := none } ic pc out ctx) := by
  have hemit : ∀ reason code raw pv o, resultsAgree R
      (emit r [] (makeErr r ctx.path reason code raw) pv o)
      (emit { r with errorMessage := none } []
        (makeErr { r with errorMessage := none } ctx.path reason code raw) pv o) :=
    fun reason code raw pv o => emit_agree R r _ rfl [] [] _ _ pv o List.Forall₂.nil
      (hown _ _ (makeErr_replaces r _ m hm hne _ _ _ _ _ _))
  have hnext := fromRegex_agree R h r m hm hne hown ic pc ctx hitems
  unfold fromEnum
  simp only []
  split
  · split
    · exact hemit _ _ _ _ _
    · exact hnext _
  · exact hnext _
theorem fromType_agree (R : Err → Err → Prop) (h : Host) (r : Rules) (m : String)
    (hm : r.errorMessage = some m) (hne : m ≠ "")
    (hown : ∀ e e0, replacesReason m e e0 → R e e0) (ic : Option Checker)
    (pc : Option (List (String × Checker))) (ctx : Ctx)
    (hitems : ∀ out, resultsAgree R (fromItems h r ic pc out ctx)
      (fromItems h { r with errorMessage := none } ic pc out ctx)) (out : Val) :
    resultsAgree R (fromType h r ic pc out ctx)
      (fromType h { r with errorMessage := none } ic pc out ctx) := by
  have hemit : ∀ reason code raw pv o, resultsAgree R
      (emit r [] (makeErr r ctx.path reason code raw) pv o)
      (emit { r with errorMessage := none } []
        (makeErr { r with errorMessage := none } ctx.path reason code raw) pv o) :=
    fun reason code raw pv o => emit_agree R r _ rfl [] [] _ _ pv o List.Forall₂.nil
      (hown _ _ (makeErr_replaces r _ m hm hne _ _ _ _ _ _))
  have hnext := fromEnum_agree R h r m hm hne hown ic pc ctx hitems
  unfold fromType
  simp only []
  split
  · split
    · exact hemit _ _ _ _ _
    · exact hemit _ _ _ _ _
  · exact hnext _
theorem fromCoerce_agree (R : Err → Err → Prop) (h : Host) (r : Rules) (m : String)
    (hm : r.errorMessage = some m) (hne : m ≠ "")
    (hown : ∀ e e0, replacesReason m e e0 → R e e0) (ic : Option Checker)
    (pc : Option (List (String × Checker))) (ctx : Ctx)
    (hitems : ∀ out, resultsAgree R (fromItems h r ic pc out ctx)
      (fromItems h { r with errorMessage := none } ic pc out ctx)) (out : Val) :
    resultsAgree R (fromCoerce h r ic pc out ctx)
      (fromCoerce h { r with errorMessage := none } ic pc out ctx) := by
  have hemit : ∀ reason code raw pv o, resultsAgree R
      (emit r [] (makeErr r ctx.path reason code raw) pv o)
      (emit { r with errorMessage := none } []
        (makeErr { r with errorMessage := none } ctx.path reason code raw) pv o) :=
    fun reason code raw pv o => emit_agree R r _ rfl [] [] _ _ pv o List.Forall₂.nil
      (hown _ _ (makeErr_replaces r _ m hm hne _ _ _ _ _ _))
  have hnext := fromType_agree R h r m hm hne hown ic pc ctx hitems
  unfold fromCoerce
  simp only []
  split
  · split
    · exact hnext _
    · split
      · exact hemit _ _ _ _ _
      · exact hnext _
  · exact hnext _
theorem fromValidatorOnly_agree (R : Err → Err → Prop) (h : Host) (r : Rules) (m : String)
    (hm : r.errorMessage = some m) (hne : m ≠ "")
    (hown : ∀ e e0, replacesReason m e e0 → R e e0) (ic : Option Checker)
    (pc : Option (List (String × Checker))) (ctx : Ctx)
    (hitems : ∀ out, resultsAgree R (fromItems h r ic pc out ctx)
      (fromItems h { r with errorMessage := none } ic pc out ctx)) (out : Val) :
    resultsAgree R (fromValidatorOnly h r ic pc out ctx)
      (fromValidatorOnly h { r with errorMessage := none } ic pc out ctx) := by
  have hemit : ∀ reason code raw pv o, resultsAgree R
      (emit r [] (makeErr r ctx.path reason code raw) pv o)
      (emit { r with errorMessage := none } []
        (makeErr { r with errorMessage := none } ctx.path reason code raw) pv o) :=
    fun reason code raw pv o => emit_agree R r _ rfl [] [] _ _ pv o List.Forall₂.nil
      (hown _ _ (makeErr_replaces r _ m hm hne _ _ _ _ _ _))
  have hnext := fromCoerce_agree R h r m hm hne hown ic pc ctx hitems
  unfold fromValidatorOnly
  simp only []
  split
  · split
    · exact runValidator_agree R h r { r with errorMessage := none } m hm hne rfl hown _ [] [] _ _
        List.Forall₂.nil
    · exact hnext _
  · exact hnext _
theorem fromNull_agree (R : Err → Err → Prop) (h : Host) (r : Rules) (m : String)
    (hm : r.errorMessage = some m) (hne : m ≠ "")
    (hown : ∀ e e0, replacesReason m e e0 → R e e0) (ic : Option Checker)
    (pc : Option (List (String × Checker))) (ctx : Ctx)
    (hitems : ∀ out, resultsAgree R (fromItems h r ic pc out ctx)
      (fromItems h { r with errorMessage := none } ic pc out ctx)) (out : Val) :
    resultsAgree R (fromNull h r ic pc out ctx)
      (fromNull h { r with errorMessage := none } ic pc out ctx) := by
  have hemit : ∀ reason code raw pv o, resultsAgree R
      (emit r [] (makeErr r ctx.path reason code raw) pv o)
      (emit { r with errorMessage := none } []
        (makeErr { r with errorMessage := none } ctx.path reason code raw) pv o) :=
    fun reason code raw pv o => emit_agree R r _ rfl [] [] _ _ pv o List.Forall₂.nil
      (hown _ _ (makeErr_replaces r _ m hm hne _ _ _ _ _ _))
  have hnext := fromValidatorOnly_agree R h r m hm hne hown ic pc ctx hitems
  unfold fromNull
  simp only []
  split
  · split
    · exact ⟨rfl, List.Forall₂.nil⟩
    · exact hemit _ _ _ _ _
  · exact hnext _
theorem checker_agree (R : Err → Err → Prop) (h : Host) (r : Rules) (m : String)
    (hm : r.errorMessage = some m) (hne : m ≠ "")
    (hown : ∀ e e0, replacesReason m e e0 → R e e0) (ic : Option Checker)
    (pc : Option (List (String × Checker))) (ctx : Ctx)
    (hitems : ∀ out, resultsAgree R (fromItems h r ic pc out ctx)
      (fromItems h { r with errorMessage := none } ic pc out ctx)) (out : Val) :
    resultsAgree R (checker h r ic pc out ctx)
      (checker h { r with errorMessage := none } ic pc out ctx) := by
  have hemit : ∀ reason code raw pv o, resultsAgree R
      (emit r [] (makeErr r ctx.path reason code raw) pv o)
      (emit { r with errorMessage := none } []
        (makeErr { r with errorMessage := none } ctx.path reason code raw) pv o) :=
    fun reason code raw pv o => emit_agree R r _ rfl [] [] _ _ pv o List.Forall₂.nil
      (hown _ _ (makeErr_replaces r _ m hm hne _ _ _ _ _ _))
  have hnext := fromNull_agree R h r m hm hne hown ic pc ctx hitems
  unfold checker
  simp only []
  split
  · split
    · split
      · split
        · exact hnext _
        · exact rfl
      · exact hnext _
    · split
      · exact hemit _ _ _ _ _
      · exact ⟨rfl, List.Forall₂.nil⟩
  · exact hnext _

/-- C15: for a descriptor whose `errorMessage` is the non-empty string `m`, the
checker and the checker of the same descriptor without `errorMessage` end the
same way on every value (both return, or both raise) with the same value and
error lists of the same length; entry by entry the two errors have the same
path and code, and the error of the descriptor with `errorMessage` has the
message `Invalid <path> field. ` followed by `m`, except that an error passed
up from a nested `items` or `properties` checker is the same in both.  For a
descriptor without `items` and `properties` every error has that message. -/
theorem error_message_replaces_reason (h : Host) (r : Rules) (m : String)
    (hm : r.errorMessage = some m) (hne : m ≠ "") (ic : Option Checker)
    (pc : Option (List (String × Checker))) (v : Val) (ctx : Ctx) :
    resultsAgree (fun e e0 => replacesReason m e e0 ∨ e = e0) (checker h r ic pc v ctx)
        (checker h { r with errorMessage := none } ic pc v ctx)
    ∧ resultsAgree (replacesReason m) (checker h r none none v ctx)
        (checker h { r with errorMessage := none } none none v ctx) := by
  constructor
  · exact checker_agree _ h r m hm hne (fun e e0 he => Or.inl he) ic pc ctx
      (fun out => fromItems_agree _ (fun e => Or.inr rfl) h r { r with errorMessage := none } m hm hne rfl rfl
        (fun e e0 he => Or.inl he) ic pc out ctx) v
  · exact checker_agree _ h r m hm hne (fun e e0 he => he) none none ctx
      (fun out => fromItems_leaf_agree _ h r { r with errorMessage := none } m hm hne rfl rfl
        (fun e e0 he => he) out ctx) v

/-- Witness for C15: `{ type: 'number', min: 0, errorMessage: 'bad age' }` on the
value `-1` at the path `age`. -/
theorem error_message_replaces_reason_witness :
    checker exampleHost (readRules ageMessageEntry) none none (.num (-1))
        { path := "age", options := DEFAULT_OPTIONS }
      = .ok ([{ path := "age", message := "Invalid age field. bad age", code := "ERR_MIN",
                rawError := .null }], .num (-1))
    ∧ resultsAgree (replacesReason "bad age")
        (checker exampleHost (readRules ageMessageEntry) none none (.num (-1))
          { path := "age", options := DEFAULT_OPTIONS })
        (checker exampleHost { readRules ageMessageEntry with errorMessage := none } none none
          (.num (-1)) { path := "age", options := DEFAULT_OPTIONS }) :=
  ⟨by decide, (error_message_replaces_reason exampleHost (readRules ageMessageEntry) "bad age"
    rfl (by decide) none none (.num (-1)) { path := "age", options := DEFAULT_OPTIONS }).2⟩

end GentleSchema

namespace GentleSchema

/-- C16 (the code's behaviour): a `$ref` placeholder in a nested slot is not
resolved.  The constructor keeps the placeholder `{ __isRef: true, $ref: 'node' }`
in the `child` slot of the normalised schema, and the compiled checker treats it
as a descriptor without rules: `{ node: { value: 1, child: { value: 'x' } } }` is
valid with no error, and so is a `child` that is not an object at all; an array
whose `items` is a `$ref` to a number field accepts a string element. -/
theorem nested_ref_not_enforced :
    createAndValidate exampleHost nodeSchema {}
        [("node", .obj .plain [("value", .num 1),
          ("child", .obj .plain [("value", .str "x")])])] {}
      = .ok (.result true []
          (.obj .plain [("node", .obj .plain [("value", .num 1),
            ("child", .obj .plain [("value", .str "x")])])]))
    ∧ createAndValidate exampleHost nodeSchema {}
        [("node", .obj .plain [("value", .num 1), ("child", .num 7)])] {}
      = .ok (.result true []
          (.obj .plain [("node", .obj .plain [("value", .num 1), ("child", .num 7)])]))
    ∧ createAndValidate exampleHost listSchema {}
        [("item", .num 1), ("list", .arr [.str "x"])] {}
      = .ok (.result true [] (.obj .plain [("item", .num 1), ("list", .arr [.str "x"])]))
    ∧ (Schema.create exampleHost nodeSchema {}).map (fun s =>
        getProp (getProp (lookupKey "node" s.normalizedSchema) "properties") "child")
      = .ok (.obj .plain [("__isRef", .bool true), ("$ref", .str "node")]) := by
  refine ⟨?_, ?_, ?_, ?_⟩ <;> decide

end GentleSchema

namespace GentleSchema

theorem normalizeTopEntry_ref (h : Host) (L : Option Int) (c : Cls) (kvs : List (String × Val))
    (k name : String) (href : lookupKey "$ref" kvs = .str name) :
    normalizeTopEntry h L (.obj c kvs) k = .ok (refTopEntry name) := by
  have h1 : normalizeEntry h L (.obj c kvs) k k = .ok (refPlaceholder name) := by
    unfold normalizeEntry
    rw [href]
  unfold normalizeTopEntry
  rw [h1]
  rfl

theorem normalizeSchemaLoop_insert (h : Host) (L : Option Int) (c : Cls)
    (kvs : List (String × Val)) (k name : String) (hk : k ≠ "$defs")
    (href : lookupKey "$ref" kvs = .str name) (post : List (String × Val)) :
    ∀ (pre : List (String × Val)) (ns : List (String × Val)),
      normalizeSchemaLoop h L (pre ++ post) = .ok ns →
      ∃ n1 n2, ns = n1 ++ n2
        ∧ normalizeSchemaLoop h L (pre ++ (k, .obj c kvs) :: post)
            = .ok (n1 ++ (k, refTopEntry name) :: n2) := by
  intro pre
  induction pre with
  | nil =>
    intro ns hx
    refine ⟨[], ns, rfl, ?_⟩
    simp only [List.nil_append] at hx ⊢
    unfold normalizeSchemaLoop
    rw [if_neg hk, normalizeTopEntry_ref h L c kvs k name href, hx]
  | cons x rest ih =>
    intro ns hx
    obtain ⟨k1, raw⟩ := x
    simp only [List.cons_append] at hx ⊢
    unfold normalizeSchemaLoop at hx ⊢
    by_cases hd : k1 = "$defs"
    · rw [if_pos hd] at hx ⊢
      exact ih ns hx
    · rw [if_neg hd] at hx ⊢
      cases ht : normalizeTopEntry h L raw k1 with
      | error e => rw [ht] at hx; cases hx
      | ok n =>
        rw [ht] at hx
        simp only [] at hx ⊢
        cases hr : normalizeSchemaLoop h L (rest ++ post) with
        | error e => rw [hr] at hx; cases hx
        | ok ns2 =>
          rw [hr] at hx
          obtain ⟨n1, n2, h1, h2⟩ := ih ns2 hr
          rw [h2]
          injection hx with hx
          exact ⟨(k1, n) :: n1, n2, by rw [← hx, h1]; rfl, rfl⟩

theorem buildFields_insert (h : Host) (k name : String) (n2 : List (String × Val)) :
    ∀ (n1 : List (String × Val)) (fs : List Field),
      buildFields h (n1 ++ n2) = .ok fs →
      ∃ F1 F2, fs = F1 ++ F2
        ∧ buildFields h (n1 ++ (k, refTopEntry name) :: n2) = .ok (F1 ++ refField k name :: F2) := by
  intro n1
  induction n1 with
  | nil =>
    intro fs hx
    refine ⟨[], fs, rfl, ?_⟩
    simp only [List.nil_append] at hx ⊢
    unfold buildFields
    rw [if_pos ⟨rfl, rfl⟩, hx]
    rfl
  | cons x rest ih =>
    intro fs hx
    obtain ⟨k1, ent⟩ := x
    simp only [List.cons_append] at hx ⊢
    unfold buildFields at hx ⊢
    by_cases hc : truthy ent = true ∧ truthy (getProp ent "__isRef") = true
    · rw [if_pos hc] at hx ⊢
      cases hr : buildFields h (rest ++ n2) with
      | error e => rw [hr] at hx; cases hx
      | ok fs2 =>
        rw [hr] at hx
        obtain ⟨F1, F2, h1, h2⟩ := ih fs2 hr
        rw [h2]
        injection hx with hx
        exact ⟨_ :: F1, F2, by rw [← hx, h1]; rfl, rfl⟩
    · rw [if_neg hc] at hx ⊢
      cases hm : makeChecker h ent with
      | error e => rw [hm] at hx; cases hx
      | ok ck =>
        rw [hm] at hx
        simp only [] at hx ⊢
        cases hr : buildFields h (rest ++ n2) with
        | error e => rw [hr] at hx; cases hx
        | ok fs2 =>
          rw [hr] at hx
          obtain ⟨F1, F2, h1, h2⟩ := ih fs2 hr
          rw [h2]
          injection hx with hx
          exact ⟨_ :: F1, F2, by rw [← hx, h1]; rfl, rfl⟩

theorem lintSchema_insert (k name : String) (n1 n2 : List (String × Val)) :
    _lintSchema (n1 ++ (k, refTopEntry name) :: n2) = _lintSchema (n1 ++ n2) := by
  have h1 : lintEntry k (refTopEntry name) = [] := by
    simp [lintEntry, refTopEntry, getProp, lookupKey, typeOf, truthy]
  simp [_lintSchema, List.flatMap_append, h1]

theorem lookupKey_insert (k2 k : String) (v : Val) (hk : k ≠ k2) (post : List (String × Val)) :
    ∀ pre : List (String × Val),
      lookupKey k2 (pre ++ (k, v) :: post) = lookupKey k2 (pre ++ post) := by
  intro pre
  induction pre with
  | nil => simp [lookupKey, hk]
  | cons x rest ih =>
    obtain ⟨k1, v1⟩ := x
    simp [lookupKey, ih]

theorem create_insert (h : Host) (pre post : List (String × Val)) (k name : String) (c : Cls)
    (kvs : List (String × Val)) (options : OptionsPatch) (s0 : Schema) (hk : k ≠ "$defs")
    (href : lookupKey "$ref" kvs = .str name)
    (h0 : Schema.create h (pre ++ post) options = .ok s0) :
    ∃ F1 F2, s0.fields = F1 ++ F2
      ∧ Schema.create h (pre ++ (k, .obj c kvs) :: post) options
        = .ok { s0 with
            fields := F1 ++ refField k name :: F2
            rawSchema := _shallowCloneSchema (.obj .plain (pre ++ (k, .obj c kvs) :: post)) }
      ∧ s0.conditionals = [] := by
  unfold Schema.create at h0 ⊢
  simp only [] at h0 ⊢
  cases hr : (if truthy (assignOptions DEFAULT_OPTIONS options).refs = true then
      _loadExternalRefs [] (assignOptions DEFAULT_OPTIONS options).refs else .ok []) with
  | error e => rw [hr] at h0; cases h0
  | ok refs =>
    rw [hr] at h0
    simp only [] at h0 ⊢
    cases hn : normalizeSchemaLoop h (assignOptions DEFAULT_OPTIONS options).maxRegexLength
        (pre ++ post) with
    | error e => rw [hn] at h0; cases h0
    | ok ns =>
      rw [hn] at h0
      simp only [] at h0
      obtain ⟨n1, n2, hns, hn2⟩ := normalizeSchemaLoop_insert h _ c kvs k name hk href post pre ns hn
      rw [hn2]
      simp only []
      subst hns
      cases hb : buildFields h (n1 ++ n2) with
      | error e => rw [hb] at h0; cases h0
      | ok fs =>
        rw [hb] at h0
        simp only [] at h0
        obtain ⟨F1, F2, hfs, hb2⟩ := buildFields_insert h k name n2 n1 fs hb
        rw [hb2]
        simp only []
        rw [lintSchema_insert k name n1 n2]
        by_cases hl : (_lintSchema (n1 ++ n2)).length ≠ 0
        · rw [if_pos hl] at h0
          cases h0
        · rw [if_neg hl] at h0 ⊢
          injection h0 with h0
          subst h0
          refine ⟨F1, F2, hfs, ?_, rfl⟩
          simp only [localDefsOf]
          rw [lookupKey_insert "$defs" k (.obj c kvs) hk post pre]

theorem resolveRefChecker_unresolved (h : Host) (s : Schema) (name : String)
    (hnone : lookupRef h s name = none) (v : Val) (ctx : Ctx) :
    _resolveRefChecker h s (.str name) v ctx = .ok ([unresolvedError ctx.path name], v) := by
  unfold lookupRef at hnone
  unfold _resolveRefChecker
  simp only [toStringJS]
  split at hnone
  · cases hnone
  · rw [if_neg (by assumption)]
    split at hnone
    · cases hnone
    · rw [if_neg (by assumption)]
      split at hnone
      · cases hnone
      · rw [if_neg (by assumption)]
        simp [failingChecker, _makeErrorObj, unresolvedError, truthy]

theorem resolveRefChecker_normalize (h : Host) (s : Schema) (name kind : String) (raw : Val)
    (e : Exn) (hsome : lookupRef h s name = some (kind, raw))
    (hfail : normalizeEntry h s.options.maxRegexLength raw name name = .error e)
    (v : Val) (ctx : Ctx) :
    _resolveRefChecker h s (.str name) v ctx
      = .ok ([normalizeFailure h ctx.path kind name e], v) := by
  have href : refCheckerOf h s (.str name) kind raw v ctx
      = .ok ([normalizeFailure h ctx.path kind name e], v) := by
    unfold refCheckerOf
    simp only [toStringJS]
    rw [hfail]
    simp [failingChecker, _makeErrorObj, normalizeFailure]
  unfold lookupRef at hsome
  unfold _resolveRefChecker
  simp only [toStringJS]
  split at hsome
  · rw [if_pos (by assumption)]
    injection hsome with hsome
    injection hsome with hk hr
    subst hk hr
    exact href
  · rw [if_neg (by assumption)]
    split at hsome
    · rw [if_pos (by assumption)]
      injection hsome with hsome
      injection hsome with hk hr
      subst hk hr
      exact href
    · rw [if_neg (by assumption)]
      split at hsome
      · rw [if_pos (by assumption)]
        injection hsome with hsome
        injection hsome with hk hr
        subst hk hr
        exact href
      · cases hsome

theorem runField_lazyRef (h : Host) (s : Schema) (obj : List (String × Val)) (opts : Options)
    (ov : List (String × Val)) (k name : String) (hov : hasKey k ov = false) :
    runField h s obj opts ov (refField k name)
      = _resolveRefChecker h s (.str name) (lookupKey k obj)
          { path := fieldPath opts k, options := opts } := by
  simp [runField, selectChecker, refField, hov]

theorem runField_compiled (h : Host) (s : Schema) (obj : List (String × Val)) (opts : Options)
    (ov : List (String × Val)) (g : Field) (ck : Checker) (hg : g.checker = .compiled ck)
    (hov : hasKey g.key ov = false) :
    runField h s obj opts ov g
      = ck (lookupKey g.key obj) { path := fieldPath opts g.key, options := opts } := by
  simp [runField, selectChecker, hg, hov]

/-- C17: let the constructor succeed on a schema, with instance `s0`.  Then it also
succeeds on the schema with one more top-level field `k: { $ref: name }`
(anywhere among the fields), whatever `name` is and whatever the sources hold;
the instance `s` it builds is `s0` with a lazy reference field added.  On `s`
the field's checker returns, for every input and options, the input's value
at `k` and exactly one error at the field's path: `ERR_REF_UNRESOLVED` when no
source holds `name`, and `ERR_REF_NORMALIZE` with the exception as `rawError`
when the definition found fails to normalise.  Every result record of
`validate` is then invalid and, without fail-fast, lists that error.  Every
other field with a compiled checker gives on `s` the same errors and value as
on `s0`. -/
theorem bad_ref_isolated (h : Host) (pre post : List (String × Val)) (k name : String)
    (c : Cls) (kvs : List (String × Val)) (options : OptionsPatch) (s0 : Schema)
    (hk : k ≠ "$defs") (href : lookupKey "$ref" kvs = .str name)
    (h0 : Schema.create h (pre ++ post) options = .ok s0) :
    ∃ s F1 F2, s0.fields = F1 ++ F2
      ∧ s = withRefField s0 F1 F2 k name (pre ++ (k, .obj c kvs) :: post)
      ∧ Schema.create h (pre ++ (k, .obj c kvs) :: post) options = .ok s
      ∧ (∀ obj opts, lookupRef h s name = none →
          runField h s obj opts (_evaluateConditionals h s (.obj .plain obj)) (refField k name)
            = .ok ([unresolvedError (fieldPath opts k) name], lookupKey k obj))
      ∧ (∀ obj opts kind raw e, lookupRef h s name = some (kind, raw) →
          normalizeEntry h s.options.maxRegexLength raw name name = .error e →
          runField h s obj opts (_evaluateConditionals h s (.obj .plain obj)) (refField k name)
            = .ok ([normalizeFailure h (fieldPath opts k) kind name e], lookupKey k obj))
      ∧ (∀ obj callOptions v es val,
          validate h s obj callOptions = .ok (.result v es val) →
          (lookupRef h s name = none →
            v = false ∧ ((assignOptions s.options callOptions).failFast = false →
              ∃ A B, es = A
                ++ [unresolvedError (fieldPath (assignOptions s.options callOptions) k) name]
                ++ B))
          ∧ (∀ kind raw e, lookupRef h s name = some (kind, raw) →
            normalizeEntry h s.options.maxRegexLength raw name name = .error e →
            v = false ∧ ((assignOptions s.options callOptions).failFast = false →
              ∃ A B, es = A
                ++ [normalizeFailure h (fieldPath (assignOptions s.options callOptions) k)
                      kind name e]
                ++ B)))
      ∧ (∀ g ∈ s0.fields, ∀ ck, g.checker = .compiled ck → ∀ obj opts,
          runField h s obj opts (_evaluateConditionals h s (.obj .plain obj)) g
            = runField h s0 obj opts (_evaluateConditionals h s0 (.obj .plain obj)) g) := by
  obtain ⟨F1, F2, hfs, hcreate, hcond⟩ := create_insert h pre post k name c kvs options s0 hk href h0
  have hov : ∀ obj, _evaluateConditionals h
      (withRefField s0 F1 F2 k name (pre ++ (k, .obj c kvs) :: post)) (.obj .plain obj) = [] := by
    intro obj
    simp [_evaluateConditionals, withRefField, hcond, evaluateLoop]
  have hov0 : ∀ obj, _evaluateConditionals h s0 (.obj .plain obj) = [] := by
    intro obj
    simp [_evaluateConditionals, hcond, evaluateLoop]
  have hun : ∀ obj opts,
      lookupRef h (withRefField s0 F1 F2 k name (pre ++ (k, .obj c kvs) :: post)) name = none →
      runField h (withRefField s0 F1 F2 k name (pre ++ (k, .obj c kvs) :: post)) obj opts
          (_evaluateConditionals h
            (withRefField s0 F1 F2 k name (pre ++ (k, .obj c kvs) :: post)) (.obj .plain obj))
          (refField k name)
        = .ok ([unresolvedError (fieldPath opts k) name], lookupKey k obj) := by
    intro obj opts hnone
    rw [hov, runField_lazyRef h _ obj opts [] k name rfl]
    exact resolveRefChecker_unresolved h _ name hnone _ _
  have hnf : ∀ obj opts kind raw e,
      lookupRef h (withRefField s0 F1 F2 k name (pre ++ (k, .obj c kvs) :: post)) name
        = some (kind, raw) →
      normalizeEntry h
        (withRefField s0 F1 F2 k name (pre ++ (k, .obj c kvs) :: post)).options.maxRegexLength
        raw name name = .error e →
      runField h (withRefField s0 F1 F2 k name (pre ++ (k, .obj c kvs) :: post)) obj opts
          (_evaluateConditionals h
            (withRefField s0 F1 F2 k name (pre ++ (k, .obj c kvs) :: post)) (.obj .plain obj))
          (refField k name)
        = .ok ([normalizeFailure h (fieldPath opts k) kind name e], lookupKey k obj) := by
    intro obj opts kind raw e hsome hfail
    rw [hov, runField_lazyRef h _ obj opts [] k name rfl]
    exact resolveRefChecker_normalize h _ name kind raw e hsome hfail _ _
  refine ⟨_, F1, F2, hfs, rfl, hcreate, hun, hnf, ?_, ?_⟩
  · intro obj callOptions v es val hx
    constructor
    · intro hnone
      exact validate_invalid_of_field h _ obj callOptions F1 F2 (refField k name) _ _ rfl
        (hun obj _ hnone) (by simp) v es val hx
    · intro kind raw e hsome hfail
      exact validate_invalid_of_field h _ obj callOptions F1 F2 (refField k name) _ _ rfl
        (hnf obj _ kind raw e hsome hfail) (by simp) v es val hx
  · intro g _ ck hg obj opts
    rw [hov, hov0, runField_compiled h _ obj opts [] g ck hg rfl,
      runField_compiled h s0 obj opts [] g ck hg rfl]

/-- Witness for C17: the schema `{ a: 'string' }` with the added field
`b: { $ref: 'missing' }`, on the input `{ a: 'x', b: 1 }`. -/
theorem bad_ref_isolated_witness :
    ∃ s, Schema.create exampleHost
        [("a", .str "string"), ("b", .obj .plain [("$ref", .str "missing")])] {} = .ok s
      ∧ runField exampleHost s [("a", .str "x"), ("b", .num 1)] DEFAULT_OPTIONS
          (_evaluateConditionals exampleHost s (.obj .plain [("a", .str "x"), ("b", .num 1)]))
          (refField "b" "missing")
        = .ok ([unresolvedError "b" "missing"], .num 1) := by
  obtain ⟨s, F1, F2, _, hs, hc, hun, _⟩ := bad_ref_isolated exampleHost [("a", .str "string")] []
    "b" "missing" .plain [("$ref", .str "missing")] {}
    (plainSchema (.obj .plain [("a", .str "string")]) [leafField exampleHost "a" stringEntry])
    (by decide) rfl rfl
  refine ⟨s, hc, hun _ _ ?_⟩
  subst hs
  rfl

/-- The two failures of C17 through the constructor: an unresolvable name, and
an external definition whose regex string is longer than `maxRegexLength`;
the field `a` reports its own error in both. -/
theorem bad_ref_scenario :
    createAndValidate exampleHost
        [("a", .str "string"), ("b", .obj .plain [("$ref", .str "missing")])] {}
        [("a", .num 5), ("b", .num 1)] {}
      = .ok (.result false
          [{ path := "a", message := "Invalid a field. expected type string, received number",
             code := "ERR_TYPE", rawError := .null },
           unresolvedError "b" "missing"]
          (.obj .plain [("a", .num 5), ("b", .num 1)]))
    ∧ createAndValidate exampleHost
        [("a", .str "string"), ("b", .obj .plain [("$ref", .str "R")])]
        { maxRegexLength := some (some 2),
          refs := some (.obj .plain
            [("R", .obj .plain [("type", .str "string"), ("regex", .str "abc")])]) }
        [("a", .num 5), ("b", .num 1)] {}
      = .ok (.result false
          [{ path := "a", message := "Invalid a field. expected type string, received number",
             code := "ERR_TYPE", rawError := .null },
           { path := "b",
             message := "Invalid b field. failed to normalize external ref 'R': Schema error",
             code := "ERR_REF_NORMALIZE",
             rawError := schemaErrorVal [.obj .plain
               [("path", .str "R"),
                ("message",
                  .str "Regex string too long (3 > 2). Pass a RegExp instance instead."),
                ("code", .str "ERR_REGEX_TOO_LONG")]] }]
          (.obj .plain [("a", .num 5), ("b", .num 1)])) := by
  constructor <;> decide

end GentleSchema

namespace GentleSchema

theorem normalizeRegex_key_indep (h : Host) (L : Option Int) (kvs : List (String × Val))
    (k p k2 p2 : String) (re : Option Val)
    (hx : normalizeRegex h L kvs k p = .ok re) : normalizeRegex h L kvs k2 p2 = .ok re := by
  unfold normalizeRegex at hx ⊢
  by_cases hk : hasKey "regex" kvs = true
  · rw [if_pos hk] at hx ⊢
    generalize lookupKey "regex" kvs = v at hx ⊢
    cases v with
    | str source =>
      simp only [] at hx ⊢
      by_cases hl : source.length ≠ 0
      · rw [if_pos hl] at hx ⊢
        cases L with
        | none => exact hx
        | some m =>
          simp only [] at hx ⊢
          by_cases hg : (source.length : Int) > m
          · rw [if_pos hg] at hx
            cases hx
          · rw [if_neg hg] at hx ⊢
            exact hx
      · rw [if_neg hl] at hx ⊢
        exact hx
    | obj c kvs2 =>
      cases c <;> exact hx
    | _ => exact hx
  · rw [if_neg hk] at hx ⊢
    exact hx

mutual
theorem normalizeEntry_key_indep (h : Host) (L : Option Int) :
    ∀ (raw : Val) (k p k2 p2 : String) (n : Val),
      normalizeEntry h L raw k p = .ok n → normalizeEntry h L raw k2 p2 = .ok n
  | .str t, k, p, k2, p2, n, hx => by
    simpa [normalizeEntry] using hx
  | .fn f, k, p, k2, p2, n, hx => by
    simpa [normalizeEntry] using hx
  | .arr [], k, p, k2, p2, n, hx => by
    simpa [normalizeEntry] using hx
  | .arr (a :: rest), k, p, k2, p2, n, hx => by
    have ih := normalizeEntry_key_indep h L a k p k2 p2
    unfold normalizeEntry at hx ⊢
    cases ha : normalizeEntry h L a k p with
    | error e => rw [ha] at hx; cases hx
    | ok base =>
      rw [ha] at hx
      rw [ih base ha]
      exact hx
  | .obj c kvs, k, p, k2, p2, n, hx => by
    have ihi := normalizeItems_key_indep h L kvs k p k2 p2
    have ihp := normalizeProperties_key_indep h L kvs k p k2 p2
    unfold normalizeEntry at hx ⊢
    split
    · rename_i name hname
      rw [hname] at hx
      exact hx
    · rename_i hname
      split at hx
      · rename_i name hn2
        exact absurd hn2 (hname name)
      · cases hi : normalizeItems h L k p kvs with
        | error e => rw [hi] at hx; cases hx
        | ok items =>
          rw [hi] at hx
          rw [ihi items hi]
          cases hp : normalizeProperties h L k p kvs with
          | error e => rw [hp] at hx; cases hx
          | ok props =>
            rw [hp] at hx
            rw [ihp props hp]
            cases hr : normalizeRegex h L kvs k p with
            | error e => rw [hr] at hx; cases hx
            | ok regex =>
              rw [hr] at hx
              rw [normalizeRegex_key_indep h L kvs k p k2 p2 regex hr]
              exact hx
  | .undefined, k, p, k2, p2, n, hx => by
    simpa [normalizeEntry] using hx
  | .null, k, p, k2, p2, n, hx => by
    simpa [normalizeEntry] using hx
  | .bool b, k, p, k2, p2, n, hx => by
    simpa [normalizeEntry] using hx
  | .num i, k, p, k2, p2, n, hx => by
    simpa [normalizeEntry] using hx
  | .nan, k, p, k2, p2, n, hx => by
    simpa [normalizeEntry] using hx
  | .bigint i, k, p, k2, p2, n, hx => by
    simpa [normalizeEntry] using hx
  | .symbol s, k, p, k2, p2, n, hx => by
    simpa [normalizeEntry] using hx
theorem normalizeItems_key_indep (h : Host) (L : Option Int) :
    ∀ (kvs : List (String × Val)) (k p k2 p2 : String) (r : Option Val),
      normalizeItems h L k p kvs = .ok r → normalizeItems h L k2 p2 kvs = .ok r
  | [], k, p, k2, p2, r, hx => by
    simpa [normalizeItems] using hx
  | (key, v) :: rest, k, p, k2, p2, r, hx => by
    have ihv := normalizeEntry_key_indep h L v k (nestedPath k p ".items") k2
      (nestedPath k2 p2 ".items")
    have ihr := normalizeItems_key_indep h L rest k p k2 p2 r
    unfold normalizeItems at hx ⊢
    split
    · rw [if_pos (by assumption)] at hx
      cases hv : normalizeEntry h L v k (nestedPath k p ".items") with
      | error e => rw [hv] at hx; cases hx
      | ok n =>
        rw [hv] at hx
        rw [ihv n hv]
        exact hx
    · rw [if_neg (by assumption)] at hx
      exact ihr hx
theorem normalizeProperties_key_indep (h : Host) (L : Option Int) :
    ∀ (kvs : List (String × Val)) (k p k2 p2 : String) (r : Option Val),
      normalizeProperties h L k p kvs = .ok r → normalizeProperties h L k2 p2 kvs = .ok r
  | [], k, p, k2, p2, r, hx => by
    simpa [normalizeProperties] using hx
  | (key, .obj c pkvs) :: rest, k, p, k2, p2, r, hx => by
    have ihv := normalizePropsOfEntries_key_indep h L pkvs k p k2 p2
    have ihr := normalizeProperties_key_indep h L rest k p k2 p2 r
    unfold normalizeProperties at hx ⊢
    split
    · rw [if_pos (by assumption)] at hx
      simp only [truthy, if_true] at hx ⊢
      cases hv : normalizePropsOfEntries h L k p pkvs with
      | error e => rw [hv] at hx; cases hx
      | ok n =>
        rw [hv] at hx
        rw [ihv n hv]
        exact hx
    · rw [if_neg (by assumption)] at hx
      exact ihr hx
  | (key, .arr xs) :: rest, k, p, k2, p2, r, hx => by
    have ihv := normalizePropsOfArray_key_indep h L xs k p k2 p2
    have ihr := normalizeProperties_key_indep h L rest k p k2 p2 r
    unfold normalizeProperties at hx ⊢
    split
    · rw [if_pos (by assumption)] at hx
      simp only [truthy, if_true] at hx ⊢
      cases hv : normalizePropsOfArray h L k p xs 0 with
      | error e => rw [hv] at hx; cases hx
      | ok n =>
        rw [hv] at hx
        rw [ihv 0 n hv]
        exact hx
    · rw [if_neg (by assumption)] at hx
      exact ihr hx
  | (key, .undefined) :: rest, k, p, k2, p2, r, hx => by
    have ihr := normalizeProperties_key_indep h L rest k p k2 p2 r
    unfold normalizeProperties at hx ⊢
    split
    · rw [if_pos (by assumption)] at hx
      exact hx
    · rw [if_neg (by assumption)] at hx
      exact ihr hx
  | (key, .null) :: rest, k, p, k2, p2, r, hx => by
    have ihr := normalizeProperties_key_indep h L rest k p k2 p2 r
    unfold normalizeProperties at hx ⊢
    split
    · rw [if_pos (by assumption)] at hx
      exact hx
    · rw [if_neg (by assumption)] at hx
      exact ihr hx
  | (key, .bool b) :: rest, k, p, k2, p2, r, hx => by
    have ihr := normalizeProperties_key_indep h L rest k p k2 p2 r
    unfold normalizeProperties at hx ⊢
    split
    · rw [if_pos (by assumption)] at hx
      exact hx
    · rw [if_neg (by assumption)] at hx
      exact ihr hx
  | (key, .num i) :: rest, k, p, k2, p2, r, hx => by
    have ihr := normalizeProperties_key_indep h L rest k p k2 p2 r
    unfold normalizeProperties at hx ⊢
    split
    · rw [if_pos (by assumption)] at hx
      exact hx
    · rw [if_neg (by assumption)] at hx
      exact ihr hx
  | (key, .nan) :: rest, k, p, k2, p2, r, hx => by
    have ihr := normalizeProperties_key_indep h L rest k p k2 p2 r
    unfold normalizeProperties at hx ⊢
    split
    · rw [if_pos (by assumption)] at hx
      exact hx
    · rw [if_neg (by assumption)] at hx
      exact ihr hx
  | (key, .str s) :: rest, k, p, k2, p2, r, hx => by
    have ihr := normalizeProperties_key_indep h L rest k p k2 p2 r
    unfold normalizeProperties at hx ⊢
    split
    · rw [if_pos (by assumption)] at hx
      exact hx
    · rw [if_neg (by assumption)] at hx
      exact ihr hx
  | (key, .bigint i) :: rest, k, p, k2, p2, r, hx => by
    have ihr := normalizeProperties_key_indep h L rest k p k2 p2 r
    unfold normalizeProperties at hx ⊢
    split
    · rw [if_pos (by assumption)] at hx
      exact hx
    · rw [if_neg (by assumption)] at hx
      exact ihr hx
  | (key, .symbol s) :: rest, k, p, k2, p2, r, hx => by
    have ihr := normalizeProperties_key_indep h L rest k p k2 p2 r
    unfold normalizeProperties at hx ⊢
    split
    · rw [if_pos (by assumption)] at hx
      exact hx
    · rw [if_neg (by assumption)] at hx
      exact ihr hx
  | (key, .fn f) :: rest, k, p, k2, p2, r, hx => by
    have ihr := normalizeProperties_key_indep h L rest k p k2 p2 r
    unfold normalizeProperties at hx ⊢
    split
    · rw [if_pos (by assumption)] at hx
      exact hx
    · rw [if_neg (by assumption)] at hx
      exact ihr hx
theorem normalizePropsOfEntries_key_indep (h : Host) (L : Option Int) :
    ∀ (kvs : List (String × Val)) (k p k2 p2 : String) (r : List (String × Val)),
      normalizePropsOfEntries h L k p kvs = .ok r → normalizePropsOfEntries h L k2 p2 kvs = .ok r
  | [], k, p, k2, p2, r, hx => by
    simpa [normalizePropsOfEntries] using hx
  | (pk, v) :: rest, k, p, k2, p2, r, hx => by
    have ihv := normalizeEntry_key_indep h L v pk (nestedPath k p (".properties." ++ pk)) pk
      (nestedPath k2 p2 (".properties." ++ pk))
    have ihr := normalizePropsOfEntries_key_indep h L rest k p k2 p2
    unfold normalizePropsOfEntries at hx ⊢
    cases hv : normalizeEntry h L v pk (nestedPath k p (".properties." ++ pk)) with
    | error e => rw [hv] at hx; cases hx
    | ok n =>
      rw [hv] at hx
      rw [ihv n hv]
      cases hr : normalizePropsOfEntries h L k p rest with
      | error e => rw [hr] at hx; cases hx
      | ok ns =>
        rw [hr] at hx
        rw [ihr ns hr]
        exact hx
theorem normalizePropsOfArray_key_indep (h : Host) (L : Option Int) :
    ∀ (xs : List Val) (k p k2 p2 : String) (i : Nat) (r : List (String × Val)),
      normalizePropsOfArray h L k p xs i = .ok r → normalizePropsOfArray h L k2 p2 xs i = .ok r
  | [], k, p, k2, p2, i, r, hx => by
    simpa [normalizePropsOfArray] using hx
  | v :: rest, k, p, k2, p2, i, r, hx => by
    have ihv := normalizeEntry_key_indep h L v (toString i)
      (nestedPath k p (".properties." ++ toString i)) (toString i)
      (nestedPath k2 p2 (".properties." ++ toString i))
    have ihr := normalizePropsOfArray_key_indep h L rest k p k2 p2 (i + 1)
    unfold normalizePropsOfArray at hx ⊢
    cases hv : normalizeEntry h L v (toString i)
        (nestedPath k p (".properties." ++ toString i)) with
    | error e => rw [hv] at hx; cases hx
    | ok n =>
      rw [hv] at hx
      rw [ihv n hv]
      cases hr : normalizePropsOfArray h L k p rest (i + 1) with
      | error e => rw [hr] at hx; cases hx
      | ok ns =>
        rw [hr] at hx
        rw [ihr ns hr]
        exact hx
end

theorem hasKey_setKey_same (k : String) (v : Val) (R : List (String × Val)) :
    hasKey k (setKey k v R) = true := by
  induction R with
  | nil => simp [setKey, hasKey]
  | cons p rest ih =>
    obtain ⟨k2, v2⟩ := p
    by_cases hk : k2 = k
    · simp [setKey, hasKey, hk]
    · simp [setKey, hasKey, hk, ih]

/-- C18: for a non-empty name that the external registry does not hold and a raw
definition whose normalisation succeeds with the descriptor `norm` (under the
instance's `maxRegexLength`, for whatever key name and path it is normalised),
`addRef(name, def)` succeeds and `resolveRef(name)` on the resulting instance
returns `norm`. -/
theorem ref_round_trip (h : Host) (s : Schema) (n : String) (definition : Val)
    (k p : String) (norm : Val) (hn : n ≠ "") (hfresh : hasKey n s.externalRefs = false)
    (hnorm : normalizeEntry h s.options.maxRegexLength definition k p = .ok norm) :
    ∃ s2, Schema.addRef h s (.str n) definition = .ok s2
      ∧ Schema.resolveRef h s2 (.str n) = norm := by
  have hlen : n.length ≠ 0 := by
    intro hc
    apply hn
    obtain ⟨cs⟩ := n
    have hcs : cs = [] := List.length_eq_zero.mp hc
    subst hcs
    rfl
  refine ⟨{ s with externalRefs := setKey n definition s.externalRefs }, ?_, ?_⟩
  · simp [Schema.addRef, isRefName, hlen, toStringJS, hfresh]
  · have h1 := normalizeEntry_key_indep h s.options.maxRegexLength definition k p n n norm hnorm
    simp [Schema.resolveRef, truthy, hn, toStringJS, hasKey_setKey_same, lookupKey_setKey_same,
      normalizeOrUndefined, h1]

/-- Witness for C18: `addRef('R', { type: 'string' })` on the instance of the
schema `{ a: 'string' }`. -/
theorem ref_round_trip_witness :
    ∃ s2, Schema.addRef exampleHost
        (plainSchema (.obj .plain [("a", .str "string")]) [leafField exampleHost "a" stringEntry])
        (.str "R") (.obj .plain [("type", .str "string")]) = .ok s2
      ∧ Schema.resolveRef exampleHost s2 (.str "R")
        = .obj .plain [("type", .str "string"), ("strictType", .bool false)] :=
  ref_round_trip exampleHost
    (plainSchema (.obj .plain [("a", .str "string")]) [leafField exampleHost "a" stringEntry])
    "R" (.obj .plain [("type", .str "string")]) "x" "x" _ (by decide) (by decide) (by decide)

end GentleSchema

namespace GentleSchema

theorem hasKey_deleteKey (k : String) (R : List (String × Val)) :
    hasKey k (deleteKey k R) = false := by
  induction R with
  | nil => rfl
  | cons p rest ih =>
    obtain ⟨k2, v2⟩ := p
    by_cases hk : k2 = k
    · have : deleteKey k ((k2, v2) :: rest) = deleteKey k rest := by
        simp [deleteKey, hk]
      rw [this]
      exact ih
    · have : deleteKey k ((k2, v2) :: rest) = (k2, v2) :: deleteKey k rest := by
        simp [deleteKey, hk]
      rw [this]
      simp [hasKey, hk, ih]

theorem removeRef_registry (h : Host) (s : Schema) (n : String) (hn : n ≠ "") :
    hasKey n (Schema.removeRef h s (.str n)).2.externalRefs = false := by
  have hlen : n.length ≠ 0 := by
    intro hc
    apply hn
    obtain ⟨cs⟩ := n
    have hcs : cs = [] := List.length_eq_zero.mp hc
    subst hcs
    rfl
  unfold Schema.removeRef
  simp only [isRefName, toStringJS, hlen, ne_eq, not_false_eq_true, decide_True, not_true_eq_false,
    if_false]
  by_cases hk : hasKey n s.externalRefs = true
  · simp [hk, hasKey_deleteKey]
  · simp [hk]

/-- Counterexample for C19: on the instance of the schema `{ a: 'string' }`, after
`removeRef('a')` the call `resolveRef('a')` returns the descriptor
`{ type: 'string' }` found by the path lookup in the raw schema; and with a
schema that has `$defs: { R: 'number' }`, `resolveRef('R')` after
`removeRef('R')` returns `{ type: 'number' }`. -/
theorem resolve_after_remove_counterexample :
    (Schema.create exampleHost [("a", .str "string")] {}).map (fun s =>
        Schema.resolveRef exampleHost (Schema.removeRef exampleHost s (.str "a")).2 (.str "a"))
      = .ok (.obj .plain [("type", .str "string")])
    ∧ (Schema.create exampleHost
        [("$defs", .obj .plain [("R", .str "number")]), ("a", .str "string")] {}).map (fun s =>
        Schema.resolveRef exampleHost (Schema.removeRef exampleHost s (.str "R")).2 (.str "R"))
      = .ok (.obj .plain [("type", .str "number")]) := by
  constructor <;> decide

/-- C19 (amended): after `removeRef(name)` for a non-empty string name the
external registry no longer holds the name, and `resolveRef(name)` is what the
other two sources give: it is undefined when the name is neither a `$defs`
name nor a path that leads to a value in the raw schema. -/
theorem resolve_after_remove (h : Host) (s : Schema) (n : String) (hn : n ≠ "")
    (hlocal : hasKey n s.localDefs = false)
    (hpath : _getByPath h s.rawSchema (.str n) = .undefined) :
    hasKey n (Schema.removeRef h s (.str n)).2.externalRefs = false
    ∧ (Schema.removeRef h s (.str n)).1 = hasKey n s.externalRefs
    ∧ Schema.resolveRef h (Schema.removeRef h s (.str n)).2 (.str n) = .undefined := by
  have hreg := removeRef_registry h s n hn
  have hrest : (Schema.removeRef h s (.str n)).2.localDefs = s.localDefs
      ∧ (Schema.removeRef h s (.str n)).2.rawSchema = s.rawSchema
      ∧ (Schema.removeRef h s (.str n)).1 = hasKey n s.externalRefs := by
    unfold Schema.removeRef
    split
    · rename_i hc
      exfalso
      apply hc
      have hlen : n.length ≠ 0 := by
        intro hc2
        apply hn
        obtain ⟨cs⟩ := n
        have hcs : cs = [] := List.length_eq_zero.mp hc2
        subst hcs
        rfl
      simp [isRefName, hlen]
    · split
      · rename_i hk
        exact ⟨rfl, rfl, by simpa [toStringJS] using hk.symm⟩
      · rename_i hk
        refine ⟨rfl, rfl, ?_⟩
        simp only [toStringJS] at hk
        simp [hk]
  refine ⟨hreg, hrest.2.2, ?_⟩
  unfold Schema.resolveRef
  simp only [toStringJS]
  rw [hreg, hrest.1, hrest.2.1, hlocal, hpath]
  simp [typeOf]

/-- Witness for C19 (amended): `removeRef('R')` then `resolveRef('R')` on the
instance of the schema `{ a: 'string' }` with the external definition `R`. -/
theorem resolve_after_remove_witness :
    Schema.resolveRef exampleHost
      (Schema.removeRef exampleHost
        { plainSchema (.obj .plain [("a", .str "string")]) [leafField exampleHost "a" stringEntry]
          with externalRefs := [("R", .str "number")] } (.str "R")).2 (.str "R") = .undefined :=
  (resolve_after_remove exampleHost
    { plainSchema (.obj .plain [("a", .str "string")]) [leafField exampleHost "a" stringEntry]
      with externalRefs := [("R", .str "number")] } "R" (by decide) (by decide) (by decide)).2.2

end GentleSchema

namespace GentleSchema

set_option maxHeartbeats 2000000 in
/-- C20 (the code's behaviour): a fragment entry that is a `$ref` is merged over
the base descriptor as the bare placeholder and the referenced descriptor is
never looked up.  In the conditional scenario `{ kind: 'small', payload: {} }`
is valid with no error, and so is the input `{ kind: 'small', payload: { b: 1 } }`
of the repository's example (with `removeUnknown`); the same fragment with the
descriptor of `small` written inline gives the `ERR_REQUIRED` at `payload.a`. -/
theorem conditional_ref_fragment_ignored :
    conditionalRun exampleHost {} (.obj .plain [("$ref", .str "small")])
        [("kind", .str "small"), ("payload", .obj .plain [])]
      = .ok (.result true []
          (.obj .plain [("kind", .str "small"), ("payload", .obj .plain [])]))
    ∧ conditionalRun exampleHost { removeUnknown := some true }
        (.obj .plain [("$ref", .str "small")])
        [("kind", .str "small"), ("payload", .obj .plain [("b", .num 1)])]
      = .ok (.result true []
          (.obj .plain [("kind", .str "small"), ("payload", .obj .plain [("b", .num 1)])]))
    ∧ conditionalRun exampleHost {} smallRef
        [("kind", .str "small"), ("payload", .obj .plain [])]
      = .ok (.result false
          [{ path := "payload.a", message := "Invalid payload.a field. is required",
             code := "ERR_REQUIRED", rawError := .null }]
          (.obj .plain [("kind", .str "small"), ("payload", .obj .plain [])])) := by
  refine ⟨?_, ?_, ?_⟩ <;> decide

end GentleSchema

namespace GentleSchema

set_option maxHeartbeats 4000000 in
/-- C21 (the code's behaviour): when two matching rules name the same field, the
later fragment replaces the earlier one instead of being merged with it.
With the rules `{ age: { min: 0 } }` then `{ age: { max: 10 } }`, both matching,
`age: -5` is valid (the minimum is lost) while `age: 11` gets `ERR_MAX`; with
the first rule alone `age: -5` gets `ERR_MIN`.  The same holds for
`properties`: after `{ box: { properties: { x: required } } }` then
`{ box: { properties: { y: 'number' } } }` an empty `box` is valid. -/
theorem later_fragment_replaces_earlier :
    validateWithRules exampleHost kindAgeSchema {} [minRule, maxRule]
        [("kind", .str "a"), ("age", .num (-5))] {}
      = .ok (.result true [] (.obj .plain [("kind", .str "a"), ("age", .num (-5))]))
    ∧ validateWithRules exampleHost kindAgeSchema {} [minRule, maxRule]
        [("kind", .str "a"), ("age", .num 11)] {}
      = .ok (.result false
          [{ path := "age", message := "Invalid age field. must be <= 10", code := "ERR_MAX",
             rawError := .null }]
          (.obj .plain [("kind", .str "a"), ("age", .num 11)]))
    ∧ validateWithRules exampleHost kindAgeSchema {} [minRule]
        [("kind", .str "a"), ("age", .num (-5))] {}
      = .ok (.result false
          [{ path := "age", message := "Invalid age field. must be >= 0", code := "ERR_MIN",
             rawError := .null }]
          (.obj .plain [("kind", .str "a"), ("age", .num (-5))]))
    ∧ validateWithRules exampleHost kindBoxSchema {} [xRule, yRule]
        [("kind", .str "a"), ("box", .obj .plain [])] {}
      = .ok (.result true []
          (.obj .plain [("kind", .str "a"), ("box", .obj .plain [("y", .undefined)])]))
    ∧ validateWithRules exampleHost kindBoxSchema {} [xRule]
        [("kind", .str "a"), ("box", .obj .plain [])] {}
      = .ok (.result false
          [{ path := "box.x", message := "Invalid box.x field. is required",
             code := "ERR_REQUIRED", rawError := .null }]
          (.obj .plain [("kind", .str "a"), ("box", .obj .plain [])])) := by
  refine ⟨?_, ?_, ?_, ?_, ?_⟩ <;> decide

end GentleSchema

namespace GentleSchema

theorem fieldLoop_congr (h : Host) (s s2 : Schema) (obj : List (String × Val)) (opts : Options)
    (ov : List (String × Val))
    (hrun : ∀ f, runField h s2 obj opts ov f = runField h s obj opts ov f) (fs : List Field) :
    ∀ (E : List Err) (R : List (String × Val)),
      fieldLoop h s2 obj opts ov fs E R = fieldLoop h s obj opts ov fs E R := by
  induction fs with
  | nil => intro E R; rfl
  | cons f rest ih =>
    intro E R
    unfold fieldLoop
    rw [hrun f]
    cases runField h s obj opts ov f with
    | error e => rfl
    | ok p =>
      obtain ⟨entryErrors, coerced⟩ := p
      simp only []
      split
      · rfl
      · exact ih _ _

theorem strictTopLoop_congr (s s2 : Schema) (opts : Options)
    (hn : s2.normalizedSchema = s.normalizedSchema) (ks : List String) :
    ∀ (E : List Err) (R : List (String × Val)),
      strictTopLoop s2 opts ks E R = strictTopLoop s opts ks E R := by
  induction ks with
  | nil => intro E R; rfl
  | cons k rest ih =>
    intro E R
    unfold strictTopLoop
    rw [hn, ih, ih]

theorem lenientTopLoop_congr (s s2 : Schema) (opts : Options) (obj : List (String × Val))
    (hn : s2.normalizedSchema = s.normalizedSchema) (ks : List String) :
    ∀ (R : List (String × Val)),
      lenientTopLoop s2 opts obj ks R = lenientTopLoop s opts obj ks R := by
  induction ks with
  | nil => intro R; rfl
  | cons k rest ih =>
    intro R
    unfold lenientTopLoop
    rw [hn, ih, ih]

theorem validate_congr (h : Host) (s s2 : Schema) (obj : List (String × Val))
    (callOptions : OptionsPatch) (hopts : s2.options = s.options) (hf : s2.fields = s.fields)
    (hov : _evaluateConditionals h s2 (.obj .plain obj)
      = _evaluateConditionals h s (.obj .plain obj))
    (hrun : ∀ opts ov f, runField h s2 obj opts ov f = runField h s obj opts ov f) :
    validate h s2 obj callOptions = validate h s obj callOptions := by
  have hn : s2.normalizedSchema = s.normalizedSchema := by
    simp [Schema.normalizedSchema, hf]
  unfold validate
  rw [hopts, hov, hf, fieldLoop_congr h s s2 obj _ _ (hrun _ _)]
  cases fieldLoop h s obj (assignOptions s.options callOptions)
      (_evaluateConditionals h s (.obj .plain obj)) s.fields [] [] with
  | stop r => rfl
  | go errors result =>
    simp only [unknownKeys]
    rw [strictTopLoop_congr s s2 _ hn, lenientTopLoop_congr s s2 _ obj hn]

theorem condResult_of_throws (h : Host) (rule : Conditional) (obj : Val)
    (ht : throwsOn h rule obj) : condResult h rule obj = false := by
  unfold condResult
  rcases ht with ⟨p, e, hp, hc⟩ | ⟨q, e, hp, hq, hc⟩
  · rw [hp]
    simp only []
    rw [hc]
  · split
    · rename_i p hp2
      exact absurd hp2 (hp p)
    · rw [hq]
      simp only []
      rw [hc]

theorem evaluateLoop_skip (h : Host) (obj : Val) (rule : Conditional)
    (hc : condResult h rule obj = false) (post : List Conditional) :
    ∀ (pre : List Conditional) (ov : List (String × Val)),
      evaluateLoop h obj (pre ++ rule :: post) ov = evaluateLoop h obj (pre ++ post) ov := by
  intro pre
  induction pre with
  | nil =>
    intro ov
    simp [evaluateLoop, hc]
  | cons r rest ih =>
    intro ov
    simp only [List.cons_append, evaluateLoop]
    split
    · exact ih _
    · exact ih _

/-- C22: a registered rule whose evaluation throws on the input (its whole-object
predicate throws, or its `is` predicate throws on the value at the path)
counts as not matched; the overrides collected from the rules, and with them
the whole outcome of `validate`, are those of the same instance without this
rule, so the exception is not passed on and the other rules are evaluated as
usual. -/
theorem throwing_rule_ignored (h : Host) (s : Schema) (obj : List (String × Val))
    (callOptions : OptionsPatch) (pre post : List Conditional) (rule : Conditional)
    (hrules : s.conditionals = pre ++ rule :: post)
    (ht : throwsOn h rule (.obj .plain obj)) :
    condResult h rule (.obj .plain obj) = false
    ∧ _evaluateConditionals h s (.obj .plain obj)
        = _evaluateConditionals h { s with conditionals := pre ++ post } (.obj .plain obj)
    ∧ validate h s obj callOptions
        = validate h { s with conditionals := pre ++ post } obj callOptions := by
  have hc := condResult_of_throws h rule (.obj .plain obj) ht
  have hov : _evaluateConditionals h s (.obj .plain obj)
      = _evaluateConditionals h { s with conditionals := pre ++ post } (.obj .plain obj) := by
    simp only [_evaluateConditionals, hrules]
    exact evaluateLoop_skip h _ rule hc post pre []
  refine ⟨hc, hov, ?_⟩
  exact (validate_congr h s { s with conditionals := pre ++ post } obj callOptions rfl rfl
    hov.symm (fun _ _ _ => rfl)).symm

/-- Witness for C22: the schema `{ a: 'string' }` with a rule whose predicate
throws; the fragment `{ a: { type: 'number' } }` is not applied to `{ a: 'x' }`. -/
theorem throwing_rule_ignored_witness :
    validate throwingHost predicateRuleSchema [("a", .str "x")] {}
      = .ok (.result true [] (.obj .plain [("a", .str "x")])) :=
  (throwing_rule_ignored throwingHost predicateRuleSchema [("a", .str "x")] {} [] []
    predicateRule rfl (Or.inl ⟨_, _, rfl, rfl⟩)).2.2.trans (by decide)

end GentleSchema

namespace GentleSchema

/-- C23 (the code's behaviour): under `valueOnly: true`, `enforce` raises a
`ValidationError` with no entries and no partial value for a valid input, and
the same for an invalid input, whose errors are lost; without `valueOnly` it
returns the value for the valid input and raises with the errors and the
value for the invalid one. -/
theorem enforce_valueOnly_raises :
    withSchema exampleHost [("a", .str "string")] {} (fun s =>
        Schema.enforce exampleHost s [("a", .str "x")] { valueOnly := some true })
      = .error (.validation [] .undefined)
    ∧ withSchema exampleHost [("a", .str "string")] {} (fun s =>
        validate exampleHost s [("a", .str "x")] { valueOnly := some true })
      = .ok (.valueOnly (.obj .plain [("a", .str "x")]))
    ∧ withSchema exampleHost [("a", .str "string")] {} (fun s =>
        Schema.enforce exampleHost s [("a", .num 1)] { valueOnly := some true })
      = .error (.validation [] .undefined)
    ∧ withSchema exampleHost [("a", .str "string")] {} (fun s =>
        Schema.enforce exampleHost s [("a", .str "x")] {})
      = .ok (.obj .plain [("a", .str "x")])
    ∧ withSchema exampleHost [("a", .str "string")] {} (fun s =>
        Schema.enforce exampleHost s [("a", .num 1)] {})
      = .error (.validation
          [{ path := "a", message := "Invalid a field. expected type string, received number",
             code := "ERR_TYPE", rawError := .null }]
          (.obj .plain [("a", .num 1)])) := by
  refine ⟨?_, ?_, ?_, ?_, ?_⟩ <;> decide

end GentleSchema

namespace GentleSchema

/-- C24 (the code's behaviour): `sanitize` raises the `ValidationError` of a field
marked `throw: true`; under `valueOnly: true` it returns `undefined` for a
valid input instead of the value, and raises for an invalid input in fail-fast
mode.  Without `throw` and `valueOnly` it returns `{ value, errors }`, also in
fail-fast mode. -/
theorem sanitize_raises :
    withSchema exampleHost throwSchema {} (fun s =>
        Schema.sanitize exampleHost s [("a", .num 1)] {})
      = .error (.validation
          [{ path := "a", message := "Invalid a field. expected type string, received number",
             code := "ERR_TYPE", rawError := .null }] (.num 1))
    ∧ withSchema exampleHost [("a", .str "string")] {} (fun s =>
        Schema.sanitize exampleHost s [("a", .str "x")] { valueOnly := some true })
      = .ok .undefined
    ∧ withSchema exampleHost [("a", .str "string")] {} (fun s =>
        Schema.sanitize exampleHost s [("a", .num 1)]
          { valueOnly := some true, failFast := some true })
      = .error (.validation
          [{ path := "a", message := "Invalid a field. expected type string, received number",
             code := "ERR_TYPE", rawError := .null }] (.obj .plain []))
    ∧ withSchema exampleHost [("a", .str "string")] {} (fun s =>
        Schema.sanitize exampleHost s [("a", .num 1)] { failFast := some true })
      = .ok (.obj .plain
          [("value", .obj .plain []),
           ("errors", .arr [Err.toVal
             { path := "a", message := "Invalid a field. expected type string, received number",
               code := "ERR_TYPE", rawError := .null }])]) := by
  refine ⟨?_, ?_, ?_, ?_⟩ <;> decide

end GentleSchema

namespace GentleSchema

theorem sameVerdict_refl (res : CheckResult) : sameVerdict res res := by
  by_cases hc : ∃ out, res = .ok ([], out)
  · obtain ⟨out, ho⟩ := hc
    exact Or.inl ⟨out, ho, ho⟩
  · exact Or.inr ⟨fun out ho => hc ⟨out, ho⟩, fun out ho => hc ⟨out, ho⟩⟩

theorem runValidator_prefix (h : Host) (r : Rules) (f : FnRef) (errs : List Err) (out : Val)
    (path : String) (hne : errs ≠ []) :
    ∀ o, runValidator h r f errs out path ≠ .ok ([], o) := by
  intro o hx
  rcases runValidator_value h r f errs out path with ⟨es, he⟩ | ⟨es, he⟩
  · by_cases ht : r.throwField = true
    · -- with throw every outcome that adds an error raises; only acceptance returns
      have hacc : ∀ es2 o2, runValidator h r f errs out path = .ok (es2, o2) → es2 = errs := by
        intro es2 o2 hr
        unfold runValidator at hr
        have hcatch : ∀ es3 err, validatorCatch h r es3 out path err ≠ .ok (es2, o2) := by
          intro es3 err hc
          simp [validatorCatch, emit, ht] at hc
        have hrej : ∀ e, validatorReject h r errs out path e ≠ .ok (es2, o2) := by
          intro e hc
          simp only [validatorReject, ht, if_true] at hc
          exact hcatch _ _ hc
        have hmany : ∀ ms, validatorRejectMany h r errs out path ms ≠ .ok (es2, o2) := by
          intro ms hc
          simp only [validatorRejectMany, ht, if_true] at hc
          exact hcatch _ _ hc
        split at hr
        · exact absurd hr (hcatch _ _)
        · split at hr
          · injection hr with hr; injection hr with h1 _; exact h1.symm
          · split at hr
            · exact absurd hr (hrej _)
            · split at hr
              · exact absurd hr (hrej _)
              · split at hr
                · exact absurd hr (hmany _)
                · injection hr with hr; injection hr with h1 _; exact h1.symm
              · split at hr
                · injection hr with hr; injection hr with h1 _; exact h1.symm
                · split at hr
                  · exact absurd hr (hmany _)
                  · injection hr with hr; injection hr with h1 _; exact h1.symm
              · injection hr with hr; injection hr with h1 _; exact h1.symm
      exact hne (hacc [] o hx).symm
    · have hf : r.throwField = false := by simpa using ht
      obtain ⟨es2, he2, _⟩ := runValidator_total h r f errs out path hf
      rw [he2] at hx
      injection hx with hx
      injection hx with h1 _
      exact hne (List.append_eq_nil.mp h1).1
  · rw [he] at hx
    cases hx

theorem fromValidator_dirty (h : Host) (r : Rules) (errs : List Err) (out : Val) (ctx : Ctx)
    (hne : errs ≠ []) : ∀ o, fromValidator h r errs out ctx ≠ .ok ([], o) := by
  intro o hx
  unfold fromValidator at hx
  split at hx
  · exact runValidator_prefix h r _ errs out ctx.path hne o hx
  · injection hx with hx
    injection hx with h1 _
    exact hne h1

theorem itemsLoop_dirty (r : Rules) (ic : Checker) (path : String) (options : Options)
    (out : Val) (xs : List Val) :
    ∀ (i : Nat) (errs : List Err) (newArr : List Val) (hadErr : Bool), errs ≠ [] →
      loopDirty (itemsLoop r ic path options out xs i errs newArr hadErr) := by
  induction xs with
  | nil =>
    intro i errs newArr hadErr hne
    exact hne
  | cons x rest ih =>
    intro i errs newArr hadErr hne
    unfold itemsLoop
    cases ic x { path := _arrayPath path i, options := options } with
    | error ex =>
      intro o ho
      cases ho
    | ok p =>
      obtain ⟨childErrs, childVal⟩ := p
      simp only []
      have hne2 : errs ++ childErrs ≠ [] := by simp [hne]
      split
      · split
        · split
          · intro o ho
            cases ho
          · intro o ho
            injection ho with ho
            injection ho with h1 _
            exact hne2 h1
        · exact ih _ _ _ _ hne2
      · exact ih _ _ _ _ hne

theorem propsLoop_dirty (r : Rules) (path : String) (options : Options) (out : Val)
    (props : List (String × Checker)) :
    ∀ (errs : List Err) (nestedResult : List (String × Val)), errs ≠ [] →
      loopDirty (propsLoop r path options out props errs nestedResult) := by
  induction props with
  | nil =>
    intro errs nestedResult hne
    exact hne
  | cons p rest ih =>
    intro errs nestedResult hne
    obtain ⟨pk, ck⟩ := p
    unfold propsLoop
    cases ck (getProp out pk) { path := childPathOf path pk, options := options } with
    | error ex =>
      intro o ho
      cases ho
    | ok p =>
      obtain ⟨childErrs, childVal⟩ := p
      simp only []
      have hne2 : errs ++ childErrs ≠ [] := by simp [hne]
      split
      · split
        · split
          · intro o ho
            cases ho
          · intro o ho
            injection ho with ho
            injection ho with h1 _
            exact hne2 h1
        · exact ih _ _ hne2
      · exact ih _ _ hne

theorem strictUnknownLoop_dirty (r : Rules) (path : String) (options : Options) (out : Val)
    (nk : List String) (ks : List String) :
    ∀ (errs : List Err), errs ≠ [] →
      loopDirty (strictUnknownLoop r path options out nk ks errs) := by
  induction ks with
  | nil =>
    intro errs hne
    exact hne
  | cons k2 rest ih =>
    intro errs hne
    unfold strictUnknownLoop
    split
    · exact ih _ hne
    · split
      · exact ih _ hne
      · simp only []
        split
        · split
          · intro o ho
            cases ho
          · intro o ho
            injection ho with ho
            injection ho with h1 _
            simp at h1
        · exact ih _ (by simp)

theorem fromProps_dirty (h : Host) (r : Rules) (pc : Option (List (String × Checker)))
    (errs : List Err) (out : Val) (ctx : Ctx) (hne : errs ≠ []) :
    ∀ o, fromProps h r pc errs out ctx ≠ .ok ([], o) := by
  unfold fromProps
  cases pc with
  | none => exact fromValidator_dirty h r errs out ctx hne
  | some props =>
    simp only []
    split
    · have hl := propsLoop_dirty r ctx.path ctx.options out props errs [] hne
      revert hl
      cases propsLoop r ctx.path ctx.options out props errs [] with
      | returned res => exact fun hl => hl
      | finished e1 a1 =>
        intro hl
        simp only []
        split
        · have hs := strictUnknownLoop_dirty r ctx.path ctx.options out
            (props.map (fun p => p.1)) (objectKeys out) e1 hl
          revert hs
          cases strictUnknownLoop r ctx.path ctx.options out (props.map (fun p => p.1))
              (objectKeys out) e1 with
          | returned res => exact fun hs => hs
          | finished e2 a2 =>
            intro hs
            exact fromValidator_dirty h r e2 _ ctx hs
        · exact fromValidator_dirty h r e1 _ ctx hl
    · exact fromValidator_dirty h r errs out ctx hne

theorem itemsLoop_sameVerdict (r : Rules) (ic : Checker) (hic : FailFastStable ic)
    (path : String) (opts : Options) (out : Val) (xs : List Val) :
    ∀ (i : Nat) (newArr : List Val),
      loopsSameVerdict
        (itemsLoop r ic path { opts with failFast := true } out xs i [] newArr false)
        (itemsLoop r ic path { opts with failFast := false } out xs i [] newArr false) := by
  induction xs with
  | nil =>
    intro i newArr
    exact Or.inl ⟨_, rfl, rfl⟩
  | cons x rest ih =>
    intro i newArr
    unfold itemsLoop
    rcases hic x (_arrayPath path i) opts with ⟨cv, hT, hF⟩ | ⟨hT, hF⟩
    · rw [hT, hF]
      simp only [List.length_nil, ne_eq, not_true_eq_false, if_false]
      exact ih _ _
    · right
      constructor
      · cases hcT : ic x { path := _arrayPath path i, options := { opts with failFast := true } } with
        | error ex =>
          intro o ho
          cases ho
        | ok p =>
          obtain ⟨childErrs, childVal⟩ := p
          have hne : childErrs ≠ [] := by
            intro hc
            subst hc
            exact hT childVal hcT
          have hlen : childErrs.length ≠ 0 := by
            intro hc
            exact hne (List.length_eq_zero.mp hc)
          simp only [hlen, ne_eq, not_false_eq_true, if_true, List.nil_append]
          split
          · intro o ho
            cases ho
          · intro o ho
            injection ho with ho
            injection ho with h1 _
            exact hne h1
      · cases hcF : ic x { path := _arrayPath path i, options := { opts with failFast := false } } with
        | error ex =>
          intro o ho
          cases ho
        | ok p =>
          obtain ⟨childErrs, childVal⟩ := p
          have hne : childErrs ≠ [] := by
            intro hc
            subst hc
            exact hF childVal hcF
          have hlen : childErrs.length ≠ 0 := by
            intro hc
            exact hne (List.length_eq_zero.mp hc)
          simp only [hlen, ne_eq, not_false_eq_true, if_true, List.nil_append]
          exact itemsLoop_dirty r ic path _ out rest _ _ _ _ hne

theorem propsLoop_sameVerdict (r : Rules) (path : String) (opts : Options) (out : Val)
    (props : List (String × Checker)) (hpc : ∀ p ∈ props, FailFastStable p.2) :
    ∀ (nestedResult : List (String × Val)),
      loopsSameVerdict
        (propsLoop r path { opts with failFast := true } out props [] nestedResult)
        (propsLoop r path { opts with failFast := false } out props [] nestedResult) := by
  induction props with
  | nil =>
    intro nestedResult
    exact Or.inl ⟨_, rfl, rfl⟩
  | cons p rest ih =>
    intro nestedResult
    obtain ⟨pk, ck⟩ := p
    have hck : FailFastStable ck := hpc (pk, ck) (List.mem_cons_self _ _)
    have ih2 := ih (fun q hq => hpc q (List.mem_cons_of_mem _ hq))
    unfold propsLoop
    rcases hck (getProp out pk) (childPathOf path pk) opts with ⟨cv, hT, hF⟩ | ⟨hT, hF⟩
    · rw [hT, hF]
      simp only [List.length_nil, ne_eq, not_true_eq_false, if_false]
      exact ih2 _
    · right
      constructor
      · cases hcT : ck (getProp out pk)
            { path := childPathOf path pk, options := { opts with failFast := true } } with
        | error ex =>
          intro o ho
          cases ho
        | ok p =>
          obtain ⟨childErrs, childVal⟩ := p
          have hne : childErrs ≠ [] := by
            intro hc
            subst hc
            exact hT childVal hcT
          have hlen : childErrs.length ≠ 0 := by
            intro hc
            exact hne (List.length_eq_zero.mp hc)
          simp only [hlen, ne_eq, not_false_eq_true, if_true, List.nil_append]
          split
          · intro o ho
            cases ho
          · intro o ho
            injection ho with ho
            injection ho with h1 _
            exact hne h1
      · cases hcF : ck (getProp out pk)
            { path := childPathOf path pk, options := { opts with failFast := false } } with
        | error ex =>
          intro o ho
          cases ho
        | ok p =>
          obtain ⟨childErrs, childVal⟩ := p
          have hne : childErrs ≠ [] := by
            intro hc
            subst hc
            exact hF childVal hcF
          have hlen : childErrs.length ≠ 0 := by
            intro hc
            exact hne (List.length_eq_zero.mp hc)
          simp only [hlen, ne_eq, not_false_eq_true, if_true, List.nil_append]
          exact propsLoop_dirty r path _ out rest _ _ hne

theorem strictUnknownLoop_sameVerdict (r : Rules) (path : String) (opts : Options) (out : Val)
    (nk : List String) (ks : List String) :
    loopsSameVerdict
      (strictUnknownLoop r path { opts with failFast := true } out nk ks [])
      (strictUnknownLoop r path { opts with failFast := false } out nk ks []) := by
  induction ks with
  | nil => exact Or.inl ⟨_, rfl, rfl⟩
  | cons k2 rest ih =>
    unfold strictUnknownLoop
    simp only []
    split
    · exact ih
    · split
      · exact ih
      · right
        constructor
        · simp only [if_true]
          split
          · intro o ho
            cases ho
          · intro o ho
            injection ho with ho
            injection ho with h1 _
            simp at h1
        · simp only [Bool.false_eq_true, if_false]
          exact strictUnknownLoop_dirty r path _ out nk rest _ (by simp)

theorem lenientUnknownLoop_failFast (opts : Options) (b : Bool) (out : Val) (nk : List String)
    (ks : List String) :
    ∀ R : List (String × Val),
      lenientUnknownLoop { opts with failFast := b } out nk ks R
        = lenientUnknownLoop opts out nk ks R := by
  induction ks with
  | nil => intro R; rfl
  | cons k2 rest ih =>
    intro R
    unfold lenientUnknownLoop
    simp only [ih]

theorem propsTail_dirty (h : Host) (r : Rules) (props : List (String × Checker)) (out : Val)
    (ctx : Ctx) (e1 : List Err) (a1 : List (String × Val)) (hd : e1 ≠ []) :
    ∀ o, (if ctx.options.strict = true then
        match strictUnknownLoop r ctx.path ctx.options out
            (props.map (fun p : String × Checker => p.1)) (objectKeys out) e1 with
        | .returned res => res
        | .finished errs2 _ => fromValidator h r errs2 (.obj .plain a1) ctx
      else
        fromValidator h r e1
          (.obj .plain (lenientUnknownLoop ctx.options out
            (props.map (fun p : String × Checker => p.1)) (objectKeys out) a1)) ctx)
      ≠ .ok ([], o) := by
  split
  · have hs := strictUnknownLoop_dirty r ctx.path ctx.options out
      (props.map (fun p : String × Checker => p.1)) (objectKeys out) e1 hd
    revert hs
    cases strictUnknownLoop r ctx.path ctx.options out
        (props.map (fun p : String × Checker => p.1)) (objectKeys out) e1 with
    | returned res => exact fun hs => hs
    | finished e2 a2 => exact fun hs => fromValidator_dirty h r e2 _ ctx hs
  · exact fromValidator_dirty h r e1 _ ctx hd

theorem fromProps_sameVerdict (h : Host) (r : Rules) (pc : Option (List (String × Checker)))
    (hpc : ∀ props, pc = some props → ∀ p ∈ props, FailFastStable p.2)
    (out : Val) (path : String) (opts : Options) :
    sameVerdict
      (fromProps h r pc [] out { path := path, options := { opts with failFast := true } })
      (fromProps h r pc [] out { path := path, options := { opts with failFast := false } }) := by
  have hval : ∀ o, sameVerdict
      (fromValidator h r [] o { path := path, options := { opts with failFast := true } })
      (fromValidator h r [] o { path := path, options := { opts with failFast := false } }) :=
    fun o => sameVerdict_refl _
  unfold fromProps
  cases pc with
  | none => exact hval _
  | some props =>
    simp only []
    split
    · rcases propsLoop_sameVerdict r path opts out props (hpc props rfl) []
        with ⟨acc, hT, hF⟩ | ⟨hT, hF⟩
      · rw [hT, hF]
        simp only []
        split
        · rcases strictUnknownLoop_sameVerdict r path opts out
            (props.map (fun p : String × Checker => p.1))
            (objectKeys out) with ⟨acc2, hT2, hF2⟩ | ⟨hT2, hF2⟩
          · rw [hT2, hF2]
            exact hval _
          · right
            constructor
            · revert hT2
              cases strictUnknownLoop r path { opts with failFast := true } out
                  (props.map (fun p : String × Checker => p.1)) (objectKeys out) [] with
              | returned res => exact fun hd => hd
              | finished e2 a2 => exact fun hd => fromValidator_dirty h r e2 _ _ hd
            · revert hF2
              cases strictUnknownLoop r path { opts with failFast := false } out
                  (props.map (fun p : String × Checker => p.1)) (objectKeys out) [] with
              | returned res => exact fun hd => hd
              | finished e2 a2 => exact fun hd => fromValidator_dirty h r e2 _ _ hd
        · rw [lenientUnknownLoop_failFast opts true, lenientUnknownLoop_failFast opts false]
          exact hval _
      · right
        constructor
        · revert hT
          cases propsLoop r path { opts with failFast := true } out props [] [] with
          | returned res => exact fun hd => hd
          | finished e1 a1 =>
            intro hd
            exact propsTail_dirty h r props out
              { path := path, options := { opts with failFast := true } } e1 a1 hd
        · revert hF
          cases propsLoop r path { opts with failFast := false } out props [] [] with
          | returned res => exact fun hd => hd
          | finished e1 a1 =>
            intro hd
            exact propsTail_dirty h r props out
              { path := path, options := { opts with failFast := false } } e1 a1 hd
    · exact hval _

theorem fromItems_sameVerdict (h : Host) (r : Rules) (ic : Option Checker)
    (pc : Option (List (String × Checker)))
    (hic : ∀ c, ic = some c → FailFastStable c)
    (hpc : ∀ props, pc = some props → ∀ p ∈ props, FailFastStable p.2)
    (path : String) (opts : Options) (out : Val) :
    sameVerdict
      (fromItems h r ic pc out { path := path, options := { opts with failFast := true } })
      (fromItems h r ic pc out { path := path, options := { opts with failFast := false } }) := by
  unfold fromItems
  split
  · rename_i xs c
    rcases itemsLoop_sameVerdict r c (hic c rfl) path opts (.arr xs) xs 0 []
      with ⟨acc, hT, hF⟩ | ⟨hT, hF⟩
    · rw [hT, hF]
      obtain ⟨newArr, hadErr⟩ := acc
      exact fromProps_sameVerdict h r pc hpc _ path opts
    · right
      constructor
      · revert hT
        cases itemsLoop r c path { opts with failFast := true } (.arr xs) xs 0 [] [] false with
        | returned res => exact fun hd => hd
        | finished e1 a1 =>
          obtain ⟨newArr, hadErr⟩ := a1
          exact fun hd => fromProps_dirty h r pc e1 _ _ hd
      · revert hF
        cases itemsLoop r c path { opts with failFast := false } (.arr xs) xs 0 [] [] false with
        | returned res => exact fun hd => hd
        | finished e1 a1 =>
          obtain ⟨newArr, hadErr⟩ := a1
          exact fun hd => fromProps_dirty h r pc e1 _ _ hd
  · exact fromProps_sameVerdict h r pc hpc _ path opts

theorem fromBounds_sameVerdict (h : Host) (r : Rules) (ic : Option Checker)
    (pc : Option (List (String × Checker))) (path : String) (opts : Options)
    (hitems : ∀ out, sameVerdict
      (fromItems h r ic pc out { path := path, options := { opts with failFast := true } })
      (fromItems h r ic pc out { path := path, options := { opts with failFast := false } }))
    (out : Val) :
    sameVerdict
      (fromBounds h r ic pc out { path := path, options := { opts with failFast := true } })
      (fromBounds h r ic pc out { path := path, options := { opts with failFast := false } }) := by
  have hnext := hitems
  unfold fromBounds
  simp only []
  split
  · split
    · exact sameVerdict_refl _
    · split
      · exact sameVerdict_refl _
      · exact hnext _
  · split
    · split
      · exact sameVerdict_refl _
      · split
        · exact sameVerdict_refl _
        · exact hnext _
    · exact hnext _
theorem fromRegex_sameVerdict (h : Host) (r : Rules) (ic : Option Checker)
    (pc : Option (List (String × Checker))) (path : String) (opts : Options)
    (hitems : ∀ out, sameVerdict
      (fromItems h r ic pc out { path := path, options := { opts with failFast := true } })
      (fromItems h r ic pc out { path := path, options := { opts with failFast := false } }))
    (out : Val) :
    sameVerdict
      (fromRegex h r ic pc out { path := path, options := { opts with failFast := true } })
      (fromRegex h r ic pc out { path := path, options := { opts with failFast := false } }) := by
  have hnext := fromBounds_sameVerdict h r ic pc path opts hitems
  unfold fromRegex
  simp only []
  split
  · split
    · split
      · split
        · exact hnext _
        · exact sameVerdict_refl _
      · exact sameVerdict_refl _
    · exact sameVerdict_refl _
  · exact hnext _
theorem fromEnum_sameVerdict (h : Host) (r : Rules) (ic : Option Checker)
    (pc : Option (List (String × Checker))) (path : String) (opts : Options)
    (hitems : ∀ out, sameVerdict
      (fromItems h r ic pc out { path := path, options := { opts with failFast := true } })
      (fromItems h r ic pc out { path := path, options := { opts with failFast := false } }))
    (out : Val) :
    sameVerdict
      (fromEnum h r ic pc out { path := path, options := { opts with failFast := true } })
      (fromEnum h r ic pc out { path := path, options := { opts with failFast := false } }) := by
  have hnext := fromRegex_sameVerdict h r ic pc path opts hitems
  unfold fromEnum
  simp only []
  split
  · split
    · exact sameVerdict_refl _
    · exact hnext _
  · exact hnext _
theorem fromType_sameVerdict (h : Host) (r : Rules) (ic : Option Checker)
    (pc : Option (List (String × Checker))) (path : String) (opts : Options)
    (hitems : ∀ out, sameVerdict
      (fromItems h r ic pc out { path := path, options := { opts with failFast := true } })
      (fromItems h r ic pc out { path := path, options := { opts with failFast := false } }))
    (out : Val) :
    sameVerdict
      (fromType h r ic pc out { path := path, options := { opts with failFast := true } })
      (fromType h r ic pc out { path := path, options := { opts with failFast := false } }) := by
  have hnext := fromEnum_sameVerdict h r ic pc path opts hitems
  unfold fromType
  simp only []
  split
  · split
    · exact sameVerdict_refl _
    · exact sameVerdict_refl _
  · exact hnext _
theorem fromCoerce_sameVerdict (h : Host) (r : Rules) (ic : Option Checker)
    (pc : Option (List (String × Checker))) (path : String) (opts : Options)
    (hitems : ∀ out, sameVerdict
      (fromItems h r ic pc out { path := path, options := { opts with failFast := true } })
      (fromItems h r ic pc out { path := path, options := { opts with failFast := false } }))
    (out : Val) :
    sameVerdict
      (fromCoerce h r ic pc out { path := path, options := { opts with failFast := true } })
      (fromCoerce h r ic pc out { path := path, options := { opts with failFast := false } }) := by
  have hnext := fromType_sameVerdict h r ic pc path opts hitems
  unfold fromCoerce
  simp only []
  split
  · split
    · exact hnext _
    · split
      · exact sameVerdict_refl _
      · exact hnext _
  · exact hnext _
theorem fromValidatorOnly_sameVerdict (h : Host) (r : Rules) (ic : Option Checker)
    (pc : Option (List (String × Checker))) (path : String) (opts : Options)
    (hitems : ∀ out, sameVerdict
      (fromItems h r ic pc out { path := path, options := { opts with failFast := true } })
      (fromItems h r ic pc out { path := path, options := { opts with failFast := false } }))
    (out : Val) :
    sameVerdict
      (fromValidatorOnly h r ic pc out { path := path, options := { opts with failFast := true } })
      (fromValidatorOnly h r ic pc out { path := path, options := { opts with failFast := false } }) := by
  have hnext := fromCoerce_sameVerdict h r ic pc path opts hitems
  unfold fromValidatorOnly
  simp only []
  split
  · split
    · exact sameVerdict_refl _
    · exact hnext _
  · exact hnext _
theorem fromNull_sameVerdict (h : Host) (r : Rules) (ic : Option Checker)
    (pc : Option (List (String × Checker))) (path : String) (opts : Options)
    (hitems : ∀ out, sameVerdict
      (fromItems h r ic pc out { path := path, options := { opts with failFast := true } })
      (fromItems h r ic pc out { path := path, options := { opts with failFast := false } }))
    (out : Val) :
    sameVerdict
      (fromNull h r ic pc out { path := path, options := { opts with failFast := true } })
      (fromNull h r ic pc out { path := path, options := { opts with failFast := false } }) := by
  have hnext := fromValidatorOnly_sameVerdict h r ic pc path opts hitems
  unfold fromNull
  simp only []
  split
  · split
    · exact sameVerdict_refl _
    · exact sameVerdict_refl _
  · exact hnext _
theorem checker_stable (h : Host) (r : Rules) (ic : Option Checker)
    (pc : Option (List (String × Checker)))
    (hic : ∀ c, ic = some c → FailFastStable c)
    (hpc : ∀ props, pc = some props → ∀ p ∈ props, FailFastStable p.2) :
    FailFastStable (checker h r ic pc) := by
  intro v path opts
  have hnext := fromNull_sameVerdict h r ic pc path opts
    (fun out => fromItems_sameVerdict h r ic pc hic hpc path opts out)
  unfold checker
  simp only []
  split
  · split
    · split
      · split
        · exact hnext _
        · exact sameVerdict_refl _
      · exact hnext _
    · split
      · exact sameVerdict_refl _
      · exact sameVerdict_refl _
  · exact hnext _

mutual
theorem makeChecker_stable (h : Host) :
    ∀ (e : Val) (c : Checker), makeChecker h e = .ok c → FailFastStable c
  | .undefined, c, hx => by
    simp [makeChecker] at hx
  | .null, c, hx => by
    simp [makeChecker] at hx
  | .obj cls kvs, c, hx => by
    have ihi := makeItems_stable h kvs
    have ihp := makeProperties_stable h kvs
    unfold makeChecker at hx
    cases hi : makeItems h kvs with
    | error e => rw [hi] at hx; cases hx
    | ok ic =>
      rw [hi] at hx
      simp only [] at hx
      cases hp : makeProperties h kvs with
      | error e => rw [hp] at hx; cases hx
      | ok pc =>
        rw [hp] at hx
        simp only [] at hx
        injection hx with hx
        subst hx
        exact checker_stable h _ ic pc (ihi ic hi) (ihp pc hp)
  | .bool b, c, hx => by
    simp only [makeChecker] at hx
    injection hx with hx
    subst hx
    exact checker_stable h _ none none (fun c hc => by cases hc) (fun ps hp => by cases hp)
  | .num n, c, hx => by
    simp only [makeChecker] at hx
    injection hx with hx
    subst hx
    exact checker_stable h _ none none (fun c hc => by cases hc) (fun ps hp => by cases hp)
  | .nan, c, hx => by
    simp only [makeChecker] at hx
    injection hx with hx
    subst hx
    exact checker_stable h _ none none (fun c hc => by cases hc) (fun ps hp => by cases hp)
  | .str t, c, hx => by
    simp only [makeChecker] at hx
    injection hx with hx
    subst hx
    exact checker_stable h _ none none (fun c hc => by cases hc) (fun ps hp => by cases hp)
  | .bigint n, c, hx => by
    simp only [makeChecker] at hx
    injection hx with hx
    subst hx
    exact checker_stable h _ none none (fun c hc => by cases hc) (fun ps hp => by cases hp)
  | .symbol t, c, hx => by
    simp only [makeChecker] at hx
    injection hx with hx
    subst hx
    exact checker_stable h _ none none (fun c hc => by cases hc) (fun ps hp => by cases hp)
  | .fn f, c, hx => by
    simp only [makeChecker] at hx
    injection hx with hx
    subst hx
    exact checker_stable h _ none none (fun c hc => by cases hc) (fun ps hp => by cases hp)
  | .arr xs, c, hx => by
    simp only [makeChecker] at hx
    injection hx with hx
    subst hx
    exact checker_stable h _ none none (fun c hc => by cases hc) (fun ps hp => by cases hp)
theorem makeItems_stable (h : Host) :
    ∀ (kvs : List (String × Val)) (ic : Option Checker), makeItems h kvs = .ok ic →
      ∀ c, ic = some c → FailFastStable c
  | [], ic, hx => by
    simp only [makeItems] at hx
    injection hx with hx
    subst hx
    intro c hc
    cases hc
  | (key, v) :: rest, ic, hx => by
    have ihv := makeChecker_stable h v
    have ihr := makeItems_stable h rest ic
    unfold makeItems at hx
    split at hx
    · split at hx
      · cases hv : makeChecker h v with
        | error e => rw [hv] at hx; cases hx
        | ok c0 =>
          rw [hv] at hx
          simp only [] at hx
          injection hx with hx
          subst hx
          intro c hc
          injection hc with hc
          subst hc
          exact ihv c0 hv
      · injection hx with hx
        subst hx
        intro c hc
        cases hc
    · exact ihr hx
theorem makeProperties_stable (h : Host) :
    ∀ (kvs : List (String × Val)) (pc : Option (List (String × Checker))),
      makeProperties h kvs = .ok pc →
      ∀ props, pc = some props → ∀ p ∈ props, FailFastStable p.2
  | [], pc, hx => by
    simp only [makeProperties] at hx
    injection hx with hx
    subst hx
    intro props hp
    cases hp
  | (key, .obj cls pkvs) :: rest, pc, hx => by
    have ihv := makePropsOfEntries_stable h pkvs
    have ihr := makeProperties_stable h rest pc
    unfold makeProperties at hx
    split at hx
    · split at hx
      · simp only [] at hx
        cases hv : makePropsOfEntries h pkvs with
        | error e => rw [hv] at hx; cases hx
        | ok ps =>
          rw [hv] at hx
          simp only [] at hx
          injection hx with hx
          subst hx
          intro props hp
          injection hp with hp
          subst hp
          exact ihv ps hv
      · injection hx with hx
        subst hx
        intro props hp
        cases hp
    · exact ihr hx
  | (key, .arr xs) :: rest, pc, hx => by
    have ihv := makePropsOfArray_stable h xs
    have ihr := makeProperties_stable h rest pc
    unfold makeProperties at hx
    split at hx
    · split at hx
      · simp only [] at hx
        cases hv : makePropsOfArray h xs 0 with
        | error e => rw [hv] at hx; cases hx
        | ok ps =>
          rw [hv] at hx
          simp only [] at hx
          injection hx with hx
          subst hx
          intro props hp
          injection hp with hp
          subst hp
          exact ihv 0 ps hv
      · injection hx with hx
        subst hx
        intro props hp
        cases hp
    · exact ihr hx
  | (key, .undefined) :: rest, pc, hx => by
    have ihr := makeProperties_stable h rest pc
    unfold makeProperties at hx
    split at hx
    · split at hx
      · simp only [] at hx
        injection hx with hx
        subst hx
        intro props hp p hmem
        injection hp with hp
        subst hp
        obtain ⟨pk, _, rfl⟩ := List.mem_map.mp hmem
        exact checker_stable h _ none none (fun c hc => by cases hc) (fun ps hp => by cases hp)
      · injection hx with hx
        subst hx
        intro props hp
        cases hp
    · exact ihr hx
  | (key, .null) :: rest, pc, hx => by
    have ihr := makeProperties_stable h rest pc
    unfold makeProperties at hx
    split at hx
    · split at hx
      · simp only [] at hx
        injection hx with hx
        subst hx
        intro props hp p hmem
        injection hp with hp
        subst hp
        obtain ⟨pk, _, rfl⟩ := List.mem_map.mp hmem
        exact checker_stable h _ none none (fun c hc => by cases hc) (fun ps hp => by cases hp)
      · injection hx with hx
        subst hx
        intro props hp
        cases hp
    · exact ihr hx
  | (key, .bool b) :: rest, pc, hx => by
    have ihr := makeProperties_stable h rest pc
    unfold makeProperties at hx
    split at hx
    · split at hx
      · simp only [] at hx
        injection hx with hx
        subst hx
        intro props hp p hmem
        injection hp with hp
        subst hp
        obtain ⟨pk, _, rfl⟩ := List.mem_map.mp hmem
        exact checker_stable h _ none none (fun c hc => by cases hc) (fun ps hp => by cases hp)
      · injection hx with hx
        subst hx
        intro props hp
        cases hp
    · exact ihr hx
  | (key, .num n) :: rest, pc, hx => by
    have ihr := makeProperties_stable h rest pc
    unfold makeProperties at hx
    split at hx
    · split at hx
      · simp only [] at hx
        injection hx with hx
        subst hx
        intro props hp p hmem
        injection hp with hp
        subst hp
        obtain ⟨pk, _, rfl⟩ := List.mem_map.mp hmem
        exact checker_stable h _ none none (fun c hc => by cases hc) (fun ps hp => by cases hp)
      · injection hx with hx
        subst hx
        intro props hp
        cases hp
    · exact ihr hx
  | (key, .nan) :: rest, pc, hx => by
    have ihr := makeProperties_stable h rest pc
    unfold makeProperties at hx
    split at hx
    · split at hx
      · simp only [] at hx
        injection hx with hx
        subst hx
        intro props hp p hmem
        injection hp with hp
        subst hp
        obtain ⟨pk, _, rfl⟩ := List.mem_map.mp hmem
        exact checker_stable h _ none none (fun c hc => by cases hc) (fun ps hp => by cases hp)
      · injection hx with hx
        subst hx
        intro props hp
        cases hp
    · exact ihr hx
  | (key, .str t) :: rest, pc, hx => by
    have ihr := makeProperties_stable h rest pc
    unfold makeProperties at hx
    split at hx
    · split at hx
      · simp only [] at hx
        injection hx with hx
        subst hx
        intro props hp p hmem
        injection hp with hp
        subst hp
        obtain ⟨pk, _, rfl⟩ := List.mem_map.mp hmem
        exact checker_stable h _ none none (fun c hc => by cases hc) (fun ps hp => by cases hp)
      · injection hx with hx
        subst hx
        intro props hp
        cases hp
    · exact ihr hx
  | (key, .bigint n) :: rest, pc, hx => by
    have ihr := makeProperties_stable h rest pc
    unfold makeProperties at hx
    split at hx
    · split at hx
      · simp only [] at hx
        injection hx with hx
        subst hx
        intro props hp p hmem
        injection hp with hp
        subst hp
        obtain ⟨pk, _, rfl⟩ := List.mem_map.mp hmem
        exact checker_stable h _ none none (fun c hc => by cases hc) (fun ps hp => by cases hp)
      · injection hx with hx
        subst hx
        intro props hp
        cases hp
    · exact ihr hx
  | (key, .symbol t) :: rest, pc, hx => by
    have ihr := makeProperties_stable h rest pc
    unfold makeProperties at hx
    split at hx
    · split at hx
      · simp only [] at hx
        injection hx with hx
        subst hx
        intro props hp p hmem
        injection hp with hp
        subst hp
        obtain ⟨pk, _, rfl⟩ := List.mem_map.mp hmem
        exact checker_stable h _ none none (fun c hc => by cases hc) (fun ps hp => by cases hp)
      · injection hx with hx
        subst hx
        intro props hp
        cases hp
    · exact ihr hx
  | (key, .fn f) :: rest, pc, hx => by
    have ihr := makeProperties_stable h rest pc
    unfold makeProperties at hx
    split at hx
    · split at hx
      · simp only [] at hx
        injection hx with hx
        subst hx
        intro props hp p hmem
        injection hp with hp
        subst hp
        obtain ⟨pk, _, rfl⟩ := List.mem_map.mp hmem
        exact checker_stable h _ none none (fun c hc => by cases hc) (fun ps hp => by cases hp)
      · injection hx with hx
        subst hx
        intro props hp
        cases hp
    · exact ihr hx
theorem makePropsOfEntries_stable (h : Host) :
    ∀ (kvs : List (String × Val)) (ps : List (String × Checker)),
      makePropsOfEntries h kvs = .ok ps → ∀ p ∈ ps, FailFastStable p.2
  | [], ps, hx => by
    simp only [makePropsOfEntries] at hx
    injection hx with hx
    subst hx
    intro p hp
    cases hp
  | (pk, v) :: rest, ps, hx => by
    have ihv := makeChecker_stable h v
    have ihr := makePropsOfEntries_stable h rest
    unfold makePropsOfEntries at hx
    cases hv : makeChecker h v with
    | error e => rw [hv] at hx; cases hx
    | ok c0 =>
      rw [hv] at hx
      simp only [] at hx
      cases hr : makePropsOfEntries h rest with
      | error e => rw [hr] at hx; cases hx
      | ok cs =>
        rw [hr] at hx
        simp only [] at hx
        injection hx with hx
        subst hx
        intro p hp
        rcases List.mem_cons.mp hp with rfl | hp2
        · exact ihv c0 hv
        · exact ihr cs hr p hp2
theorem makePropsOfArray_stable (h : Host) :
    ∀ (xs : List Val) (i : Nat) (ps : List (String × Checker)),
      makePropsOfArray h xs i = .ok ps → ∀ p ∈ ps, FailFastStable p.2
  | [], i, ps, hx => by
    simp only [makePropsOfArray] at hx
    injection hx with hx
    subst hx
    intro p hp
    cases hp
  | v :: rest, i, ps, hx => by
    have ihv := makeChecker_stable h v
    have ihr := makePropsOfArray_stable h rest (i + 1)
    unfold makePropsOfArray at hx
    cases hv : makeChecker h v with
    | error e => rw [hv] at hx; cases hx
    | ok c0 =>
      rw [hv] at hx
      simp only [] at hx
      cases hr : makePropsOfArray h rest (i + 1) with
      | error e => rw [hr] at hx; cases hx
      | ok cs =>
        rw [hr] at hx
        simp only [] at hx
        injection hx with hx
        subst hx
        intro p hp
        rcases List.mem_cons.mp hp with rfl | hp2
        · exact ihv c0 hv
        · exact ihr cs hr p hp2
end

theorem failingChecker_stable (reason code : String) (raw : Val) :
    FailFastStable (failingChecker reason code raw) := by
  intro v path opts
  right
  constructor <;> (intro o ho; simp [failingChecker] at ho)

theorem resolveRefChecker_stable (h : Host) (s : Schema) (name : Val) :
    FailFastStable (_resolveRefChecker h s name) := by
  have href : ∀ kind raw, FailFastStable (refCheckerOf h s name kind raw) := by
    intro kind raw
    unfold refCheckerOf
    split
    · split
      · rename_i chk hmk
        exact makeChecker_stable h _ chk hmk
      · exact failingChecker_stable _ _ _
    · exact failingChecker_stable _ _ _
  unfold _resolveRefChecker
  split
  · exact href _ _
  · split
    · exact href _ _
    · split
      · exact href _ _
      · exact failingChecker_stable _ _ _

theorem runField_sameVerdict (h : Host) (s : Schema) (obj : List (String × Val))
    (opts : Options) (ov : List (String × Val)) (f : Field)
    (hf : ∀ c, f.checker = .compiled c → FailFastStable c) :
    sameVerdict (runField h s obj { opts with failFast := true } ov f)
      (runField h s obj { opts with failFast := false } ov f) := by
  unfold runField
  cases hsel : selectChecker h s ov f with
  | error e => exact sameVerdict_refl _
  | ok ck =>
    have hck : FailFastStable ck := by
      unfold selectChecker at hsel
      split at hsel
      · exact makeChecker_stable h _ ck hsel
      · split at hsel
        · rename_i c hc
          injection hsel with hsel
          subst hsel
          exact hf _ hc
        · injection hsel with hsel
          subst hsel
          exact resolveRefChecker_stable h s _
    exact hck (lookupKey f.key obj) (fieldPath opts f.key) opts

theorem failFastExit_notValid (opts : Options) (E : List Err) (R : List (String × Val)) :
    notValid (failFastExit opts E R) := by
  intro es val hx
  have := (failFastExit_invalid opts E R true es val hx).1
  cases this

theorem fieldLoop_dirty (h : Host) (s : Schema) (obj : List (String × Val)) (opts : Options)
    (ov : List (String × Val)) (fs : List Field) :
    ∀ (E : List Err) (R : List (String × Val)), E ≠ [] →
      flowDirty (fieldLoop h s obj opts ov fs E R) := by
  induction fs with
  | nil =>
    intro E R hne
    exact hne
  | cons f rest ih =>
    intro E R hne
    unfold fieldLoop
    cases runField h s obj opts ov f with
    | error e =>
      intro es val hx
      cases hx
    | ok p =>
      obtain ⟨entryErrors, coerced⟩ := p
      simp only []
      split
      · exact failFastExit_notValid _ _ _
      · apply ih
        split
        · simp [hne]
        · exact hne

theorem strictTopLoop_dirty (s : Schema) (opts : Options) (ks : List String) :
    ∀ (E : List Err) (R : List (String × Val)), E ≠ [] →
      flowDirty (strictTopLoop s opts ks E R) := by
  induction ks with
  | nil =>
    intro E R hne
    exact hne
  | cons k rest ih =>
    intro E R hne
    unfold strictTopLoop
    split
    · exact ih _ _ hne
    · split
      · exact ih _ _ hne
      · split
        · exact failFastExit_notValid _ _ _
        · exact ih _ _ (by simp)

theorem unknownKeys_dirty (s : Schema) (opts : Options) (obj : List (String × Val))
    (E : List Err) (R : List (String × Val)) (hne : E ≠ []) :
    flowDirty (unknownKeys s opts obj E R) := by
  unfold unknownKeys
  split
  · exact strictTopLoop_dirty s opts _ E R hne
  · exact hne

theorem finish_dirty (opts : Options) (E : List Err) (R : List (String × Val)) (hne : E ≠ []) :
    notValid (finish opts E R) := by
  intro es val hx
  obtain ⟨h1, h2⟩ := finish_result opts E R true es val hx
  have h3 : E.length = 0 := by simpa using h2.symm
  exact hne (List.length_eq_zero.mp h3)

theorem fieldLoop_sameVerdict (h : Host) (s : Schema) (obj : List (String × Val))
    (opts : Options) (ov : List (String × Val)) (fs : List Field)
    (hfs : ∀ f ∈ fs, ∀ c, f.checker = .compiled c → FailFastStable c) :
    ∀ (R : List (String × Val)),
      flowsSameVerdict (fieldLoop h s obj { opts with failFast := true } ov fs [] R)
        (fieldLoop h s obj { opts with failFast := false } ov fs [] R) := by
  induction fs with
  | nil =>
    intro R
    exact Or.inl ⟨R, rfl, rfl⟩
  | cons f rest ih =>
    intro R
    have ih2 := ih (fun g hg => hfs g (List.mem_cons_of_mem _ hg))
    unfold fieldLoop
    rcases runField_sameVerdict h s obj opts ov f (hfs f (List.mem_cons_self _ _))
      with ⟨cv, hT, hF⟩ | ⟨hT, hF⟩
    · rw [hT, hF]
      simp only [List.length_nil, ne_eq, not_true_eq_false, false_and, if_false]
      exact ih2 _
    · right
      constructor
      · cases hcT : runField h s obj { opts with failFast := true } ov f with
        | error e =>
          intro es val hx
          cases hx
        | ok p =>
          obtain ⟨entryErrors, coerced⟩ := p
          have hne : entryErrors ≠ [] := by
            intro hc
            subst hc
            exact hT coerced hcT
          have hlen : entryErrors.length ≠ 0 := by
            intro hc
            exact hne (List.length_eq_zero.mp hc)
          simp only [hlen, ne_eq, not_false_eq_true, true_and, if_true]
          exact failFastExit_notValid _ _ _
      · cases hcF : runField h s obj { opts with failFast := false } ov f with
        | error e =>
          intro es val hx
          cases hx
        | ok p =>
          obtain ⟨entryErrors, coerced⟩ := p
          have hne : entryErrors ≠ [] := by
            intro hc
            subst hc
            exact hF coerced hcF
          have hlen : entryErrors.length ≠ 0 := by
            intro hc
            exact hne (List.length_eq_zero.mp hc)
          simp only [hlen, ne_eq, not_false_eq_true, true_and, Bool.false_eq_true, if_false,
            if_true, List.nil_append]
          exact fieldLoop_dirty h s obj _ ov rest _ _ hne

theorem strictTopLoop_sameVerdict (s : Schema) (opts : Options) (ks : List String) :
    ∀ (R : List (String × Val)),
      flowsSameVerdict (strictTopLoop s { opts with failFast := true } ks [] R)
        (strictTopLoop s { opts with failFast := false } ks [] R) := by
  induction ks with
  | nil =>
    intro R
    exact Or.inl ⟨R, rfl, rfl⟩
  | cons k rest ih =>
    intro R
    unfold strictTopLoop
    simp only []
    split
    · exact ih _
    · split
      · exact ih _
      · right
        constructor
        · simp only [if_true]
          exact failFastExit_notValid _ _ _
        · simp only [Bool.false_eq_true, if_false]
          exact strictTopLoop_dirty s _ rest _ _ (by simp)

theorem lenientTopLoop_failFast (s : Schema) (opts : Options) (b : Bool)
    (obj : List (String × Val)) (ks : List String) :
    ∀ R : List (String × Val),
      lenientTopLoop s { opts with failFast := b } obj ks R = lenientTopLoop s opts obj ks R := by
  induction ks with
  | nil => intro R; rfl
  | cons k rest ih =>
    intro R
    unfold lenientTopLoop
    simp only [ih]

theorem unknownKeys_sameVerdict (s : Schema) (opts : Options) (obj : List (String × Val))
    (R : List (String × Val)) :
    flowsSameVerdict (unknownKeys s { opts with failFast := true } obj [] R)
      (unknownKeys s { opts with failFast := false } obj [] R) := by
  unfold unknownKeys
  simp only []
  split
  · exact strictTopLoop_sameVerdict s opts _ R
  · rw [lenientTopLoop_failFast s opts true, lenientTopLoop_failFast s opts false]
    exact Or.inl ⟨_, rfl, rfl⟩

theorem validate_with (h : Host) (s : Schema) (obj : List (String × Val)) (opts : Options) :
    validate h s obj opts.asPatch
      = match fieldLoop h s obj opts (_evaluateConditionals h s (.obj .plain obj)) s.fields
          [] [] with
        | .stop r => r
        | .go errors result =>
          match unknownKeys s opts obj errors result with
          | .stop r => r
          | .go errors2 result2 => finish opts errors2 result2 := by
  unfold validate
  rw [assignOptions_asPatch]

theorem validate_tail_dirty (s : Schema) (opts : Options) (obj : List (String × Val))
    (fl : Flow) :
    flowDirty fl → notValid (match fl with
      | .stop r => r
      | .go errors result =>
        match unknownKeys s opts obj errors result with
        | .stop r => r
        | .go errors2 result2 => finish opts errors2 result2) := by
  intro hd
  cases fl with
  | stop r => exact hd
  | go E R =>
    have hu := unknownKeys_dirty s opts obj E R hd
    simp only []
    revert hu
    cases unknownKeys s opts obj E R with
    | stop r => exact fun hu => hu
    | go E2 R2 => exact fun hu => finish_dirty opts E2 R2 hu

/-- Without `valueOnly`, a run of `validate` under forced fail-fast returns a
valid result record exactly when the run without fail-fast does, and then
both return the same record. -/
theorem validate_failFast_verdict (h : Host) (s : Schema) (obj : List (String × Val))
    (opts : Options)
    (hfs : ∀ f ∈ s.fields, ∀ c, f.checker = .compiled c → FailFastStable c)
    (es : List Err) (val : Val) :
    validate h s obj ({ opts with failFast := true }).asPatch = .ok (.result true es val)
      ↔ validate h s obj ({ opts with failFast := false }).asPatch
          = .ok (.result true es val) := by
  rw [validate_with, validate_with]
  rcases fieldLoop_sameVerdict h s obj opts (_evaluateConditionals h s (.obj .plain obj))
    s.fields hfs [] with ⟨R, hT, hF⟩ | ⟨hT, hF⟩
  · rw [hT, hF]
    simp only []
    rcases unknownKeys_sameVerdict s opts obj R with ⟨R2, hT2, hF2⟩ | ⟨hT2, hF2⟩
    · rw [hT2, hF2]
      simp only [finish]
    · have h1 : notValid (match unknownKeys s { opts with failFast := true } obj [] R with
          | .stop r => r
          | .go errors2 result2 => finish { opts with failFast := true } errors2 result2) := by
        revert hT2
        cases unknownKeys s { opts with failFast := true } obj [] R with
        | stop r => exact fun hu => hu
        | go E2 R2 => exact fun hu => finish_dirty _ E2 R2 hu
      have h2 : notValid (match unknownKeys s { opts with failFast := false } obj [] R with
          | .stop r => r
          | .go errors2 result2 => finish { opts with failFast := false } errors2 result2) := by
        revert hF2
        cases unknownKeys s { opts with failFast := false } obj [] R with
        | stop r => exact fun hu => hu
        | go E2 R2 => exact fun hu => finish_dirty _ E2 R2 hu
      exact ⟨fun hx => absurd hx (h1 es val), fun hx => absurd hx (h2 es val)⟩
  · have h1 := validate_tail_dirty s { opts with failFast := true } obj _ hT
    have h2 := validate_tail_dirty s { opts with failFast := false } obj _ hF
    exact ⟨fun hx => absurd hx (h1 es val), fun hx => absurd hx (h2 es val)⟩

theorem failFastExit_shape (opts : Options) (E : List Err) (R : List (String × Val))
    (hvo : opts.valueOnly = false) (v : Val) : failFastExit opts E R ≠ .ok (.valueOnly v) := by
  simp [failFastExit, hvo]

theorem fieldLoop_shape (h : Host) (s : Schema) (obj : List (String × Val)) (opts : Options)
    (ov : List (String × Val)) (hvo : opts.valueOnly = false) (fs : List Field) :
    ∀ (E : List Err) (R : List (String × Val)) (v : Val),
      fieldLoop h s obj opts ov fs E R ≠ .stop (.ok (.valueOnly v)) := by
  induction fs with
  | nil =>
    intro E R v hx
    cases hx
  | cons f rest ih =>
    intro E R v hx
    unfold fieldLoop at hx
    split at hx
    · cases hx
    · split at hx
      · injection hx with hx
        exact failFastExit_shape opts _ _ hvo v hx
      · exact ih _ _ v hx

theorem strictTopLoop_shape (s : Schema) (opts : Options) (hvo : opts.valueOnly = false)
    (ks : List String) :
    ∀ (E : List Err) (R : List (String × Val)) (v : Val),
      strictTopLoop s opts ks E R ≠ .stop (.ok (.valueOnly v)) := by
  induction ks with
  | nil =>
    intro E R v hx
    cases hx
  | cons k rest ih =>
    intro E R v hx
    unfold strictTopLoop at hx
    split at hx
    · exact ih _ _ v hx
    · split at hx
      · exact ih _ _ v hx
      · split at hx
        · injection hx with hx
          exact failFastExit_shape opts _ _ hvo v hx
        · exact ih _ _ v hx

theorem validate_shape (h : Host) (s : Schema) (obj : List (String × Val)) (opts : Options)
    (hvo : opts.valueOnly = false) (out : ValidateOut)
    (hx : validate h s obj opts.asPatch = .ok out) : ∃ v es val, out = .result v es val := by
  cases out with
  | result v es val => exact ⟨v, es, val, rfl⟩
  | valueOnly w =>
    exfalso
    rw [validate_with] at hx
    split at hx
    · rename_i r hfl
      subst hx
      exact fieldLoop_shape h s obj opts _ hvo _ _ _ w hfl
    · split at hx
      · rename_i r hu
        subst hx
        unfold unknownKeys at hu
        split at hu
        · exact strictTopLoop_shape s opts hvo _ _ _ w hu
        · cases hu
      · simp [finish, hvo] at hx

/-- Without `valueOnly`, `check` returns `true` exactly when the validation of
the same input under the same options with fail-fast off returns a result
record that is valid (one with no error): forcing fail-fast does not change
the verdict.  The declared fields are assumed to carry checkers whose
verdict does not depend on fail-fast, which holds for every checker the
constructor compiles. -/
theorem check_iff_full_validation (h : Host) (s : Schema) (obj : List (String × Val))
    (callOptions : OptionsPatch)
    (hvo : (assignOptions s.options callOptions).valueOnly = false)
    (hfs : ∀ f ∈ s.fields, ∀ c, f.checker = .compiled c → FailFastStable c) :
    Schema.check h s obj callOptions = .ok true
      ↔ ∃ val, validate h s obj
          ({ assignOptions s.options callOptions with failFast := false }).asPatch
            = .ok (.result true [] val) := by
  unfold Schema.check
  constructor
  · intro hx
    cases hv : validate h s obj
        ({ assignOptions s.options callOptions with failFast := true }).asPatch with
    | error e =>
      rw [hv] at hx
      simp only [] at hx
      split at hx
      · cases hx
      · cases hx
    | ok out =>
      rw [hv] at hx
      obtain ⟨v, es, val, rfl⟩ := validate_shape h s obj
        { assignOptions s.options callOptions with failFast := true } hvo out hv
      have hv2 : v = true := by
        simpa [ValidateOut.toVal, truthy, getProp, lookupKey] using hx
      subst hv2
      have hF := (validate_failFast_verdict h s obj (assignOptions s.options callOptions) hfs
        es val).mp hv
      have hes := validate_valid_iff h s obj _ true es val hF
      have hes2 : es = [] := by
        have := hes.symm
        simp at this
        exact this
      subst hes2
      exact ⟨val, hF⟩
  · rintro ⟨val, hF⟩
    have hT := (validate_failFast_verdict h s obj (assignOptions s.options callOptions) hfs
      [] val).mpr hF
    rw [hT]
    simp [ValidateOut.toVal, truthy, getProp, lookupKey]

/-- Every checker the constructor compiles for a declared field gives the same
verdict with and without fail-fast. -/
theorem create_fields_stable (h : Host) (schemaDef : List (String × Val))
    (options : OptionsPatch) (s : Schema) (hc : Schema.create h schemaDef options = .ok s) :
    ∀ f ∈ s.fields, ∀ c, f.checker = .compiled c → FailFastStable c := by
  intro f hf c hfc
  rcases create_fields_compiled h schemaDef options s hc f hf with ⟨c2, h1, h2⟩ | ⟨name, h1, _⟩
  · rw [hfc] at h1
    injection h1 with h1
    subst h1
    exact makeChecker_stable h _ c h2
  · rw [hfc] at h1
    cases h1

/-- C25 (the code's behaviour): under `valueOnly: true`, `check` returns `false`
for an input whose full validation finds no error; without `valueOnly` it
returns `true` for that input and `false` for an invalid one. -/
theorem check_valueOnly_false :
    withSchema exampleHost [("a", .str "string")] {} (fun s =>
        Schema.check exampleHost s [("a", .str "x")] { valueOnly := some true })
      = .ok false
    ∧ withSchema exampleHost [("a", .str "string")] {} (fun s =>
        validate exampleHost s [("a", .str "x")] { failFast := some false })
      = .ok (.result true [] (.obj .plain [("a", .str "x")]))
    ∧ withSchema exampleHost [("a", .str "string")] {} (fun s =>
        Schema.check exampleHost s [("a", .str "x")] {})
      = .ok true
    ∧ withSchema exampleHost [("a", .str "string")] {} (fun s =>
        Schema.check exampleHost s [("a", .num 1)] {})
      = .ok false := by
  refine ⟨?_, ?_, ?_, ?_⟩ <;> decide

end GentleSchema

namespace GentleSchema

theorem typesFieldLoop_eq (h : Host) (s : Schema) (obj : List (String × Val)) (opts : Options)
    (ov : List (String × Val)) (hff : opts.failFast = false) (fs : List Field) :
    ∀ (E : List Err) (R : List (String × Val)),
      typesFieldLoop h s obj opts ov fs E R = fieldLoop h s obj opts ov fs E R := by
  induction fs with
  | nil => intro E R; rfl
  | cons f rest ih =>
    intro E R
    unfold typesFieldLoop fieldLoop
    cases runField h s obj opts ov f with
    | error e => rfl
    | ok p =>
      obtain ⟨entryErrs, coerced⟩ := p
      have hc : ¬ (entryErrs.length ≠ 0 ∧ opts.failFast = true) := by simp [hff]
      simp only []
      rw [if_neg hc, if_neg hc]
      exact ih _ _

theorem typesStrictLoop_eq (s : Schema) (opts : Options) (hff : opts.failFast = false)
    (ks : List String) :
    ∀ (E : List Err) (R : List (String × Val)),
      typesStrictLoop s opts ks E R = strictTopLoop s opts ks E R := by
  induction ks with
  | nil => intro E R; rfl
  | cons k rest ih =>
    intro E R
    unfold typesStrictLoop strictTopLoop
    simp only [hff, ih]
    simp

/-- Outside fail-fast mode, and with `valueOnly` and `removeEmpty` off,
`assertTypes` returns exactly what `validate` returns: it runs the same
checkers, custom validators included. -/
theorem assertTypes_eq_validate (h : Host) (s : Schema) (obj : List (String × Val))
    (callOptions : OptionsPatch)
    (hff : (assignOptions s.options callOptions).failFast = false)
    (hvo : (assignOptions s.options callOptions).valueOnly = false)
    (hre : (assignOptions s.options callOptions).removeEmpty = false) :
    Schema.assertTypes h s obj callOptions = validate h s obj callOptions := by
  unfold Schema.assertTypes validate
  rw [typesFieldLoop_eq h s obj _ _ hff]
  cases fieldLoop h s obj (assignOptions s.options callOptions)
      (_evaluateConditionals h s (.obj .plain obj)) s.fields [] [] with
  | stop r => rfl
  | go errors result =>
    simp only [unknownKeys]
    by_cases hs : (assignOptions s.options callOptions).strict = true
    · rw [if_pos hs, if_pos hs, typesStrictLoop_eq s _ hff]
      cases strictTopLoop s (assignOptions s.options callOptions) (obj.map (fun kv => kv.1))
          errors result with
      | stop r => rfl
      | go errors2 result2 => simp [finish, hvo, hre]
    · rw [if_neg hs, if_neg hs]
      simp [finish, hvo, hre]

/-- C26 (the code's behaviour): `assertTypes` runs the custom validator.  For the
field `{ type: 'string', validator: v }` with `v` rejecting, `assertTypes` on
`{ s: 'abc' }` reports the input invalid with the `ERR_CUSTOM` entry, the same
result as `validate`. -/
theorem assertTypes_runs_validator :
    withSchema (hostReturning [.bool false]) validatedStringSchema {} (fun s =>
        Schema.assertTypes (hostReturning [.bool false]) s [("s", .str "abc")] {})
      = .ok (.result false [customError "s" "custom validator failed"]
          (.obj .plain [("s", .str "abc")]))
    ∧ withSchema (hostReturning [.bool false]) validatedStringSchema {} (fun s =>
        validate (hostReturning [.bool false]) s [("s", .str "abc")] {})
      = .ok (.result false [customError "s" "custom validator failed"]
          (.obj .plain [("s", .str "abc")])) := by
  constructor <;> decide

end GentleSchema

namespace GentleSchema

theorem batchRecord_result (opts : Options) (st : BatchOut) (v : Bool) (es : List Err)
    (val : Val) (hff : opts.failFast = false) (hv : v = decide (es.length = 0)) :
    batchRecord opts st (ValidateOut.result v es val).toVal
      = .ok ({ results := st.results ++ [(ValidateOut.result v es val).toVal],
               valid := st.valid && v,
               errors := st.errors ++ es.map Err.toVal,
               value := st.value ++ [val] }, false) := by
  cases v with
  | false =>
    simp [batchRecord, ValidateOut.toVal, readProp, getProp, lookupKey, truthy, loopElements, hff]
  | true =>
    have hes : es = [] := by
      have := hv.symm
      simp at this
      exact this
    subst hes
    simp [batchRecord, ValidateOut.toVal, readProp, getProp, lookupKey, truthy]

theorem batchLoop_validate (h : Host) (s : Schema) (callOptions : OptionsPatch)
    (hff : (assignOptions s.options callOptions).failFast = false)
    (items : List (List (String × Val))) (outs : List (Bool × List Err × Val))
    (hres : List.Forall₂ (fun it o => validate h s it callOptions
      = .ok (.result o.1 o.2.1 o.2.2)) items outs) :
    ∀ st : BatchOut,
      batchLoop h s .validate (assignOptions s.options callOptions) items st
        = .ok { results := st.results
                  ++ outs.map (fun o => (ValidateOut.result o.1 o.2.1 o.2.2).toVal)
                valid := st.valid && outs.all (fun o => o.1)
                errors := st.errors ++ outs.flatMap (fun o => o.2.1.map Err.toVal)
                value := st.value ++ outs.map (fun o => o.2.2) } := by
  induction hres with
  | nil =>
    intro st
    simp [batchLoop]
  | @cons it o items2 outs2 hhead _ ih =>
    intro st
    obtain ⟨v, es, val⟩ := o
    simp only [] at hhead
    have hv := validate_valid_iff h s it callOptions v es val hhead
    unfold batchLoop
    simp only [batchItem]
    rw [validate_asPatch, hhead]
    simp only []
    rw [batchRecord_result _ st v es val hff hv]
    simp only []
    rw [ih]
    simp [Bool.and_assoc, List.append_assoc]

/-- C27: let `validate` return a result record for every item (no exception is
raised), with fail-fast off.  Then `batch(items, 'validate')` returns one
entry per item, in item order, each the record `validate` returns for that
item; `aggregated.valid` is true exactly when every item is valid;
`aggregated.errors` is the concatenation in item order of the items' error
lists; and `aggregated.value` is the list of the items' values. -/
theorem batch_validate_aggregates (h : Host) (s : Schema) (callOptions : OptionsPatch)
    (items : List (List (String × Val))) (outs : List (Bool × List Err × Val))
    (hff : (assignOptions s.options callOptions).failFast = false)
    (hres : List.Forall₂ (fun it o => validate h s it callOptions
      = .ok (.result o.1 o.2.1 o.2.2)) items outs) :
    Schema.batch h s items .validate callOptions
      = .ok { results := outs.map (fun o => (ValidateOut.result o.1 o.2.1 o.2.2).toVal)
              valid := outs.all (fun o => o.1)
              errors := outs.flatMap (fun o => o.2.1.map Err.toVal)
              value := outs.map (fun o => o.2.2) }
    ∧ (outs.map (fun o => (ValidateOut.result o.1 o.2.1 o.2.2).toVal)).length = items.length
    ∧ (outs.all (fun o => o.1) = true ↔ ∀ o ∈ outs, o.1 = true)
    ∧ outs.flatMap (fun o => o.2.1.map Err.toVal)
        = (outs.filter (fun o => o.1 = false)).flatMap (fun o => o.2.1.map Err.toVal) := by
  refine ⟨?_, ?_, ?_, ?_⟩
  · unfold Schema.batch
    rw [batchLoop_validate h s callOptions hff items outs hres]
    simp
  · simp [hres.length_eq]
  · simp
  · clear hff
    induction hres with
    | nil => rfl
    | @cons it o items2 outs2 hhead _ ih =>
      obtain ⟨v, es, val⟩ := o
      simp only [] at hhead
      have hv := validate_valid_iff h s it callOptions v es val hhead
      cases v with
      | false =>
        simp only [List.flatMap_cons, List.filter_cons, decide_True, if_true]
        rw [ih]
      | true =>
        have hes : es = [] := by
          have := hv.symm
          simp at this
          exact this
        subst hes
        simp only [List.flatMap_cons, List.map_nil, List.nil_append, List.filter_cons]
        rw [ih]
        simp

/-- Witness for C27: the batch of the repository's test, `{ id: 'a', qty: 1 }` and
`{ id: 'b', qty: 0 }` against `{ id: 'string', qty: { type: 'number', min: 1 } }`. -/
theorem batch_validate_aggregates_witness :
    Schema.batch exampleHost orderSchema
        [[("id", .str "a"), ("qty", .num 1)], [("id", .str "b"), ("qty", .num 0)]] .validate {}
      = .ok { results :=
                [(ValidateOut.result true [] (.obj .plain [("id", .str "a"), ("qty", .num 1)])).toVal,
                 (ValidateOut.result false
                    [{ path := "qty", message := "Invalid qty field. must be >= 1",
                       code := "ERR_MIN", rawError := .null }]
                    (.obj .plain [("id", .str "b"), ("qty", .num 0)])).toVal]
              valid := false
              errors := [Err.toVal { path := "qty", message := "Invalid qty field. must be >= 1",
                                     code := "ERR_MIN", rawError := .null }]
              value := [.obj .plain [("id", .str "a"), ("qty", .num 1)],
                        .obj .plain [("id", .str "b"), ("qty", .num 0)]] } :=
  (batch_validate_aggregates exampleHost orderSchema {}
    [[("id", .str "a"), ("qty", .num 1)], [("id", .str "b"), ("qty", .num 0)]]
    [(true, [], .obj .plain [("id", .str "a"), ("qty", .num 1)]),
     (false, [{ path := "qty", message := "Invalid qty field. must be >= 1", code := "ERR_MIN",
                rawError := .null }], .obj .plain [("id", .str "b"), ("qty", .num 0)])]
    rfl
    (List.Forall₂.cons (by decide) (List.Forall₂.cons (by decide) List.Forall₂.nil))).1

/-- The constructor builds for `{ id: 'string', qty: { type: 'number', min: 1 } }` the
instance used in the witness of C27. -/
theorem create_order_schema :
    Schema.create exampleHost
        [("id", .str "string"), ("qty", .obj .plain [("type", .str "number"), ("min", .num 1)])] {}
      = .ok orderSchema := rfl

end GentleSchema

namespace GentleSchema

mutual
theorem clean_hasNoEmpty : ∀ v : Val, clean v = .undefined ∨ hasNoEmpty (clean v) = true
  | .str t => by
    unfold clean
    by_cases ht : t = ""
    · simp [ht]
    · simp [ht, hasNoEmpty]
  | .null => by simp [clean]
  | .arr xs => by
    have ih := cleanList_allNoEmpty xs
    unfold clean
    by_cases h0 : xs.length = 0
    · simp [h0]
    · rw [if_neg h0]
      by_cases h1 : (cleanList xs).length ≠ 0
      · rw [if_pos h1]
        right
        unfold hasNoEmpty
        simp [h1, ih]
      · simp [h1]
  | .obj c kvs => by
    have ih := cleanEntries_entriesNoEmpty kvs
    unfold clean
    by_cases h0 : kvs.length = 0
    · simp [h0]
    · rw [if_neg h0]
      by_cases h1 : (cleanEntries kvs).length ≠ 0
      · rw [if_pos h1]
        right
        unfold hasNoEmpty
        simp [h1, ih]
      · simp [h1]
  | .undefined => by simp [clean]
  | .bool b => by simp [clean, hasNoEmpty]
  | .num n => by simp [clean, hasNoEmpty]
  | .nan => by simp [clean, hasNoEmpty]
  | .bigint n => by simp [clean, hasNoEmpty]
  | .symbol s => by simp [clean, hasNoEmpty]
  | .fn f => by simp [clean, hasNoEmpty]
theorem cleanList_allNoEmpty : ∀ xs : List Val, allNoEmpty (cleanList xs) = true
  | [] => by simp [cleanList, allNoEmpty]
  | x :: xs => by
    have ihx := clean_hasNoEmpty x
    have ih := cleanList_allNoEmpty xs
    unfold cleanList
    split
    · rename_i hx
      rcases ihx with hu | hn
      · rw [hu] at hx
        exact absurd rfl hx
      · simp [allNoEmpty, hn, ih]
    · exact ih
theorem cleanEntries_entriesNoEmpty :
    ∀ kvs : List (String × Val), entriesNoEmpty (cleanEntries kvs) = true
  | [] => by simp [cleanEntries, entriesNoEmpty]
  | (k, v) :: rest => by
    have ihx := clean_hasNoEmpty v
    have ih := cleanEntries_entriesNoEmpty rest
    unfold cleanEntries
    split
    · rename_i hx
      rcases ihx with hu | hn
      · rw [hu] at hx
        exact absurd rfl hx
      · simp [entriesNoEmpty, hn, ih]
    · exact ih
end

/-- With `removeEmpty`, the value of a result record that `validate` returns
without fail-fast holds no empty string, `null`, empty array or empty object
below the top level. -/
theorem removeEmpty_prunes (h : Host) (s : Schema) (obj : List (String × Val))
    (callOptions : OptionsPatch) (v : Bool) (es : List Err) (val : Val)
    (hre : (assignOptions s.options callOptions).removeEmpty = true)
    (hff : (assignOptions s.options callOptions).failFast = false)
    (hx : validate h s obj callOptions = .ok (.result v es val)) :
    ∃ kvs, val = .obj .plain kvs ∧ entriesNoEmpty kvs = true := by
  obtain ⟨E, R, E2, R2, _, _, hfin⟩ := validate_go h s obj callOptions v es val hff hx
  unfold finish at hfin
  split at hfin
  · cases hfin
  · injection hfin with hfin
    injection hfin with _ _ hval
    exact ⟨_, hval.symm, cleanEntries_entriesNoEmpty R2⟩

/-- C28 (the code's behaviour): with `removeEmpty`, a `null` is pruned also where
it is allowed.  The `null` of a field declared `nullable: true`, and the
`null` accepted under the `nullable` option, pass validation and are then
removed from the returned value; the nested empty string and empty arrays of
the field `t` are pruned as well, and `0` is kept. -/
theorem removeEmpty_prunes_allowed_null :
    createAndValidate exampleHost
        [("n", .obj .plain [("type", .str "string"), ("nullable", .bool true)]),
         ("t", .str "any")] {}
        [("n", .null),
         ("t", .obj .plain [("x", .str ""), ("y", .arr [.arr []]), ("z", .num 0)])]
        { removeEmpty := some true }
      = .ok (.result true [] (.obj .plain [("t", .obj .plain [("z", .num 0)])]))
    ∧ createAndValidate exampleHost
        [("n", .obj .plain [("type", .str "string"), ("nullable", .bool true)]),
         ("t", .str "any")] {}
        [("n", .null),
         ("t", .obj .plain [("x", .str ""), ("y", .arr [.arr []]), ("z", .num 0)])] {}
      = .ok (.result true []
          (.obj .plain [("n", .null),
            ("t", .obj .plain [("x", .str ""), ("y", .arr [.arr []]), ("z", .num 0)])]))
    ∧ createAndValidate exampleHost [("n", .obj .plain [("type", .str "string")])] {}
        [("n", .null)] { removeEmpty := some true, nullable := some true }
      = .ok (.result true [] (.obj .plain [])) := by
  refine ⟨?_, ?_, ?_⟩ <;> decide

end GentleSchema

namespace GentleSchema

/-- C29 (the code's behaviour): the instance-wide option wins over an explicit
`false` on the field.  Under the option `nullable: true` the field
`{ type: 'string', nullable: false }` accepts `null`; under `coerceTypes: true`
the field `{ type: 'number', coerce: false }` converts the string `'10'` to `10`.
Without the options the same fields give `ERR_NULL` and `ERR_TYPE`. -/
theorem option_overrides_field_flag :
    createAndValidate exampleHost
        [("a", .obj .plain [("type", .str "string"), ("nullable", .bool false)])]
        { nullable := some true } [("a", .null)] {}
      = .ok (.result true [] (.obj .plain [("a", .null)]))
    ∧ createAndValidate exampleHost
        [("n", .obj .plain [("type", .str "number"), ("coerce", .bool false)])]
        { coerceTypes := some true } [("n", .str "10")] {}
      = .ok (.result true [] (.obj .plain [("n", .num 10)]))
    ∧ createAndValidate exampleHost
        [("a", .obj .plain [("type", .str "string"), ("nullable", .bool false)])] {}
        [("a", .null)] {}
      = .ok (.result false
          [{ path := "a", message := "Invalid a field. must not be null", code := "ERR_NULL",
             rawError := .null }]
          (.obj .plain [("a", .null)]))
    ∧ createAndValidate exampleHost
        [("n", .obj .plain [("type", .str "number"), ("coerce", .bool false)])] {}
        [("n", .str "10")] {}
      = .ok (.result false
          [{ path := "n", message := "Invalid n field. expected type number, received string",
             code := "ERR_TYPE", rawError := .null }]
          (.obj .plain [("n", .str "10")])) := by
  refine ⟨?_, ?_, ?_, ?_⟩ <;> decide

end GentleSchema

namespace GentleSchema

/-- C30 (the code's behaviour): the constructor checks type names of top-level
descriptors only.  It rejects `{ a: 'strnig' }` with an `ERR_SCHEMA_TYPE` entry,
but accepts the unknown type name under `items` and under `properties`; the
compiled schema then holds the descriptor `{ type: 'strnig' }`, and every
element or property checked against it gets `ERR_TYPE`. -/
theorem nested_type_name_not_linted :
    (Schema.create exampleHost [("a", .str "strnig")] {}).map (fun s => s.normalizedSchema)
      = .error (.other (schemaErrorVal
          [lintIssue "a" "Invalid type 'strnig' for field 'a'" "ERR_SCHEMA_TYPE"]))
    ∧ (Schema.create exampleHost
        [("a", .obj .plain [("type", .str "array"), ("items", .str "strnig")])] {}).map
        (fun s => getProp (lookupKey "a" s.normalizedSchema) "items")
      = .ok (.obj .plain [("type", .str "strnig")])
    ∧ (Schema.create exampleHost
        [("a", .obj .plain [("type", .str "object"),
          ("properties", .obj .plain [("b", .obj .plain [("type", .str "strnig")])])])] {}).map
        (fun s => getProp (getProp (lookupKey "a" s.normalizedSchema) "properties") "b")
      = .ok (.obj .plain [("type", .str "strnig"), ("strictType", .bool false)])
    ∧ createAndValidate exampleHost
        [("a", .obj .plain [("type", .str "array"), ("items", .str "strnig")])] {}
        [("a", .arr [.str "x"])] {}
      = .ok (.result false
          [{ path := "a[0]",
             message := "Invalid a[0] field. expected type strnig, received string",
             code := "ERR_TYPE", rawError := .null }]
          (.obj .plain [("a", .arr [.str "x"])])) := by
  refine ⟨?_, ?_, ?_, ?_⟩ <;> decide

end GentleSchema

namespace GentleSchema

/-! ## C37: the merge of a base descriptor with a fragment -/

theorem toDigitsCore_last (b : Nat) :
    ∀ (fuel n : Nat) (ds : List Char),
      ∃ pre, Nat.toDigitsCore b (fuel + 1) n ds = pre ++ (Nat.digitChar (n % b)) :: ds := by
  intro fuel
  induction fuel with
  | zero =>
    intro n ds
    refine ⟨[], ?_⟩
    rw [Nat.toDigitsCore.eq_def]
    simp only []
    split
    · rfl
    · rw [Nat.toDigitsCore.eq_def]
      rfl
  | succ k ih =>
    intro n ds
    rw [Nat.toDigitsCore.eq_def]
    simp only []
    split
    · exact ⟨[], rfl⟩
    · obtain ⟨pre, hpre⟩ := ih (n / b) (Nat.digitChar (n % b) :: ds)
      exact ⟨pre ++ [Nat.digitChar (n / b % b)], by rw [hpre]; simp⟩

theorem digitChar_not_letter (n : Nat) (c : Char) (hc : c = 's' ∨ c = 'h') :
    Nat.digitChar (n % 10) ≠ c := by
  have hlt : n % 10 < 10 := Nat.mod_lt _ (by decide)
  generalize n % 10 = m at hlt
  rcases hc with rfl | rfl <;> interval_cases m <;> decide

theorem toString_nat_last (i : Nat) (cs : List Char) (c : Char) (hc : c = 's' ∨ c = 'h') :
    toString i ≠ String.mk (cs ++ [c]) := by
  intro heq
  have h1 : (Nat.toDigits 10 i).asString = String.mk (cs ++ [c]) := heq
  obtain ⟨pre, hpre⟩ := toDigitsCore_last 10 i i []
  have h2 : Nat.toDigits 10 i = pre ++ [Nat.digitChar (i % 10)] := hpre
  rw [h2] at h1
  have h3 : pre ++ [Nat.digitChar (i % 10)] = cs ++ [c] := by
    have := congrArg String.data h1
    simpa [List.asString] using this
  have h4 := congrArg List.getLast? h3
  simp at h4
  exact digitChar_not_letter i c hc h4

theorem indexOfKey_word (k : String) (hk : k = "items" ∨ k = "properties") (n : Nat) :
    indexOfKey k n = none := by
  unfold indexOfKey
  rw [List.find?_eq_none]
  intro i _
  simp only [decide_eq_true_eq]
  rcases hk with rfl | rfl
  · exact toString_nat_last i ['i', 't', 'e', 'm'] 's' (Or.inl rfl)
  · exact toString_nat_last i ['p', 'r', 'o', 'p', 'e', 'r', 't', 'i', 'e'] 's' (Or.inl rfl)

theorem depth_pos (v : Val) : 1 ≤ depth v := by
  cases v <;> simp [depth]

theorem depth_lookupKey_le (k : String) (kvs : List (String × Val)) :
    depth (lookupKey k kvs) ≤ depthEntries kvs + 1
      ∧ (truthy (lookupKey k kvs) = true → depth (lookupKey k kvs) ≤ depthEntries kvs) := by
  induction kvs with
  | nil => simp [lookupKey, depth, truthy]
  | cons p rest ih =>
    obtain ⟨k2, v⟩ := p
    simp only [lookupKey, depthEntries]
    by_cases hk : k2 = k
    · simp only [hk, if_true]
      exact ⟨by omega, fun _ => le_max_left _ _⟩
    · simp only [hk, if_false]
      refine ⟨?_, fun ht => ?_⟩
      · have := ih.1
        have := le_max_right (depth v) (depthEntries rest)
        omega
      · have := ih.2 ht
        have := le_max_right (depth v) (depthEntries rest)
        omega

theorem depth_getD_le (xs : List Val) (i : Nat) :
    depth (xs.getD i .undefined) ≤ depthList xs + 1
      ∧ (truthy (xs.getD i .undefined) = true → depth (xs.getD i .undefined) ≤ depthList xs) := by
  induction xs generalizing i with
  | nil => simp [depth, truthy]
  | cons x rest ih =>
    cases i with
    | zero =>
      simp only [List.getD_cons_zero, depthList]
      exact ⟨by have := le_max_left (depth x) (depthList rest); omega, fun _ => le_max_left _ _⟩
    | succ j =>
      simp only [List.getD_cons_succ, depthList]
      have h1 := (ih j).1
      have hm := le_max_right (depth x) (depthList rest)
      exact ⟨by omega, fun ht => by have := (ih j).2 ht; omega⟩

theorem depth_getProp_le (v : Val) (k : String) : depth (getProp v k) ≤ depth v := by
  cases v with
  | obj cls kvs =>
    simp only [getProp, depth]
    exact (depth_lookupKey_le k kvs).1
  | arr xs =>
    simp only [getProp, depth]
    split
    · simp [depth]
    · split
      · exact (depth_getD_le xs _).1
      · simp [depth]
  | str s =>
    simp only [getProp, depth]
    split
    · simp [depth]
    · split <;> simp [depth]
  | fn f =>
    simp only [getProp, depth]
    split <;> simp [depth]
  | _ => simp [getProp, depth]

theorem depth_getProp_lt (v : Val) (k : String) (hk : k = "items" ∨ k = "properties")
    (ht : truthy (getProp v k) = true) : depth (getProp v k) < depth v := by
  have hlen : k ≠ "length" := by rcases hk with rfl | rfl <;> decide
  have hname : k ≠ "name" := by rcases hk with rfl | rfl <;> decide
  cases v with
  | obj cls kvs =>
    simp only [getProp, depth] at ht ⊢
    have := (depth_lookupKey_le k kvs).2 ht
    omega
  | arr xs =>
    simp only [getProp, hlen, if_false, indexOfKey_word k hk] at ht
    simp [truthy] at ht
  | str s =>
    simp only [getProp, hlen, if_false, indexOfKey_word k hk] at ht
    simp [truthy] at ht
  | fn f =>
    simp only [getProp, hname, if_false] at ht
    simp [truthy] at ht
  | _ => simp [getProp, truthy] at ht

theorem depth_orEmpty (v : Val) (k : String) (hk : k = "items" ∨ k = "properties") :
    depth (orEmpty (getProp v k)) ≤ depth v
      ∧ (truthy (getProp v k) = true → depth (orEmpty (getProp v k)) < depth v) := by
  unfold orEmpty
  by_cases ht : truthy (getProp v k) = true
  · rw [if_pos ht]
    have := depth_getProp_lt v k hk ht
    exact ⟨by omega, fun _ => this⟩
  · rw [if_neg ht]
    have := depth_pos v
    exact ⟨by simp [depth, depthEntries]; omega, fun h => absurd h ht⟩

theorem objectKeys_orEmpty_depth (v : Val) (k : String) (hk : k = "items" ∨ k = "properties")
    (p : String) (hp : p ∈ objectKeys (orEmpty (getProp v k))) :
    depth (getProp (orEmpty (getProp v k)) p) < depth v := by
  by_cases ht : truthy (getProp v k) = true
  · have h1 := (depth_orEmpty v k hk).2 ht
    have h2 := depth_getProp_le (orEmpty (getProp v k)) p
    omega
  · unfold orEmpty at hp
    rw [if_neg ht] at hp
    simp [objectKeys] at hp

theorem mergeWithin_fuel :
    ∀ (n : Nat) (b f : Val), depth b + depth f ≤ n →
      mergeWithin n b f = mergeWithin (n + 1) b f := by
  intro n
  induction n with
  | zero =>
    intro b f hd
    have := depth_pos b
    omega
  | succ m ih =>
    intro b f hd
    rw [mergeWithin, mergeWithin]
    by_cases hb : truthy b = true
    · by_cases hf : truthy f = true
      · simp only [hb, hf, not_true_eq_false, if_false]
        have hitems : truthy (getProp b "items") = true ∨ truthy (getProp f "items") = true →
            mergeWithin m (orEmpty (getProp b "items")) (orEmpty (getProp f "items"))
              = mergeWithin (m + 1) (orEmpty (getProp b "items")) (orEmpty (getProp f "items")) := by
          intro hc
          apply ih
          have hb1 := depth_orEmpty b "items" (Or.inl rfl)
          have hf1 := depth_orEmpty f "items" (Or.inl rfl)
          rcases hc with hc | hc
          · have := hb1.2 hc
            omega
          · have := hf1.2 hc
            omega
        have hprops : ∀ (acc : List (String × Val)),
            ∀ p ∈ objectKeys (orEmpty (getProp f "properties")),
            setKey p (mergeWithin m (getProp (orEmpty (getProp b "properties")) p)
                (getProp (orEmpty (getProp f "properties")) p)) acc
              = setKey p (mergeWithin (m + 1) (getProp (orEmpty (getProp b "properties")) p)
                (getProp (orEmpty (getProp f "properties")) p)) acc := by
          intro acc p hp
          congr 1
          apply ih
          have h1 := objectKeys_orEmpty_depth f "properties" (Or.inr rfl) p hp
          have h2 := depth_getProp_le (orEmpty (getProp b "properties")) p
          have h3 := (depth_orEmpty b "properties" (Or.inr rfl)).1
          omega
        rw [List.foldl_ext _ _ _ hprops]
        by_cases hi : truthy (getProp b "items") = true ∨ truthy (getProp f "items") = true
        · rw [hitems hi]
        · simp only [hi, if_false]
      · simp [hb, hf]
    · simp [hb]

theorem mergeWithin_enough (b f : Val) :
    ∀ (d : Nat), mergeWithin (depth b + depth f + d) b f = mergeNormalizedEntry b f := by
  intro d
  induction d with
  | zero => rfl
  | succ e ih =>
    rw [← ih]
    exact (mergeWithin_fuel (depth b + depth f + e) b f (by omega)).symm

theorem mergeWithin_of_le (n : Nat) (b f : Val) (hn : depth b + depth f ≤ n) :
    mergeWithin n b f = mergeNormalizedEntry b f := by
  obtain ⟨d, rfl⟩ := Nat.exists_eq_add_of_le hn
  exact mergeWithin_enough b f d

/-- The recursion equation of `mergeNormalizedEntry`, as the source has it. -/
theorem mergeNormalizedEntry_eq (b f : Val) :
    mergeNormalizedEntry b f =
      if ¬ truthy b then f
      else if ¬ truthy f then b
      else
        .obj .plain
          (let out := objectAssign (objectAssign [] b) f
           let out :=
             if truthy (getProp b "items") ∨ truthy (getProp f "items") then
               setKey "items"
                 (mergeNormalizedEntry (orEmpty (getProp b "items")) (orEmpty (getProp f "items")))
                 out
             else out
           if truthy (getProp b "properties") ∨ truthy (getProp f "properties") then
             setKey "properties"
               (.obj .plain ((objectKeys (orEmpty (getProp f "properties"))).foldl
                 (fun acc k => setKey k
                   (mergeNormalizedEntry (getProp (orEmpty (getProp b "properties")) k)
                     (getProp (orEmpty (getProp f "properties")) k)) acc)
                 (objectAssign [] (orEmpty (getProp b "properties"))))) out
           else out) := by
  have hpos : ∃ m, depth b + depth f = m + 1 := by
    have := depth_pos b
    exact ⟨depth b + depth f - 1, by omega⟩
  obtain ⟨m, hm⟩ := hpos
  unfold mergeNormalizedEntry
  rw [hm, mergeWithin]
  by_cases hb : truthy b = true
  · by_cases hf : truthy f = true
    · simp only [hb, hf, not_true_eq_false, if_false]
      have hitems : truthy (getProp b "items") = true ∨ truthy (getProp f "items") = true →
          mergeWithin m (orEmpty (getProp b "items")) (orEmpty (getProp f "items"))
            = mergeWithin (depth (orEmpty (getProp b "items"))
                + depth (orEmpty (getProp f "items")))
                (orEmpty (getProp b "items")) (orEmpty (getProp f "items")) := by
        intro hc
        apply mergeWithin_of_le
        have hb1 := depth_orEmpty b "items" (Or.inl rfl)
        have hf1 := depth_orEmpty f "items" (Or.inl rfl)
        rcases hc with hc | hc
        · have := hb1.2 hc
          omega
        · have := hf1.2 hc
          omega
      have hprops : ∀ (acc : List (String × Val)),
          ∀ p ∈ objectKeys (orEmpty (getProp f "properties")),
          setKey p (mergeWithin m (getProp (orEmpty (getProp b "properties")) p)
              (getProp (orEmpty (getProp f "properties")) p)) acc
            = setKey p (mergeWithin (depth (getProp (orEmpty (getProp b "properties")) p)
                + depth (getProp (orEmpty (getProp f "properties")) p))
              (getProp (orEmpty (getProp b "properties")) p)
              (getProp (orEmpty (getProp f "properties")) p)) acc := by
        intro acc p hp
        congr 1
        apply mergeWithin_of_le
        have h1 := objectKeys_orEmpty_depth f "properties" (Or.inr rfl) p hp
        have h2 := depth_getProp_le (orEmpty (getProp b "properties")) p
        have h3 := (depth_orEmpty b "properties" (Or.inr rfl)).1
        omega
      rw [List.foldl_ext _ _ _ hprops]
      by_cases hi : truthy (getProp b "items") = true ∨ truthy (getProp f "items") = true
      · rw [hitems hi]
      · simp only [hi, if_false]
    · simp [hb, hf]
  · simp [hb]

theorem lookupKey_foldl_setKey (g : String → Val) (k : String) :
    ∀ (keys : List String) (target : List (String × Val)),
      lookupKey k (keys.foldl (fun acc p => setKey p (g p) acc) target)
        = if k ∈ keys then g k else lookupKey k target := by
  intro keys
  induction keys with
  | nil => intro target; simp
  | cons p rest ih =>
    intro target
    simp only [List.foldl_cons, ih, List.mem_cons]
    by_cases hr : k ∈ rest
    · simp [hr]
    · simp only [hr, if_false, or_false]
      by_cases hp : k = p
      · subst hp
        simp [lookupKey_setKey_same]
      · simp only [hp, if_false]
        exact lookupKey_setKey_ne k p _ _ (fun e => hp e.symm)

theorem hasKey_foldl_setKey (g : String → Val) (k : String) :
    ∀ (keys : List String) (target : List (String × Val)),
      hasKey k (keys.foldl (fun acc p => setKey p (g p) acc) target) = true
        ↔ k ∈ keys ∨ hasKey k target = true := by
  intro keys
  induction keys with
  | nil => intro target; simp
  | cons p rest ih =>
    intro target
    simp only [List.foldl_cons, ih, List.mem_cons]
    by_cases hp : k = p
    · subst hp
      simp [hasKey_setKey_same]
    · rw [hasKey_setKey_ne k p _ _ (fun e => hp e.symm)]
      simp [hp]

theorem lookupKey_objectAssign (k : String) (target : List (String × Val)) (src : Val) :
    lookupKey k (objectAssign target src)
      = if k ∈ objectKeys src then getProp src k else lookupKey k target := by
  unfold objectAssign
  exact lookupKey_foldl_setKey (fun p => getProp src p) k _ _

theorem hasKey_objectAssign (k : String) (target : List (String × Val)) (src : Val) :
    hasKey k (objectAssign target src) = true ↔ k ∈ objectKeys src ∨ hasKey k target = true := by
  unfold objectAssign
  exact hasKey_foldl_setKey (fun p => getProp src p) k _ _

theorem mem_objectKeys_obj (k : String) (cls : Cls) (kvs : List (String × Val)) :
    k ∈ objectKeys (.obj cls kvs) ↔ hasKey k kvs = true := by
  rw [hasKey_iff_mem_keys]
  rfl

theorem getProp_obj (cls : Cls) (kvs : List (String × Val)) (k : String) :
    getProp (.obj cls kvs) k = lookupKey k kvs := rfl

/-- C37: the merge of a base descriptor `b` with a fragment `f`, both objects.
For every key other than `items` and `properties` the merged descriptor holds
the value of `f` when `f` has the key and that of `b` otherwise.  When `b` or
`f` has `items`, its `items` is the merge of `b.items` with `f.items`, an absent
side standing for the empty descriptor.  When `b` or `f` has `properties`, its
`properties` is a map that holds, for a name among the properties of `f`, the
merge of the property of `b` with that of `f`, for any other name the property
of `b` unchanged, and no further name.  Merging with an absent side returns
the other side. -/
theorem merge_descriptor (cb cf : Cls) (kb kf : List (String × Val)) :
    (∀ k, k ≠ "items" → k ≠ "properties" →
        getProp (mergeNormalizedEntry (.obj cb kb) (.obj cf kf)) k
          = if hasKey k kf then lookupKey k kf else lookupKey k kb)
    ∧ (truthy (lookupKey "items" kb) = true ∨ truthy (lookupKey "items" kf) = true →
        getProp (mergeNormalizedEntry (.obj cb kb) (.obj cf kf)) "items"
          = mergeNormalizedEntry (orEmpty (lookupKey "items" kb)) (orEmpty (lookupKey "items" kf)))
    ∧ (truthy (lookupKey "properties" kb) = true ∨ truthy (lookupKey "properties" kf) = true →
        ∃ mp, getProp (mergeNormalizedEntry (.obj cb kb) (.obj cf kf)) "properties"
            = .obj .plain mp
          ∧ ∀ p,
            (p ∈ objectKeys (orEmpty (lookupKey "properties" kf)) →
              lookupKey p mp
                = mergeNormalizedEntry (getProp (orEmpty (lookupKey "properties" kb)) p)
                    (getProp (orEmpty (lookupKey "properties" kf)) p))
            ∧ (p ∉ objectKeys (orEmpty (lookupKey "properties" kf)) →
              lookupKey p mp
                = if p ∈ objectKeys (orEmpty (lookupKey "properties" kb))
                  then getProp (orEmpty (lookupKey "properties" kb)) p else .undefined)
            ∧ (hasKey p mp = true ↔
                p ∈ objectKeys (orEmpty (lookupKey "properties" kb))
                  ∨ p ∈ objectKeys (orEmpty (lookupKey "properties" kf))))
    ∧ (∀ b f : Val, truthy b = false → mergeNormalizedEntry b f = f)
    ∧ (∀ b f : Val, truthy b = true → truthy f = false → mergeNormalizedEntry b f = b) := by
  have hm := mergeNormalizedEntry_eq (.obj cb kb) (.obj cf kf)
  rw [if_neg (by simp [truthy]), if_neg (by simp [truthy])] at hm
  dsimp only at hm
  simp only [getProp_obj] at hm
  have hbase : ∀ k, lookupKey k (objectAssign (objectAssign [] (.obj cb kb)) (.obj cf kf))
      = if hasKey k kf then lookupKey k kf else lookupKey k kb := by
    intro k
    rw [lookupKey_objectAssign, lookupKey_objectAssign]
    simp only [mem_objectKeys_obj, getProp_obj]
    by_cases h1 : hasKey k kf = true
    · simp [h1]
    · simp only [h1, if_false]
      by_cases h2 : hasKey k kb = true
      · simp [h2]
      · simp only [h2, if_false, lookupKey]
        rw [lookupKey_of_not_hasKey k kb (by simpa using h2)]
        simp
  refine ⟨?_, ?_, ?_, ?_, ?_⟩
  · intro k hi hp
    rw [hm, getProp_obj]
    have e1 : ∀ (v : Val) (R : List (String × Val)),
        lookupKey k (setKey "properties" v R) = lookupKey k R :=
      fun v R => lookupKey_setKey_ne k "properties" v R (fun e => hp e.symm)
    have e2 : ∀ (v : Val) (R : List (String × Val)),
        lookupKey k (setKey "items" v R) = lookupKey k R :=
      fun v R => lookupKey_setKey_ne k "items" v R (fun e => hi e.symm)
    by_cases c1 : truthy (lookupKey "properties" kb) = true ∨ truthy (lookupKey "properties" kf) = true
      <;> by_cases c2 : truthy (lookupKey "items" kb) = true ∨ truthy (lookupKey "items" kf) = true
      <;> simp only [c1, c2, if_true, if_false, e1, e2, hbase]
  · intro hc
    rw [hm, getProp_obj]
    have e1 : ∀ (v : Val) (R : List (String × Val)),
        lookupKey "items" (setKey "properties" v R) = lookupKey "items" R :=
      fun v R => lookupKey_setKey_ne "items" "properties" v R (by decide)
    rw [if_pos hc]
    by_cases c1 : truthy (lookupKey "properties" kb) = true ∨ truthy (lookupKey "properties" kf) = true
      <;> simp only [c1, if_true, if_false, e1, lookupKey_setKey_same]
  · intro hc
    rw [hm, getProp_obj]
    rw [if_pos hc]
    refine ⟨_, lookupKey_setKey_same _ _ _, ?_⟩
    intro p
    refine ⟨?_, ?_, ?_⟩
    · intro hp
      rw [lookupKey_foldl_setKey (fun k =>
        mergeNormalizedEntry (getProp (orEmpty (lookupKey "properties" kb)) k)
          (getProp (orEmpty (lookupKey "properties" kf)) k))]
      rw [if_pos hp]
    · intro hp
      rw [lookupKey_foldl_setKey (fun k =>
        mergeNormalizedEntry (getProp (orEmpty (lookupKey "properties" kb)) k)
          (getProp (orEmpty (lookupKey "properties" kf)) k))]
      rw [if_neg hp, lookupKey_objectAssign]
      simp [lookupKey]
    · rw [hasKey_foldl_setKey (fun k =>
        mergeNormalizedEntry (getProp (orEmpty (lookupKey "properties" kb)) k)
          (getProp (orEmpty (lookupKey "properties" kf)) k))]
      rw [hasKey_objectAssign]
      simp [hasKey]
      tauto
  · intro b f hb
    rw [mergeNormalizedEntry_eq]
    simp [hb]
  · intro b f hb hf
    rw [mergeNormalizedEntry_eq]
    simp [hb, hf]

set_option maxHeartbeats 4000000 in
/-- Witness for C37: the base
`{ type: 'object', required: false, properties: { x: { type: 'string' } } }` merged with
the fragment `{ required: true, properties: { x: { min: 1 }, y: { type: 'number' } } }`:
`required` is the fragment's, `type` is the base's, and the property `y`, which
only the fragment names, is the merge of `undefined` with the fragment's. -/
theorem merge_descriptor_witness :
    getProp (mergeNormalizedEntry (.obj .plain boxBaseEntries) (.obj .plain boxFragmentEntries))
        "required" = .bool true
    ∧ getProp (mergeNormalizedEntry (.obj .plain boxBaseEntries) (.obj .plain boxFragmentEntries))
        "type" = .str "object"
    ∧ mergeNormalizedEntry .undefined (.obj .plain boxFragmentEntries)
        = .obj .plain boxFragmentEntries :=
  ⟨(merge_descriptor .plain .plain boxBaseEntries boxFragmentEntries).1 "required"
      (by decide) (by decide),
   (merge_descriptor .plain .plain boxBaseEntries boxFragmentEntries).1 "type"
      (by decide) (by decide),
   (merge_descriptor .plain .plain boxBaseEntries boxFragmentEntries).2.2.2.1 _ _ rfl⟩

end GentleSchema

namespace GentleSchema

/-! ## The memo tables of an instance -/

theorem cacheGet_cacheSet_same {κ : Type} [DecidableEq κ] (key : κ) (c : Checker) :
    ∀ m : List (κ × Checker), cacheGet key (cacheSet key c m) = some c := by
  intro m
  induction m with
  | nil => simp [cacheSet, cacheGet]
  | cons p rest ih =>
    obtain ⟨k, c2⟩ := p
    by_cases hk : k = key
    · simp [cacheSet, cacheGet, hk]
    · simp [cacheSet, cacheGet, hk, ih]

theorem cacheGet_cacheSet_ne {κ : Type} [DecidableEq κ] (key key2 : κ) (c : Checker)
    (hne : key2 ≠ key) :
    ∀ m : List (κ × Checker), cacheGet key (cacheSet key2 c m) = cacheGet key m := by
  intro m
  induction m with
  | nil => simp [cacheSet, cacheGet, hne]
  | cons p rest ih =>
    obtain ⟨k, c2⟩ := p
    by_cases hk : k = key2
    · subst hk
      simp [cacheSet, cacheGet, hne]
    · by_cases hk2 : k = key
      · subst hk2
        simp [cacheSet, cacheGet, hk]
      · simp [cacheSet, cacheGet, hk, hk2, ih]

theorem cacheGet_cacheDelete_same {κ : Type} [DecidableEq κ] (key : κ) :
    ∀ m : List (κ × Checker), cacheGet key (cacheDelete key m) = none := by
  intro m
  induction m with
  | nil => rfl
  | cons p rest ih =>
    obtain ⟨k, c2⟩ := p
    unfold cacheDelete at ih ⊢
    rw [List.filter_cons]
    by_cases hk : k = key
    · have hd : decide ((k, c2).1 ≠ key) = false := by simp [hk]
      rw [hd]
      exact ih
    · have hd : decide ((k, c2).1 ≠ key) = true := by simp [hk]
      rw [hd]
      simp only [if_true, cacheGet, hk, if_false]
      exact ih

theorem cacheGet_cacheDelete_ne {κ : Type} [DecidableEq κ] (key key2 : κ) (hne : key2 ≠ key) :
    ∀ m : List (κ × Checker), cacheGet key (cacheDelete key2 m) = cacheGet key m := by
  intro m
  induction m with
  | nil => rfl
  | cons p rest ih =>
    obtain ⟨k, c2⟩ := p
    unfold cacheDelete at ih ⊢
    rw [List.filter_cons]
    by_cases hk : k = key2
    · have hd : decide ((k, c2).1 ≠ key2) = false := by simp [hk]
      rw [hd]
      have hk3 : ¬ k = key := fun e => hne (hk.symm.trans e)
      simp only [Bool.false_eq_true, if_false, cacheGet, hk3]
      exact ih
    · have hd : decide ((k, c2).1 ≠ key2) = true := by simp [hk]
      rw [hd]
      simp only [if_true, cacheGet]
      by_cases hk2 : k = key
      · simp only [hk2, if_true]
      · simp only [hk2, if_false]
        exact ih

theorem sameView_refl (h : Host) (a : Instance) : SameView h a a :=
  ⟨rfl, fun _ => rfl, fun _ _ => rfl⟩

theorem sameView_symm (h : Host) (a b : Instance) (hab : SameView h a b) : SameView h b a :=
  ⟨hab.1.symm, fun n => (hab.2.1 n).symm, fun k f => (hab.2.2 k f).symm⟩

theorem sameView_trans (h : Host) (a b c : Instance) (hab : SameView h a b)
    (hbc : SameView h b c) : SameView h a c :=
  ⟨hab.1.trans hbc.1, fun n => (hab.2.1 n).trans (hbc.2.1 n),
    fun k f => (hab.2.2 k f).trans (hbc.2.2 k f)⟩

/-- What `SameView` depends on: the schema and the lookups in the two tables. -/
theorem sameView_of_lookups (h : Host) (a b : Instance) (hs : a.schema = b.schema)
    (hr : ∀ name : Val,
      (cachedRefChecker h a name).1 = (cachedRefChecker h b name).1)
    (ho : ∀ (k : String) (frag : Val),
      (cachedOverrideChecker h a k frag).1 = (cachedOverrideChecker h b k frag).1) :
    SameView h a b := ⟨hs, hr, ho⟩

theorem cachedRefChecker_fst (h : Host) (inst : Instance) (name : Val) :
    (cachedRefChecker h inst name).1
      = match cacheGet name inst.refCheckerCache with
        | some c => c
        | none => _resolveRefChecker h inst.schema name := by
  unfold cachedRefChecker
  cases cacheGet name inst.refCheckerCache <;> rfl

theorem cachedOverrideChecker_fst (h : Host) (inst : Instance) (k : String) (frag : Val) :
    (cachedOverrideChecker h inst k frag).1
      = if isObjectKey frag then
          match cacheGet (k, frag) inst.overrideCheckerCache with
          | some c => .ok c
          | none => _getOverrideCheckerFor h inst.schema k frag
        else _getOverrideCheckerFor h inst.schema k frag := by
  unfold cachedOverrideChecker
  by_cases hk : isObjectKey frag = true
  · simp only [hk, if_true]
    cases cacheGet (k, frag) inst.overrideCheckerCache with
    | some c => rfl
    | none =>
      simp only []
      cases _getOverrideCheckerFor h inst.schema k frag <;> rfl
  · simp only [hk, Bool.false_eq_true, if_false]

theorem cachedRefChecker_view (h : Host) (inst : Instance) (name : Val) :
    SameView h inst (cachedRefChecker h inst name).2 := by
  cases hg : cacheGet name inst.refCheckerCache with
  | some c =>
    have : (cachedRefChecker h inst name).2 = inst := by
      unfold cachedRefChecker
      rw [hg]
    rw [this]
    exact sameView_refl h inst
  | none =>
    have h2 : (cachedRefChecker h inst name).2
        = { inst with
            refCheckerCache :=
              cacheSet name (_resolveRefChecker h inst.schema name) inst.refCheckerCache } := by
      unfold cachedRefChecker
      rw [hg]
    rw [h2]
    refine ⟨rfl, fun n => ?_, fun k f => ?_⟩
    · rw [cachedRefChecker_fst, cachedRefChecker_fst]
      by_cases hn : name = n
      · subst hn
        simp only [cacheGet_cacheSet_same, hg]
      · simp only [cacheGet_cacheSet_ne n name _ hn]
    · rw [cachedOverrideChecker_fst, cachedOverrideChecker_fst]

theorem cachedOverrideChecker_view (h : Host) (inst : Instance) (k : String) (frag : Val) :
    SameView h inst (cachedOverrideChecker h inst k frag).2 := by
  by_cases hk : isObjectKey frag = true
  · cases hg : cacheGet (k, frag) inst.overrideCheckerCache with
    | some c =>
      have : (cachedOverrideChecker h inst k frag).2 = inst := by
        unfold cachedOverrideChecker
        simp only [hk, if_true, hg]
      rw [this]
      exact sameView_refl h inst
    | none =>
      cases hp : _getOverrideCheckerFor h inst.schema k frag with
      | error e =>
        have : (cachedOverrideChecker h inst k frag).2 = inst := by
          unfold cachedOverrideChecker
          simp only [hk, if_true, hg, hp]
        rw [this]
        exact sameView_refl h inst
      | ok c =>
        have h2 : (cachedOverrideChecker h inst k frag).2
            = { inst with
                overrideCheckerCache :=
                  cacheSet (k, frag) c inst.overrideCheckerCache } := by
          unfold cachedOverrideChecker
          simp only [hk, if_true, hg, hp]
        rw [h2]
        refine ⟨rfl, fun n => ?_, fun k2 f2 => ?_⟩
        · rw [cachedRefChecker_fst, cachedRefChecker_fst]
        · rw [cachedOverrideChecker_fst, cachedOverrideChecker_fst]
          by_cases hkf : (k, frag) = (k2, f2)
          · injection hkf with e1 e2
            subst e1; subst e2
            simp only [cacheGet_cacheSet_same, hg, hp]
          · simp only [cacheGet_cacheSet_ne (k2, f2) (k, frag) _ hkf]
  · have : (cachedOverrideChecker h inst k frag).2 = inst := by
      unfold cachedOverrideChecker
      simp only [hk, Bool.false_eq_true, if_false]
    rw [this]
    exact sameView_refl h inst

theorem cachedSelect_view (h : Host) (inst : Instance) (ov : List (String × Val)) (f : Field) :
    SameView h inst (cachedSelect h inst ov f).2 := by
  unfold cachedSelect
  split
  · exact cachedOverrideChecker_view h inst _ _
  · split
    · exact sameView_refl h inst
    · exact cachedRefChecker_view h inst _

theorem cachedSelect_congr (h : Host) (a b : Instance) (hab : SameView h a b)
    (ov : List (String × Val)) (f : Field) :
    (cachedSelect h a ov f).1 = (cachedSelect h b ov f).1 := by
  unfold cachedSelect
  split
  · exact hab.2.2 _ _
  · split
    · rfl
    · simp only [hab.2.1]

theorem sameView_counts (h : Host) (a : Instance) (cs : List (String × Nat)) :
    SameView h a { a with counts := cs } :=
  ⟨rfl, fun n => by rw [cachedRefChecker_fst, cachedRefChecker_fst],
    fun k f => by rw [cachedOverrideChecker_fst, cachedOverrideChecker_fst]⟩

theorem cachedFieldLoop_view (h : Host) (obj : List (String × Val)) (opts : Options)
    (ov : List (String × Val)) :
    ∀ (fs : List Field) (E : List Err) (R : List (String × Val)) (inst : Instance),
      SameView h inst (cachedFieldLoop h obj opts ov fs E R inst).2 := by
  intro fs
  induction fs with
  | nil => intro E R inst; exact sameView_refl h inst
  | cons f rest ih =>
    intro E R inst
    have hsel := cachedSelect_view h inst ov f
    unfold cachedFieldLoop
    cases hc : (cachedSelect h inst ov f).1 with
    | error e => exact hsel
    | ok ck =>
      simp only []
      cases hr : ck (lookupKey f.key obj) { path := fieldPath opts f.key, options := opts } with
      | error e => exact hsel
      | ok p =>
        obtain ⟨entryErrors, coerced⟩ := p
        simp only []
        have hcnt := sameView_trans h _ _ _ hsel
          (sameView_counts h (cachedSelect h inst ov f).2
            (bumpCount f.key (cachedSelect h inst ov f).2.counts))
        split
        · exact hcnt
        · exact sameView_trans h _ _ _ hcnt (ih _ _ _)

theorem cachedFieldLoop_congr (h : Host) (obj : List (String × Val)) (opts : Options)
    (ov : List (String × Val)) :
    ∀ (fs : List Field) (E : List Err) (R : List (String × Val)) (a b : Instance),
      SameView h a b →
      (cachedFieldLoop h obj opts ov fs E R a).1 = (cachedFieldLoop h obj opts ov fs E R b).1 := by
  intro fs
  induction fs with
  | nil => intro E R a b _; rfl
  | cons f rest ih =>
    intro E R a b hab
    have hsel := cachedSelect_congr h a b hab ov f
    have hva := cachedSelect_view h a ov f
    have hvb := cachedSelect_view h b ov f
    have hnext : ∀ ca cb, SameView h { (cachedSelect h a ov f).2 with counts := ca }
        { (cachedSelect h b ov f).2 with counts := cb } := by
      intro ca cb
      refine sameView_trans h _ _ _ (sameView_symm h _ _ (sameView_counts h _ ca)) ?_
      refine sameView_trans h _ _ _ (sameView_symm h _ _ hva) ?_
      refine sameView_trans h _ _ _ hab ?_
      exact sameView_trans h _ _ _ hvb (sameView_counts h _ cb)
    rw [cachedFieldLoop, cachedFieldLoop, ← hsel]
    cases hc : (cachedSelect h a ov f).1 with
    | error e => rfl
    | ok ck =>
      simp only []
      cases hr : ck (lookupKey f.key obj) { path := fieldPath opts f.key, options := opts } with
      | error e => rfl
      | ok p =>
        obtain ⟨entryErrors, coerced⟩ := p
        simp only []
        split
        · rfl
        · exact ih _ _ _ _ (hnext _ _)

theorem validate_view (h : Host) (inst : Instance) (obj : List (String × Val))
    (callOptions : OptionsPatch) : SameView h inst (inst.validate h obj callOptions).2 := by
  have hv := cachedFieldLoop_view h obj (assignOptions inst.schema.options callOptions)
    (_evaluateConditionals h inst.schema (.obj .plain obj)) inst.schema.fields [] [] inst
  unfold Instance.validate
  generalize cachedFieldLoop h obj (assignOptions inst.schema.options callOptions)
    (_evaluateConditionals h inst.schema (.obj .plain obj)) inst.schema.fields [] [] inst = out
    at hv
  obtain ⟨flow, inst2⟩ := out
  cases flow with
  | stop r => exact hv
  | go errors result =>
    simp only []
    cases unknownKeys inst.schema (assignOptions inst.schema.options callOptions) obj errors
        result with
    | stop r => exact hv
    | go errors2 result2 => exact hv

theorem validate_fst (h : Host) (inst : Instance) (obj : List (String × Val))
    (callOptions : OptionsPatch) :
    (inst.validate h obj callOptions).1
      = match (cachedFieldLoop h obj (assignOptions inst.schema.options callOptions)
          (_evaluateConditionals h inst.schema (.obj .plain obj)) inst.schema.fields [] []
          inst).1 with
        | .stop r => r
        | .go errors result =>
          match unknownKeys inst.schema (assignOptions inst.schema.options callOptions) obj
              errors result with
          | .stop r => r
          | .go errors2 result2 =>
            finish (assignOptions inst.schema.options callOptions) errors2 result2 := by
  unfold Instance.validate
  generalize cachedFieldLoop h obj (assignOptions inst.schema.options callOptions)
    (_evaluateConditionals h inst.schema (.obj .plain obj)) inst.schema.fields [] [] inst = out
  obtain ⟨flow, inst2⟩ := out
  cases flow with
  | stop r => rfl
  | go errors result =>
    simp only []
    cases unknownKeys inst.schema (assignOptions inst.schema.options callOptions) obj errors
        result <;> rfl

theorem validate_sameView (h : Host) (a b : Instance) (hab : SameView h a b)
    (obj : List (String × Val)) (callOptions : OptionsPatch) :
    (a.validate h obj callOptions).1 = (b.validate h obj callOptions).1 := by
  rw [validate_fst, validate_fst, ← hab.1]
  rw [cachedFieldLoop_congr h obj _ _ a.schema.fields [] [] a b hab]

end GentleSchema

namespace GentleSchema

/-! ## C34: the memo table of resolved references stays coherent -/

theorem hasKey_deleteKey_ne (k k2 : String) (hne : k2 ≠ k) (R : List (String × Val)) :
    hasKey k (deleteKey k2 R) = hasKey k R := by
  induction R with
  | nil => rfl
  | cons p rest ih =>
    obtain ⟨k3, v3⟩ := p
    unfold deleteKey at ih ⊢
    rw [List.filter_cons]
    by_cases hk : k3 = k2
    · have hd : decide ((k3, v3).1 ≠ k2) = false := by simp [hk]
      have hk3 : ¬ k3 = k := fun e => hne (hk.symm.trans e)
      rw [hd]
      simp only [Bool.false_eq_true, if_false, hasKey, hk3]
      exact ih
    · have hd : decide ((k3, v3).1 ≠ k2) = true := by simp [hk]
      rw [hd]
      simp only [if_true, hasKey]
      by_cases hk2 : k3 = k
      · simp only [hk2, if_true]
      · simp only [hk2, if_false]
        exact ih

theorem lookupKey_deleteKey_ne (k k2 : String) (hne : k2 ≠ k) (R : List (String × Val)) :
    lookupKey k (deleteKey k2 R) = lookupKey k R := by
  induction R with
  | nil => rfl
  | cons p rest ih =>
    obtain ⟨k3, v3⟩ := p
    unfold deleteKey at ih ⊢
    rw [List.filter_cons]
    by_cases hk : k3 = k2
    · have hd : decide ((k3, v3).1 ≠ k2) = false := by simp [hk]
      have hk3 : ¬ k3 = k := fun e => hne (hk.symm.trans e)
      rw [hd]
      simp only [Bool.false_eq_true, if_false, lookupKey, hk3]
      exact ih
    · have hd : decide ((k3, v3).1 ≠ k2) = true := by simp [hk]
      rw [hd]
      simp only [if_true, lookupKey]
      by_cases hk2 : k3 = k
      · simp only [hk2, if_true]
      · simp only [hk2, if_false]
        exact ih

theorem pairs_foldl_setKey (k : String) :
    ∀ (pairs : List (String × Val)) (R : List (String × Val)),
      k ∉ pairs.map (fun kv => kv.1) →
      hasKey k (pairs.foldl (fun acc kv => setKey kv.1 kv.2 acc) R) = hasKey k R
        ∧ lookupKey k (pairs.foldl (fun acc kv => setKey kv.1 kv.2 acc) R) = lookupKey k R := by
  intro pairs
  induction pairs with
  | nil => intro R _; exact ⟨rfl, rfl⟩
  | cons p rest ih =>
    intro R hk
    simp only [List.map_cons, List.mem_cons, not_or] at hk
    simp only [List.foldl_cons]
    obtain ⟨h1, h2⟩ := ih (setKey p.1 p.2 R) hk.2
    rw [h1, h2]
    exact ⟨hasKey_setKey_ne k p.1 p.2 R (fun e => hk.1 e.symm),
      lookupKey_setKey_ne k p.1 p.2 R (fun e => hk.1 e.symm)⟩

theorem cacheGet_foldl_delete (name : String) (c : Checker) :
    ∀ (pairs : List (String × Val)) (m : List (Val × Checker)),
      cacheGet (Val.str name) (pairs.foldl (fun acc kv => cacheDelete (Val.str kv.1) acc) m)
        = some c →
      name ∉ pairs.map (fun kv => kv.1) ∧ cacheGet (Val.str name) m = some c := by
  intro pairs
  induction pairs with
  | nil => intro m hm; exact ⟨by simp, hm⟩
  | cons p rest ih =>
    intro m hm
    simp only [List.foldl_cons] at hm
    obtain ⟨h1, h2⟩ := ih _ hm
    by_cases hp : p.1 = name
    · rw [hp, cacheGet_cacheDelete_same] at h2
      cases h2
    · rw [cacheGet_cacheDelete_ne (Val.str name) (Val.str p.1)
        (fun e => hp (by injection e))] at h2
      refine ⟨?_, h2⟩
      simp only [List.map_cons, List.mem_cons, not_or]
      exact ⟨fun e => hp e.symm, h1⟩

/-- What `_resolveRefChecker` reads of the instance for a string name. -/
theorem resolveRefChecker_congr (h : Host) (s s2 : Schema) (name : String)
    (ho : s2.options = s.options) (hl : s2.localDefs = s.localDefs)
    (hr : s2.rawSchema = s.rawSchema)
    (hk : hasKey name s2.externalRefs = hasKey name s.externalRefs)
    (hv : lookupKey name s2.externalRefs = lookupKey name s.externalRefs) :
    _resolveRefChecker h s2 (.str name) = _resolveRefChecker h s (.str name) := by
  unfold _resolveRefChecker refCheckerOf
  simp only [toStringJS, ho, hl, hr, hk, hv]

theorem getOverrideCheckerFor_congr (h : Host) (s s2 : Schema) (hf : s2.fields = s.fields)
    (k : String) (frag : Val) :
    _getOverrideCheckerFor h s2 k frag = _getOverrideCheckerFor h s k frag := by
  unfold _getOverrideCheckerFor Schema.normalizedSchema
  rw [hf]

theorem resolveRefChecker_fresh (h : Host) (s : Schema) (name : String) :
    _resolveRefChecker h s (.str name) = freshRefChecker h s name := by
  unfold _resolveRefChecker freshRefChecker lookupRef
  simp only [toStringJS]
  split
  · rfl
  · split
    · rfl
    · split <;> rfl

theorem fresh_coherent (h : Host) (s : Schema) : Coherent h (Instance.fresh s) :=
  ⟨fun _ _ hc => by simp [Instance.fresh, cacheGet] at hc,
   fun _ _ _ hc => by simp [Instance.fresh, cacheGet] at hc⟩

theorem isRefName_str (name : Val) (hn : isRefName name = true) : ∃ n, name = .str n := by
  cases name <;> simp [isRefName] at hn
  exact ⟨_, rfl⟩

/-- A change of the registry at one name, with that name deleted from the memo
table, keeps the tables coherent. -/
theorem coherent_registry_change (h : Host) (inst : Instance) (hc : Coherent h inst)
    (n : String) (refs : List (String × Val))
    (hk : ∀ k, k ≠ n → hasKey k refs = hasKey k inst.schema.externalRefs)
    (hv : ∀ k, k ≠ n → lookupKey k refs = lookupKey k inst.schema.externalRefs) :
    Coherent h { inst with
      schema := { inst.schema with externalRefs := refs }
      refCheckerCache := cacheDelete (Val.str n) inst.refCheckerCache } := by
  refine ⟨fun name c hg => ?_, fun k frag c hg => ?_⟩
  · simp only [] at hg
    by_cases hn : name = n
    · rw [hn, cacheGet_cacheDelete_same] at hg
      cases hg
    · rw [cacheGet_cacheDelete_ne (Val.str name) (Val.str n)
        (fun e => hn (by injection e with e; exact e.symm))] at hg
      rw [hc.1 name c hg]
      exact (resolveRefChecker_congr h inst.schema { inst.schema with externalRefs := refs }
        name rfl rfl rfl (hk name hn) (hv name hn)).symm
  · simp only [] at hg
    exact (getOverrideCheckerFor_congr h inst.schema { inst.schema with externalRefs := refs }
      rfl k frag).trans (hc.2 k frag c hg)

theorem coherent_addRef (h : Host) (inst : Instance) (hc : Coherent h inst)
    (name definition : Val) (inst2 : Instance)
    (hop : inst.addRef h name definition = .ok inst2) : Coherent h inst2 := by
  unfold Instance.addRef Schema.addRef at hop
  by_cases hn : isRefName name = true
  · obtain ⟨n, rfl⟩ := isRefName_str name hn
    simp only [hn, not_true_eq_false, if_false, toStringJS] at hop
    split at hop
    · cases hop
    · rename_i s2 hs
      split at hs
      · cases hs
      · injection hs with hs
        injection hop with hop
        subst hs
        subst hop
        exact coherent_registry_change h inst hc n _
          (fun k hk => hasKey_setKey_ne k n _ _ (fun e => hk e.symm))
          (fun k hk => lookupKey_setKey_ne k n _ _ (fun e => hk e.symm))
  · simp only [hn, Bool.false_eq_true, not_false_eq_true, if_true] at hop
    cases hop

theorem coherent_overrideRef (h : Host) (inst : Instance) (hc : Coherent h inst)
    (name definition : Val) (inst2 : Instance)
    (hop : inst.overrideRef h name definition = .ok inst2) : Coherent h inst2 := by
  unfold Instance.overrideRef Schema.overrideRef at hop
  by_cases hn : isRefName name = true
  · obtain ⟨n, rfl⟩ := isRefName_str name hn
    simp only [hn, not_true_eq_false, if_false, toStringJS] at hop
    injection hop with hop
    subst hop
    exact coherent_registry_change h inst hc n _
      (fun k hk => hasKey_setKey_ne k n _ _ (fun e => hk e.symm))
      (fun k hk => lookupKey_setKey_ne k n _ _ (fun e => hk e.symm))
  · simp only [hn, Bool.false_eq_true, not_false_eq_true, if_true] at hop
    cases hop

theorem coherent_removeRef (h : Host) (inst : Instance) (hc : Coherent h inst) (name : Val) :
    Coherent h (inst.removeRef h name).2 := by
  unfold Instance.removeRef
  by_cases hn : isRefName name = true
  · obtain ⟨n, rfl⟩ := isRefName_str name hn
    simp only [hn, not_true_eq_false, if_false]
    unfold Schema.removeRef
    simp only [hn, not_true_eq_false, if_false, toStringJS]
    by_cases hk : hasKey n inst.schema.externalRefs = true
    · simp only [hk, if_true]
      exact coherent_registry_change h inst hc n _
        (fun k hk2 => hasKey_deleteKey_ne k n (fun e => hk2 e.symm) _)
        (fun k hk2 => lookupKey_deleteKey_ne k n (fun e => hk2 e.symm) _)
    · simp only [hk, Bool.false_eq_true, if_false]
      exact coherent_registry_change h inst hc n inst.schema.externalRefs
        (fun _ _ => rfl) (fun _ _ => rfl)
  · simp only [hn, Bool.false_eq_true, not_false_eq_true, if_true]
    exact hc

theorem coherent_addRefs (h : Host) (inst : Instance) (hc : Coherent h inst) (refs : Val)
    (inst2 : Instance) (hop : inst.addRefs refs = .ok inst2) : Coherent h inst2 := by
  unfold Instance.addRefs at hop
  by_cases ht : truthy refs = true
  · simp only [ht, not_true_eq_false, if_false] at hop
    cases hi : incomingRefs refs with
    | error e => rw [hi] at hop; cases hop
    | ok incoming =>
      rw [hi] at hop
      simp only [] at hop
      cases hs : Schema.addRefs inst.schema refs with
      | error e => rw [hs] at hop; cases hop
      | ok s2 =>
        rw [hs] at hop
        injection hop with hop
        subst hop
        unfold Schema.addRefs at hs
        simp only [ht, not_true_eq_false, if_false, hi] at hs
        split at hs
        · cases hs
        · injection hs with hs
          subst hs
          refine ⟨fun name c hg => ?_, fun k frag c hg => ?_⟩
          · simp only [] at hg
            obtain ⟨hnot, hold⟩ := cacheGet_foldl_delete name c incoming _ hg
            rw [hc.1 name c hold]
            obtain ⟨e1, e2⟩ := pairs_foldl_setKey name incoming inst.schema.externalRefs hnot
            exact (resolveRefChecker_congr h inst.schema
              { inst.schema with
                externalRefs :=
                  incoming.foldl (fun acc kv => setKey kv.1 kv.2 acc) inst.schema.externalRefs }
              name rfl rfl rfl e1 e2).symm
          · simp only [] at hg
            exact (getOverrideCheckerFor_congr h inst.schema
              { inst.schema with
                externalRefs :=
                  incoming.foldl (fun acc kv => setKey kv.1 kv.2 acc) inst.schema.externalRefs }
              rfl k frag).trans (hc.2 k frag c hg)
  · simp only [ht, Bool.false_eq_true, not_false_eq_true, if_true] at hop
    injection hop with hop
    subst hop
    exact hc

theorem coherent_updateOptions (h : Host) (inst : Instance) (opts : OptionsPatch) :
    Coherent h (inst.updateOptions opts) :=
  ⟨fun _ _ hc => by simp [Instance.updateOptions, cacheGet] at hc,
   fun _ _ _ hc => by simp [Instance.updateOptions, cacheGet] at hc⟩

theorem coherent_cachedRefChecker (h : Host) (inst : Instance) (hc : Coherent h inst)
    (name : Val) : Coherent h (cachedRefChecker h inst name).2 := by
  unfold cachedRefChecker
  cases hg : cacheGet name inst.refCheckerCache with
  | some c => exact hc
  | none =>
    refine ⟨fun n c hget => ?_, fun k frag c hget => hc.2 k frag c hget⟩
    simp only [] at hget
    by_cases hn : name = .str n
    · subst hn
      rw [cacheGet_cacheSet_same] at hget
      injection hget with hget
      exact hget.symm
    · rw [cacheGet_cacheSet_ne (Val.str n) name _ hn] at hget
      exact hc.1 n c hget

theorem coherent_cachedOverrideChecker (h : Host) (inst : Instance) (hc : Coherent h inst)
    (k : String) (frag : Val) : Coherent h (cachedOverrideChecker h inst k frag).2 := by
  unfold cachedOverrideChecker
  by_cases hk : isObjectKey frag = true
  · simp only [hk, if_true]
    cases hg : cacheGet (k, frag) inst.overrideCheckerCache with
    | some c => exact hc
    | none =>
      simp only []
      cases hp : _getOverrideCheckerFor h inst.schema k frag with
      | error e => exact hc
      | ok c =>
        refine ⟨fun n c2 hget => hc.1 n c2 hget, fun k2 f2 c2 hget => ?_⟩
        simp only [] at hget ⊢
        by_cases hkf : (k, frag) = (k2, f2)
        · injection hkf with e1 e2
          subst e1; subst e2
          rw [cacheGet_cacheSet_same] at hget
          injection hget with hget
          rw [← hget]
          exact hp
        · rw [cacheGet_cacheSet_ne (k2, f2) (k, frag) _ hkf] at hget
          exact hc.2 k2 f2 c2 hget
  · simp only [hk, Bool.false_eq_true, if_false]
    exact hc

theorem coherent_cachedSelect (h : Host) (inst : Instance) (hc : Coherent h inst)
    (ov : List (String × Val)) (f : Field) : Coherent h (cachedSelect h inst ov f).2 := by
  unfold cachedSelect
  split
  · exact coherent_cachedOverrideChecker h inst hc _ _
  · split
    · exact hc
    · exact coherent_cachedRefChecker h inst hc _

theorem coherent_counts (h : Host) (inst : Instance) (hc : Coherent h inst)
    (cs : List (String × Nat)) : Coherent h { inst with counts := cs } :=
  ⟨fun n c hg => hc.1 n c hg, fun k f c hg => hc.2 k f c hg⟩

theorem coherent_cachedFieldLoop (h : Host) (obj : List (String × Val)) (opts : Options)
    (ov : List (String × Val)) :
    ∀ (fs : List Field) (E : List Err) (R : List (String × Val)) (inst : Instance),
      Coherent h inst → Coherent h (cachedFieldLoop h obj opts ov fs E R inst).2 := by
  intro fs
  induction fs with
  | nil => intro E R inst hc; exact hc
  | cons f rest ih =>
    intro E R inst hc
    have hsel := coherent_cachedSelect h inst hc ov f
    unfold cachedFieldLoop
    cases hs : (cachedSelect h inst ov f).1 with
    | error e => exact hsel
    | ok ck =>
      simp only []
      cases hr : ck (lookupKey f.key obj) { path := fieldPath opts f.key, options := opts } with
      | error e => exact hsel
      | ok p =>
        obtain ⟨entryErrors, coerced⟩ := p
        simp only []
        split
        · exact coherent_counts h _ hsel _
        · exact ih _ _ _ (coherent_counts h _ hsel _)

theorem coherent_validate (h : Host) (inst : Instance) (hc : Coherent h inst)
    (obj : List (String × Val)) (callOptions : OptionsPatch) :
    Coherent h (inst.validate h obj callOptions).2 := by
  have hv := coherent_cachedFieldLoop h obj (assignOptions inst.schema.options callOptions)
    (_evaluateConditionals h inst.schema (.obj .plain obj)) inst.schema.fields [] [] inst hc
  unfold Instance.validate
  generalize cachedFieldLoop h obj (assignOptions inst.schema.options callOptions)
    (_evaluateConditionals h inst.schema (.obj .plain obj)) inst.schema.fields [] [] inst = out
    at hv
  obtain ⟨flow, inst2⟩ := out
  cases flow with
  | stop r => exact hv
  | go errors result =>
    simp only []
    cases unknownKeys inst.schema (assignOptions inst.schema.options callOptions) obj errors
        result with
    | stop r => exact hv
    | go errors2 result2 => exact hv

theorem coherent_step (h : Host) (inst : Instance) (hc : Coherent h inst) (op : Op) :
    Coherent h (inst.step h op) := by
  cases op with
  | addRef name definition =>
    show Coherent h (match inst.addRef h name definition with
      | .ok i => i
      | .error _ => inst)
    cases hop : inst.addRef h name definition with
    | ok i => exact coherent_addRef h inst hc name definition i hop
    | error e => exact hc
  | addRefs refs =>
    show Coherent h (match inst.addRefs refs with
      | .ok i => i
      | .error _ => inst)
    cases hop : inst.addRefs refs with
    | ok i => exact coherent_addRefs h inst hc refs i hop
    | error e => exact hc
  | overrideRef name definition =>
    show Coherent h (match inst.overrideRef h name definition with
      | .ok i => i
      | .error _ => inst)
    cases hop : inst.overrideRef h name definition with
    | ok i => exact coherent_overrideRef h inst hc name definition i hop
    | error e => exact hc
  | removeRef name => exact coherent_removeRef h inst hc name
  | updateOptions opts => exact coherent_updateOptions h inst opts
  | validate obj callOptions => exact coherent_validate h inst hc obj callOptions

theorem coherent_run (h : Host) (ops : List Op) :
    ∀ inst : Instance, Coherent h inst → Coherent h (inst.run h ops) := by
  induction ops with
  | nil => intro inst hc; exact hc
  | cons op rest ih =>
    intro inst hc
    exact ih _ (coherent_step h inst hc op)

theorem cachedSelect_pure (h : Host) (inst : Instance) (hc : Coherent h inst)
    (ov : List (String × Val)) (f : Field)
    (hname : ∀ n, f.checker = .lazyRef n → ∃ t, n = .str t) :
    (cachedSelect h inst ov f).1 = selectChecker h inst.schema ov f := by
  unfold cachedSelect selectChecker
  split
  · rw [cachedOverrideChecker_fst]
    split
    · cases hg : cacheGet (f.key, lookupKey f.key ov) inst.overrideCheckerCache with
      | some c => exact (hc.2 _ _ c hg).symm
      | none => rfl
    · rfl
  · cases hf : f.checker with
    | compiled c => rfl
    | lazyRef name =>
      obtain ⟨t, rfl⟩ := hname name hf
      simp only []
      rw [cachedRefChecker_fst]
      cases hg : cacheGet (Val.str t) inst.refCheckerCache with
      | some c => rw [hc.1 t c hg]
      | none => rfl

theorem cachedFieldLoop_pure (h : Host) (s : Schema) (obj : List (String × Val))
    (opts : Options) (ov : List (String × Val)) :
    ∀ (fs : List Field) (E : List Err) (R : List (String × Val)) (inst : Instance),
      Coherent h inst → inst.schema = s →
      (∀ f ∈ fs, ∀ n, f.checker = .lazyRef n → ∃ t, n = .str t) →
      (cachedFieldLoop h obj opts ov fs E R inst).1 = fieldLoop h s obj opts ov fs E R := by
  intro fs
  induction fs with
  | nil => intro E R inst _ _ _; rfl
  | cons f rest ih =>
    intro E R inst hc hs hnames
    have hsel := cachedSelect_pure h inst hc ov f (hnames f (List.mem_cons_self _ _))
    have hco := coherent_cachedSelect h inst hc ov f
    have hview := (cachedSelect_view h inst ov f).1
    rw [cachedFieldLoop, fieldLoop, runField, ← hs, ← hsel]
    cases hsc : (cachedSelect h inst ov f).1 with
    | error e => rfl
    | ok ck =>
      simp only []
      cases hr : ck (lookupKey f.key obj) { path := fieldPath opts f.key, options := opts } with
      | error e => rfl
      | ok p =>
        obtain ⟨entryErrors, coerced⟩ := p
        simp only []
        split
        · rfl
        · rw [hs]
          exact ih _ _ _ (coherent_counts h _ hco _) (hview.symm.trans hs)
            (fun g hg => hnames g (List.mem_cons_of_mem _ hg))

/-- On an instance with coherent tables whose reference fields are named by
strings, `validate` with the memo tables returns what `validate` without them
returns. -/
theorem validate_pure (h : Host) (inst : Instance) (hc : Coherent h inst)
    (hnames : ∀ f ∈ inst.schema.fields, ∀ n, f.checker = .lazyRef n → ∃ t, n = .str t)
    (obj : List (String × Val)) (callOptions : OptionsPatch) :
    (inst.validate h obj callOptions).1 = validate h inst.schema obj callOptions := by
  rw [validate_fst, cachedFieldLoop_pure h inst.schema obj _ _ inst.schema.fields [] [] inst hc
    rfl hnames]
  rfl

theorem step_fields (h : Host) (inst : Instance) (op : Op) :
    (inst.step h op).schema.fields = inst.schema.fields := by
  cases op with
  | addRef name definition =>
    show (match inst.addRef h name definition with
      | .ok i => i
      | .error _ => inst).schema.fields = inst.schema.fields
    cases hop : inst.addRef h name definition with
    | error e => rfl
    | ok i =>
      unfold Instance.addRef Schema.addRef at hop
      split at hop
      · cases hop
      · rename_i s2 hs
        injection hop with hop
        subst hop
        split at hs
        · cases hs
        · split at hs
          · cases hs
          · injection hs with hs
            subst hs
            rfl
  | addRefs refs =>
    show (match inst.addRefs refs with
      | .ok i => i
      | .error _ => inst).schema.fields = inst.schema.fields
    cases hop : inst.addRefs refs with
    | error e => rfl
    | ok i =>
      unfold Instance.addRefs at hop
      split at hop
      · injection hop with hop
        subst hop
        rfl
      · split at hop
        · cases hop
        · split at hop
          · cases hop
          · rename_i s2 hs
            injection hop with hop
            subst hop
            unfold Schema.addRefs at hs
            split at hs
            · injection hs with hs
              subst hs
              rfl
            · split at hs
              · cases hs
              · split at hs
                · cases hs
                · injection hs with hs
                  subst hs
                  rfl
  | overrideRef name definition =>
    show (match inst.overrideRef h name definition with
      | .ok i => i
      | .error _ => inst).schema.fields = inst.schema.fields
    cases hop : inst.overrideRef h name definition with
    | error e => rfl
    | ok i =>
      unfold Instance.overrideRef Schema.overrideRef at hop
      split at hop
      · cases hop
      · rename_i s2 hs
        injection hop with hop
        subst hop
        split at hs
        · cases hs
        · injection hs with hs
          subst hs
          rfl
  | removeRef name =>
    show (inst.removeRef h name).2.schema.fields = inst.schema.fields
    unfold Instance.removeRef Schema.removeRef
    split
    · rfl
    · simp only []
      split
      · rfl
      · rfl
  | updateOptions opts => rfl
  | validate obj callOptions =>
    show (inst.validate h obj callOptions).2.schema.fields = inst.schema.fields
    rw [← (validate_view h inst obj callOptions).1]

theorem run_fields (h : Host) (ops : List Op) :
    ∀ inst : Instance, (inst.run h ops).schema.fields = inst.schema.fields := by
  induction ops with
  | nil => intro inst; rfl
  | cons op rest ih =>
    intro inst
    exact (ih _).trans (step_fields h inst op)

set_option maxHeartbeats 4000000 in
/-- C34: the memo table of resolved references never serves a replaced or
removed definition.  On the instance reached from a constructed one by any
sequence of `addRef`, `addRefs`, `overrideRef`, `removeRef`, `updateOptions` and
`validate` calls, the memo tables are coherent; the checker that `validate`
runs for a top-level field declared as `{ $ref: name }` (and not overridden by a
rule) is the checker freshly compiled from the definition that `name` resolves
to at present, the external registry first, then `$defs`, then the path into
the raw schema, else the checker reporting the unresolved reference; and when
the reference fields of the schema are named by strings, `validate` returns
what `validate` without memo tables returns on the present schema.  For the
schema `{ a: { $ref: 'R' } }`, after `addRef('R', { type: 'string' })`, a validation,
and `overrideRef('R', { type: 'number' })`, the input `{ a: 1 }` is valid; it was
invalid before the override, and after `removeRef('R')` the field reports the
unresolved reference. -/
theorem ref_cache_coherent (h : Host) (s : Schema) (ops : List Op) :
    Coherent h ((Instance.fresh s).run h ops)
    ∧ (∀ (k name : String) (ov : List (String × Val)), hasKey k ov = false →
        (cachedSelect h ((Instance.fresh s).run h ops) ov (refField k name)).1
          = .ok (freshRefChecker h ((Instance.fresh s).run h ops).schema name))
    ∧ ((∀ f ∈ s.fields, ∀ n, f.checker = .lazyRef n → ∃ t, n = .str t) →
        ∀ (obj : List (String × Val)) (callOptions : OptionsPatch),
          (((Instance.fresh s).run h ops).validate h obj callOptions).1
            = validate h ((Instance.fresh s).run h ops).schema obj callOptions)
    ∧ validateAfter exampleHost refOnlySchema {} refScenario [("a", .num 1)] {}
        = .ok (.result true [] (.obj .plain [("a", .num 1)]))
    ∧ validateAfter exampleHost refOnlySchema {} (refScenario.take 2) [("a", .num 1)] {}
        = .ok (.result false
            [{ path := "a", message := "Invalid a field. expected type string, received number"
               code := "ERR_TYPE", rawError := .null }]
            (.obj .plain [("a", .num 1)]))
    ∧ validateAfter exampleHost refOnlySchema {}
        (refScenario ++ [.validate [("a", .num 1)] {}, .removeRef (.str "R")])
        [("a", .num 1)] {}
        = .ok (.result false
            [{ path := "a", message := "Invalid a field. unresolved ref 'R'"
               code := "ERR_REF_UNRESOLVED", rawError := .null }]
            (.obj .plain [("a", .num 1)])) := by
  have hc := coherent_run h ops (Instance.fresh s) (fresh_coherent h s)
  refine ⟨hc, ?_, ?_, by decide, by decide, by decide⟩
  · intro k name ov hk
    have hsel := cachedSelect_pure h _ hc ov (refField k name)
      (fun n hn => by
        injection hn with hn
        exact ⟨name, hn.symm⟩)
    rw [hsel]
    unfold selectChecker
    simp only [refField, hk, Bool.false_eq_true, if_false]
    rw [resolveRefChecker_fresh]
  · intro hnames obj callOptions
    apply validate_pure h _ hc
    intro f hf
    rw [run_fields] at hf
    exact hnames f hf

/-- Witness for C34: on the instance of the schema `{ a: { $ref: 'R' } }` after the
calls of `refScenario`, the checker run for the field `a` is the one freshly
compiled from the present definition of `R`. -/
theorem ref_cache_coherent_witness :
    (cachedSelect exampleHost
        ((Instance.fresh (plainSchema (.obj .plain refOnlySchema) [refField "a" "R"])).run
          exampleHost refScenario) [] (refField "a" "R")).1
      = .ok (freshRefChecker exampleHost
          ((Instance.fresh (plainSchema (.obj .plain refOnlySchema) [refField "a" "R"])).run
            exampleHost refScenario).schema "R") :=
  (ref_cache_coherent exampleHost (plainSchema (.obj .plain refOnlySchema) [refField "a" "R"])
    refScenario).2.1 "a" "R" [] rfl

end GentleSchema

namespace GentleSchema

/-! ## C33: `withOptions` drops the conditional rules -/

set_option maxHeartbeats 4000000 in
/-- C33: `withOptions` does not clone the conditional rules.  Whatever the
instance and the options, a clone that `withOptions` returns has no conditional
rule and has the external references of the original; so for the schema
`{ kind: 'string', age: { type: 'number' } }` with the rule
`when('kind').is('a').do({ age: { min: 0 } })` and the input `{ kind: 'a', age: -5 }`,
`s.validate(x, o)` reports `ERR_MIN` at `age` while `s.withOptions(o).validate(x)` is
valid, for `o = {}` as for `o = { strict: true }`. -/
theorem withOptions_drops_rules :
    (∀ (h : Host) (s : Schema) (o : OptionsPatch),
        match Schema.withOptions h s o with
        | .ok clone =>
          clone.conditionals = []
            ∧ clone.externalRefs = objectAssign [] (.obj .plain s.externalRefs)
            ∧ clone.options = assignOptions s.options o
        | .error _ => True)
    ∧ validateWithRules exampleHost kindAgeSchema {} [minRule]
        [("kind", .str "a"), ("age", .num (-5))] {}
      = .ok (.result false
          [{ path := "age", message := "Invalid age field. must be >= 0", code := "ERR_MIN"
             rawError := .null }]
          (.obj .plain [("kind", .str "a"), ("age", .num (-5))]))
    ∧ validateOnClone exampleHost kindAgeSchema {} [minRule] {}
        [("kind", .str "a"), ("age", .num (-5))]
      = .ok (.result true [] (.obj .plain [("kind", .str "a"), ("age", .num (-5))]))
    ∧ validateWithRules exampleHost kindAgeSchema {} [minRule]
        [("kind", .str "a"), ("age", .num (-5))] { strict := some true }
      = .ok (.result false
          [{ path := "age", message := "Invalid age field. must be >= 0", code := "ERR_MIN"
             rawError := .null }]
          (.obj .plain [("kind", .str "a"), ("age", .num (-5))]))
    ∧ validateOnClone exampleHost kindAgeSchema {} [minRule] { strict := some true }
        [("kind", .str "a"), ("age", .num (-5))]
      = .ok (.result true [] (.obj .plain [("kind", .str "a"), ("age", .num (-5))])) := by
  refine ⟨?_, by decide, by decide, by decide, by decide⟩
  intro h s o
  cases hw : Schema.withOptions h s o with
  | error e => trivial
  | ok clone =>
    show clone.conditionals = []
      ∧ clone.externalRefs = objectAssign [] (.obj .plain s.externalRefs)
      ∧ clone.options = assignOptions s.options o
    unfold Schema.withOptions at hw
    split at hw
    · rename_i cls schemaDef hr
      split at hw
      · cases hw
      · rename_i c0 hc
        injection hw with hw
        subst hw
        obtain ⟨h1, h2, _, _⟩ := create_shape h schemaDef _ c0 hc
        exact ⟨h1, rfl, by rw [h2]; rfl⟩
    · cases hw

end GentleSchema

namespace GentleSchema

/-! ## C35: the errors of an array are those of its elements, in order -/

theorem itemsLoop_collects (r : Rules) (ic : Checker) (path : String) (options : Options)
    (out : Val) (hff : options.failFast = false) :
    ∀ (xs : List Val) (outs : List (List Err × Val)) (i : Nat) (errs : List Err)
      (newArr : List Val) (hadErr : Bool),
      elementResults ic path options xs i = outs.map .ok →
      itemsLoop r ic path options out xs i errs newArr hadErr
        = .finished (errs ++ outs.flatMap (fun o => o.1))
            (newArr ++ (outs.filter (fun o => o.1.length = 0)).map (fun o => o.2),
             hadErr || outs.any (fun o => o.1.length ≠ 0)) := by
  intro xs
  induction xs with
  | nil =>
    intro outs i errs newArr hadErr hch
    cases outs with
    | nil => simp [itemsLoop]
    | cons o os => simp [elementResults] at hch
  | cons x rest ih =>
    intro outs i errs newArr hadErr hch
    cases outs with
    | nil => simp [elementResults] at hch
    | cons o os =>
      simp only [elementResults, List.map_cons, List.cons.injEq] at hch
      obtain ⟨hx, hrest⟩ := hch
      obtain ⟨childErrs, childVal⟩ := o
      unfold itemsLoop
      rw [hx]
      simp only []
      by_cases hc : childErrs.length ≠ 0
      · rw [if_pos hc]
        simp only [hff, Bool.false_eq_true, if_false]
        rw [ih os (i + 1) (errs ++ childErrs) newArr true hrest]
        have hne : childErrs ≠ [] := by
          intro he
          rw [he] at hc
          exact hc rfl
        simp [List.flatMap_cons, List.filter_cons, hne, List.append_assoc]
      · rw [if_neg hc]
        rw [ih os (i + 1) errs (newArr ++ [childVal]) hadErr hrest]
        have hc2 : childErrs = [] := by
          cases childErrs with
          | nil => rfl
          | cons a b => simp at hc
        subst hc2
        simp [List.flatMap_cons, List.filter_cons, List.append_assoc]

theorem elementResults_length (ic : Checker) (path : String) (options : Options) :
    ∀ (xs : List Val) (i : Nat), (elementResults ic path options xs i).length = xs.length := by
  intro xs
  induction xs with
  | nil => intro i; rfl
  | cons x rest ih => intro i; simp [elementResults, ih]

/-- C35: for an array value `xs`, an items checker `ic`, non-fail-fast options and
a field without validator, when the element at each index `i`, checked at the
path `_arrayPath path i` (`<parent>[<index>]`), returns the pair `outs[i]` of
its errors and its normalised value, the field returns the concatenation of
the errors of the elements in index order; its value is the array of the
normalised values of the elements, in the same order and of the same length,
if no element has an error, and the original array if some element has one. -/
theorem items_errors_concatenate (h : Host) (r : Rules) (ic : Checker)
    (pc : Option (List (String × Checker))) (xs : List Val) (ctx : Ctx)
    (outs : List (List Err × Val)) (hff : ctx.options.failFast = false)
    (hv : ∀ f, r.validator ≠ .fn f)
    (hch : elementResults ic ctx.path ctx.options xs 0 = outs.map .ok) :
    fromItems h r (some ic) pc (.arr xs) ctx
        = .ok (outs.flatMap (fun o => o.1),
            if outs.all (fun o => o.1.length = 0) then .arr (outs.map (fun o => o.2))
            else .arr xs)
      ∧ outs.length = xs.length := by
  have hlen : outs.length = xs.length := by
    have := elementResults_length ic ctx.path ctx.options xs 0
    rw [hch, List.length_map] at this
    exact this
  refine ⟨?_, hlen⟩
  have hval : ∀ (errs : List Err) (out : Val), fromValidator h r errs out ctx = .ok (errs, out) := by
    intro errs out
    unfold fromValidator
    split
    · rename_i f hf
      exact absurd hf (hv f)
    · rfl
  have hprops : ∀ (errs : List Err) (ys : List Val),
      fromProps h r pc errs (.arr ys) ctx = .ok (errs, .arr ys) := by
    intro errs ys
    unfold fromProps
    cases pc with
    | none => exact hval _ _
    | some props => simp [_isPlainObject, hval]
  unfold fromItems
  simp only []
  rw [itemsLoop_collects r ic ctx.path ctx.options (.arr xs) hff xs outs 0 [] [] false hch]
  simp only [List.nil_append, Bool.false_or]
  by_cases hall : outs.all (fun o => o.1.length = 0) = true
  · have hany : outs.any (fun o => o.1.length ≠ 0) = false := by
      rw [List.any_eq_false]
      intro o ho
      have := (List.all_eq_true.mp hall) o ho
      simpa using this
    have hfil : outs.filter (fun o => o.1.length = 0) = outs := by
      rw [List.filter_eq_self]
      intro o ho
      exact (List.all_eq_true.mp hall) o ho
    rw [hany, hfil, if_pos hall]
    simp only [Bool.false_eq_true, if_false]
    exact hprops _ _
  · have hany : outs.any (fun o => o.1.length ≠ 0) = true := by
      rw [List.any_eq_true]
      by_contra hno
      apply hall
      rw [List.all_eq_true]
      intro o ho
      by_contra hne
      exact hno ⟨o, ho, by simpa using hne⟩
    rw [hany, if_neg hall]
    simp only [if_true]
    exact hprops _ _

/-- Witness for C35: the items checker of `'string'` on `['a', 1, 2]` at the path
`tags`: the element errors at `tags[1]` and `tags[2]` are returned in order and
the value is the original array. -/
theorem items_errors_concatenate_witness :
    fromItems exampleHost arrayRules (some stringItemChecker) none
        (.arr [.str "a", .num 1, .num 2]) { path := "tags", options := DEFAULT_OPTIONS }
        = .ok (mixedOutcomes.flatMap (fun o => o.1),
            if mixedOutcomes.all (fun o => o.1.length = 0)
            then .arr (mixedOutcomes.map (fun o => o.2))
            else .arr [.str "a", .num 1, .num 2])
      ∧ mixedOutcomes.length = [Val.str "a", Val.num 1, Val.num 2].length :=
  items_errors_concatenate exampleHost arrayRules stringItemChecker none
    [.str "a", .num 1, .num 2] { path := "tags", options := DEFAULT_OPTIONS } mixedOutcomes rfl
    (fun f hf => by cases hf) (by decide)

end GentleSchema
namespace GentleSchema

/-! ## C36: the top level and a nested structure report the same errors -/

theorem itemsLoop_flags (r : Rules) (ic : Checker) (hic : ReadsFlagsOnly ic) (path : String)
    (a b : Options) (hf : SameFlags a b) (out : Val) :
    ∀ (xs : List Val) (i : Nat) (errs : List Err) (newArr : List Val) (hadErr : Bool),
      itemsLoop r ic path a out xs i errs newArr hadErr
        = itemsLoop r ic path b out xs i errs newArr hadErr := by
  intro xs
  induction xs with
  | nil => intro i errs newArr hadErr; rfl
  | cons x rest ih =>
    intro i errs newArr hadErr
    rw [itemsLoop, itemsLoop, hic x _ a b hf]
    simp only [ih, hf.1]

theorem propsLoop_flags (r : Rules) (path : String) (a b : Options) (hf : SameFlags a b)
    (out : Val) :
    ∀ (props : List (String × Checker)), (∀ p ∈ props, ReadsFlagsOnly p.2) →
      ∀ (errs : List Err) (nested : List (String × Val)),
      propsLoop r path a out props errs nested = propsLoop r path b out props errs nested := by
  intro props
  induction props with
  | nil => intro _ errs nested; rfl
  | cons p rest ih =>
    intro hp errs nested
    obtain ⟨pk, ck⟩ := p
    have hck : ReadsFlagsOnly ck := hp (pk, ck) (List.mem_cons_self _ _)
    rw [propsLoop, propsLoop, hck _ _ a b hf]
    simp only [ih (fun q hq => hp q (List.mem_cons_of_mem _ hq)), hf.1]

theorem strictUnknownLoop_flags (r : Rules) (path : String) (a b : Options)
    (hf : SameFlags a b) (out : Val) (nk : List String) :
    ∀ (ks : List String) (errs : List Err),
      strictUnknownLoop r path a out nk ks errs = strictUnknownLoop r path b out nk ks errs := by
  intro ks
  induction ks with
  | nil => intro errs; rfl
  | cons k rest ih =>
    intro errs
    rw [strictUnknownLoop, strictUnknownLoop]
    simp only [ih, hf.1, hf.2.1]

theorem lenientUnknownLoop_flags (a b : Options) (hf : SameFlags a b) (out : Val)
    (nk : List String) :
    ∀ (ks : List String) (nested : List (String × Val)),
      lenientUnknownLoop a out nk ks nested = lenientUnknownLoop b out nk ks nested := by
  intro ks
  induction ks with
  | nil => intro nested; rfl
  | cons k rest ih =>
    intro nested
    rw [lenientUnknownLoop, lenientUnknownLoop]
    simp only [ih, hf.2.1]

theorem checker_flags (h : Host) (r : Rules) (ic : Option Checker)
    (pc : Option (List (String × Checker)))
    (hic : ∀ c, ic = some c → ReadsFlagsOnly c)
    (hpc : ∀ props, pc = some props → ∀ p ∈ props, ReadsFlagsOnly p.2) :
    ReadsFlagsOnly (checker h r ic pc) := by
  intro v path a b hf
  have hprops : ∀ errs out, fromProps h r pc errs out { path := path, options := a }
      = fromProps h r pc errs out { path := path, options := b } := by
    intro errs out
    unfold fromProps
    cases pc with
    | none => rfl
    | some props =>
      simp only []
      rw [propsLoop_flags r path a b hf out props (hpc props rfl)]
      simp only [strictUnknownLoop_flags r path a b hf, lenientUnknownLoop_flags a b hf, hf.2.2.1]
      rfl
  have hitems : ∀ out, fromItems h r ic pc out { path := path, options := a }
      = fromItems h r ic pc out { path := path, options := b } := by
    intro out
    unfold fromItems
    split
    · rename_i xs c
      simp only []
      rw [itemsLoop_flags r c (hic c rfl) path a b hf]
      simp only [hprops]
    · exact hprops _ _
  have hbounds : ∀ out, fromBounds h r ic pc out { path := path, options := a }
      = fromBounds h r ic pc out { path := path, options := b } := by
    intro out
    unfold fromBounds
    simp only [hitems]
  have hregex : ∀ out, fromRegex h r ic pc out { path := path, options := a }
      = fromRegex h r ic pc out { path := path, options := b } := by
    intro out
    unfold fromRegex
    simp only [hbounds]
  have henum : ∀ out, fromEnum h r ic pc out { path := path, options := a }
      = fromEnum h r ic pc out { path := path, options := b } := by
    intro out
    unfold fromEnum
    simp only [hregex, hf.2.2.2.2.2.1]
  have htype : ∀ out, fromType h r ic pc out { path := path, options := a }
      = fromType h r ic pc out { path := path, options := b } := by
    intro out
    unfold fromType
    simp only [henum, hf.2.2.2.2.2.2]
  have hcoerce : ∀ out, fromCoerce h r ic pc out { path := path, options := a }
      = fromCoerce h r ic pc out { path := path, options := b } := by
    intro out
    unfold fromCoerce
    simp only [htype, hf.2.2.2.1]
  have hvonly : ∀ out, fromValidatorOnly h r ic pc out { path := path, options := a }
      = fromValidatorOnly h r ic pc out { path := path, options := b } := by
    intro out
    unfold fromValidatorOnly
    simp only [hcoerce]
  have hnull : ∀ out, fromNull h r ic pc out { path := path, options := a }
      = fromNull h r ic pc out { path := path, options := b } := by
    intro out
    unfold fromNull
    simp only [hvonly, hf.2.2.2.2.1]
  unfold checker
  simp only [hnull]

theorem makeChecker_flags (h : Host) (e : Val) (c : Checker) (hc : makeChecker h e = .ok c) :
    ReadsFlagsOnly c :=
  makeChecker_induct h ReadsFlagsOnly (checker_flags h) e c hc

theorem makeErr_unknown (r : Rules) (hm : r.errorMessage = none) (path : String) :
    makeErr r path "unknown field" "ERR_UNKNOWN" .null
      = _makeErrorObj path "unknown field" "ERR_UNKNOWN" .null := by
  simp [makeErr, _makeErrorObj, hm]

theorem fieldPath_root (opts : Options) (hp : opts.pathPrefix = "root") (k : String) :
    fieldPath opts k = childPathOf "root" k := by
  simp [fieldPath, childPathOf, hp]

theorem runField_compiled_plain (h : Host) (s : Schema) (obj : List (String × Val))
    (opts : Options) (f : Field) (c : Checker) (hf : f.checker = .compiled c) :
    runField h s obj opts [] f
      = c (lookupKey f.key obj) { path := fieldPath opts f.key, options := opts } := by
  simp [runField, selectChecker, hasKey, hf]

/-- The field loop of `validate` and the property loop of a checker over the
same declared keys and checkers run in step. -/
theorem fieldLoop_propsLoop (h : Host) (s : Schema) (obj : List (String × Val))
    (opts opts2 : Options) (hflags : SameFlags opts opts2) (hp : opts.pathPrefix = "root")
    (hvo : opts.valueOnly = false) (r : Rules) (hthrow : r.throwField = false) :
    ∀ (fields : List Field) (props : List (String × Checker)),
      List.Forall₂ (fun (f : Field) (p : String × Checker) =>
        f.key = p.1 ∧ f.checker = .compiled p.2 ∧ ReadsFlagsOnly p.2) fields props →
      ∀ (E : List Err) (R N : List (String × Val)),
        (∃ ex, fieldLoop h s obj opts [] fields E R = .stop (.error ex)
            ∧ propsLoop r "root" opts2 (.obj .plain obj) props E N = .returned (.error ex))
        ∨ (∃ E2 R2, E2 ≠ [] ∧ fieldLoop h s obj opts [] fields E R
              = .stop (.ok (.result false E2 (.obj .plain R2)))
            ∧ propsLoop r "root" opts2 (.obj .plain obj) props E N
              = .returned (.ok (E2, .obj .plain obj)))
        ∨ (∃ E2 R2 N2, fieldLoop h s obj opts [] fields E R = .go E2 R2
            ∧ propsLoop r "root" opts2 (.obj .plain obj) props E N = .finished E2 N2
            ∧ (opts.failFast = true → E2 = E)) := by
  intro fields props hrel
  induction hrel with
  | nil =>
    intro E R N
    exact Or.inr (Or.inr ⟨E, R, N, rfl, rfl, fun _ => rfl⟩)
  | @cons f p fields2 props2 hhead _ ih =>
    intro E R N
    obtain ⟨pk, ck⟩ := p
    obtain ⟨hk, hck, hfl⟩ := hhead
    simp only [] at hk hck hfl
    rw [fieldLoop, propsLoop, runField_compiled_plain h s obj opts f ck hck,
      fieldPath_root opts hp, hk]
    have hsame : ck (lookupKey pk obj) { path := childPathOf "root" pk, options := opts }
        = ck (getProp (.obj .plain obj) pk) { path := childPathOf "root" pk, options := opts2 } :=
      hfl _ _ opts opts2 hflags
    rw [hsame]
    cases hres : ck (getProp (.obj .plain obj) pk)
        { path := childPathOf "root" pk, options := opts2 } with
    | error ex => exact Or.inl ⟨ex, rfl, rfl⟩
    | ok q =>
      obtain ⟨childErrs, childVal⟩ := q
      simp only []
      by_cases hc : childErrs.length ≠ 0
      · by_cases hff : opts.failFast = true
        · have hff2 : opts2.failFast = true := by rw [← hflags.1]; exact hff
          refine Or.inr (Or.inl ⟨E ++ childErrs, R, ?_, ?_, ?_⟩)
          · intro he
            have := congrArg List.length he
            simp at this
            exact hc (by rw [this.2]; rfl)
          · simp [hc, hff, failFastExit, hvo]
          · simp [hc, hff2, hthrow]
        · have hff2 : ¬ opts2.failFast = true := by rw [← hflags.1]; exact hff
          simp only [hc, hff, hff2, and_false, and_true, if_false, if_true, not_false_eq_true,
            ne_eq]
          rcases ih (E ++ childErrs) _ N with hx | hx | hx
          · exact Or.inl hx
          · exact Or.inr (Or.inl hx)
          · obtain ⟨E2, R2, N2, h1, h2, _⟩ := hx
            exact Or.inr (Or.inr ⟨E2, R2, N2, h1, h2, fun hf => Bool.noConfusion hf⟩)
      · simp only [hc, false_and, if_false, not_false_eq_true, ne_eq]
        rcases ih E _ (setKey pk childVal N) with hx | hx | hx
        · exact Or.inl hx
        · exact Or.inr (Or.inl hx)
        · exact Or.inr (Or.inr hx)

/-- The strict unknown-key loops of `validate` and of a checker run in step. -/
theorem strictTopLoop_unknownLoop (s : Schema) (obj : List (String × Val))
    (opts opts2 : Options) (hflags : SameFlags opts opts2) (hp : opts.pathPrefix = "root")
    (hvo : opts.valueOnly = false) (r : Rules) (hthrow : r.throwField = false)
    (hm : r.errorMessage = none) (nk : List String)
    (hnk : ∀ k, hasKey k s.normalizedSchema = foundIn nk k) :
    ∀ (ks : List String) (E : List Err) (R : List (String × Val)),
      (∃ E2, E2 ≠ [] ∧ strictTopLoop s opts ks E R
            = .stop (.ok (.result false E2 (.obj .plain R)))
          ∧ strictUnknownLoop r "root" opts2 (.obj .plain obj) nk ks E
            = .returned (.ok (E2, .obj .plain obj)))
      ∨ (∃ E2, strictTopLoop s opts ks E R = .go E2 R
          ∧ strictUnknownLoop r "root" opts2 (.obj .plain obj) nk ks E = .finished E2 ()) := by
  intro ks
  induction ks with
  | nil => intro E R; exact Or.inr ⟨E, rfl, rfl⟩
  | cons k rest ih =>
    intro E R
    rw [strictTopLoop, strictUnknownLoop, hnk k, makeErr_unknown r hm, fieldPath_root opts hp,
      ← hflags.1, ← hflags.2.1]
    by_cases hfound : foundIn nk k = true
    · simp only [hfound, if_true]
      exact ih E R
    · simp only [hfound, Bool.false_eq_true, if_false]
      by_cases hru : opts.removeUnknown = true
      · simp only [hru, if_true]
        exact ih E R
      · simp only [hru, Bool.false_eq_true, if_false]
        by_cases hff : opts.failFast = true
        · simp only [hff, if_true, hthrow, Bool.false_eq_true, if_false]
          refine Or.inl ⟨_, ?_, ?_, rfl⟩
          · simp
          · simp [failFastExit, hvo]
        · simp only [hff, Bool.false_eq_true, if_false]
          exact ih _ R

theorem assignOptions_empty (base : Options) : assignOptions base {} = base := rfl

theorem evaluate_no_rules (h : Host) (s : Schema) (hc : s.conditionals = []) (obj : Val) :
    _evaluateConditionals h s obj = [] := by
  simp [_evaluateConditionals, hc, evaluateLoop]

/-- The checker of `{ type: 'object', properties: ... }` on an object value goes
straight to the property step. -/
theorem rootChecker_object (h : Host) (r : Rules) (props : List (String × Checker))
    (ht : r.type = .str "object") (hv : r.validator = .undefined) (he : r.enumVals = .undefined)
    (hr : r.regex = .undefined) (obj : List (String × Val)) (ctx : Ctx) :
    checker h r none (some props) (.obj .plain obj) ctx
      = fromProps h r (some props) [] (.obj .plain obj) ctx := by
  have hty : fromType h r none (some props) (.obj .plain obj) ctx
      = fromProps h r (some props) [] (.obj .plain obj) ctx := by
    simp [fromType, fromEnum, fromRegex, fromBounds, fromItems, ht, he, hr, typeOf, strictEq,
      _matchesType, _getType, truthy, isArray]
  have hco : fromCoerce h r none (some props) (.obj .plain obj) ctx
      = fromProps h r (some props) [] (.obj .plain obj) ctx := by
    unfold fromCoerce
    by_cases hc : (r.coerceField = true ∨ ctx.options.coerceTypes = true)
        ∧ typeOf r.type ≠ "undefined"
    · rw [if_pos hc]
      have hcv : _coerceToType h (.obj .plain obj) r.type
          = { coercedValue := .obj .plain obj, coerced := true } := by
        simp [_coerceToType, ht, typeName, strictEq, _isPlainObject]
      simp only [hcv, if_true]
      exact hty
    · rw [if_neg hc]
      exact hty
  simp [checker, fromNull, fromValidatorOnly, hv, typeOf, hco]

theorem fromValidator_none (h : Host) (r : Rules) (hv : r.validator = .undefined)
    (errs : List Err) (out : Val) (ctx : Ctx) : fromValidator h r errs out ctx = .ok (errs, out) := by
  simp [fromValidator, hv]

/-- What the instance of `{ root: ... }` reports for the input `{ root: v }`, given
the outcome of the checker of `root`. -/
theorem nested_verdict (h : Host) (opts2 : Options) (hvo : opts2.valueOnly = false)
    (hpre : opts2.pathPrefix = "") (refs : List (String × Val)) (raw entry : Val)
    (defs : List (String × Val)) (c : Checker) (v : Val) :
    (validate h
        { options := opts2, externalRefs := refs, rawSchema := raw
          fields := [{ key := "root", entry := entry, checker := .compiled c }]
          localDefs := defs, conditionals := [] }
        [("root", v)] {}).map ValidateOut.verdict
      = match c v { path := "root", options := opts2 } with
        | .error ex => .error ex
        | .ok (errs, _) => .ok (decide (errs.length = 0), errs) := by
  unfold validate
  simp only [assignOptions_empty, _evaluateConditionals, evaluateLoop]
  rw [fieldLoop, runField_compiled_plain h _ _ _ _ c rfl]
  have hpath : fieldPath opts2 "root" = "root" := by simp [fieldPath, hpre]
  simp only [hpath, lookupKey, if_true]
  cases hres : c v { path := "root", options := opts2 } with
  | error ex => rfl
  | ok q =>
    obtain ⟨errs, val⟩ := q
    simp only []
    by_cases hc : errs.length ≠ 0 ∧ opts2.failFast = true
    · rw [if_pos hc]
      simp [failFastExit, hvo, Except.map, ValidateOut.verdict, hc.1]
    · rw [if_neg hc]
      simp only [fieldLoop, unknownKeys, List.map_cons, List.map_nil]
      by_cases hs : opts2.strict = true
      · simp only [hs, if_true, strictTopLoop, Schema.normalizedSchema, List.map_cons,
          List.map_nil, hasKey, finish, hvo, Bool.false_eq_true, if_false]
        by_cases he : errs.length ≠ 0
        · simp [he, Except.map, ValidateOut.verdict]
        · have he2 : errs = [] := List.length_eq_zero.mp (not_not.mp he)
          simp [he2, Except.map, ValidateOut.verdict]
      · simp only [hs, Bool.false_eq_true, if_false, lenientTopLoop, Schema.normalizedSchema,
          List.map_cons, List.map_nil, hasKey, if_true, finish, hvo]
        by_cases he : errs.length ≠ 0
        · simp [he, Except.map, ValidateOut.verdict]
        · have he2 : errs = [] := List.length_eq_zero.mp (not_not.mp he)
          simp [he2, Except.map, ValidateOut.verdict]

theorem foundIn_iff_hasKey (fields : List Field) (props : List (String × Checker))
    (hrel : List.Forall₂ (fun (f : Field) (p : String × Checker) =>
      f.key = p.1 ∧ f.checker = .compiled p.2 ∧ ReadsFlagsOnly p.2) fields props) (k : String) :
    hasKey k (fields.map (fun f => (f.key, f.entry))) = foundIn (props.map (fun p => p.1)) k := by
  induction hrel with
  | nil => rfl
  | @cons f p fs ps hhead _ ih =>
    simp only [List.map_cons, hasKey, foundIn, List.any_cons]
    unfold foundIn at ih
    rw [ih, hhead.1]
    by_cases hk : p.1 = k
    · simp [hk]
    · simp [hk]

/-- The verdict of the top-level validation, computed by the property step of a
checker over the same declared keys and checkers at the path `root`. -/
theorem top_verdict (h : Host) (st : Schema) (hcond : st.conditionals = [])
    (hp : st.options.pathPrefix = "root") (hvo : st.options.valueOnly = false)
    (opts2 : Options) (hflags : SameFlags st.options opts2) (r : Rules)
    (hthrow : r.throwField = false) (hm : r.errorMessage = none) (hv : r.validator = .undefined)
    (props : List (String × Checker))
    (hrel : List.Forall₂ (fun (f : Field) (p : String × Checker) =>
      f.key = p.1 ∧ f.checker = .compiled p.2 ∧ ReadsFlagsOnly p.2) st.fields props)
    (obj : List (String × Val)) :
    (validate h st obj {}).map ValidateOut.verdict
      = match fromProps h r (some props) [] (.obj .plain obj)
          { path := "root", options := opts2 } with
        | .error ex => .error ex
        | .ok (errs, _) => .ok (decide (errs.length = 0), errs) := by
  unfold validate fromProps
  simp only [assignOptions_empty, evaluate_no_rules h st hcond, _isPlainObject, if_true]
  rcases fieldLoop_propsLoop h st obj st.options opts2 hflags hp hvo r hthrow st.fields props
      hrel [] [] [] with hx | hx | hx
  · obtain ⟨ex, h1, h2⟩ := hx
    rw [h1, h2]
    rfl
  · obtain ⟨E2, R2, hne, h1, h2⟩ := hx
    rw [h1, h2]
    have hl : E2.length ≠ 0 := fun e => hne (List.length_eq_zero.mp e)
    simp [Except.map, ValidateOut.verdict, hl]
  · obtain ⟨E2, R2, N2, h1, h2, _⟩ := hx
    rw [h1, h2]
    simp only []
    unfold unknownKeys
    rw [← hflags.2.2.1]
    by_cases hs : st.options.strict = true
    · simp only [hs, if_true]
      have hks : objectKeys (.obj .plain obj) = obj.map (fun kv => kv.1) := rfl
      rw [hks]
      rcases strictTopLoop_unknownLoop st obj st.options opts2 hflags hp hvo r hthrow hm
          (props.map (fun p => p.1))
          (fun k => by
            unfold Schema.normalizedSchema
            exact foundIn_iff_hasKey st.fields props hrel k)
          (obj.map (fun kv => kv.1)) E2 R2 with hy | hy
      · obtain ⟨E3, hne, h3, h4⟩ := hy
        rw [h3, h4]
        have hl : E3.length ≠ 0 := fun e => hne (List.length_eq_zero.mp e)
        simp [Except.map, ValidateOut.verdict, hl]
      · obtain ⟨E3, h3, h4⟩ := hy
        rw [h3, h4]
        simp only [fromValidator_none h r hv, finish, hvo, Bool.false_eq_true, if_false]
        simp [Except.map, ValidateOut.verdict]
    · simp only [hs, Bool.false_eq_true, if_false, fromValidator_none h r hv, finish, hvo]
      simp [Except.map, ValidateOut.verdict]

theorem normalizeTopEntry_eq (h : Host) (L : Option Int) (raw : Val) (k : String) :
    normalizeTopEntry h L raw k
      = match normalizeEntry h L raw k k with
        | .error e => .error e
        | .ok n => .ok (withTopDefaults n) := rfl

/-- One default of `normalizeSchema` keeps every key the descriptor has and
adds at most a falsy value under one of the five flag keys. -/
theorem default_step (kvs : List (String × Val)) (d : String) (v : Val)
    (hd : d ∈ ["required", "nullable", "coerce", "strictType", "throw"])
    (hv : truthy v = false) (out : List (String × Val))
    (hP : ∀ k, (hasKey k kvs = true → hasKey k out = true ∧ lookupKey k out = lookupKey k kvs)
      ∧ (hasKey k kvs = false → truthy (lookupKey k out) = false
          ∧ (k ∉ ["required", "nullable", "coerce", "strictType", "throw"] →
              lookupKey k out = .undefined))) :
    ∀ k, (hasKey k kvs = true →
        hasKey k (if hasKey d out then out else setKey d v out) = true
          ∧ lookupKey k (if hasKey d out then out else setKey d v out) = lookupKey k kvs)
      ∧ (hasKey k kvs = false →
          truthy (lookupKey k (if hasKey d out then out else setKey d v out)) = false
          ∧ (k ∉ ["required", "nullable", "coerce", "strictType", "throw"] →
              lookupKey k (if hasKey d out then out else setKey d v out) = .undefined)) := by
  intro k
  by_cases hdo : hasKey d out = true
  · rw [if_pos hdo]
    exact hP k
  · rw [if_neg hdo]
    refine ⟨fun hk => ?_, fun hk => ?_⟩
    · obtain ⟨h1, h2⟩ := (hP k).1 hk
      have hne : d ≠ k := by
        intro e
        rw [e] at hdo
        exact hdo h1
      rw [hasKey_setKey_ne k d v out hne, lookupKey_setKey_ne k d v out hne]
      exact ⟨h1, h2⟩
    · obtain ⟨h1, h2⟩ := (hP k).2 hk
      by_cases hkd : d = k
      · subst hkd
        rw [lookupKey_setKey_same]
        exact ⟨hv, fun hn => absurd hd hn⟩
      · rw [lookupKey_setKey_ne k d v out hkd]
        exact ⟨h1, h2⟩

theorem withTopDefaults_lookups (cls : Cls) (kvs : List (String × Val)) :
    ∃ L, withTopDefaults (.obj cls kvs) = .obj .plain L
      ∧ ∀ k, (hasKey k kvs = true → lookupKey k L = lookupKey k kvs)
        ∧ (hasKey k kvs = false → truthy (lookupKey k L) = false
            ∧ (k ∉ ["required", "nullable", "coerce", "strictType", "throw"] →
                lookupKey k L = .undefined)) := by
  have h0 : ∀ k, (hasKey k kvs = true →
        hasKey k (objectAssign [] (.obj cls kvs)) = true
          ∧ lookupKey k (objectAssign [] (.obj cls kvs)) = lookupKey k kvs)
      ∧ (hasKey k kvs = false →
          truthy (lookupKey k (objectAssign [] (.obj cls kvs))) = false
          ∧ (k ∉ ["required", "nullable", "coerce", "strictType", "throw"] →
              lookupKey k (objectAssign [] (.obj cls kvs)) = .undefined)) := by
    intro k
    refine ⟨fun hk => ⟨?_, ?_⟩, fun hk => ?_⟩
    · rw [hasKey_objectAssign, mem_objectKeys_obj]
      exact Or.inl hk
    · rw [lookupKey_objectAssign, if_pos ((mem_objectKeys_obj k cls kvs).mpr hk)]
      rfl
    · have hn : ¬ k ∈ objectKeys (.obj cls kvs) := by
        rw [mem_objectKeys_obj, hk]
        simp
      rw [lookupKey_objectAssign, if_neg hn]
      simp [lookupKey, truthy]
  have h1 := default_step kvs "required" (.bool false) (by simp) rfl _ h0
  have h2 := default_step kvs "nullable" .undefined (by simp) rfl _ h1
  have h3 := default_step kvs "coerce" .undefined (by simp) rfl _ h2
  have h4 := default_step kvs "strictType" .undefined (by simp) rfl _ h3
  have h5 := default_step kvs "throw" .undefined (by simp) rfl _ h4
  exact ⟨_, rfl, fun k => ⟨fun hk => ((h5 k).1 hk).2, (h5 k).2⟩⟩

theorem makeItems_lookup (h : Host) :
    ∀ L : List (String × Val),
      makeItems h L = makeItems h [("items", lookupKey "items" L)] := by
  intro L
  induction L with
  | nil => simp [makeItems, lookupKey, truthy]
  | cons p rest ih =>
    obtain ⟨k, v⟩ := p
    by_cases hk : k = "items"
    · subst hk
      simp [makeItems, lookupKey]
    · rw [makeItems, if_neg hk, ih]
      simp [lookupKey, hk]

theorem makeProperties_lookup (h : Host) :
    ∀ L : List (String × Val),
      makeProperties h L = makeProperties h [("properties", lookupKey "properties" L)] := by
  intro L
  induction L with
  | nil => simp [makeProperties, lookupKey, truthy]
  | cons p rest ih =>
    obtain ⟨k, v⟩ := p
    by_cases hk : k = "properties"
    · subst hk
      cases v <;> simp [makeProperties, lookupKey]
    · have : makeProperties h ((k, v) :: rest) = makeProperties h rest := by
        cases v <;> simp [makeProperties, hk]
      rw [this, ih]
      simp [lookupKey, hk]

/-- The checker compiled from a descriptor with the five top-level defaults is
the checker compiled from the descriptor itself. -/
theorem makeChecker_withTopDefaults (h : Host) (cls : Cls) (kvs : List (String × Val)) :
    makeChecker h (withTopDefaults (.obj cls kvs)) = makeChecker h (.obj cls kvs) := by
  obtain ⟨L, hL, hlook⟩ := withTopDefaults_lookups cls kvs
  rw [hL]
  have heq : ∀ k, k ∉ ["required", "nullable", "coerce", "strictType", "throw"] →
      lookupKey k L = lookupKey k kvs := by
    intro k hk
    by_cases hh : hasKey k kvs = true
    · exact (hlook k).1 hh
    · have hh2 : hasKey k kvs = false := by simpa using hh
      rw [((hlook k).2 hh2).2 hk, lookupKey_of_not_hasKey k kvs hh2]
  have htr : ∀ k, truthy (lookupKey k L) = truthy (lookupKey k kvs) := by
    intro k
    by_cases hh : hasKey k kvs = true
    · rw [(hlook k).1 hh]
    · have hh2 : hasKey k kvs = false := by simpa using hh
      rw [((hlook k).2 hh2).1, lookupKey_of_not_hasKey k kvs hh2]
      rfl
  have hrules : readRules (.obj .plain L) = readRules (.obj cls kvs) := by
    simp only [readRules, getProp, htr]
    rw [heq "type" (by decide), heq "default" (by decide), heq "enum" (by decide),
      heq "regex" (by decide), heq "min" (by decide), heq "max" (by decide),
      heq "validator" (by decide), heq "errorMessage" (by decide)]
  rw [makeChecker, makeChecker, makeItems_lookup h L, makeItems_lookup h kvs,
    makeProperties_lookup h L, makeProperties_lookup h kvs, heq "items" (by decide),
    heq "properties" (by decide), hrules]

theorem normalizeEntry_isObj (h : Host) (L : Option Int) :
    ∀ (raw : Val) (k p : String) (n : Val), normalizeEntry h L raw k p = .ok n →
      ∃ cls kvs, n = .obj cls kvs
  | .str t, k, p, n, hx => by
    simp only [normalizeEntry] at hx
    injection hx with hx
    exact ⟨_, _, hx.symm⟩
  | .fn f, k, p, n, hx => by
    simp only [normalizeEntry] at hx
    injection hx with hx
    exact ⟨_, _, hx.symm⟩
  | .arr [], k, p, n, hx => by
    simp only [normalizeEntry] at hx
    injection hx with hx
    exact ⟨_, _, hx.symm⟩
  | .arr (a :: rest), k, p, n, hx => by
    have ih := normalizeEntry_isObj h L a k p
    unfold normalizeEntry at hx
    cases ha : normalizeEntry h L a k p with
    | error e => rw [ha] at hx; cases hx
    | ok base =>
      rw [ha] at hx
      simp only [] at hx
      split at hx
      · injection hx with hx
        exact ⟨_, _, hx.symm⟩
      · injection hx with hx
        subst hx
        exact ih base ha
  | .obj c kvs, k, p, n, hx => by
    unfold normalizeEntry at hx
    split at hx
    · injection hx with hx
      exact ⟨_, _, hx.symm⟩
    · split at hx
      · cases hx
      · split at hx
        · cases hx
        · split at hx
          · cases hx
          · injection hx with hx
            exact ⟨_, _, hx.symm⟩
  | .undefined, k, p, n, hx => by
    simp only [normalizeEntry] at hx
    injection hx with hx
    exact ⟨_, _, hx.symm⟩
  | .null, k, p, n, hx => by
    simp only [normalizeEntry] at hx
    injection hx with hx
    exact ⟨_, _, hx.symm⟩
  | .bool b, k, p, n, hx => by
    simp only [normalizeEntry] at hx
    injection hx with hx
    exact ⟨_, _, hx.symm⟩
  | .num i, k, p, n, hx => by
    simp only [normalizeEntry] at hx
    injection hx with hx
    exact ⟨_, _, hx.symm⟩
  | .nan, k, p, n, hx => by
    simp only [normalizeEntry] at hx
    injection hx with hx
    exact ⟨_, _, hx.symm⟩
  | .bigint i, k, p, n, hx => by
    simp only [normalizeEntry] at hx
    injection hx with hx
    exact ⟨_, _, hx.symm⟩
  | .symbol s, k, p, n, hx => by
    simp only [normalizeEntry] at hx
    injection hx with hx
    exact ⟨_, _, hx.symm⟩

theorem normalize_nested (h : Host) (L : Option Int) (S ns : List (String × Val))
    (hns : normalizePropsOfEntries h L "root" "root" S = .ok ns) :
    normalizeSchemaLoop h L (nestUnder S) = .ok [("root", rootEntry ns)] := by
  have h1 : normalizeEntry h L
      (.obj .plain [("type", .str "object"), ("properties", .obj .plain S)]) "root" "root"
      = .ok (.obj .plain [("type", .str "object"), ("strictType", .bool false),
          ("properties", .obj .plain ns)]) := by
    rw [normalizeEntry]
    simp only [lookupKey]
    simp only [normalizeItems, normalizeProperties, truthy, hns]
    rfl
  simp only [nestUnder, normalizeSchemaLoop, normalizeTopEntry_eq, h1]
  rfl

theorem buildFields_nested (h : Host) (ns : List (String × Val))
    (props : List (String × Checker)) (hprops : makePropsOfEntries h ns = .ok props) :
    buildFields h [("root", rootEntry ns)]
      = .ok [{ key := "root", entry := rootEntry ns
               checker := .compiled (checker h (readRules (rootEntry ns)) none (some props)) }] := by
  have h1 : makeChecker h (rootEntry ns)
      = .ok (checker h (readRules (rootEntry ns)) none (some props)) := by
    unfold rootEntry
    rw [makeChecker]
    simp only [makeItems, makeProperties, truthy, hprops]
    rfl
  rw [buildFields]
  have hc : ¬ (truthy (rootEntry ns) = true ∧ truthy (getProp (rootEntry ns) "__isRef") = true) := by
    simp [rootEntry, getProp, lookupKey, truthy]
  rw [if_neg hc, h1]
  rfl

theorem lint_nested (ns : List (String × Val)) : _lintSchema [("root", rootEntry ns)] = [] := by
  simp [_lintSchema, lintEntry, rootEntry, getProp, lookupKey, typeOf, validTypeNames, truthy,
    _isPlainObject]

theorem top_nested_compile (h : Host) (L : Option Int) (kn pn : String) :
    ∀ (S N : List (String × Val)) (fields : List Field),
      normalizeSchemaLoop h L S = .ok N → buildFields h N = .ok fields →
      hasKey "$defs" S = false → (∀ f ∈ fields, ∃ c, f.checker = .compiled c) →
      ∃ ns props, normalizePropsOfEntries h L kn pn S = .ok ns
        ∧ makePropsOfEntries h ns = .ok props
        ∧ List.Forall₂ (fun (f : Field) (p : String × Checker) =>
            f.key = p.1 ∧ f.checker = .compiled p.2 ∧ ReadsFlagsOnly p.2) fields props := by
  intro S
  induction S with
  | nil =>
    intro N fields hN hF _ _
    simp only [normalizeSchemaLoop] at hN
    injection hN with hN
    subst hN
    simp only [buildFields] at hF
    injection hF with hF
    subst hF
    exact ⟨[], [], rfl, rfl, List.Forall₂.nil⟩
  | cons kv rest ih =>
    intro N fields hN hF hdefs hnoref
    obtain ⟨k, raw⟩ := kv
    have hk : ¬ k = "$defs" := by
      intro e
      simp [hasKey, e] at hdefs
    have hdefs2 : hasKey "$defs" rest = false := by
      simpa [hasKey, hk] using hdefs
    rw [normalizeSchemaLoop, if_neg hk, normalizeTopEntry_eq] at hN
    cases hn : normalizeEntry h L raw k k with
    | error e => rw [hn] at hN; cases hN
    | ok n =>
      rw [hn] at hN
      simp only [] at hN
      cases hr : normalizeSchemaLoop h L rest with
      | error e => rw [hr] at hN; cases hN
      | ok Nrest =>
        rw [hr] at hN
        simp only [] at hN
        injection hN with hN
        subst hN
        obtain ⟨cls, kvs, rfl⟩ := normalizeEntry_isObj h L raw k k n hn
        rw [buildFields] at hF
        split at hF
        · -- a reference placeholder: excluded
          cases hb : buildFields h Nrest with
          | error e => rw [hb] at hF; cases hF
          | ok fs =>
            rw [hb] at hF
            simp only [] at hF
            injection hF with hF
            subst hF
            obtain ⟨c, hc⟩ := hnoref _ (List.mem_cons_self _ _)
            cases hc
        · cases hm : makeChecker h (withTopDefaults (.obj cls kvs)) with
          | error e => rw [hm] at hF; cases hF
          | ok c =>
            rw [hm] at hF
            simp only [] at hF
            cases hb : buildFields h Nrest with
            | error e => rw [hb] at hF; cases hF
            | ok fs =>
              rw [hb] at hF
              simp only [] at hF
              injection hF with hF
              subst hF
              obtain ⟨ns, props, h1, h2, h3⟩ := ih Nrest fs hr hb hdefs2
                (fun f hf => hnoref f (List.mem_cons_of_mem _ hf))
              have hm2 : makeChecker h (.obj cls kvs) = .ok c := by
                rw [← makeChecker_withTopDefaults]
                exact hm
              refine ⟨(k, .obj cls kvs) :: ns, (k, c) :: props, ?_, ?_, ?_⟩
              · rw [normalizePropsOfEntries,
                  normalizeEntry_key_indep h L raw k k k _ _ hn, h1]
              · rw [makePropsOfEntries, hm2, h2]
              · exact List.Forall₂.cons ⟨rfl, rfl, makeChecker_flags h _ c hm2⟩ h3

theorem clean_loops (h : Host) (s : Schema) (obj : List (String × Val))
    (opts opts2 : Options) (hflags : SameFlags opts opts2) (hp : opts.pathPrefix = "root")
    (r : Rules) :
    ∀ (fields : List Field) (props : List (String × Checker)),
      List.Forall₂ (fun (f : Field) (p : String × Checker) =>
        f.key = p.1 ∧ f.checker = .compiled p.2 ∧ ReadsFlagsOnly p.2) fields props →
      (∀ f ∈ fields, ∀ c, f.checker = .compiled c → ∀ errs cv,
        c (lookupKey f.key obj) { path := fieldPath opts f.key, options := opts }
          = .ok (errs, cv) → typeOf cv ≠ "undefined") →
      ∀ (R R2 : List (String × Val)),
        fieldLoop h s obj opts [] fields [] R = .go [] R2 →
        propsLoop r "root" opts2 (.obj .plain obj) props [] R = .finished [] R2 := by
  intro fields props hrel
  induction hrel with
  | nil =>
    intro _ R R2 hx
    simp only [fieldLoop] at hx
    injection hx with _ h2
    rw [propsLoop, h2]
  | @cons f p fields2 props2 hhead _ ih =>
    intro hdef R R2 hx
    obtain ⟨pk, ck⟩ := p
    obtain ⟨hk, hck, hfl⟩ := hhead
    simp only [] at hk hck hfl
    have hdefh := hdef f (List.mem_cons_self _ _) ck hck
    rw [fieldLoop, runField_compiled_plain h s obj opts f ck hck] at hx
    rw [propsLoop]
    have hsame : ck (lookupKey f.key obj) { path := fieldPath opts f.key, options := opts }
        = ck (getProp (.obj .plain obj) pk) { path := childPathOf "root" pk, options := opts2 } := by
      rw [fieldPath_root opts hp, hk]
      exact hfl _ _ opts opts2 hflags
    rw [← hsame]
    cases hres : ck (lookupKey f.key obj) { path := fieldPath opts f.key, options := opts } with
    | error ex =>
      rw [hres] at hx
      cases hx
    | ok q =>
      obtain ⟨childErrs, cv⟩ := q
      rw [hres] at hx
      simp only [] at hx ⊢
      have hcv := hdefh childErrs cv hres
      by_cases hc : childErrs.length ≠ 0
      · exfalso
        by_cases hff : opts.failFast = true
        · simp [hc, hff] at hx
        · simp only [hc, hff, and_false, if_false, if_true, not_false_eq_true, ne_eq] at hx
          obtain ⟨X, hX⟩ := fieldLoop_go_prefix _ _ _ _ _ _ _ _ _ _ hx
          have := congrArg List.length hX
          simp at this
          omega
      · simp only [hc, false_and, if_false, hcv, if_true, not_false_eq_true, ne_eq] at hx
        simp only [hc, if_false, not_false_eq_true, ne_eq]
        rw [← hk]
        exact ih (fun g hg => hdef g (List.mem_cons_of_mem _ hg)) _ _ hx

theorem lenient_loops (s : Schema) (obj : List (String × Val)) (opts opts2 : Options)
    (hflags : SameFlags opts opts2) (nk : List String)
    (hnk : ∀ k, hasKey k s.normalizedSchema = foundIn nk k) :
    ∀ (ks : List String) (R : List (String × Val)),
      lenientTopLoop s opts obj ks R = lenientUnknownLoop opts2 (.obj .plain obj) nk ks R := by
  intro ks
  induction ks with
  | nil => intro R; rfl
  | cons k rest ih =>
    intro R
    rw [lenientTopLoop, lenientUnknownLoop, hnk k, ← hflags.2.1]
    simp only [ih]
    rfl

/-- What the instance of `{ root: ... }` returns for the input `{ root: v }` when
the checker of `root` reports no error. -/
theorem nested_value (h : Host) (opts2 : Options) (hvo : opts2.valueOnly = false)
    (hre : opts2.removeEmpty = false) (hpre : opts2.pathPrefix = "")
    (refs : List (String × Val)) (raw entry : Val) (defs : List (String × Val)) (c : Checker)
    (v val : Val) (hc : c v { path := "root", options := opts2 } = .ok ([], val))
    (hval : typeOf val ≠ "undefined") :
    validate h
        { options := opts2, externalRefs := refs, rawSchema := raw
          fields := [{ key := "root", entry := entry, checker := .compiled c }]
          localDefs := defs, conditionals := [] }
        [("root", v)] {}
      = .ok (.result true [] (.obj .plain [("root", val)])) := by
  unfold validate
  simp only [assignOptions_empty, _evaluateConditionals, evaluateLoop]
  rw [fieldLoop, runField_compiled_plain h _ _ _ _ c rfl]
  have hpath : fieldPath opts2 "root" = "root" := by simp [fieldPath, hpre]
  simp only [hpath, lookupKey, if_true, hc, List.length_nil, ne_eq, not_true_eq_false,
    false_and, if_false, hval, not_false_eq_true, fieldLoop, unknownKeys, List.map_cons,
    List.map_nil, setKey]
  by_cases hs : opts2.strict = true
  · simp [hs, strictTopLoop, Schema.normalizedSchema, hasKey, finish, hvo, hre]
  · simp [hs, lenientTopLoop, Schema.normalizedSchema, hasKey, finish, hvo, hre]

/-- The normalised object of a valid top-level run, computed by the property
step of a checker over the same declared keys and checkers. -/
theorem top_value (h : Host) (st : Schema) (hcond : st.conditionals = [])
    (hp : st.options.pathPrefix = "root") (hvo : st.options.valueOnly = false)
    (hre : st.options.removeEmpty = false)
    (opts2 : Options) (hflags : SameFlags st.options opts2) (r : Rules)
    (hthrow : r.throwField = false) (hm : r.errorMessage = none) (hv : r.validator = .undefined)
    (props : List (String × Checker))
    (hrel : List.Forall₂ (fun (f : Field) (p : String × Checker) =>
      f.key = p.1 ∧ f.checker = .compiled p.2 ∧ ReadsFlagsOnly p.2) st.fields props)
    (obj : List (String × Val)) (hdef : AllFieldsDefined st obj) (val : Val)
    (hx : validate h st obj {} = .ok (.result true [] val)) :
    ∃ R, val = .obj .plain R
      ∧ fromProps h r (some props) [] (.obj .plain obj) { path := "root", options := opts2 }
        = .ok ([], .obj .plain R) := by
  unfold validate at hx
  simp only [assignOptions_empty, evaluate_no_rules h st hcond] at hx
  cases hfl : fieldLoop h st obj st.options [] st.fields [] [] with
  | stop res =>
    rw [hfl] at hx
    simp only [] at hx
    subst hx
    obtain ⟨hfalse, _, _⟩ := fieldLoop_stop_invalid _ _ _ _ _ _ _ _ _ _ _ hfl
    cases hfalse
  | go E R =>
    rw [hfl] at hx
    simp only [] at hx
    cases hun : unknownKeys st st.options obj E R with
    | stop res =>
      rw [hun] at hx
      simp only [] at hx
      subst hx
      obtain ⟨hfalse, _, _⟩ := unknownKeys_stop_invalid _ _ _ _ _ _ _ _ hun
      cases hfalse
    | go E2 R2 =>
      rw [hun] at hx
      simp only [] at hx
      obtain ⟨hE2, _⟩ := finish_result _ _ _ _ _ _ hx
      obtain ⟨X, hX⟩ := unknownKeys_go_prefix _ _ _ _ _ _ _ hun
      have hE2' : E2 = [] := hE2.symm
      have hE : E = [] := by
        rw [hE2'] at hX
        have := congrArg List.length hX
        simp at this
        exact List.length_eq_zero.mp (by omega)
      subst hE
      subst hE2'
      have hval : val = .obj .plain R2 := by
        unfold finish at hx
        simp only [hvo, hre, Bool.false_eq_true, if_false] at hx
        injection hx with hx
        injection hx with _ _ h3
        exact h3.symm
      refine ⟨R2, hval, ?_⟩
      have hpl := clean_loops h st obj st.options opts2 hflags hp r st.fields props hrel hdef
        [] R hfl
      have hnk : ∀ k, hasKey k st.normalizedSchema = foundIn (props.map (fun p => p.1)) k := by
        intro k
        unfold Schema.normalizedSchema
        exact foundIn_iff_hasKey st.fields props hrel k
      unfold fromProps
      simp only [_isPlainObject, if_true, hpl]
      unfold unknownKeys at hun
      rw [← hflags.2.2.1]
      by_cases hs : st.options.strict = true
      · simp only [hs, if_true] at hun ⊢
        have hks : objectKeys (.obj .plain obj) = obj.map (fun kv => kv.1) := rfl
        rw [hks]
        rcases strictTopLoop_unknownLoop st obj st.options opts2 hflags hp hvo r hthrow hm
            (props.map (fun p => p.1)) hnk (obj.map (fun kv => kv.1)) [] R with hy | hy
        · obtain ⟨E3, _, h3, _⟩ := hy
          rw [h3] at hun
          cases hun
        · obtain ⟨E3, h3, h4⟩ := hy
          rw [h3] at hun
          injection hun with e1 e2
          subst e1
          subst e2
          rw [h4]
          simp only [fromValidator_none h r hv]
      · simp only [hs, Bool.false_eq_true, if_false] at hun ⊢
        injection hun with _ e2
        rw [fromValidator_none h r hv, ← e2,
          lenient_loops st obj st.options opts2 hflags (props.map (fun p => p.1)) hnk]
        rfl

/-- C36 (amended): validating `obj` against a schema map `S` with the path prefix
`root` and validating `{ root: obj }` against `{ root: { type: 'object', properties: S } }`
give the same verdict in every setting of the options (with `valueOnly` off):
when the instance of `S` constructs, has no `$defs` key and no field that is a
reference placeholder, the nested schema constructs as well, and for every
input both validations raise the same error or return the same `valid` and the
same `errors` (same paths, codes, messages and order), be it after a complete
run or after a fail-fast exit.  The two normalised objects agree only on clean
runs: when the top-level run is valid, `removeEmpty` is off and every declared
field returns a defined value, the nested run returns `{ root: value }` for the
top-level `value`.  Otherwise the two objects may differ. -/
theorem nested_reports_same_errors (h : Host) (S : List (String × Val)) (o : OptionsPatch)
    (st : Schema) (hdefs : hasKey "$defs" S = false)
    (hcreate : Schema.create h S { o with pathPrefix := some "root" } = .ok st)
    (hnoref : ∀ f ∈ st.fields, ∃ c, f.checker = .compiled c)
    (hvo : st.options.valueOnly = false) :
    ∃ sn, Schema.create h (nestUnder S) { o with pathPrefix := none } = .ok sn
      ∧ (∀ obj : List (String × Val),
          (validate h sn [("root", .obj .plain obj)] {}).map ValidateOut.verdict
            = (validate h st obj {}).map ValidateOut.verdict)
      ∧ (∀ (obj : List (String × Val)) (val : Val),
          st.options.removeEmpty = false → AllFieldsDefined st obj →
          validate h st obj {} = .ok (.result true [] val) →
          validate h sn [("root", .obj .plain obj)] {}
            = .ok (.result true [] (.obj .plain [("root", val)]))) := by
  obtain ⟨hcond, hopt, _, _⟩ := create_shape h S _ st hcreate
  unfold Schema.create at hcreate
  simp only [] at hcreate
  split at hcreate
  · cases hcreate
  · rename_i externalRefs hrefs
    split at hcreate
    · cases hcreate
    · rename_i N hN
      split at hcreate
      · cases hcreate
      · rename_i fields hF
        split at hcreate
        · cases hcreate
        · injection hcreate with hst
          have hfields : st.fields = fields := by rw [← hst]
          obtain ⟨ns, props, h1, h2, h3⟩ := top_nested_compile h _ "root" "root" S N fields hN hF
            hdefs (fun f hf => hnoref f (by rw [hfields]; exact hf))
          have hcn : Schema.create h (nestUnder S) { o with pathPrefix := none }
              = .ok { options := assignOptions DEFAULT_OPTIONS { o with pathPrefix := none }
                      externalRefs := externalRefs
                      rawSchema := _shallowCloneSchema (.obj .plain (nestUnder S))
                      fields := [{ key := "root", entry := rootEntry ns
                                   checker := .compiled
                                     (checker h (readRules (rootEntry ns)) none (some props)) }]
                      localDefs := localDefsOf (nestUnder S)
                      conditionals := [] } := by
            unfold Schema.create
            simp only []
            have hrefs2 : (if truthy (assignOptions DEFAULT_OPTIONS
                  { o with pathPrefix := none }).refs = true then
                _loadExternalRefs [] (assignOptions DEFAULT_OPTIONS
                  { o with pathPrefix := none }).refs
                else Except.ok []) = .ok externalRefs := hrefs
            rw [hrefs2]
            have hN2 : normalizeSchemaLoop h
                (assignOptions DEFAULT_OPTIONS { o with pathPrefix := none }).maxRegexLength
                (nestUnder S) = .ok [("root", rootEntry ns)] := normalize_nested h _ S ns h1
            rw [hN2]
            simp only [buildFields_nested h ns props h2, lint_nested]
            rfl
          have hflags : SameFlags st.options
              (assignOptions DEFAULT_OPTIONS { o with pathPrefix := none }) := by
            rw [hopt]
            exact ⟨rfl, rfl, rfl, rfl, rfl, rfl, rfl⟩
          have hp : st.options.pathPrefix = "root" := by rw [hopt]; rfl
          have hvo2 : (assignOptions DEFAULT_OPTIONS { o with pathPrefix := none }).valueOnly
              = false := by
            rw [hopt] at hvo
            exact hvo
          refine ⟨_, hcn, fun obj => ?_, fun obj val hre hdef hx => ?_⟩
          · rw [nested_verdict h _ hvo2 rfl,
              rootChecker_object h (readRules (rootEntry ns)) props rfl rfl rfl rfl,
              top_verdict h st hcond hp hvo _ hflags (readRules (rootEntry ns)) rfl rfl rfl props
                (by rw [hfields]; exact h3) obj]
          · have hre2 : (assignOptions DEFAULT_OPTIONS { o with pathPrefix := none }).removeEmpty
                = false := by
              rw [hopt] at hre
              exact hre
            obtain ⟨R, hval, hfp⟩ := top_value h st hcond hp hvo hre _ hflags
              (readRules (rootEntry ns)) rfl rfl rfl props (by rw [hfields]; exact h3) obj hdef
              val hx
            rw [hval]
            exact nested_value h _ hvo2 hre2 rfl _ _ _ _ _ _ _
              (by rw [rootChecker_object h (readRules (rootEntry ns)) props rfl rfl rfl rfl]
                  exact hfp)
              (by simp [typeOf])

/-- Witness for C36: the schema `{ a: 'string' }`.  The input `{ a: 5 }` is rejected
by both validations with the one error `ERR_TYPE` at `root.a`, and for the
input `{ a: 'x' }` the nested validation returns `{ root: { a: 'x' } }`. -/
theorem nested_reports_same_errors_witness :
    ∃ sn, Schema.create exampleHost (nestUnder [("a", .str "string")]) {} = .ok sn
      ∧ (validate exampleHost sn [("root", .obj .plain [("a", .num 5)])] {}).map
            ValidateOut.verdict
          = .ok (false,
              [{ path := "root.a"
                 message := "Invalid root.a field. expected type string, received number"
                 code := "ERR_TYPE", rawError := .null }])
      ∧ validate exampleHost sn [("root", .obj .plain [("a", .str "x")])] {}
          = .ok (.result true [] (.obj .plain [("root", .obj .plain [("a", .str "x")])])) := by
  obtain ⟨sn, hc, hv, hval⟩ := nested_reports_same_errors exampleHost [("a", .str "string")] {}
    rootedStringSchema (by decide) rfl
    (fun f hf => by
      simp only [rootedStringSchema, plainSchema, List.mem_singleton] at hf
      subst hf
      exact ⟨_, rfl⟩)
    rfl
  refine ⟨sn, hc, ?_, ?_⟩
  · rw [hv]
    decide
  · refine hval [("a", .str "x")] (.obj .plain [("a", .str "x")]) rfl ?_ (by decide)
    intro f hf c hc errs cv hres
    simp only [rootedStringSchema, plainSchema, List.mem_singleton] at hf
    subst hf
    have hck : c = checker exampleHost (readRules stringEntry) none none := by
      simp only [leafField] at hc
      injection hc with hc
      exact hc.symm
    subst hck
    have hrun : checker exampleHost (readRules stringEntry) none none
        (lookupKey (leafField exampleHost "a" stringEntry).key [("a", .str "x")])
        { path := fieldPath rootedStringSchema.options
            (leafField exampleHost "a" stringEntry).key
          options := rootedStringSchema.options }
        = .ok ([], .str "x") := by decide
    rw [hrun] at hres
    injection hres with hres
    injection hres with _ h2
    rw [← h2]
    decide

set_option maxHeartbeats 4000000 in
/-- Counterexample for C36: the normalised objects differ.  For the schema
`{ a: 'string' }` and the input `{}` the top level returns `{}` and the nested
structure returns `{ a: undefined }`, with the key `a`; for
`{ age: { type: 'number', min: 0 } }` and the input `{ age: -1 }` both report
`ERR_MIN` at `root.age`, the top level keeps `age: -1` in its value and the
nested structure drops the key. -/
theorem nested_value_differs_counterexample :
    createAndValidate exampleHost [("a", .str "string")] { pathPrefix := some "root" } [] {}
      = .ok (.result true [] (.obj .plain []))
    ∧ createAndValidate exampleHost (nestUnder [("a", .str "string")]) {}
        [("root", .obj .plain [])] {}
      = .ok (.result true [] (.obj .plain [("root", .obj .plain [("a", .undefined)])]))
    ∧ createAndValidate exampleHost
        [("age", .obj .plain [("type", .str "number"), ("min", .num 0)])]
        { pathPrefix := some "root" } [("age", .num (-1))] {}
      = .ok (.result false
          [{ path := "root.age", message := "Invalid root.age field. must be >= 0"
             code := "ERR_MIN", rawError := .null }]
          (.obj .plain [("age", .num (-1))]))
    ∧ createAndValidate exampleHost
        (nestUnder [("age", .obj .plain [("type", .str "number"), ("min", .num 0)])]) {}
        [("root", .obj .plain [("age", .num (-1))])] {}
      = .ok (.result false
          [{ path := "root.age", message := "Invalid root.age field. must be >= 0"
             code := "ERR_MIN", rawError := .null }]
          (.obj .plain [("root", .obj .plain [])])) := by
  decide

end GentleSchema


namespace GentleSchema

/-! ## C38: the tuple shorthand is not normalised in depth -/

set_option maxHeartbeats 4000000 in
/-- C38: normalisation is not canonical for the tuple shorthand.  For
`['array', { items: 'string' }]` the descriptor `normalizeEntry` returns keeps
`items` as the raw string `'string'`, where the full descriptor
`{ type: 'array', items: 'string' }` gets the normalised `{ type: 'string' }`; so the
schema `{ tags: ['array', { items: 'string' }] }` accepts the input `[1, 2]`, which the
full descriptor rejects with `ERR_TYPE` at `tags[0]` and `tags[1]`.  A string
`regex` in the overrides of a tuple is kept as a string as well, and the
constructor then rejects the schema `{ s: ['string', { regex: '^a' }] }` that it
accepts in the descriptor form. -/
theorem tuple_shorthand_not_normalized :
    normalizeEntry exampleHost (some 1000)
        (.arr [.str "array", .obj .plain [("items", .str "string")]]) "tags" "tags"
      = .ok (.obj .plain [("type", .str "array"), ("items", .str "string")])
    ∧ normalizeEntry exampleHost (some 1000)
        (.obj .plain [("type", .str "array"), ("items", .str "string")]) "tags" "tags"
      = .ok (.obj .plain [("type", .str "array"), ("strictType", .bool false),
          ("items", .obj .plain [("type", .str "string")])])
    ∧ createAndValidate exampleHost tupleTagsSchema {} [("tags", .arr [.num 1, .num 2])] {}
      = .ok (.result true [] (.obj .plain [("tags", .arr [.num 1, .num 2])]))
    ∧ createAndValidate exampleHost objectTagsSchema {} [("tags", .arr [.num 1, .num 2])] {}
      = .ok (.result false
          [{ path := "tags[0]"
             message := "Invalid tags[0] field. expected type string, received number"
             code := "ERR_TYPE", rawError := .null },
           { path := "tags[1]"
             message := "Invalid tags[1] field. expected type string, received number"
             code := "ERR_TYPE", rawError := .null }]
          (.obj .plain [("tags", .arr [.num 1, .num 2])]))
    ∧ normalizeEntry exampleHost (some 1000)
        (.arr [.str "string", .obj .plain [("regex", .str "^a")]]) "s" "s"
      = .ok (.obj .plain [("type", .str "string"), ("regex", .str "^a")])
    ∧ createAndValidate exampleHost tupleRegexSchema {} [("s", .str "a")] {}
      = .error (.other (schemaErrorVal [lintIssue "s"
          "Field 's' has invalid regex; must be RegExp" "ERR_SCHEMA_REGEX"]))
    ∧ createAndValidate exampleHost objectRegexSchema {} [("s", .str "a")] {}
      = .ok (.result true [] (.obj .plain [("s", .str "a")])) := by
  refine ⟨?_, ?_, ?_, ?_, ?_, ?_, ?_⟩ <;> decide

end GentleSchema

namespace GentleSchema

/-! ## C39: when the post-structural validator runs -/

theorem itemsLoop_validator_indep (r : Rules) (v : Val) (ic : Checker) (path : String)
    (options : Options) (out : Val) :
    ∀ (xs : List Val) (i : Nat) (errs : List Err) (newArr : List Val) (hadErr : Bool),
      itemsLoop { r with validator := v } ic path options out xs i errs newArr hadErr
        = itemsLoop r ic path options out xs i errs newArr hadErr := by
  intro xs
  induction xs with
  | nil => intro i errs newArr hadErr; rfl
  | cons x rest ih =>
    intro i errs newArr hadErr
    unfold itemsLoop
    cases ic x { path := _arrayPath path i, options := options } with
    | error e => rfl
    | ok p =>
      obtain ⟨childErrs, childVal⟩ := p
      simp only [ih]

theorem propsLoop_validator_indep (r : Rules) (v : Val) (path : String) (options : Options)
    (out : Val) :
    ∀ (props : List (String × Checker)) (errs : List Err) (nested : List (String × Val)),
      propsLoop { r with validator := v } path options out props errs nested
        = propsLoop r path options out props errs nested := by
  intro props
  induction props with
  | nil => intro errs nested; rfl
  | cons p rest ih =>
    intro errs nested
    obtain ⟨pk, ck⟩ := p
    unfold propsLoop
    cases ck (getProp out pk) { path := childPathOf path pk, options := options } with
    | error e => rfl
    | ok q =>
      obtain ⟨childErrs, childVal⟩ := q
      simp only [ih]

theorem strictUnknownLoop_validator_indep (r : Rules) (v : Val) (path : String)
    (options : Options) (out : Val) (nk : List String) :
    ∀ (ks : List String) (errs : List Err),
      strictUnknownLoop { r with validator := v } path options out nk ks errs
        = strictUnknownLoop r path options out nk ks errs := by
  intro ks
  induction ks with
  | nil => intro errs; rfl
  | cons k rest ih =>
    intro errs
    unfold strictUnknownLoop
    have hmk : ∀ p q c w, makeErr { r with validator := v } p q c w = makeErr r p q c w :=
      fun _ _ _ _ => rfl
    simp only [ih, hmk]

theorem itemsLoop_returned_raises (r : Rules) (ic : Checker) (path : String) (options : Options)
    (out : Val) (hff : options.failFast = false) :
    ∀ (xs : List Val) (i : Nat) (errs : List Err) (newArr : List Val) (hadErr : Bool)
      (res : CheckResult),
      itemsLoop r ic path options out xs i errs newArr hadErr = .returned res →
      ∃ e, res = .error e := by
  intro xs
  induction xs with
  | nil => intro i errs newArr hadErr res hres; simp [itemsLoop] at hres
  | cons x rest ih =>
    intro i errs newArr hadErr res hres
    unfold itemsLoop at hres
    cases hc : ic x { path := _arrayPath path i, options := options } with
    | error e =>
      rw [hc] at hres
      simp only [] at hres
      injection hres with hres
      exact ⟨e, hres.symm⟩
    | ok p =>
      obtain ⟨childErrs, childVal⟩ := p
      rw [hc] at hres
      simp only [hff, Bool.false_eq_true, if_false] at hres
      split at hres
      · exact ih _ _ _ _ _ hres
      · exact ih _ _ _ _ _ hres

theorem propsLoop_returned_raises (r : Rules) (path : String) (options : Options) (out : Val)
    (hff : options.failFast = false) :
    ∀ (props : List (String × Checker)) (errs : List Err) (nested : List (String × Val))
      (res : CheckResult),
      propsLoop r path options out props errs nested = .returned res → ∃ e, res = .error e := by
  intro props
  induction props with
  | nil => intro errs nested res hres; simp [propsLoop] at hres
  | cons p rest ih =>
    intro errs nested res hres
    obtain ⟨pk, ck⟩ := p
    unfold propsLoop at hres
    cases hc : ck (getProp out pk) { path := childPathOf path pk, options := options } with
    | error e =>
      rw [hc] at hres
      simp only [] at hres
      injection hres with hres
      exact ⟨e, hres.symm⟩
    | ok q =>
      obtain ⟨childErrs, childVal⟩ := q
      rw [hc] at hres
      simp only [hff, Bool.false_eq_true, if_false] at hres
      split at hres
      · exact ih _ _ _ hres
      · exact ih _ _ _ hres

theorem strictUnknownLoop_finishes (r : Rules) (path : String) (options : Options) (out : Val)
    (nk : List String) (hff : options.failFast = false) :
    ∀ (ks : List String) (errs : List Err) (res : CheckResult),
      strictUnknownLoop r path options out nk ks errs ≠ .returned res := by
  intro ks
  induction ks with
  | nil => intro errs res hres; simp [strictUnknownLoop] at hres
  | cons k rest ih =>
    intro errs res hres
    unfold strictUnknownLoop at hres
    simp only [hff, Bool.false_eq_true, if_false] at hres
    split at hres
    · exact ih _ _ hres
    · split at hres
      · exact ih _ _ hres
      · exact ih _ _ hres

theorem itemsLoop_failFast_clean (r : Rules) (ic : Checker) (path : String) (options : Options)
    (out : Val) (hff : options.failFast = true) :
    ∀ (xs : List Val) (i : Nat) (errs : List Err) (newArr : List Val) (hadErr : Bool)
      (errs2 : List Err) (acc : List Val × Bool),
      itemsLoop r ic path options out xs i errs newArr hadErr = .finished errs2 acc →
      errs2 = errs ∧ acc.2 = hadErr := by
  intro xs
  induction xs with
  | nil =>
    intro i errs newArr hadErr errs2 acc hres
    simp only [itemsLoop] at hres
    injection hres with h1 h2
    subst h2
    exact ⟨h1.symm, rfl⟩
  | cons x rest ih =>
    intro i errs newArr hadErr errs2 acc hres
    unfold itemsLoop at hres
    cases hc : ic x { path := _arrayPath path i, options := options } with
    | error e => rw [hc] at hres; cases hres
    | ok p =>
      obtain ⟨childErrs, childVal⟩ := p
      rw [hc] at hres
      simp only [hff, if_true] at hres
      split at hres
      · split at hres <;> cases hres
      · exact ih _ _ _ _ _ _ hres

theorem propsLoop_failFast_clean (r : Rules) (path : String) (options : Options) (out : Val)
    (hff : options.failFast = true) :
    ∀ (props : List (String × Checker)) (errs : List Err) (nested : List (String × Val))
      (errs2 : List Err) (acc : List (String × Val)),
      propsLoop r path options out props errs nested = .finished errs2 acc → errs2 = errs := by
  intro props
  induction props with
  | nil =>
    intro errs nested errs2 acc hres
    simp only [propsLoop] at hres
    injection hres with h1 _
    exact h1.symm
  | cons p rest ih =>
    intro errs nested errs2 acc hres
    obtain ⟨pk, ck⟩ := p
    unfold propsLoop at hres
    cases hc : ck (getProp out pk) { path := childPathOf path pk, options := options } with
    | error e => rw [hc] at hres; cases hres
    | ok q =>
      obtain ⟨childErrs, childVal⟩ := q
      rw [hc] at hres
      simp only [hff, if_true] at hres
      split at hres
      · split at hres <;> cases hres
      · exact ih _ _ _ _ hres

theorem strictUnknownLoop_failFast_clean (r : Rules) (path : String) (options : Options)
    (out : Val) (nk : List String) (hff : options.failFast = true) :
    ∀ (ks : List String) (errs : List Err) (errs2 : List Err) (u : Unit),
      strictUnknownLoop r path options out nk ks errs = .finished errs2 u → errs2 = errs := by
  intro ks
  induction ks with
  | nil =>
    intro errs errs2 u hres
    simp only [strictUnknownLoop] at hres
    injection hres with h1 _
    exact h1.symm
  | cons k rest ih =>
    intro errs errs2 u hres
    unfold strictUnknownLoop at hres
    simp only [hff, if_true] at hres
    split at hres
    · exact ih _ _ _ hres
    · split at hres
      · exact ih _ _ _ hres
      · split at hres <;> cases hres

theorem fromValidator_without (h : Host) (r : Rules) (errs : List Err) (out : Val) (ctx : Ctx) :
    fromValidator h { r with validator := .undefined } errs out ctx = .ok (errs, out) := rfl

theorem fromProps_then_validator (h : Host) (r : Rules)
    (pc : Option (List (String × Checker))) (errs : List Err) (out : Val) (ctx : Ctx)
    (E : List Err) (out2 : Val)
    (hplain : fromProps h { r with validator := .undefined } pc errs out ctx = .ok (E, out2)) :
    (ctx.options.failFast = false → fromProps h r pc errs out ctx = fromValidator h r E out2 ctx)
    ∧ (ctx.options.failFast = true → errs = [] → E ≠ [] →
        fromProps h r pc errs out ctx = .ok (E, out2)) := by
  unfold fromProps at hplain ⊢
  cases pc with
  | none =>
    simp only [fromValidator_without] at hplain
    injection hplain with hp
    injection hp with h1 h2
    subst h1; subst h2
    exact ⟨fun _ => rfl, fun _ he hne => absurd he hne⟩
  | some props =>
    simp only [] at hplain ⊢
    by_cases hpo : _isPlainObject out = true
    · rw [if_pos hpo] at hplain
      rw [if_pos hpo]
      rw [propsLoop_validator_indep] at hplain
      cases hl : propsLoop r ctx.path ctx.options out props errs [] with
      | returned res =>
        rw [hl] at hplain
        simp only [] at hplain ⊢
        refine ⟨fun hff => ?_, fun _ _ _ => hplain⟩
        obtain ⟨e, he⟩ := propsLoop_returned_raises r ctx.path ctx.options out hff props errs []
          res hl
        rw [he] at hplain
        cases hplain
      | finished errs1 nested =>
        rw [hl] at hplain
        simp only [] at hplain ⊢
        by_cases hs : ctx.options.strict = true
        · rw [if_pos hs] at hplain
          rw [if_pos hs]
          rw [strictUnknownLoop_validator_indep] at hplain
          cases hu : strictUnknownLoop r ctx.path ctx.options out
              (props.map (fun p => p.1)) (objectKeys out) errs1 with
          | returned res =>
            rw [hu] at hplain
            simp only [] at hplain ⊢
            refine ⟨fun hff => ?_, fun _ _ _ => hplain⟩
            exact absurd hu (strictUnknownLoop_finishes r ctx.path ctx.options out _ hff _ _ res)
          | finished errs2 u =>
            rw [hu] at hplain
            simp only [fromValidator_without] at hplain ⊢
            injection hplain with hp
            injection hp with h1 h2
            subst h1; subst h2
            refine ⟨fun _ => rfl, fun hff he hne => ?_⟩
            have e1 := propsLoop_failFast_clean r ctx.path ctx.options out hff props errs [] _ _ hl
            have e2 := strictUnknownLoop_failFast_clean r ctx.path ctx.options out _ hff _ _ _ _ hu
            rw [e2, e1, he] at hne
            exact absurd rfl hne
        · rw [if_neg hs] at hplain
          rw [if_neg hs]
          simp only [fromValidator_without] at hplain
          injection hplain with hp
          injection hp with h1 h2
          subst h1; subst h2
          refine ⟨fun _ => rfl, fun hff he hne => ?_⟩
          have e1 := propsLoop_failFast_clean r ctx.path ctx.options out hff props errs [] _ _ hl
          rw [e1, he] at hne
          exact absurd rfl hne
    · rw [if_neg hpo] at hplain
      rw [if_neg hpo]
      simp only [fromValidator_without] at hplain
      injection hplain with hp
      injection hp with h1 h2
      subst h1; subst h2
      exact ⟨fun _ => rfl, fun _ he hne => absurd he hne⟩

/-- C39: the validator of a typed field is invoked after the nested checks, not
only when they pass.  Let `E` and `out` be the errors and the value that the
steps over `items`, `properties` and the unknown keys return for the field
without its validator.  In non-fail-fast mode the field with its validator
returns what the validator step makes of `E` and `out`: the validator is invoked
on `out` although `E` may hold nested errors, and a rejection appends
`ERR_CUSTOM` entries after them.  In fail-fast mode a non-empty `E` is returned
as it is: the checker has returned at the first nested error and the validator
is not invoked. -/
theorem validator_after_nested_errors (h : Host) (r : Rules) (ic : Option Checker)
    (pc : Option (List (String × Checker))) (out : Val) (ctx : Ctx) (E : List Err) (out2 : Val)
    (hplain : fromItems h { r with validator := .undefined } ic pc out ctx = .ok (E, out2)) :
    (ctx.options.failFast = false → fromItems h r ic pc out ctx = fromValidator h r E out2 ctx)
    ∧ (ctx.options.failFast = true → E ≠ [] → fromItems h r ic pc out ctx = .ok (E, out2)) := by
  unfold fromItems at hplain ⊢
  split
  · rename_i xs c
    simp only [] at hplain
    rw [itemsLoop_validator_indep] at hplain
    cases hl : itemsLoop r c ctx.path ctx.options (.arr xs) xs 0 [] [] false with
    | returned res =>
      rw [hl] at hplain
      simp only [] at hplain ⊢
      refine ⟨fun hff => ?_, fun _ _ => hplain⟩
      obtain ⟨e, he⟩ := itemsLoop_returned_raises r c ctx.path ctx.options _ hff xs 0 [] [] false
        res hl
      rw [he] at hplain
      cases hplain
    | finished errs acc =>
      obtain ⟨newArr, hadErr⟩ := acc
      rw [hl] at hplain
      simp only [] at hplain ⊢
      have hp := fromProps_then_validator h r pc errs _ ctx E out2 hplain
      refine ⟨hp.1, fun hff hne => hp.2 hff ?_ hne⟩
      exact (itemsLoop_failFast_clean r c ctx.path ctx.options _ hff xs 0 [] [] false _ _ hl).1
  · rename_i hno
    have hplain2 : fromProps h { r with validator := .undefined } pc [] out ctx = .ok (E, out2) := by
      split at hplain
      · rename_i xs c
        exact absurd rfl (fun e => hno xs c e rfl)
      · exact hplain
    have hp := fromProps_then_validator h r pc [] out ctx E out2 hplain2
    exact ⟨hp.1, fun hff hne => hp.2 hff rfl hne⟩

set_option maxHeartbeats 4000000 in
/-- Witness for C39: the descriptor `{ type: 'array', items: 'string', validator: f }`
with a validator that returns `false`, on the value `[1]` at the path `tags`.
The steps without the validator return the `ERR_TYPE` entry of `tags[0]`; in
non-fail-fast mode the field returns what the validator step makes of it, in
fail-fast mode that entry alone. -/
theorem validator_after_nested_errors_witness :
    fromItems (hostReturning [.bool false]) validatedArrayRules (some stringItemChecker) none
        (.arr [.num 1]) { path := "tags", options := DEFAULT_OPTIONS }
      = fromValidator (hostReturning [.bool false]) validatedArrayRules
          [{ path := "tags[0]"
             message := "Invalid tags[0] field. expected type string, received number"
             code := "ERR_TYPE", rawError := .null }]
          (.arr [.num 1]) { path := "tags", options := DEFAULT_OPTIONS }
    ∧ fromItems (hostReturning [.bool false]) validatedArrayRules (some stringItemChecker) none
        (.arr [.num 1]) { path := "tags", options := { DEFAULT_OPTIONS with failFast := true } }
      = .ok ([{ path := "tags[0]"
                message := "Invalid tags[0] field. expected type string, received number"
                code := "ERR_TYPE", rawError := .null }], .arr [.num 1]) :=
  ⟨(validator_after_nested_errors (hostReturning [.bool false]) validatedArrayRules
      (some stringItemChecker) none (.arr [.num 1])
      { path := "tags", options := DEFAULT_OPTIONS } _ _ (by decide)).1 rfl,
   (validator_after_nested_errors (hostReturning [.bool false]) validatedArrayRules
      (some stringItemChecker) none (.arr [.num 1])
      { path := "tags", options := { DEFAULT_OPTIONS with failFast := true } } _ _
      (by decide)).2 rfl (by decide)⟩

set_option maxHeartbeats 4000000 in
/-- Counterexample to C39 as stated: for the schema
`{ tags: { type: 'array', items: 'string', validator: f } }` with a validator that
returns `false` and the input `{ tags: [1] }`, non-fail-fast validation reports
the nested `ERR_TYPE` at `tags[0]` and then the `ERR_CUSTOM` of the validator;
under `failFast` it reports the nested error only. -/
theorem validator_after_nested_errors_counterexample :
    createAndValidate (hostReturning [.bool false]) validatedTagsSchema {}
        [("tags", .arr [.num 1])] {}
      = .ok (.result false
          [{ path := "tags[0]"
             message := "Invalid tags[0] field. expected type string, received number"
             code := "ERR_TYPE", rawError := .null },
           { path := "tags", message := "Invalid tags field. custom validator failed"
             code := "ERR_CUSTOM", rawError := .null }]
          (.obj .plain [("tags", .arr [.num 1])]))
    ∧ createAndValidate (hostReturning [.bool false]) validatedTagsSchema {}
        [("tags", .arr [.num 1])] { failFast := some true }
      = .ok (.result false
          [{ path := "tags[0]"
             message := "Invalid tags[0] field. expected type string, received number"
             code := "ERR_TYPE", rawError := .null }]
          (.obj .plain [])) := by
  constructor <;> decide

end GentleSchema

namespace GentleSchema

/-! ## C40: a rejection under `throw` is caught by the validator's own `catch` -/

/-- C40: with `throw: true` a validator rejection does not raise the entries the
field returns without `throw`.  When the validator returns normally and the
field without `throw` returns the non-empty list `E` of entries for it (from the
validator-only step, or from the post-structural step after clean structural
checks), the field with `throw` raises a `ValidationError` with exactly one
entry, whatever the length of `E`: its reason is the text of the
`ValidationError` that was thrown inside the validator block and caught by the
block's own `catch`, and its `rawError` is that inner `ValidationError`
(carrying `E`), not `null`. -/
theorem throw_rewraps_rejection (h : Host) (r : Rules) (f : FnRef) (out : Val) (path : String)
    (E : List Err) (rv : Val) (hthrow : r.throwField = true)
    (hcall : h.call f [out, .obj .plain [("path", .str path)]] = .ok rv)
    (hplain : runValidator h { r with throwField := false } f [] out path = .ok (E, out))
    (hne : E ≠ []) :
    runValidator h r f [] out path
        = .error (.validation
            [makeErr r path (toStringJS h (validationErrorVal E out)) "ERR_CUSTOM"
              (validationErrorVal E out)] out)
      ∧ (makeErr r path (toStringJS h (validationErrorVal E out)) "ERR_CUSTOM"
          (validationErrorVal E out)).rawError = validationErrorVal E out := by
  refine ⟨?_, by simp [makeErr, validationErrorVal, truthy]⟩
  have hmk : ∀ p q c w, makeErr { r with throwField := false } p q c w = makeErr r p q c w :=
    fun _ _ _ _ => rfl
  unfold runValidator at hplain ⊢
  rw [hcall] at hplain
  rw [hcall]
  simp only [] at hplain ⊢
  by_cases h1 : strictEq rv (.bool true) = true
  · rw [if_pos h1] at hplain
    injection hplain with hp
    injection hp with hp1 _
    exact absurd hp1.symm hne
  · rw [if_neg h1] at hplain
    rw [if_neg h1]
    by_cases h2 : strictEq rv (.bool false) = true
    · rw [if_pos h2] at hplain
      rw [if_pos h2]
      simp only [validatorReject, hmk, List.nil_append] at hplain
      injection hplain with hp
      injection hp with hp1 _
      subst hp1
      simp [validatorReject, validatorCatch, emit, hthrow]
    · rw [if_neg h2] at hplain
      rw [if_neg h2]
      cases rv with
      | str m =>
        simp only [validatorReject, hmk, List.nil_append] at hplain
        injection hplain with hp
        injection hp with hp1 _
        subst hp1
        simp [validatorReject, validatorCatch, emit, hthrow]
      | arr ms =>
        simp only [] at hplain ⊢
        by_cases h3 : ms.length ≠ 0
        · rw [if_pos h3] at hplain
          rw [if_pos h3]
          simp only [validatorRejectMany, hmk, List.nil_append] at hplain
          injection hplain with hp
          injection hp with hp1 _
          subst hp1
          simp [validatorRejectMany, validatorCatch, emit, hthrow]
        · rw [if_neg h3] at hplain
          injection hplain with hp
          injection hp with hp1 _
          exact absurd hp1.symm hne
      | obj cls kvs =>
        simp only [] at hplain ⊢
        by_cases h4 : strictEq (lookupKey "valid" kvs) (.bool true) = true
        · rw [if_pos h4] at hplain
          injection hplain with hp
          injection hp with hp1 _
          exact absurd hp1.symm hne
        · rw [if_neg h4] at hplain
          rw [if_neg h4]
          cases he : lookupKey "errors" kvs with
          | arr ms =>
            rw [he] at hplain
            simp only [validatorRejectMany, hmk, List.nil_append] at hplain
            injection hplain with hp
            injection hp with hp1 _
            subst hp1
            simp [validatorRejectMany, validatorCatch, emit, hthrow]
          | _ =>
            rw [he] at hplain
            simp only [] at hplain
            injection hplain with hp
            injection hp with hp1 _
            exact absurd hp1.symm hne
      | _ =>
        simp only [] at hplain
        injection hplain with hp
        injection hp with hp1 _
        exact absurd hp1.symm hne

set_option maxHeartbeats 4000000 in
/-- Witness for C40: the descriptor `{ validator: f, throw: true }` with a
validator that returns the two messages `too short` and `no digit`, on the value
`'x'`: without `throw` the field returns two entries, with `throw` the raised
error carries one entry whose text is `ValidationError: Validation failed`; and
`validate` raises that error for the schema `{ a: { validator: f, throw: true } }`
and the input `{ a: 'x' }`. -/
theorem throw_rewraps_rejection_witness :
    (runValidator errorNamingHost throwValidatorRules (.user 0 "f") [] (.str "x") "a"
        = .error (.validation
            [makeErr throwValidatorRules "a"
              (toStringJS errorNamingHost
                (validationErrorVal [customError "a" "too short", customError "a" "no digit"]
                  (.str "x")))
              "ERR_CUSTOM"
              (validationErrorVal [customError "a" "too short", customError "a" "no digit"]
                (.str "x"))] (.str "x"))
      ∧ (makeErr throwValidatorRules "a"
          (toStringJS errorNamingHost
            (validationErrorVal [customError "a" "too short", customError "a" "no digit"]
              (.str "x")))
          "ERR_CUSTOM"
          (validationErrorVal [customError "a" "too short", customError "a" "no digit"]
            (.str "x"))).rawError
        = validationErrorVal [customError "a" "too short", customError "a" "no digit"] (.str "x"))
    ∧ createAndValidate errorNamingHost throwValidatorSchema {} [("a", .str "x")] {}
      = .error (.validation
          [{ path := "a", message := "Invalid a field. ValidationError: Validation failed"
             code := "ERR_CUSTOM"
             rawError := validationErrorVal
               [customError "a" "too short", customError "a" "no digit"] (.str "x") }]
          (.str "x"))
    ∧ createAndValidate errorNamingHost plainValidatorSchema {} [("a", .str "x")] {}
      = .ok (.result false [customError "a" "too short", customError "a" "no digit"]
          (.obj .plain [("a", .str "x")])) :=
  ⟨throw_rewraps_rejection errorNamingHost throwValidatorRules (.user 0 "f") (.str "x") "a"
      [customError "a" "too short", customError "a" "no digit"]
      (.arr [.str "too short", .str "no digit"]) rfl rfl (by decide) (by decide),
    by decide, by decide⟩

end GentleSchema

namespace GentleSchema

/-! ## Patterns with state: agreement with the state-free checkers -/

/-! ## Patterns without state: the checkers with the store agree with the checkers -/

theorem regexTestS_stateless (h : Host) (eng : Engine) (re : Val) (source s : String)
    (st : Store) (hre : isStatefulPattern re = false) :
    regexTestS h eng re source s st = (h.regexTest source s, st) := by
  simp [regexTestS, hre]

theorem itemsLoopS_agrees (r : Rules) (icS : CheckerS) (ic : Checker) (hic : Agrees icS ic)
    (path : String) (options : Options) (out : Val) :
    ∀ (xs : List Val) (i : Nat) (errs : List Err) (newArr : List Val) (hadErr : Bool)
      (st : Store),
      itemsLoopS r icS path options out xs i errs newArr hadErr st
        = (itemsLoop r ic path options out xs i errs newArr hadErr, st) := by
  intro xs
  induction xs with
  | nil => intro i errs newArr hadErr st; rfl
  | cons x rest ih =>
    intro i errs newArr hadErr st
    rw [itemsLoopS, itemsLoop, hic x _ st]
    cases ic x { path := _arrayPath path i, options := options } with
    | error ex => rfl
    | ok q =>
      obtain ⟨ce, cv⟩ := q
      simp only []
      split
      · split
        · split <;> rfl
        · exact ih _ _ _ _ _
      · exact ih _ _ _ _ _

theorem propsLoopS_agrees (r : Rules) (path : String) (options : Options) (out : Val) :
    ∀ (propsS : List (String × CheckerS)) (props : List (String × Checker)),
      List.Forall₂ (fun (p : String × CheckerS) (q : String × Checker) =>
        p.1 = q.1 ∧ Agrees p.2 q.2) propsS props →
      ∀ (errs : List Err) (acc : List (String × Val)) (st : Store),
        propsLoopS r path options out propsS errs acc st
          = (propsLoop r path options out props errs acc, st) := by
  intro propsS props hrel
  induction hrel with
  | nil => intro errs acc st; rfl
  | @cons p q ps qs hpq _ ih =>
    intro errs acc st
    obtain ⟨pk, ckS⟩ := p
    obtain ⟨qk, ck⟩ := q
    obtain ⟨hk, hag⟩ := hpq
    simp only [] at hk hag
    subst hk
    rw [propsLoopS, propsLoop, hag _ _ st]
    cases ck (getProp out pk) { path := childPathOf path pk, options := options } with
    | error ex => rfl
    | ok q =>
      obtain ⟨ce, cv⟩ := q
      simp only []
      split
      · split
        · split <;> rfl
        · exact ih _ _ _
      · exact ih _ _ _

theorem forall₂_keys (propsS : List (String × CheckerS)) (props : List (String × Checker))
    (hrel : List.Forall₂ (fun (p : String × CheckerS) (q : String × Checker) =>
      p.1 = q.1 ∧ Agrees p.2 q.2) propsS props) :
    propsS.map (fun p => p.1) = props.map (fun p => p.1) := by
  induction hrel with
  | nil => rfl
  | cons hpq _ ih => simp only [List.map_cons, hpq.1, ih]

theorem fromPropsS_agrees (h : Host) (r : Rules) (pcS : Option (List (String × CheckerS)))
    (pc : Option (List (String × Checker))) (hpc : AgreesProps pcS pc) (errs : List Err)
    (out : Val) (ctx : Ctx) (st : Store) :
    fromPropsS h r pcS errs out ctx st = (fromProps h r pc errs out ctx, st) := by
  cases pcS with
  | none =>
    cases pc with
    | none => rfl
    | some _ => exact hpc.elim
  | some propsS =>
    cases pc with
    | none => exact hpc.elim
    | some props =>
      have hrel : List.Forall₂ (fun (p : String × CheckerS) (q : String × Checker) =>
          p.1 = q.1 ∧ Agrees p.2 q.2) propsS props := hpc
      unfold fromPropsS fromProps
      simp only []
      split
      · rw [propsLoopS_agrees r ctx.path ctx.options out propsS props hrel, forall₂_keys _ _ hrel]
        cases propsLoop r ctx.path ctx.options out props errs [] with
        | returned res => rfl
        | finished e1 nr =>
          simp only []
          split
          · cases strictUnknownLoop r ctx.path ctx.options out (props.map (fun p => p.1))
                (objectKeys out) e1 with
            | returned res => rfl
            | finished e2 u => rfl
          · rfl
      · rfl

theorem fromItemsS_agrees (h : Host) (r : Rules) (icS : Option CheckerS) (ic : Option Checker)
    (hic : AgreesItems icS ic) (pcS : Option (List (String × CheckerS)))
    (pc : Option (List (String × Checker))) (hpc : AgreesProps pcS pc) (out : Val)
    (ctx : Ctx) (st : Store) :
    fromItemsS h r icS pcS out ctx st = (fromItems h r ic pc out ctx, st) := by
  cases icS with
  | none =>
    cases ic with
    | some _ => exact hic.elim
    | none =>
      have e1 : fromItemsS h r none pcS out ctx st = fromPropsS h r pcS [] out ctx st := by
        cases out <;> rfl
      have e2 : fromItems h r none pc out ctx = fromProps h r pc [] out ctx := by
        cases out <;> rfl
      rw [e1, e2]
      exact fromPropsS_agrees h r pcS pc hpc [] out ctx st
  | some cS =>
    cases ic with
    | none => exact hic.elim
    | some c =>
      have hag : Agrees cS c := hic
      cases out with
      | arr xs =>
        unfold fromItemsS fromItems
        simp only []
        rw [itemsLoopS_agrees r cS c hag]
        cases itemsLoop r c ctx.path ctx.options (.arr xs) xs 0 [] [] false with
        | returned res => rfl
        | finished errs acc =>
          obtain ⟨newArr, hadErr⟩ := acc
          exact fromPropsS_agrees h r pcS pc hpc errs _ ctx st
      | _ => exact fromPropsS_agrees h r pcS pc hpc [] _ ctx st

theorem fromBoundsS_agrees (h : Host) (r : Rules) (icS : Option CheckerS) (ic : Option Checker)
    (hic : AgreesItems icS ic) (pcS : Option (List (String × CheckerS)))
    (pc : Option (List (String × Checker))) (hpc : AgreesProps pcS pc) (out : Val)
    (ctx : Ctx) (st : Store) :
    fromBoundsS h r icS pcS out ctx st = (fromBounds h r ic pc out ctx, st) := by
  unfold fromBoundsS fromBounds
  have hi := fromItemsS_agrees h r icS ic hic pcS pc hpc out ctx st
  split
  · split
    · rfl
    · split
      · rfl
      · exact hi
  · split
    · split
      · rfl
      · split
        · rfl
        · exact hi
    · exact hi

theorem fromRegexS_agrees (h : Host) (eng : Engine) (r : Rules)
    (hre : ∀ source kvs, r.regex = .obj (.regexp source) kvs → isStatefulPattern r.regex = false)
    (icS : Option CheckerS) (ic : Option Checker)
    (hic : AgreesItems icS ic) (pcS : Option (List (String × CheckerS)))
    (pc : Option (List (String × Checker))) (hpc : AgreesProps pcS pc) (out : Val)
    (ctx : Ctx) (st : Store) :
    fromRegexS h eng r icS pcS out ctx st = (fromRegex h r ic pc out ctx, st) := by
  have hb := fun o => fromBoundsS_agrees h r icS ic hic pcS pc hpc o ctx st
  unfold fromRegexS fromRegex
  by_cases ht : truthy r.regex = true
  · rw [if_pos ht, if_pos ht]
    cases hq : r.regex with
    | obj cls kvs =>
      cases cls with
      | regexp source =>
        simp only []
        cases out with
        | str s =>
          simp only []
          rw [← hq, regexTestS_stateless h eng r.regex source s st (hre source kvs hq)]
          simp only []
          split
          · exact hb _
          · rfl
        | _ => rfl
      | _ => rfl
    | _ => rfl
  · rw [if_neg ht, if_neg ht]
    exact hb _

theorem checkerS_agrees (h : Host) (eng : Engine) (r : Rules)
    (hre : ∀ source kvs, r.regex = .obj (.regexp source) kvs → isStatefulPattern r.regex = false)
    (icS : Option CheckerS) (ic : Option Checker)
    (hic : AgreesItems icS ic) (pcS : Option (List (String × CheckerS)))
    (pc : Option (List (String × Checker))) (hpc : AgreesProps pcS pc) :
    Agrees (checkerS h eng r icS pcS) (checker h r ic pc) := by
  have hrx := fun o ctx st => fromRegexS_agrees h eng r hre icS ic hic pcS pc hpc o ctx st
  have hen : ∀ o ctx st, fromEnumS h eng r icS pcS o ctx st = (fromEnum h r ic pc o ctx, st) := by
    intro o ctx st
    unfold fromEnumS fromEnum
    cases hq : r.enumVals with
    | arr es =>
      simp only []
      split
      · rfl
      · exact hrx _ _ _
    | _ => exact hrx _ _ _
  have hty : ∀ o ctx st, fromTypeS h eng r icS pcS o ctx st = (fromType h r ic pc o ctx, st) := by
    intro o ctx st
    unfold fromTypeS fromType
    split
    · simp only []
      split <;> rfl
    · exact hen _ _ _
  have hco : ∀ o ctx st,
      fromCoerceS h eng r icS pcS o ctx st = (fromCoerce h r ic pc o ctx, st) := by
    intro o ctx st
    unfold fromCoerceS fromCoerce
    split
    · simp only []
      split
      · exact hty _ _ _
      · split
        · rfl
        · exact hty _ _ _
    · exact hty _ _ _
  have hvo : ∀ o ctx st,
      fromValidatorOnlyS h eng r icS pcS o ctx st
        = (fromValidatorOnly h r ic pc o ctx, st) := by
    intro o ctx st
    unfold fromValidatorOnlyS fromValidatorOnly
    cases hq : r.validator with
    | fn f =>
      simp only []
      split
      · rfl
      · exact hco _ _ _
    | _ => exact hco _ _ _
  have hnu : ∀ o ctx st, fromNullS h eng r icS pcS o ctx st = (fromNull h r ic pc o ctx, st) := by
    intro o ctx st
    unfold fromNullS fromNull
    cases o <;> simp only [Bool.false_eq_true, if_false, if_true] <;>
      first
        | exact hvo _ _ _
        | (split <;> rfl)
  intro v ctx st
  unfold checkerS checker
  split
  · split
    · cases hq : r.deflt with
      | fn f =>
        simp only []
        cases h.call f [] with
        | ok d => exact hnu _ _ _
        | error e => rfl
      | _ => exact hnu _ _ _
    · split <;> rfl
  · exact hnu _ _ _

theorem nsp_lookupKey (k : String) (kvs : List (String × Val))
    (hs : noStatefulPatternEntries kvs = true) : noStatefulPattern (lookupKey k kvs) = true := by
  induction kvs with
  | nil => rfl
  | cons p rest ih =>
    obtain ⟨k2, v⟩ := p
    simp only [noStatefulPatternEntries, Bool.and_eq_true] at hs
    simp only [lookupKey]
    split
    · exact hs.1
    · exact ih hs.2

theorem nsp_getD (xs : List Val) (i : Nat) (hs : noStatefulPatternList xs = true) :
    noStatefulPattern (xs.getD i .undefined) = true := by
  induction xs generalizing i with
  | nil => cases i <;> rfl
  | cons x rest ih =>
    simp only [noStatefulPatternList, Bool.and_eq_true] at hs
    cases i with
    | zero => exact hs.1
    | succ j => exact ih j hs.2

theorem nsp_getProp (v : Val) (k : String) (hs : noStatefulPattern v = true) :
    noStatefulPattern (getProp v k) = true := by
  cases v with
  | obj cls kvs =>
    simp only [noStatefulPattern, Bool.and_eq_true] at hs
    exact nsp_lookupKey k kvs hs.2
  | arr xs =>
    simp only [noStatefulPattern] at hs
    simp only [getProp]
    split
    · rfl
    · split
      · exact nsp_getD xs _ hs
      · rfl
  | str s =>
    simp only [getProp]
    split
    · rfl
    · split <;> rfl
  | fn f =>
    simp only [getProp]
    split <;> rfl
  | _ => rfl

/-- A descriptor without stateful patterns has rules whose `regex`, when it is a
`RegExp`, has no state. -/
theorem readRules_stateless (e : Val) (hs : noStatefulPattern e = true) :
    ∀ source kvs, (readRules e).regex = .obj (.regexp source) kvs →
      isStatefulPattern (readRules e).regex = false := by
  intro source kvs hq
  have h1 : noStatefulPattern (readRules e).regex = true := nsp_getProp e "regex" hs
  rw [hq] at h1 ⊢
  simp only [noStatefulPattern, Bool.and_eq_true, Bool.not_eq_true'] at h1
  simp only [isStatefulPattern, getProp]
  exact h1.1

theorem agreesItems_withStore (ic : Option Checker) :
    AgreesItems (ic.map withStore) ic := by
  cases ic with
  | none => trivial
  | some c => exact fun _ _ _ => rfl

theorem agreesProps_withStore (pc : Option (List (String × Checker))) :
    AgreesProps (pc.map (List.map (fun p => (p.1, withStore p.2)))) pc := by
  cases pc with
  | none => trivial
  | some props =>
    show List.Forall₂ _ _ _
    induction props with
    | nil => exact List.Forall₂.nil
    | cons p rest ih => exact List.Forall₂.cons ⟨rfl, fun _ _ _ => rfl⟩ ih

/-- Without a stateful pattern of its own, the checker built over children that
leave the store as it is leaves the store as it is. -/
theorem checkerS_withStore (h : Host) (eng : Engine) (r : Rules)
    (hre : ∀ source kvs, r.regex = .obj (.regexp source) kvs → isStatefulPattern r.regex = false)
    (ic : Option Checker) (pc : Option (List (String × Checker))) :
    checkerS h eng r (ic.map withStore) (pc.map (List.map (fun p => (p.1, withStore p.2))))
      = withStore (checker h r ic pc) := by
  funext v ctx st
  exact checkerS_agrees h eng r hre _ ic (agreesItems_withStore ic) _ pc
    (agreesProps_withStore pc) v ctx st

/-! Compilation: for a descriptor without stateful patterns `makeCheckerS` returns
the checker of `makeChecker` with the store left as it is. -/

mutual
theorem makeCheckerS_eq (h : Host) (eng : Engine) :
    ∀ (e : Val), noStatefulPattern e = true →
      makeCheckerS h eng e = (makeChecker h e).map withStore
  | .undefined, _ => rfl
  | .null, _ => rfl
  | .obj cls kvs, hs => by
    have hs2 : noStatefulPatternEntries kvs = true := by
      simp only [noStatefulPattern, Bool.and_eq_true] at hs
      exact hs.2
    have hi := makeItemsS_eq h eng kvs hs2
    have hp := makePropertiesS_eq h eng kvs hs2
    unfold makeCheckerS makeChecker
    rw [hi, hp]
    cases makeItems h kvs with
    | error e => rfl
    | ok ic =>
      cases makeProperties h kvs with
      | error e => rfl
      | ok pc =>
        simp only [Except.map]
        rw [checkerS_withStore h eng _ (readRules_stateless _ hs) ic pc]
  | .bool b, hs => by
    simp only [makeCheckerS, makeChecker, Except.map]
    rw [← checkerS_withStore h eng _ (readRules_stateless _ hs) none none]
    rfl
  | .num n, hs => by
    simp only [makeCheckerS, makeChecker, Except.map]
    rw [← checkerS_withStore h eng _ (readRules_stateless _ hs) none none]
    rfl
  | .nan, hs => by
    simp only [makeCheckerS, makeChecker, Except.map]
    rw [← checkerS_withStore h eng _ (readRules_stateless _ hs) none none]
    rfl
  | .str t, hs => by
    simp only [makeCheckerS, makeChecker, Except.map]
    rw [← checkerS_withStore h eng _ (readRules_stateless _ hs) none none]
    rfl
  | .bigint n, hs => by
    simp only [makeCheckerS, makeChecker, Except.map]
    rw [← checkerS_withStore h eng _ (readRules_stateless _ hs) none none]
    rfl
  | .symbol t, hs => by
    simp only [makeCheckerS, makeChecker, Except.map]
    rw [← checkerS_withStore h eng _ (readRules_stateless _ hs) none none]
    rfl
  | .fn f, hs => by
    simp only [makeCheckerS, makeChecker, Except.map]
    rw [← checkerS_withStore h eng _ (readRules_stateless _ hs) none none]
    rfl
  | .arr xs, hs => by
    simp only [makeCheckerS, makeChecker, Except.map]
    rw [← checkerS_withStore h eng _ (readRules_stateless _ hs) none none]
    rfl
theorem makeItemsS_eq (h : Host) (eng : Engine) :
    ∀ (kvs : List (String × Val)), noStatefulPatternEntries kvs = true →
      makeItemsS h eng kvs = (makeItems h kvs).map (Option.map withStore)
  | [], _ => rfl
  | (key, v) :: rest, hs => by
    simp only [noStatefulPatternEntries, Bool.and_eq_true] at hs
    have ihv := makeCheckerS_eq h eng v hs.1
    have ihr := makeItemsS_eq h eng rest hs.2
    unfold makeItemsS makeItems
    split
    · split
      · rw [ihv]
        cases makeChecker h v with
        | error e => rfl
        | ok c => rfl
      · rfl
    · exact ihr
theorem makePropertiesS_eq (h : Host) (eng : Engine) :
    ∀ (kvs : List (String × Val)), noStatefulPatternEntries kvs = true →
      makePropertiesS h eng kvs
        = (makeProperties h kvs).map
            (Option.map (List.map (fun p => (p.1, withStore p.2))))
  | [], _ => rfl
  | (key, .obj cls pkvs) :: rest, hs => by
    simp only [noStatefulPatternEntries, noStatefulPattern, Bool.and_eq_true] at hs
    have ihv := makePropsOfEntriesS_eq h eng pkvs hs.1.2
    have ihr := makePropertiesS_eq h eng rest hs.2
    unfold makePropertiesS makeProperties
    split
    · split
      · simp only []
        rw [ihv]
        cases makePropsOfEntries h pkvs with
        | error e => rfl
        | ok ps => rfl
      · rfl
    · exact ihr
  | (key, .arr xs) :: rest, hs => by
    simp only [noStatefulPatternEntries, noStatefulPattern, Bool.and_eq_true] at hs
    have ihv := makePropsOfArrayS_eq h eng xs 0 hs.1
    have ihr := makePropertiesS_eq h eng rest hs.2
    unfold makePropertiesS makeProperties
    split
    · split
      · simp only []
        rw [ihv]
        cases makePropsOfArray h xs 0 with
        | error e => rfl
        | ok ps => rfl
      · rfl
    · exact ihr
  | (key, .undefined) :: rest, hs => by
    simp only [noStatefulPatternEntries, Bool.and_eq_true] at hs
    have ihr := makePropertiesS_eq h eng rest hs.2
    unfold makePropertiesS makeProperties
    split
    · split
      · rfl
      · rfl
    · exact ihr
  | (key, .null) :: rest, hs => by
    simp only [noStatefulPatternEntries, Bool.and_eq_true] at hs
    have ihr := makePropertiesS_eq h eng rest hs.2
    unfold makePropertiesS makeProperties
    split
    · split
      · rfl
      · rfl
    · exact ihr
  | (key, .bool b) :: rest, hs => by
    simp only [noStatefulPatternEntries, Bool.and_eq_true] at hs
    have ihr := makePropertiesS_eq h eng rest hs.2
    unfold makePropertiesS makeProperties
    split
    · split
      · rfl
      · rfl
    · exact ihr
  | (key, .num n) :: rest, hs => by
    simp only [noStatefulPatternEntries, Bool.and_eq_true] at hs
    have ihr := makePropertiesS_eq h eng rest hs.2
    unfold makePropertiesS makeProperties
    split
    · split
      · rfl
      · rfl
    · exact ihr
  | (key, .nan) :: rest, hs => by
    simp only [noStatefulPatternEntries, Bool.and_eq_true] at hs
    have ihr := makePropertiesS_eq h eng rest hs.2
    unfold makePropertiesS makeProperties
    split
    · split
      · rfl
      · rfl
    · exact ihr
  | (key, .str t) :: rest, hs => by
    simp only [noStatefulPatternEntries, Bool.and_eq_true] at hs
    have ihr := makePropertiesS_eq h eng rest hs.2
    unfold makePropertiesS makeProperties
    split
    · split
      · simp only [Except.map, Option.map, List.map_map]
        congr 2
        apply List.map_congr_left
        intro pk _
        simp only [Function.comp]
        rw [← checkerS_withStore h eng _
          (readRules_stateless _ (nsp_getProp _ pk hs.1)) none none]
        rfl
      · rfl
    · exact ihr
  | (key, .bigint n) :: rest, hs => by
    simp only [noStatefulPatternEntries, Bool.and_eq_true] at hs
    have ihr := makePropertiesS_eq h eng rest hs.2
    unfold makePropertiesS makeProperties
    split
    · split
      · rfl
      · rfl
    · exact ihr
  | (key, .symbol t) :: rest, hs => by
    simp only [noStatefulPatternEntries, Bool.and_eq_true] at hs
    have ihr := makePropertiesS_eq h eng rest hs.2
    unfold makePropertiesS makeProperties
    split
    · split
      · rfl
      · rfl
    · exact ihr
  | (key, .fn f) :: rest, hs => by
    simp only [noStatefulPatternEntries, Bool.and_eq_true] at hs
    have ihr := makePropertiesS_eq h eng rest hs.2
    unfold makePropertiesS makeProperties
    split
    · split
      · rfl
      · rfl
    · exact ihr
theorem makePropsOfEntriesS_eq (h : Host) (eng : Engine) :
    ∀ (kvs : List (String × Val)), noStatefulPatternEntries kvs = true →
      makePropsOfEntriesS h eng kvs
        = (makePropsOfEntries h kvs).map (List.map (fun p => (p.1, withStore p.2)))
  | [], _ => rfl
  | (pk, v) :: rest, hs => by
    simp only [noStatefulPatternEntries, Bool.and_eq_true] at hs
    have ihv := makeCheckerS_eq h eng v hs.1
    have ihr := makePropsOfEntriesS_eq h eng rest hs.2
    unfold makePropsOfEntriesS makePropsOfEntries
    rw [ihv, ihr]
    cases makeChecker h v with
    | error e => rfl
    | ok c =>
      cases makePropsOfEntries h rest with
      | error e => rfl
      | ok cs => rfl
theorem makePropsOfArrayS_eq (h : Host) (eng : Engine) :
    ∀ (xs : List Val) (i : Nat), noStatefulPatternList xs = true →
      makePropsOfArrayS h eng xs i
        = (makePropsOfArray h xs i).map (List.map (fun p => (p.1, withStore p.2)))
  | [], _, _ => rfl
  | v :: rest, i, hs => by
    simp only [noStatefulPatternList, Bool.and_eq_true] at hs
    have ihv := makeCheckerS_eq h eng v hs.1
    have ihr := makePropsOfArrayS_eq h eng rest (i + 1) hs.2
    unfold makePropsOfArrayS makePropsOfArray
    rw [ihv, ihr]
    cases makeChecker h v with
    | error e => rfl
    | ok c =>
      cases makePropsOfArray h rest (i + 1) with
      | error e => rfl
      | ok cs => rfl
end

/-! Normalisation, merging and lookup keep a value free of stateful patterns. -/

theorem nsp_setKey (k : String) (v : Val) (out : List (String × Val))
    (hv : noStatefulPattern v = true) (ho : noStatefulPatternEntries out = true) :
    noStatefulPatternEntries (setKey k v out) = true := by
  induction out with
  | nil => simp [setKey, noStatefulPatternEntries, hv]
  | cons p rest ih =>
    obtain ⟨k2, v2⟩ := p
    simp only [noStatefulPatternEntries, Bool.and_eq_true] at ho
    simp only [setKey]
    split
    · simp [noStatefulPatternEntries, hv, ho.2]
    · simp [noStatefulPatternEntries, ho.1, ih ho.2]

theorem nsp_copyKey (raw : List (String × Val)) (k : String) (f : Val → Val)
    (out : List (String × Val)) (hr : noStatefulPatternEntries raw = true)
    (hf : ∀ v, noStatefulPattern v = true → noStatefulPattern (f v) = true)
    (ho : noStatefulPatternEntries out = true) :
    noStatefulPatternEntries (copyKey raw k f out) = true := by
  unfold copyKey
  split
  · exact nsp_setKey k _ out (hf _ (nsp_lookupKey k raw hr)) ho
  · exact ho

theorem nsp_foldl_setKey (raw : List (String × Val)) :
    ∀ (out : List (String × Val)), noStatefulPatternEntries raw = true →
      noStatefulPatternEntries out = true →
      noStatefulPatternEntries (raw.foldl (fun acc kv => setKey kv.1 kv.2 acc) out) = true := by
  induction raw with
  | nil => intro out _ ho; exact ho
  | cons p rest ih =>
    intro out hr ho
    obtain ⟨k, v⟩ := p
    simp only [noStatefulPatternEntries, Bool.and_eq_true] at hr
    simp only [List.foldl_cons]
    exact ih _ hr.2 (nsp_setKey k v out hr.1 ho)

theorem nsp_filter (raw : List (String × Val)) (p : String × Val → Bool)
    (hr : noStatefulPatternEntries raw = true) :
    noStatefulPatternEntries (raw.filter p) = true := by
  induction raw with
  | nil => rfl
  | cons q rest ih =>
    obtain ⟨k, v⟩ := q
    simp only [noStatefulPatternEntries, Bool.and_eq_true] at hr
    simp only [List.filter_cons]
    split
    · simp [noStatefulPatternEntries, hr.1, ih hr.2]
    · exact ih hr.2

theorem nsp_foldl_keys (src : Val) (hs : noStatefulPattern src = true) (ks : List String) :
    ∀ (out : List (String × Val)), noStatefulPatternEntries out = true →
      noStatefulPatternEntries (ks.foldl (fun acc k => setKey k (getProp src k) acc) out)
        = true := by
  induction ks with
  | nil => intro out ho; exact ho
  | cons k rest ih =>
    intro out ho
    simp only [List.foldl_cons]
    exact ih _ (nsp_setKey k _ out (nsp_getProp src k hs) ho)

theorem nsp_objectAssign (target : List (String × Val)) (src : Val)
    (ht : noStatefulPatternEntries target = true) (hs : noStatefulPattern src = true) :
    noStatefulPatternEntries (objectAssign target src) = true :=
  nsp_foldl_keys src hs (objectKeys src) target ht

theorem nsp_plain (kvs : List (String × Val)) (hk : noStatefulPatternEntries kvs = true) :
    noStatefulPattern (.obj .plain kvs) = true := by
  simp [noStatefulPattern, hk]

theorem nsp_entries_of_obj (cls : Cls) (kvs : List (String × Val))
    (hs : noStatefulPattern (.obj cls kvs) = true) : noStatefulPatternEntries kvs = true := by
  simp only [noStatefulPattern, Bool.and_eq_true] at hs
  exact hs.2

theorem nsp_toBool (v : Val) : noStatefulPattern (toBool v) = true := rfl

theorem nsp_assembleEntry (raw : List (String × Val)) (items props regex : Option Val)
    (hr : noStatefulPatternEntries raw = true)
    (hi : ∀ v, items = some v → noStatefulPattern v = true)
    (hp : ∀ v, props = some v → noStatefulPattern v = true)
    (hx : ∀ v, regex = some v → noStatefulPattern v = true) :
    noStatefulPattern (assembleEntry raw items props regex) = true := by
  unfold assembleEntry
  apply nsp_plain
  apply nsp_foldl_setKey _ _ (nsp_filter raw _ hr)
  have hid : ∀ v, noStatefulPattern v = true → noStatefulPattern (id v) = true :=
    fun v hv => hv
  have htb : ∀ v, noStatefulPattern v = true → noStatefulPattern (toBool v) = true :=
    fun v _ => rfl
  apply nsp_copyKey raw _ _ _ hr hid
  apply nsp_copyKey raw _ _ _ hr htb
  apply nsp_copyKey raw _ _ _ hr hid
  apply nsp_copyKey raw _ _ _ hr hid
  have h8 : noStatefulPatternEntries
      (copyKey raw "enum" id
        (setKey "strictType"
          (.bool (truthy (lookupKey "forceType" raw) || truthy (lookupKey "strictType" raw)))
          (copyKey raw "coerce" toBool
            (copyKey raw "validator" id
              (copyKey raw "default" id
                (copyKey raw "nullable" toBool
                  (copyKey raw "required" toBool (copyKey raw "type" id []))))))))
      = true := by
    apply nsp_copyKey raw _ _ _ hr hid
    refine nsp_setKey "strictType" (.bool _) _ rfl ?_
    apply nsp_copyKey raw _ _ _ hr htb
    apply nsp_copyKey raw _ _ _ hr hid
    apply nsp_copyKey raw _ _ _ hr hid
    apply nsp_copyKey raw _ _ _ hr htb
    apply nsp_copyKey raw _ _ _ hr htb
    apply nsp_copyKey raw _ _ _ hr hid
    rfl
  cases regex with
  | none =>
    cases props with
    | none =>
      cases items with
      | none => exact h8
      | some i => exact nsp_setKey _ _ _ (hi i rfl) h8
    | some ps =>
      cases items with
      | none => exact nsp_setKey _ _ _ (hp ps rfl) h8
      | some i => exact nsp_setKey _ _ _ (hp ps rfl) (nsp_setKey _ _ _ (hi i rfl) h8)
  | some re =>
    cases props with
    | none =>
      cases items with
      | none => exact nsp_setKey _ _ _ (hx re rfl) h8
      | some i => exact nsp_setKey _ _ _ (hx re rfl) (nsp_setKey _ _ _ (hi i rfl) h8)
    | some ps =>
      cases items with
      | none => exact nsp_setKey _ _ _ (hx re rfl) (nsp_setKey _ _ _ (hp ps rfl) h8)
      | some i =>
        exact nsp_setKey _ _ _ (hx re rfl)
          (nsp_setKey _ _ _ (hp ps rfl) (nsp_setKey _ _ _ (hi i rfl) h8))

theorem nsp_normalizeRegex (h : Host) (L : Option Int) (raw : List (String × Val))
    (kn pn : String) (hr : noStatefulPatternEntries raw = true) (re : Val)
    (hx : normalizeRegex h L raw kn pn = .ok (some re)) : noStatefulPattern re = true := by
  have hnew : ∀ source v, newRegExp h source = .ok v → noStatefulPattern v = true := by
    intro source v hv
    unfold newRegExp at hv
    split at hv
    · cases hv
    · injection hv with hv
      rw [← hv]
      rfl
  have hl := nsp_lookupKey "regex" raw hr
  unfold normalizeRegex at hx
  split at hx
  · split at hx
    · rename_i source kvs hq
      injection hx with hx
      injection hx with hx
      rw [← hx, ← hq]
      exact hl
    · rename_i source hq
      split at hx
      · split at hx
        · split at hx
          · cases hx
          · split at hx
            · rename_i v hv
              injection hx with hx
              injection hx with hx
              rw [← hx]
              exact hnew _ _ hv
            · cases hx
        · split at hx
          · rename_i v hv
            injection hx with hx
            injection hx with hx
            rw [← hx]
            exact hnew _ _ hv
          · cases hx
      · cases hx
    · cases hx
  · cases hx

theorem nsp_typeEntries (w : Val) (hw : noStatefulPattern w = true) (ks : List String) :
    noStatefulPatternEntries
      (ks.map (fun pk => (pk, Val.obj .plain [("type", getProp w pk)]))) = true := by
  induction ks with
  | nil => rfl
  | cons k rest ih =>
    simp only [List.map_cons, noStatefulPatternEntries, noStatefulPattern, Bool.and_eq_true,
      nsp_getProp w k hw, ih, and_self, Bool.true_and, Bool.and_true]

theorem nsp_headD (xs : List Val) (hs : noStatefulPatternList xs = true) :
    noStatefulPattern (xs.headD .undefined) = true := by
  cases xs with
  | nil => rfl
  | cons x rest =>
    simp only [noStatefulPatternList, Bool.and_eq_true] at hs
    exact hs.1

mutual
theorem normalizeEntry_nsp (h : Host) (L : Option Int) :
    ∀ (raw : Val) (k p : String) (n : Val), noStatefulPattern raw = true →
      normalizeEntry h L raw k p = .ok n → noStatefulPattern n = true
  | .str t, k, p, n, _, hx => by
    simp only [normalizeEntry] at hx
    injection hx with hx
    rw [← hx]
    rfl
  | .fn f, k, p, n, _, hx => by
    simp only [normalizeEntry] at hx
    injection hx with hx
    rw [← hx]
    rfl
  | .arr [], k, p, n, _, hx => by
    simp only [normalizeEntry] at hx
    injection hx with hx
    rw [← hx]
    rfl
  | .arr (a :: rest), k, p, n, hs, hx => by
    simp only [noStatefulPattern, noStatefulPatternList, Bool.and_eq_true] at hs
    have ih := normalizeEntry_nsp h L a k p
    unfold normalizeEntry at hx
    cases ha : normalizeEntry h L a k p with
    | error e => rw [ha] at hx; cases hx
    | ok base =>
      rw [ha] at hx
      simp only [] at hx
      have hb := ih base hs.1 ha
      split at hx
      · injection hx with hx
        rw [← hx]
        exact nsp_plain _ (nsp_objectAssign _ _ (nsp_objectAssign [] base rfl hb)
          (nsp_headD rest hs.2))
      · injection hx with hx
        rw [← hx]
        exact hb
  | .obj c kvs, k, p, n, hs, hx => by
    have hk : noStatefulPatternEntries kvs = true := nsp_entries_of_obj c kvs hs
    have ihi := normalizeItems_nsp h L kvs k p
    have ihp := normalizeProperties_nsp h L kvs k p
    unfold normalizeEntry at hx
    split at hx
    · injection hx with hx
      rw [← hx]
      rfl
    · cases hi : normalizeItems h L k p kvs with
      | error e => rw [hi] at hx; cases hx
      | ok items =>
        rw [hi] at hx
        simp only [] at hx
        cases hp : normalizeProperties h L k p kvs with
        | error e => rw [hp] at hx; cases hx
        | ok props =>
          rw [hp] at hx
          simp only [] at hx
          cases hr : normalizeRegex h L kvs k p with
          | error e => rw [hr] at hx; cases hx
          | ok regex =>
            rw [hr] at hx
            simp only [] at hx
            injection hx with hx
            rw [← hx]
            exact nsp_assembleEntry kvs items props regex hk
              (fun v hv => ihi items hk hi v hv)
              (fun v hv => ihp props hk hp v hv)
              (fun v hv => nsp_normalizeRegex h L kvs k p hk v (by rw [hr, hv]))
  | .undefined, k, p, n, _, hx => by
    simp only [normalizeEntry] at hx
    injection hx with hx
    rw [← hx]
    rfl
  | .null, k, p, n, _, hx => by
    simp only [normalizeEntry] at hx
    injection hx with hx
    rw [← hx]
    rfl
  | .bool b, k, p, n, _, hx => by
    simp only [normalizeEntry] at hx
    injection hx with hx
    rw [← hx]
    rfl
  | .num i, k, p, n, _, hx => by
    simp only [normalizeEntry] at hx
    injection hx with hx
    rw [← hx]
    rfl
  | .nan, k, p, n, _, hx => by
    simp only [normalizeEntry] at hx
    injection hx with hx
    rw [← hx]
    rfl
  | .bigint i, k, p, n, _, hx => by
    simp only [normalizeEntry] at hx
    injection hx with hx
    rw [← hx]
    rfl
  | .symbol s, k, p, n, _, hx => by
    simp only [normalizeEntry] at hx
    injection hx with hx
    rw [← hx]
    rfl
theorem normalizeItems_nsp (h : Host) (L : Option Int) :
    ∀ (kvs : List (String × Val)) (k p : String) (r : Option Val),
      noStatefulPatternEntries kvs = true → normalizeItems h L k p kvs = .ok r →
      ∀ v, r = some v → noStatefulPattern v = true
  | [], k, p, r, _, hx => by
    simp only [normalizeItems] at hx
    injection hx with hx
    subst hx
    intro v hv
    cases hv
  | (key, v) :: rest, k, p, r, hs, hx => by
    simp only [noStatefulPatternEntries, Bool.and_eq_true] at hs
    have ihv := normalizeEntry_nsp h L v k (nestedPath k p ".items")
    have ihr := normalizeItems_nsp h L rest k p r hs.2
    unfold normalizeItems at hx
    split at hx
    · cases hv : normalizeEntry h L v k (nestedPath k p ".items") with
      | error e => rw [hv] at hx; cases hx
      | ok n =>
        rw [hv] at hx
        simp only [] at hx
        injection hx with hx
        subst hx
        intro w hw
        injection hw with hw
        subst hw
        exact ihv n hs.1 hv
    · exact ihr hx
theorem normalizeProperties_nsp (h : Host) (L : Option Int) :
    ∀ (kvs : List (String × Val)) (k p : String) (r : Option Val),
      noStatefulPatternEntries kvs = true → normalizeProperties h L k p kvs = .ok r →
      ∀ v, r = some v → noStatefulPattern v = true
  | [], k, p, r, _, hx => by
    simp only [normalizeProperties] at hx
    injection hx with hx
    subst hx
    intro v hv
    cases hv
  | (key, .obj c pkvs) :: rest, k, p, r, hs, hx => by
    simp only [noStatefulPatternEntries, Bool.and_eq_true] at hs
    have ihv := normalizePropsOfEntries_nsp h L pkvs k p
    have ihr := normalizeProperties_nsp h L rest k p r hs.2
    unfold normalizeProperties at hx
    split at hx
    · simp only [truthy, if_true] at hx
      cases hv : normalizePropsOfEntries h L k p pkvs with
      | error e => rw [hv] at hx; cases hx
      | ok ps =>
        rw [hv] at hx
        simp only [] at hx
        injection hx with hx
        subst hx
        intro w hw
        injection hw with hw
        subst hw
        exact nsp_plain _ (ihv ps (nsp_entries_of_obj c pkvs hs.1) hv)
    · exact ihr hx
  | (key, .arr xs) :: rest, k, p, r, hs, hx => by
    simp only [noStatefulPatternEntries, noStatefulPattern, Bool.and_eq_true] at hs
    have ihv := normalizePropsOfArray_nsp h L xs k p
    have ihr := normalizeProperties_nsp h L rest k p r hs.2
    unfold normalizeProperties at hx
    split at hx
    · simp only [truthy, if_true] at hx
      cases hv : normalizePropsOfArray h L k p xs 0 with
      | error e => rw [hv] at hx; cases hx
      | ok ps =>
        rw [hv] at hx
        simp only [] at hx
        injection hx with hx
        subst hx
        intro w hw
        injection hw with hw
        subst hw
        exact nsp_plain _ (ihv 0 ps hs.1 hv)
    · exact ihr hx
  | (key, .undefined) :: rest, k, p, r, hs, hx => by
    simp only [noStatefulPatternEntries, Bool.and_eq_true] at hs
    have ihr := normalizeProperties_nsp h L rest k p r hs.2
    unfold normalizeProperties at hx
    split at hx
    · split at hx
      · simp only [] at hx
        injection hx with hx
        subst hx
        intro w hw
        injection hw with hw
        subst hw
        exact nsp_plain _ (nsp_typeEntries _ hs.1 _)
      · injection hx with hx
        subst hx
        intro w hw
        injection hw with hw
        subst hw
        rfl
    · exact ihr hx
  | (key, .null) :: rest, k, p, r, hs, hx => by
    simp only [noStatefulPatternEntries, Bool.and_eq_true] at hs
    have ihr := normalizeProperties_nsp h L rest k p r hs.2
    unfold normalizeProperties at hx
    split at hx
    · split at hx
      · simp only [] at hx
        injection hx with hx
        subst hx
        intro w hw
        injection hw with hw
        subst hw
        exact nsp_plain _ (nsp_typeEntries _ hs.1 _)
      · injection hx with hx
        subst hx
        intro w hw
        injection hw with hw
        subst hw
        rfl
    · exact ihr hx
  | (key, .bool b) :: rest, k, p, r, hs, hx => by
    simp only [noStatefulPatternEntries, Bool.and_eq_true] at hs
    have ihr := normalizeProperties_nsp h L rest k p r hs.2
    unfold normalizeProperties at hx
    split at hx
    · split at hx
      · simp only [] at hx
        injection hx with hx
        subst hx
        intro w hw
        injection hw with hw
        subst hw
        exact nsp_plain _ (nsp_typeEntries _ hs.1 _)
      · injection hx with hx
        subst hx
        intro w hw
        injection hw with hw
        subst hw
        rfl
    · exact ihr hx
  | (key, .num n) :: rest, k, p, r, hs, hx => by
    simp only [noStatefulPatternEntries, Bool.and_eq_true] at hs
    have ihr := normalizeProperties_nsp h L rest k p r hs.2
    unfold normalizeProperties at hx
    split at hx
    · split at hx
      · simp only [] at hx
        injection hx with hx
        subst hx
        intro w hw
        injection hw with hw
        subst hw
        exact nsp_plain _ (nsp_typeEntries _ hs.1 _)
      · injection hx with hx
        subst hx
        intro w hw
        injection hw with hw
        subst hw
        rfl
    · exact ihr hx
  | (key, .nan) :: rest, k, p, r, hs, hx => by
    simp only [noStatefulPatternEntries, Bool.and_eq_true] at hs
    have ihr := normalizeProperties_nsp h L rest k p r hs.2
    unfold normalizeProperties at hx
    split at hx
    · split at hx
      · simp only [] at hx
        injection hx with hx
        subst hx
        intro w hw
        injection hw with hw
        subst hw
        exact nsp_plain _ (nsp_typeEntries _ hs.1 _)
      · injection hx with hx
        subst hx
        intro w hw
        injection hw with hw
        subst hw
        rfl
    · exact ihr hx
  | (key, .str t) :: rest, k, p, r, hs, hx => by
    simp only [noStatefulPatternEntries, Bool.and_eq_true] at hs
    have ihr := normalizeProperties_nsp h L rest k p r hs.2
    unfold normalizeProperties at hx
    split at hx
    · split at hx
      · simp only [] at hx
        injection hx with hx
        subst hx
        intro w hw
        injection hw with hw
        subst hw
        exact nsp_plain _ (nsp_typeEntries _ hs.1 _)
      · injection hx with hx
        subst hx
        intro w hw
        injection hw with hw
        subst hw
        rfl
    · exact ihr hx
  | (key, .bigint n) :: rest, k, p, r, hs, hx => by
    simp only [noStatefulPatternEntries, Bool.and_eq_true] at hs
    have ihr := normalizeProperties_nsp h L rest k p r hs.2
    unfold normalizeProperties at hx
    split at hx
    · split at hx
      · simp only [] at hx
        injection hx with hx
        subst hx
        intro w hw
        injection hw with hw
        subst hw
        exact nsp_plain _ (nsp_typeEntries _ hs.1 _)
      · injection hx with hx
        subst hx
        intro w hw
        injection hw with hw
        subst hw
        rfl
    · exact ihr hx
  | (key, .symbol t) :: rest, k, p, r, hs, hx => by
    simp only [noStatefulPatternEntries, Bool.and_eq_true] at hs
    have ihr := normalizeProperties_nsp h L rest k p r hs.2
    unfold normalizeProperties at hx
    split at hx
    · split at hx
      · simp only [] at hx
        injection hx with hx
        subst hx
        intro w hw
        injection hw with hw
        subst hw
        exact nsp_plain _ (nsp_typeEntries _ hs.1 _)
      · injection hx with hx
        subst hx
        intro w hw
        injection hw with hw
        subst hw
        rfl
    · exact ihr hx
  | (key, .fn f) :: rest, k, p, r, hs, hx => by
    simp only [noStatefulPatternEntries, Bool.and_eq_true] at hs
    have ihr := normalizeProperties_nsp h L rest k p r hs.2
    unfold normalizeProperties at hx
    split at hx
    · split at hx
      · simp only [] at hx
        injection hx with hx
        subst hx
        intro w hw
        injection hw with hw
        subst hw
        exact nsp_plain _ (nsp_typeEntries _ hs.1 _)
      · injection hx with hx
        subst hx
        intro w hw
        injection hw with hw
        subst hw
        rfl
    · exact ihr hx
theorem normalizePropsOfEntries_nsp (h : Host) (L : Option Int) :
    ∀ (kvs : List (String × Val)) (k p : String) (ps : List (String × Val)),
      noStatefulPatternEntries kvs = true → normalizePropsOfEntries h L k p kvs = .ok ps →
      noStatefulPatternEntries ps = true
  | [], k, p, ps, _, hx => by
    simp only [normalizePropsOfEntries] at hx
    injection hx with hx
    subst hx
    rfl
  | (pk, v) :: rest, k, p, ps, hs, hx => by
    simp only [noStatefulPatternEntries, Bool.and_eq_true] at hs
    have ihv := normalizeEntry_nsp h L v pk (nestedPath k p (".properties." ++ pk))
    have ihr := normalizePropsOfEntries_nsp h L rest k p
    unfold normalizePropsOfEntries at hx
    cases hv : normalizeEntry h L v pk (nestedPath k p (".properties." ++ pk)) with
    | error e => rw [hv] at hx; cases hx
    | ok n =>
      rw [hv] at hx
      simp only [] at hx
      cases hr : normalizePropsOfEntries h L k p rest with
      | error e => rw [hr] at hx; cases hx
      | ok ns =>
        rw [hr] at hx
        simp only [] at hx
        injection hx with hx
        subst hx
        simp only [noStatefulPatternEntries, Bool.and_eq_true]
        exact ⟨ihv n hs.1 hv, ihr ns hs.2 hr⟩
theorem normalizePropsOfArray_nsp (h : Host) (L : Option Int) :
    ∀ (xs : List Val) (k p : String) (i : Nat) (ps : List (String × Val)),
      noStatefulPatternList xs = true → normalizePropsOfArray h L k p xs i = .ok ps →
      noStatefulPatternEntries ps = true
  | [], k, p, i, ps, _, hx => by
    simp only [normalizePropsOfArray] at hx
    injection hx with hx
    subst hx
    rfl
  | v :: rest, k, p, i, ps, hs, hx => by
    simp only [noStatefulPatternList, Bool.and_eq_true] at hs
    have ihv := normalizeEntry_nsp h L v (toString i)
      (nestedPath k p (".properties." ++ toString i))
    have ihr := normalizePropsOfArray_nsp h L rest k p (i + 1)
    unfold normalizePropsOfArray at hx
    cases hv : normalizeEntry h L v (toString i)
        (nestedPath k p (".properties." ++ toString i)) with
    | error e => rw [hv] at hx; cases hx
    | ok n =>
      rw [hv] at hx
      simp only [] at hx
      cases hr : normalizePropsOfArray h L k p rest (i + 1) with
      | error e => rw [hr] at hx; cases hx
      | ok ns =>
        rw [hr] at hx
        simp only [] at hx
        injection hx with hx
        subst hx
        simp only [noStatefulPatternEntries, Bool.and_eq_true]
        exact ⟨ihv n hs.1 hv, ihr ns hs.2 hr⟩
end

theorem nsp_orEmpty (v : Val) (hv : noStatefulPattern v = true) :
    noStatefulPattern (orEmpty v) = true := by
  unfold orEmpty
  split
  · exact hv
  · rfl

theorem nsp_mergeWithin :
    ∀ (n : Nat) (b f : Val), noStatefulPattern b = true → noStatefulPattern f = true →
      noStatefulPattern (mergeWithin n b f) = true := by
  intro n
  induction n with
  | zero => intro b f _ hf; exact hf
  | succ n ih =>
    intro b f hb hf
    unfold mergeWithin
    split
    · exact hf
    · split
      · exact hb
      · apply nsp_plain
        have h0 : noStatefulPatternEntries (objectAssign (objectAssign [] b) f) = true :=
          nsp_objectAssign _ _ (nsp_objectAssign [] b rfl hb) hf
        have h1 : noStatefulPatternEntries
            (if truthy (getProp b "items") = true ∨ truthy (getProp f "items") = true then
              setKey "items"
                (mergeWithin n (orEmpty (getProp b "items")) (orEmpty (getProp f "items")))
                (objectAssign (objectAssign [] b) f)
            else objectAssign (objectAssign [] b) f) = true := by
          split
          · exact nsp_setKey _ _ _
              (ih _ _ (nsp_orEmpty _ (nsp_getProp b "items" hb))
                (nsp_orEmpty _ (nsp_getProp f "items" hf))) h0
          · exact h0
        have hbp := nsp_orEmpty _ (nsp_getProp b "properties" hb)
        have hfp := nsp_orEmpty _ (nsp_getProp f "properties" hf)
        have hfold : ∀ (ks : List String) (acc : List (String × Val)),
            noStatefulPatternEntries acc = true →
            noStatefulPatternEntries (ks.foldl
              (fun acc k => setKey k
                (mergeWithin n (getProp (orEmpty (getProp b "properties")) k)
                  (getProp (orEmpty (getProp f "properties")) k)) acc) acc) = true := by
          intro ks
          induction ks with
          | nil => intro acc ha; exact ha
          | cons k rest ihk =>
            intro acc ha
            simp only [List.foldl_cons]
            exact ihk _ (nsp_setKey _ _ _
              (ih _ _ (nsp_getProp _ k hbp) (nsp_getProp _ k hfp)) ha)
        simp only []
        split
        · exact nsp_setKey _ _ _
            (nsp_plain _ (hfold _ _ (nsp_objectAssign [] _ rfl hbp))) h1
        · exact h1

theorem nsp_mergeNormalizedEntry (b f : Val) (hb : noStatefulPattern b = true)
    (hf : noStatefulPattern f = true) :
    noStatefulPattern (mergeNormalizedEntry b f) = true :=
  nsp_mergeWithin _ b f hb hf

theorem nsp_descend (ps : List String) :
    ∀ (v : Val), noStatefulPattern v = true → noStatefulPattern (descend v ps) = true := by
  induction ps with
  | nil => intro v hv; exact hv
  | cons p rest ih =>
    intro v hv
    unfold descend
    split
    · rfl
    · exact ih _ (nsp_getProp v p hv)

theorem nsp_getByPath (h : Host) (obj path : Val) (ho : noStatefulPattern obj = true) :
    noStatefulPattern (_getByPath h obj path) = true := by
  unfold _getByPath
  split
  · exact ho
  · exact nsp_descend _ obj ho

theorem nsp_evaluateLoop (h : Host) (obj : Val) (rules : List Conditional) :
    ∀ (ov : List (String × Val)),
      (∀ rule ∈ rules, noStatefulPatternEntries rule.fragment = true) →
      noStatefulPatternEntries ov = true →
      noStatefulPatternEntries (evaluateLoop h obj rules ov) = true := by
  induction rules with
  | nil => intro ov _ ho; exact ho
  | cons rule rest ih =>
    intro ov hr ho
    unfold evaluateLoop
    split
    · exact ih _ (fun q hq => hr q (List.mem_cons_of_mem _ hq))
        (nsp_foldl_setKey _ _ (hr rule (List.mem_cons_self _ _)) ho)
    · exact ih _ (fun q hq => hr q (List.mem_cons_of_mem _ hq)) ho

theorem refCheckerOfS_eq (h : Host) (eng : Engine) (s : Schema) (refName : Val) (kind : String)
    (raw : Val) (hr : noStatefulPattern raw = true) :
    refCheckerOfS h eng s refName kind raw = withStore (refCheckerOf h s refName kind raw) := by
  unfold refCheckerOfS refCheckerOf
  cases hn : normalizeEntry h s.options.maxRegexLength raw (toStringJS h refName)
      (toStringJS h refName) with
  | error e => rfl
  | ok normalized =>
    simp only []
    rw [makeCheckerS_eq h eng normalized (normalizeEntry_nsp h _ raw _ _ normalized hr hn)]
    cases makeChecker h normalized with
    | error e => rfl
    | ok c => rfl

theorem resolveRefCheckerS_eq (h : Host) (eng : Engine) (s : Schema) (hs : StatelessPatterns s)
    (refName : Val) :
    _resolveRefCheckerS h eng s refName = withStore (_resolveRefChecker h s refName) := by
  obtain ⟨_, he, hl, hraw, _⟩ := hs
  unfold _resolveRefCheckerS _resolveRefChecker
  split
  · exact refCheckerOfS_eq h eng s refName _ _ (nsp_lookupKey _ _ he)
  · split
    · exact refCheckerOfS_eq h eng s refName _ _ (nsp_lookupKey _ _ hl)
    · split
      · exact refCheckerOfS_eq h eng s refName _ _ (nsp_getByPath h _ _ hraw)
      · rfl

theorem nsp_normalizedSchema (s : Schema)
    (hf : ∀ f ∈ s.fields, noStatefulPattern f.entry = true) :
    noStatefulPatternEntries s.normalizedSchema = true := by
  unfold Schema.normalizedSchema
  generalize s.fields = fs at hf
  induction fs with
  | nil => rfl
  | cons f rest ih =>
    simp only [List.map_cons, noStatefulPatternEntries, Bool.and_eq_true]
    exact ⟨hf f (List.mem_cons_self _ _), ih (fun g hg => hf g (List.mem_cons_of_mem _ hg))⟩

theorem selectCheckerS_eq (h : Host) (eng : Engine) (s : Schema) (hs : StatelessPatterns s)
    (hc : CompiledFromEntries h s) (ov : List (String × Val))
    (hov : noStatefulPatternEntries ov = true) (f : Field) (hf : f ∈ s.fields) :
    selectCheckerS h eng s ov f = (selectChecker h s ov f).map withStore := by
  unfold selectCheckerS selectChecker
  split
  · unfold _getOverrideCheckerForS _getOverrideCheckerFor
    exact makeCheckerS_eq h eng _ (nsp_mergeNormalizedEntry _ _
      (nsp_orEmpty _ (nsp_lookupKey _ _ (nsp_normalizedSchema s hs.1)))
      (nsp_lookupKey _ _ hov))
  · cases hck : f.checker with
    | compiled c =>
      simp only []
      rw [makeCheckerS_eq h eng f.entry (hs.1 f hf), hc f hf c hck]
    | lazyRef name =>
      simp only []
      rw [resolveRefCheckerS_eq h eng s hs name]
      rfl

theorem runFieldS_eq (h : Host) (eng : Engine) (s : Schema) (hs : StatelessPatterns s)
    (hc : CompiledFromEntries h s) (obj : List (String × Val)) (opts : Options)
    (ov : List (String × Val)) (hov : noStatefulPatternEntries ov = true) (f : Field)
    (hf : f ∈ s.fields) (st : Store) :
    runFieldS h eng s obj opts ov f st = (runField h s obj opts ov f, st) := by
  unfold runFieldS runField
  rw [selectCheckerS_eq h eng s hs hc ov hov f hf]
  cases selectChecker h s ov f with
  | error e => rfl
  | ok c => rfl

theorem fieldLoopS_eq (h : Host) (eng : Engine) (s : Schema) (hs : StatelessPatterns s)
    (hc : CompiledFromEntries h s) (obj : List (String × Val)) (opts : Options)
    (ov : List (String × Val)) (hov : noStatefulPatternEntries ov = true) :
    ∀ (fs : List Field), (∀ f ∈ fs, f ∈ s.fields) →
      ∀ (E : List Err) (R : List (String × Val)) (st : Store),
        fieldLoopS h eng s obj opts ov fs E R st = (fieldLoop h s obj opts ov fs E R, st) := by
  intro fs
  induction fs with
  | nil => intro _ E R st; rfl
  | cons f rest ih =>
    intro hfs E R st
    rw [fieldLoopS, fieldLoop,
      runFieldS_eq h eng s hs hc obj opts ov hov f (hfs f (List.mem_cons_self _ _)) st]
    cases runField h s obj opts ov f with
    | error e => rfl
    | ok q =>
      obtain ⟨es, cv⟩ := q
      simp only []
      split
      · rfl
      · exact ih (fun g hg => hfs g (List.mem_cons_of_mem _ hg)) _ _ _

/-- On an instance without stateful patterns a `validate` call returns what the
checkers without the store return, and leaves the store as it is. -/
theorem validateS_eq (h : Host) (eng : Engine) (s : Schema) (hs : StatelessPatterns s)
    (hc : CompiledFromEntries h s) (obj : List (String × Val)) (callOptions : OptionsPatch)
    (st : Store) :
    validateS h eng s obj callOptions st = (validate h s obj callOptions, st) := by
  unfold validateS validate
  have hov : noStatefulPatternEntries (_evaluateConditionals h s (.obj .plain obj)) = true :=
    nsp_evaluateLoop h _ s.conditionals [] hs.2.2.2.2 rfl
  rw [fieldLoopS_eq h eng s hs hc obj _ _ hov s.fields (fun f hf => hf)]
  cases fieldLoop h s obj (assignOptions s.options callOptions)
      (_evaluateConditionals h s (.obj .plain obj)) s.fields [] [] with
  | stop r => rfl
  | go E R =>
    simp only []
    cases unknownKeys s (assignOptions s.options callOptions) obj E R with
    | stop r => rfl
    | go E2 R2 => rfl

/-- Every instance the constructor builds stores, for a field that is not a
reference, the checker compiled from the field's stored descriptor. -/
theorem create_compiledFromEntries (h : Host) (schemaDef : List (String × Val))
    (options : OptionsPatch) (s : Schema) (hc : Schema.create h schemaDef options = .ok s) :
    CompiledFromEntries h s := by
  intro f hf c hcc
  rcases create_fields_compiled h schemaDef options s hc f hf with ⟨c2, h1, h2⟩ | ⟨name, h1, _⟩
  · rw [h1] at hcc
    injection hcc with hcc
    rw [← hcc]
    exact h2
  · rw [h1] at hcc
    cases hcc

theorem normalizeSchemaLoop_keys (h : Host) (m : Option Int) :
    ∀ (schemaDef ns : List (String × Val)), normalizeSchemaLoop h m schemaDef = .ok ns →
      List.Sublist (ns.map (fun kv => kv.1)) (schemaDef.map (fun kv => kv.1))
  | [], ns, hx => by
    simp only [normalizeSchemaLoop] at hx
    injection hx with hx
    rw [← hx]
  | (k, raw) :: rest, ns, hx => by
    unfold normalizeSchemaLoop at hx
    by_cases hk : k = "$defs"
    · rw [if_pos hk] at hx
      exact List.Sublist.cons _ (normalizeSchemaLoop_keys h m rest ns hx)
    · rw [if_neg hk] at hx
      cases hn : normalizeTopEntry h m raw k with
      | error e =>
        rw [hn] at hx
        cases hx
      | ok n =>
        rw [hn] at hx
        simp only [] at hx
        cases hr : normalizeSchemaLoop h m rest with
        | error e =>
          rw [hr] at hx
          cases hx
        | ok ns2 =>
          rw [hr] at hx
          simp only [] at hx
          injection hx with hx
          rw [← hx]
          exact List.Sublist.cons₂ _ (normalizeSchemaLoop_keys h m rest ns2 hr)

theorem buildFields_keys (h : Host) :
    ∀ (normalized : List (String × Val)) (fs : List Field), buildFields h normalized = .ok fs →
      fs.map (fun f => f.key) = normalized.map (fun kv => kv.1)
  | [], fs, hx => by
    simp only [buildFields] at hx
    injection hx with hx
    rw [← hx]
    rfl
  | (k, ent) :: rest, fs, hx => by
    unfold buildFields at hx
    split at hx
    · cases hr : buildFields h rest with
      | error e =>
        rw [hr] at hx
        cases hx
      | ok fs2 =>
        rw [hr] at hx
        simp only [] at hx
        injection hx with hx
        rw [← hx]
        simp [buildFields_keys h rest fs2 hr]
    · cases hm : makeChecker h ent with
      | error e =>
        rw [hm] at hx
        cases hx
      | ok c =>
        rw [hm] at hx
        simp only [] at hx
        cases hr : buildFields h rest with
        | error e =>
          rw [hr] at hx
          cases hx
        | ok fs2 =>
          rw [hr] at hx
          simp only [] at hx
          injection hx with hx
          rw [← hx]
          simp [buildFields_keys h rest fs2 hr]

/-- The field keys of an instance the constructor builds are distinct when the
keys of the definition are (as the keys of every object are). -/
theorem create_field_keys_nodup (h : Host) (schemaDef : List (String × Val))
    (options : OptionsPatch) (s : Schema) (hc : Schema.create h schemaDef options = .ok s)
    (hnd : (schemaDef.map (fun kv => kv.1)).Nodup) :
    (s.fields.map (fun f => f.key)).Nodup := by
  unfold Schema.create at hc
  simp only [] at hc
  split at hc
  · cases hc
  · split at hc
    · cases hc
    · rename_i normalized hn
      split at hc
      · cases hc
      · rename_i fields hb
        split at hc
        · cases hc
        · injection hc with hc
          rw [← hc]
          simp only []
          rw [buildFields_keys h normalized fields hb]
          exact List.Nodup.sublist (normalizeSchemaLoop_keys h _ schemaDef normalized hn) hnd

end GentleSchema

namespace GentleSchema

/-! ## C31: a validation call leaves later results unchanged -/

set_option maxHeartbeats 4000000 in
/-- Counterexample for C31: with the deterministic example host (no validator,
no default producer) the schema `{ a: { type: 'string', regex: /a/g } }` on the
input `{ a: 'a' }` is valid at the first `validate` call and has `ERR_REGEX` at
the second call on the same instance: the first `test` left the `lastIndex` of
the stored pattern at `1`. -/
theorem repeated_validate_differs_counterexample :
    validateTwice globalHost exampleEngine globalPatternSchema {} [("a", .str "a")]
      = .ok (.ok (.result true [] (.obj .plain [("a", .str "a")])),
          .ok (.result false
            [{ path := "a"
               message := "Invalid a field. String should follow regex pattern /a/g"
               code := "ERR_REGEX", rawError := .null }]
            (.obj .plain [("a", .str "a")]))) := by
  decide

/-- C31 (amended): repeated calls agree when no stored pattern has the global or
sticky flag.  Let no `RegExp` held by the instance (in the descriptors of its
fields, its reference definitions, its raw schema and the fragments of its
rules) have the global or sticky flag, and let the compiled checkers of its
fields be those of their descriptors, as the constructor builds them.  Then
for every input, every call options and every state of the patterns, a
`validate` call writes to no pattern and returns what the state-free
`validate` returns; so a second call with the same input and options returns
the same `valid`, `errors` and `value` (or raises the same error), and any
later call with any input and options returns what it would have returned
before the call.  The same holds with the memo tables: for every instance over
this schema, whatever its tables hold, the instance after a call has the same
schema and serves the same checkers, a second call returns the same result,
and so does any later call; when the tables are coherent (they hold what a
miss would compile, as after the constructor and every sequence of calls) and
the reference names are strings, the call with the tables returns the result
of the call with the pattern state.  Determinism is that of the host: validators,
default producers, predicates and constructors are functions of their
arguments.  The input is a value that no call can write to. -/
theorem stateless_validate_repeats (h : Host) (eng : Engine) (s : Schema)
    (hs : StatelessPatterns s) (hc : CompiledFromEntries h s)
    (obj : List (String × Val)) (callOptions : OptionsPatch) (st : Store) :
    validateS h eng s obj callOptions st = (validate h s obj callOptions, st)
      ∧ (validateS h eng s obj callOptions (validateS h eng s obj callOptions st).2).1
          = (validateS h eng s obj callOptions st).1
      ∧ (∀ (obj2 : List (String × Val)) (callOptions2 : OptionsPatch),
          validateS h eng s obj2 callOptions2 (validateS h eng s obj callOptions st).2
            = validateS h eng s obj2 callOptions2 st)
      ∧ ∀ (inst : Instance), inst.schema = s →
          ((inst.validate h obj callOptions).2.validate h obj callOptions).1
              = (inst.validate h obj callOptions).1
            ∧ (∀ (obj2 : List (String × Val)) (callOptions2 : OptionsPatch),
                ((inst.validate h obj callOptions).2.validate h obj2 callOptions2).1
                  = (inst.validate h obj2 callOptions2).1)
            ∧ SameView h inst (inst.validate h obj callOptions).2
            ∧ (inst.validate h obj callOptions).2.schema = inst.schema
            ∧ (Coherent h inst →
                (∀ f ∈ s.fields, ∀ n, f.checker = .lazyRef n → ∃ t, n = .str t) →
                validateS h eng s obj callOptions st
                  = ((inst.validate h obj callOptions).1, st)) := by
  have h1 := validateS_eq h eng s hs hc obj callOptions st
  refine ⟨h1, ?_, ?_, ?_⟩
  · rw [h1]
    exact congrArg Prod.fst (validateS_eq h eng s hs hc obj callOptions st)
  · intro obj2 callOptions2
    rw [h1]
  · intro inst hi
    have hv := validate_view h inst obj callOptions
    refine ⟨?_, fun obj2 callOptions2 => ?_, hv, hv.1.symm, fun hcoh hnames => ?_⟩
    · exact (validate_sameView h _ _ hv obj callOptions).symm
    · exact (validate_sameView h _ _ hv obj2 callOptions2).symm
    · subst hi
      rw [h1, validate_pure h inst hcoh hnames obj callOptions]

/-- The constructor builds the instance `flaglessPatternSchema` used in the witness
of C31. -/
theorem create_flagless_pattern_schema :
    Schema.create exampleHost
        [("a", .obj .plain [("type", .str "string"), ("regex", .obj (.regexp "a") [])])] {}
      = .ok flaglessPatternSchema := rfl

/-- Witness for C31: the instance of `{ a: { type: 'string', regex: /a/ } }`, whose
pattern has no flag, on the input `{ a: 'a' }` with the pattern state in which
`/a/g` was left at index `1`: the call leaves the state as it is. -/
theorem stateless_validate_repeats_witness :
    StatelessPatterns flaglessPatternSchema
      ∧ CompiledFromEntries exampleHost flaglessPatternSchema
      ∧ validateS exampleHost exampleEngine flaglessPatternSchema [("a", .str "a")] {}
          [(globalPattern, 1)]
        = (validate exampleHost flaglessPatternSchema [("a", .str "a")] {}, [(globalPattern, 1)]) := by
  have hs : StatelessPatterns flaglessPatternSchema := by
    refine ⟨?_, rfl, rfl, by decide, ?_⟩
    · intro f hf
      simp only [flaglessPatternSchema, plainSchema, List.mem_singleton] at hf
      subst hf
      decide
    · intro rule hr
      cases hr
  have hc : CompiledFromEntries exampleHost flaglessPatternSchema :=
    create_compiledFromEntries exampleHost _ {} flaglessPatternSchema
      create_flagless_pattern_schema
  exact ⟨hs, hc,
    (stateless_validate_repeats exampleHost exampleEngine flaglessPatternSchema hs hc
      [("a", .str "a")] {} [(globalPattern, 1)]).1⟩

end GentleSchema

namespace GentleSchema

/-! ## C32: validating a normalised value again -/

/-! ## C32: validating a normalised value again -/

theorem coerceVia_coerced (val : Val) (res : Except Val Val) (c : Coerced)
    (hw : coerceVia val res = c) (hc : c.coerced = true) : res = .ok c.coercedValue := by
  unfold coerceVia at hw
  cases res with
  | error e => simp only [] at hw; subst hw; cases hc
  | ok v => simp only [] at hw; subst hw; rfl

theorem coerceFail_not (val : Val) (msg : String) (c : Coerced)
    (hw : coerceFail val msg = c) (hc : c.coerced = true) : False := by
  unfold coerceFail at hw
  subst hw
  cases hc

theorem instanceOf_date_ne_null (h : Host) (w : Val) (hi : instanceOf h w .jsDate = true) :
    w ≠ .null := by
  intro e; subst e; simp [instanceOf] at hi

theorem coerceCtor_idem (h : Host) (x : Val) (f : FnRef) (c : Coerced)
    (hw : coerceCtor h x f = c) (hc : c.coerced = true)
    (hg : _matchesType h (.fn f) c.coercedValue = true) (hx : x ≠ .null) :
    coerceCtor h c.coercedValue f = { coercedValue := c.coercedValue, coerced := true }
      ∧ c.coercedValue ≠ .null ∧ (x ≠ .undefined → c.coercedValue ≠ .undefined) := by
  have hnull : ∀ g : FnRef, (∀ i n, g ≠ .user i n) → instanceOf h .null g = false := by
    intro g hg2
    cases g <;> first | rfl | exact absurd rfl (hg2 _ _)
  unfold coerceCtor at hw ⊢
  unfold _matchesType at hg
  simp only [] at hg
  by_cases h1 : f = .jsDate
  · subst h1
    simp only [if_true] at hw hg ⊢
    rw [hg]
    refine ⟨rfl, fun e => ?_, fun _ e => ?_⟩
    · rw [e] at hg
      cases hg
    · rw [e] at hg
      cases hg
  · simp only [h1, if_false] at hw hg ⊢
    by_cases h2 : f = .jsRegExp
    · subst h2
      simp only [if_true] at hw hg ⊢
      rw [hg]
      refine ⟨rfl, fun e => ?_, fun _ e => ?_⟩
      · rw [e] at hg
        cases hg
      · rw [e] at hg
        cases hg
    · simp only [h2, if_false] at hw hg ⊢
      by_cases h3 : f = .jsMap
      · subst h3
        simp only [if_true] at hw hg ⊢
        rw [hg]
        refine ⟨rfl, fun e => ?_, fun _ e => ?_⟩
        · rw [e] at hg
          cases hg
        · rw [e] at hg
          cases hg
      · simp only [h3, if_false] at hw hg ⊢
        by_cases h4 : f = .jsSet
        · subst h4
          simp only [if_true] at hw hg ⊢
          rw [hg]
          refine ⟨rfl, fun e => ?_, fun _ e => ?_⟩
          · rw [e] at hg
            cases hg
          · rw [e] at hg
            cases hg
        · simp only [h4, if_false] at hw hg ⊢
          by_cases h5 : h.hasURL = true ∧ f = .jsURL
          · obtain ⟨h5a, h5b⟩ := h5
            subst h5b
            simp only [h5a, and_self, if_true] at hw hg ⊢
            rw [hg]
            refine ⟨rfl, fun e => ?_, fun _ e => ?_⟩
            · rw [e] at hg
              cases hg
            · rw [e] at hg
              cases hg
          · simp only [h5, if_false] at hw hg ⊢
            by_cases h6 : f = .jsBigInt
            · subst h6
              simp only [if_true] at hw hg ⊢
              have hg2 : typeOf c.coercedValue = "bigint" := by simpa using hg
              refine ⟨by simp [hg2], fun e => ?_, fun _ e => ?_⟩
              · rw [e] at hg2
                simp [typeOf] at hg2
              · rw [e] at hg2
                simp [typeOf] at hg2
            · simp only [h6, if_false] at hw hg ⊢
              by_cases h7 : h.hasBuffer = true ∧ f = .jsBuffer
              · obtain ⟨h7a, h7b⟩ := h7
                subst h7b
                simp only [h7a, and_self, if_true] at hw hg ⊢
                rw [hg]
                refine ⟨rfl, fun e => ?_, fun _ e => ?_⟩
                · rw [e] at hg
                  cases hg
                · rw [e] at hg
                  cases hg
              · simp only [h7, if_false] at hw hg ⊢
                rw [hg]
                split at hw
                · subst hw
                  exact ⟨rfl, hx, fun hu => hu⟩
                · exact (coerceFail_not _ _ _ hw hc).elim

theorem coerce_idem (h : Host) (x type : Val) (c : Coerced)
    (hw : _coerceToType h x type = c) (hc : c.coerced = true)
    (hg : _matchesType h type c.coercedValue = true) (hx : x ≠ .null) :
    _coerceToType h c.coercedValue type = { coercedValue := c.coercedValue, coerced := true }
      ∧ c.coercedValue ≠ .null ∧ (x ≠ .undefined → c.coercedValue ≠ .undefined) := by
  unfold _coerceToType at hw ⊢
  simp only [] at hw ⊢
  by_cases h1 : typeName type = "number" ∨ strictEq type (.fn .jsNumber) = true
  · simp only [h1, if_true] at hw ⊢
    by_cases h2 : typeOf x = "number"
    · simp only [h2, if_true] at hw
      subst hw
      exact ⟨by simp [h2], hx, fun hu => hu⟩
    · simp only [h2, if_false, Bool.false_eq_true] at hw
      split at hw
      · exact (coerceFail_not _ _ _ hw hc).elim
      · split at hw
        · subst hw; cases hc
        · subst hw
          simp [typeOf]
        · exact (coerceFail_not _ _ _ hw hc).elim
  · simp only [h1, if_false] at hw ⊢
    by_cases h3 : typeName type = "string" ∨ strictEq type (.fn .jsString) = true
    · simp only [h3, if_true] at hw ⊢
      by_cases h2 : typeOf x = "string"
      · simp only [h2, if_true] at hw
        subst hw
        exact ⟨by simp [h2], hx, fun hu => hu⟩
      · simp only [h2, if_false, Bool.false_eq_true] at hw
        subst hw
        simp [typeOf]
    · simp only [h3, if_false] at hw ⊢
      by_cases h4 : typeName type = "boolean" ∨ strictEq type (.fn .jsBoolean) = true
      · simp only [h4, if_true] at hw ⊢
        by_cases h2 : typeOf x = "boolean"
        · simp only [h2, if_true] at hw
          subst hw
          exact ⟨by simp [h2], hx, fun hu => hu⟩
        · simp only [h2, if_false, Bool.false_eq_true] at hw
          split at hw
          · subst hw
            simp [typeOf]
          · split at hw
            · subst hw
              simp [typeOf]
            · exact (coerceFail_not _ _ _ hw hc).elim
      · simp only [h4, if_false] at hw ⊢
        by_cases h5 : typeName type = "array" ∨ strictEq type (.fn .jsArray) = true
        · simp only [h5, if_true] at hw ⊢
          by_cases h2 : isArray x = true
          · simp only [h2, if_true] at hw
            subst hw
            exact ⟨by simp [h2], hx, fun hu => hu⟩
          · simp only [h2, if_false, Bool.false_eq_true] at hw
            split at hw
            · split at hw
              · split at hw
                · rename_i p _ hp
                  subst hw
                  simp only [hp, if_true]
                  refine ⟨trivial, fun e => ?_, fun _ e => ?_⟩
                  · simp only [] at e
                    rw [e] at hp
                    cases hp
                  · simp only [] at e
                    rw [e] at hp
                    cases hp
                · exact (coerceFail_not _ _ _ hw hc).elim
              · subst hw; cases hc
            · exact (coerceFail_not _ _ _ hw hc).elim
        · simp only [h5, if_false] at hw ⊢
          by_cases h6 : typeName type = "object" ∨ strictEq type (.fn .jsObject) = true
          · simp only [h6, if_true] at hw ⊢
            by_cases h2 : _isPlainObject x = true
            · simp only [h2, if_true] at hw
              subst hw
              exact ⟨by simp [h2], hx, fun hu => hu⟩
            · simp only [h2, if_false, Bool.false_eq_true] at hw
              split at hw
              · split at hw
                · split at hw
                  · rename_i p _ hp
                    subst hw
                    simp only [hp, if_true]
                    refine ⟨trivial, fun e => ?_, fun _ e => ?_⟩
                    · simp only [] at e
                      rw [e] at hp
                      cases hp
                    · simp only [] at e
                      rw [e] at hp
                      cases hp
                  · exact (coerceFail_not _ _ _ hw hc).elim
                · subst hw; cases hc
              · exact (coerceFail_not _ _ _ hw hc).elim
          · simp only [h6, if_false] at hw ⊢
            cases type with
            | fn f =>
              simp only [] at hw ⊢
              exact coerceCtor_idem h x f c hw hc hg hx
            | _ => exact (coerceFail_not _ _ _ hw hc).elim

theorem emit_not_clean (r : Rules) (errs : List Err) (e : Err) (pv out y : Val) :
    emit r errs e pv out ≠ .ok ([], y) := by
  unfold emit
  split
  · intro hx; cases hx
  · intro hx
    injection hx with hx
    injection hx with h1 _
    simp at h1

theorem fromValidator_value (h : Host) (r : Rules) (out : Val) (ctx : Ctx) (es : List Err)
    (y : Val) (hx : fromValidator h r [] out ctx = .ok (es, y)) : y = out := by
  unfold fromValidator at hx
  split at hx
  · rename_i f _
    rcases runValidator_value h r f [] out ctx.path with ⟨es2, h2⟩ | ⟨es2, h2⟩
    · rw [h2] at hx
      injection hx with hx
      injection hx with _ h3
      exact h3.symm
    · rw [h2] at hx
      cases hx
  · injection hx with hx
    injection hx with _ h3
    exact h3.symm

theorem fromItems_leaf_value (h : Host) (r : Rules) (out : Val) (ctx : Ctx) (es : List Err)
    (y : Val) (hx : fromItems h r none none out ctx = .ok (es, y)) : y = out := by
  have he : fromItems h r none none out ctx = fromValidator h r [] out ctx := by
    simp [fromItems, fromProps]
  rw [he] at hx
  exact fromValidator_value h r out ctx es y hx

theorem fromBounds_leaf_value (h : Host) (r : Rules) (out : Val) (ctx : Ctx) (y : Val)
    (hx : fromBounds h r none none out ctx = .ok ([], y)) : y = out := by
  unfold fromBounds at hx
  split at hx
  · split at hx
    · exact absurd hx (emit_not_clean _ _ _ _ _ _)
    · split at hx
      · exact absurd hx (emit_not_clean _ _ _ _ _ _)
      · exact fromItems_leaf_value h r out ctx _ y hx
  · split at hx
    · split at hx
      · exact absurd hx (emit_not_clean _ _ _ _ _ _)
      · split at hx
        · exact absurd hx (emit_not_clean _ _ _ _ _ _)
        · exact fromItems_leaf_value h r out ctx _ y hx
    · exact fromItems_leaf_value h r out ctx _ y hx

theorem fromRegex_leaf_value (h : Host) (r : Rules) (out : Val) (ctx : Ctx) (y : Val)
    (hx : fromRegex h r none none out ctx = .ok ([], y)) : y = out := by
  unfold fromRegex at hx
  split at hx
  · split at hx
    · split at hx
      · split at hx
        · exact fromBounds_leaf_value h r _ ctx y hx
        · exact absurd hx (emit_not_clean _ _ _ _ _ _)
      · exact absurd hx (emit_not_clean _ _ _ _ _ _)
    · exact absurd hx (emit_not_clean _ _ _ _ _ _)
  · exact fromBounds_leaf_value h r out ctx y hx

theorem fromEnum_leaf_value (h : Host) (r : Rules) (out : Val) (ctx : Ctx) (y : Val)
    (hx : fromEnum h r none none out ctx = .ok ([], y)) : y = out := by
  unfold fromEnum at hx
  split at hx
  · split at hx
    · exact absurd hx (emit_not_clean _ _ _ _ _ _)
    · exact fromRegex_leaf_value h r out ctx y hx
  · exact fromRegex_leaf_value h r out ctx y hx

/-- A clean run of the type step of a leaf checker returns its input, and the
input passed the type check. -/
theorem fromType_leaf_clean (h : Host) (r : Rules) (w : Val) (ctx : Ctx) (y : Val)
    (hx : fromType h r none none w ctx = .ok ([], y)) :
    y = w ∧ (typeOf r.type ≠ "undefined" →
      strictEq r.type (.str "any") = true ∨ _matchesType h r.type w = true) := by
  unfold fromType at hx
  split at hx
  · simp only [] at hx
    split at hx <;> exact absurd hx (emit_not_clean _ _ _ _ _ _)
  · rename_i hgate
    refine ⟨fromEnum_leaf_value h r w ctx y hx, fun hty => ?_⟩
    by_cases ha : strictEq r.type (.str "any") = true
    · exact Or.inl ha
    · by_cases hm : _matchesType h r.type w = true
      · exact Or.inr hm
      · exact absurd ⟨hty, ha, hm⟩ hgate

theorem settled_idempotent (c : Checker) (hc : Settled c) : Idempotent c :=
  fun v ctx y hx _ => (hc v ctx y hx).1

theorem itemsLoop_rerun (r : Rules) (c : Checker) (hc : Settled c) (path : String)
    (opts : Options) (out : Val) :
    ∀ (xs : List Val) (i : Nat) (newArr : List Val) (hadErr : Bool) (A : List Val) (b : Bool),
      itemsLoop r c path opts out xs i [] newArr hadErr = .finished [] (A, b) →
      ∃ T, A = newArr ++ T ∧ b = hadErr ∧ T.length = xs.length
        ∧ ∀ (out2 : Val) (newArr2 : List Val),
            itemsLoop r c path opts out2 T i [] newArr2 hadErr
              = .finished [] (newArr2 ++ T, hadErr) := by
  intro xs
  induction xs with
  | nil =>
    intro i newArr hadErr A b hx
    simp only [itemsLoop] at hx
    injection hx with _ h2
    injection h2 with h3 h4
    exact ⟨[], by simp [h3], h4.symm, rfl, fun out2 newArr2 => by simp [itemsLoop]⟩
  | cons x rest ih =>
    intro i newArr hadErr A b hx
    rw [itemsLoop] at hx
    cases hres : c x { path := _arrayPath path i, options := opts } with
    | error ex =>
      rw [hres] at hx
      cases hx
    | ok q =>
      obtain ⟨ce, cv⟩ := q
      rw [hres] at hx
      simp only [] at hx
      by_cases hne : ce.length ≠ 0
      · exfalso
        rw [if_pos hne] at hx
        split at hx
        · split at hx <;> cases hx
        · have hd := itemsLoop_dirty r c path opts out rest (i + 1) ([] ++ ce) newArr true
            (by
              intro e
              rw [List.nil_append] at e
              rw [e] at hne
              exact hne rfl)
          rw [hx] at hd
          exact hd rfl
      · rw [if_neg hne] at hx
        have hce : ce = [] := List.length_eq_zero.mp (not_not.mp hne)
        subst hce
        obtain ⟨T, hA, hb, hlen, hrun⟩ := ih (i + 1) (newArr ++ [cv]) hadErr A b hx
        refine ⟨cv :: T, by simp [hA], hb, by simp [hlen], fun out2 newArr2 => ?_⟩
        rw [itemsLoop, (hc x _ cv hres).1]
        simp only [List.length_nil, ne_eq, not_true_eq_false, if_false]
        rw [hrun out2 (newArr2 ++ [cv])]
        simp

theorem fromValidator_clean (h : Host) (r : Rules) (errs : List Err) (out : Val) (ctx : Ctx)
    (y : Val) (hx : fromValidator h r errs out ctx = .ok ([], y)) : errs = [] ∧ y = out := by
  have he : errs = [] := by
    by_cases hne : errs = []
    · exact hne
    · exact absurd hx (fromValidator_dirty h r errs out ctx hne y)
  subst he
  exact ⟨rfl, fromValidator_value h r out ctx [] y hx⟩

/-- A clean run of the items step on an array with an items checker returns an
array of the same length that the step returns unchanged. -/
theorem fromItems_arr_rerun (h : Host) (r : Rules) (c : Checker) (hc : Settled c)
    (pc : Option (List (String × Checker))) (xs : List Val) (ctx : Ctx) (y : Val)
    (hx : fromItems h r (some c) pc (.arr xs) ctx = .ok ([], y)) :
    ∃ ys, y = .arr ys ∧ ys.length = xs.length
      ∧ fromItems h r (some c) pc (.arr ys) ctx = .ok ([], .arr ys) := by
  have hprops : ∀ (errs : List Err) (zs : List Val),
      fromProps h r pc errs (.arr zs) ctx = fromValidator h r errs (.arr zs) ctx := by
    intro errs zs
    unfold fromProps
    cases pc with
    | none => rfl
    | some props => simp [_isPlainObject]
  unfold fromItems at hx
  simp only [] at hx
  cases hl : itemsLoop r c ctx.path ctx.options (.arr xs) xs 0 [] [] false with
  | returned res =>
    exfalso
    rw [hl] at hx
    simp only [] at hx
    subst hx
    have hd : ∀ (zs : List Val) (i : Nat) (acc : List Val) (b : Bool) (o : Val),
        itemsLoop r c ctx.path ctx.options (.arr xs) zs i [] acc b
          ≠ .returned (.ok ([], o)) := by
      intro zs
      induction zs with
      | nil => intro i acc b o hz; simp [itemsLoop] at hz
      | cons z rest ih =>
        intro i acc b o hz
        rw [itemsLoop] at hz
        split at hz
        · cases hz
        · rename_i ce cv _
          split at hz
          · rename_i hne
            split at hz
            · split at hz
              · cases hz
              · injection hz with hz
                injection hz with hz
                injection hz with h1 _
                rw [List.nil_append] at h1
                rw [h1] at hne
                exact hne rfl
            · have hdd := itemsLoop_dirty r c ctx.path ctx.options (.arr xs) rest (i + 1)
                ([] ++ ce) acc true (by
                  intro e
                  rw [List.nil_append] at e
                  rw [e] at hne
                  exact hne rfl)
              rw [hz] at hdd
              exact hdd o rfl
          · exact ih _ _ _ _ hz
    exact hd xs 0 [] false y hl
  | finished errs acc =>
    obtain ⟨A, b⟩ := acc
    rw [hl] at hx
    simp only [] at hx
    have hx2 : fromValidator h r errs (if b = true then .arr xs else .arr A) ctx
        = .ok ([], y) := by
      cases b
      · simp only [Bool.false_eq_true, if_false] at hx ⊢
        rw [hprops] at hx
        exact hx
      · simp only [if_true] at hx ⊢
        rw [hprops] at hx
        exact hx
    obtain ⟨he, hy⟩ := fromValidator_clean h r errs _ ctx y hx2
    subst he
    obtain ⟨T, hA, hb, hlen, hrun⟩ := itemsLoop_rerun r c hc ctx.path ctx.options (.arr xs)
      xs 0 [] false A b hl
    subst hb
    simp only [List.nil_append] at hA
    subst hA
    simp only [Bool.false_eq_true, if_false] at hy hx2
    refine ⟨A, hy, hlen, ?_⟩
    unfold fromItems
    simp only []
    rw [hrun (.arr A) []]
    simp only [List.nil_append, Bool.false_eq_true, if_false]
    rw [hprops, ← hy]
    rw [hy] at hx2 ⊢
    exact hx2

theorem fieldLoop_field_result (h : Host) (s : Schema) (obj : List (String × Val))
    (opts : Options) (ov : List (String × Val)) (fs : List Field)
    (hnd : (fs.map (fun f => f.key)).Nodup) (E E3 : List Err) (R3 : List (String × Val))
    (hx : fieldLoop h s obj opts ov fs E [] = .go E3 R3) (f : Field) (hf : f ∈ fs) :
    ∃ X cv, runField h s obj opts ov f = .ok (X, cv)
      ∧ lookupKey f.key R3 = (if typeOf cv ≠ "undefined" then cv else lookupKey f.key obj)
      ∧ hasKey f.key R3 = (if typeOf cv ≠ "undefined" then true else hasKey f.key obj) := by
  obtain ⟨pre, post, hsplit⟩ := List.append_of_mem hf
  subst hsplit
  rw [List.map_append, List.map_cons, List.nodup_append] at hnd
  obtain ⟨_, hnd2, hdis⟩ := hnd
  have hpre : ∀ g ∈ pre, g.key ≠ f.key := by
    intro g hg hc
    exact hdis (List.mem_map_of_mem (fun f => f.key) hg) (by rw [hc]; exact List.mem_cons_self _ _)
  have hpost : ∀ g ∈ post, g.key ≠ f.key := by
    intro g hg hc
    have := (List.nodup_cons.mp hnd2).1
    exact this (by rw [← hc]; exact List.mem_map_of_mem (fun f => f.key) hg)
  obtain ⟨E1, R1, X, c, h1, h2, h3⟩ := fieldLoop_split h s obj opts ov pre post f E E3 [] R3 hx
  refine ⟨X, c, h2, ?_, ?_⟩
  · rw [fieldLoop_go_lookup h s obj opts ov post _ _ _ _ f.key h3 hpost]
    have hl : lookupKey f.key R1 = .undefined := by
      rw [fieldLoop_go_lookup h s obj opts ov pre _ _ _ _ f.key h1 hpre]
      rfl
    by_cases hc : typeOf c ≠ "undefined"
    · simp only [hc, if_true, not_false_eq_true, ne_eq]
      exact lookupKey_setKey_same _ _ _
    · simp only [hc, if_false]
      by_cases hk : hasKey f.key obj = true
      · simp only [hk, if_true]
        exact lookupKey_setKey_same _ _ _
      · simp only [hk, if_false, Bool.false_eq_true]
        rw [hl, lookupKey_of_not_hasKey f.key obj (by simpa using hk)]
  · rw [fieldLoop_go_hasKey h s obj opts ov post _ _ _ _ f.key h3 hpost]
    have hl : hasKey f.key R1 = false := by
      rw [fieldLoop_go_hasKey h s obj opts ov pre _ _ _ _ f.key h1 hpre]
      rfl
    by_cases hc : typeOf c ≠ "undefined"
    · simp only [hc, if_true, not_false_eq_true, ne_eq]
      exact hasKey_setKey_same _ _ _
    · simp only [hc, if_false]
      by_cases hk : hasKey f.key obj = true
      · simp only [hk, if_true]
        exact hasKey_setKey_same _ _ _
      · simp only [hk, if_false, Bool.false_eq_true]
        rw [hl]

theorem lenientTopLoop_hasKey (s : Schema) (opts : Options) (obj : List (String × Val))
    (ks : List String) (R : List (String × Val)) (k : String)
    (hk : hasKey k s.normalizedSchema = true) :
    hasKey k (lenientTopLoop s opts obj ks R) = hasKey k R := by
  induction ks generalizing R with
  | nil => rfl
  | cons k1 rest ih =>
    simp only [lenientTopLoop]
    split
    · exact ih R
    · rename_i hnot
      split
      · exact ih R
      · rw [ih]
        apply hasKey_setKey_ne
        intro hc
        rw [hc] at hnot
        exact hnot hk

/-- The unknown-key phase leaves the declared keys of the result as they are. -/
theorem unknownKeys_declared (s : Schema) (opts : Options) (obj : List (String × Val))
    (E E2 : List Err) (R R2 : List (String × Val))
    (hx : unknownKeys s opts obj E R = .go E2 R2) (k : String)
    (hk : hasKey k s.normalizedSchema = true) :
    lookupKey k R2 = lookupKey k R ∧ hasKey k R2 = hasKey k R := by
  unfold unknownKeys at hx
  split at hx
  · rw [strictTopLoop_go_result s opts _ _ _ _ _ hx]
    exact ⟨rfl, rfl⟩
  · injection hx with _ h2
    rw [← h2]
    exact ⟨lenientTopLoop_lookup s opts obj _ R k hk, lenientTopLoop_hasKey s opts obj _ R k hk⟩

/-- The field loop on a second input on which every field returns the same clean
result builds the same object. -/
theorem fieldLoop_rerun (h : Host) (s : Schema) (obj obj2 : List (String × Val))
    (opts : Options) (ov : List (String × Val)) :
    ∀ (fs : List Field) (R R1 : List (String × Val)),
      fieldLoop h s obj opts ov fs [] R = .go [] R1 →
      (∀ f ∈ fs, ∀ cv, runField h s obj opts ov f = .ok ([], cv) →
        runField h s obj2 opts ov f = .ok ([], cv)
          ∧ (typeOf cv = "undefined" →
              hasKey f.key obj2 = hasKey f.key obj
                ∧ lookupKey f.key obj2 = lookupKey f.key obj)) →
      fieldLoop h s obj2 opts ov fs [] R = .go [] R1 := by
  intro fs
  induction fs with
  | nil => intro R R1 hx _; exact hx
  | cons f rest ih =>
    intro R R1 hx hsame
    rw [fieldLoop] at hx ⊢
    cases hres : runField h s obj opts ov f with
    | error ex =>
      rw [hres] at hx
      cases hx
    | ok q =>
      obtain ⟨es, cv⟩ := q
      rw [hres] at hx
      simp only [] at hx
      have hes : es = [] := by
        by_cases hc : es.length ≠ 0
        · exfalso
          by_cases hff : opts.failFast = true
          · simp [hc, hff] at hx
          · simp only [hc, hff, and_false, if_false, if_true, not_false_eq_true, ne_eq] at hx
            obtain ⟨X, hX⟩ := fieldLoop_go_prefix _ _ _ _ _ _ _ _ _ _ hx
            have := congrArg List.length hX
            simp at this
            omega
        · exact List.length_eq_zero.mp (not_not.mp hc)
      subst hes
      obtain ⟨h2, hund⟩ := hsame f (List.mem_cons_self _ _) cv hres
      rw [h2]
      simp only [List.length_nil, ne_eq, not_true_eq_false, false_and, if_false] at hx ⊢
      have hrest := fun R0 R3 hy =>
        ih R0 R3 hy (fun g hg => hsame g (List.mem_cons_of_mem _ hg))
      by_cases hc : typeOf cv = "undefined"
      · obtain ⟨hk, hl⟩ := hund hc
        simp only [hc, not_true_eq_false, if_false] at hx ⊢
        rw [hk, hl]
        exact hrest _ _ hx
      · simp only [hc, not_false_eq_true, if_true] at hx ⊢
        exact hrest _ _ hx

theorem fieldLoop_keys_declared (h : Host) (s : Schema) (obj : List (String × Val))
    (opts : Options) (ov : List (String × Val)) (E E1 : List Err) (R1 : List (String × Val))
    (hx : fieldLoop h s obj opts ov s.fields E [] = .go E1 R1) (k : String)
    (hk : hasKey k R1 = true) : hasKey k s.normalizedSchema = true := by
  cases hd : hasKey k s.normalizedSchema with
  | true => rfl
  | false =>
    have := fieldLoop_go_hasKey h s obj opts ov s.fields E E1 [] R1 k hx
      (field_keys_of_undeclared s k hd)
    rw [hk] at this
    cases this

theorem strictTopLoop_declared (s : Schema) (opts : Options) (ks : List String)
    (E : List Err) (R : List (String × Val))
    (hk : ∀ k ∈ ks, hasKey k s.normalizedSchema = true) :
    strictTopLoop s opts ks E R = .go E R := by
  induction ks with
  | nil => rfl
  | cons k rest ih =>
    rw [strictTopLoop, if_pos (hk k (List.mem_cons_self _ _))]
    exact ih (fun k2 h2 => hk k2 (List.mem_cons_of_mem _ h2))

theorem lenientTopLoop_declared (s : Schema) (opts : Options) (obj : List (String × Val))
    (ks ks2 : List String) (R : List (String × Val))
    (hk : ∀ k ∈ ks, hasKey k s.normalizedSchema = true) :
    lenientTopLoop s opts obj (ks ++ ks2) R = lenientTopLoop s opts obj ks2 R := by
  induction ks with
  | nil => rfl
  | cons k rest ih =>
    rw [List.cons_append, lenientTopLoop, if_pos (hk k (List.mem_cons_self _ _))]
    exact ih (fun k2 h2 => hk k2 (List.mem_cons_of_mem _ h2))

theorem setKey_append_new (k : String) (v : Val) (A B : List (String × Val))
    (hk : hasKey k A = false) : setKey k v (A ++ B) = A ++ setKey k v B := by
  induction A with
  | nil => rfl
  | cons p rest ih =>
    obtain ⟨k2, v2⟩ := p
    by_cases h2 : k2 = k
    · simp [hasKey, h2] at hk
    · simp only [hasKey, h2, if_false] at hk
      simp only [List.cons_append, setKey, h2, if_false]
      exact congrArg _ (ih hk)

theorem setKey_new (k : String) (v : Val) (A : List (String × Val))
    (hk : hasKey k A = false) : setKey k v A = A ++ [(k, v)] := by
  have := setKey_append_new k v A [] hk
  simpa [setKey] using this

theorem lookupKey_append_new (k : String) (A B : List (String × Val))
    (hk : hasKey k A = false) : lookupKey k (A ++ B) = lookupKey k B := by
  induction A with
  | nil => rfl
  | cons p rest ih =>
    obtain ⟨k2, v2⟩ := p
    by_cases h2 : k2 = k
    · simp [hasKey, h2] at hk
    · simp only [hasKey, h2, if_false] at hk
      simp only [List.cons_append, lookupKey, h2, if_false]
      exact ih hk

theorem hasKey_append (k : String) (A B : List (String × Val)) :
    hasKey k (A ++ B) = (hasKey k A || hasKey k B) := by
  induction A with
  | nil => simp [hasKey]
  | cons p rest ih =>
    obtain ⟨k2, v2⟩ := p
    by_cases h2 : k2 = k
    · simp [hasKey, h2]
    · simp only [List.cons_append, hasKey, h2, if_false]
      exact ih

theorem hasKey_setKey (k k2 : String) (v : Val) (A : List (String × Val)) :
    hasKey k (setKey k2 v A) = (decide (k2 = k) || hasKey k A) := by
  by_cases hk : k2 = k
  · subst hk
    simp [hasKey_setKey_same]
  · rw [hasKey_setKey_ne k k2 v A hk]
    simp [hk]

theorem keys_setKey (k : String) (v : Val) (A : List (String × Val)) :
    (setKey k v A).map (fun kv => kv.1)
      = if hasKey k A then A.map (fun kv => kv.1) else A.map (fun kv => kv.1) ++ [k] := by
  induction A with
  | nil => simp [setKey, hasKey]
  | cons p rest ih =>
    obtain ⟨k2, v2⟩ := p
    by_cases h2 : k2 = k
    · simp [setKey, hasKey, h2]
    · simp only [setKey, hasKey, h2, if_false, List.map_cons, ih]
      split <;> simp

theorem keysOutside_setKey (D : String → Bool) (U : List (String × Val)) (k : String) (v : Val)
    (hU : KeysOutside D U) (hk : D k = false) : KeysOutside D (setKey k v U) := by
  constructor
  · intro k2 h2
    rw [hasKey_setKey] at h2
    by_cases e : k = k2
    · rw [← e]; exact hk
    · simp only [e, decide_False, Bool.false_or] at h2
      exact hU.1 k2 h2
  · rw [keys_setKey]
    split
    · exact hU.2
    · rename_i hnot
      rw [List.nodup_append]
      refine ⟨hU.2, List.nodup_singleton _, ?_⟩
      intro a ha hb
      rw [List.mem_singleton] at hb
      subst hb
      rw [← hasKey_iff_mem_keys] at ha
      exact hnot ha

/-- The lenient loop appends undeclared keys to a result of declared keys. -/
theorem lenientTopLoop_extends (s : Schema) (opts : Options) (obj : List (String × Val))
    (R1 : List (String × Val))
    (hR1 : ∀ k, hasKey k R1 = true → hasKey k s.normalizedSchema = true) :
    ∀ (ks : List String) (U : List (String × Val)),
      KeysOutside (fun k => hasKey k s.normalizedSchema) U →
      ∃ U2, lenientTopLoop s opts obj ks (R1 ++ U) = R1 ++ U2
        ∧ KeysOutside (fun k => hasKey k s.normalizedSchema) U2 := by
  intro ks
  induction ks with
  | nil => intro U hU; exact ⟨U, rfl, hU⟩
  | cons k rest ih =>
    intro U hU
    rw [lenientTopLoop]
    split
    · exact ih U hU
    · rename_i hnot
      split
      · exact ih U hU
      · have hd : hasKey k s.normalizedSchema = false := by simpa using hnot
        have hk1 : hasKey k R1 = false := by
          cases hc : hasKey k R1 with
          | false => rfl
          | true => rw [hR1 k hc] at hd; cases hd
        rw [setKey_append_new k _ R1 U hk1]
        exact ih _ (keysOutside_setKey _ U k _ hU hd)

/-- Run over its own undeclared keys, the lenient loop rebuilds the object. -/
theorem lenientTopLoop_rebuild (s : Schema) (opts : Options) (hru : opts.removeUnknown = false)
    (R1 : List (String × Val))
    (hR1 : ∀ k, hasKey k R1 = true → hasKey k s.normalizedSchema = true) :
    ∀ (U2 U1 : List (String × Val)),
      KeysOutside (fun k => hasKey k s.normalizedSchema) (U1 ++ U2) →
      lenientTopLoop s opts (R1 ++ (U1 ++ U2)) (U2.map (fun kv => kv.1)) (R1 ++ U1)
        = R1 ++ (U1 ++ U2) := by
  intro U2
  induction U2 with
  | nil => intro U1 _; simp [lenientTopLoop]
  | cons p rest ih =>
    intro U1 hU
    obtain ⟨k, v⟩ := p
    have hkU : hasKey k (U1 ++ (k, v) :: rest) = true := by
      rw [hasKey_append]
      simp [hasKey]
    have hd : hasKey k s.normalizedSchema = false := hU.1 k hkU
    have hk1 : hasKey k R1 = false := by
      cases hc : hasKey k R1 with
      | false => rfl
      | true => rw [hR1 k hc] at hd; cases hd
    have hkU1 : hasKey k U1 = false := by
      cases hc : hasKey k U1 with
      | false => rfl
      | true =>
        exfalso
        have hnd := hU.2
        rw [List.map_append, List.map_cons, List.nodup_append] at hnd
        exact hnd.2.2 ((hasKey_iff_mem_keys k U1).mp hc) (List.mem_cons_self _ _)
    rw [List.map_cons, lenientTopLoop]
    simp only [hd, Bool.false_eq_true, if_false, hru]
    have hl : lookupKey k (R1 ++ (U1 ++ (k, v) :: rest)) = v := by
      rw [lookupKey_append_new k R1 _ hk1, lookupKey_append_new k U1 _ hkU1]
      simp [lookupKey]
    rw [hl, setKey_append_new k v R1 U1 hk1, setKey_new k v U1 hkU1]
    have he : U1 ++ (k, v) :: rest = (U1 ++ [(k, v)]) ++ rest := by simp
    rw [he]
    exact ih (U1 ++ [(k, v)]) (by rw [← he]; exact hU)

/-- The unknown-key phase on its own clean result changes nothing. -/
theorem unknownKeys_rerun (s : Schema) (opts : Options) (obj : List (String × Val))
    (R1 R2 : List (String × Val))
    (hR1 : ∀ k, hasKey k R1 = true → hasKey k s.normalizedSchema = true)
    (hx : unknownKeys s opts obj [] R1 = .go [] R2) :
    unknownKeys s opts R2 [] R1 = .go [] R2 := by
  unfold unknownKeys at hx ⊢
  by_cases hs : opts.strict = true
  · simp only [hs, if_true] at hx ⊢
    have hR : R2 = R1 := strictTopLoop_go_result s opts _ _ _ _ _ hx
    subst hR
    exact strictTopLoop_declared s opts _ [] R2 (fun k hk =>
      hR1 k ((hasKey_iff_mem_keys k R2).mpr hk))
  · simp only [hs, Bool.false_eq_true, if_false] at hx ⊢
    injection hx with _ h2
    by_cases hru : opts.removeUnknown = true
    · rw [lenientTopLoop_removeUnknown s opts obj _ R1 hru] at h2
      rw [lenientTopLoop_removeUnknown s opts R2 _ R1 hru, h2]
    · have hru2 : opts.removeUnknown = false := by simpa using hru
      obtain ⟨U2, hU2, hP⟩ := lenientTopLoop_extends s opts obj R1 hR1
        (obj.map (fun kv => kv.1)) [] ⟨fun k hk => by simp [hasKey] at hk, List.nodup_nil⟩
      rw [List.append_nil] at hU2
      rw [hU2] at h2
      rw [← h2, List.map_append,
        lenientTopLoop_declared s opts _ _ _ R1 (fun k hk =>
          hR1 k ((hasKey_iff_mem_keys k R1).mpr hk))]
      have := lenientTopLoop_rebuild s opts hru2 R1 hR1 U2 [] (by simpa using hP)
      simpa using this

/-- Validating the normalised value of a valid run again: with no conditional
rules, `removeEmpty` and `valueOnly` off, distinct field keys and idempotent
field checkers, the second run is valid and returns the same object. -/
theorem validate_rerun (h : Host) (s : Schema) (callOptions : OptionsPatch)
    (hcond : s.conditionals = [])
    (hnd : (s.fields.map (fun f => f.key)).Nodup)
    (hre : (assignOptions s.options callOptions).removeEmpty = false)
    (hvo : (assignOptions s.options callOptions).valueOnly = false)
    (hidem : ∀ f ∈ s.fields, ∀ c, selectChecker h s [] f = .ok c → Idempotent c)
    (obj : List (String × Val)) (es : List Err) (val : Val)
    (hx : validate h s obj callOptions = .ok (.result true es val)) :
    es = [] ∧ ∃ R, val = .obj .plain R
      ∧ validate h s R callOptions = .ok (.result true [] (.obj .plain R)) := by
  unfold validate at hx
  rw [evaluate_no_rules h s hcond] at hx
  cases hfl : fieldLoop h s obj (assignOptions s.options callOptions) [] s.fields [] [] with
  | stop res =>
    rw [hfl] at hx
    simp only [] at hx
    subst hx
    obtain ⟨hfalse, _, _⟩ := fieldLoop_stop_invalid _ _ _ _ _ _ _ _ _ _ _ hfl
    cases hfalse
  | go E R1 =>
    rw [hfl] at hx
    simp only [] at hx
    cases hun : unknownKeys s (assignOptions s.options callOptions) obj E R1 with
    | stop res =>
      rw [hun] at hx
      simp only [] at hx
      subst hx
      obtain ⟨hfalse, _, _⟩ := unknownKeys_stop_invalid _ _ _ _ _ _ _ _ hun
      cases hfalse
    | go E2 R2 =>
      rw [hun] at hx
      simp only [] at hx
      obtain ⟨hes, hv⟩ := finish_result _ _ _ _ _ _ hx
      have hE2 : E2 = [] := List.length_eq_zero.mp (by simpa using hv.symm)
      subst hE2
      obtain ⟨X, hX⟩ := unknownKeys_go_prefix _ _ _ _ _ _ _ hun
      have hE : E = [] := by
        have := congrArg List.length hX
        simp at this
        exact List.length_eq_zero.mp (by omega)
      subst hE
      have hval : val = .obj .plain R2 := by
        unfold finish at hx
        simp only [hvo, hre, Bool.false_eq_true, if_false] at hx
        injection hx with hx
        injection hx with _ _ h3
        exact h3.symm
      refine ⟨hes, R2, hval, ?_⟩
      have hR1 : ∀ k, hasKey k R1 = true → hasKey k s.normalizedSchema = true :=
        fieldLoop_keys_declared h s obj _ [] [] [] R1 hfl
      have hsame : ∀ f ∈ s.fields, ∀ cv,
          runField h s obj (assignOptions s.options callOptions) [] f = .ok ([], cv) →
          runField h s R2 (assignOptions s.options callOptions) [] f = .ok ([], cv)
            ∧ (typeOf cv = "undefined" →
                hasKey f.key R2 = hasKey f.key obj
                  ∧ lookupKey f.key R2 = lookupKey f.key obj) := by
        intro f hf cv hrun
        obtain ⟨X2, cv2, hr2, hl, hk⟩ := fieldLoop_field_result h s obj _ [] s.fields hnd
          [] [] R1 hfl f hf
        rw [hrun] at hr2
        injection hr2 with hr2
        injection hr2 with _ hcv
        subst hcv
        obtain ⟨pre, post, hsplit⟩ := List.append_of_mem hf
        obtain ⟨hl2, hk2⟩ := unknownKeys_declared s _ obj [] [] R1 R2 hun f.key
          (hasKey_normalizedSchema s pre post f hsplit)
        rw [← hl2] at hl
        rw [← hk2] at hk
        unfold runField at hrun ⊢
        cases hsel : selectChecker h s [] f with
        | error ex =>
          rw [hsel] at hrun
          cases hrun
        | ok ck =>
          rw [hsel] at hrun
          simp only [] at hrun ⊢
          by_cases hc : typeOf cv = "undefined"
          · simp only [hc, not_true_eq_false, if_false, ne_eq] at hl hk
            rw [hl]
            exact ⟨hrun, fun _ => ⟨hk, rfl⟩⟩
          · simp only [hc, not_false_eq_true, if_true, ne_eq] at hl
            rw [hl]
            exact ⟨hidem f hf ck hsel _ _ _ hrun hc, fun e => absurd e hc⟩
      unfold validate
      rw [evaluate_no_rules h s hcond,
        fieldLoop_rerun h s obj R2 _ [] s.fields [] R1 hfl hsame]
      simp only []
      rw [unknownKeys_rerun s _ obj R1 R2 hR1 hun]
      simp only [finish, hvo, hre, Bool.false_eq_true, if_false, List.length_nil, decide_True]

theorem lookupKey_of_mem_nodup (T : List (String × Val))
    (hnd : (T.map (fun kv => kv.1)).Nodup) (e : String × Val) (he : e ∈ T) :
    lookupKey e.1 T = e.2 := by
  induction T with
  | nil => cases he
  | cons p rest ih =>
    obtain ⟨k, v⟩ := p
    rw [List.map_cons, List.nodup_cons] at hnd
    rcases List.mem_cons.mp he with h1 | h1
    · subst h1
      simp [lookupKey]
    · have hne : ¬ k = e.1 := by
        intro hk
        exact hnd.1 (by rw [hk]; exact List.mem_map_of_mem (fun kv => kv.1) h1)
      simp only [lookupKey, hne, if_false]
      exact ih hnd.2 h1

theorem hasKey_eq_false_iff (k : String) (R : List (String × Val)) :
    hasKey k R = false ↔ k ∉ R.map (fun kv => kv.1) := by
  rw [← hasKey_iff_mem_keys]
  cases hasKey k R <;> simp

/-- A clean run of the properties loop adds one entry for each declared key, in
order; run again on an object that holds these entries, it adds the same. -/
theorem propsLoop_rerun (r : Rules) (path : String) (opts : Options) (out : Val) :
    ∀ (props : List (String × Checker)), (props.map (fun p => p.1)).Nodup →
      (∀ p ∈ props, Settled p.2) →
      ∀ (acc NR : List (String × Val)), (∀ p ∈ props, hasKey p.1 acc = false) →
        propsLoop r path opts out props [] acc = .finished [] NR →
        ∃ T, NR = acc ++ T ∧ T.map (fun kv => kv.1) = props.map (fun p => p.1)
          ∧ ∀ (out2 : Val) (acc2 : List (String × Val)),
              (∀ e ∈ T, getProp out2 e.1 = e.2) →
              (∀ p ∈ props, hasKey p.1 acc2 = false) →
              propsLoop r path opts out2 props [] acc2 = .finished [] (acc2 ++ T) := by
  intro props
  induction props with
  | nil =>
    intro _ _ acc NR _ hx
    simp only [propsLoop] at hx
    injection hx with _ h2
    exact ⟨[], by simp [h2], rfl, fun out2 acc2 _ _ => by simp [propsLoop]⟩
  | cons p rest ih =>
    intro hnd hset acc NR hacc hx
    obtain ⟨pk, ck⟩ := p
    rw [List.map_cons, List.nodup_cons] at hnd
    rw [propsLoop] at hx
    cases hres : ck (getProp out pk) { path := childPathOf path pk, options := opts } with
    | error ex =>
      rw [hres] at hx
      cases hx
    | ok q =>
      obtain ⟨ce, cv⟩ := q
      rw [hres] at hx
      simp only [] at hx
      by_cases hne : ce.length ≠ 0
      · exfalso
        rw [if_pos hne] at hx
        split at hx
        · split at hx <;> cases hx
        · have hd := propsLoop_dirty r path opts out rest ([] ++ ce) acc
            (by
              intro e
              rw [List.nil_append] at e
              rw [e] at hne
              exact hne rfl)
          rw [hx] at hd
          exact hd rfl
      · rw [if_neg hne] at hx
        have hce : ce = [] := List.length_eq_zero.mp (not_not.mp hne)
        subst hce
        have hpk : hasKey pk acc = false := hacc (pk, ck) (List.mem_cons_self _ _)
        rw [setKey_new pk cv acc hpk] at hx
        have hrest : ∀ q ∈ rest, hasKey q.1 (acc ++ [(pk, cv)]) = false := by
          intro q hq
          rw [hasKey_append, hacc q (List.mem_cons_of_mem _ hq)]
          have hqk : ¬ pk = q.1 := by
            intro e
            exact hnd.1 (by rw [e]; exact List.mem_map_of_mem (fun p => p.1) hq)
          simp [hasKey, hqk]
        obtain ⟨T, hNR, hkeys, hrun⟩ := ih hnd.2
          (fun q hq => hset q (List.mem_cons_of_mem _ hq)) _ NR hrest hx
        refine ⟨(pk, cv) :: T, by simp [hNR], by simp [hkeys], fun out2 acc2 hget hacc2 => ?_⟩
        have hg : getProp out2 pk = cv := hget (pk, cv) (List.mem_cons_self _ _)
        have hck : ck cv { path := childPathOf path pk, options := opts } = .ok ([], cv) :=
          ((hset (pk, ck) (List.mem_cons_self _ _)) _ _ cv hres).1
        rw [propsLoop, hg, hck]
        simp only [List.length_nil, ne_eq, not_true_eq_false, if_false]
        rw [setKey_new pk cv acc2 (hacc2 (pk, ck) (List.mem_cons_self _ _))]
        have hrest2 : ∀ q ∈ rest, hasKey q.1 (acc2 ++ [(pk, cv)]) = false := by
          intro q hq
          rw [hasKey_append, hacc2 q (List.mem_cons_of_mem _ hq)]
          have hqk : ¬ pk = q.1 := by
            intro e
            exact hnd.1 (by rw [e]; exact List.mem_map_of_mem (fun p => p.1) hq)
          simp [hasKey, hqk]
        rw [hrun out2 (acc2 ++ [(pk, cv)])
          (fun e he => hget e (List.mem_cons_of_mem _ he)) hrest2]
        simp

theorem foundIn_of_mem (nk : List String) (k : String) (hk : k ∈ nk) : foundIn nk k = true := by
  unfold foundIn
  rw [List.any_eq_true]
  exact ⟨k, hk, by simp⟩

theorem mem_of_foundIn (nk : List String) (k : String) (hk : foundIn nk k = true) : k ∈ nk := by
  unfold foundIn at hk
  rw [List.any_eq_true] at hk
  obtain ⟨x, hx, he⟩ := hk
  have : x = k := by simpa using he
  rw [← this]
  exact hx

theorem strictUnknownLoop_found (r : Rules) (path : String) (opts : Options) (out : Val)
    (nk : List String) (ks : List String) (errs : List Err)
    (hk : ∀ k ∈ ks, foundIn nk k = true) :
    strictUnknownLoop r path opts out nk ks errs = .finished errs () := by
  induction ks with
  | nil => rfl
  | cons k rest ih =>
    rw [strictUnknownLoop, if_pos (hk k (List.mem_cons_self _ _))]
    exact ih (fun k2 h2 => hk k2 (List.mem_cons_of_mem _ h2))

theorem lenientUnknownLoop_found (opts : Options) (out : Val) (nk : List String)
    (ks ks2 : List String) (R : List (String × Val))
    (hk : ∀ k ∈ ks, foundIn nk k = true) :
    lenientUnknownLoop opts out nk (ks ++ ks2) R = lenientUnknownLoop opts out nk ks2 R := by
  induction ks with
  | nil => rfl
  | cons k rest ih =>
    rw [List.cons_append, lenientUnknownLoop, if_pos (hk k (List.mem_cons_self _ _))]
    exact ih (fun k2 h2 => hk k2 (List.mem_cons_of_mem _ h2))

theorem lenientUnknownLoop_removeUnknown (opts : Options) (out : Val) (nk : List String)
    (ks : List String) (R : List (String × Val)) (hru : opts.removeUnknown = true) :
    lenientUnknownLoop opts out nk ks R = R := by
  induction ks with
  | nil => rfl
  | cons k rest ih =>
    simp only [lenientUnknownLoop, hru, if_true]
    split <;> exact ih

theorem lenientUnknownLoop_extends (opts : Options) (out : Val) (nk : List String)
    (R1 : List (String × Val)) (hR1 : ∀ k, hasKey k R1 = true → foundIn nk k = true) :
    ∀ (ks : List String) (U : List (String × Val)), KeysOutside (foundIn nk) U →
      ∃ U2, lenientUnknownLoop opts out nk ks (R1 ++ U) = R1 ++ U2
        ∧ KeysOutside (foundIn nk) U2 := by
  intro ks
  induction ks with
  | nil => intro U hU; exact ⟨U, rfl, hU⟩
  | cons k rest ih =>
    intro U hU
    rw [lenientUnknownLoop]
    split
    · exact ih U hU
    · rename_i hnot
      split
      · exact ih U hU
      · have hd : foundIn nk k = false := by simpa using hnot
        have hk1 : hasKey k R1 = false := by
          cases hc : hasKey k R1 with
          | false => rfl
          | true => rw [hR1 k hc] at hd; cases hd
        rw [setKey_append_new k _ R1 U hk1]
        exact ih _ (keysOutside_setKey _ U k _ hU hd)

theorem lenientUnknownLoop_rebuild (opts : Options) (hru : opts.removeUnknown = false)
    (nk : List String) (R1 : List (String × Val))
    (hR1 : ∀ k, hasKey k R1 = true → foundIn nk k = true) :
    ∀ (U2 U1 : List (String × Val)), KeysOutside (foundIn nk) (U1 ++ U2) →
      lenientUnknownLoop opts (.obj .plain (R1 ++ (U1 ++ U2))) nk (U2.map (fun kv => kv.1))
          (R1 ++ U1)
        = R1 ++ (U1 ++ U2) := by
  intro U2
  induction U2 with
  | nil => intro U1 _; simp [lenientUnknownLoop]
  | cons p rest ih =>
    intro U1 hU
    obtain ⟨k, v⟩ := p
    have hkU : hasKey k (U1 ++ (k, v) :: rest) = true := by
      rw [hasKey_append]
      simp [hasKey]
    have hd : foundIn nk k = false := hU.1 k hkU
    have hk1 : hasKey k R1 = false := by
      cases hc : hasKey k R1 with
      | false => rfl
      | true => rw [hR1 k hc] at hd; cases hd
    have hkU1 : hasKey k U1 = false := by
      cases hc : hasKey k U1 with
      | false => rfl
      | true =>
        exfalso
        have hnd := hU.2
        rw [List.map_append, List.map_cons, List.nodup_append] at hnd
        exact hnd.2.2 ((hasKey_iff_mem_keys k U1).mp hc) (List.mem_cons_self _ _)
    rw [List.map_cons, lenientUnknownLoop]
    simp only [hd, Bool.false_eq_true, if_false, hru]
    have hl : getProp (.obj .plain (R1 ++ (U1 ++ (k, v) :: rest))) k = v := by
      rw [getProp_obj, lookupKey_append_new k R1 _ hk1, lookupKey_append_new k U1 _ hkU1]
      simp [lookupKey]
    rw [hl, setKey_append_new k v R1 U1 hk1, setKey_new k v U1 hkU1]
    have he : U1 ++ (k, v) :: rest = (U1 ++ [(k, v)]) ++ rest := by simp
    rw [he]
    exact ih (U1 ++ [(k, v)]) (by rw [← he]; exact hU)

theorem propsLoop_returned_dirty (r : Rules) (path : String) (opts : Options) (out : Val) :
    ∀ (props : List (String × Checker)) (errs : List Err) (acc : List (String × Val))
      (res : CheckResult), propsLoop r path opts out props errs acc = .returned res →
      ∀ o, res ≠ .ok ([], o) := by
  intro props
  induction props with
  | nil => intro errs acc res hz; simp [propsLoop] at hz
  | cons p rest ih =>
    intro errs acc res hz
    obtain ⟨pk, ck⟩ := p
    rw [propsLoop] at hz
    split at hz
    · injection hz with hz
      subst hz
      intro o ho
      cases ho
    · rename_i ce cv _
      split at hz
      · rename_i hne
        split at hz
        · split at hz
          · injection hz with hz
            subst hz
            intro o ho
            cases ho
          · injection hz with hz
            subst hz
            intro o ho
            injection ho with ho
            injection ho with h1 _
            have hce : ce = [] := by
              cases ce with
              | nil => rfl
              | cons a t2 =>
                exfalso
                have hl := congrArg List.length h1
                simp at hl
            exact hne (by rw [hce]; rfl)
        · exact ih _ _ _ hz
      · exact ih _ _ _ hz

theorem strictUnknownLoop_returned_dirty (r : Rules) (path : String) (opts : Options)
    (out : Val) (nk : List String) :
    ∀ (ks : List String) (errs : List Err) (res : CheckResult),
      strictUnknownLoop r path opts out nk ks errs = .returned res → ∀ o, res ≠ .ok ([], o) := by
  intro ks
  induction ks with
  | nil => intro errs res hz; simp [strictUnknownLoop] at hz
  | cons k rest ih =>
    intro errs res hz
    rw [strictUnknownLoop] at hz
    split at hz
    · exact ih _ _ hz
    · split at hz
      · exact ih _ _ hz
      · simp only [] at hz
        split at hz
        · split at hz
          · injection hz with hz
            subst hz
            intro o ho
            cases ho
          · injection hz with hz
            subst hz
            intro o ho
            injection ho with ho
            injection ho with h1 _
            have hl := congrArg List.length h1
            simp at hl
        · exact ih _ _ hz

theorem lookupKey_append_left (k : String) (A B : List (String × Val))
    (hk : hasKey k A = true) : lookupKey k (A ++ B) = lookupKey k A := by
  induction A with
  | nil => simp [hasKey] at hk
  | cons p rest ih =>
    obtain ⟨k2, v2⟩ := p
    by_cases h2 : k2 = k
    · simp [lookupKey, h2]
    · simp only [hasKey, h2, if_false] at hk
      simp only [List.cons_append, lookupKey, h2, if_false]
      exact ih hk

/-- A clean run of the properties step on an object with declared properties
returns a plain object that the step returns unchanged. -/
theorem fromProps_obj_rerun (h : Host) (r : Rules) (props : List (String × Checker))
    (hnd : (props.map (fun p => p.1)).Nodup) (hset : ∀ p ∈ props, Settled p.2)
    (cls : Cls) (kvs : List (String × Val)) (ctx : Ctx) (y : Val)
    (hx : fromProps h r (some props) [] (.obj cls kvs) ctx = .ok ([], y)) :
    ∃ R, y = .obj .plain R
      ∧ fromProps h r (some props) [] (.obj .plain R) ctx = .ok ([], .obj .plain R) := by
  unfold fromProps at hx
  simp only [_isPlainObject, if_true] at hx
  cases hl : propsLoop r ctx.path ctx.options (.obj cls kvs) props [] [] with
  | returned res =>
    rw [hl] at hx
    simp only [] at hx
    exact absurd hx (propsLoop_returned_dirty _ _ _ _ _ _ _ _ hl y)
  | finished errs1 NR =>
    rw [hl] at hx
    simp only [] at hx
    have herrs1 : errs1 = [] := by
      by_cases hst : ctx.options.strict = true
      · rw [if_pos hst] at hx
        by_cases he : errs1 = []
        · exact he
        · exfalso
          have hd := strictUnknownLoop_dirty r ctx.path ctx.options (.obj cls kvs)
            (props.map (fun p => p.1)) (objectKeys (.obj cls kvs)) errs1 he
          cases hs : strictUnknownLoop r ctx.path ctx.options (.obj cls kvs)
              (props.map (fun p => p.1)) (objectKeys (.obj cls kvs)) errs1 with
          | returned res =>
            rw [hs] at hx hd
            exact hd y hx
          | finished errs2 u =>
            rw [hs] at hx hd
            exact fromValidator_dirty h r errs2 _ ctx hd y hx
      · rw [if_neg hst] at hx
        exact (fromValidator_clean h r errs1 _ ctx y hx).1
    subst herrs1
    obtain ⟨T, hNR, hkeys, hrun⟩ := propsLoop_rerun r ctx.path ctx.options (.obj cls kvs) props
      hnd hset [] NR (fun _ _ => rfl) hl
    rw [List.nil_append] at hNR
    subst hNR
    have hndT : (NR.map (fun kv => kv.1)).Nodup := by rw [hkeys]; exact hnd
    have hfound : ∀ k, hasKey k NR = true → foundIn (props.map (fun p => p.1)) k = true := by
      intro k hk
      apply foundIn_of_mem
      rw [← hkeys]
      exact (hasKey_iff_mem_keys k NR).mp hk
    have hnone : ∀ p ∈ props, hasKey p.1 ([] : List (String × Val)) = false := fun _ _ => rfl
    by_cases hst : ctx.options.strict = true
    · rw [if_pos hst] at hx
      cases hs : strictUnknownLoop r ctx.path ctx.options (.obj cls kvs)
          (props.map (fun p => p.1)) (objectKeys (.obj cls kvs)) [] with
      | returned res =>
        rw [hs] at hx
        exact absurd hx (strictUnknownLoop_returned_dirty _ _ _ _ _ _ _ _ hs y)
      | finished errs2 u =>
        rw [hs] at hx
        simp only [] at hx
        obtain ⟨he2, hy⟩ := fromValidator_clean h r errs2 _ ctx y hx
        subst he2
        refine ⟨NR, hy, ?_⟩
        unfold fromProps
        simp only [_isPlainObject, if_true]
        have hp := hrun (.obj .plain NR) []
          (fun e he => by rw [getProp_obj]; exact lookupKey_of_mem_nodup NR hndT e he) hnone
        rw [List.nil_append] at hp
        rw [hp]
        simp only [hst, if_true]
        rw [strictUnknownLoop_found r ctx.path ctx.options (.obj .plain NR)
          (props.map (fun p => p.1)) (objectKeys (.obj .plain NR)) []
          (fun k hk => hfound k ((hasKey_iff_mem_keys k NR).mpr hk))]
        simp only []
        rw [hy] at hx
        exact hx
    · rw [if_neg hst] at hx
      obtain ⟨_, hy⟩ := fromValidator_clean h r [] _ ctx y hx
      by_cases hru : ctx.options.removeUnknown = true
      · rw [lenientUnknownLoop_removeUnknown _ _ _ _ _ hru] at hy hx
        refine ⟨NR, hy, ?_⟩
        unfold fromProps
        simp only [_isPlainObject, if_true]
        have hp := hrun (.obj .plain NR) []
          (fun e he => by rw [getProp_obj]; exact lookupKey_of_mem_nodup NR hndT e he) hnone
        rw [List.nil_append] at hp
        rw [hp]
        simp only [hst, Bool.false_eq_true, if_false]
        rw [lenientUnknownLoop_removeUnknown _ _ _ _ _ hru]
        rw [hy] at hx
        exact hx
      · have hru2 : ctx.options.removeUnknown = false := by
          cases hq : ctx.options.removeUnknown with
          | false => rfl
          | true => exact absurd hq hru
        obtain ⟨U, hL, hU⟩ := lenientUnknownLoop_extends ctx.options (.obj cls kvs)
          (props.map (fun p => p.1)) NR hfound (objectKeys (.obj cls kvs)) []
          ⟨fun k hk => by simp [hasKey] at hk, by simp⟩
        rw [List.append_nil] at hL
        rw [hL] at hy hx
        refine ⟨NR ++ U, hy, ?_⟩
        unfold fromProps
        simp only [_isPlainObject, if_true]
        have hp := hrun (.obj .plain (NR ++ U)) []
          (fun e he => by
            rw [getProp_obj, lookupKey_append_left e.1 NR U
              ((hasKey_iff_mem_keys e.1 NR).mpr (List.mem_map_of_mem (fun kv => kv.1) he))]
            exact lookupKey_of_mem_nodup NR hndT e he) hnone
        rw [List.nil_append] at hp
        rw [hp]
        simp only [hst, Bool.false_eq_true, if_false]
        have hk2 : objectKeys (.obj .plain (NR ++ U))
            = NR.map (fun kv => kv.1) ++ U.map (fun kv => kv.1) := by
          simp [objectKeys]
        rw [hk2, lenientUnknownLoop_found ctx.options _ (props.map (fun p => p.1))
          (NR.map (fun kv => kv.1)) (U.map (fun kv => kv.1)) NR
          (fun k hk => hfound k ((hasKey_iff_mem_keys k NR).mpr hk))]
        have hreb := lenientUnknownLoop_rebuild ctx.options hru2 (props.map (fun p => p.1)) NR
          hfound U [] (by rw [List.nil_append]; exact hU)
        rw [List.nil_append, List.append_nil] at hreb
        rw [hreb]
        rw [hy] at hx
        exact hx

theorem fromItems_scalar (h : Host) (r : Rules) (ic : Option Checker)
    (pc : Option (List (String × Checker))) (w : Val) (ctx : Ctx)
    (ha : isArray w = false) (ho : _isPlainObject w = false) :
    fromItems h r ic pc w ctx = fromValidator h r [] w ctx := by
  cases w <;> cases ic <;> cases pc <;>
    first
    | (simp [isArray] at ha; done)
    | (simp [_isPlainObject] at ho; done)
    | simp [fromItems, fromProps, _isPlainObject]

/-- A clean run of the structural steps returns a value that they return
unchanged: the input itself, or the array or object rebuilt from it. -/
theorem fromItems_rerun (h : Host) (r : Rules) (ic : Option Checker)
    (pc : Option (List (String × Checker))) (hic : ∀ c, ic = some c → Settled c)
    (hpc : ∀ props, pc = some props →
      (props.map (fun p => p.1)).Nodup ∧ ∀ p ∈ props, Settled p.2)
    (w : Val) (ctx : Ctx) (y : Val) (hx : fromItems h r ic pc w ctx = .ok ([], y)) :
    fromItems h r ic pc y ctx = .ok ([], y)
      ∧ (y = w ∨ ((ic.isSome = true ∨ pc.isSome = true) ∧ SameKind w y)) := by
  have hsame : y = w → fromItems h r ic pc y ctx = .ok ([], y)
      ∧ (y = w ∨ ((ic.isSome = true ∨ pc.isSome = true) ∧ SameKind w y)) := by
    intro e
    subst e
    exact ⟨hx, Or.inl rfl⟩
  cases w with
  | arr xs =>
    cases ic with
    | some c =>
      obtain ⟨ys, hy, hlen, hrun⟩ := fromItems_arr_rerun h r c (hic c rfl) pc xs ctx y hx
      subst hy
      exact ⟨hrun, Or.inr ⟨Or.inl rfl, Or.inl ⟨xs, ys, rfl, rfl, hlen⟩⟩⟩
    | none =>
      have he : fromItems h r none pc (.arr xs) ctx = fromValidator h r [] (.arr xs) ctx := by
        cases pc <;> simp [fromItems, fromProps, _isPlainObject]
      rw [he] at hx
      exact hsame (fromValidator_value h r _ ctx [] y hx)
  | obj cls kvs =>
    cases pc with
    | none =>
      have he : fromItems h r ic none (.obj cls kvs) ctx
          = fromValidator h r [] (.obj cls kvs) ctx := by
        cases ic <;> simp [fromItems, fromProps]
      rw [he] at hx
      exact hsame (fromValidator_value h r _ ctx [] y hx)
    | some props =>
      have he : ∀ (cls2 : Cls) (kvs2 : List (String × Val)),
          fromItems h r ic (some props) (.obj cls2 kvs2) ctx
            = fromProps h r (some props) [] (.obj cls2 kvs2) ctx := by
        intro cls2 kvs2
        cases ic <;> simp [fromItems]
      rw [he] at hx
      obtain ⟨R, hy, hrun⟩ := fromProps_obj_rerun h r props (hpc props rfl).1 (hpc props rfl).2
        cls kvs ctx y hx
      subst hy
      rw [he]
      exact ⟨hrun, Or.inr ⟨Or.inr rfl, Or.inr ⟨cls, kvs, R, rfl, rfl⟩⟩⟩
  | undefined =>
    rw [fromItems_scalar h r ic pc .undefined ctx rfl rfl] at hx
    exact hsame (fromValidator_value h r _ ctx [] y hx)
  | null =>
    rw [fromItems_scalar h r ic pc .null ctx rfl rfl] at hx
    exact hsame (fromValidator_value h r _ ctx [] y hx)
  | bool b =>
    rw [fromItems_scalar h r ic pc (.bool b) ctx rfl rfl] at hx
    exact hsame (fromValidator_value h r _ ctx [] y hx)
  | num n =>
    rw [fromItems_scalar h r ic pc (.num n) ctx rfl rfl] at hx
    exact hsame (fromValidator_value h r _ ctx [] y hx)
  | nan =>
    rw [fromItems_scalar h r ic pc .nan ctx rfl rfl] at hx
    exact hsame (fromValidator_value h r _ ctx [] y hx)
  | str t =>
    rw [fromItems_scalar h r ic pc (.str t) ctx rfl rfl] at hx
    exact hsame (fromValidator_value h r _ ctx [] y hx)
  | bigint n =>
    rw [fromItems_scalar h r ic pc (.bigint n) ctx rfl rfl] at hx
    exact hsame (fromValidator_value h r _ ctx [] y hx)
  | symbol t =>
    rw [fromItems_scalar h r ic pc (.symbol t) ctx rfl rfl] at hx
    exact hsame (fromValidator_value h r _ ctx [] y hx)
  | fn f =>
    rw [fromItems_scalar h r ic pc (.fn f) ctx rfl rfl] at hx
    exact hsame (fromValidator_value h r _ ctx [] y hx)

theorem fromBounds_clean (h : Host) (r : Rules) (ic : Option Checker)
    (pc : Option (List (String × Checker))) (w : Val) (ctx : Ctx) (y : Val)
    (hx : fromBounds h r ic pc w ctx = .ok ([], y)) :
    fromItems h r ic pc w ctx = .ok ([], y) := by
  unfold fromBounds at hx
  split at hx
  · split at hx
    · exact absurd hx (emit_not_clean _ _ _ _ _ _)
    · split at hx
      · exact absurd hx (emit_not_clean _ _ _ _ _ _)
      · exact hx
  · split at hx
    · split at hx
      · exact absurd hx (emit_not_clean _ _ _ _ _ _)
      · split at hx
        · exact absurd hx (emit_not_clean _ _ _ _ _ _)
        · exact hx
    · exact hx

theorem fromRegex_clean (h : Host) (r : Rules) (ic : Option Checker)
    (pc : Option (List (String × Checker))) (w : Val) (ctx : Ctx) (y : Val)
    (hx : fromRegex h r ic pc w ctx = .ok ([], y)) :
    fromBounds h r ic pc w ctx = .ok ([], y) ∧ (truthy r.regex = true → ∃ s, w = .str s) := by
  unfold fromRegex at hx
  split at hx
  · split at hx
    · split at hx
      · split at hx
        · exact ⟨hx, fun _ => ⟨_, rfl⟩⟩
        · exact absurd hx (emit_not_clean _ _ _ _ _ _)
      · exact absurd hx (emit_not_clean _ _ _ _ _ _)
    · exact absurd hx (emit_not_clean _ _ _ _ _ _)
  · rename_i hreg
    exact ⟨hx, fun ht => absurd ht hreg⟩

theorem fromEnum_clean (h : Host) (r : Rules) (ic : Option Checker)
    (pc : Option (List (String × Checker))) (w : Val) (ctx : Ctx) (y : Val)
    (hx : fromEnum h r ic pc w ctx = .ok ([], y)) :
    fromRegex h r ic pc w ctx = .ok ([], y) := by
  unfold fromEnum at hx
  split at hx
  · split at hx
    · exact absurd hx (emit_not_clean _ _ _ _ _ _)
    · exact hx
  · exact hx

theorem fromType_clean (h : Host) (r : Rules) (ic : Option Checker)
    (pc : Option (List (String × Checker))) (w : Val) (ctx : Ctx) (y : Val)
    (hx : fromType h r ic pc w ctx = .ok ([], y)) :
    fromEnum h r ic pc w ctx = .ok ([], y)
      ∧ (typeOf r.type ≠ "undefined" →
          strictEq r.type (.str "any") = true ∨ _matchesType h r.type w = true) := by
  unfold fromType at hx
  split at hx
  · simp only [] at hx
    split at hx <;> exact absurd hx (emit_not_clean _ _ _ _ _ _)
  · rename_i hgate
    refine ⟨hx, fun hty => ?_⟩
    by_cases ha : strictEq r.type (.str "any") = true
    · exact Or.inl ha
    · by_cases hm : _matchesType h r.type w = true
      · exact Or.inr hm
      · exact absurd ⟨hty, ha, hm⟩ hgate

theorem sameKind_defined (w y : Val) (hk : SameKind w y) : y ≠ .null ∧ y ≠ .undefined := by
  rcases hk with ⟨xs, ys, _, hy, _⟩ | ⟨cls, kvs, R, _, hy⟩ <;> subst hy <;>
    exact ⟨fun e => (by cases e), fun e => (by cases e)⟩

/-- Under the container rules the rebuilt value passes the type check that the
original passed, and coercion leaves it as it is. -/
theorem container_gate (h : Host) (t : Val) (w y : Val)
    (ht : t = .undefined ∨ t = .str "any" ∨ t = .str "array" ∨ t = .str "object"
      ∨ t = .fn .jsArray ∨ t = .fn .jsObject)
    (hk : SameKind w y)
    (hg : typeOf t ≠ "undefined" →
      strictEq t (.str "any") = true ∨ _matchesType h t w = true) :
    (¬ (typeOf t ≠ "undefined" ∧ ¬ strictEq t (.str "any") = true
        ∧ ¬ _matchesType h t y = true))
      ∧ ((_coerceToType h y t).coerced = true → (_coerceToType h y t).coercedValue = y)
      ∧ ((_coerceToType h y t).coerced = false → isCorePrimitive t = false) := by
  rcases ht with ht | ht | ht | ht | ht | ht <;> subst ht
  · refine ⟨by simp [typeOf], ?_, fun _ => rfl⟩
    simp [_coerceToType, typeName, strictEq, coerceFail]
  · refine ⟨by simp [strictEq], ?_, fun _ => rfl⟩
    simp [_coerceToType, typeName, strictEq, coerceFail]
  · have hg2 := hg (by simp [typeOf])
    rcases hk with ⟨xs, ys, hw, hy, _⟩ | ⟨cls, kvs, R, hw, hy⟩ <;> subst hw <;> subst hy
    · refine ⟨by simp [_matchesType, _getType], ?_, ?_⟩ <;>
        simp [_coerceToType, typeName, strictEq, isArray]
    · simp [strictEq, _matchesType, _getType, typeOf] at hg2
  · have hg2 := hg (by simp [typeOf])
    rcases hk with ⟨xs, ys, hw, hy, _⟩ | ⟨cls, kvs, R, hw, hy⟩ <;> subst hw <;> subst hy
    · simp [strictEq, _matchesType, _getType, typeOf] at hg2
    · refine ⟨by simp [_matchesType, _getType, typeOf], ?_, ?_⟩ <;>
        simp [_coerceToType, typeName, strictEq, isArray, _isPlainObject]
  · have hg2 := hg (by simp [typeOf])
    rcases hk with ⟨xs, ys, hw, hy, _⟩ | ⟨cls, kvs, R, hw, hy⟩ <;> subst hw <;> subst hy
    · refine ⟨by simp [_matchesType, instanceOf, isArray], ?_, ?_⟩ <;>
        simp [_coerceToType, typeName, strictEq, isArray, FnRef.name]
    · simp [strictEq, _matchesType, instanceOf, isArray] at hg2
  · rcases hk with ⟨xs, ys, hw, hy, _⟩ | ⟨cls, kvs, R, hw, hy⟩ <;> subst hw <;> subst hy
    · refine ⟨by simp [_matchesType, instanceOf], ?_, fun _ => rfl⟩
      simp [_coerceToType, typeName, strictEq, isArray, FnRef.name, _isPlainObject, coerceFail]
    · refine ⟨by simp [_matchesType, instanceOf], ?_, fun _ => rfl⟩
      simp [_coerceToType, typeName, strictEq, isArray, FnRef.name, _isPlainObject]

theorem coerce_any (h : Host) (x : Val) : (_coerceToType h x (.str "any")).coerced = false := by
  simp [_coerceToType, typeName, strictEq, coerceFail]

/-- The rebuilt value of a container, given back to the checker, reaches the
structural steps: coercion, the type check, `enum`, `regex` and the bounds let
it through as they let the original through. -/
theorem container_reaches_items (h : Host) (r : Rules) (ic : Option Checker)
    (pc : Option (List (String × Checker))) (hcr : ContainerRules r) (w y : Val) (ctx : Ctx)
    (hk : SameKind w y) (y0 : Val) (hx : fromType h r ic pc w ctx = .ok ([], y0)) :
    fromCoerce h r ic pc y ctx = fromItems h r ic pc y ctx := by
  obtain ⟨hE, hg⟩ := fromType_clean h r ic pc w ctx y0 hx
  have hR := fromEnum_clean h r ic pc w ctx y0 hE
  obtain ⟨hB, hreg⟩ := fromRegex_clean h r ic pc w ctx y0 hR
  obtain ⟨hgy, hcv, hcp⟩ := container_gate h r.type w y hcr.1 hk hg
  have hb : fromBounds h r ic pc y ctx = fromItems h r ic pc y ctx := by
    rcases hk with ⟨xs, ys, hw, hy, hlen⟩ | ⟨cls, kvs, R, hw, hy⟩
    · subst hw
      subst hy
      have hn : ∀ zs : List Val, ¬ (typeOf (Val.arr zs) = "number") := by
        intro zs
        simp [typeOf]
      have ha : ∀ zs : List Val, typeOf (Val.arr zs) = "string" ∨ isArray (Val.arr zs) = true :=
        fun zs => Or.inr rfl
      have hl : lengthOf (Val.arr ys) = lengthOf (Val.arr xs) := by
        simp [lengthOf, hlen]
      unfold fromBounds at hB ⊢
      rw [if_neg (hn xs), if_pos (ha xs)] at hB
      rw [if_neg (hn ys), if_pos (ha ys), hl]
      by_cases c1 : typeOf r.min = "number" ∧ numLt (lengthOf (Val.arr xs)) r.min = true
      · rw [if_pos c1] at hB
        exact absurd hB (emit_not_clean _ _ _ _ _ _)
      · rw [if_neg c1] at hB
        rw [if_neg c1]
        by_cases c2 : typeOf r.max = "number" ∧ numLt r.max (lengthOf (Val.arr xs)) = true
        · rw [if_pos c2] at hB
          exact absurd hB (emit_not_clean _ _ _ _ _ _)
        · rw [if_neg c2]
    · subst hy
      simp [fromBounds, typeOf, isArray]
  have hr : fromRegex h r ic pc y ctx = fromBounds h r ic pc y ctx := by
    have hf : ¬ truthy r.regex = true := by
      intro ht
      obtain ⟨s, hs⟩ := hreg ht
      rcases hk with ⟨xs, ys, hw, _, _⟩ | ⟨cls, kvs, R, hw, _⟩ <;> rw [hw] at hs <;> cases hs
    unfold fromRegex
    rw [if_neg hf]
  have he : fromEnum h r ic pc y ctx = fromRegex h r ic pc y ctx := by
    unfold fromEnum
    split
    · rename_i es hes
      have := hcr.2 es hes
      subst this
      simp
    · rfl
  have ht : fromType h r ic pc y ctx = fromEnum h r ic pc y ctx := by
    unfold fromType
    rw [if_neg hgy]
  have hc : fromCoerce h r ic pc y ctx = fromType h r ic pc y ctx := by
    unfold fromCoerce
    split
    · simp only []
      cases hq : (_coerceToType h y r.type).coerced with
      | true =>
        simp only [if_true]
        rw [hcv hq]
      | false =>
        simp only [Bool.false_eq_true, if_false, hcp hq]
    · rfl
  rw [hc, ht, he, hr, hb]

/-- A clean run of the type check and the later steps returns the value it was
given, or the rebuilt container, which the checker then returns unchanged. -/
theorem fromType_rerun (h : Host) (r : Rules) (ic : Option Checker)
    (pc : Option (List (String × Checker))) (hic : ∀ c, ic = some c → Settled c)
    (hpc : ∀ props, pc = some props →
      (props.map (fun p => p.1)).Nodup ∧ ∀ p ∈ props, Settled p.2)
    (hcr : (ic.isSome = true ∨ pc.isSome = true) → ContainerRules r)
    (w : Val) (ctx : Ctx) (y : Val) (hx : fromType h r ic pc w ctx = .ok ([], y)) :
    y = w ∨ (SameKind w y ∧ fromCoerce h r ic pc y ctx = .ok ([], y)) := by
  obtain ⟨hE, _⟩ := fromType_clean h r ic pc w ctx y hx
  have hI := fromBounds_clean h r ic pc w ctx y
    (fromRegex_clean h r ic pc w ctx y (fromEnum_clean h r ic pc w ctx y hE)).1
  obtain ⟨hrun, hy | ⟨hcont, hk⟩⟩ := fromItems_rerun h r ic pc hic hpc w ctx y hI
  · exact Or.inl hy
  · refine Or.inr ⟨hk, ?_⟩
    rw [container_reaches_items h r ic pc (hcr hcont) w y ctx hk y hx]
    exact hrun

/-- A clean run of the checker steps after the `undefined` test returns a value
that the same steps return unchanged; the value is defined when the input
is. -/
theorem fromNull_rerun (h : Host) (r : Rules) (ic : Option Checker)
    (pc : Option (List (String × Checker))) (hic : ∀ c, ic = some c → Settled c)
    (hpc : ∀ props, pc = some props →
      (props.map (fun p => p.1)).Nodup ∧ ∀ p ∈ props, Settled p.2)
    (hcr : (ic.isSome = true ∨ pc.isSome = true) → ContainerRules r)
    (x : Val) (ctx : Ctx) (y : Val) (h0 : fromNull h r ic pc x ctx = .ok ([], y)) :
    fromNull h r ic pc y ctx = .ok ([], y) ∧ (x ≠ .undefined → y ≠ .undefined) := by
  have hsame : y = x →
      fromNull h r ic pc y ctx = .ok ([], y) ∧ (x ≠ .undefined → y ≠ .undefined) := by
    intro e
    subst e
    exact ⟨h0, fun hu => hu⟩
  by_cases hx : x = .null
  · subst hx
    have hy : y = .null := by
      unfold fromNull at h0
      simp only [if_true] at h0
      split at h0
      · injection h0 with h0
        injection h0 with _ h2
        exact h2.symm
      · exact absurd h0 (emit_not_clean _ _ _ _ _ _)
    exact hsame hy
  · have h1 := h0
    rw [fromNull_nonnull h r ic pc x ctx hx] at h1
    by_cases hsc : ∃ f, r.validator = .fn f ∧ typeOf r.type = "undefined"
    · obtain ⟨f, hf, ht⟩ := hsc
      unfold fromValidatorOnly at h1
      rw [hf] at h1
      simp only [ht, if_true] at h1
      rcases runValidator_value h r f [] x ctx.path with ⟨es2, h2⟩ | ⟨es2, h2⟩
      · rw [h2] at h1
        injection h1 with h1
        injection h1 with _ h3
        exact hsame h3.symm
      · rw [h2] at h1
        cases h1
    · have hvo : ∀ v, fromValidatorOnly h r ic pc v ctx = fromCoerce h r ic pc v ctx := by
        intro v
        unfold fromValidatorOnly
        split
        · rename_i f hf
          rw [if_neg (fun ht => hsc ⟨f, hf, ht⟩)]
        · rfl
      rw [hvo] at h1
      have hkind : ∀ w, SameKind w y → fromCoerce h r ic pc y ctx = .ok ([], y) →
          fromNull h r ic pc y ctx = .ok ([], y) ∧ (x ≠ .undefined → y ≠ .undefined) := by
        intro w hk hrun
        obtain ⟨hnn, hnu⟩ := sameKind_defined w y hk
        rw [fromNull_nonnull h r ic pc y ctx hnn, hvo]
        exact ⟨hrun, fun _ => hnu⟩
      unfold fromCoerce at h1
      by_cases hact : (r.coerceField = true ∨ ctx.options.coerceTypes = true)
          ∧ typeOf r.type ≠ "undefined"
      · rw [if_pos hact] at h1
        simp only [] at h1
        by_cases hc : (_coerceToType h x r.type).coerced = true
        · rw [if_pos hc] at h1
          rcases fromType_rerun h r ic pc hic hpc hcr _ ctx y h1 with hy | ⟨hk, hrun⟩
          · obtain ⟨_, hgate⟩ := fromType_clean h r ic pc _ ctx y h1
            have hm : _matchesType h r.type (_coerceToType h x r.type).coercedValue = true := by
              rcases hgate hact.2 with ha | hm
              · have hty : r.type = .str "any" := by
                  cases hr : r.type <;> rw [hr] at ha <;> simp [strictEq] at ha
                  rw [ha]
                rw [hty, coerce_any] at hc
                cases hc
              · exact hm
            obtain ⟨hidem, hnn, hnu⟩ := coerce_idem h x r.type _ rfl hc hm hx
            rw [hy]
            rw [hy] at h1
            rw [fromNull_nonnull h r ic pc _ ctx hnn, hvo]
            refine ⟨?_, hnu⟩
            unfold fromCoerce
            rw [if_pos hact]
            simp only [hidem, if_true]
            exact h1
          · exact hkind _ hk hrun
        · rw [if_neg hc] at h1
          split at h1
          · exact absurd h1 (emit_not_clean _ _ _ _ _ _)
          · rcases fromType_rerun h r ic pc hic hpc hcr _ ctx y h1 with hy | ⟨hk, hrun⟩
            · exact hsame hy
            · exact hkind _ hk hrun
      · rw [if_neg hact] at h1
        rcases fromType_rerun h r ic pc hic hpc hcr _ ctx y h1 with hy | ⟨hk, hrun⟩
        · exact hsame hy
        · exact hkind _ hk hrun

/-- The checker of a descriptor settles when its items checker and its property
checkers do, the property keys are distinct, and, if it has items or
properties, its rules are container rules. -/
theorem checker_settled (h : Host) (r : Rules) (ic : Option Checker)
    (pc : Option (List (String × Checker))) (hic : ∀ c, ic = some c → Settled c)
    (hpc : ∀ props, pc = some props →
      (props.map (fun p => p.1)).Nodup ∧ ∀ p ∈ props, Settled p.2)
    (hcr : (ic.isSome = true ∨ pc.isSome = true) → ContainerRules r) :
    Settled (checker h r ic pc) := by
  intro v ctx y hrun
  have hfin : ∀ d, fromNull h r ic pc d ctx = .ok ([], y) → (v = .undefined) →
      checker h r ic pc y ctx = .ok ([], y) := by
    intro d hd hv
    by_cases hy : y = .undefined
    · rw [hy]
      rw [hy, hv] at hrun
      exact hrun
    · rw [checker_present h r ic pc y ctx hy]
      exact (fromNull_rerun h r ic pc hic hpc hcr d ctx y hd).1
  by_cases hv : v = .undefined
  · refine ⟨?_, fun hne => absurd (by rw [hv]; rfl) hne⟩
    have hrun2 := hrun
    rw [hv] at hrun2
    unfold checker at hrun2
    simp only [typeOf, if_true] at hrun2
    split at hrun2
    · split at hrun2
      · split at hrun2
        · exact hfin _ hrun2 hv
        · cases hrun2
      · exact hfin _ hrun2 hv
    · split at hrun2
      · exact absurd hrun2 (emit_not_clean _ _ _ _ _ _)
      · injection hrun2 with hrun2
        injection hrun2 with _ h2
        rw [← h2]
        rw [← h2, hv] at hrun
        exact hrun
  · rw [checker_present h r ic pc v ctx hv] at hrun
    obtain ⟨h1, h2⟩ := fromNull_rerun h r ic pc hic hpc hcr v ctx y hrun
    have hy : y ≠ .undefined := h2 hv
    rw [checker_present h r ic pc y ctx hy]
    exact ⟨h1, fun _ hc => hy ((typeOf_eq_undefined y).mp hc)⟩

theorem containerRulesOk_sound (r : Rules) (hr : containerRulesOk r = true) : ContainerRules r := by
  unfold containerRulesOk at hr
  simp only [Bool.and_eq_true, Bool.or_eq_true, decide_eq_true_eq] at hr
  refine ⟨?_, ?_⟩
  · rcases hr.1 with ((((h1 | h1) | h1) | h1) | h1) | h1
    · exact Or.inl h1
    · exact Or.inr (Or.inl h1)
    · exact Or.inr (Or.inr (Or.inl h1))
    · exact Or.inr (Or.inr (Or.inr (Or.inl h1)))
    · exact Or.inr (Or.inr (Or.inr (Or.inr (Or.inl h1))))
    · exact Or.inr (Or.inr (Or.inr (Or.inr (Or.inr h1))))
  · intro es hes
    have h2 := hr.2
    rw [hes] at h2
    cases es with
    | nil => rfl
    | cons a t => simp at h2

theorem makeItems_some (h : Host) :
    ∀ (kvs : List (String × Val)) (c : Checker), makeItems h kvs = .ok (some c) →
      truthy (lookupKey "items" kvs) = true
  | [], c, hm => by simp [makeItems] at hm
  | (k, v) :: rest, c, hm => by
    unfold makeItems at hm
    by_cases hk : k = "items"
    · rw [if_pos hk] at hm
      by_cases ht : truthy v = true
      · simp [lookupKey, hk, ht]
      · rw [if_neg ht] at hm
        cases hm
    · rw [if_neg hk] at hm
      simp only [lookupKey, hk, if_false]
      exact makeItems_some h rest c hm

theorem makeProperties_some (h : Host) :
    ∀ (kvs : List (String × Val)) (ps : List (String × Checker)),
      makeProperties h kvs = .ok (some ps) → truthy (lookupKey "properties" kvs) = true
  | [], ps, hm => by simp [makeProperties] at hm
  | (k, v) :: rest, ps, hm => by
    unfold makeProperties at hm
    by_cases hk : k = "properties"
    · rw [if_pos hk] at hm
      by_cases ht : truthy v = true
      · simp [lookupKey, hk, ht]
      · rw [if_neg ht] at hm
        cases hm
    · rw [if_neg hk] at hm
      simp only [lookupKey, hk, if_false]
      exact makeProperties_some h rest ps hm

theorem leaf_settled (h : Host) (r : Rules) : Settled (checker h r none none) :=
  checker_settled h r none none (fun c hc => by cases hc) (fun p hp => by cases hp)
    (fun hcont => by simp at hcont)

theorem leafProps_settled (h : Host) (w : Val) (hn : (objectKeys w).Nodup) :
    (((objectKeys w).map (fun pk =>
        (pk, checker h (readRules (getProp w pk)) none none))).map (fun p => p.1)).Nodup
      ∧ ∀ p ∈ (objectKeys w).map (fun pk =>
          (pk, checker h (readRules (getProp w pk)) none none)), Settled p.2 := by
  refine ⟨?_, ?_⟩
  · rw [List.map_map]
    have : ((fun (p : String × Checker) => p.1) ∘ fun pk =>
        (pk, checker h (readRules (getProp w pk)) none none)) = id := rfl
    rw [this, List.map_id]
    exact hn
  · intro p hp
    rw [List.mem_map] at hp
    obtain ⟨pk, _, he⟩ := hp
    rw [← he]
    exact leaf_settled h _

mutual
theorem makeChecker_settled (h : Host) :
    ∀ (e : Val), stableDescriptor e = true → ∀ c, makeChecker h e = .ok c → Settled c
  | .undefined, _, c, hm => by simp [makeChecker] at hm
  | .null, _, c, hm => by simp [makeChecker] at hm
  | .obj cls kvs, hs, c, hm => by
    simp only [stableDescriptor, Bool.and_eq_true, Bool.or_eq_true, Bool.not_eq_true'] at hs
    unfold makeChecker at hm
    cases hi : makeItems h kvs with
    | error e =>
      rw [hi] at hm
      cases hm
    | ok ic =>
      rw [hi] at hm
      simp only [] at hm
      cases hp : makeProperties h kvs with
      | error e =>
        rw [hp] at hm
        cases hm
      | ok pc =>
        rw [hp] at hm
        simp only [] at hm
        injection hm with hm
        rw [← hm]
        refine checker_settled h _ ic pc
          (fun c2 hc2 => makeItems_settled h kvs hs.1.1 ic hi c2 hc2)
          (fun props hpr => makeProperties_settled h kvs hs.1.2 pc hp props hpr)
          (fun hcont => ?_)
        apply containerRulesOk_sound
        rcases hs.2 with hno | hok
        · exfalso
          have hno2 : truthy (lookupKey "items" kvs) = false
              ∧ truthy (lookupKey "properties" kvs) = false := by
            simpa using hno
          rcases hcont with hc1 | hc1
          · cases ic with
            | none => cases hc1
            | some c2 =>
              rw [makeItems_some h kvs c2 hi] at hno2
              cases hno2.1
          · cases pc with
            | none => cases hc1
            | some ps =>
              rw [makeProperties_some h kvs ps hp] at hno2
              cases hno2.2
        · exact hok
  | .bool b, _, c, hm => by
    simp only [makeChecker] at hm
    injection hm with hm
    rw [← hm]
    exact leaf_settled h _
  | .num n, _, c, hm => by
    simp only [makeChecker] at hm
    injection hm with hm
    rw [← hm]
    exact leaf_settled h _
  | .nan, _, c, hm => by
    simp only [makeChecker] at hm
    injection hm with hm
    rw [← hm]
    exact leaf_settled h _
  | .str t, _, c, hm => by
    simp only [makeChecker] at hm
    injection hm with hm
    rw [← hm]
    exact leaf_settled h _
  | .bigint n, _, c, hm => by
    simp only [makeChecker] at hm
    injection hm with hm
    rw [← hm]
    exact leaf_settled h _
  | .symbol t, _, c, hm => by
    simp only [makeChecker] at hm
    injection hm with hm
    rw [← hm]
    exact leaf_settled h _
  | .fn f, _, c, hm => by
    simp only [makeChecker] at hm
    injection hm with hm
    rw [← hm]
    exact leaf_settled h _
  | .arr xs, _, c, hm => by
    simp only [makeChecker] at hm
    injection hm with hm
    rw [← hm]
    exact leaf_settled h _
theorem makeItems_settled (h : Host) :
    ∀ (kvs : List (String × Val)), stableItems kvs = true →
      ∀ ic, makeItems h kvs = .ok ic → ∀ c, ic = some c → Settled c
  | [], _, ic, hm, c, hc => by
    simp only [makeItems] at hm
    injection hm with hm
    rw [← hm] at hc
    cases hc
  | (k, v) :: rest, hs, ic, hm, c, hc => by
    unfold stableItems at hs
    unfold makeItems at hm
    by_cases hk : k = "items"
    · rw [if_pos hk] at hs hm
      by_cases ht : truthy v = true
      · rw [if_pos ht] at hs hm
        cases hmc : makeChecker h v with
        | error e =>
          rw [hmc] at hm
          cases hm
        | ok c0 =>
          rw [hmc] at hm
          simp only [] at hm
          injection hm with hm
          rw [← hm] at hc
          injection hc with hc
          rw [← hc]
          exact makeChecker_settled h v hs c0 hmc
      · rw [if_neg ht] at hm
        injection hm with hm
        rw [← hm] at hc
        cases hc
    · rw [if_neg hk] at hs hm
      exact makeItems_settled h rest hs ic hm c hc
theorem makeProperties_settled (h : Host) :
    ∀ (kvs : List (String × Val)), stableProperties kvs = true →
      ∀ pc, makeProperties h kvs = .ok pc → ∀ props, pc = some props →
        (props.map (fun p => p.1)).Nodup ∧ ∀ p ∈ props, Settled p.2
  | [], _, pc, hm, props, hc => by
    simp only [makeProperties] at hm
    injection hm with hm
    rw [← hm] at hc
    cases hc
  | (k, .obj cls pkvs) :: rest, hs, pc, hm, props, hc => by
    unfold stableProperties at hs
    unfold makeProperties at hm
    by_cases hk : k = "properties"
    · rw [if_pos hk] at hs hm
      by_cases ht : truthy (Val.obj cls pkvs) = true
      · rw [if_pos ht] at hs hm
        simp only [Bool.and_eq_true, decide_eq_true_eq] at hs
        simp only [] at hm
        cases hmc : makePropsOfEntries h pkvs with
        | error e =>
          rw [hmc] at hm
          cases hm
        | ok ps =>
          rw [hmc] at hm
          simp only [] at hm
          injection hm with hm
          rw [← hm] at hc
          injection hc with hc
          rw [← hc]
          obtain ⟨hkeys, hset⟩ := makePropsOfEntries_settled h pkvs hs.2 ps hmc
          refine ⟨?_, hset⟩
          rw [hkeys]
          exact hs.1
      · rw [if_neg ht] at hm
        injection hm with hm
        rw [← hm] at hc
        cases hc
    · rw [if_neg hk] at hs hm
      exact makeProperties_settled h rest hs pc hm props hc
  | (k, .arr xs) :: rest, hs, pc, hm, props, hc => by
    unfold stableProperties at hs
    unfold makeProperties at hm
    by_cases hk : k = "properties"
    · rw [if_pos hk] at hs hm
      by_cases ht : truthy (Val.arr xs) = true
      · rw [if_pos ht] at hs hm
        simp only [Bool.and_eq_true, decide_eq_true_eq] at hs
        simp only [] at hm
        cases hmc : makePropsOfArray h xs 0 with
        | error e =>
          rw [hmc] at hm
          cases hm
        | ok ps =>
          rw [hmc] at hm
          simp only [] at hm
          injection hm with hm
          rw [← hm] at hc
          injection hc with hc
          rw [← hc]
          obtain ⟨hkeys, hset⟩ := makePropsOfArray_settled h xs 0 hs.2 ps hmc
          refine ⟨?_, hset⟩
          rw [hkeys, ← List.range_eq_range']
          exact hs.1
      · rw [if_neg ht] at hm
        injection hm with hm
        rw [← hm] at hc
        cases hc
    · rw [if_neg hk] at hs hm
      exact makeProperties_settled h rest hs pc hm props hc
  | (k, .undefined) :: rest, hs, pc, hm, props, hc => by
    unfold stableProperties at hs
    unfold makeProperties at hm
    by_cases hk : k = "properties"
    · rw [if_pos hk] at hs hm
      by_cases ht : truthy (Val.undefined : Val) = true
      · rw [if_pos ht] at hs hm
        simp only [Bool.and_eq_true, decide_eq_true_eq] at hs
        simp only [] at hm
        injection hm with hm
        rw [← hm] at hc
        injection hc with hc
        rw [← hc]
        exact leafProps_settled h _ hs.1
      · rw [if_neg ht] at hm
        injection hm with hm
        rw [← hm] at hc
        cases hc
    · rw [if_neg hk] at hs hm
      exact makeProperties_settled h rest hs pc hm props hc
  | (k, .null) :: rest, hs, pc, hm, props, hc => by
    unfold stableProperties at hs
    unfold makeProperties at hm
    by_cases hk : k = "properties"
    · rw [if_pos hk] at hs hm
      by_cases ht : truthy (Val.null : Val) = true
      · rw [if_pos ht] at hs hm
        simp only [Bool.and_eq_true, decide_eq_true_eq] at hs
        simp only [] at hm
        injection hm with hm
        rw [← hm] at hc
        injection hc with hc
        rw [← hc]
        exact leafProps_settled h _ hs.1
      · rw [if_neg ht] at hm
        injection hm with hm
        rw [← hm] at hc
        cases hc
    · rw [if_neg hk] at hs hm
      exact makeProperties_settled h rest hs pc hm props hc
  | (k, .bool b) :: rest, hs, pc, hm, props, hc => by
    unfold stableProperties at hs
    unfold makeProperties at hm
    by_cases hk : k = "properties"
    · rw [if_pos hk] at hs hm
      by_cases ht : truthy (Val.bool b : Val) = true
      · rw [if_pos ht] at hs hm
        simp only [Bool.and_eq_true, decide_eq_true_eq] at hs
        simp only [] at hm
        injection hm with hm
        rw [← hm] at hc
        injection hc with hc
        rw [← hc]
        exact leafProps_settled h _ hs.1
      · rw [if_neg ht] at hm
        injection hm with hm
        rw [← hm] at hc
        cases hc
    · rw [if_neg hk] at hs hm
      exact makeProperties_settled h rest hs pc hm props hc
  | (k, .num n) :: rest, hs, pc, hm, props, hc => by
    unfold stableProperties at hs
    unfold makeProperties at hm
    by_cases hk : k = "properties"
    · rw [if_pos hk] at hs hm
      by_cases ht : truthy (Val.num n : Val) = true
      · rw [if_pos ht] at hs hm
        simp only [Bool.and_eq_true, decide_eq_true_eq] at hs
        simp only [] at hm
        injection hm with hm
        rw [← hm] at hc
        injection hc with hc
        rw [← hc]
        exact leafProps_settled h _ hs.1
      · rw [if_neg ht] at hm
        injection hm with hm
        rw [← hm] at hc
        cases hc
    · rw [if_neg hk] at hs hm
      exact makeProperties_settled h rest hs pc hm props hc
  | (k, .nan) :: rest, hs, pc, hm, props, hc => by
    unfold stableProperties at hs
    unfold makeProperties at hm
    by_cases hk : k = "properties"
    · rw [if_pos hk] at hs hm
      by_cases ht : truthy (Val.nan : Val) = true
      · rw [if_pos ht] at hs hm
        simp only [Bool.and_eq_true, decide_eq_true_eq] at hs
        simp only [] at hm
        injection hm with hm
        rw [← hm] at hc
        injection hc with hc
        rw [← hc]
        exact leafProps_settled h _ hs.1
      · rw [if_neg ht] at hm
        injection hm with hm
        rw [← hm] at hc
        cases hc
    · rw [if_neg hk] at hs hm
      exact makeProperties_settled h rest hs pc hm props hc
  | (k, .str t) :: rest, hs, pc, hm, props, hc => by
    unfold stableProperties at hs
    unfold makeProperties at hm
    by_cases hk : k = "properties"
    · rw [if_pos hk] at hs hm
      by_cases ht : truthy (Val.str t : Val) = true
      · rw [if_pos ht] at hs hm
        simp only [Bool.and_eq_true, decide_eq_true_eq] at hs
        simp only [] at hm
        injection hm with hm
        rw [← hm] at hc
        injection hc with hc
        rw [← hc]
        exact leafProps_settled h _ hs.1
      · rw [if_neg ht] at hm
        injection hm with hm
        rw [← hm] at hc
        cases hc
    · rw [if_neg hk] at hs hm
      exact makeProperties_settled h rest hs pc hm props hc
  | (k, .bigint n) :: rest, hs, pc, hm, props, hc => by
    unfold stableProperties at hs
    unfold makeProperties at hm
    by_cases hk : k = "properties"
    · rw [if_pos hk] at hs hm
      by_cases ht : truthy (Val.bigint n : Val) = true
      · rw [if_pos ht] at hs hm
        simp only [Bool.and_eq_true, decide_eq_true_eq] at hs
        simp only [] at hm
        injection hm with hm
        rw [← hm] at hc
        injection hc with hc
        rw [← hc]
        exact leafProps_settled h _ hs.1
      · rw [if_neg ht] at hm
        injection hm with hm
        rw [← hm] at hc
        cases hc
    · rw [if_neg hk] at hs hm
      exact makeProperties_settled h rest hs pc hm props hc
  | (k, .symbol t) :: rest, hs, pc, hm, props, hc => by
    unfold stableProperties at hs
    unfold makeProperties at hm
    by_cases hk : k = "properties"
    · rw [if_pos hk] at hs hm
      by_cases ht : truthy (Val.symbol t : Val) = true
      · rw [if_pos ht] at hs hm
        simp only [Bool.and_eq_true, decide_eq_true_eq] at hs
        simp only [] at hm
        injection hm with hm
        rw [← hm] at hc
        injection hc with hc
        rw [← hc]
        exact leafProps_settled h _ hs.1
      · rw [if_neg ht] at hm
        injection hm with hm
        rw [← hm] at hc
        cases hc
    · rw [if_neg hk] at hs hm
      exact makeProperties_settled h rest hs pc hm props hc
  | (k, .fn f) :: rest, hs, pc, hm, props, hc => by
    unfold stableProperties at hs
    unfold makeProperties at hm
    by_cases hk : k = "properties"
    · rw [if_pos hk] at hs hm
      by_cases ht : truthy (Val.fn f : Val) = true
      · rw [if_pos ht] at hs hm
        simp only [Bool.and_eq_true, decide_eq_true_eq] at hs
        simp only [] at hm
        injection hm with hm
        rw [← hm] at hc
        injection hc with hc
        rw [← hc]
        exact leafProps_settled h _ hs.1
      · rw [if_neg ht] at hm
        injection hm with hm
        rw [← hm] at hc
        cases hc
    · rw [if_neg hk] at hs hm
      exact makeProperties_settled h rest hs pc hm props hc
theorem makePropsOfEntries_settled (h : Host) :
    ∀ (pkvs : List (String × Val)), stablePropEntries pkvs = true →
      ∀ ps, makePropsOfEntries h pkvs = .ok ps →
        ps.map (fun p => p.1) = pkvs.map (fun kv => kv.1) ∧ ∀ p ∈ ps, Settled p.2
  | [], _, ps, hm => by
    simp only [makePropsOfEntries] at hm
    injection hm with hm
    rw [← hm]
    exact ⟨rfl, fun p hp => by cases hp⟩
  | (pk, v) :: rest, hs, ps, hm => by
    simp only [stablePropEntries, Bool.and_eq_true] at hs
    unfold makePropsOfEntries at hm
    cases hmc : makeChecker h v with
    | error e =>
      rw [hmc] at hm
      cases hm
    | ok c =>
      rw [hmc] at hm
      simp only [] at hm
      cases hmr : makePropsOfEntries h rest with
      | error e =>
        rw [hmr] at hm
        cases hm
      | ok cs =>
        rw [hmr] at hm
        simp only [] at hm
        injection hm with hm
        rw [← hm]
        obtain ⟨hkeys, hset⟩ := makePropsOfEntries_settled h rest hs.2 cs hmr
        refine ⟨by simp [hkeys], fun p hp => ?_⟩
        rcases List.mem_cons.mp hp with h1 | h1
        · rw [h1]
          exact makeChecker_settled h v hs.1 c hmc
        · exact hset p h1
theorem makePropsOfArray_settled (h : Host) :
    ∀ (xs : List Val) (i : Nat), stablePropList xs = true →
      ∀ ps, makePropsOfArray h xs i = .ok ps →
        ps.map (fun p => p.1) = (List.range' i xs.length).map (fun j => toString j)
          ∧ ∀ p ∈ ps, Settled p.2
  | [], i, _, ps, hm => by
    simp only [makePropsOfArray] at hm
    injection hm with hm
    rw [← hm]
    exact ⟨rfl, fun p hp => by cases hp⟩
  | v :: rest, i, hs, ps, hm => by
    simp only [stablePropList, Bool.and_eq_true] at hs
    unfold makePropsOfArray at hm
    cases hmc : makeChecker h v with
    | error e =>
      rw [hmc] at hm
      cases hm
    | ok c =>
      rw [hmc] at hm
      simp only [] at hm
      cases hmr : makePropsOfArray h rest (i + 1) with
      | error e =>
        rw [hmr] at hm
        cases hm
      | ok cs =>
        rw [hmr] at hm
        simp only [] at hm
        injection hm with hm
        rw [← hm]
        obtain ⟨hkeys, hset⟩ := makePropsOfArray_settled h rest (i + 1) hs.2 cs hmr
        refine ⟨by simp [hkeys, List.range'], fun p hp => ?_⟩
        rcases List.mem_cons.mp hp with h1 | h1
        · rw [h1]
          exact makeChecker_settled h v hs.1 c hmc
        · exact hset p h1
end

theorem failingChecker_settled (reason code : String) (raw : Val) :
    Settled (failingChecker reason code raw) := by
  intro v ctx y hx
  simp [failingChecker] at hx

theorem refCheckerOf_settled (h : Host) (s : Schema) (name : Val) (kind : String) (raw : Val)
    (hst : ∀ n, normalizeEntry h s.options.maxRegexLength raw (toStringJS h name)
        (toStringJS h name) = .ok n → stableDescriptor n = true) :
    Settled (refCheckerOf h s name kind raw) := by
  unfold refCheckerOf
  cases hn : normalizeEntry h s.options.maxRegexLength raw (toStringJS h name)
      (toStringJS h name) with
  | error e => exact failingChecker_settled _ _ _
  | ok n =>
    simp only []
    cases hm : makeChecker h n with
    | error e => exact failingChecker_settled _ _ _
    | ok c => exact makeChecker_settled h n (hst n hn) c hm

theorem resolveRefChecker_settled (h : Host) (s : Schema) (name : Val)
    (hst : ∀ raw n, resolvedDefinition h s name = some raw →
      normalizeEntry h s.options.maxRegexLength raw (toStringJS h name) (toStringJS h name)
        = .ok n → stableDescriptor n = true) :
    Settled (_resolveRefChecker h s name) := by
  unfold _resolveRefChecker
  unfold resolvedDefinition at hst
  by_cases h1 : hasKey (toStringJS h name) s.externalRefs = true
  · rw [if_pos h1] at hst ⊢
    exact refCheckerOf_settled h s name _ _ (fun n hn => hst _ n rfl hn)
  · rw [if_neg h1] at hst ⊢
    by_cases h2 : hasKey (toStringJS h name) s.localDefs = true
    · rw [if_pos h2] at hst ⊢
      exact refCheckerOf_settled h s name _ _ (fun n hn => hst _ n rfl hn)
    · rw [if_neg h2] at hst ⊢
      by_cases h3 : typeOf (_getByPath h s.rawSchema name) ≠ "undefined"
      · rw [if_pos h3] at hst ⊢
        exact refCheckerOf_settled h s name _ _ (fun n hn => hst _ n rfl hn)
      · rw [if_neg h3]
        exact failingChecker_settled _ _ _

/-- Every checker that `validate` runs for a field of a stable instance, when no
rule overrides the field, settles. -/
theorem selected_settled (h : Host) (s : Schema) (hc : CompiledFromEntries h s)
    (hst : StableSchema h s) (f : Field) (hf : f ∈ s.fields) (c : Checker)
    (hsel : selectChecker h s [] f = .ok c) : Settled c := by
  unfold selectChecker at hsel
  simp only [hasKey, Bool.false_eq_true, if_false] at hsel
  cases hq : f.checker with
  | compiled c0 =>
    rw [hq] at hsel
    injection hsel with hsel
    rw [← hsel]
    exact makeChecker_settled h f.entry (hst.2.1 f hf c0 hq) c0 (hc f hf c0 hq)
  | lazyRef name =>
    rw [hq] at hsel
    injection hsel with hsel
    rw [← hsel]
    exact resolveRefChecker_settled h s name (hst.2.2 f hf name hq)

theorem valid_result_not_valueOnly (h : Host) (s : Schema) (obj : List (String × Val))
    (callOptions : OptionsPatch) (es : List Err) (val : Val)
    (hx : validate h s obj callOptions = .ok (.result true es val)) :
    (assignOptions s.options callOptions).valueOnly = false := by
  unfold validate at hx
  cases hfl : fieldLoop h s obj (assignOptions s.options callOptions)
      (_evaluateConditionals h s (.obj .plain obj)) s.fields [] [] with
  | stop res =>
    rw [hfl] at hx
    simp only [] at hx
    subst hx
    obtain ⟨hfalse, _, _⟩ := fieldLoop_stop_invalid _ _ _ _ _ _ _ _ _ _ _ hfl
    cases hfalse
  | go E R1 =>
    rw [hfl] at hx
    simp only [] at hx
    cases hun : unknownKeys s (assignOptions s.options callOptions) obj E R1 with
    | stop res =>
      rw [hun] at hx
      simp only [] at hx
      subst hx
      obtain ⟨hfalse, _, _⟩ := unknownKeys_stop_invalid _ _ _ _ _ _ _ _ hun
      cases hfalse
    | go E2 R2 =>
      rw [hun] at hx
      simp only [] at hx
      unfold finish at hx
      cases hv : (assignOptions s.options callOptions).valueOnly with
      | false => rfl
      | true =>
        rw [hv] at hx
        simp at hx

set_option maxHeartbeats 4000000 in
/-- With `removeEmpty` the value `{}` returned for `{ a: '' }` is rejected. -/
theorem removeEmpty_value_rejected :
    validateAgain exampleHost exampleEngine requiredTextSchema { removeEmpty := some true } []
        [("a", .str "")]
      = .ok (.ok (.result true [] (.obj .plain [])),
          some (.ok (.result false
            [{ path := "a", message := "Invalid a field. is required"
               code := "ERR_REQUIRED", rawError := .null }]
            (.obj .plain [])))) := by
  decide

set_option maxHeartbeats 4000000 in
/-- The input `{ n: '5', m: 1 }` is accepted under the rule on `n`. -/
theorem rule_value_accepted :
    validateWithRules exampleHost twoNumbersSchema {} [retypeRule]
        [("n", .str "5"), ("m", .num 1)] {}
      = .ok (.result true [] (.obj .plain [("n", .num 5), ("m", .num 1)])) := by
  decide

set_option maxHeartbeats 4000000 in
/-- The value `{ n: 5, m: 1 }` is rejected under the rule on `n`. -/
theorem rule_value_rejected :
    validateWithRules exampleHost twoNumbersSchema {} [retypeRule]
        [("n", .num 5), ("m", .num 1)] {}
      = .ok (.result false
          [{ path := "m"
             message := "Invalid m field. expected type string, received number"
             code := "ERR_TYPE", rawError := .null }]
          (.obj .plain [("n", .num 5), ("m", .num 1)])) := by
  decide

set_option maxHeartbeats 4000000 in
/-- The value returned under the pattern `/a/g` is rejected. -/
theorem stateful_pattern_value_rejected :
    validateAgain globalHost exampleEngine globalPatternSchema {} [] [("a", .str "a")]
      = .ok (.ok (.result true [] (.obj .plain [("a", .str "a")])),
          some (.ok (.result false
            [{ path := "a"
               message := "Invalid a field. String should follow regex pattern /a/g"
               code := "ERR_REGEX", rawError := .null }]
            (.obj .plain [("a", .str "a")])))) := by
  decide

set_option maxHeartbeats 4000000 in
/-- The plain object rebuilt from a `Date` is rejected by the type `'date'`. -/
theorem date_container_value_rejected :
    validateAgain exampleHost exampleEngine dateWithPropertiesSchema {} []
        [("d", .obj .date [])]
      = .ok (.ok (.result true [] (.obj .plain [("d", .obj .plain [])])),
          some (.ok (.result false
            [{ path := "d"
               message := "Invalid d field. expected type date, received object"
               code := "ERR_TYPE", rawError := .null }]
            (.obj .plain [("d", .obj .plain [])])))) := by
  decide

set_option maxHeartbeats 4000000 in
/-- The array rebuilt from `['1']` is rejected by the predicate in `enum`. -/
theorem enum_container_value_rejected :
    validateAgain rawHost exampleEngine rawEnumSchema {} [] [("a", .arr [.str "1"])]
      = .ok (.ok (.result true [] (.obj .plain [("a", .arr [.num 1])])),
          some (.ok (.result false
            [{ path := "a"
               message := "Invalid a field. must be one of [<fn:isRaw>]"
               code := "ERR_ENUM", rawError := .null }]
            (.obj .plain [("a", .arr [.num 1])])))) := by
  decide

/-- Counterexample for C32: five valid runs whose value the same instance
rejects (the second of them as two calls of the state-free `validate`, the
schema holding no pattern).  With `removeEmpty` the schema `{ a: { type: 'string', required: true } }`
accepts `{ a: '' }` and returns `{}`, which it rejects with `ERR_REQUIRED`.  With the
rule `when('n').is(5).do({ m: { type: 'string' } })` the schema
`{ n: { type: 'number', coerce: true }, m: 'number' }` accepts `{ n: '5', m: 1 }` and
returns `{ n: 5, m: 1 }`, which it rejects with `ERR_TYPE`.  The schema
`{ a: { type: 'string', regex: /a/g } }` accepts `{ a: 'a' }` and returns it, and
rejects it with `ERR_REGEX` (the pattern was left at index `1`).  The schema
`{ d: { type: 'date', properties: {} } }` accepts a `Date` and returns `{ d: {} }`,
which it rejects with `ERR_TYPE`.  The schema
`{ a: { type: 'array', enum: [isRaw], items: { type: 'number', coerce: true } } }`
accepts `{ a: ['1'] }` and returns `{ a: [1] }`, which it rejects with `ERR_ENUM`. -/
theorem revalidate_fails_counterexample :
    validateAgain exampleHost exampleEngine requiredTextSchema { removeEmpty := some true } []
        [("a", .str "")]
      = .ok (.ok (.result true [] (.obj .plain [])),
          some (.ok (.result false
            [{ path := "a", message := "Invalid a field. is required"
               code := "ERR_REQUIRED", rawError := .null }]
            (.obj .plain []))))
    ∧ validateWithRules exampleHost twoNumbersSchema {} [retypeRule]
        [("n", .str "5"), ("m", .num 1)] {}
      = .ok (.result true [] (.obj .plain [("n", .num 5), ("m", .num 1)]))
    ∧ validateWithRules exampleHost twoNumbersSchema {} [retypeRule]
        [("n", .num 5), ("m", .num 1)] {}
      = .ok (.result false
          [{ path := "m"
             message := "Invalid m field. expected type string, received number"
             code := "ERR_TYPE", rawError := .null }]
          (.obj .plain [("n", .num 5), ("m", .num 1)]))
    ∧ validateAgain globalHost exampleEngine globalPatternSchema {} [] [("a", .str "a")]
      = .ok (.ok (.result true [] (.obj .plain [("a", .str "a")])),
          some (.ok (.result false
            [{ path := "a"
               message := "Invalid a field. String should follow regex pattern /a/g"
               code := "ERR_REGEX", rawError := .null }]
            (.obj .plain [("a", .str "a")]))))
    ∧ validateAgain exampleHost exampleEngine dateWithPropertiesSchema {} []
        [("d", .obj .date [])]
      = .ok (.ok (.result true [] (.obj .plain [("d", .obj .plain [])])),
          some (.ok (.result false
            [{ path := "d"
               message := "Invalid d field. expected type date, received object"
               code := "ERR_TYPE", rawError := .null }]
            (.obj .plain [("d", .obj .plain [])]))))
    ∧ validateAgain rawHost exampleEngine rawEnumSchema {} [] [("a", .arr [.str "1"])]
      = .ok (.ok (.result true [] (.obj .plain [("a", .arr [.num 1])])),
          some (.ok (.result false
            [{ path := "a"
               message := "Invalid a field. must be one of [<fn:isRaw>]"
               code := "ERR_ENUM", rawError := .null }]
            (.obj .plain [("a", .arr [.num 1])])))) :=
  ⟨removeEmpty_value_rejected, rule_value_accepted, rule_value_rejected,
    stateful_pattern_value_rejected, date_container_value_rejected, enum_container_value_rejected⟩

/-- C32 (amended): validating a normalised value again succeeds when the instance
is stable, has no stateful pattern and no conditional rule, and `removeEmpty`
is off.  Let no `RegExp` held by the instance have the global or
sticky flag; let the compiled checkers of its fields be those of their
descriptors, as the constructor builds them; let the instance be stable: the
field keys are distinct, and in every descriptor of a field, and in every
descriptor that the definition of a reference field normalises to, each level
with `items` or `properties` has a declared type that is absent, `'any'`,
`'array'`, `'object'`, `Array` or `Object`, no non-empty `enum`, and distinct
property keys; let no conditional rule be registered.  Then for all call
options whose merge with the instance options has `removeEmpty` off, every
input and every state of the patterns: if `validate` returns a result record
with `valid: true` (so `valueOnly` is off), its `errors` are empty, it has written to no pattern, its `value` is an object, and
`validate` on that object under the same options, from any state of the
patterns, returns `valid: true`, no error at all (so no `ERR_TYPE` and no
`ERR_COERCE`) and the same `value`, again writing to no pattern.  Fields with
`items`, with `properties` and with `$ref` are covered at every depth. -/
theorem revalidate_stable (h : Host) (eng : Engine) (s : Schema) (callOptions : OptionsPatch)
    (hs : StatelessPatterns s) (hc : CompiledFromEntries h s) (hst : StableSchema h s)
    (hcond : s.conditionals = [])
    (hre : (assignOptions s.options callOptions).removeEmpty = false)
    (obj : List (String × Val)) (es : List Err) (val : Val) (st st2 : Store)
    (hx : validateS h eng s obj callOptions st = (.ok (.result true es val), st2)) :
    es = [] ∧ st2 = st ∧ ∃ R, val = .obj .plain R
      ∧ ∀ st3, validateS h eng s R callOptions st3
          = (.ok (.result true [] (.obj .plain R)), st3) := by
  rw [validateS_eq h eng s hs hc obj callOptions st] at hx
  injection hx with hv hst2
  have hvo := valid_result_not_valueOnly h s obj callOptions es val hv
  obtain ⟨hes, R, hR, hrun⟩ := validate_rerun h s callOptions hcond hst.1 hre hvo
    (fun f hf c hsel => settled_idempotent c (selected_settled h s hc hst f hf c hsel))
    obj es val hv
  refine ⟨hes, hst2.symm, R, hR, fun st3 => ?_⟩
  rw [validateS_eq h eng s hs hc R callOptions st3, hrun]

/-- The constructor builds the instance `nestedSchema` used in the witness of
C32. -/
theorem create_nested_schema :
    Schema.create exampleHost
        [("n", .obj .plain [("type", .str "number"), ("coerce", .bool true)]),
         ("tags", .obj .plain [("type", .str "array"),
            ("items", .obj .plain [("type", .str "number"), ("coerce", .bool true)])]),
         ("who", .obj .plain [("type", .str "object"),
            ("properties", .obj .plain [("name", .str "string")])])] {}
      = .ok nestedSchema := rfl

set_option maxHeartbeats 4000000 in
/-- Witness for C32: the instance `nestedSchema` on the input
`{ n: '5', tags: ['1', 2], who: { name: 'x', extra: 1 }, more: '' }`, with the
pattern state in which `/a/g` was left at index `1`: the normalised value
`{ n: 5, tags: [1, 2], who: { name: 'x', extra: 1 }, more: '' }` is valid
again. -/
theorem revalidate_stable_witness :
    validateS exampleHost exampleEngine nestedSchema
        [("n", .str "5"), ("tags", .arr [.str "1", .num 2]),
         ("who", .obj .plain [("name", .str "x"), ("extra", .num 1)]), ("more", .str "")] {}
        [(globalPattern, 1)]
      = (.ok (.result true []
          (.obj .plain [("n", .num 5), ("tags", .arr [.num 1, .num 2]),
            ("who", .obj .plain [("name", .str "x"), ("extra", .num 1)]), ("more", .str "")])),
        [(globalPattern, 1)])
    ∧ validateS exampleHost exampleEngine nestedSchema
        [("n", .num 5), ("tags", .arr [.num 1, .num 2]),
         ("who", .obj .plain [("name", .str "x"), ("extra", .num 1)]), ("more", .str "")] {} []
      = (.ok (.result true []
          (.obj .plain [("n", .num 5), ("tags", .arr [.num 1, .num 2]),
            ("who", .obj .plain [("name", .str "x"), ("extra", .num 1)]), ("more", .str "")])),
        []) := by
  have h1 : validateS exampleHost exampleEngine nestedSchema
        [("n", .str "5"), ("tags", .arr [.str "1", .num 2]),
         ("who", .obj .plain [("name", .str "x"), ("extra", .num 1)]), ("more", .str "")] {}
        [(globalPattern, 1)]
      = (.ok (.result true []
          (.obj .plain [("n", .num 5), ("tags", .arr [.num 1, .num 2]),
            ("who", .obj .plain [("name", .str "x"), ("extra", .num 1)]), ("more", .str "")])),
        [(globalPattern, 1)]) := by decide
  have hs : StatelessPatterns nestedSchema := by
    refine ⟨?_, rfl, rfl, by decide, ?_⟩
    · intro f hf
      simp only [nestedSchema, plainSchema, List.mem_cons, List.mem_singleton,
        List.not_mem_nil, or_false] at hf
      rcases hf with hf | hf | hf <;> subst hf <;> decide
    · intro rule hr
      cases hr
  have hc : CompiledFromEntries exampleHost nestedSchema :=
    create_compiledFromEntries exampleHost _ {} nestedSchema create_nested_schema
  have hst : StableSchema exampleHost nestedSchema := by
    refine ⟨by decide, ?_, ?_⟩
    · intro f hf c _
      simp only [nestedSchema, plainSchema, List.mem_cons, List.mem_singleton,
        List.not_mem_nil, or_false] at hf
      rcases hf with hf | hf | hf <;> subst hf <;> decide
    · intro f hf name hn
      simp only [nestedSchema, plainSchema, List.mem_cons, List.mem_singleton,
        List.not_mem_nil, or_false] at hf
      rcases hf with hf | hf | hf <;> subst hf <;> simp [leafField] at hn
  obtain ⟨_, _, R, hR, hrun⟩ := revalidate_stable exampleHost exampleEngine nestedSchema {}
    hs hc hst rfl rfl _ _ _ _ _ h1
  injection hR with _ hR
  subst hR
  exact ⟨h1, hrun []⟩

end GentleSchema
